import Mathlib

/-!
# Device-tree overlay engine (`fdt_overlay.c`): embedding and verification

The blob is embedded as a tree: a node carries its name, its properties in
document order and its children in document order.  A node offset is the list
of child indices leading from the root to the node; a property offset is a
node offset together with the index of the property inside the node.

The overlay engine (`scripts/dtc-aosp/dtc/libfdt/fdt_overlay.c`) is translated
function by function.  The libfdt primitives it calls (`fdt_getprop`,
`fdt_setprop`, `fdt_add_subnode`, ...) live in files that are not part of the
sources at hand; each of them is modelled from the specification and says so
in its doc comment.

A function that mutates a blob returns a `Res`: the state it leaves behind
together with the error code, also on failure, because the drivers go on to
use the partially rewritten blobs (they stamp the magic word).
-/

set_option autoImplicit false

namespace Fdt

/-! ## Bytes, strings and numbers -/

/-- A byte string; every element is meant to be below 256. -/
abbrev Bytes := List Nat

/-- The bytes of a string literal (without a terminating NUL). -/
def str (s : String) : Bytes := s.toList.map Char.toNat

/-- The libfdt error codes (`FDT_ERR_*`); the C functions return them negated. -/
inductive FdtErr where
  | NOTFOUND | EXISTS | NOSPACE | BADOFFSET | BADPATH | BADPHANDLE | BADSTATE
  | TRUNCATED | BADMAGIC | BADVERSION | BADSTRUCTURE | BADLAYOUT | INTERNAL
  | BADNCELLS | BADVALUE | BADOVERLAY | NOPHANDLES
  deriving DecidableEq, Repr

/-- Outcome of a mutating function: the state left behind, and the error if
the function returned a negative code. -/
inductive Res (σ : Type) where
  | ok (s : σ)
  | err (e : FdtErr) (s : σ)
  deriving DecidableEq, Repr

/-- The state a mutating function leaves behind. -/
def Res.state {σ : Type} : Res σ → σ
  | .ok s => s
  | .err _ s => s

/-- The C return value: `none` stands for 0, `some e` for `-FDT_ERR_e`. -/
def Res.code {σ : Type} : Res σ → Option FdtErr
  | .ok _ => none
  | .err e _ => some e

/-- Transport the state of an outcome (used when a callee worked on a part of
the caller's state). -/
def Res.map {σ τ : Type} (f : σ → τ) : Res σ → Res τ
  | .ok s => .ok (f s)
  | .err e s => .err e (f s)

/-- Lift a primitive that either fails without touching the state or yields
the new state. -/
def Res.ofExcept {σ : Type} (old : σ) : Except FdtErr σ → Res σ
  | .ok s => .ok s
  | .error e => .err e old

/-- An outcome from a C return value and the state. -/
def Res.ofCode {σ : Type} (ret : Option FdtErr) (s : σ) : Res σ :=
  match ret with
  | none => .ok s
  | some e => .err e s

def UINT32_MAX : Nat := 0xFFFFFFFF
def ULONG_MAX : Nat := 2 ^ 64 - 1
def PATH_MAX : Nat := 4096
def FDT_MAGIC : Nat := 0xd00dfeed
def FDT_TAGSIZE : Nat := 4
def FDT_FIRST_SUPPORTED_VERSION : Nat := 0x02
def FDT_LAST_SUPPORTED_VERSION : Nat := 0x11

/-- The macro `FDT_TAGALIGN`: round up to a multiple of the tag size. -/
def FDT_TAGALIGN (x : Nat) : Nat := (x + (FDT_TAGSIZE - 1)) / FDT_TAGSIZE * FDT_TAGSIZE

/-- Decode a big-endian 32-bit value from the first four bytes (`fdt32_to_cpu`
of a loaded cell); missing bytes read as zero. -/
def fdt32_to_cpu (v : Bytes) : Nat :=
  (v.getD 0 0 % 256) * 2 ^ 24 + (v.getD 1 0 % 256) * 2 ^ 16 + (v.getD 2 0 % 256) * 2 ^ 8
    + v.getD 3 0 % 256

/-- Encode the low 32 bits of a number as four big-endian bytes (`cpu_to_fdt32`). -/
def cpu_to_fdt32 (x : Nat) : Bytes :=
  [x / 2 ^ 24 % 256, x / 2 ^ 16 % 256, x / 2 ^ 8 % 256, x % 256]

/-- Position of the first occurrence of byte `c` among the first `n` bytes
(`memchr`); `none` is the NULL result. -/
def memchr (s : Bytes) (c : Nat) (n : Nat) : Option Nat :=
  let i := (s.take n).indexOf c
  if i < (s.take n).length then some i else none

/-- Length of a C string: the bytes before the first NUL (`strlen`). -/
def strlen (s : Bytes) : Nat := s.indexOf 0

/-- The C string that starts at a pointer: the bytes before the first NUL. -/
def cstr (s : Bytes) : Bytes := s.take (strlen s)

/-- The comparison `strncmp(s, lit, n) == 0` against a NUL-free literal of `n`
bytes: the first `n` bytes of `s` are the literal. -/
def strncmp_eq (s lit : Bytes) (n : Nat) : Bool := decide (s.take n = lit.take n ∧ n ≤ s.length)

def isspace (c : Nat) : Bool := decide (c = 32 ∨ (9 ≤ c ∧ c ≤ 13))
def isdigit (c : Nat) : Bool := decide (48 ≤ c ∧ c ≤ 57)

/-- Accumulate decimal digits the way `strtoul` does: the value saturates at
`ULONG_MAX` once it overflows.  Returns the value and the rest of the input. -/
def strtoul_digits : Bytes → Nat → Bool → Nat × Bool × Bytes
  | [], acc, ovf => (acc, ovf, [])
  | c :: cs, acc, ovf =>
    if isdigit c then
      let acc1 := acc * 10 + (c - 48)
      if ovf || decide (acc1 > ULONG_MAX) then strtoul_digits cs ULONG_MAX true
      else strtoul_digits cs acc1 false
    else (acc, ovf, c :: cs)

/-- The C library call `strtoul(s, &endptr, 10)` for a 64-bit `unsigned long`:
leading white space and one optional sign are skipped; with no digit nothing is
consumed.  Returns the value and `endptr - s`. -/
def strtoul (s : Bytes) : Nat × Nat :=
  let s1 := s.dropWhile isspace
  let neg := decide (s1.head? = some 45)
  let s2 := if s1.head? = some 45 ∨ s1.head? = some 43 then s1.drop 1 else s1
  match s2 with
  | [] => (0, 0)
  | c :: _ =>
    if isdigit c then
      let r := strtoul_digits s2 0 false
      let v := if r.2.1 then ULONG_MAX else if neg then (2 ^ 64 - r.1) % 2 ^ 64 else r.1
      (v, s.length - r.2.2.length)
    else (0, 0)

/-- Decimal digits of a number, most significant first, with `fuel` bounding
the number of digits. -/
def decimal_digits : Nat → Nat → Bytes → Bytes
  | 0, _, acc => acc
  | fuel + 1, n, acc =>
    if n < 10 then (48 + n) :: acc else decimal_digits fuel (n / 10) ((48 + n % 10) :: acc)

/-- What `snprintf(.., "%lu", n)` prints. -/
def decimal (n : Nat) : Bytes := decimal_digits (n + 1) n []

/-! ## The tree -/

/-- A node of the device tree. -/
inductive Node where
  | mk (name : Bytes) (props : List (Bytes × Bytes)) (children : List Node)
  deriving Repr

instance : Inhabited Node := ⟨.mk [] [] []⟩

def Node.name : Node → Bytes
  | .mk n _ _ => n

def Node.props : Node → List (Bytes × Bytes)
  | .mk _ p _ => p

def Node.children : Node → List Node
  | .mk _ _ c => c

mutual
/-- Equality of nodes is decidable. -/
def Node.decEq : (a b : Node) → Decidable (a = b)
  | .mk n1 p1 c1, .mk n2 p2 c2 =>
    if h1 : n1 = n2 then
      if h2 : p1 = p2 then
        match Node.decEqList c1 c2 with
        | isTrue h3 => isTrue (by rw [h1, h2, h3])
        | isFalse h3 => isFalse (by intro h; injection h; contradiction)
      else isFalse (by intro h; injection h; contradiction)
    else isFalse (by intro h; injection h; contradiction)
/-- Equality of lists of nodes is decidable. -/
def Node.decEqList : (a b : List Node) → Decidable (a = b)
  | [], [] => isTrue rfl
  | [], _ :: _ => isFalse (by intro h; cases h)
  | _ :: _, [] => isFalse (by intro h; cases h)
  | a :: as, b :: bs =>
    match Node.decEq a b with
    | isTrue h1 =>
      match Node.decEqList as bs with
      | isTrue h2 => isTrue (by rw [h1, h2])
      | isFalse h2 => isFalse (by intro h; injection h; contradiction)
    | isFalse h1 => isFalse (by intro h; injection h; contradiction)
end

instance : DecidableEq Node := Node.decEq

/-- A node offset: the child indices from the root down to the node. -/
abbrev Offset := List Nat

/-- The node at an offset, if the offset is valid. -/
def Node.get? : Node → Offset → Option Node
  | n, [] => some n
  | .mk _ _ cs, i :: rest =>
    match cs[i]? with
    | none => none
    | some c => c.get? rest

/-- Replace the node at an offset by its image under `f`; an invalid offset
leaves the tree as it is. -/
def Node.modifyAt (f : Node → Node) : Node → Offset → Node
  | n, [] => f n
  | .mk nm ps cs, i :: rest =>
    match cs[i]? with
    | none => .mk nm ps cs
    | some c => .mk nm ps (cs.set i (c.modifyAt f rest))

/-- A blob: the header fields the engine looks at, the free space left in the
buffer after the blocks, and the tree. -/
structure Blob where
  magic : Nat
  version : Nat
  last_comp_version : Nat
  free : Nat
  root : Node
  deriving DecidableEq, Repr

/-- Rewrite the node at an offset. -/
def Blob.update (fdt : Blob) (nodeoffset : Offset) (f : Node → Node) : Blob :=
  { fdt with root := fdt.root.modifyAt f nodeoffset }

/-! ## libfdt primitives

The read-only and read-write primitives of libfdt are not among the sources at
hand; they are modelled from section 4.A of the specification. -/

/-- First property called `name`, if any. -/
def prop_lookup (name : Bytes) : List (Bytes × Bytes) → Option Bytes
  | [] => none
  | p :: ps => if p.1 = name then some p.2 else prop_lookup name ps

/-- Give the first property called `name` the value `val`. -/
def prop_replace (name val : Bytes) : List (Bytes × Bytes) → List (Bytes × Bytes)
  | [] => []
  | p :: ps => if p.1 = name then (p.1, val) :: ps else p :: prop_replace name val ps

/-- Remove the first property called `name`. -/
def prop_erase (name : Bytes) : List (Bytes × Bytes) → List (Bytes × Bytes)
  | [] => []
  | p :: ps => if p.1 = name then ps else p :: prop_erase name ps

/-- Index of the first child called `name`, if any. -/
def child_index (name : Bytes) : List Node → Option Nat
  | [] => none
  | c :: cs => if c.name = name then some 0 else (child_index name cs).map (· + 1)

/-- Overwrite `data.length` bytes of `v` starting at byte `idx` (a `memcpy`
into a property value); the caller guarantees `idx + data.length ≤ v.length`. -/
def write_at (v : Bytes) (idx : Nat) (data : Bytes) : Bytes :=
  v.take idx ++ data ++ v.drop (idx + data.length)

def Node.set_props (ps : List (Bytes × Bytes)) : Node → Node
  | .mk nm _ cs => .mk nm ps cs

def Node.set_name (nm : Bytes) : Node → Node
  | .mk _ ps cs => .mk nm ps cs

def Node.set_children (cs : List Node) : Node → Node
  | .mk nm ps _ => .mk nm ps cs

/-- Modelled from the spec: `fdt_ro_probe_` / `FDT_RO_PROBE` / `fdt_check_header`
(libfdt's `fdt.c`, not among the sources): the header check every entry point
starts with.  A blob whose magic word is not the FDT magic is rejected with
`BADMAGIC` ("a subsequent attempt to use a damaged blob will fail immediately
at the header check"), an unsupported version with `BADVERSION`. -/
def fdt_ro_probe_ (fdt : Blob) : Option FdtErr :=
  if fdt.magic = FDT_MAGIC then
    if fdt.version < FDT_FIRST_SUPPORTED_VERSION then some .BADVERSION
    else if fdt.last_comp_version > FDT_LAST_SUPPORTED_VERSION then some .BADVERSION
    else none
  else some .BADMAGIC

/-- Modelled from the spec: `fdt_set_magic` (libfdt header accessor, not among
the sources): overwrite the magic word of the header. -/
def fdt_set_magic (fdt : Blob) (m : Nat) : Blob := { fdt with magic := m % 2 ^ 32 }

/-- Modelled from the spec: `fdt_splice_struct_` (libfdt's `fdt_rw.c`, not among
the sources): "operations that change the structure-block length require the
blob to have headroom, or they fail with NOSPACE".  A stretch of `oldlen`
bytes of the structure block becomes `newlen` bytes. -/
def fdt_splice_struct_ (fdt : Blob) (oldlen newlen : Nat) : Except FdtErr Blob :=
  if fdt.free + oldlen < newlen then .error .NOSPACE
  else .ok { fdt with free := fdt.free + oldlen - newlen }

/-- Modelled from the spec: `fdt_get_name` (not among the sources): the name of
the node at an offset. -/
def fdt_get_name (fdt : Blob) (nodeoffset : Offset) : Except FdtErr Bytes :=
  match fdt.root.get? nodeoffset with
  | none => .error .BADOFFSET
  | some n => .ok n.name

/-- Modelled from the spec: `fdt_getprop` (not among the sources): "look up a
property by name"; the first property of that name, `NOTFOUND` if there is
none. -/
def fdt_getprop (fdt : Blob) (nodeoffset : Offset) (name : Bytes) : Except FdtErr Bytes :=
  match fdt.root.get? nodeoffset with
  | none => .error .BADOFFSET
  | some n =>
    match prop_lookup name n.props with
    | none => .error .NOTFOUND
    | some v => .ok v

/-- Modelled from the spec: `fdt_getprop_by_offset` (not among the sources):
name and value of the property at a property offset. -/
def fdt_getprop_by_offset (fdt : Blob) (nodeoffset : Offset) (property : Nat) :
    Except FdtErr (Bytes × Bytes) :=
  match fdt.root.get? nodeoffset with
  | none => .error .BADOFFSET
  | some n =>
    match n.props[property]? with
    | none => .error .BADOFFSET
    | some p => .ok p

/-- Number of properties of the node at an offset: the property offsets of
the node are `0 .. fdt_num_props - 1` (`fdt_first_property_offset`,
`fdt_next_property_offset`). -/
def fdt_num_props (fdt : Blob) (nodeoffset : Offset) : Nat :=
  match fdt.root.get? nodeoffset with
  | none => 0
  | some n => n.props.length

/-- Modelled from the spec: `fdt_subnode_offset_namelen` / `fdt_subnode_offset`
(not among the sources): "look up a child by name"; the first child of that
name, `NOTFOUND` if there is none. -/
def fdt_subnode_offset (fdt : Blob) (parentoffset : Offset) (name : Bytes) :
    Except FdtErr Offset :=
  match fdt.root.get? parentoffset with
  | none => .error .BADOFFSET
  | some n =>
    match child_index name n.children with
    | none => .error .NOTFOUND
    | some i => .ok (parentoffset ++ [i])

/-- Split a byte string at every occurrence of `c`. -/
def split_on (c : Nat) : Bytes → List Bytes
  | [] => [[]]
  | x :: xs =>
    if x = c then [] :: split_on c xs
    else
      match split_on c xs with
      | [] => [[x]]
      | w :: ws => (x :: w) :: ws

/-- Descend from an offset along a list of node names. -/
def fdt_walk (fdt : Blob) : Offset → List Bytes → Except FdtErr Offset
  | off, [] => .ok off
  | off, nm :: rest =>
    match fdt_subnode_offset fdt off nm with
    | .error e => .error e
    | .ok child => fdt_walk fdt child rest

/-- Modelled from the spec: `fdt_path_offset_namelen` (not among the sources):
"resolve a path string to a node offset".  The path is the first `namelen`
bytes at `path`; it is split at `/`, empty components are skipped and each
component is looked up among the children.  A path that does not start with
`/` names an alias; aliases are not modelled, such a path is `BADPATH`. -/
def fdt_path_offset_namelen (fdt : Blob) (path : Bytes) (namelen : Nat) :
    Except FdtErr Offset :=
  if path.head? = some 47 then
    fdt_walk fdt [] ((split_on 47 (path.take namelen)).filter (fun w => decide (w ≠ [])))
  else .error .BADPATH

/-- Modelled from the spec: `fdt_path_offset` (not among the sources): the path
is a C string. -/
def fdt_path_offset (fdt : Blob) (path : Bytes) : Except FdtErr Offset :=
  fdt_path_offset_namelen fdt path (strlen path)

/-- The phandle stored in a list of properties: `phandle` if it is one cell,
else `linux,phandle` if it is one cell, else 0. -/
def props_phandle (ps : List (Bytes × Bytes)) : Nat :=
  match prop_lookup (str "phandle") ps with
  | some v => if v.length = 4 then fdt32_to_cpu v else
    match prop_lookup (str "linux,phandle") ps with
    | some w => if w.length = 4 then fdt32_to_cpu w else 0
    | none => 0
  | none =>
    match prop_lookup (str "linux,phandle") ps with
    | some w => if w.length = 4 then fdt32_to_cpu w else 0
    | none => 0

/-- Modelled from the spec: `fdt_get_phandle` (not among the sources): the
identifier "assigned to a node via its `phandle` or `linux,phandle` property",
0 when the node has none. -/
def fdt_get_phandle (fdt : Blob) (nodeoffset : Offset) : Nat :=
  match fdt.root.get? nodeoffset with
  | none => 0
  | some n => props_phandle n.props

mutual
/-- First node, in document order, whose phandle is `ph`. -/
def Node.find_phandle (ph : Nat) : Node → Option Offset
  | .mk _ ps cs => if props_phandle ps = ph then some [] else Node.find_phandle_list ph cs 0
/-- Search the children from index `i` on. -/
def Node.find_phandle_list (ph : Nat) : List Node → Nat → Option Offset
  | [], _ => none
  | c :: cs, i =>
    match Node.find_phandle ph c with
    | some p => some (i :: p)
    | none => Node.find_phandle_list ph cs (i + 1)
end

/-- Modelled from the spec: `fdt_node_offset_by_phandle` (not among the
sources): "resolve a phandle to a node offset"; "phandle-to-node resolution
returns NOT_FOUND for zero or the all-ones sentinel". -/
def fdt_node_offset_by_phandle (fdt : Blob) (phandle : Nat) : Except FdtErr Offset :=
  if phandle = 0 ∨ phandle = UINT32_MAX then .error .NOTFOUND
  else
    match fdt.root.find_phandle phandle with
    | none => .error .NOTFOUND
    | some off => .ok off

mutual
/-- Largest phandle in a subtree. -/
def Node.max_phandle : Node → Nat
  | .mk _ ps cs => max (props_phandle ps) (Node.max_phandle_list cs)
/-- Largest phandle in a list of subtrees. -/
def Node.max_phandle_list : List Node → Nat
  | [] => 0
  | c :: cs => max (Node.max_phandle c) (Node.max_phandle_list cs)
end

/-- Modelled from the spec: `fdt_find_max_phandle` (not among the sources): the
"maximum phandle present in base".  In the tree model the walk cannot fail. -/
def fdt_find_max_phandle (fdt : Blob) : Except FdtErr Nat := .ok fdt.root.max_phandle

/-- Modelled from the spec: `fdt_get_max_phandle` (not among the sources): the
maximum phandle, or the all-ones value when the walk fails. -/
def fdt_get_max_phandle (fdt : Blob) : Nat :=
  match fdt_find_max_phandle fdt with
  | .ok m => m
  | .error _ => UINT32_MAX

/-- Modelled from the spec: `fdt_setprop_inplace_namelen_partial` (not among
the sources), on the node it is applied to: "set-in-place at a sub-offset
(partial write)".  The property must exist (`NOTFOUND`) and hold the slot
`idx .. idx + len` (`NOSPACE`). -/
def Node.setprop_inplace_namelen_partial (n : Node) (name : Bytes) (idx : Nat) (val : Bytes) :
    Except FdtErr Node :=
  match prop_lookup name n.props with
  | none => .error .NOTFOUND
  | some v =>
    if v.length < val.length + idx then .error .NOSPACE
    else .ok (n.set_props (prop_replace name (write_at v idx val) n.props))

/-- The partial write at a node offset of a blob. -/
def fdt_setprop_inplace_namelen_partial (fdt : Blob) (nodeoffset : Offset) (name : Bytes)
    (idx : Nat) (val : Bytes) : Except FdtErr Blob :=
  match fdt.root.get? nodeoffset with
  | none => .error .BADOFFSET
  | some n =>
    match Node.setprop_inplace_namelen_partial n name idx val with
    | .error e => .error e
    | .ok n1 => .ok (fdt.update nodeoffset (fun _ => n1))

/-- Modelled from the spec: `fdt_setprop_inplace_u32` (not among the sources),
on the node it is applied to: "set-in-place (same length)" of one big-endian
cell; a property of another length is `NOSPACE`. -/
def Node.setprop_inplace_u32 (n : Node) (name : Bytes) (val : Nat) : Except FdtErr Node :=
  match prop_lookup name n.props with
  | none => .error .NOTFOUND
  | some v =>
    if v.length ≠ 4 then .error .NOSPACE
    else Node.setprop_inplace_namelen_partial n name 0 (cpu_to_fdt32 val)

/-- Modelled from the spec: `fdt_setprop_placeholder` (not among the sources):
make room for a value of `len` bytes in property `name`, creating the property
(in front of the others) when the node has none of that name.  An existing
value keeps its first bytes; the bytes gained are zero until the caller writes
them.  Growth needs headroom (`NOSPACE`). -/
def fdt_setprop_placeholder (fdt : Blob) (nodeoffset : Offset) (name : Bytes) (len : Nat) :
    Except FdtErr Blob :=
  match fdt.root.get? nodeoffset with
  | none => .error .BADOFFSET
  | some n =>
    match prop_lookup name n.props with
    | some v =>
      match fdt_splice_struct_ fdt (FDT_TAGALIGN v.length) (FDT_TAGALIGN len) with
      | .error e => .error e
      | .ok fdt1 =>
        .ok (fdt1.update nodeoffset
              (fun m => m.set_props
                (prop_replace name (v.take len ++ List.replicate (len - v.length) 0) m.props)))
    | none =>
      match fdt_splice_struct_ fdt 0 (12 + FDT_TAGALIGN len) with
      | .error e => .error e
      | .ok fdt1 =>
        .ok (fdt1.update nodeoffset
              (fun m => m.set_props ((name, List.replicate len 0) :: m.props)))

/-- The `memcpy` of `data` into the value of property `name` at byte `idx`,
through the pointer a placeholder call handed out. -/
def prop_memcpy (fdt : Blob) (nodeoffset : Offset) (name : Bytes) (idx : Nat) (data : Bytes) :
    Blob :=
  (fdt.update nodeoffset
              (fun m => m.set_props
        (match prop_lookup name m.props with
         | none => m.props
         | some v => prop_replace name (write_at v idx data) m.props)))

/-- Modelled from the spec: `fdt_setprop` (not among the sources): "get/set
property value (full)": a placeholder of the right length, then the value is
copied in. -/
def fdt_setprop (fdt : Blob) (nodeoffset : Offset) (name val : Bytes) : Except FdtErr Blob :=
  match fdt_setprop_placeholder fdt nodeoffset name val.length with
  | .error e => .error e
  | .ok fdt1 => .ok (prop_memcpy fdt1 nodeoffset name 0 val)

/-- Modelled from the spec: `fdt_appendprop_u32` (not among the sources):
"append property": one big-endian cell is added at the end of the value; the
property is created when absent. -/
def fdt_appendprop_u32 (fdt : Blob) (nodeoffset : Offset) (name : Bytes) (val : Nat) :
    Except FdtErr Blob :=
  match fdt.root.get? nodeoffset with
  | none => .error .BADOFFSET
  | some n =>
    match prop_lookup name n.props with
    | some v =>
      match fdt_splice_struct_ fdt (FDT_TAGALIGN v.length) (FDT_TAGALIGN (v.length + 4)) with
      | .error e => .error e
      | .ok fdt1 =>
        .ok (fdt1.update nodeoffset
              (fun m => m.set_props (prop_replace name (v ++ cpu_to_fdt32 val) m.props)))
    | none =>
      match fdt_splice_struct_ fdt 0 (12 + FDT_TAGALIGN 4) with
      | .error e => .error e
      | .ok fdt1 =>
        .ok (fdt1.update nodeoffset
              (fun m => m.set_props ((name, cpu_to_fdt32 val) :: m.props)))

/-- Modelled from the spec: `fdt_delprop` (not among the sources): "delete
property"; `NOTFOUND` when the node has no property of that name. -/
def fdt_delprop (fdt : Blob) (nodeoffset : Offset) (name : Bytes) : Except FdtErr Blob :=
  match fdt.root.get? nodeoffset with
  | none => .error .BADOFFSET
  | some n =>
    match prop_lookup name n.props with
    | none => .error .NOTFOUND
    | some v =>
      match fdt_splice_struct_ fdt (12 + FDT_TAGALIGN v.length) 0 with
      | .error e => .error e
      | .ok fdt1 =>
        .ok (fdt1.update nodeoffset
              (fun m => m.set_props (prop_erase name m.props)))

/-- Modelled from the spec: `fdt_add_subnode` (not among the sources): "add
subnode": `EXISTS` when the parent has a child of that name; otherwise an
empty node is created as the first child (right after the parent's
properties), which needs headroom (`NOSPACE`).  Returns the new blob and the
offset of the new node. -/
def fdt_add_subnode (fdt : Blob) (parentoffset : Offset) (name : Bytes) :
    Except FdtErr (Blob × Offset) :=
  match fdt.root.get? parentoffset with
  | none => .error .BADOFFSET
  | some n =>
    match child_index name n.children with
    | some _ => .error .EXISTS
    | none =>
      match fdt_splice_struct_ fdt 0 (4 + FDT_TAGALIGN (name.length + 1) + FDT_TAGSIZE) with
      | .error e => .error e
      | .ok fdt1 =>
        .ok ((fdt1.update parentoffset
              (fun m => m.set_children (Node.mk name [] [] :: m.children))),
             parentoffset ++ [0])

/-- Modelled from the spec: `fdt_set_name` (not among the sources): "rename
node"; a longer name needs headroom (`NOSPACE`). -/
def fdt_set_name (fdt : Blob) (nodeoffset : Offset) (name : Bytes) : Except FdtErr Blob :=
  match fdt.root.get? nodeoffset with
  | none => .error .BADOFFSET
  | some n =>
    match fdt_splice_struct_ fdt (FDT_TAGALIGN (n.name.length + 1))
        (FDT_TAGALIGN (name.length + 1)) with
    | .error e => .error e
    | .ok fdt1 =>
      .ok (fdt1.update nodeoffset (fun m => m.set_name name))

/-- Names of the nodes on the way from the root (excluded) to an offset. -/
def Node.path_names : Node → Offset → Option (List Bytes)
  | _, [] => some []
  | .mk _ _ cs, i :: rest =>
    match cs[i]? with
    | none => none
    | some c =>
      match c.path_names rest with
      | none => none
      | some l => some (c.name :: l)

/-- Modelled from the spec: `fdt_get_path` (not among the sources): "compute a
node's absolute path" into a buffer of `buflen` bytes; the path of the root is
`/`.  `NOSPACE` when the path and its NUL do not fit. -/
def fdt_get_path (fdt : Blob) (nodeoffset : Offset) (buflen : Nat) : Except FdtErr Bytes :=
  match fdt.root.path_names nodeoffset with
  | none => .error .BADOFFSET
  | some names =>
    let p := if names = [] then [47] else (names.map (fun nm => 47 :: nm)).flatten
    if buflen < p.length + 1 then .error .NOSPACE else .ok p

/-! ## The overlay engine (`fdt_overlay.c`)

Conventions of the translation.  A node of the read-only overlay is handed
over as the subtree found at its offset.  A walk that rewrites a blob in place
without changing its shape (`overlay_adjust_node_phandles`,
`overlay_update_local_node_references`) maps the subtree at the node offset
to the outcome for that subtree.  A node of a blob that is being reshaped is
handed over as an offset into the current state of that blob. -/

/-- The function `overlay_get_target_phandle` (lines 29-42): the `target`
property of a fragment; 0 when absent, all-ones when malformed. -/
def overlay_get_target_phandle (fragment : Node) : Nat :=
  match prop_lookup (str "target") fragment.props with
  | none => 0
  | some val =>
    if val.length ≠ 4 ∨ fdt32_to_cpu val = UINT32_MAX then UINT32_MAX
    else fdt32_to_cpu val

/-- The function `fdt_overlay_target_offset` (lines 44-86).  Returns the offset
of the target in `fdt` and the `*pathp` out-parameter (the `target-path`
string when the lookup went by path). -/
def fdt_overlay_target_offset (fdt : Blob) (fragment : Node) :
    Except FdtErr (Offset × Option Bytes) :=
  let phandle := overlay_get_target_phandle fragment
  if phandle = UINT32_MAX then .error .BADPHANDLE
  else if phandle = 0 then
    match prop_lookup (str "target-path") fragment.props with
    | some path =>
      match fdt_path_offset fdt path with
      | .error e => .error e
      | .ok ret => .ok (ret, some path)
    | none => .error .BADOVERLAY
  else
    match fdt_node_offset_by_phandle fdt phandle with
    | .error e => .error e
    | .ok ret => .ok (ret, none)

/-- The function `overlay_phandle_add_offset` (lines 102-125), on the node it
is applied to; `delta` is a `uint32_t`. -/
def overlay_phandle_add_offset (node : Node) (name : Bytes) (delta : Nat) : Res Node :=
  match prop_lookup name node.props with
  | none => .err .NOTFOUND node
  | some val =>
    if val.length ≠ 4 then .err .BADPHANDLE node
    else
      let adj_val := fdt32_to_cpu val
      if (adj_val + delta) % 2 ^ 32 < adj_val then .err .NOPHANDLES node
      else
        let adj_val := (adj_val + delta) % 2 ^ 32
        if adj_val = UINT32_MAX then .err .NOPHANDLES node
        else Res.ofExcept node (Node.setprop_inplace_u32 node name adj_val)

/-- The two calls that open `overlay_adjust_node_phandles` (lines 148-154):
`phandle`, then `linux,phandle`; `NOTFOUND` is not an error. -/
def overlay_adjust_own_phandles (node : Node) (delta : Nat) : Res Node :=
  match overlay_phandle_add_offset node (str "phandle") delta with
  | .err e s =>
    if e ≠ .NOTFOUND then .err e s
    else
      match overlay_phandle_add_offset s (str "linux,phandle") delta with
      | .err e1 s1 => if e1 ≠ .NOTFOUND then .err e1 s1 else .ok s1
      | .ok s1 => .ok s1
  | .ok s =>
    match overlay_phandle_add_offset s (str "linux,phandle") delta with
    | .err e1 s1 => if e1 ≠ .NOTFOUND then .err e1 s1 else .ok s1
    | .ok s1 => .ok s1

mutual
/-- The function `overlay_adjust_node_phandles` (lines 142-163). -/
def overlay_adjust_node_phandles (delta : Nat) : Node → Res Node
  | .mk nm ps cs =>
    match overlay_adjust_own_phandles (.mk nm ps cs) delta with
    | .err e s => .err e s
    | .ok s => (overlay_adjust_subnodes delta cs).map (fun cs1 => s.set_children cs1)
/-- The loop `fdt_for_each_subnode` of `overlay_adjust_node_phandles`. -/
def overlay_adjust_subnodes (delta : Nat) : List Node → Res (List Node)
  | [] => .ok []
  | child :: rest =>
    match overlay_adjust_node_phandles delta child with
    | .err e s => .err e (s :: rest)
    | .ok s => (overlay_adjust_subnodes delta rest).map (fun rest1 => s :: rest1)
end

/-- The function `overlay_adjust_local_phandles` (lines 179-185). -/
def overlay_adjust_local_phandles (fdto : Blob) (delta : Nat) : Res Blob :=
  (overlay_adjust_node_phandles delta fdto.root).map (fun r => { fdto with root := r })

/-- The inner loop of `overlay_update_local_node_references` (lines 240-268):
for each cell of the fixup value, add `delta` to the 32-bit slot of the tree
property at the offset the cell gives.  Line 252 copies four bytes from
`tree_val + poffset` before anything has compared `poffset` with the length of
the property (the only range check is the one inside the write of line 256);
`none` stands for a copy that leaves the value of the property: what is read
there, and whether the call returns at all, is not fixed by the source. -/
def overlay_update_local_cells (tree_node : Node) (name : Bytes) (delta : Nat) :
    List Nat → Option (Res Node)
  | [] => some (.ok tree_node)
  | poffset :: rest =>
    match prop_lookup name tree_node.props with
    | none => some (.err .NOTFOUND tree_node)
    | some tree_val =>
      if tree_val.length < poffset + 4 then none
      else
        let adj_val := cpu_to_fdt32 ((fdt32_to_cpu (tree_val.drop poffset) + delta) % 2 ^ 32)
        match Node.setprop_inplace_namelen_partial tree_node name poffset adj_val with
        | .error e =>
          if e = .NOSPACE then some (.err .BADOVERLAY tree_node) else some (.err e tree_node)
        | .ok t1 => overlay_update_local_cells t1 name delta rest

/-- The cells `fixup_val[0 .. n-1]` of a fixup property, decoded. -/
def fixup_cells : Nat → Bytes → List Nat
  | 0, _ => []
  | n + 1, v => fdt32_to_cpu v :: fixup_cells n (v.drop 4)

/-- The loop `fdt_for_each_property_offset` of
`overlay_update_local_node_references` (lines 215-269). -/
def overlay_update_local_props (tree_node : Node) (delta : Nat) :
    List (Bytes × Bytes) → Option (Res Node)
  | [] => some (.ok tree_node)
  | fixup_prop :: rest =>
    if fixup_prop.2.length % 4 ≠ 0 then some (.err .BADOVERLAY tree_node)
    else
      match prop_lookup fixup_prop.1 tree_node.props with
      | none => some (.err .BADOVERLAY tree_node)
      | some _ =>
        match overlay_update_local_cells tree_node fixup_prop.1 delta
            (fixup_cells (fixup_prop.2.length / 4) fixup_prop.2) with
        | none => none
        | some (.err e s) => some (.err e s)
        | some (.ok t1) => overlay_update_local_props t1 delta rest

mutual
/-- The function `overlay_update_local_node_references` (lines 206-292).  The
mirror node `fixup_node` is handed over as it stood when the walk started,
while the code reads its names and cells from the blob it is rewriting: the
two agree as long as no slot the mirror names lies inside the mirror itself,
which the statements about this walk assume (`local_fixups_apart`). -/
def overlay_update_local_node_references (delta : Nat) : Node → Node → Option (Res Node)
  | .mk _ fps fcs, tree_node =>
    match overlay_update_local_props tree_node delta fps with
    | none => none
    | some (.err e s) => some (.err e s)
    | some (.ok t1) => overlay_update_local_subnodes delta fcs t1
/-- The loop `fdt_for_each_subnode` of `overlay_update_local_node_references`
(lines 271-289). -/
def overlay_update_local_subnodes (delta : Nat) : List Node → Node → Option (Res Node)
  | [], tree_node => some (.ok tree_node)
  | fixup_child :: rest, tree_node =>
    match child_index fixup_child.name tree_node.children with
    | none => some (.err .BADOVERLAY tree_node)
    | some i =>
      match tree_node.children[i]? with
      | none => some (.err .BADOFFSET tree_node)
      | some tree_child =>
        match overlay_update_local_node_references delta fixup_child tree_child with
        | none => none
        | some (.err e s) => some (.err e (tree_node.set_children (tree_node.children.set i s)))
        | some (.ok s) =>
          overlay_update_local_subnodes delta rest
            (tree_node.set_children (tree_node.children.set i s))
end

/-- The function `overlay_update_local_references` (lines 311-329); `none` as
in `overlay_update_local_cells`. -/
def overlay_update_local_references (fdto : Blob) (delta : Nat) : Option (Res Blob) :=
  match fdt_path_offset fdto (str "/__local_fixups__") with
  | .error e => if e = .NOTFOUND then some (.ok fdto) else some (.err e fdto)
  | .ok fixups =>
    match fdto.root.get? fixups with
    | none => some (.err .BADOFFSET fdto)
    | some fixup_node =>
      (overlay_update_local_node_references delta fixup_node fdto.root).map
        (fun r => r.map (fun root => { fdto with root := root }))

/-- The overlay has no node `/__local_fixups__/__local_fixups__`: no entry of
the mirror stands for a slot that lies inside the mirror itself, so that the
walk of `overlay_update_local_references` never rewrites a cell or a name it
still has to read. -/
def local_fixups_apart (fdto : Blob) : Bool :=
  match fdt_path_offset fdto (str "/__local_fixups__/__local_fixups__") with
  | .ok _ => false
  | .error _ => true

/-- The inner loop of `overlay_update_local_cells` with the copy of line 252
taken to read zero bytes past the end of the value; it is the same loop
wherever that copy stays inside the value (`local_cells_walk`), and serves to
trace the walk in the proofs. -/
def walk_local_cells (tree_node : Node) (name : Bytes) (delta : Nat) :
    List Nat → Res Node
  | [] => .ok tree_node
  | poffset :: rest =>
    match prop_lookup name tree_node.props with
    | none => .err .NOTFOUND tree_node
    | some tree_val =>
      let adj_val := cpu_to_fdt32 ((fdt32_to_cpu (tree_val.drop poffset) + delta) % 2 ^ 32)
      match Node.setprop_inplace_namelen_partial tree_node name poffset adj_val with
      | .error e => if e = .NOSPACE then .err .BADOVERLAY tree_node else .err e tree_node
      | .ok t1 => walk_local_cells t1 name delta rest

/-- The loop of `overlay_update_local_props` over `walk_local_cells`. -/
def walk_local_props (tree_node : Node) (delta : Nat) :
    List (Bytes × Bytes) → Res Node
  | [] => .ok tree_node
  | fixup_prop :: rest =>
    if fixup_prop.2.length % 4 ≠ 0 then .err .BADOVERLAY tree_node
    else
      match prop_lookup fixup_prop.1 tree_node.props with
      | none => .err .BADOVERLAY tree_node
      | some _ =>
        match walk_local_cells tree_node fixup_prop.1 delta
            (fixup_cells (fixup_prop.2.length / 4) fixup_prop.2) with
        | .err e s => .err e s
        | .ok t1 => walk_local_props t1 delta rest

mutual
/-- The walk of `overlay_update_local_node_references` over
`walk_local_props`. -/
def walk_local_node (delta : Nat) : Node → Node → Res Node
  | .mk _ fps fcs, tree_node =>
    match walk_local_props tree_node delta fps with
    | .err e s => .err e s
    | .ok t1 => walk_local_subnodes delta fcs t1
/-- The loop of `overlay_update_local_subnodes` over `walk_local_node`. -/
def walk_local_subnodes (delta : Nat) : List Node → Node → Res Node
  | [], tree_node => .ok tree_node
  | fixup_child :: rest, tree_node =>
    match child_index fixup_child.name tree_node.children with
    | none => .err .BADOVERLAY tree_node
    | some i =>
      match tree_node.children[i]? with
      | none => .err .BADOFFSET tree_node
      | some tree_child =>
        match walk_local_node delta fixup_child tree_child with
        | .err e s => .err e (tree_node.set_children (tree_node.children.set i s))
        | .ok s =>
          walk_local_subnodes delta rest
            (tree_node.set_children (tree_node.children.set i s))
end

/-- The walk of `overlay_update_local_references` over `walk_local_node`. -/
def walk_local_references (fdto : Blob) (delta : Nat) : Res Blob :=
  match fdt_path_offset fdto (str "/__local_fixups__") with
  | .error e => if e = .NOTFOUND then .ok fdto else .err e fdto
  | .ok fixups =>
    match fdto.root.get? fixups with
    | none => .err .BADOFFSET fdto
    | some fixup_node =>
      (walk_local_node delta fixup_node fdto.root).map
        (fun r => { fdto with root := r })

/-- Cut a buffer into its NUL-terminated strings (the successive
`memchr(value, 0, len)` of the fixup loops); the second component is what
follows the last NUL. -/
def cstrings_aux : Bytes → Bytes → List Bytes × Bytes
  | [], cur => ([], cur.reverse)
  | c :: cs, cur =>
    if c = 0 then ((cur.reverse :: (cstrings_aux cs []).1), (cstrings_aux cs []).2)
    else cstrings_aux cs (c :: cur)

/-- The NUL-terminated strings of a property value and the unterminated rest. -/
def cstrings (value : Bytes) : List Bytes × Bytes := cstrings_aux value []

/-- The function `overlay_fixup_one_phandle` (lines 354-393).  `symbols_off` is
the offset of `/__symbols__` in the base or the error of its lookup; `path` and
`name` point into the fixup string; `poffset` has been converted to the
`uint32_t` index of the partial write. -/
def overlay_fixup_one_phandle (fdt fdto : Blob) (symbols_off : Except FdtErr Offset)
    (path : Bytes) (path_len : Nat) (name : Bytes) (name_len : Nat) (poffset : Nat)
    (label : Bytes) : Res Blob :=
  match symbols_off with
  | .error e => .err e fdto
  | .ok symbols =>
    match fdt_getprop fdt symbols label with
    | .error e => .err e fdto
    | .ok symbol_path =>
      match fdt_path_offset fdt symbol_path with
      | .error e => .err e fdto
      | .ok symbol_off =>
        let phandle := fdt_get_phandle fdt symbol_off
        if phandle = 0 then .err .NOTFOUND fdto
        else
          match fdt_path_offset_namelen fdto path path_len with
          | .error e => if e = .NOTFOUND then .err .BADOVERLAY fdto else .err e fdto
          | .ok fixup_off =>
            Res.ofExcept fdto
              ( fdt_setprop_inplace_namelen_partial fdto fixup_off (name.take name_len) poffset
                (cpu_to_fdt32 phandle))

/-- Names of the nodes the inner `while (clen > 0)` loop of
`overlay_add_to_local_fixups` visits (lines 487-517): the `/`-separated
components of the path, an empty last component being dropped. -/
def local_fixup_path_nodes (c : Bytes) : List Bytes :=
  if (split_on 47 c).getLast? = some [] then (split_on 47 c).dropLast else split_on 47 c

/-- The inner `while (clen > 0)` loop of `overlay_add_to_local_fixups` (lines
487-517): create or find the chain of nodes below `nodeoffset`. -/
def overlay_local_fixup_nodes : List Bytes → Offset → Blob → Res (Blob × Offset)
  | [], nodeoffset, fdt => .ok (fdt, nodeoffset)
  | nodename :: rest, nodeoffset, fdt =>
    if nodename.length + 1 ≥ PATH_MAX then .err .BADSTRUCTURE (fdt, nodeoffset)
    else
      match fdt_add_subnode fdt nodeoffset nodename with
      | .ok (fdt1, childnode) => overlay_local_fixup_nodes rest childnode fdt1
      | .error e =>
        if e = .EXISTS then
          match fdt_subnode_offset fdt nodeoffset nodename with
          | .error e1 => .err e1 (fdt, nodeoffset)
          | .ok childnode => overlay_local_fixup_nodes rest childnode fdt
        else .err e (fdt, nodeoffset)

/-- One turn of the `while (len > 0)` loop of `overlay_add_to_local_fixups`
(lines 426-521) for the string `fixup_str`. -/
def overlay_add_string_to_local_fixups (fdt : Blob) (localfixup_off : Offset)
    (fixup_str : Bytes) : Res Blob :=
  match memchr fixup_str 58 fixup_str.length with
  | none => .err .BADOVERLAY fdt
  | some pathlen =>
    if pathlen = fixup_str.length - 1 then .err .BADOVERLAY fdt
    else
      let prop := fixup_str.drop (pathlen + 1)
      match memchr prop 58 (fixup_str.length - (pathlen + 1)) with
      | none => .err .BADOVERLAY fdt
      | some proplen =>
        if proplen ≥ PATH_MAX then .err .BADOVERLAY fdt
        else
          let c := if fixup_str.head? = some 47 then (fixup_str.take pathlen).drop 1
                   else fixup_str.take pathlen
          if memchr c 47 c.length = none ∧ proplen ≥ 6 ∧ strncmp_eq prop (str "target") 6 then
            .ok fdt
          else
            let propname := prop.take proplen
            let poffset := (strtoul (prop.drop (proplen + 1))).1 % 2 ^ 32
            match overlay_local_fixup_nodes (local_fixup_path_nodes c) localfixup_off fdt with
            | .err e st => .err e st.1
            | .ok st => Res.ofExcept st.1 (fdt_appendprop_u32 st.1 st.2 propname poffset)

/-- The `while (len > 0)` loop of `overlay_add_to_local_fixups` over the
strings of the value. -/
def overlay_add_strings_to_local_fixups (localfixup_off : Offset) : List Bytes → Blob → Res Blob
  | [], fdt => .ok fdt
  | fixup_str :: rest, fdt =>
    match overlay_add_string_to_local_fixups fdt localfixup_off fixup_str with
    | .err e st => .err e st
    | .ok st => overlay_add_strings_to_local_fixups localfixup_off rest st

/-- The head of `overlay_add_to_local_fixups` (lines 406-411): find
`/__local_fixups__` in the combined blob or create it. -/
def overlay_local_fixups_node (fdt : Blob) : Except FdtErr (Blob × Offset) :=
  match fdt_path_offset fdt (str "/__local_fixups__") with
  | .ok off => .ok (fdt, off)
  | .error e =>
    if e = .NOTFOUND then fdt_add_subnode fdt [] (str "__local_fixups__")
    else .error e

/-- The function `overlay_add_to_local_fixups` (lines 395-525). -/
def overlay_add_to_local_fixups (fdt : Blob) (value : Bytes) : Res Blob :=
  match overlay_local_fixups_node fdt with
  | .error e => .err e fdt
  | .ok (fdt1, localfixup_off) =>
    match overlay_add_strings_to_local_fixups localfixup_off (cstrings value).1 fdt1 with
    | .err e st => .err e st
    | .ok st => if (cstrings value).2 ≠ [] then .err .BADOVERLAY st else .ok st

/-- One turn of the `do ... while (len > 0)` loop of `overlay_fixup_phandle`
(lines 582-609) for the string `fixup_str`. -/
def overlay_fixup_string (fdt fdto : Blob) (symbols_off : Except FdtErr Offset)
    (label fixup_str : Bytes) : Res Blob :=
  match memchr fixup_str 58 fixup_str.length with
  | none => .err .BADOVERLAY fdto
  | some path_len =>
    if path_len = fixup_str.length - 1 then .err .BADOVERLAY fdto
    else
      let name := fixup_str.drop (path_len + 1)
      match memchr name 58 (fixup_str.length - (path_len + 1)) with
      | none => .err .BADOVERLAY fdto
      | some name_len =>
        if name_len = 0 then .err .BADOVERLAY fdto
        else
          let num := name.drop (name_len + 1)
          if (strtoul num).2 < num.length ∨ (strtoul num).2 = 0 then .err .BADOVERLAY fdto
          else
            overlay_fixup_one_phandle fdt fdto symbols_off fixup_str path_len name name_len
              ((strtoul num).1 % 2 ^ 32) label

/-- The `do ... while (len > 0)` loop of `overlay_fixup_phandle` over the
strings of the value. -/
def overlay_fixup_strings (fdt : Blob) (symbols_off : Except FdtErr Offset) (label : Bytes) :
    List Bytes → Blob → Res Blob
  | [], fdto => .ok fdto
  | fixup_str :: rest, fdto =>
    match overlay_fixup_string fdt fdto symbols_off label fixup_str with
    | .err e st => .err e st
    | .ok st => overlay_fixup_strings fdt symbols_off label rest st

/-- The function `overlay_fixup_phandle` (lines 548-642).  The state is the
pair (base, overlay).  An empty value fails in the first turn of the loop (no
NUL is found); bytes after the last NUL fail in the turn that reaches them.
The value is cut into its strings once, while the code reads each string, and
the value it hands to `overlay_add_to_local_fixups`, from the overlay it is
rewriting: the two agree as long as no string that resolves names a slot of
the node `/__fixups__` itself, which the statements about this function
assume (`fixups_apart`). -/
def overlay_fixup_phandle (fdt fdto : Blob) (symbols_off : Except FdtErr Offset)
    (property : Nat) (fixups_off : Offset) (merge : Bool) : Res (Blob × Blob) :=
  match fdt_getprop_by_offset fdto fixups_off property with
  | .error e => if e = .NOTFOUND then .err .INTERNAL (fdt, fdto) else .err e (fdt, fdto)
  | .ok (label, value) =>
    if value = [] then .err .BADOVERLAY (fdt, fdto)
    else
      match overlay_fixup_strings fdt symbols_off label (cstrings value).1 fdto with
      | .err e st => .err e (fdt, st)
      | .ok fdto1 =>
        if (cstrings value).2 ≠ [] then .err .BADOVERLAY (fdt, fdto1)
        else if merge then
          match overlay_add_to_local_fixups fdt value with
          | .err e fdt1 => .err e (fdt1, fdto1)
          | .ok fdt1 =>
            match fdt_delprop fdto1 fixups_off label with
            | .error e => .err e (fdt1, fdto1)
            | .ok fdto2 => .ok (fdt1, fdto2)
        else .ok (fdt, fdto1)

/-- The `while (property >= 0)` loop of `overlay_fixup_phandles` (lines
681-708) and the statements after it.  `n` bounds the number of turns: every
turn either deletes a property or moves on to the next one, so the number of
properties of `/__fixups__` from `property` on is the right start value.
`ret` is the C variable of that name (`none` for 0). -/
def overlay_fixup_phandles_loop (merge : Bool) (fixups_off : Offset) :
    Nat → Nat → Except FdtErr Offset → Option FdtErr → Blob × Blob → Res (Blob × Blob)
  | 0, _, _, ret, st =>
    if merge ∧ ret = some .NOTFOUND then .ok st else Res.ofCode ret st
  | n + 1, property, symbols_off, ret, st =>
    if property < fdt_num_props st.2 fixups_off then
      match overlay_fixup_phandle st.1 st.2 symbols_off property fixups_off merge with
      | .err e st1 =>
        if ¬ merge ∨ e ≠ .NOTFOUND then .err e st1
        else
          overlay_fixup_phandles_loop merge fixups_off n (property + 1) symbols_off (some e) st1
      | .ok st1 =>
        if merge then
          if property + 1 < fdt_num_props st.2 fixups_off then
            match fdt_path_offset st1.1 (str "/__symbols__") with
            | .error e => .err e st1
            | .ok symbols_off1 =>
              overlay_fixup_phandles_loop merge fixups_off n property (.ok symbols_off1) none st1
          else .ok st1
        else overlay_fixup_phandles_loop merge fixups_off n (property + 1) symbols_off none st1
    else if merge ∧ ret = some .NOTFOUND then .ok st
    else Res.ofCode ret st

/-- The function `overlay_fixup_phandles` (lines 662-714). -/
def overlay_fixup_phandles (fdt fdto : Blob) (merge : Bool) : Res (Blob × Blob) :=
  match fdt_path_offset fdto (str "/__fixups__") with
  | .error e => if e = .NOTFOUND then .ok (fdt, fdto) else .err e (fdt, fdto)
  | .ok fixups_off =>
    match fdt_path_offset fdt (str "/__symbols__") with
    | .error e =>
      if e ≠ .NOTFOUND then .err e (fdt, fdto)
      else
        overlay_fixup_phandles_loop merge fixups_off (fdt_num_props fdto fixups_off) 0
          (.error e) none (fdt, fdto)
    | .ok symbols_off =>
      overlay_fixup_phandles_loop merge fixups_off (fdt_num_props fdto fixups_off) 0
        (.ok symbols_off) none (fdt, fdto)

/-- The loop `fdt_for_each_property_offset` of `overlay_apply_node` (lines
741-757): set every property of the overlay node on the target. -/
def overlay_apply_props (target : Offset) : List (Bytes × Bytes) → Blob → Res Blob
  | [], fdt => .ok fdt
  | p :: rest, fdt =>
    match fdt_setprop fdt target p.1 p.2 with
    | .error e => .err e fdt
    | .ok fdt1 => overlay_apply_props target rest fdt1

mutual
/-- The function `overlay_apply_node` (lines 735-780): `node` is the overlay
node, `target` the offset of the target in the base `fdt`. -/
def overlay_apply_node : Node → Offset → Blob → Res Blob
  | .mk _ ps cs, target, fdt =>
    match overlay_apply_props target ps fdt with
    | .err e s => .err e s
    | .ok fdt1 => overlay_apply_subnodes cs target fdt1
/-- The loop `fdt_for_each_subnode` of `overlay_apply_node` (lines 759-777). -/
def overlay_apply_subnodes : List Node → Offset → Blob → Res Blob
  | [], _, fdt => .ok fdt
  | subnode :: rest, target, fdt =>
    match fdt_add_subnode fdt target subnode.name with
    | .ok (fdt1, nnode) =>
      match overlay_apply_node subnode nnode fdt1 with
      | .err e s => .err e s
      | .ok fdt2 => overlay_apply_subnodes rest target fdt2
    | .error e =>
      if e = .EXISTS then
        match fdt_subnode_offset fdt target subnode.name with
        | .error e1 => if e1 = .NOTFOUND then .err .INTERNAL fdt else .err e1 fdt
        | .ok nnode =>
          match overlay_apply_node subnode nnode fdt with
          | .err e2 s => .err e2 s
          | .ok fdt2 => overlay_apply_subnodes rest target fdt2
      else .err e fdt
end

/-- The loop `fdt_for_each_property_offset` of `copy_node` (lines 816-836): an
existing value of the destination is kept and the source value is written
after it. -/
def copy_node_props (offset : Offset) : List (Bytes × Bytes) → Blob → Res Blob
  | [], fdt => .ok fdt
  | p :: rest, fdt =>
    let fdt_len := match fdt_getprop fdt offset p.1 with
      | .ok v => v.length
      | .error _ => 0
    match fdt_setprop_placeholder fdt offset p.1 (p.2.length + fdt_len) with
    | .error e => .err e fdt
    | .ok fdt1 => copy_node_props offset rest (prop_memcpy fdt1 offset p.1 fdt_len p.2)

/-- The head of `copy_node` (lines 803-808): the child of `fdt_parent` called
`name`, created when the lookup fails. -/
def copy_node_dest (fdt : Blob) (fdt_parent : Offset) (name : Bytes) :
    Except FdtErr (Blob × Offset) :=
  match fdt_subnode_offset fdt fdt_parent name with
  | .ok offset => .ok (fdt, offset)
  | .error _ => fdt_add_subnode fdt fdt_parent name

mutual
/-- The function `copy_node` (lines 793-839): `fdto_child` is the overlay node,
`fdt_parent` the offset in `fdt` under which it is copied. -/
def copy_node : Node → Offset → Blob → Res Blob
  | .mk name ps cs, fdt_parent, fdt =>
    match copy_node_dest fdt fdt_parent name with
    | .error e => .err e fdt
    | .ok (fdt1, offset) =>
      match copy_node_children cs offset fdt1 with
      | .err e s => .err e s
      | .ok fdt2 => copy_node_props offset ps fdt2
/-- The loop `fdt_for_each_subnode` of `copy_node` (lines 810-814). -/
def copy_node_children : List Node → Offset → Blob → Res Blob
  | [], _, fdt => .ok fdt
  | child :: rest, offset, fdt =>
    match copy_node child offset fdt with
    | .err e s => .err e s
    | .ok fdt1 => copy_node_children rest offset fdt1
end

/-- The loop `fdt_for_each_subnode(fragment, fdto, 0)` of `overlay_merge`
(lines 861-897). -/
def overlay_merge_fragments (merge : Bool) : List Node → Blob → Res Blob
  | [], fdt => .ok fdt
  | fragment :: rest, fdt =>
    match child_index (str "__overlay__") fragment.children with
    | none => overlay_merge_fragments merge rest fdt
    | some i =>
      match fragment.children[i]? with
      | none => .err .BADOFFSET fdt
      | some overlay =>
        match fdt_overlay_target_offset fdt fragment with
        | .error e =>
          if e = .BADPHANDLE ∧ merge then
            match copy_node fragment [] fdt with
            | .err e1 s => .err e1 s
            | .ok fdt1 => overlay_merge_fragments merge rest fdt1
          else .err e fdt
        | .ok target =>
          match overlay_apply_node overlay target.1 fdt with
          | .err e s => .err e s
          | .ok fdt1 => overlay_merge_fragments merge rest fdt1

/-- The function `overlay_merge` (lines 857-900); the overlay is only read. -/
def overlay_merge (fdt fdto : Blob) (merge : Bool) : Res Blob :=
  overlay_merge_fragments merge fdto.root.children fdt

/-- The loop of `get_path_len` (lines 909-922), walking up from the node:
`names` are the names from the node up to the child of the root. -/
def get_path_len_up (rootname : Bytes) : List Bytes → Nat → Except FdtErr Nat
  | [], len => if rootname.length = 0 then .ok len else .error .NOTFOUND
  | nm :: up, len =>
    if nm.length = 0 then .ok len else get_path_len_up rootname up (len + nm.length + 1)

/-- The function `get_path_len` (lines 902-928). -/
def get_path_len (fdt : Blob) (nodeoffset : Offset) : Except FdtErr Nat :=
  match fdt_ro_probe_ fdt with
  | some e => .error e
  | none =>
    match fdt.root.path_names nodeoffset with
    | none => .error .BADOFFSET
    | some names =>
      match get_path_len_up fdt.root.name names.reverse 0 with
      | .error e => .error e
      | .ok len => .ok (if len = 0 then 1 else len)

/-- Lines 966-974 of `overlay_symbol_update`: `/__symbols__` of the base,
created when the base has none. -/
def overlay_root_symbols (fdt : Blob) : Except FdtErr (Blob × Offset) :=
  match fdt_subnode_offset fdt [] (str "__symbols__") with
  | .ok root_sym => .ok (fdt, root_sym)
  | .error e =>
    if e = .NOTFOUND then fdt_add_subnode fdt [] (str "__symbols__") else .error e

/-- Lines 1050-1087 of `overlay_symbol_update`: write the symbol `name` for a
fragment whose target has been resolved to `target` (with `target_path` the
`target-path` string, if the lookup went by path). -/
def overlay_symbol_write (fdt : Blob) (root_sym : Offset) (name : Bytes) (fragment : Node)
    (target : Offset) (target_path : Option Bytes) (rel_path : Bytes) : Res Blob :=
  match (match target_path with
         | none => get_path_len fdt target
         | some tp => Except.ok (strlen tp)) with
  | .error e => .err e fdt
  | .ok len =>
    match fdt_setprop_placeholder fdt root_sym name
        (len + (if len > 1 then 1 else 0) + rel_path.length + 1) with
    | .error e => .err e fdt
    | .ok fdt1 =>
      match target_path with
      | none =>
        match fdt_overlay_target_offset fdt1 fragment with
        | .error e => .err e fdt1
        | .ok target1 =>
          if len > 1 then
            match fdt_get_path fdt1 target1.1 (len + 1) with
            | .error e => .err e fdt1
            | .ok p =>
              .ok (prop_memcpy (prop_memcpy fdt1 root_sym name 0 (p ++ [0])) root_sym name len
                    (47 :: rel_path ++ [0]))
          else .ok (prop_memcpy fdt1 root_sym name (len - 1) (47 :: rel_path ++ [0]))
      | some tp =>
        if len > 1 then
          .ok (prop_memcpy (prop_memcpy fdt1 root_sym name 0 (cstr tp ++ [0])) root_sym name len
                (47 :: rel_path ++ [0]))
        else .ok (prop_memcpy fdt1 root_sym name (len - 1) (47 :: rel_path ++ [0]))

/-- The `while (prop >= 0)` loop of `overlay_symbol_update` (lines 980-1113).
The state is the pair (base, overlay).  The two `continue` statements of
lines 1002 and 1022 jump back to the loop test without moving `prop` on, so
the loop may run for ever: `fuel` bounds the number of turns and `none` is
returned when it runs out. -/
def overlay_symbol_update_loop (merge : Bool) (ov_sym root_sym : Offset) :
    Nat → Nat → Blob × Blob → Option (Res (Blob × Blob))
  | 0, _, _ => none
  | fuel + 1, prop, st =>
    if prop < fdt_num_props st.2 ov_sym then
      match fdt_getprop_by_offset st.2 ov_sym prop with
      | .error e => some (.err e st)
      | .ok (name, path) =>
        if path.length < 1 ∨ memchr path 0 path.length ≠ some (path.length - 1) then
          some (.err .BADVALUE st)
        else if path.head? ≠ some 47 then some (.err .BADVALUE st)
        else
          match memchr (path.drop 1) 47 (path.length - 2) with
          | none => overlay_symbol_update_loop merge ov_sym root_sym fuel prop st
          | some frag_name_len =>
            let s := path.drop (frag_name_len + 1)
            if (s.length > 13 ∧ s.take 13 = str "/__overlay__/")
                ∨ (s.length = 13 ∧ s.take 12 = str "/__overlay__") then
              let rel_path := if s.length > 13 then (s.drop 13).take (s.length - 13 - 1) else []
              match fdt_subnode_offset st.2 [] ((path.drop 1).take frag_name_len) with
              | .error _ => some (.err .BADOVERLAY st)
              | .ok fragment_off =>
                match fdt_subnode_offset st.2 fragment_off (str "__overlay__") with
                | .error _ => some (.err .BADOVERLAY st)
                | .ok _ =>
                  match st.2.root.get? fragment_off with
                  | none => some (.err .BADOFFSET st)
                  | some fragment =>
                    match fdt_overlay_target_offset st.1 fragment with
                    | .error e =>
                      if e = .BADPHANDLE ∧ merge then
                        overlay_symbol_update_loop merge ov_sym root_sym fuel (prop + 1) st
                      else some (.err e st)
                    | .ok target =>
                      match overlay_symbol_write st.1 root_sym name fragment target.1 target.2
                          rel_path with
                      | .err e fdt1 => some (.err e (fdt1, st.2))
                      | .ok fdt1 =>
                        if merge then
                          match fdt_delprop st.2 ov_sym name with
                          | .error e => some (.err e (fdt1, st.2))
                          | .ok fdto1 =>
                            if prop + 1 < fdt_num_props st.2 ov_sym then
                              overlay_symbol_update_loop merge ov_sym root_sym fuel prop
                                (fdt1, fdto1)
                            else some (.ok (fdt1, fdto1))
                        else
                          overlay_symbol_update_loop merge ov_sym root_sym fuel (prop + 1)
                            (fdt1, st.2)
            else overlay_symbol_update_loop merge ov_sym root_sym fuel prop st
    else some (.ok st)

/-- The function `overlay_symbol_update` (lines 947-1116). -/
def overlay_symbol_update (fuel : Nat) (fdt fdto : Blob) (merge : Bool) :
    Option (Res (Blob × Blob)) :=
  match fdt_subnode_offset fdto [] (str "__symbols__") with
  | .error _ => some (.ok (fdt, fdto))
  | .ok ov_sym =>
    match overlay_root_symbols fdt with
    | .error e => some (.err e (fdt, fdto))
    | .ok (fdt1, root_sym) => overlay_symbol_update_loop merge ov_sym root_sym fuel 0 (fdt1, fdto)

/-- The `err:` exit of `fdt_overlay_apply` (lines 1157-1169): both magic words
are erased and the error is returned. -/
def fdt_overlay_apply_err (e : FdtErr) (fdt fdto : Blob) : Res (Blob × Blob) :=
  .err e (fdt_set_magic fdt UINT32_MAX, fdt_set_magic fdto UINT32_MAX)

/-- The function `fdt_overlay_apply` (lines 1118-1170).  The state is the pair
(base, overlay); `none` stands for a call whose outcome the source does not
fix: one that does not return (see `overlay_symbol_update_loop`) or one that
reads outside a property (see `overlay_update_local_cells`). -/
def fdt_overlay_apply (fuel : Nat) (fdt fdto : Blob) : Option (Res (Blob × Blob)) :=
  match fdt_ro_probe_ fdt with
  | some e => some (.err e (fdt, fdto))
  | none =>
    match fdt_ro_probe_ fdto with
    | some e => some (.err e (fdt, fdto))
    | none =>
      match fdt_find_max_phandle fdt with
      | .error e => some (fdt_overlay_apply_err e fdt fdto)
      | .ok delta =>
        match overlay_adjust_local_phandles fdto delta with
        | .err e fdto1 => some (fdt_overlay_apply_err e fdt fdto1)
        | .ok fdto1 =>
          match overlay_update_local_references fdto1 delta with
          | none => none
          | some (.err e fdto2) => some (fdt_overlay_apply_err e fdt fdto2)
          | some (.ok fdto2) =>
            match overlay_fixup_phandles fdt fdto2 false with
            | .err e st => some (fdt_overlay_apply_err e st.1 st.2)
            | .ok st =>
              match overlay_merge st.1 st.2 false with
              | .err e fdt1 => some (fdt_overlay_apply_err e fdt1 st.2)
              | .ok fdt1 =>
                match overlay_symbol_update fuel fdt1 st.2 false with
                | none => none
                | some (.err e st1) => some (fdt_overlay_apply_err e st1.1 st1.2)
                | some (.ok st1) => some (.ok (st1.1, fdt_set_magic st1.2 UINT32_MAX))

/-- Conversion of an `unsigned long` to the `int` parameter `delta` of
`rename_fragments_in_property` and back to `unsigned long` where the code
compares and adds it (two's complement, 32-bit `int`, 64-bit `long`). -/
def ulong_of_int (d : Nat) : Nat :=
  if d % 2 ^ 32 < 2 ^ 31 then d % 2 ^ 32 else 2 ^ 64 - 2 ^ 32 + d % 2 ^ 32

/-- First loop of `rename_fragments_in_property` (lines 1197-1225): the length
the value needs after renaming and whether a `fragment@` was found.  `start`
is an index into `value`; `fuel` bounds the number of turns (every turn moves
`start` forward). -/
def rename_needed (value : Bytes) (delta : Nat) :
    Nat → Nat → Nat → Bool → Except FdtErr (Nat × Bool)
  | 0, _, needed, found => .ok (needed, found)
  | fuel + 1, start, needed, found =>
    if start < value.length then
      match memchr (value.drop start) 64 (value.length - start) with
      | none => .ok (needed + (value.length - start), found)
      | some i =>
        if i < 8 ∨ ¬ strncmp_eq (value.drop (start + i - 8)) (str "fragment") 8 then
          rename_needed value delta fuel (start + i + 1) (needed + (i + 1)) found
        else
          let r := strtoul (value.drop (start + i + 1))
          if ULONG_MAX - r.1 < ulong_of_int delta then .error .BADVALUE
          else
            rename_needed value delta fuel (start + i + 1 + r.2)
              (needed + (i + 1) + (decimal ((r.1 + ulong_of_int delta) % 2 ^ 64)).length) true
    else .ok (needed, found)

/-- Second loop of `rename_fragments_in_property` (lines 1241-1276): rewrite
the indices in the buffer `buf`; `start` and `stop` are indices into it. -/
def rename_rewrite (delta : Nat) : Nat → Bytes → Nat → Nat → Bytes
  | 0, buf, _, _ => buf
  | fuel + 1, buf, start, stop =>
    if start < stop then
      match memchr (buf.drop start) 64 (stop - start) with
      | none => buf
      | some i =>
        if i < 8 ∨ ¬ strncmp_eq (buf.drop (start + i - 8)) (str "fragment") 8 then
          rename_rewrite delta fuel buf (start + i + 1) stop
        else
          let sep := start + i + 1
          let r := strtoul (buf.drop sep)
          let digits := decimal ((r.1 + ulong_of_int delta) % 2 ^ 64)
          if r.2 < digits.length then
            rename_rewrite delta fuel
              (write_at (write_at buf (sep + digits.length)
                ((buf.drop (sep + r.2)).take (stop - (sep + r.2)))) sep digits)
              (sep + digits.length) (stop + (digits.length - r.2))
          else
            rename_rewrite delta fuel (write_at buf sep digits) (sep + digits.length) stop
    else buf

/-- The function `rename_fragments_in_property` (lines 1179-1279). -/
def rename_fragments_in_property (fdto : Blob) (offset : Offset) (property : Nat)
    (delta : Nat) : Res Blob :=
  match fdt_getprop_by_offset fdto offset property with
  | .error e => .err e fdto
  | .ok (label, value) =>
    match rename_needed value delta (value.length + 1) 0 0 false with
    | .error e => .err e fdto
    | .ok (needed, found) =>
      if ¬ found then .ok fdto
      else if needed > value.length then
        match fdt_setprop_placeholder fdto offset label needed with
        | .error e => .err e fdto
        | .ok fdto1 =>
          .ok (prop_memcpy fdto1 offset label 0
                (rename_rewrite delta (value.length + 1)
                  (value ++ List.replicate (needed - value.length) 0) 0 value.length))
      else
        .ok (prop_memcpy fdto offset label 0
              (rename_rewrite delta (value.length + 1) value 0 value.length))

/-- The loop `fdt_for_each_property_offset` of `rename_fragments_in_node`
(lines 1299-1304), over the property offsets `property .. property + n - 1`. -/
def rename_fragments_in_props (offset : Offset) (delta : Nat) : Nat → Nat → Blob → Res Blob
  | 0, _, fdto => .ok fdto
  | n + 1, property, fdto =>
    match rename_fragments_in_property fdto offset property delta with
    | .err e s => .err e s
    | .ok fdto1 => rename_fragments_in_props offset delta n (property + 1) fdto1

/-- The function `rename_fragments_in_node` (lines 1289-1307). -/
def rename_fragments_in_node (fdto : Blob) (nodename : Bytes) (delta : Nat) : Res Blob :=
  match fdt_path_offset fdto nodename with
  | .error e => .err e fdto
  | .ok offset => rename_fragments_in_props offset delta (fdt_num_props fdto offset) 0 fdto

/-- One turn of the `while (offset >= 0)` loop of `rename_nodes` (lines
1327-1368) for the child at `offset`. -/
def rename_node (fdto : Blob) (offset : Offset) (delta : Nat) : Res Blob :=
  match fdto.root.get? offset with
  | none => .err .BADOFFSET fdto
  | some node =>
    if node.name.length < 9 ∨ ¬ strncmp_eq node.name (str "fragment@") 9 then .ok fdto
    else
      match node.children with
      | [] => .err .NOTFOUND fdto
      | child :: _ =>
        if child.name.length ≥ 11 ∧ strncmp_eq child.name (str "__overlay__") 11 then
          if ULONG_MAX - delta < (strtoul (node.name.drop 9)).1 then .err .BADVALUE fdto
          else if (str "fragment@" ++ decimal ((strtoul (node.name.drop 9)).1 + delta)).length
              ≥ FDT_TAGALIGN (node.name.length + 1 + FDT_TAGSIZE) then .err .BADVALUE fdto
          else
            Res.ofExcept fdto
              (fdt_set_name fdto offset
                (str "fragment@" ++ decimal ((strtoul (node.name.drop 9)).1 + delta)))
        else .ok fdto

/-- The `while (offset >= 0)` loop of `rename_nodes`, over the children
`i .. i + n - 1` of `parent_node`. -/
def rename_nodes_loop (parent_node : Offset) (delta : Nat) : Nat → Nat → Blob → Res Blob
  | 0, _, fdto => .ok fdto
  | n + 1, i, fdto =>
    match rename_node fdto (parent_node ++ [i]) delta with
    | .err e s => .err e s
    | .ok fdto1 => rename_nodes_loop parent_node delta n (i + 1) fdto1

/-- The function `rename_nodes` (lines 1317-1372). -/
def rename_nodes (fdto : Blob) (parent_node : Offset) (delta : Nat) : Res Blob :=
  match fdto.root.get? parent_node with
  | none => .err .BADOFFSET fdto
  | some parent => rename_nodes_loop parent_node delta parent.children.length 0 fdto

/-- The `while (offset >= 0)` loop of `count_fragments` (lines 1383-1409):
the running maximum and the `found` flag. -/
def count_fragments_loop : List Node → Nat → Bool → Except FdtErr (Nat × Bool)
  | [], max, found => .ok (max, found)
  | node :: rest, max, found =>
    if node.name.length < 9 ∨ ¬ strncmp_eq node.name (str "fragment@") 9 then
      count_fragments_loop rest max found
    else
      match node.children with
      | [] => .error .NOTFOUND
      | child :: _ =>
        if child.name.length < 11 ∨ ¬ strncmp_eq child.name (str "__overlay__") 11 then
          count_fragments_loop rest max found
        else if (strtoul (node.name.drop 9)).1 > max then
          count_fragments_loop rest (strtoul (node.name.drop 9)).1 true
        else count_fragments_loop rest max true

/-- The function `count_fragments` (lines 1375-1417): the largest fragment
index of the blob, `NOTFOUND` when it has no fragment. -/
def count_fragments (fdt : Blob) : Except FdtErr Nat :=
  match count_fragments_loop fdt.root.children 0 false with
  | .error e => .error e
  | .ok r => if ¬ r.2 then .error .NOTFOUND else .ok r.1

/-- The function `overlay_rename_fragments` (lines 1427-1466); the first blob
is only read. -/
def overlay_rename_fragments (fdt fdto : Blob) : Res Blob :=
  match count_fragments fdt with
  | .error e => if e = .NOTFOUND then .ok fdto else .err e fdto
  | .ok max_base_fragments =>
    let m := (max_base_fragments + 1) % 2 ^ 64
    match rename_nodes fdto [] m with
    | .err e s => .err e s
    | .ok fdto1 =>
      match rename_fragments_in_node fdto1 (str "/__fixups__") m with
      | .err e s => .err e s
      | .ok fdto2 =>
        match rename_fragments_in_node fdto2 (str "/__symbols__") m with
        | .err e s =>
          if e ≠ .NOTFOUND then .err e s
          else
            match fdt_path_offset s (str "/__local_fixups__") with
            | .error _ => .ok s
            | .ok local_offset =>
              match rename_nodes s local_offset m with
              | .err e1 s1 => if e1 = .NOTFOUND then .ok s1 else .err e1 s1
              | .ok s1 => .ok s1
        | .ok fdto3 =>
          match fdt_path_offset fdto3 (str "/__local_fixups__") with
          | .error _ => .ok fdto3
          | .ok local_offset =>
            match rename_nodes fdto3 local_offset m with
            | .err e1 s1 => if e1 = .NOTFOUND then .ok s1 else .err e1 s1
            | .ok s1 => .ok s1

/-- The function `overlay_merge_node_properties` (lines 1469-1481); the state
is the first blob. -/
def overlay_merge_node_properties (fdt fdto : Blob) (nodename : Bytes) : Res Blob :=
  match fdt_path_offset fdto nodename with
  | .error e => .err e fdt
  | .ok fdto_offset =>
    match fdto.root.get? fdto_offset with
    | none => .err .BADOFFSET fdt
    | some node => copy_node node [] fdt

/-- The function `overlay_merge_local_fixups` (lines 1483-1494). -/
def overlay_merge_local_fixups (fdt fdto : Blob) : Res Blob :=
  match fdt_path_offset fdto (str "/__local_fixups__") with
  | .error e => .err e fdt
  | .ok fdto_local_fixups =>
    match fdto.root.get? fdto_local_fixups with
    | none => .err .BADOFFSET fdt
    | some node => copy_node node [] fdt

/-- The `err:` exit of `fdt_overlay_merge` (lines 1555-1568): the magic of the
second blob is erased, that of the first one unless `*fdto_nospace` is set.
The result carries the value of `*fdto_nospace`. -/
def fdt_overlay_merge_err (e : FdtErr) (fdt fdto : Blob) (fdto_nospace : Nat) :
    Res (Blob × Blob) × Nat :=
  if fdto_nospace = 0 then
    (.err e (fdt_set_magic fdt UINT32_MAX, fdt_set_magic fdto UINT32_MAX), fdto_nospace)
  else (.err e (fdt, fdt_set_magic fdto UINT32_MAX), fdto_nospace)

/-- Lines 1533-1553 of `fdt_overlay_merge`: the three copies into the combined
blob and the success exit. -/
def fdt_overlay_merge_copy (fdt fdto : Blob) : Res (Blob × Blob) × Nat :=
  match overlay_merge_node_properties fdt fdto (str "/__fixups__") with
  | .err e fdt1 => fdt_overlay_merge_err e fdt1 fdto 0
  | .ok fdt1 =>
    match overlay_merge_node_properties fdt1 fdto (str "/__symbols__") with
    | .err e fdt2 =>
      if e ≠ .NOTFOUND then fdt_overlay_merge_err e fdt2 fdto 0
      else
        match overlay_merge_local_fixups fdt2 fdto with
        | .err e1 fdt3 =>
          if e1 ≠ .NOTFOUND then fdt_overlay_merge_err e1 fdt3 fdto 0
          else (.ok (fdt3, fdt_set_magic fdto UINT32_MAX), 0)
        | .ok fdt3 => (.ok (fdt3, fdt_set_magic fdto UINT32_MAX), 0)
    | .ok fdt2 =>
      match overlay_merge_local_fixups fdt2 fdto with
      | .err e1 fdt3 =>
        if e1 ≠ .NOTFOUND then fdt_overlay_merge_err e1 fdt3 fdto 0
        else (.ok (fdt3, fdt_set_magic fdto UINT32_MAX), 0)
      | .ok fdt3 => (.ok (fdt3, fdt_set_magic fdto UINT32_MAX), 0)

/-- The function `fdt_overlay_merge` (lines 1496-1569).  The result is the
outcome on the pair (first blob, second blob) together with the value left in
`*fdto_nospace`; `none` as in `fdt_overlay_apply`.  The two
calls of `fdt_check_header` have no effect: their results are dropped. -/
def fdt_overlay_merge (fuel : Nat) (fdt fdto : Blob) : Option (Res (Blob × Blob) × Nat) :=
  let delta := fdt_get_max_phandle fdt
  match overlay_rename_fragments fdt fdto with
  | .err e fdto1 =>
    some (fdt_overlay_merge_err e fdt fdto1 (if e = .NOSPACE then 1 else 0))
  | .ok fdto1 =>
    match overlay_adjust_local_phandles fdto1 delta with
    | .err e fdto2 => some (fdt_overlay_merge_err e fdt fdto2 0)
    | .ok fdto2 =>
      match overlay_update_local_references fdto2 delta with
      | none => none
      | some (.err e fdto3) => some (fdt_overlay_merge_err e fdt fdto3 0)
      | some (.ok fdto3) =>
        match overlay_fixup_phandles fdt fdto3 true with
        | .err e st => some (fdt_overlay_merge_err e st.1 st.2 0)
        | .ok st =>
          match overlay_merge st.1 st.2 true with
          | .err e fdt1 => some (fdt_overlay_merge_err e fdt1 st.2 0)
          | .ok fdt1 =>
            match overlay_symbol_update fuel fdt1 st.2 true with
            | none => none
            | some (.err e st1) => some (fdt_overlay_merge_err e st1.1 st1.2 0)
            | some (.ok st1) => some (fdt_overlay_merge_copy st1.1 st1.2)

/-! ## Structural validity -/

mutual
/-- Property names are unique within every node and sibling names are unique. -/
def Node.wf : Node → Bool
  | .mk _ ps cs =>
    decide ((ps.map Prod.fst).Nodup) && decide ((cs.map Node.name).Nodup) && Node.wf_list cs
/-- Every node of the list is well formed. -/
def Node.wf_list : List Node → Bool
  | [] => true
  | c :: cs => Node.wf c && Node.wf_list cs
end

/-- Modelled from the spec: the "full FDT header/structure check" of section 8
(`fdt_check_full`, which the test driver calls and which is not among the
sources): the header passes the probe, property names are unique within every
node and sibling node names are unique. -/
def fdt_check_full (fdt : Blob) : Option FdtErr :=
  match fdt_ro_probe_ fdt with
  | some e => some e
  | none => if fdt.root.wf then none else some .BADSTRUCTURE

/-- What the mutating primitives keep: the header and the well-formedness of the tree. -/
def Keeps (a b : Blob) : Prop :=
  b.magic = a.magic ∧ b.version = a.version ∧ b.last_comp_version = a.last_comp_version ∧
    (a.root.wf = true → b.root.wf = true)

/-! ## Sample blobs -/

/-- A version-17 blob with the FDT magic. -/
def mk_blob (free : Nat) (root : Node) : Blob :=
  { magic := FDT_MAGIC, version := 17, last_comp_version := 16, free := free, root := root }

/-- Scenario E1, base: `/node-a` with phandle 1 and the label `a` for it. -/
def e1_base : Blob :=
  mk_blob 100 (.mk [] [] [
    .mk (str "node-a") [(str "phandle", [0, 0, 0, 1])] [],
    .mk (str "__symbols__") [(str "a", str "/node-a" ++ [0])] []])

/-- Scenario E1, overlay: one fragment whose target is the label `a`. -/
def e1_overlay : Blob :=
  mk_blob 0 (.mk [] [] [
    .mk (str "fragment@0") [(str "target", [0xde, 0xad, 0xbe, 0xef])] [
      .mk (str "__overlay__") [(str "new-prop", str "hi" ++ [0])] []],
    .mk (str "__fixups__") [(str "a", str "/fragment@0:target:0" ++ [0])] []])

/-- Scenario E6, overlay: the fixup entry lacks its second colon. -/
def e6_overlay : Blob :=
  mk_blob 0 (.mk [] [] [
    .mk (str "fragment@0") [(str "target", [0xde, 0xad, 0xbe, 0xef])] [
      .mk (str "__overlay__") [(str "new-prop", str "hi" ++ [0])] []],
    .mk (str "__fixups__") [(str "a", str "/fragment@0:target" ++ [0])] []])

/-- Scenario E2, base: the largest phandle is 5. -/
def e2_base : Blob :=
  mk_blob 100 (.mk [] [] [.mk (str "node-a") [(str "phandle", [0, 0, 0, 5])] []])

/-- Scenario E2, overlay: `child` has phandle 1 and `user/ref` refers to it
through `/__local_fixups__`. -/
def e2_overlay : Blob :=
  mk_blob 0 (.mk [] [] [
    .mk (str "fragment@0") [(str "target-path", str "/" ++ [0])] [
      .mk (str "__overlay__") [] [
        .mk (str "child") [(str "phandle", [0, 0, 0, 1])] [],
        .mk (str "user") [(str "ref", [0, 0, 0, 1])] []]],
    .mk (str "__local_fixups__") [] [
      .mk (str "fragment@0") [] [
        .mk (str "__overlay__") [] [
          .mk (str "user") [(str "ref", [0, 0, 0, 0])] []]]]])

/-- An overlay with one fragment `fragment@0` and no headroom. -/
def nospace_first : Blob :=
  mk_blob 0 (.mk [] [] [.mk (str "fragment@0") [] [.mk (str "__overlay__") [] []]])

/-- An overlay whose fragment `fragment@99` becomes `fragment@100` when it is
merged after `nospace_first`: the longer name needs four more bytes and the
blob has no headroom. -/
def nospace_second : Blob :=
  mk_blob 0 (.mk [] [] [
    .mk (str "fragment@99") [] [.mk (str "__overlay__") [] []],
    .mk (str "__fixups__") [] []])

/-- An empty base tree with headroom. -/
def empty_base : Blob := mk_blob 200 (.mk [] [] [])

/-- An overlay with no node at all below the root. -/
def empty_overlay : Blob := mk_blob 0 (.mk [] [] [])

/-- An overlay whose only node is an empty `/__fixups__`. -/
def fixups_only_overlay : Blob := mk_blob 0 (.mk [] [] [.mk (str "__fixups__") [] []])

/-- A first overlay: its fragment sets `p` on the root of the base. -/
def path_first : Blob :=
  mk_blob 200 (.mk [] [] [
    .mk (str "fragment@0") [(str "target-path", str "/" ++ [0])] [
      .mk (str "__overlay__") [(str "p", [1])] []],
    .mk (str "__fixups__") [] []])

/-- A second overlay: its fragment sets `q` on the root of the base. -/
def path_second : Blob :=
  mk_blob 200 (.mk [] [] [
    .mk (str "fragment@0") [(str "target-path", str "/" ++ [0])] [
      .mk (str "__overlay__") [(str "q", [2])] []],
    .mk (str "__fixups__") [] []])

/-- Scenario E1, base without headroom. -/
def e1_base_full : Blob := { e1_base with free := 0 }

/-- Scenario E1, overlay whose header has been zeroed. -/
def e1_overlay_bad_magic : Blob := { e1_overlay with magic := 0 }

/-- The left side of the merge equivalence of section 8: merge the second
overlay into the first, then apply the combined blob to the base. -/
def merge_then_apply (fuel : Nat) (base first second : Blob) : Option (Res (Blob × Blob)) :=
  match fdt_overlay_merge fuel first second with
  | some (.ok st, _) => fdt_overlay_apply fuel base st.1
  | _ => none

/-- The right side of the merge equivalence of section 8: apply the first
overlay to the base, then the second one to the result. -/
def apply_in_sequence (fuel : Nat) (base first second : Blob) : Option (Res (Blob × Blob)) :=
  match fdt_overlay_apply fuel base first with
  | some (.ok st) => fdt_overlay_apply fuel st.1 second
  | _ => none

/-- Scenario E1, the base after the overlay has been applied. -/
def e1_applied_base : Blob :=
  mk_blob 84 (.mk [] [] [
    .mk (str "node-a") [(str "new-prop", str "hi" ++ [0]), (str "phandle", [0, 0, 0, 1])] [],
    .mk (str "__symbols__") [(str "a", str "/node-a" ++ [0])] []])

/-- Scenario E1, the overlay after it has been applied: the target has been
resolved and the magic word erased. -/
def e1_applied_overlay : Blob :=
  { magic := UINT32_MAX, version := 17, last_comp_version := 16, free := 0,
    root := .mk [] [] [
      .mk (str "fragment@0") [(str "target", [0, 0, 0, 1])] [
        .mk (str "__overlay__") [(str "new-prop", str "hi" ++ [0])] []],
      .mk (str "__fixups__") [(str "a", str "/fragment@0:target:0" ++ [0])] []] }

/-- Scenario E2, the overlay after renumbering with delta 5. -/
def e2_renumbered : Blob :=
  mk_blob 0 (.mk [] [] [
    .mk (str "fragment@0") [(str "target-path", str "/" ++ [0])] [
      .mk (str "__overlay__") [] [
        .mk (str "child") [(str "phandle", [0, 0, 0, 6])] [],
        .mk (str "user") [(str "ref", [0, 0, 0, 6])] []]],
    .mk (str "__local_fixups__") [] [
      .mk (str "fragment@0") [] [
        .mk (str "__overlay__") [] [
          .mk (str "user") [(str "ref", [0, 0, 0, 0])] []]]]])

/-- An overlay that adds `/new` with `phandle = <0>` to the root of the base. -/
def zero_phandle_overlay : Blob :=
  mk_blob 0 (.mk [] [] [
    .mk (str "fragment@0") [(str "target-path", str "/" ++ [0])] [
      .mk (str "__overlay__") [] [.mk (str "new") [(str "phandle", [0, 0, 0, 0])] []]]])

/-- Scenario E1 with a fixup string whose path is empty. -/
def empty_path_overlay : Blob :=
  mk_blob 0 (.mk [] [] [
    .mk (str "fragment@0") [(str "target", [0xde, 0xad, 0xbe, 0xef])] [
      .mk (str "__overlay__") [(str "new-prop", str "hi" ++ [0])] []],
    .mk (str "__fixups__") [(str "a", str ":target:0" ++ [0])] []])

/-- A second overlay for a merge, with a fixup string whose path is empty. -/
def empty_path_second : Blob :=
  mk_blob 100 (.mk [] [] [
    .mk (str "fragment@0") [(str "target", [0xff, 0xff, 0xff, 0xff])] [
      .mk (str "__overlay__") [(str "new-prop", str "hi" ++ [0])] []],
    .mk (str "__fixups__") [(str "a", str ":target:0" ++ [0])] []])

/-- An overlay whose first root child is named like a fragment and has no
subnode at all; the second fragment sets `p` on the root of the base. -/
def childless_fragment_overlay : Blob :=
  mk_blob 100 (.mk [] [] [
    .mk (str "fragment@1") [] [],
    .mk (str "fragment@2") [(str "target-path", str "/" ++ [0])] [
      .mk (str "__overlay__") [(str "p", [1])] []],
    .mk (str "__fixups__") [] []])

/-- An overlay whose only symbol does not lead into a fragment. -/
def skipped_symbol_overlay : Blob :=
  mk_blob 0 (.mk [] [] [.mk (str "__symbols__") [(str "x", str "/foo" ++ [0])] []])

/-- An overlay whose symbol leads into a fragment but not through `__overlay__`. -/
def skipped_symbol_overlay2 : Blob :=
  mk_blob 0 (.mk [] [] [
    .mk (str "fragment@0") [(str "target-path", str "/" ++ [0])] [.mk (str "__overlay__") [] []],
    .mk (str "__symbols__") [(str "x", str "/fragment@0/bar" ++ [0])] []])

/-- An overlay whose only node is an empty `/__symbols__`. -/
def symbols_only_overlay : Blob := mk_blob 0 (.mk [] [] [.mk (str "__symbols__") [] []])

/-- A base with `/node-a` (phandle 1) and no `/__symbols__`. -/
def node_a_base : Blob :=
  mk_blob 100 (.mk [] [] [.mk (str "node-a") [(str "phandle", [0, 0, 0, 1])] []])

/-- An overlay whose fragment names its target by a path that ends in `/`;
the label `c` is for the node `child` the fragment adds. -/
def trailing_slash_overlay : Blob :=
  mk_blob 0 (.mk [] [] [
    .mk (str "fragment@0") [(str "target-path", str "/node-a/" ++ [0])] [
      .mk (str "__overlay__") [] [.mk (str "child") [] []]],
    .mk (str "__symbols__") [(str "c", str "/fragment@0/__overlay__/child" ++ [0])] []])

/-- An overlay with the label `f` for the target of its fragment. -/
def target_label_overlay : Blob :=
  mk_blob 0 (.mk [] [] [
    .mk (str "fragment@0") [(str "target-path", str "/node-a" ++ [0])] [
      .mk (str "__overlay__") [] []],
    .mk (str "__symbols__") [(str "f", str "/fragment@0/__overlay__" ++ [0])] []])

/-- The base `node_a_base` after the symbol stage for `trailing_slash_overlay`. -/
def trailing_slash_result : Blob :=
  mk_blob 52 (.mk [] [] [
    .mk (str "__symbols__") [(str "c", str "/node-a//child" ++ [0])] [],
    .mk (str "node-a") [(str "phandle", [0, 0, 0, 1])] []])

/-- The base `node_a_base` after the symbol stage for `target_label_overlay`. -/
def target_label_result : Blob :=
  mk_blob 56 (.mk [] [] [
    .mk (str "__symbols__") [(str "f", str "/node-a/" ++ [0])] [],
    .mk (str "node-a") [(str "phandle", [0, 0, 0, 1])] []])

/-- The blob `empty_base` with an empty `/__symbols__`. -/
def empty_base_with_symbols : Blob :=
  mk_blob 180 (.mk [] [] [.mk (str "__symbols__") [] []])

/-- A first overlay whose fragment has a subnode in front of `__overlay__`. -/
def second_child_first : Blob :=
  mk_blob 100 (.mk [] [] [
    .mk (str "fragment@0") [(str "target-path", str "/" ++ [0])] [
      .mk (str "extra") [] [],
      .mk (str "__overlay__") [(str "p", [1])] []]])

/-- The second overlay `path_second` after its fragment has been renamed to
`fragment@1`. -/
def path_second_renamed : Blob :=
  mk_blob 200 (.mk [] [] [
    .mk (str "fragment@1") [(str "target-path", str "/" ++ [0])] [
      .mk (str "__overlay__") [(str "q", [2])] []],
    .mk (str "__fixups__") [] []])

/-- An overlay whose `user/ref` holds two references, the second one at an odd
byte offset; `/__local_fixups__` lists the offsets 0 and 5. -/
def unaligned_refs_overlay : Blob :=
  mk_blob 0 (.mk [] [] [
    .mk (str "fragment@0") [(str "target-path", str "/" ++ [0])] [
      .mk (str "__overlay__") [] [
        .mk (str "user") [(str "ref", [0, 0, 0, 1, 9, 0xff, 0xff, 0xff, 0xfe, 7])] []]],
    .mk (str "__local_fixups__") [] [
      .mk (str "fragment@0") [] [
        .mk (str "__overlay__") [] [
          .mk (str "user") [(str "ref", [0, 0, 0, 0, 0, 0, 0, 5])] []]]]])

/-- A combined blob whose only node is an empty `/__local_fixups__`. -/
def local_fixups_only : Blob :=
  mk_blob 172 (.mk [] [] [.mk (str "__local_fixups__") [] []])

/-- A combined blob in which the slot 0 of `target` of `/a` is recorded. -/
def recorded_under_a : Blob :=
  mk_blob 144 (.mk [] [] [
    .mk (str "__local_fixups__") [] [.mk (str "a") [(str "target", [0, 0, 0, 0])] []]])

/-- A first overlay with the label `a` for the node `node-a` of its fragment,
which has phandle 1. -/
def labelled_first : Blob :=
  mk_blob 200 (.mk [] [] [
    .mk (str "fragment@0") [(str "target-path", str "/" ++ [0])] [
      .mk (str "__overlay__") [] [.mk (str "node-a") [(str "phandle", [0, 0, 0, 1])] []]],
    .mk (str "__symbols__") [(str "a", str "/fragment@0/__overlay__/node-a" ++ [0])] []])

/-- A second overlay with two external references: `ref` to the label `a`,
and the target of the fragment to the label `b`. -/
def two_fixups_second : Blob :=
  mk_blob 100 (.mk [] [] [
    .mk (str "fragment@1") [(str "target", [0xff, 0xff, 0xff, 0xff])] [
      .mk (str "__overlay__") [(str "ref", [0xff, 0xff, 0xff, 0xff])] []],
    .mk (str "__fixups__") [(str "a", str "/fragment@1/__overlay__:ref:0" ++ [0]),
      (str "b", str "/fragment@1:target:0" ++ [0])] []])

/-- The overlay `labelled_first` after the merge-mode fixup stage for
`two_fixups_second`: the reference `ref` is recorded in `/__local_fixups__`. -/
def labelled_first_recorded : Blob :=
  mk_blob 116 (.mk [] [] [
    .mk (str "__local_fixups__") [] [
      .mk (str "fragment@1") [] [
        .mk (str "__overlay__") [(str "ref", [0, 0, 0, 0])] []]],
    .mk (str "fragment@0") [(str "target-path", str "/" ++ [0])] [
      .mk (str "__overlay__") [] [.mk (str "node-a") [(str "phandle", [0, 0, 0, 1])] []]],
    .mk (str "__symbols__") [(str "a", str "/fragment@0/__overlay__/node-a" ++ [0])] []])

/-- The overlay `two_fixups_second` after the merge-mode fixup stage against
`labelled_first`: `ref` holds the phandle of `node-a`, the property `a` of
`/__fixups__` is gone, the property `b` is kept. -/
def two_fixups_second_merged : Blob :=
  mk_blob 144 (.mk [] [] [
    .mk (str "fragment@1") [(str "target", [0xff, 0xff, 0xff, 0xff])] [
      .mk (str "__overlay__") [(str "ref", [0, 0, 0, 1])] []],
    .mk (str "__fixups__") [(str "b", str "/fragment@1:target:0" ++ [0])] []])

/-- A first overlay with the fragments 0 and 5; the `__overlay__` node of
`fragment@5` is its second child. -/
def mixed_first : Blob :=
  mk_blob 100 (.mk [] [] [
    .mk (str "fragment@0") [(str "target-path", str "/" ++ [0])] [
      .mk (str "__overlay__") [(str "p", [1])] []],
    .mk (str "fragment@5") [(str "target-path", str "/" ++ [0])] [
      .mk (str "extra") [] [],
      .mk (str "__overlay__") [(str "r", [3])] []]])

/-- A second overlay whose root child `fragment@3` has the only subnode `foo`. -/
def plain_fragment_second : Blob :=
  mk_blob 100 (.mk [] [] [.mk (str "fragment@3") [] [.mk (str "foo") [] []]])

/-- Scenario E3, second overlay: the fragments 0 and 2. -/
def e3_second : Blob :=
  mk_blob 100 (.mk [] [] [
    .mk (str "fragment@0") [(str "target-path", str "/" ++ [0])] [
      .mk (str "__overlay__") [(str "p", [1])] []],
    .mk (str "fragment@2") [(str "target-path", str "/" ++ [0])] [
      .mk (str "__overlay__") [(str "q", [2])] []]])

/-- Scenario E3, second overlay after `rename_nodes` with the delta 2. -/
def e3_second_renamed : Blob :=
  mk_blob 100 (.mk [] [] [
    .mk (str "fragment@2") [(str "target-path", str "/" ++ [0])] [
      .mk (str "__overlay__") [(str "p", [1])] []],
    .mk (str "fragment@4") [(str "target-path", str "/" ++ [0])] [
      .mk (str "__overlay__") [(str "q", [2])] []]])

/-- A fragment whose target is the placeholder `0xffffffff`. -/
def pending_fragment : Node :=
  .mk (str "fragment@1") [(str "target", [0xff, 0xff, 0xff, 0xff])] [
    .mk (str "__overlay__") [(str "a", [1]), (str "b", [2])] []]

/-- The overlay `path_first` after `pending_fragment` has been copied under its root. -/
def path_first_with_pending : Blob :=
  mk_blob 112 (.mk [] [] [
    .mk (str "fragment@1") [(str "target", [0xff, 0xff, 0xff, 0xff])] [
      .mk (str "__overlay__") [(str "b", [2]), (str "a", [1])] []],
    .mk (str "fragment@0") [(str "target-path", str "/" ++ [0])] [
      .mk (str "__overlay__") [(str "p", [1])] []],
    .mk (str "__fixups__") [] []])

/-- A first overlay whose `/__fixups__` lists references to the labels `a` and `b`. -/
def fixups_first : Blob :=
  mk_blob 100 (.mk [] [] [
    .mk (str "__fixups__") [(str "a", str "/fragment@0:target:0" ++ [0]),
      (str "b", str "/fragment@0/__overlay__:x:0" ++ [0])] []])

/-- The node `/__fixups__` of a second overlay: references to the labels `a` and `c`. -/
def fixups_second_node : Node :=
  .mk (str "__fixups__") [(str "a", str "/fragment@1:target:0" ++ [0]),
    (str "c", str "/fragment@1/__overlay__:y:0" ++ [0])] []

/-- The overlay `fixups_first` after `fixups_second_node` has been copied under its root. -/
def fixups_first_merged : Blob :=
  mk_blob 40 (.mk [] [] [
    .mk (str "__fixups__") [(str "c", str "/fragment@1/__overlay__:y:0" ++ [0]),
      (str "a", str "/fragment@0:target:0" ++ [0] ++ (str "/fragment@1:target:0" ++ [0])),
      (str "b", str "/fragment@0/__overlay__:x:0" ++ [0])] []])

/-- Scenario E2, the overlay after the first renumbering pass with delta 5: the
phandle of `child` is 6, the reference in `user/ref` is still 1. -/
def e2_phandles_adjusted : Blob :=
  mk_blob 0 (.mk [] [] [
    .mk (str "fragment@0") [(str "target-path", str "/" ++ [0])] [
      .mk (str "__overlay__") [] [
        .mk (str "child") [(str "phandle", [0, 0, 0, 6])] [],
        .mk (str "user") [(str "ref", [0, 0, 0, 1])] []]],
    .mk (str "__local_fixups__") [] [
      .mk (str "fragment@0") [] [
        .mk (str "__overlay__") [] [
          .mk (str "user") [(str "ref", [0, 0, 0, 0])] []]]]])

/-- A second overlay whose `/__symbols__` holds a path through `fragment@9`
and, behind it, an `@` that no `fragment` precedes. -/
def symbol_nine : Blob :=
  mk_blob 4 (.mk [] [] [
    .mk (str "__symbols__") [(str "lbl", str "/fragment@9/__overlay__/a@1" ++ [0])] []])

/-- The blob `symbol_nine` after the index has grown by 1. -/
def symbol_nine_renamed : Blob :=
  mk_blob 0 (.mk [] [] [
    .mk (str "__symbols__") [(str "lbl", str "/fragment@10/__overlay__/a@1" ++ [0])] []])

/-- A second overlay whose `/__symbols__` names the fragment with the largest
index an `unsigned long` holds. -/
def symbol_max_index : Blob :=
  mk_blob 4 (.mk [] [] [
    .mk (str "__symbols__")
      [(str "lbl", str "/fragment@18446744073709551615/__overlay__/a" ++ [0])] []])

/-- A second overlay whose `/__symbols__` writes the index 1 with a leading
zero. -/
def symbol_leading_zero : Blob :=
  mk_blob 4 (.mk [] [] [
    .mk (str "__symbols__") [(str "lbl", str "/fragment@01/__overlay__/a" ++ [0])] []])

/-- An overlay whose mirror lists the offset `0xfffffffc` for the four-byte
property `ref` of `/fragment@0/__overlay__/user`. -/
def outside_refs_overlay : Blob :=
  mk_blob 100 (.mk [] [] [
    .mk (str "fragment@0") [(str "target-path", str "/" ++ [0])] [
      .mk (str "__overlay__") [] [
        .mk (str "user") [(str "ref", [0, 0, 0, 1])] []]],
    .mk (str "__local_fixups__") [] [
      .mk (str "fragment@0") [] [
        .mk (str "__overlay__") [] [
          .mk (str "user") [(str "ref", [0xff, 0xff, 0xff, 0xfc])] []]]]])

/-- The overlay `outside_refs_overlay` with a second mirror property, `gone`,
that the node `user` does not have. -/
def outside_then_unmatched_overlay : Blob :=
  mk_blob 100 (.mk [] [] [
    .mk (str "fragment@0") [(str "target-path", str "/" ++ [0])] [
      .mk (str "__overlay__") [] [
        .mk (str "user") [(str "ref", [0, 0, 0, 1])] []]],
    .mk (str "__local_fixups__") [] [
      .mk (str "fragment@0") [] [
        .mk (str "__overlay__") [] [
          .mk (str "user") [(str "ref", [0xff, 0xff, 0xff, 0xfc]),
            (str "gone", [0, 0, 0, 0])] []]]]])

/-- The base of scenario E2 after the overlay of scenario E2 has been applied. -/
def e2_applied_base : Blob :=
  mk_blob 36 (.mk [] [] [
    .mk (str "user") [(str "ref", [0, 0, 0, 6])] [],
    .mk (str "child") [(str "phandle", [0, 0, 0, 6])] [],
    .mk (str "node-a") [(str "phandle", [0, 0, 0, 5])] []])

/-! ## Observations used in the statements -/

/-- The property value that holds the given strings, each followed by its NUL. -/
def nul_terminated (strs : List Bytes) : Bytes := (strs.map (fun s => s ++ [0])).flatten

/-- The values of the `phandle` and the `linux,phandle` property of a node (the
first property of either name, the one `fdt_getprop` finds), decoded. -/
def own_phandle_values (ps : List (Bytes × Bytes)) : List Nat :=
  ((prop_lookup (str "phandle") ps).toList ++
    (prop_lookup (str "linux,phandle") ps).toList).map fdt32_to_cpu

mutual
/-- The values of all `phandle` / `linux,phandle` properties in a subtree, in
document order. -/
def Node.phandle_values : Node → List Nat
  | .mk _ ps cs => own_phandle_values ps ++ Node.phandle_values_list cs
/-- The values of all `phandle` / `linux,phandle` properties in a list of subtrees. -/
def Node.phandle_values_list : List Node → List Nat
  | [] => []
  | c :: cs => Node.phandle_values c ++ Node.phandle_values_list cs
end

/-- Two properties agree outside the bytes a pass may write: same name, same
length, and the same byte at every index `i` for which `keep name i` holds. -/
def prop_agrees (keep : Bytes → Nat → Prop) (p q : Bytes × Bytes) : Prop :=
  p.1 = q.1 ∧ p.2.length = q.2.length ∧ ∀ i, keep p.1 i → p.2[i]? = q.2[i]?

mutual
/-- Two trees agree outside the bytes a pass may write: the same nodes with the
same names in the same order, in every node the same property names in the
same order with values of the same length, and the same byte wherever
`keep path name i` holds, `path` being the names from the root down to the
node, `name` the property and `i` the byte index. -/
def Node.agree (keep : List Bytes → Bytes → Nat → Prop) : List Bytes → Node → Node → Prop
  | path, .mk n1 ps1 cs1, m =>
    n1 = m.name ∧ List.Forall₂ (prop_agrees (keep path)) ps1 m.props ∧
      Node.agree_list keep path cs1 m.children
/-- The children agree one by one. -/
def Node.agree_list (keep : List Bytes → Bytes → Nat → Prop) :
    List Bytes → List Node → List Node → Prop
  | _, [], ms => ms = []
  | path, c :: cs, ms =>
    match ms with
    | [] => False
    | m :: ms1 => Node.agree keep (path ++ [c.name]) c m ∧ Node.agree_list keep path cs ms1
end

mutual
/-- The slots a mirror node of `/__local_fixups__` names: for every property of
the mirror and every cell of its value, the path of the mirrored node, the
property name and the byte offset the cell holds. -/
def local_fixup_slots : Node → List Bytes → List (List Bytes × Bytes × Nat)
  | .mk _ fps fcs, path =>
    (fps.map (fun p => (fixup_cells (p.2.length / 4) p.2).map (fun o => (path, p.1, o)))).flatten
      ++ local_fixup_slots_list fcs path
/-- The slots the children of a mirror node name. -/
def local_fixup_slots_list : List Node → List Bytes → List (List Bytes × Bytes × Nat)
  | [], _ => []
  | fc :: rest, path =>
    local_fixup_slots fc (path ++ [fc.name]) ++ local_fixup_slots_list rest path
end

/-- The slots named by `/__local_fixups__` of an overlay. -/
def overlay_local_slots (fdto : Blob) : List (List Bytes × Bytes × Nat) :=
  match fdt_path_offset fdto (str "/__local_fixups__") with
  | .error _ => []
  | .ok fixups =>
    match fdto.root.get? fixups with
    | none => []
    | some fixup_node => local_fixup_slots fixup_node []

/-- The bytes the two renumbering passes leave alone, given the slots the
mirror names: every byte of a property that is not called `phandle` or
`linux,phandle` and that lies in none of the 4-byte slots. -/
def renumbering_keeps (slots : List (List Bytes × Bytes × Nat)) (path : List Bytes)
    (name : Bytes) (i : Nat) : Prop :=
  name ≠ str "phandle" ∧ name ≠ str "linux,phandle" ∧
    ∀ o, (path, name, o) ∈ slots → ¬ (o ≤ i ∧ i < o + 4)

mutual
/-- The deep-merge postcondition of `overlay_apply_node`: `t1` is the target
`t` after the overlay node has been merged into it.  (i) every property of the
overlay node is on `t1` with its value; (ii) a property whose name does not
occur on the overlay node reads on `t1` as it did on `t`; (iii) every child of
`t` has a child of the same name on `t1`, which is the old child itself when
no child of the overlay node has that name and the old child merged with the
overlay child of that name otherwise; (iv) every child of the overlay node has
a child of the same name on `t1`, which is a fresh empty node merged with the
overlay child when `t` had no child of that name. -/
def Node.merged : Node → Node → Node → Prop
  | .mk _ ps cs, t, t1 =>
    t1.name = t.name ∧
    (∀ p ∈ ps, prop_lookup p.1 t1.props = some p.2) ∧
    (∀ a, a ∉ ps.map Prod.fst → prop_lookup a t1.props = prop_lookup a t.props) ∧
    (∀ c ∈ t.children, ∃ c1 ∈ t1.children, c1.name = c.name ∧
      ((∀ d ∈ cs, d.name ≠ c.name) → c1 = c) ∧ Node.merged_with cs c c1) ∧
    Node.merged_new cs t.children t1.children
/-- Every overlay child that has the name of `c` has been merged into it. -/
def Node.merged_with : List Node → Node → Node → Prop
  | [], _, _ => True
  | d :: ds, c, c1 => (d.name = c.name → Node.merged d c c1) ∧ Node.merged_with ds c c1
/-- Every overlay child has a child of its name among `after`. -/
def Node.merged_new : List Node → List Node → List Node → Prop
  | [], _, _ => True
  | d :: ds, before, after =>
    (∃ c1 ∈ after, c1.name = d.name ∧
      ((∀ c ∈ before, c.name ≠ d.name) → Node.merged d (.mk d.name [] []) c1)) ∧
    Node.merged_new ds before after
end

/-- The properties of a node after `fdt_setprop`. -/
def setprop_props (a v : Bytes) (ps : List (Bytes × Bytes)) : List (Bytes × Bytes) :=
  match prop_lookup a ps with
  | some _ => prop_replace a v ps
  | none => (a, v) :: ps

/-- The properties of a node after `fdt_setprop_placeholder` for `name` and `len`. -/
def placeholder_props (name : Bytes) (len : Nat) (ps : List (Bytes × Bytes)) :
    List (Bytes × Bytes) :=
  match prop_lookup name ps with
  | some v => prop_replace name (v.take len ++ List.replicate (len - v.length) 0) ps
  | none => (name, List.replicate len 0) :: ps

/-- The properties of a node after `prop_memcpy` into `name`. -/
def memcpy_props (name : Bytes) (idx : Nat) (data : Bytes) (ps : List (Bytes × Bytes)) :
    List (Bytes × Bytes) :=
  match prop_lookup name ps with
  | none => ps
  | some v => prop_replace name (write_at v idx data) ps

/-- Blob `b` has the header of blob `a` and its tree, except for the properties
of the node at `off` (and the headroom). -/
def only_props_at (a : Blob) (off : Offset) (b : Blob) : Prop :=
  b.magic = a.magic ∧ b.version = a.version ∧ b.last_comp_version = a.last_comp_version ∧
    ∃ f : List (Bytes × Bytes) → List (Bytes × Bytes),
      b.root = a.root.modifyAt (fun m => m.set_props (f m.props)) off

/-- The path string of a node, from the names on the way from the root to it:
every name preceded by `/`. -/
def path_string (names : List Bytes) : Bytes := (names.map (fun nm => 47 :: nm)).flatten

/-- Blob `b` is blob `a` with the properties of the node at `off` rewritten in a
way that leaves every property not called `name` as it is. -/
def writes_only (name : Bytes) (off : Offset) (a b : Blob) : Prop :=
  b.magic = a.magic ∧ b.version = a.version ∧ b.last_comp_version = a.last_comp_version ∧
    ∃ g : List (Bytes × Bytes) → List (Bytes × Bytes),
      (∀ x, x ≠ name → ∀ ps, prop_lookup x (g ps) = prop_lookup x ps) ∧
      b.root = a.root.modifyAt (fun m => m.set_props (g m.props)) off

/-- The shape of a symbol value that leads into a fragment: `tail` is what
follows the name of the fragment, `rel` the relative path the code extracts. -/
def symbol_tail (rel tail : Bytes) : Prop :=
  tail = str "/__overlay__/" ++ rel ++ [0] ∨ (tail = str "/__overlay__" ++ [0] ∧ rel = [])

/-- What the symbol stage makes of the symbol `name` whose value leads to `rel`
inside the fragment called `frag`, with `base` and `ov` the blobs the loop
starts from and `final` the base it ends with.  At the turn of the symbol the
base is `F` and the overlay is `O`: they differ from `base` and `ov` in the
properties of the two `/__symbols__` nodes only.  Either the loop runs in merge
mode and the target of the fragment is `BADPHANDLE` (the symbol is passed
over), or the target resolves in `F` and the property `name` of the base's
`/__symbols__` ends up as: the `target-path` string as it is written in the
fragment (nothing when it is shorter than two bytes), or the names on the way
to the target when the target was found by phandle, followed by `/`, `rel` and
a NUL. -/
def symbol_outcome (merge : Bool) (root_sym ov_sym : Offset) (base ov : Blob)
    (name frag rel : Bytes) (final : Blob) : Prop :=
  ∃ (F O : Blob) (fragment_off : Offset) (fragment : Node),
    only_props_at base root_sym F ∧ only_props_at ov ov_sym O ∧
    fdt_subnode_offset O [] frag = .ok fragment_off ∧
    O.root.get? fragment_off = some fragment ∧
    ((merge = true ∧ fdt_overlay_target_offset F fragment = .error .BADPHANDLE) ∨
     ∃ (T : Offset) (pathp : Option Bytes),
       fdt_overlay_target_offset F fragment = .ok (T, pathp) ∧
       (∀ tp, pathp = some tp →
         fdt_getprop final root_sym name
           = .ok ((if strlen tp > 1 then cstr tp else []) ++ (47 :: rel ++ [0]))) ∧
       (pathp = none → name ≠ str "phandle" → name ≠ str "linux,phandle" →
         ∀ names, F.root.path_names T = some names → (∀ nm ∈ names, nm ≠ []) →
           fdt_getprop final root_sym name = .ok (path_string names ++ (47 :: rel ++ [0]))))

/-- A node the renaming takes for a fragment: its name begins with `fragment@`
and the name of its first child begins with `__overlay__` (the tests of lines
1331-1346 and 1388-1400). -/
def counted_fragment (n : Node) : Bool :=
  strncmp_eq n.name (str "fragment@") 9 &&
    match n.children with
    | [] => false
    | c :: _ => strncmp_eq c.name (str "__overlay__") 11

/-- The index the renaming reads from the name of a fragment. -/
def fragment_index (n : Node) : Nat := (strtoul (n.name.drop 9)).1

/-- The node `rename_nodes` makes of a child: a counted fragment gets the name
`fragment@<index + delta>`, any other node is left as it is. -/
def renamed_node (delta : Nat) (n : Node) : Node :=
  if counted_fragment n then n.set_name (str "fragment@" ++ decimal (fragment_index n + delta))
  else n

/-- The children of `b` are those of `a`, except that the child at index `j`
may differ below its name. -/
def differs_below (j : Nat) (a b : Node) : Prop :=
  (∀ k : Nat, k ≠ j → b.children[k]? = a.children[k]?) ∧
    (b.children[j]?).map Node.name = (a.children[j]?).map Node.name

/-- What the renaming looks at in a root child: its name and the names of its children. -/
def Node.sig (n : Node) : Bytes × List Bytes := (n.name, n.children.map Node.name)

/-- The node reached from a node along a list of child names (the first child
of each name). -/
def Node.descend : Node → List Bytes → Option Node
  | n, [] => some n
  | n, nm :: rest =>
    match child_index nm n.children with
    | none => none
    | some i =>
      match n.children[i]? with
      | none => none
      | some c => c.descend rest

/-- The value `w` is the value `v` with `delta` added, modulo `2^32`, to the
big-endian cell at each of the byte offsets `cells`, and with the bytes of `v`
everywhere else. -/
@[reducible]
def cells_updated (delta : Nat) (cells : List Nat) (v w : Bytes) : Prop :=
  w.length = v.length ∧
  (∀ P ∈ cells, (w.drop P).take 4 = cpu_to_fdt32 ((fdt32_to_cpu (v.drop P) + delta) % 2 ^ 32)) ∧
  (∀ i : Nat, (∀ P ∈ cells, ¬ (P ≤ i ∧ i < P + 4)) → w[i]? = v[i]?)

/-- The node names of a path string: its `/`-separated components, the empty
ones left out. -/
def path_components (p : Bytes) : List Bytes :=
  (split_on 47 p).filter (fun w => decide (w ≠ []))

/-- A triple `<path>:<name>:<num>` among the strings of a property of the
`/__fixups__` node `fx` names the slot at byte offset `o` of the property
`name` of the node at `path`. -/
def named_slot (fx : Node) (path : List Bytes) (name : Bytes) (o : Nat) : Prop :=
  ∃ p ∈ fx.props, ∃ s ∈ (cstrings p.2).1, ∃ pa nm num : Bytes,
    s = pa ++ 58 :: (nm ++ 58 :: num) ∧ 58 ∉ pa ∧ 58 ∉ nm ∧
    path_components pa = path ∧ nm = name ∧ o = (strtoul num).1 % 2 ^ 32

/-- The bytes no triple of `fx` names. -/
def fixups_keep (fx : Node) (path : List Bytes) (name : Bytes) (i : Nat) : Prop :=
  ∀ o, named_slot fx path name o → ¬ (o ≤ i ∧ i < o + 4)

/-- Blob `b` is blob `a` up to the bytes of property values that `keep` does not
protect: same header, same headroom, same nodes, same properties with values of
the same length. -/
def slots_frame (keep : List Bytes → Bytes → Nat → Prop) (a b : Blob) : Prop :=
  b.magic = a.magic ∧ b.version = a.version ∧ b.last_comp_version = a.last_comp_version ∧
    b.free = a.free ∧ Node.agree keep [] a.root b.root

/-- No triple of the `/__fixups__` node `fx` has a path that leads to
`/__fixups__` itself. -/
def fixups_apart (fx : Node) : Bool :=
  fx.props.all (fun p => (cstrings p.2).1.all (fun s =>
    decide (path_components (s.take (List.indexOf 58 s)) ≠ [str "__fixups__"])))

/-- The path of a triple as the recording loop walks it: without one leading `/`. -/
def recorded_path (pa : Bytes) : Bytes := if pa.head? = some 47 then pa.drop 1 else pa

/-- The value the property `nm` of the node reached from `lo` along `nodes`
has in `fdt`; empty when there is no such node or no such property. -/
def recorded_before (fdt : Blob) (lo : Offset) (nodes : List Bytes) (nm : Bytes) : Bytes :=
  match fdt_walk fdt lo nodes with
  | .error _ => []
  | .ok l0 =>
    match fdt_getprop fdt l0 nm with
    | .error _ => []
    | .ok v => v

/-- Blob `b` is blob `a` with the subtree at `off` replaced by one of the same name. -/
def replaced_at (off : Offset) (a b : Blob) : Prop :=
  ∃ n x, a.root.get? off = some n ∧ x.name = n.name ∧
    b.root = a.root.modifyAt (fun _ => x) off

/-- The root of `b` has children of the same names as the root of `a`. -/
def root_names_kept (a b : Blob) : Prop :=
  b.root.children.map Node.name = a.root.children.map Node.name

/-- The base `fdt` has a root child called `__symbols__`. -/
def has_symbols (fdt : Blob) : Bool :=
  (child_index (str "__symbols__") fdt.root.children).isSome

/-- What the merge-mode loop of `overlay_fixup_phandles` relies on between two
turns: `cur` is the node `/__fixups__` of the overlay, child `j` of the root;
its properties are properties of the node `fx` it was at the start, under
different names; the base has a node `/__symbols__` when `symbols_off` is an
offset. -/
def merge_inv (fx : Node) (j : Nat) (so : Except FdtErr Offset) (st : Blob × Blob)
    (cur : Node) : Prop :=
  st.2.root.children[j]? = some cur ∧ cur.name = str "__fixups__" ∧
  (∀ p ∈ cur.props, p ∈ fx.props) ∧ (cur.props.map Prod.fst).Nodup ∧
  ((∃ s, so = .ok s) → has_symbols st.1 = true)

/-- The value `v` lists the cell `c`: the four bytes of `c`, big-endian, stand
somewhere in `v`. -/
def cell_listed (c : Nat) (v : Bytes) : Prop :=
  ∃ pre post, v = pre ++ cpu_to_fdt32 c ++ post

/-- The triple `<pa>:<nm>:<c>` is recorded in the blob: the components of the
path `pa` lead from `/__local_fixups__` to a node that has a property `nm`
whose value lists the cell `c`. -/
def recorded (F : Blob) (pa nm : Bytes) (c : Nat) : Prop :=
  ∃ last v,
    F.root.descend (str "__local_fixups__" :: local_fixup_path_nodes (recorded_path pa))
      = some last ∧
    prop_lookup nm last.props = some v ∧ cell_listed c v

/-- The node `b` is the node `a` grown: every node that a path of names
reaches in `a` is reached in `b`, and every property it has there has in `b`
the same value with bytes added at the end. -/
def Node.grows (a b : Node) : Prop :=
  ∀ path x, a.descend path = some x → ∃ y, b.descend path = some y ∧
    ∀ nm v, prop_lookup nm x.props = some v → ∃ w, prop_lookup nm y.props = some (v ++ w)

/-- One turn of the `while (property >= 0)` loop of `overlay_fixup_phandles`
in merge mode (lines 681-708), as a step on the state (property, symbols
offset, (combined blob, second overlay)): the state in which the next turn
starts, `none` when the loop ends with this turn.  After `NOTFOUND` the loop
goes on to the next property; after 0 the property has been deleted, the loop
stays at the property offset and reads the offset of `/__symbols__` again. -/
def merge_next_turn (fixups_off : Offset) (s : Nat × Except FdtErr Offset × (Blob × Blob)) :
    Option (Nat × Except FdtErr Offset × (Blob × Blob)) :=
  if s.1 < fdt_num_props s.2.2.2 fixups_off then
    match overlay_fixup_phandle s.2.2.1 s.2.2.2 s.2.1 s.1 fixups_off true with
    | .err e st1 => if e = .NOTFOUND then some (s.1 + 1, s.2.1, st1) else none
    | .ok st1 =>
      if s.1 + 1 < fdt_num_props s.2.2.2 fixups_off then
        match fdt_path_offset st1.1 (str "/__symbols__") with
        | .error _ => none
        | .ok symbols_off => some (s.1, .ok symbols_off, st1)
      else none
  else none

/-- The state in which turn number `t` of that loop starts, the loop having
been entered in the state `s`. -/
def merge_turn_state (fixups_off : Offset) :
    Nat → Nat × Except FdtErr Offset × (Blob × Blob) →
      Option (Nat × Except FdtErr Offset × (Blob × Blob))
  | 0, s => some s
  | t + 1, s => (merge_turn_state fixups_off t s).bind (merge_next_turn fixups_off)

/-- What the merge-mode fixup stage, entered in the state `s0` and ended with
the blobs `final`, has made of the property `label = value` of `/__fixups__`
that turn number `t` of its loop handles.  The turn starts with the combined
blob `B` and the second overlay `O`, which has the property at the offset `k`.
Either all triples of the value resolve there: then `/__fixups__` has no
property `label` in the end, and every triple of the value that the recording
does not skip is recorded below `/__local_fixups__` of the combined blob in
the end.  Or the resolution returns `NOTFOUND`: then `/__fixups__` has the
property with its value in the end. -/
def fixup_result (off : Offset) (s0 : Nat × Except FdtErr Offset × (Blob × Blob)) (t : Nat)
    (label value : Bytes) (final : Blob × Blob) : Prop :=
  ∃ (k : Nat) (so : Except FdtErr Offset) (B O : Blob),
    merge_turn_state off t s0 = some (k, so, (B, O)) ∧
    fdt_getprop_by_offset O off k = .ok (label, value) ∧
    (((∃ O1, overlay_fixup_strings B so label (cstrings value).1 O = .ok O1) ∧
        fdt_getprop final.2 off label = .error .NOTFOUND ∧
        ∀ pa nm num, pa ++ 58 :: (nm ++ 58 :: num) ∈ (cstrings value).1 → 58 ∉ pa → 58 ∉ nm →
          ¬ (47 ∉ recorded_path pa ∧ nm.take 6 = str "target") →
          recorded final.1 pa nm ((strtoul num).1 % 2 ^ 32)) ∨
     ((∃ s, overlay_fixup_strings B so label (cstrings value).1 O = .err .NOTFOUND s) ∧
        fdt_getprop final.2 off label = .ok value))

mutual
/-- The mirror node fits the tree node: every property of the mirror has a
length that is a multiple of 4 and a same-named property on the tree node that
holds the 4-byte slot at each listed offset, and every subnode of the mirror
has a same-named subnode under the tree node that it fits. -/
def mirror_fits : Node → Node → Prop
  | .mk _ fps fcs, tree =>
    (∀ p ∈ fps, p.2.length % 4 = 0 ∧ ∃ v, prop_lookup p.1 tree.props = some v ∧
      ∀ P ∈ fixup_cells (p.2.length / 4) p.2, P + 4 ≤ v.length) ∧
    mirror_fits_list fcs tree
/-- Every node of the list fits the same-named child of the tree node. -/
def mirror_fits_list : List Node → Node → Prop
  | [], _ => True
  | fc :: rest, tree =>
    (∃ i tc, child_index fc.name tree.children = some i ∧ tree.children[i]? = some tc ∧
      mirror_fits fc tc) ∧ mirror_fits_list rest tree
end

/-- The bytes outside the 4-byte slots of a list of slots. -/
def outside_slots (slots : List (List Bytes × Bytes × Nat)) (path : List Bytes)
    (name : Bytes) (i : Nat) : Prop :=
  ∀ o, (path, name, o) ∈ slots → ¬ (o ≤ i ∧ i < o + 4)

/-- The properties of the destination after one turn of the property loop of
`copy_node` for the source property `p`: an existing value gets the source
value behind it, a new property is put in front with the source value. -/
def copied_prop (p : Bytes × Bytes) (dps : List (Bytes × Bytes)) : List (Bytes × Bytes) :=
  match prop_lookup p.1 dps with
  | some v => prop_replace p.1 (v ++ p.2) dps
  | none => p :: dps

/-- The properties of the destination after the property loop of `copy_node`. -/
def copied_props : List (Bytes × Bytes) → List (Bytes × Bytes) → List (Bytes × Bytes)
  | [], dps => dps
  | p :: rest, dps => copied_props rest (copied_prop p dps)

mutual
/-- The destination node `d` after `copy_node` has copied the content of the
source node onto it: first the children, then the properties. -/
def Node.copied_onto : Node → Node → Node
  | .mk _ ps cs, d =>
    (copied_children cs d).set_props (copied_props ps (copied_children cs d).props)
/-- The node `d` after `copy_node` has copied each node of the list under it:
onto the first child of the same name, or onto a new first child. -/
def copied_children : List Node → Node → Node
  | [], d => d
  | c :: rest, d =>
    copied_children rest
      (match child_index c.name d.children with
       | some j =>
         match d.children[j]? with
         | some e => d.set_children (d.children.set j (Node.copied_onto c e))
         | none => d
       | none => d.set_children (Node.copied_onto c (.mk c.name [] []) :: d.children))
end

mutual
/-- A node with its properties and its children in reverse order, at every
level. -/
def Node.mirrored : Node → Node
  | .mk nm ps cs => .mk nm ps.reverse (Node.mirrored_list cs).reverse
/-- The nodes of a list, each one mirrored. -/
def Node.mirrored_list : List Node → List Node
  | [] => []
  | c :: rest => c.mirrored :: Node.mirrored_list rest
end

mutual
/-- The postcondition of `copy_node` on the destination node: `d1` is `d` after
the source node has been copied onto it.  Every property of the source is on
`d1` with the value it had on `d` (none when it had no such property) followed
by the source value; every other property reads as before; every child of `d`
that no source child is called after is still there; and for every child of
the source the first child of that name of `d1` is the first child of that
name of `d` (a fresh empty node when there was none) with the source child
copied onto it. -/
def Node.appended : Node → Node → Node → Prop
  | .mk _ ps cs, d, d1 =>
    d1.name = d.name ∧
    (∀ p ∈ ps, prop_lookup p.1 d1.props = some ((prop_lookup p.1 d.props).getD [] ++ p.2)) ∧
    (∀ a, a ∉ ps.map Prod.fst → prop_lookup a d1.props = prop_lookup a d.props) ∧
    (∀ e ∈ d.children, (∀ c ∈ cs, c.name ≠ e.name) → e ∈ d1.children) ∧
    Node.appended_list cs d d1
/-- The same for each node of a list of source children. -/
def Node.appended_list : List Node → Node → Node → Prop
  | [], _, _ => True
  | c :: rest, d, d1 =>
    (∃ e1, d1.descend [c.name] = some e1 ∧
      Node.appended c ((d.descend [c.name]).getD (.mk c.name [] [])) e1) ∧
    Node.appended_list rest d d1
end

mutual
/-- No property of the node or of a node below it is called `phandle` or
`linux,phandle`. -/
def Node.no_phandle_props : Node → Bool
  | .mk _ ps cs =>
    ps.all (fun p => decide (p.1 ≠ str "phandle") && decide (p.1 ≠ str "linux,phandle")) &&
      Node.no_phandle_props_list cs
/-- The same for every node of a list. -/
def Node.no_phandle_props_list : List Node → Bool
  | [] => true
  | c :: rest => c.no_phandle_props && Node.no_phandle_props_list rest
end

/-- A property value put together from its pieces.  Every piece ends with an
`@`: `(pre, none)` is the text `pre@`, and `(pre, some k)` is the text
`pre` followed by `fragment@` and the decimal numeral of `f k`; `tail` is the
text behind the last `@`.  With `f = id` this is the value as it is cut at its
`@` bytes, with another `f` the same value with every index `k` behind a
`fragment@` replaced by `f k`. -/
def fragment_text (f : Nat → Nat) : List (Bytes × Option Nat) → Bytes → Bytes
  | [], tail => tail
  | (pre, none) :: ts, tail => pre ++ 64 :: fragment_text f ts tail
  | (pre, some k) :: ts, tail =>
    (pre ++ str "fragment") ++ 64 :: (decimal (f k) ++ fragment_text f ts tail)

/-- The last 8 bytes of the text are `fragment`. -/
def ends_in_fragment (pre : Bytes) : Bool :=
  decide (8 ≤ pre.length ∧ pre.drop (pre.length - 8) = str "fragment")

/-- The pieces cut the value at every `@`: no text in front of an `@` holds an
`@`, nor does the tail; a piece `(pre, none)` is an `@` that is not preceded
by `fragment`; and the numeral of a piece `(pre, some k)` ends where it is
printed (the next byte, if there is one, is no digit). -/
def pieces_ok : List (Bytes × Option Nat) → Bytes → Prop
  | [], tail => 64 ∉ tail
  | (pre, none) :: ts, tail => 64 ∉ pre ∧ ends_in_fragment pre = false ∧ pieces_ok ts tail
  | (pre, some _) :: ts, tail =>
    64 ∉ pre ∧ (∀ c, (fragment_text id ts tail).head? = some c → isdigit c = false) ∧
      pieces_ok ts tail

/-- Some piece is a `fragment@` with an index. -/
def has_fragment (ts : List (Bytes × Option Nat)) : Bool := ts.any (fun t => t.2.isSome)

/-- The digits the numerals gain when every index grows by `M`. -/
def extra_digits (M : Nat) : List (Bytes × Option Nat) → Nat
  | [] => 0
  | (_, none) :: ts => extra_digits M ts
  | (_, some k) :: ts => ((decimal (k + M)).length - (decimal k).length) + extra_digits M ts

mutual
/-- Every offset that the mirror node lists for a property the tree node has
lies, with the three bytes behind it, inside the value of that property; and
the same holds between every subnode of the mirror and the subnode of that
name under the tree node. -/
def reads_inside : Node → Node → Prop
  | .mk _ fps fcs, tree =>
    (∀ p ∈ fps, ∀ v, prop_lookup p.1 tree.props = some v →
      ∀ P ∈ fixup_cells (p.2.length / 4) p.2, P + 4 ≤ v.length) ∧
    reads_inside_list fcs tree
/-- The same for a list of subnodes of the mirror. -/
def reads_inside_list : List Node → Node → Prop
  | [], _ => True
  | fc :: rest, tree =>
    (∀ i tc, child_index fc.name tree.children = some i → tree.children[i]? = some tc →
      reads_inside fc tc) ∧ reads_inside_list rest tree
end

/-- A fragment as `overlay_merge` looks it up (line 870): a node whose name
begins with `fragment@` and that has a subnode called `__overlay__`. -/
def named_fragment (n : Node) : Bool :=
  strncmp_eq n.name (str "fragment@") 9 &&
    (child_index (str "__overlay__") n.children).isSome

/-- The first subnode of the node tells whether it has a subnode called
`__overlay__`: the node has a subnode, and the name of the first one begins
with `__overlay__` exactly when a subnode is called `__overlay__`. -/
def first_subnode_tells (n : Node) : Bool :=
  match n.children with
  | [] => false
  | c :: _ =>
    strncmp_eq c.name (str "__overlay__") 11
      == (child_index (str "__overlay__") n.children).isSome

/-- What the renaming by `delta` makes of a root child, by the rule of the
specification: a fragment gets the name `fragment@<k + delta>`, any other node
is left as it is. -/
def renamed_fragment (delta : Nat) (n : Node) : Node :=
  if named_fragment n then n.set_name (str "fragment@" ++ decimal (fragment_index n + delta))
  else n

mutual
/-- The property list of every node of the subtree satisfies `P`. -/
def Node.all_nodes (P : List (Bytes × Bytes) → Prop) : Node → Prop
  | .mk _ ps cs => P ps ∧ Node.all_nodes_list P cs
/-- The same for every subtree of a list. -/
def Node.all_nodes_list (P : List (Bytes × Bytes) → Prop) : List Node → Prop
  | [] => True
  | c :: cs => Node.all_nodes P c ∧ Node.all_nodes_list P cs
end

/-- Every `phandle` / `linux,phandle` property of the list is one cell, and
the number it holds satisfies `X`. -/
def phandle_cells (X : Nat → Prop) (ps : List (Bytes × Bytes)) : Prop :=
  ∀ p ∈ ps, p.1 = str "phandle" ∨ p.1 = str "linux,phandle" →
    p.2.length = 4 ∧ X (fdt32_to_cpu p.2)

/-- The phandle that a node with these properties has is 0 or satisfies `X`. -/
def phandle_from (X : Nat → Prop) (ps : List (Bytes × Bytes)) : Prop :=
  props_phandle ps = 0 ∨ X (props_phandle ps)

/-- The mirror `/__local_fixups__` of the overlay, when there is one, has no
property called `phandle` or `linux,phandle`, on no node. -/
def local_fixups_spare_phandles (fdto : Blob) : Bool :=
  match fdt_path_offset fdto (str "/__local_fixups__") with
  | .error _ => true
  | .ok fixups =>
    match fdto.root.get? fixups with
    | none => true
    | some fixup_node => fixup_node.no_phandle_props

/-- The label is in no `/__symbols__` of the blob: the blob has no such node,
or the node has no property of that name. -/
def label_unknown (fdt : Blob) (label : Bytes) : Prop :=
  ∀ s, fdt_path_offset fdt (str "/__symbols__") = .ok s →
    fdt_getprop fdt s label = .error .NOTFOUND

/-! ## Theorems -/

/-- Where `overlay_update_local_cells` returns, it returns what
`walk_local_cells` computes. -/
theorem local_cells_walk (name : Bytes) (delta : Nat) :
    ∀ (cells : List Nat) (tree : Node) (r : Res Node),
    overlay_update_local_cells tree name delta cells = some r →
    walk_local_cells tree name delta cells = r := by
  intro cells
  induction cells with
  | nil =>
    intro tree r h
    unfold overlay_update_local_cells at h
    unfold walk_local_cells
    exact Option.some.inj h
  | cons P rest ih =>
    intro tree r h
    unfold overlay_update_local_cells at h
    unfold walk_local_cells
    cases hl : prop_lookup name tree.props with
    | none =>
      rw [hl] at h
      exact Option.some.inj h
    | some v =>
      rw [hl] at h
      dsimp only at h ⊢
      by_cases hlen : v.length < P + 4
      · rw [if_pos hlen] at h
        cases h
      · rw [if_neg hlen] at h
        cases hs : Node.setprop_inplace_namelen_partial tree name P
            (cpu_to_fdt32 ((fdt32_to_cpu (List.drop P v) + delta) % 2 ^ 32)) with
        | error e =>
          rw [hs] at h
          dsimp only at h ⊢
          by_cases he : e = .NOSPACE
          · rw [if_pos he] at h ⊢
            exact Option.some.inj h
          · rw [if_neg he] at h ⊢
            exact Option.some.inj h
        | ok t1 =>
          rw [hs] at h
          exact ih t1 r h

/-- Where `overlay_update_local_props` returns, it returns what
`walk_local_props` computes. -/
theorem local_props_walk (delta : Nat) :
    ∀ (fps : List (Bytes × Bytes)) (tree : Node) (r : Res Node),
    overlay_update_local_props tree delta fps = some r →
    walk_local_props tree delta fps = r := by
  intro fps
  induction fps with
  | nil =>
    intro tree r h
    unfold overlay_update_local_props at h
    unfold walk_local_props
    exact Option.some.inj h
  | cons p rest ih =>
    intro tree r h
    unfold overlay_update_local_props at h
    unfold walk_local_props
    by_cases hlen : p.2.length % 4 ≠ 0
    · rw [if_pos hlen] at h ⊢
      exact Option.some.inj h
    · rw [if_neg hlen] at h ⊢
      cases hl : prop_lookup p.1 tree.props with
      | none =>
        rw [hl] at h
        exact Option.some.inj h
      | some v =>
        rw [hl] at h
        dsimp only at h ⊢
        cases hc : overlay_update_local_cells tree p.1 delta
            (fixup_cells (p.2.length / 4) p.2) with
        | none =>
          rw [hc] at h
          cases h
        | some rc =>
          rw [hc] at h
          rw [local_cells_walk p.1 delta _ tree rc hc]
          cases rc with
          | err e s => exact Option.some.inj h
          | ok t1 => exact ih t1 r h

mutual
/-- Where `overlay_update_local_node_references` returns, it returns what
`walk_local_node` computes. -/
theorem local_node_walk (delta : Nat) :
    ∀ (fixup tree : Node) (r : Res Node),
    overlay_update_local_node_references delta fixup tree = some r →
    walk_local_node delta fixup tree = r
  | .mk fnm fps fcs, tree, r, h => by
    unfold overlay_update_local_node_references at h
    unfold walk_local_node
    cases hp : overlay_update_local_props tree delta fps with
    | none =>
      rw [hp] at h
      cases h
    | some rp =>
      rw [hp] at h
      rw [local_props_walk delta fps tree rp hp]
      cases rp with
      | err e s => exact Option.some.inj h
      | ok t1 => exact local_subnodes_walk delta fcs t1 r h
/-- The same for the loop over the children of the mirror. -/
theorem local_subnodes_walk (delta : Nat) :
    ∀ (fcs : List Node) (tree : Node) (r : Res Node),
    overlay_update_local_subnodes delta fcs tree = some r →
    walk_local_subnodes delta fcs tree = r
  | [], tree, r, h => by
    unfold overlay_update_local_subnodes at h
    unfold walk_local_subnodes
    exact Option.some.inj h
  | fc :: rest, tree, r, h => by
    unfold overlay_update_local_subnodes at h
    unfold walk_local_subnodes
    cases hci : child_index fc.name tree.children with
    | none =>
      rw [hci] at h
      exact Option.some.inj h
    | some i =>
      rw [hci] at h
      dsimp only at h ⊢
      cases htc : tree.children[i]? with
      | none =>
        rw [htc] at h
        exact Option.some.inj h
      | some tc =>
        rw [htc] at h
        dsimp only at h ⊢
        cases hrec : overlay_update_local_node_references delta fc tc with
        | none =>
          rw [hrec] at h
          cases h
        | some rc =>
          rw [hrec] at h
          rw [local_node_walk delta fc tc rc hrec]
          cases rc with
          | err e s => exact Option.some.inj h
          | ok s => exact local_subnodes_walk delta rest _ r h
end

/-- Where `overlay_update_local_references` returns, it returns what
`walk_local_references` computes. -/
theorem local_references_walk (fdto : Blob) (delta : Nat) (r : Res Blob)
    (h : overlay_update_local_references fdto delta = some r) :
    walk_local_references fdto delta = r := by
  unfold overlay_update_local_references at h
  unfold walk_local_references
  cases hp : fdt_path_offset fdto (str "/__local_fixups__") with
  | error e =>
    rw [hp] at h
    dsimp only at h ⊢
    by_cases he : e = .NOTFOUND
    · rw [if_pos he] at h ⊢
      exact Option.some.inj h
    · rw [if_neg he] at h ⊢
      exact Option.some.inj h
  | ok fixups =>
    rw [hp] at h
    dsimp only at h ⊢
    cases hg : fdto.root.get? fixups with
    | none =>
      rw [hg] at h
      exact Option.some.inj h
    | some fixup_node =>
      rw [hg] at h
      dsimp only at h ⊢
      cases hn : overlay_update_local_node_references delta fixup_node fdto.root with
      | none =>
        rw [hn] at h
        cases h
      | some rn =>
        rw [hn] at h
        rw [local_node_walk delta fixup_node fdto.root rn hn]
        exact Option.some.inj h

theorem set_magic_magic (b : Blob) : (fdt_set_magic b UINT32_MAX).magic = UINT32_MAX := by
  simp [fdt_set_magic, UINT32_MAX]

theorem memchr_append_mem (p r : Bytes) (c : Nat) (h : c ∉ p) :
    memchr (p ++ c :: r) c (p ++ c :: r).length = some p.length := by
  unfold memchr
  simp only [List.take_length]
  rw [List.indexOf_append_of_not_mem h, List.indexOf_cons_self]
  simp

theorem memchr_not_mem (s : Bytes) (c n : Nat) (h : c ∉ s) : memchr s c n = none := by
  unfold memchr
  have h1 : c ∉ s.take n := fun hm => h (List.mem_of_mem_take hm)
  simp only [List.indexOf_of_not_mem h1, lt_irrefl, if_false]

theorem cstrings_aux_append (s rest cur : Bytes) (h : 0 ∉ s) :
    cstrings_aux (s ++ 0 :: rest) cur =
      ((cur.reverse ++ s) :: (cstrings_aux rest []).1, (cstrings_aux rest []).2) := by
  induction s generalizing cur with
  | nil => simp [cstrings_aux]
  | cons x xs ih =>
    have hx : x ≠ 0 := fun hx => h (by simp [hx])
    have hxs : 0 ∉ xs := fun hm => h (List.mem_cons_of_mem _ hm)
    have e1 : (x :: xs) ++ 0 :: rest = x :: (xs ++ 0 :: rest) := rfl
    rw [e1, cstrings_aux, if_neg hx, ih _ hxs]
    simp

theorem cstrings_append (s rest : Bytes) (h : 0 ∉ s) :
    cstrings (s ++ 0 :: rest) = (s :: (cstrings rest).1, (cstrings rest).2) := by
  unfold cstrings
  rw [cstrings_aux_append s rest [] h]
  simp

theorem subnode_offset_root_cases (fdt : Blob) (nm : Bytes) :
    fdt_subnode_offset fdt [] nm = .error .NOTFOUND ∨
      ∃ i, fdt_subnode_offset fdt [] nm = .ok [i] := by
  unfold fdt_subnode_offset
  simp only [Node.get?]
  cases child_index nm fdt.root.children with
  | none => exact Or.inl rfl
  | some i => exact Or.inr ⟨i, rfl⟩

theorem path_offset_symbols (fdt : Blob) :
    fdt_path_offset fdt (str "/__symbols__") = fdt_subnode_offset fdt [] (str "__symbols__") := by
  have h : fdt_path_offset fdt (str "/__symbols__") = fdt_walk fdt [] [str "__symbols__"] := rfl
  rw [h]
  unfold fdt_walk fdt_walk
  cases fdt_subnode_offset fdt [] (str "__symbols__") <;> rfl

theorem path_offset_fixups (fdt : Blob) :
    fdt_path_offset fdt (str "/__fixups__") = fdt_subnode_offset fdt [] (str "__fixups__") := by
  have h : fdt_path_offset fdt (str "/__fixups__") = fdt_walk fdt [] [str "__fixups__"] := rfl
  rw [h]
  unfold fdt_walk fdt_walk
  cases fdt_subnode_offset fdt [] (str "__fixups__") <;> rfl

theorem path_offset_local_fixups (fdt : Blob) :
    fdt_path_offset fdt (str "/__local_fixups__")
      = fdt_subnode_offset fdt [] (str "__local_fixups__") := by
  have h : fdt_path_offset fdt (str "/__local_fixups__")
      = fdt_walk fdt [] [str "__local_fixups__"] := rfl
  rw [h]
  unfold fdt_walk fdt_walk
  cases fdt_subnode_offset fdt [] (str "__local_fixups__") <;> rfl

/-- A fixup string with a single colon is rejected before any lookup. -/
theorem overlay_fixup_string_one_colon (fdt fdto : Blob) (symbols_off : Except FdtErr Offset)
    (label path name : Bytes) (hp : 58 ∉ path) (hn : 58 ∉ name) :
    overlay_fixup_string fdt fdto symbols_off label (path ++ 58 :: name)
      = .err .BADOVERLAY fdto := by
  unfold overlay_fixup_string
  rw [memchr_append_mem path name 58 hp]
  simp only
  split
  · rfl
  · have : (path ++ 58 :: name).drop (path.length + 1) = name := by
      simp [List.drop_append]
    rw [this, memchr_not_mem name 58 _ hn]

theorem num_props_pos_of_getprop (fdto : Blob) (off : Offset) (i : Nat) (p : Bytes × Bytes)
    (h : fdt_getprop_by_offset fdto off i = .ok p) : i < fdt_num_props fdto off := by
  unfold fdt_getprop_by_offset at h
  unfold fdt_num_props
  split at h
  · cases h
  · split at h
    · cases h
    · rename_i q hq
      exact (List.getElem?_eq_some_iff.mp hq).1

/-- The fixup stage of apply fails with `BADOVERLAY` when the first string of
the first `/__fixups__` property has a single colon. -/
theorem overlay_fixup_phandles_one_colon (fdt fdto : Blob) (fixups_off : Offset)
    (label path name rest : Bytes)
    (hfix : fdt_path_offset fdto (str "/__fixups__") = .ok fixups_off)
    (hprop : fdt_getprop_by_offset fdto fixups_off 0
      = .ok (label, path ++ 58 :: name ++ 0 :: rest))
    (hp : 58 ∉ path) (hp0 : 0 ∉ path) (hn : 58 ∉ name) (hn0 : 0 ∉ name) :
    overlay_fixup_phandles fdt fdto false = .err .BADOVERLAY (fdt, fdto) := by
  have hpos := num_props_pos_of_getprop _ _ _ _ hprop
  have h0 : (0 : Nat) ∉ path ++ 58 :: name := by
    simp only [List.mem_append, List.mem_cons]
    rintro (h | h | h)
    · exact hp0 h
    · exact absurd h (by decide)
    · exact hn0 h
  have hphandle : ∀ so, overlay_fixup_phandle fdt fdto so 0 fixups_off false
      = .err .BADOVERLAY (fdt, fdto) := by
    intro so
    unfold overlay_fixup_phandle
    rw [hprop]
    simp only
    rw [if_neg (by simp)]
    have : path ++ 58 :: name ++ 0 :: rest = (path ++ 58 :: name) ++ 0 :: rest := by simp
    rw [this, cstrings_append _ _ h0]
    simp only [overlay_fixup_strings]
    rw [overlay_fixup_string_one_colon fdt fdto so label path name hp hn]
  have hloop : ∀ so, overlay_fixup_phandles_loop false fixups_off
      (fdt_num_props fdto fixups_off) 0 so none (fdt, fdto) = .err .BADOVERLAY (fdt, fdto) := by
    intro so
    obtain ⟨k, hk⟩ : ∃ k, fdt_num_props fdto fixups_off = k + 1 :=
      ⟨_, (Nat.succ_pred_eq_of_pos hpos).symm⟩
    rw [hk]
    unfold overlay_fixup_phandles_loop
    simp only [hk, Nat.zero_lt_succ, if_true, hphandle so]
    simp
  unfold overlay_fixup_phandles
  rw [hfix]
  simp only
  rw [path_offset_symbols]
  rcases subnode_offset_root_cases fdt (str "__symbols__") with h | ⟨i, h⟩
  · rw [h]
    simp only
    rw [if_neg (by simp)]
    exact hloop _
  · rw [h]
    exact hloop _

/-! ### Stages on overlays without auxiliary nodes -/

theorem subnode_offset_no_children (fdto : Blob) (nm : Bytes) (ps : List (Bytes × Bytes))
    (name : Bytes) (hroot : fdto.root = .mk nm ps []) :
    fdt_subnode_offset fdto [] name = .error .NOTFOUND := by
  unfold fdt_subnode_offset
  simp [Node.get?, hroot, Node.children, child_index]

theorem adjust_own_no_phandle (node : Node) (delta : Nat)
    (hph : prop_lookup (str "phandle") node.props = none)
    (hlph : prop_lookup (str "linux,phandle") node.props = none) :
    overlay_adjust_own_phandles node delta = .ok node := by
  simp [overlay_adjust_own_phandles, overlay_phandle_add_offset, hph, hlph]

theorem blob_root_eta (b : Blob) : { b with root := b.root } = b := by
  cases b; rfl

theorem apply_empty_overlay (fuel : Nat) (fdt fdto : Blob) (nm : Bytes)
    (ps : List (Bytes × Bytes))
    (hfdt : fdt_ro_probe_ fdt = none) (hfdto : fdt_ro_probe_ fdto = none)
    (hroot : fdto.root = .mk nm ps [])
    (hph : prop_lookup (str "phandle") ps = none)
    (hlph : prop_lookup (str "linux,phandle") ps = none) :
    fdt_overlay_apply fuel fdt fdto = some (.ok (fdt, fdt_set_magic fdto UINT32_MAX)) := by
  have hadj : ∀ delta, overlay_adjust_local_phandles fdto delta = .ok fdto := by
    intro delta
    unfold overlay_adjust_local_phandles
    rw [hroot, overlay_adjust_node_phandles,
      adjust_own_no_phandle (.mk nm ps []) delta (by simpa [Node.props] using hph)
        (by simpa [Node.props] using hlph)]
    simp only [overlay_adjust_subnodes, Res.map, Node.set_children]
    rw [← hroot, blob_root_eta]
  have hloc : ∀ delta, overlay_update_local_references fdto delta = some (.ok fdto) := by
    intro delta
    unfold overlay_update_local_references
    rw [path_offset_local_fixups, subnode_offset_no_children fdto nm ps _ hroot]
    simp
  have hfix : overlay_fixup_phandles fdt fdto false = .ok (fdt, fdto) := by
    unfold overlay_fixup_phandles
    rw [path_offset_fixups, subnode_offset_no_children fdto nm ps _ hroot]
    simp
  have hmerge : overlay_merge fdt fdto false = .ok fdt := by
    simp [overlay_merge, hroot, Node.children, overlay_merge_fragments]
  have hsym : overlay_symbol_update fuel fdt fdto false = some (.ok (fdt, fdto)) := by
    unfold overlay_symbol_update
    rw [subnode_offset_no_children fdto nm ps _ hroot]
  unfold fdt_overlay_apply
  simp only [hfdt, hfdto, fdt_find_max_phandle, hadj, hloc, hfix, hmerge, hsym]



theorem count_fragments_loop_error (l : List Node) (max : Nat) (found : Bool) (e : FdtErr)
    (h : count_fragments_loop l max found = .error e) : e = .NOTFOUND := by
  induction l generalizing max found with
  | nil => simp [count_fragments_loop] at h
  | cons node rest ih =>
    unfold count_fragments_loop at h
    split at h
    · exact ih _ _ h
    · split at h
      · cases h; rfl
      · split at h
        · exact ih _ _ h
        · split at h
          · exact ih _ _ h
          · exact ih _ _ h

theorem count_fragments_error (fdt : Blob) (e : FdtErr) (h : count_fragments fdt = .error e) :
    e = .NOTFOUND := by
  unfold count_fragments at h
  split at h
  · rename_i e' he
    cases h
    exact count_fragments_loop_error _ _ _ _ he
  · split at h
    · cases h; rfl
    · cases h

theorem rename_fixups_only (fdt fdto : Blob) (nm : Bytes) (ps : List (Bytes × Bytes))
    (hroot : fdto.root = .mk nm ps [.mk (str "__fixups__") [] []]) :
    overlay_rename_fragments fdt fdto = .ok fdto := by
  unfold overlay_rename_fragments
  split
  · rename_i e he
    rw [count_fragments_error fdt e he]
    simp
  · rename_i m hm
    have h1 : ∀ d b, b.root = .mk nm ps [.mk (str "__fixups__") [] []] → rename_nodes b [] d = .ok b := by
      intro d b hb
      have hn : strncmp_eq (str "__fixups__") (str "fragment@") 9 = false := by decide
      simp [rename_nodes, Node.get?, hb, Node.children, rename_nodes_loop, rename_node, Node.name, hn]
    have h2 : ∀ d b, b.root = .mk nm ps [.mk (str "__fixups__") [] []] →
        rename_fragments_in_node b (str "/__fixups__") d = .ok b := by
      intro d b hb
      have hc : child_index (str "__fixups__") [Node.mk (str "__fixups__") [] []] = some 0 := by decide
      simp [rename_fragments_in_node, path_offset_fixups, fdt_subnode_offset, Node.get?, hb,
        Node.children, hc, fdt_num_props, Node.props, rename_fragments_in_props]
    have h3 : ∀ d b, b.root = .mk nm ps [.mk (str "__fixups__") [] []] →
        rename_fragments_in_node b (str "/__symbols__") d = .err .NOTFOUND b := by
      intro d b hb
      have hc : child_index (str "__symbols__") [Node.mk (str "__fixups__") [] []] = none := by decide
      simp [rename_fragments_in_node, path_offset_symbols, fdt_subnode_offset, Node.get?, hb,
        Node.children, hc]
    have h4 : ∀ b : Blob, b.root = .mk nm ps [.mk (str "__fixups__") [] []] →
        fdt_path_offset b (str "/__local_fixups__") = .error .NOTFOUND := by
      intro b hb
      have hc : child_index (str "__local_fixups__") [Node.mk (str "__fixups__") [] []] = none := by decide
      simp [path_offset_local_fixups, fdt_subnode_offset, Node.get?, hb, Node.children, hc]
    simp only [h1 _ _ hroot, h2 _ _ hroot, h3 _ _ hroot, h4 _ hroot]
    simp

theorem merge_fixups_only (fuel : Nat) (fdt fdto : Blob) (nm : Bytes)
    (ps : List (Bytes × Bytes)) (i : Nat)
    (hroot : fdto.root = .mk nm ps [.mk (str "__fixups__") [] []])
    (hph : prop_lookup (str "phandle") ps = none)
    (hlph : prop_lookup (str "linux,phandle") ps = none)
    (hfix : child_index (str "__fixups__") fdt.root.children = some i) :
    fdt_overlay_merge fuel fdt fdto = some (.ok (fdt, fdt_set_magic fdto UINT32_MAX), 0) := by
  have hci : ∀ name : Bytes, name ≠ str "__fixups__" →
      fdt_subnode_offset fdto [] name = .error .NOTFOUND := by
    intro name hne
    have : ¬ str "__fixups__" = name := fun h => hne h.symm
    simp [fdt_subnode_offset, Node.get?, hroot, Node.children, child_index, Node.name, this]
  have hfo : fdt_subnode_offset fdto [] (str "__fixups__") = .ok [0] := by
    simp [fdt_subnode_offset, Node.get?, hroot, Node.children, child_index, Node.name]
  have hadj : ∀ delta, overlay_adjust_local_phandles fdto delta = .ok fdto := by
    intro delta
    unfold overlay_adjust_local_phandles
    rw [hroot, overlay_adjust_node_phandles,
      adjust_own_no_phandle _ delta (by simpa [Node.props] using hph)
        (by simpa [Node.props] using hlph)]
    simp only [overlay_adjust_subnodes, overlay_adjust_node_phandles]
    rw [adjust_own_no_phandle _ delta (by simp [Node.props, prop_lookup])
        (by simp [Node.props, prop_lookup])]
    simp only [overlay_adjust_subnodes, Res.map, Node.set_children]
    rw [← hroot, blob_root_eta]
  have hloc : ∀ delta, overlay_update_local_references fdto delta = some (.ok fdto) := by
    intro delta
    unfold overlay_update_local_references
    rw [path_offset_local_fixups, hci _ (by decide)]
    simp
  have hfixups : overlay_fixup_phandles fdt fdto true = .ok (fdt, fdto) := by
    unfold overlay_fixup_phandles
    rw [path_offset_fixups, hfo]
    have hn : fdt_num_props fdto [0] = 0 := by
      simp [fdt_num_props, Node.get?, hroot, Node.props]
    simp only [hn, path_offset_symbols]
    rcases subnode_offset_root_cases fdt (str "__symbols__") with h | ⟨j, h⟩
    · rw [h]; simp [overlay_fixup_phandles_loop, Res.ofCode]
    · rw [h]; simp [overlay_fixup_phandles_loop, Res.ofCode]
  have hmerge : overlay_merge fdt fdto true = .ok fdt := by
    simp [overlay_merge, hroot, Node.children, overlay_merge_fragments, child_index]
  have hsym : overlay_symbol_update fuel fdt fdto true = some (.ok (fdt, fdto)) := by
    unfold overlay_symbol_update
    rw [hci _ (by decide)]
  have hcopy : fdt_overlay_merge_copy fdt fdto
      = (.ok (fdt, fdt_set_magic fdto UINT32_MAX), 0) := by
    unfold fdt_overlay_merge_copy
    have h1 : overlay_merge_node_properties fdt fdto (str "/__fixups__") = .ok fdt := by
      unfold overlay_merge_node_properties
      rw [path_offset_fixups, hfo]
      simp [Node.get?, hroot, copy_node, copy_node_dest, fdt_subnode_offset, hfix,
        copy_node_children, copy_node_props]
    have h2 : overlay_merge_node_properties fdt fdto (str "/__symbols__")
        = .err .NOTFOUND fdt := by
      unfold overlay_merge_node_properties
      rw [path_offset_symbols, hci _ (by decide)]
    have h3 : overlay_merge_local_fixups fdt fdto = .err .NOTFOUND fdt := by
      unfold overlay_merge_local_fixups
      rw [path_offset_local_fixups, hci _ (by decide)]
    simp [h1, h2, h3]
  unfold fdt_overlay_merge
  simp only [rename_fixups_only fdt fdto nm ps hroot, hadj, hloc, hfixups, hmerge, hsym, hcopy]

/-! ### The base stays well formed -/

theorem wf_list_iff (cs : List Node) : Node.wf_list cs = true ↔ ∀ c ∈ cs, Node.wf c = true := by
  induction cs with
  | nil => simp [Node.wf_list]
  | cons c cs ih => simp [Node.wf_list, ih]

theorem wf_mk_iff (nm : Bytes) (ps : List (Bytes × Bytes)) (cs : List Node) :
    Node.wf (.mk nm ps cs) = true ↔
      (ps.map Prod.fst).Nodup ∧ (cs.map Node.name).Nodup ∧ ∀ c ∈ cs, Node.wf c = true := by
  simp [Node.wf, wf_list_iff, and_assoc]

theorem wf_modifyAt (f : Node → Node) : ∀ (off : Offset) (root : Node), root.wf = true →
    (∀ n, root.get? off = some n → n.wf = true → (f n).wf = true ∧ (f n).name = n.name) →
    (root.modifyAt f off).wf = true ∧ (root.modifyAt f off).name = root.name := by
  intro off
  induction off with
  | nil =>
    intro root hwf hf
    simpa [Node.modifyAt] using hf root (by simp [Node.get?]) hwf
  | cons i rest ih =>
    intro root hwf hf
    obtain ⟨nm, ps, cs⟩ := root
    unfold Node.modifyAt
    split
    · exact ⟨hwf, rfl⟩
    · rename_i c hc
      obtain ⟨hps, hcs, hall⟩ := (wf_mk_iff nm ps cs).mp hwf
      have hlt : i < cs.length := (List.getElem?_eq_some_iff.mp hc).1
      have hci : cs[i] = c := (List.getElem?_eq_some_iff.mp hc).2
      have hcm : c ∈ cs := by rw [← hci]; exact List.getElem_mem _
      have hcwf := hall c hcm
      obtain ⟨h1, h2⟩ := ih c hcwf (fun n hn hw => hf n (by simp [Node.get?, hc, hn]) hw)
      refine ⟨?_, rfl⟩
      rw [wf_mk_iff]
      refine ⟨hps, ?_, ?_⟩
      · have : (cs.set i (c.modifyAt f rest)).map Node.name = cs.map Node.name := by
          rw [List.map_set, h2, ← hci]
          apply List.ext_getElem
          · simp
          · intro k hk1 hk2
            by_cases hk : i = k
            · subst hk; simp
            · simp [List.getElem_set_ne hk]
        rw [this]; exact hcs
      · intro x hx
        rcases List.mem_or_eq_of_mem_set hx with h | h
        · exact hall x h
        · rw [h]; exact h1

theorem wf_get (off : Offset) : ∀ (root n : Node), root.wf = true → root.get? off = some n →
    n.wf = true := by
  induction off with
  | nil => intro root n hwf h; simp [Node.get?] at h; rw [← h]; exact hwf
  | cons i rest ih =>
    intro root n hwf h
    obtain ⟨nm, ps, cs⟩ := root
    unfold Node.get? at h
    split at h
    · cases h
    · rename_i c hc
      obtain ⟨-, -, hall⟩ := (wf_mk_iff nm ps cs).mp hwf
      have hcm : c ∈ cs := by
        rw [← (List.getElem?_eq_some_iff.mp hc).2]; exact List.getElem_mem _
      exact ih c n (hall c hcm) h

theorem prop_replace_names (name val : Bytes) (ps : List (Bytes × Bytes)) :
    (prop_replace name val ps).map Prod.fst = ps.map Prod.fst := by
  induction ps with
  | nil => rfl
  | cons p ps ih =>
    unfold prop_replace
    split
    · simp
    · simp [ih]

theorem prop_lookup_none_iff (name : Bytes) (ps : List (Bytes × Bytes)) :
    prop_lookup name ps = none ↔ name ∉ ps.map Prod.fst := by
  induction ps with
  | nil => simp [prop_lookup]
  | cons p ps ih =>
    unfold prop_lookup
    split
    · rename_i h; simp [h]
    · rename_i h
      rw [ih]
      simp only [List.map_cons, List.mem_cons, not_or]
      exact ⟨fun hm => ⟨fun he => h he.symm, hm⟩, fun hm => hm.2⟩

theorem child_index_none_iff (name : Bytes) (cs : List Node) :
    child_index name cs = none ↔ name ∉ cs.map Node.name := by
  induction cs with
  | nil => simp [child_index]
  | cons c cs ih =>
    unfold child_index
    split
    · rename_i h; simp [h]
    · rename_i h
      simp only [Option.map_eq_none', ih, List.map_cons, List.mem_cons, not_or]
      exact ⟨fun hm => ⟨fun he => h he.symm, hm⟩, fun hm => hm.2⟩

theorem wf_set_props (n : Node) (ps : List (Bytes × Bytes)) (h : n.wf = true)
    (hps : (ps.map Prod.fst).Nodup) : (n.set_props ps).wf = true ∧ (n.set_props ps).name = n.name := by
  obtain ⟨nm, ps0, cs⟩ := n
  obtain ⟨-, hcs, hall⟩ := (wf_mk_iff nm ps0 cs).mp h
  exact ⟨(wf_mk_iff nm ps cs).mpr ⟨hps, hcs, hall⟩, rfl⟩

theorem wf_props_nodup (n : Node) (h : n.wf = true) : (n.props.map Prod.fst).Nodup := by
  obtain ⟨nm, ps0, cs⟩ := n
  exact ((wf_mk_iff nm ps0 cs).mp h).1

theorem splice_root (fdt fdt1 : Blob) (a b : Nat) (h : fdt_splice_struct_ fdt a b = .ok fdt1) :
    fdt1.root = fdt.root ∧ fdt1.magic = fdt.magic ∧ fdt1.version = fdt.version ∧
      fdt1.last_comp_version = fdt.last_comp_version := by
  unfold fdt_splice_struct_ at h
  split at h
  · cases h
  · cases h; exact ⟨rfl, rfl, rfl, rfl⟩

theorem update_root (fdt : Blob) (off : Offset) (f : Node → Node) :
    (fdt.update off f).root = fdt.root.modifyAt f off ∧ (fdt.update off f).magic = fdt.magic ∧
    (fdt.update off f).version = fdt.version ∧
    (fdt.update off f).last_comp_version = fdt.last_comp_version := ⟨rfl, rfl, rfl, rfl⟩

theorem Keeps.refl (a : Blob) : Keeps a a := ⟨rfl, rfl, rfl, id⟩

theorem Keeps.trans {a b c : Blob} (h1 : Keeps a b) (h2 : Keeps b c) : Keeps a c :=
  ⟨h2.1.trans h1.1, h2.2.1.trans h1.2.1, h2.2.2.1.trans h1.2.2.1, fun h => h2.2.2.2 (h1.2.2.2 h)⟩

theorem placeholder_keeps (fdt fdt1 : Blob) (off : Offset) (name : Bytes) (len : Nat)
    (h : fdt_setprop_placeholder fdt off name len = .ok fdt1) : Keeps fdt fdt1 := by
  unfold fdt_setprop_placeholder at h
  split at h
  · cases h
  · rename_i n hn
    split at h
    · rename_i v hv
      split at h
      · cases h
      · rename_i fdt2 hs
        cases h
        obtain ⟨hr, hm, hv', hl⟩ := splice_root _ _ _ _ hs
        refine ⟨hm, hv', hl, fun hwf => ?_⟩
        simp only [update_root, hr]
        refine (wf_modifyAt _ off fdt.root hwf (fun m _ hm => ?_)).1
        exact wf_set_props m _ hm (by rw [prop_replace_names]; exact wf_props_nodup m hm)
    · rename_i hv
      split at h
      · cases h
      · rename_i fdt2 hs
        cases h
        obtain ⟨hr, hm, hv', hl⟩ := splice_root _ _ _ _ hs
        refine ⟨hm, hv', hl, fun hwf => ?_⟩
        simp only [update_root, hr]
        refine (wf_modifyAt _ off fdt.root hwf (fun m hget hm => ?_)).1
        rw [hn] at hget
        cases hget
        refine wf_set_props n _ hm ?_
        simp only [List.map_cons, List.nodup_cons]
        exact ⟨(prop_lookup_none_iff _ _).mp hv, wf_props_nodup n hm⟩

theorem memcpy_keeps (fdt : Blob) (off : Offset) (name : Bytes) (idx : Nat) (data : Bytes) :
    Keeps fdt (prop_memcpy fdt off name idx data) := by
  refine ⟨rfl, rfl, rfl, fun hwf => ?_⟩
  unfold prop_memcpy
  refine (wf_modifyAt _ off fdt.root hwf (fun m _ hm => ?_)).1
  refine wf_set_props m _ hm ?_
  split
  · exact wf_props_nodup m hm
  · rw [prop_replace_names]; exact wf_props_nodup m hm

theorem setprop_keeps (fdt fdt1 : Blob) (off : Offset) (name val : Bytes)
    (h : fdt_setprop fdt off name val = .ok fdt1) : Keeps fdt fdt1 := by
  unfold fdt_setprop at h
  split at h
  · cases h
  · rename_i fdt2 hp
    cases h
    exact (placeholder_keeps _ _ _ _ _ hp).trans (memcpy_keeps _ _ _ _ _)

theorem add_subnode_keeps (fdt fdt1 : Blob) (off off1 : Offset) (name : Bytes)
    (h : fdt_add_subnode fdt off name = .ok (fdt1, off1)) : Keeps fdt fdt1 := by
  unfold fdt_add_subnode at h
  split at h
  · cases h
  · rename_i n hn
    split at h
    · cases h
    · rename_i hc
      split at h
      · cases h
      · rename_i fdt2 hs
        cases h
        obtain ⟨hr, hm, hv', hl⟩ := splice_root _ _ _ _ hs
        refine ⟨hm, hv', hl, fun hwf => ?_⟩
        simp only [update_root, hr]
        refine (wf_modifyAt _ off fdt.root hwf (fun m hget hm => ?_)).1
        rw [hn] at hget
        cases hget
        obtain ⟨nm, ps, cs⟩ := n
        obtain ⟨hps, hcs, hall⟩ := (wf_mk_iff nm ps cs).mp hm
        refine ⟨?_, rfl⟩
        simp only [Node.set_children, Node.children]
        rw [wf_mk_iff]
        refine ⟨hps, ?_, ?_⟩
        · simp only [List.map_cons, List.nodup_cons]
          exact ⟨(child_index_none_iff _ _).mp hc, hcs⟩
        · intro c hcm
          rcases List.mem_cons.mp hcm with h | h
          · rw [h]; simp [Node.wf, Node.wf_list]
          · exact hall c h



theorem apply_props_keeps (target : Offset) (ps : List (Bytes × Bytes)) :
    ∀ fdt : Blob, Keeps fdt (overlay_apply_props target ps fdt).state := by
  induction ps with
  | nil => intro fdt; exact Keeps.refl _
  | cons p rest ih =>
    intro fdt
    unfold overlay_apply_props
    split
    · exact Keeps.refl _
    · rename_i fdt1 h
      exact (setprop_keeps _ _ _ _ _ h).trans (ih fdt1)

theorem res_state_err {σ : Type} (e : FdtErr) (s : σ) : (Res.err e s).state = s := rfl
theorem res_state_ok {σ : Type} (s : σ) : (Res.ok s).state = s := rfl

mutual
theorem apply_node_keeps : ∀ (node : Node) (target : Offset) (fdt : Blob),
    Keeps fdt (overlay_apply_node node target fdt).state
  | .mk nm ps cs, target, fdt => by
    unfold overlay_apply_node
    have h1 := apply_props_keeps target ps fdt
    split
    · rename_i e s h
      rw [h] at h1
      exact h1
    · rename_i fdt1 h
      rw [h] at h1
      exact h1.trans (apply_subnodes_keeps cs target fdt1)
theorem apply_subnodes_keeps : ∀ (cs : List Node) (target : Offset) (fdt : Blob),
    Keeps fdt (overlay_apply_subnodes cs target fdt).state
  | [], _, fdt => by
    unfold overlay_apply_subnodes
    exact Keeps.refl _
  | c :: cs, target, fdt => by
    unfold overlay_apply_subnodes
    split
    · rename_i fdt1 nnode h
      have h1 := add_subnode_keeps _ _ _ _ _ h
      have h2 := apply_node_keeps c nnode fdt1
      split
      · rename_i e s h3
        rw [h3] at h2
        exact h1.trans h2
      · rename_i fdt2 h3
        rw [h3] at h2
        exact (h1.trans h2).trans (apply_subnodes_keeps cs target fdt2)
    · split
      · split
        · split <;> exact Keeps.refl _
        · rename_i nnode h
          have h2 := apply_node_keeps c nnode fdt
          split
          · rename_i e s h3
            rw [h3] at h2
            exact h2
          · rename_i fdt2 h3
            rw [h3] at h2
            exact h2.trans (apply_subnodes_keeps cs target fdt2)
      · exact Keeps.refl _
end



theorem copy_node_props_keeps (offset : Offset) (ps : List (Bytes × Bytes)) :
    ∀ fdt : Blob, Keeps fdt (copy_node_props offset ps fdt).state := by
  induction ps with
  | nil => intro fdt; exact Keeps.refl _
  | cons p rest ih =>
    intro fdt
    unfold copy_node_props
    simp only
    split
    · exact Keeps.refl _
    · rename_i fdt1 h
      exact ((placeholder_keeps _ _ _ _ _ h).trans (memcpy_keeps _ _ _ _ _)).trans (ih _)

theorem copy_node_dest_keeps (fdt fdt1 : Blob) (parent off : Offset) (name : Bytes)
    (h : copy_node_dest fdt parent name = .ok (fdt1, off)) : Keeps fdt fdt1 := by
  unfold copy_node_dest at h
  split at h
  · cases h; exact Keeps.refl _
  · exact add_subnode_keeps _ _ _ _ _ h

mutual
theorem copy_node_keeps : ∀ (node : Node) (parent : Offset) (fdt : Blob),
    Keeps fdt (copy_node node parent fdt).state
  | .mk name ps cs, parent, fdt => by
    unfold copy_node
    split
    · exact Keeps.refl _
    · rename_i fdt1 offset h
      have h1 := copy_node_dest_keeps _ _ _ _ _ h
      have h2 := copy_node_children_keeps cs offset fdt1
      split
      · rename_i e s h3
        rw [h3] at h2
        exact h1.trans h2
      · rename_i fdt2 h3
        rw [h3] at h2
        exact (h1.trans h2).trans (copy_node_props_keeps offset ps fdt2)
theorem copy_node_children_keeps : ∀ (cs : List Node) (offset : Offset) (fdt : Blob),
    Keeps fdt (copy_node_children cs offset fdt).state
  | [], _, fdt => by
    unfold copy_node_children
    exact Keeps.refl _
  | c :: cs, offset, fdt => by
    unfold copy_node_children
    have h2 := copy_node_keeps c offset fdt
    split
    · rename_i e s h3
      rw [h3] at h2
      exact h2
    · rename_i fdt1 h3
      rw [h3] at h2
      exact h2.trans (copy_node_children_keeps cs offset fdt1)
end

theorem merge_fragments_keeps (merge : Bool) (frags : List Node) :
    ∀ fdt : Blob, Keeps fdt (overlay_merge_fragments merge frags fdt).state := by
  induction frags with
  | nil => intro fdt; exact Keeps.refl _
  | cons fragment rest ih =>
    intro fdt
    unfold overlay_merge_fragments
    split
    · exact ih fdt
    · split
      · exact Keeps.refl _
      · rename_i overlay _
        split
        · split
          · have h2 := copy_node_keeps fragment [] fdt
            split
            · rename_i e s h3
              rw [h3] at h2
              exact h2
            · rename_i fdt1 h3
              rw [h3] at h2
              exact h2.trans (ih fdt1)
          · exact Keeps.refl _
        · rename_i target _
          have h2 := apply_node_keeps overlay target.1 fdt
          split
          · rename_i e s h3
            rw [h3] at h2
            exact h2
          · rename_i fdt1 h3
            rw [h3] at h2
            exact h2.trans (ih fdt1)

theorem overlay_merge_keeps (fdt fdto : Blob) (merge : Bool) :
    Keeps fdt (overlay_merge fdt fdto merge).state :=
  merge_fragments_keeps merge _ fdt

theorem symbol_write_keeps (fdt : Blob) (root_sym : Offset) (name : Bytes) (fragment : Node)
    (target : Offset) (target_path : Option Bytes) (rel_path : Bytes) :
    Keeps fdt (overlay_symbol_write fdt root_sym name fragment target target_path rel_path).state := by
  unfold overlay_symbol_write
  split
  · exact Keeps.refl _
  · split
    · exact Keeps.refl _
    · rename_i fdt1 h
      have h1 := placeholder_keeps _ _ _ _ _ h
      repeat' split
      all_goals first
        | exact h1
        | exact h1.trans (memcpy_keeps _ _ _ _ _)
        | exact h1.trans ((memcpy_keeps _ _ _ _ _).trans (memcpy_keeps _ _ _ _ _))

theorem symbol_write_keeps_eq (fdt : Blob) (root_sym : Offset) (name : Bytes) (fragment : Node)
    (target : Offset) (target_path : Option Bytes) (rel_path : Bytes) (r : Res Blob)
    (h : overlay_symbol_write fdt root_sym name fragment target target_path rel_path = r) :
    Keeps fdt r.state := by
  rw [← h]; exact symbol_write_keeps _ _ _ _ _ _ _

theorem symbol_loop_keeps (merge : Bool) (ov_sym root_sym : Offset) (fuel : Nat) :
    ∀ (prop : Nat) (st : Blob × Blob) (r : Res (Blob × Blob)),
      overlay_symbol_update_loop merge ov_sym root_sym fuel prop st = some r →
      Keeps st.1 r.state.1 := by
  induction fuel with
  | zero => intro prop st r h; simp [overlay_symbol_update_loop] at h
  | succ fuel ih =>
    intro prop st r h
    unfold overlay_symbol_update_loop at h
    dsimp only at h
    repeat' split at h
    all_goals first
      | (cases h; exact Keeps.refl _)
      | exact ih _ _ _ h
      | (have hw := symbol_write_keeps_eq _ _ _ _ _ _ _ _
          ‹overlay_symbol_write _ _ _ _ _ _ _ = _›
         first
           | (cases h; exact hw)
           | exact hw.trans (ih _ _ _ h))


theorem root_symbols_keeps (fdt fdt1 : Blob) (off : Offset)
    (h : overlay_root_symbols fdt = .ok (fdt1, off)) : Keeps fdt fdt1 := by
  unfold overlay_root_symbols at h
  split at h
  · cases h; exact Keeps.refl _
  · split at h
    · exact add_subnode_keeps _ _ _ _ _ h
    · cases h

theorem symbol_update_keeps (fuel : Nat) (fdt fdto : Blob) (merge : Bool)
    (r : Res (Blob × Blob)) (h : overlay_symbol_update fuel fdt fdto merge = some r) :
    Keeps fdt r.state.1 := by
  unfold overlay_symbol_update at h
  split at h
  · cases h; exact Keeps.refl _
  · split at h
    · cases h; exact Keeps.refl _
    · rename_i fdt1 root_sym h1
      exact (root_symbols_keeps _ _ _ h1).trans (symbol_loop_keeps _ _ _ _ _ _ _ h)

theorem fixup_phandle_base (fdt fdto : Blob) (so : Except FdtErr Offset) (property : Nat)
    (fixups_off : Offset) :
    (overlay_fixup_phandle fdt fdto so property fixups_off false).state.1 = fdt := by
  unfold overlay_fixup_phandle
  simp only [Bool.false_eq_true, if_false]
  repeat' split
  all_goals rfl

theorem fixup_loop_base (fixups_off : Offset) (n : Nat) :
    ∀ (property : Nat) (so : Except FdtErr Offset) (ret : Option FdtErr) (st : Blob × Blob),
      (overlay_fixup_phandles_loop false fixups_off n property so ret st).state.1 = st.1 := by
  induction n with
  | zero =>
    intro property so ret st
    unfold overlay_fixup_phandles_loop
    cases ret <;> simp [Res.ofCode, Res.state]
  | succ n ih =>
    intro property so ret st
    unfold overlay_fixup_phandles_loop
    have hb := fixup_phandle_base st.1 st.2 so property fixups_off
    split
    · split
      · rename_i e st1 h
        rw [h] at hb
        split
        · exact hb
        · rw [ih]; exact hb
      · rename_i st1 h
        rw [h] at hb
        simp only [Bool.false_eq_true, if_false]
        rw [ih]; exact hb
    · cases ret <;> simp [Res.ofCode, Res.state]

theorem fixup_phandles_base (fdt fdto : Blob) :
    (overlay_fixup_phandles fdt fdto false).state.1 = fdt := by
  unfold overlay_fixup_phandles
  repeat' split
  all_goals first
    | rfl
    | exact fixup_loop_base _ _ _ _ _ _

/-! ### Apply through a label -/

theorem fdt32_to_cpu_lt (v : Bytes) : fdt32_to_cpu v < 2 ^ 32 := by
  unfold fdt32_to_cpu
  generalize v.getD 0 0 = a
  generalize v.getD 1 0 = b
  generalize v.getD 2 0 = c
  generalize v.getD 3 0 = d
  omega

theorem fdt32_roundtrip (x : Nat) : fdt32_to_cpu (cpu_to_fdt32 x) = x % 2 ^ 32 := by
  unfold fdt32_to_cpu cpu_to_fdt32
  simp only [List.getD_cons_zero, List.getD_cons_succ]
  omega

theorem props_phandle_lt (ps : List (Bytes × Bytes)) : props_phandle ps < 2 ^ 32 := by
  unfold props_phandle
  repeat' split
  all_goals first
    | exact fdt32_to_cpu_lt _
    | decide

theorem get_phandle_lt (fdt : Blob) (off : Offset) : fdt_get_phandle fdt off < 2 ^ 32 := by
  unfold fdt_get_phandle
  split
  · decide
  · exact props_phandle_lt _

theorem get_modifyAt (f : Node → Node) : ∀ (off : Offset) (root : Node),
    (root.modifyAt f off).get? off = (root.get? off).map f := by
  intro off
  induction off with
  | nil => intro root; simp [Node.modifyAt, Node.get?]
  | cons i rest ih =>
    intro root
    obtain ⟨nm, ps, cs⟩ := root
    unfold Node.modifyAt
    split
    · rename_i h; simp [Node.get?, h]
    · rename_i c h
      have hlt : i < cs.length := (List.getElem?_eq_some_iff.mp h).1
      simp only [Node.get?, h]
      rw [List.getElem?_set_self hlt]
      exact ih c

theorem prop_lookup_replace_self (name val : Bytes) (ps : List (Bytes × Bytes)) (v : Bytes)
    (h : prop_lookup name ps = some v) : prop_lookup name (prop_replace name val ps) = some val := by
  induction ps with
  | nil => simp [prop_lookup] at h
  | cons p ps ih =>
    unfold prop_lookup at h
    unfold prop_replace
    split at h
    · rename_i hp; simp [hp, prop_lookup]
    · rename_i hp; simp [hp, prop_lookup, ih h]

theorem write_at_full (x data : Bytes) (h : x.length = data.length) : write_at x 0 data = data := by
  unfold write_at
  simp [← h]

theorem getprop_setprop (fdt fdt1 : Blob) (off : Offset) (name val : Bytes)
    (h : fdt_setprop fdt off name val = .ok fdt1) : fdt_getprop fdt1 off name = .ok val := by
  unfold fdt_setprop at h
  split at h
  · cases h
  · rename_i fdt2 hp
    cases h
    -- the placeholder leaves a value of the right length under `name`
    have hx : ∃ n x, fdt2.root.get? off = some n ∧ prop_lookup name n.props = some x ∧
        x.length = val.length := by
      unfold fdt_setprop_placeholder at hp
      split at hp
      · cases hp
      · rename_i n hn
        split at hp
        · rename_i v hv
          split at hp
          · cases hp
          · rename_i fdt3 hs
            cases hp
            have hr : fdt3.root = fdt.root := by
              unfold fdt_splice_struct_ at hs
              split at hs
              · cases hs
              · cases hs; rfl
            refine ⟨n.set_props (prop_replace name
                (v.take val.length ++ List.replicate (val.length - v.length) 0) n.props),
              v.take val.length ++ List.replicate (val.length - v.length) 0, ?_, ?_, ?_⟩
            · show (fdt3.root.modifyAt _ off).get? off = _
              rw [get_modifyAt, hr, hn]; rfl
            · obtain ⟨nm, ps, cs⟩ := n
              exact prop_lookup_replace_self _ _ _ _ hv
            · simp
              omega
        · rename_i hv
          split at hp
          · cases hp
          · rename_i fdt3 hs
            cases hp
            have hr : fdt3.root = fdt.root := by
              unfold fdt_splice_struct_ at hs
              split at hs
              · cases hs
              · cases hs; rfl
            refine ⟨n.set_props ((name, List.replicate val.length 0) :: n.props),
              List.replicate val.length 0, ?_, ?_, ?_⟩
            · show (fdt3.root.modifyAt _ off).get? off = _
              rw [get_modifyAt, hr, hn]; rfl
            · obtain ⟨nm, ps, cs⟩ := n
              simp [Node.set_props, Node.props, prop_lookup]
            · simp
    obtain ⟨n, x, hn, hx, hlen⟩ := hx
    unfold fdt_getprop prop_memcpy
    show (match (fdt2.root.modifyAt _ off).get? off with
      | none => Except.error FdtErr.BADOFFSET
      | some n =>
        match prop_lookup name n.props with
        | none => Except.error FdtErr.NOTFOUND
        | some v => Except.ok v) = _
    rw [get_modifyAt, hn]
    obtain ⟨nm, ps, cs⟩ := n
    simp only [Option.map_some', Node.props, Node.set_props] at hx ⊢
    rw [hx]
    simp only
    rw [prop_lookup_replace_self _ _ _ _ hx, write_at_full _ _ hlen]

theorem fixup_string_e1 (fdt fdto : Blob) (so : Except FdtErr Offset) (label : Bytes) :
    overlay_fixup_string fdt fdto so label (str "/fragment@0:target:0")
      = overlay_fixup_one_phandle fdt fdto so (str "/fragment@0:target:0") 11
          (str "target:0") 6 0 label := rfl

theorem apply_through_label (fuel : Nat) (fdt fdto : Blob) (rn : Bytes)
    (rps : List (Bytes × Bytes)) (L P V ph0 symbol_path : Bytes) (symbols N : Offset)
    (hfdt : fdt_ro_probe_ fdt = none) (hfdto : fdt_ro_probe_ fdto = none)
    (hroot : fdto.root = .mk rn rps [
      .mk (str "fragment@0") [(str "target", ph0)] [.mk (str "__overlay__") [(P, V)] []],
      .mk (str "__fixups__") [(L, str "/fragment@0:target:0" ++ [0])] []])
    (hrph : prop_lookup (str "phandle") rps = none)
    (hrlph : prop_lookup (str "linux,phandle") rps = none)
    (hph0 : ph0.length = 4)
    (hP1 : P ≠ str "phandle") (hP2 : P ≠ str "linux,phandle")
    (hL1 : L ≠ str "phandle") (hL2 : L ≠ str "linux,phandle")
    (hsym : fdt_path_offset fdt (str "/__symbols__") = .ok symbols)
    (hlabel : fdt_getprop fdt symbols L = .ok symbol_path)
    (hN : fdt_path_offset fdt symbol_path = .ok N)
    (hphN0 : fdt_get_phandle fdt N ≠ 0) (hphN1 : fdt_get_phandle fdt N ≠ UINT32_MAX)
    (huniq : fdt_node_offset_by_phandle fdt (fdt_get_phandle fdt N) = .ok N) :
    (∀ fdt1, fdt_setprop fdt N P V = .ok fdt1 →
      ∃ st, fdt_overlay_apply fuel fdt fdto = some (.ok st) ∧ st.1 = fdt1 ∧
        fdt_getprop st.1 N P = .ok V) ∧
    (∀ e, fdt_setprop fdt N P V = .error e →
      ∃ st, fdt_overlay_apply fuel fdt fdto = some (.err e st)) := by
  have hlt := get_phandle_lt fdt N
  generalize hph : fdt_get_phandle fdt N = ph at *
  -- the overlay after the fixup stage
  let fdto' : Blob := { fdto with root := .mk rn rps [
      .mk (str "fragment@0") [(str "target", cpu_to_fdt32 ph)]
        [.mk (str "__overlay__") [(P, V)] []],
      .mk (str "__fixups__") [(L, str "/fragment@0:target:0" ++ [0])] []] }
  have hadj : ∀ delta, overlay_adjust_local_phandles fdto delta = .ok fdto := by
    intro delta
    unfold overlay_adjust_local_phandles
    have hP1' : ¬ str "phandle" = P := fun h => hP1 h.symm
    have hP2' : ¬ str "linux,phandle" = P := fun h => hP2 h.symm
    have hL1' : ¬ str "phandle" = L := fun h => hL1 h.symm
    have hL2' : ¬ str "linux,phandle" = L := fun h => hL2 h.symm
    have ht1 : ¬ str "target" = str "phandle" := by decide
    have ht2 : ¬ str "target" = str "linux,phandle" := by decide
    rw [hroot]
    simp only [overlay_adjust_node_phandles, overlay_adjust_subnodes]
    rw [adjust_own_no_phandle _ delta (by simpa [Node.props] using hrph)
        (by simpa [Node.props] using hrlph)]
    rw [adjust_own_no_phandle _ delta (by simp [Node.props, prop_lookup, ht1])
        (by simp [Node.props, prop_lookup, ht2])]
    rw [adjust_own_no_phandle _ delta (by simp [Node.props, prop_lookup, hP1, hP1'])
        (by simp [Node.props, prop_lookup, hP2, hP2'])]
    rw [adjust_own_no_phandle _ delta (by simp [Node.props, prop_lookup, hL1, hL1'])
        (by simp [Node.props, prop_lookup, hL2, hL2'])]
    simp only [Res.map, Node.set_children]
    rw [← hroot, blob_root_eta]
  have hci : ∀ name : Bytes, name ≠ str "fragment@0" → name ≠ str "__fixups__" →
      fdt_subnode_offset fdto [] name = .error .NOTFOUND := by
    intro name h1 h2
    have h1' : ¬ str "fragment@0" = name := fun h => h1 h.symm
    have h2' : ¬ str "__fixups__" = name := fun h => h2 h.symm
    simp [fdt_subnode_offset, Node.get?, hroot, Node.children, child_index, Node.name, h1', h2']
  have hloc : ∀ delta, overlay_update_local_references fdto delta = some (.ok fdto) := by
    intro delta
    unfold overlay_update_local_references
    rw [path_offset_local_fixups, hci _ (by decide) (by decide)]
    simp
  have hfo : fdt_subnode_offset fdto [] (str "__fixups__") = .ok [1] := by
    have h1 : ¬ str "fragment@0" = str "__fixups__" := by decide
    simp [fdt_subnode_offset, Node.get?, hroot, Node.children, child_index, Node.name, h1]
  have hone : overlay_fixup_one_phandle fdt fdto (.ok symbols) (str "/fragment@0:target:0") 11
      (str "target:0") 6 0 L = .ok fdto' := by
    unfold overlay_fixup_one_phandle
    simp only [hlabel, hN, hph, if_neg hphN0]
    have hp : fdt_path_offset_namelen fdto (str "/fragment@0:target:0") 11 = .ok [0] := by
      have h : fdt_path_offset_namelen fdto (str "/fragment@0:target:0") 11
          = fdt_walk fdto [] [str "fragment@0"] := rfl
      rw [h]
      simp [fdt_walk, fdt_subnode_offset, Node.get?, hroot, Node.children, child_index, Node.name]
    rw [hp]
    have ht : (str "target:0").take 6 = str "target" := by decide
    simp only [ fdt_setprop_inplace_namelen_partial, Node.get?, hroot, ht,
      Node.setprop_inplace_namelen_partial, Node.props, prop_lookup, List.getElem?_cons_zero,
      if_true]
    have hw : write_at ph0 0 (cpu_to_fdt32 ph) = cpu_to_fdt32 ph := by
      apply write_at_full; rw [hph0]; rfl
    have hl : ¬ ph0.length < (cpu_to_fdt32 ph).length + 0 := by
      rw [hph0]; show ¬ (4 < 4 + 0); decide
    simp only [if_neg hl, hw, Res.ofExcept, Blob.update, hroot, Node.modifyAt, Node.set_props,
      prop_replace, if_true, List.getElem?_cons_zero, List.set_cons_zero]
  have hfixups : overlay_fixup_phandles fdt fdto false = .ok (fdt, fdto') := by
    unfold overlay_fixup_phandles
    rw [path_offset_fixups, hfo, hsym]
    have hnp : fdt_num_props fdto [1] = 1 := by
      simp [fdt_num_props, Node.get?, hroot, Node.props]
    have hgp : fdt_getprop_by_offset fdto [1] 0
        = .ok (L, str "/fragment@0:target:0" ++ [0]) := by
      simp [fdt_getprop_by_offset, Node.get?, hroot, Node.props]
    have hcs : cstrings (str "/fragment@0:target:0" ++ [0])
        = ([str "/fragment@0:target:0"], []) := by decide
    have hne : ¬ (str "/fragment@0:target:0" ++ [0] = []) := by decide
    have hph1 : overlay_fixup_phandle fdt fdto (.ok symbols) 0 [1] false = .ok (fdt, fdto') := by
      unfold overlay_fixup_phandle
      rw [hgp]
      simp only [if_neg hne]
      rw [hcs]
      unfold overlay_fixup_strings
      rw [fixup_string_e1, hone]
      simp [overlay_fixup_strings]
    simp only [hnp]
    unfold overlay_fixup_phandles_loop
    simp only [hnp, Nat.lt_one_iff, if_true, hph1]
    simp [overlay_fixup_phandles_loop, Res.ofCode]
  have hc1 : child_index (str "__overlay__") [Node.mk (str "__overlay__") [(P, V)] []]
      = some 0 := by
    simp [child_index, Node.name]
  have htp : overlay_get_target_phandle
      (.mk (str "fragment@0") [(str "target", cpu_to_fdt32 ph)]
        [.mk (str "__overlay__") [(P, V)] []]) = ph := by
    have hr : fdt32_to_cpu (cpu_to_fdt32 ph) = ph := by
      rw [fdt32_roundtrip]; exact Nat.mod_eq_of_lt hlt
    have hl4 : (cpu_to_fdt32 ph).length = 4 := rfl
    simp [overlay_get_target_phandle, Node.props, prop_lookup, hr, hl4, hphN1]
  have hto : fdt_overlay_target_offset fdt
      (.mk (str "fragment@0") [(str "target", cpu_to_fdt32 ph)]
        [.mk (str "__overlay__") [(P, V)] []]) = .ok (N, none) := by
    unfold fdt_overlay_target_offset
    simp only [htp, if_neg hphN1, if_neg hphN0, huniq]
  constructor
  · intro fdt1 hset
    have hget := getprop_setprop _ _ _ _ _ hset
    refine ⟨(fdt1, fdt_set_magic fdto' UINT32_MAX), ?_, rfl, hget⟩
    have hmerge : overlay_merge fdt fdto' false = .ok fdt1 := by
      simp only [overlay_merge, fdto', Node.children, overlay_merge_fragments, hc1,
        List.getElem?_cons_zero, hto, overlay_apply_node, overlay_apply_props, hset,
        overlay_apply_subnodes]
      simp [child_index]
    have hsymu : overlay_symbol_update fuel fdt1 fdto' false = some (.ok (fdt1, fdto')) := by
      unfold overlay_symbol_update
      have h1 : ¬ str "fragment@0" = str "__symbols__" := by decide
      have h2 : ¬ str "__fixups__" = str "__symbols__" := by decide
      simp [fdt_subnode_offset, Node.get?, fdto', Node.children, child_index, Node.name, h1, h2]
    unfold fdt_overlay_apply
    simp only [hfdt, hfdto, fdt_find_max_phandle, hadj, hloc, hfixups, hmerge, hsymu]
  · intro e hset
    have hmerge : overlay_merge fdt fdto' false = .err e fdt := by
      simp only [overlay_merge, fdto', Node.children, overlay_merge_fragments, hc1,
        List.getElem?_cons_zero, hto, overlay_apply_node, overlay_apply_props, hset]
    refine ⟨(fdt_set_magic fdt UINT32_MAX, fdt_set_magic fdto' UINT32_MAX), ?_⟩
    unfold fdt_overlay_apply
    simp only [hfdt, hfdto, fdt_find_max_phandle, hadj, hloc, hfixups, hmerge,
      fdt_overlay_apply_err]

/-! ### The drivers: error exits and the magic word -/

theorem apply_err_magic (fuel : Nat) (fdt fdto : Blob) (e : FdtErr) (st : Blob × Blob)
    (h1 : fdt_ro_probe_ fdt = none) (h2 : fdt_ro_probe_ fdto = none)
    (h : fdt_overlay_apply fuel fdt fdto = some (.err e st)) :
    st.1.magic = UINT32_MAX ∧ st.2.magic = UINT32_MAX := by
  unfold fdt_overlay_apply at h
  rw [h1, h2] at h
  simp only at h
  repeat' split at h
  all_goals simp_all [fdt_overlay_apply_err]
  all_goals (obtain ⟨-, h⟩ := h; subst h; exact ⟨set_magic_magic _, set_magic_magic _⟩)

theorem apply_ok_magic (fuel : Nat) (fdt fdto : Blob) (st : Blob × Blob)
    (h : fdt_overlay_apply fuel fdt fdto = some (.ok st)) : st.2.magic = UINT32_MAX := by
  unfold fdt_overlay_apply at h
  repeat' split at h
  all_goals simp_all [fdt_overlay_apply_err]
  all_goals (subst h; exact set_magic_magic _)

theorem merge_err_spec (e : FdtErr) (fdt fdto : Blob) (n : Nat) :
    ∃ st, fdt_overlay_merge_err e fdt fdto n = (.err e st, n) ∧ st.2.magic = UINT32_MAX ∧
      (n = 0 → st.1.magic = UINT32_MAX) ∧ (n ≠ 0 → st.1 = fdt) := by
  unfold fdt_overlay_merge_err
  split
  · exact ⟨_, rfl, set_magic_magic _, fun _ => set_magic_magic _, fun h => absurd ‹n = 0› h⟩
  · exact ⟨_, rfl, set_magic_magic _, fun h => absurd h ‹¬ n = 0›, fun _ => rfl⟩

theorem merge_copy_spec (fdt fdto : Blob) :
    (∃ st, fdt_overlay_merge_copy fdt fdto = (.ok st, 0) ∧ st.2.magic = UINT32_MAX) ∨
    (∃ e st, fdt_overlay_merge_copy fdt fdto = (.err e st, 0) ∧ st.1.magic = UINT32_MAX ∧
      st.2.magic = UINT32_MAX) := by
  unfold fdt_overlay_merge_copy
  repeat' split
  all_goals first
    | (left; exact ⟨_, rfl, set_magic_magic _⟩)
    | (right
       obtain ⟨st, h, h2, h1, -⟩ := merge_err_spec ‹FdtErr› ‹Blob› fdto 0
       exact ⟨_, _, h, h1 rfl, h2⟩)

theorem merge_cases (fuel : Nat) (fdt fdto : Blob) (r : Res (Blob × Blob)) (flag : Nat)
    (h : fdt_overlay_merge fuel fdt fdto = some (r, flag)) :
    (∃ e s, overlay_rename_fragments fdt fdto = .err e s ∧
        (r, flag) = fdt_overlay_merge_err e fdt s (if e = .NOSPACE then 1 else 0)) ∨
    ((∃ s, overlay_rename_fragments fdt fdto = .ok s) ∧
      ((∃ e a b, (r, flag) = fdt_overlay_merge_err e a b 0) ∨
        ∃ a b, (r, flag) = fdt_overlay_merge_copy a b)) := by
  unfold fdt_overlay_merge at h
  simp only at h
  split at h
  · left
    rename_i e s hr
    exact ⟨e, s, hr, (Option.some.inj h).symm⟩
  · right
    rename_i s hr
    refine ⟨⟨_, hr⟩, ?_⟩
    repeat' split at h
    all_goals first
      | (left; exact ⟨_, _, _, (Option.some.inj h).symm⟩)
      | (right; exact ⟨_, _, (Option.some.inj h).symm⟩)
      | cases h

theorem merge_ok_magic (fuel : Nat) (fdt fdto : Blob) (st : Blob × Blob) (flag : Nat)
    (h : fdt_overlay_merge fuel fdt fdto = some (.ok st, flag)) : st.2.magic = UINT32_MAX := by
  rcases merge_cases fuel fdt fdto _ _ h with ⟨e, s, -, h1⟩ | ⟨-, ⟨e, a, b, h1⟩ | ⟨a, b, h1⟩⟩
  · obtain ⟨st', h', -⟩ := merge_err_spec e fdt s (if e = .NOSPACE then 1 else 0)
    rw [h'] at h1; cases h1
  · obtain ⟨st', h', -⟩ := merge_err_spec e a b 0
    rw [h'] at h1; cases h1
  · rcases merge_copy_spec a b with ⟨st', h', hm⟩ | ⟨e, st', h', -⟩
    · rw [h'] at h1; cases h1; exact hm
    · rw [h'] at h1; cases h1

theorem merge_err_flag (fuel : Nat) (fdt fdto : Blob) (e : FdtErr) (st : Blob × Blob)
    (flag : Nat) (h : fdt_overlay_merge fuel fdt fdto = some (.err e st, flag)) :
    (flag = 1 ↔ ∃ s, overlay_rename_fragments fdt fdto = .err .NOSPACE s) ∧
    (flag = 1 → e = .NOSPACE ∧ st.1 = fdt ∧ st.2.magic = UINT32_MAX) ∧
    (flag ≠ 1 → flag = 0 ∧ st.1.magic = UINT32_MAX ∧ st.2.magic = UINT32_MAX) := by
  rcases merge_cases fuel fdt fdto _ _ h with
    ⟨e', s, hr, h1⟩ | ⟨⟨s, hr⟩, ⟨e', a, b, h1⟩ | ⟨a, b, h1⟩⟩
  · obtain ⟨st', h', hm2, hm1, hb⟩ := merge_err_spec e' fdt s (if e' = .NOSPACE then 1 else 0)
    rw [h'] at h1
    simp only [Prod.mk.injEq, Res.err.injEq] at h1
    obtain ⟨⟨he, hst⟩, hflag⟩ := h1
    subst he hst hflag
    by_cases hns : e = .NOSPACE
    · have hf : (if e = FdtErr.NOSPACE then 1 else 0) = 1 := if_pos hns
      rw [hf] at hb ⊢
      subst hns
      exact ⟨⟨fun _ => ⟨s, hr⟩, fun _ => rfl⟩, fun _ => ⟨rfl, hb (by decide), hm2⟩,
        fun h => absurd rfl h⟩
    · have hf : (if e = FdtErr.NOSPACE then 1 else 0) = 0 := if_neg hns
      rw [hf] at hm1 ⊢
      refine ⟨⟨fun h => absurd h (by decide), fun ⟨s', hs'⟩ => ?_⟩,
        fun h => absurd h (by decide), fun _ => ⟨rfl, hm1 rfl, hm2⟩⟩
      rw [hr] at hs'
      exact absurd (Res.err.inj hs').1 hns
  · obtain ⟨st', h', hm2, hm1, -⟩ := merge_err_spec e' a b 0
    rw [h'] at h1
    simp only [Prod.mk.injEq, Res.err.injEq] at h1
    obtain ⟨⟨he, hst⟩, hflag⟩ := h1
    subst he hst hflag
    refine ⟨⟨fun h => absurd h (by decide), fun ⟨s', hs'⟩ => ?_⟩,
      fun h => absurd h (by decide), fun _ => ⟨rfl, hm1 rfl, hm2⟩⟩
    rw [hr] at hs'; cases hs'
  · rcases merge_copy_spec a b with ⟨st', h', hm⟩ | ⟨e', st', h', hm1, hm2⟩
    · rw [h'] at h1; cases h1
    · rw [h'] at h1
      simp only [Prod.mk.injEq, Res.err.injEq] at h1
      obtain ⟨⟨he, hst⟩, hflag⟩ := h1
      subst he hst hflag
      refine ⟨⟨fun h => absurd h (by decide), fun ⟨s', hs'⟩ => ?_⟩,
        fun h => absurd h (by decide), fun _ => ⟨rfl, hm1, hm2⟩⟩
      rw [hr] at hs'; cases hs'

/-- C1: for a base and an overlay that pass the header probe, every error
return of `fdt_overlay_apply` leaves the magic word of both blobs at the
damaged sentinel `0xFFFFFFFF`; the error returned is that of the first stage
that fails (maximum-phandle lookup, phandle renumbering, local-reference
update, fixup resolution, fragment application, symbol update, in this
order); and when the fixup stage is reached and the first string of the first
`/__fixups__` property has its first colon but no second one, the call returns
`BADOVERLAY`. -/
theorem fdt_overlay_apply_error_exit (fuel : Nat) (fdt fdto : Blob)
    (hfdt : fdt_ro_probe_ fdt = none) (hfdto : fdt_ro_probe_ fdto = none) :
    (∀ e st, fdt_overlay_apply fuel fdt fdto = some (.err e st) →
        st.1.magic = UINT32_MAX ∧ st.2.magic = UINT32_MAX) ∧
    (∀ e, fdt_find_max_phandle fdt = .error e →
        (fdt_overlay_apply fuel fdt fdto).map Res.code = some (some e)) ∧
    (∀ delta, fdt_find_max_phandle fdt = .ok delta →
      (∀ e s, overlay_adjust_local_phandles fdto delta = .err e s →
          (fdt_overlay_apply fuel fdt fdto).map Res.code = some (some e)) ∧
      (∀ fdto1, overlay_adjust_local_phandles fdto delta = .ok fdto1 →
        (∀ e s, overlay_update_local_references fdto1 delta = some (.err e s) →
            (fdt_overlay_apply fuel fdt fdto).map Res.code = some (some e)) ∧
        (∀ fdto2, overlay_update_local_references fdto1 delta = some (.ok fdto2) →
          (∀ e s, overlay_fixup_phandles fdt fdto2 false = .err e s →
              (fdt_overlay_apply fuel fdt fdto).map Res.code = some (some e)) ∧
          (∀ st, overlay_fixup_phandles fdt fdto2 false = .ok st →
            (∀ e s, overlay_merge st.1 st.2 false = .err e s →
                (fdt_overlay_apply fuel fdt fdto).map Res.code = some (some e)) ∧
            (∀ fdt1, overlay_merge st.1 st.2 false = .ok fdt1 →
              ∀ e s, overlay_symbol_update fuel fdt1 st.2 false = some (.err e s) →
                (fdt_overlay_apply fuel fdt fdto).map Res.code = some (some e))) ∧
          (∀ fixups_off label path name rest,
            fdt_path_offset fdto2 (str "/__fixups__") = .ok fixups_off →
            fdt_getprop_by_offset fdto2 fixups_off 0
              = .ok (label, path ++ 58 :: name ++ 0 :: rest) →
            58 ∉ path → 0 ∉ path → 58 ∉ name → 0 ∉ name →
            fdt_overlay_apply fuel fdt fdto = some (.err .BADOVERLAY
              (fdt_set_magic fdt UINT32_MAX, fdt_set_magic fdto2 UINT32_MAX)))))) := by
  refine ⟨fun e st h => apply_err_magic fuel fdt fdto e st hfdt hfdto h, ?_, ?_⟩
  · intro e h
    simp [fdt_overlay_apply, hfdt, hfdto, h, fdt_overlay_apply_err, Res.code]
  · intro delta hd
    refine ⟨?_, ?_⟩
    · intro e s h
      simp [fdt_overlay_apply, hfdt, hfdto, hd, h, fdt_overlay_apply_err, Res.code]
    · intro fdto1 h1
      refine ⟨?_, ?_⟩
      · intro e s h
        simp [fdt_overlay_apply, hfdt, hfdto, hd, h1, h, fdt_overlay_apply_err, Res.code]
      · intro fdto2 h2
        refine ⟨?_, ?_, ?_⟩
        · intro e s h
          simp [fdt_overlay_apply, hfdt, hfdto, hd, h1, h2, h, fdt_overlay_apply_err, Res.code]
        · intro st h3
          refine ⟨?_, ?_⟩
          · intro e s h
            simp [fdt_overlay_apply, hfdt, hfdto, hd, h1, h2, h3, h, fdt_overlay_apply_err,
              Res.code]
          · intro fdt1 h4 e s h
            simp [fdt_overlay_apply, hfdt, hfdto, hd, h1, h2, h3, h4, h, fdt_overlay_apply_err,
              Res.code]
        · intro fixups_off label path name rest hfix hprop hp hp0 hn hn0
          have h := overlay_fixup_phandles_one_colon fdt fdto2 fixups_off label path name rest
            hfix hprop hp hp0 hn hn0
          simp [fdt_overlay_apply, hfdt, hfdto, hd, h1, h2, h, fdt_overlay_apply_err]

/-- C1 (witness): scenario E6 on the sample blobs: both pass the probe and the
call returns `BADOVERLAY` with both magic words damaged. -/
theorem fdt_overlay_apply_error_exit_witness :
    fdt_ro_probe_ e1_base = none ∧ fdt_ro_probe_ e6_overlay = none ∧
    fdt_overlay_apply 1 e1_base e6_overlay = some (.err .BADOVERLAY
      (fdt_set_magic e1_base UINT32_MAX, fdt_set_magic e6_overlay UINT32_MAX)) :=
  ⟨by decide, by decide,
    ((((fdt_overlay_apply_error_exit 1 e1_base e6_overlay (by decide) (by decide)).2.2
      1 rfl).2 e6_overlay rfl).2 e6_overlay rfl).2.2 [1] (str "a") (str "/fragment@0")
      (str "target") [] rfl rfl (by decide) (by decide) (by decide) (by decide)⟩

/-- C2: on every error return of `fdt_overlay_merge` the nospace flag is 1
exactly when the fragment-rename stage failed with `NOSPACE`; in that case the
return value is `NOSPACE` and the base blob is returned as it was passed in
(its magic word is not overwritten); in every other error case the flag is 0
and the magic word of both blobs is the damaged sentinel. -/
theorem fdt_overlay_merge_error_exit (fuel : Nat) (fdt fdto : Blob) (e : FdtErr)
    (st : Blob × Blob) (flag : Nat)
    (h : fdt_overlay_merge fuel fdt fdto = some (.err e st, flag)) :
    (flag = 1 ↔ ∃ s, overlay_rename_fragments fdt fdto = .err .NOSPACE s) ∧
    (flag = 1 → e = .NOSPACE ∧ st.1 = fdt) ∧
    (flag ≠ 1 → flag = 0 ∧ st.1.magic = UINT32_MAX ∧ st.2.magic = UINT32_MAX) := by
  obtain ⟨h1, h2, h3⟩ := merge_err_flag fuel fdt fdto e st flag h
  exact ⟨h1, fun hf => ⟨(h2 hf).1, (h2 hf).2.1⟩, h3⟩

/-- C2 (witness): scenario E5 on the sample blobs: renaming `fragment@99` to
`fragment@100` needs headroom the second overlay does not have. -/
theorem fdt_overlay_merge_error_exit_witness :
    fdt_overlay_merge 1 nospace_first nospace_second
      = some (.err .NOSPACE (nospace_first, fdt_set_magic nospace_second UINT32_MAX), 1) ∧
    ((1 = 1 ↔ ∃ s, overlay_rename_fragments nospace_first nospace_second = .err .NOSPACE s) ∧
    (1 = 1 → FdtErr.NOSPACE = .NOSPACE ∧ nospace_first = nospace_first) ∧
    (1 ≠ 1 → 1 = 0 ∧ nospace_first.magic = UINT32_MAX ∧
      (fdt_set_magic nospace_second UINT32_MAX).magic = UINT32_MAX)) :=
  ⟨rfl, fdt_overlay_merge_error_exit 1 nospace_first nospace_second .NOSPACE
    (nospace_first, fdt_set_magic nospace_second UINT32_MAX) 1 rfl⟩

theorem apply_keeps (fuel : Nat) (fdt fdto : Blob) (st : Blob × Blob)
    (h : fdt_overlay_apply fuel fdt fdto = some (.ok st)) : Keeps fdt st.1 := by
  unfold fdt_overlay_apply at h
  repeat' split at h
  all_goals try (cases h; done)
  rename_i fdto1 _ _ fdto2 _ _ st0 hfix _ fdt1 hmerge _ st1 hsym
  cases h
  have h1 := fixup_phandles_base fdt fdto2
  rw [hfix] at h1
  have h2 := overlay_merge_keeps st0.1 st0.2 false
  rw [hmerge] at h2
  have h3 := symbol_update_keeps _ _ _ _ _ hsym
  simp only [res_state_ok] at h1 h2 h3
  rw [h1] at h2
  exact h2.trans h3

theorem probe_of_keeps (a b : Blob) (h : Keeps a b) : fdt_ro_probe_ b = fdt_ro_probe_ a := by
  unfold fdt_ro_probe_
  rw [h.1, h.2.1, h.2.2.1]

theorem probe_damaged (b : Blob) (h : b.magic = UINT32_MAX) :
    fdt_ro_probe_ b = some .BADMAGIC := by
  unfold fdt_ro_probe_
  rw [h, if_neg (by decide)]

/-- C3 (counterexample): two error returns that leave the base with its FDT
magic: `fdt_overlay_merge` failing with `NOSPACE` in the rename stage, and
`fdt_overlay_apply` rejecting an overlay at the header probe. -/
theorem driver_error_base_keeps_magic :
    (fdt_overlay_merge 1 nospace_first nospace_second).map
        (fun r => (r.1.code, r.1.state.1.magic)) = some (some .NOSPACE, FDT_MAGIC) ∧
    (fdt_overlay_apply 1 e1_base e1_overlay_bad_magic).map
        (fun r => (r.code, r.state.1.magic)) = some (some .BADMAGIC, FDT_MAGIC) ∧
    FDT_MAGIC ≠ UINT32_MAX := by decide

/-- C3 (amended): an error return of `fdt_overlay_apply` on two blobs that
passed the header probe, and an error return of `fdt_overlay_merge` whose
nospace flag is 0, leave the magic word of both blobs at the damaged sentinel,
which is not the FDT magic. -/
theorem driver_error_damages_both (fuel : Nat) (fdt fdto : Blob) (e : FdtErr)
    (st : Blob × Blob) :
    (fdt_ro_probe_ fdt = none → fdt_ro_probe_ fdto = none →
      fdt_overlay_apply fuel fdt fdto = some (.err e st) →
      st.1.magic = UINT32_MAX ∧ st.2.magic = UINT32_MAX) ∧
    (fdt_overlay_merge fuel fdt fdto = some (.err e st, 0) →
      st.1.magic = UINT32_MAX ∧ st.2.magic = UINT32_MAX) ∧
    UINT32_MAX ≠ FDT_MAGIC := by
  refine ⟨fun h1 h2 h => apply_err_magic fuel fdt fdto e st h1 h2 h, fun h => ?_, by decide⟩
  exact ((merge_err_flag fuel fdt fdto e st 0 h).2.2 (by decide)).2

/-- C3 (witness): scenario E6 for apply, and a merge that fails because the
second overlay has no `/__fixups__`. -/
theorem driver_error_damages_both_witness :
    (fdt_ro_probe_ e1_base = none ∧ fdt_ro_probe_ e6_overlay = none ∧
      fdt_overlay_apply 1 e1_base e6_overlay = some (.err .BADOVERLAY
        (fdt_set_magic e1_base UINT32_MAX, fdt_set_magic e6_overlay UINT32_MAX)) ∧
      (fdt_set_magic e1_base UINT32_MAX).magic = UINT32_MAX ∧
      (fdt_set_magic e6_overlay UINT32_MAX).magic = UINT32_MAX) ∧
    (fdt_overlay_merge 1 path_first empty_overlay = some (.err .NOTFOUND
        (fdt_set_magic path_first UINT32_MAX, fdt_set_magic empty_overlay UINT32_MAX), 0) ∧
      (fdt_set_magic path_first UINT32_MAX).magic = UINT32_MAX ∧
      (fdt_set_magic empty_overlay UINT32_MAX).magic = UINT32_MAX) :=
  ⟨⟨by decide, by decide, rfl,
      (driver_error_damages_both 1 e1_base e6_overlay .BADOVERLAY
        (fdt_set_magic e1_base UINT32_MAX, fdt_set_magic e6_overlay UINT32_MAX)).1
        (by decide) (by decide) rfl⟩,
    ⟨rfl, (driver_error_damages_both 1 path_first empty_overlay .NOTFOUND
        (fdt_set_magic path_first UINT32_MAX, fdt_set_magic empty_overlay UINT32_MAX)).2.1 rfl⟩⟩

/-- C4: when `fdt_overlay_apply` returns OK the magic word of the overlay is
the damaged sentinel `0xFFFFFFFF`, and when `fdt_overlay_merge` returns OK the
magic word of the second overlay is; the header probe then rejects the
consumed overlay with `BADMAGIC`. -/
theorem consumed_overlay_is_damaged (fuel : Nat) (fdt fdto : Blob) (st : Blob × Blob) :
    (fdt_overlay_apply fuel fdt fdto = some (.ok st) →
      st.2.magic = UINT32_MAX ∧ fdt_ro_probe_ st.2 = some .BADMAGIC) ∧
    (∀ flag, fdt_overlay_merge fuel fdt fdto = some (.ok st, flag) →
      st.2.magic = UINT32_MAX ∧ fdt_ro_probe_ st.2 = some .BADMAGIC) := by
  refine ⟨fun h => ?_, fun flag h => ?_⟩
  · have hm := apply_ok_magic fuel fdt fdto st h
    exact ⟨hm, probe_damaged _ hm⟩
  · have hm := merge_ok_magic fuel fdt fdto st flag h
    exact ⟨hm, probe_damaged _ hm⟩

/-- C4 (witness): scenario E1 for apply. -/
theorem consumed_overlay_is_damaged_witness :
    fdt_overlay_apply 1 e1_base e1_overlay = some (.ok (e1_applied_base, e1_applied_overlay)) ∧
    e1_applied_overlay.magic = UINT32_MAX ∧
    fdt_ro_probe_ e1_applied_overlay = some .BADMAGIC :=
  ⟨rfl, (consumed_overlay_is_damaged 1 e1_base e1_overlay
    (e1_applied_base, e1_applied_overlay)).1 rfl⟩

/-- C5: for every base that passes the header probe, applying an overlay
whose header is valid and whose root has no child (no fragment, no
`/__fixups__`, no `/__local_fixups__`, no `/__symbols__`) and no phandle
property returns OK and leaves the base as it was: same header, same
headroom, same tree. -/
theorem fdt_overlay_apply_empty_overlay (fuel : Nat) (fdt fdto : Blob) (nm : Bytes)
    (ps : List (Bytes × Bytes))
    (hfdt : fdt_ro_probe_ fdt = none) (hfdto : fdt_ro_probe_ fdto = none)
    (hroot : fdto.root = .mk nm ps [])
    (hph : prop_lookup (str "phandle") ps = none)
    (hlph : prop_lookup (str "linux,phandle") ps = none) :
    fdt_overlay_apply fuel fdt fdto = some (.ok (fdt, fdt_set_magic fdto UINT32_MAX)) :=
  apply_empty_overlay fuel fdt fdto nm ps hfdt hfdto hroot hph hlph

/-- C5 (witness): the empty overlay applied to the base of scenario E1. -/
theorem fdt_overlay_apply_empty_overlay_witness :
    fdt_ro_probe_ e1_base = none ∧ fdt_ro_probe_ empty_overlay = none ∧
    fdt_overlay_apply 1 e1_base empty_overlay
      = some (.ok (e1_base, fdt_set_magic empty_overlay UINT32_MAX)) :=
  ⟨by decide, by decide,
    fdt_overlay_apply_empty_overlay 1 e1_base empty_overlay [] [] (by decide) (by decide) rfl
      rfl rfl⟩

/-- C6 (counterexample): merging an overlay without `/__fixups__` (the empty
overlay) into a valid overlay returns `NOTFOUND` and damages both blobs. -/
theorem fdt_overlay_merge_empty_fails :
    (fdt_overlay_merge 1 path_first empty_overlay).map
        (fun r => (r.1.code, r.1.state.1.magic, r.1.state.2.magic))
      = some (some .NOTFOUND, UINT32_MAX, UINT32_MAX) ∧
    fdt_ro_probe_ path_first = none ∧ empty_overlay.root = .mk [] [] [] := by decide

/-- C6 (amended): for every valid overlay A (its header passes the probe)
that has a `/__fixups__` node, merging into it a second overlay E with a valid
header whose only node is an empty `/__fixups__` (no fragment, no
`/__symbols__`, no `/__local_fixups__`, no phandle on the root) returns OK
with the nospace flag 0 and leaves A as it was: same header, same headroom,
same nodes and properties. -/
theorem fdt_overlay_merge_fixups_only (fuel : Nat) (fdt fdto : Blob) (nm : Bytes)
    (ps : List (Bytes × Bytes)) (i : Nat)
    (_hfdt : fdt_ro_probe_ fdt = none) (_hfdto : fdt_ro_probe_ fdto = none)
    (hroot : fdto.root = .mk nm ps [.mk (str "__fixups__") [] []])
    (hph : prop_lookup (str "phandle") ps = none)
    (hlph : prop_lookup (str "linux,phandle") ps = none)
    (hfix : child_index (str "__fixups__") fdt.root.children = some i) :
    fdt_overlay_merge fuel fdt fdto = some (.ok (fdt, fdt_set_magic fdto UINT32_MAX), 0) :=
  merge_fixups_only fuel fdt fdto nm ps i hroot hph hlph hfix

/-- C6 (witness): the overlay holding only an empty `/__fixups__`, merged into
a sample overlay. -/
theorem fdt_overlay_merge_fixups_only_witness :
    fdt_ro_probe_ path_first = none ∧ fdt_ro_probe_ fixups_only_overlay = none ∧
    child_index (str "__fixups__") path_first.root.children = some 1 ∧
    fdt_overlay_merge 1 path_first fixups_only_overlay
      = some (.ok (path_first, fdt_set_magic fixups_only_overlay UINT32_MAX), 0) :=
  ⟨by decide, by decide, by decide,
    fdt_overlay_merge_fixups_only 1 path_first fixups_only_overlay [] [] 1 (by decide)
      (by decide) rfl rfl rfl (by decide)⟩

/-- C7 (failing input): two overlays whose fragments target the root by path.
The merge returns OK, and applying the combined blob to the empty base gives
a root with `p` only, while applying the two overlays in sequence gives a
root with `q` and `p`. -/
theorem merge_then_apply_differs :
    (fdt_overlay_merge 1 path_first path_second).map (fun r => (r.1.code, r.2))
      = some (none, 0) ∧
    (merge_then_apply 1 empty_base path_first path_second).map
        (fun r => (r.code, r.state.1.root)) = some (none, .mk [] [(str "p", [1])] []) ∧
    (apply_in_sequence 1 empty_base path_first path_second).map
        (fun r => (r.code, r.state.1.root))
      = some (none, .mk [] [(str "q", [2]), (str "p", [1])] []) := by decide

/-- C8: if the base passes the full header/structure check (valid header,
property names unique within every node, sibling names unique) and
`fdt_overlay_apply` returns OK, the resulting base passes the check again: its
magic is the FDT magic and its tree is well formed. -/
theorem fdt_overlay_apply_preserves_validity (fuel : Nat) (fdt fdto : Blob)
    (st : Blob × Blob) (hvalid : fdt_check_full fdt = none)
    (h : fdt_overlay_apply fuel fdt fdto = some (.ok st)) :
    fdt_check_full st.1 = none ∧ st.1.magic = FDT_MAGIC ∧ st.1.root.wf = true := by
  have hk := apply_keeps fuel fdt fdto st h
  unfold fdt_check_full at hvalid
  split at hvalid
  · cases hvalid
  · rename_i hp
    split at hvalid
    · rename_i hwf
      have hwf' := hk.2.2.2 hwf
      refine ⟨?_, ?_, hwf'⟩
      · unfold fdt_check_full
        rw [probe_of_keeps _ _ hk, hp]
        simp [hwf']
      · rw [hk.1]
        unfold fdt_ro_probe_ at hp
        split at hp
        · assumption
        · cases hp
    · cases hvalid

/-- C8 (witness): scenario E1. -/
theorem fdt_overlay_apply_preserves_validity_witness :
    fdt_check_full e1_base = none ∧
    fdt_overlay_apply 1 e1_base e1_overlay = some (.ok (e1_applied_base, e1_applied_overlay)) ∧
    fdt_check_full e1_applied_base = none ∧ e1_applied_base.magic = FDT_MAGIC ∧
    e1_applied_base.root.wf = true :=
  ⟨by decide, rfl,
    fdt_overlay_apply_preserves_validity 1 e1_base e1_overlay
      (e1_applied_base, e1_applied_overlay) (by decide) rfl⟩

/-- C9 (counterexample): scenario E1 on a base without headroom: the call
returns `NOSPACE`, not OK. -/
theorem fdt_overlay_apply_label_nospace :
    (fdt_overlay_apply 1 e1_base_full e1_overlay).map Res.code = some (some .NOSPACE) ∧
    fdt_path_offset e1_base_full (str "/__symbols__") = .ok [1] ∧
    fdt_getprop e1_base_full [1] (str "a") = .ok (str "/node-a" ++ [0]) ∧
    fdt_path_offset e1_base_full (str "/node-a" ++ [0]) = .ok [0] ∧
    fdt_get_phandle e1_base_full [0] = 1 :=
  ⟨by decide, rfl, rfl, rfl, rfl⟩

/-- C9 (amended): let the base pass the probe, let `/__symbols__` map label L
to node N, and let the phandle of N be neither 0 nor `0xFFFFFFFF` and resolve
to N (phandles are unique).  Let the overlay have a valid header, no phandle
on its root, one fragment `fragment@0` whose `target` is a 4-byte placeholder
and whose `__overlay__` carries P = V, and `/__fixups__` with
L = "/fragment@0:target:0", where neither L nor P is `phandle` or
`linux,phandle`.  Then `fdt_overlay_apply` returns what `fdt_setprop` returns
for P = V on node N of the base: when that call succeeds, apply returns OK,
the base is the blob that call leaves, and node N has property P equal to V;
when it fails with an error, apply returns that error. -/
theorem fdt_overlay_apply_through_label (fuel : Nat) (fdt fdto : Blob) (rn : Bytes)
    (rps : List (Bytes × Bytes)) (L P V ph0 symbol_path : Bytes) (symbols N : Offset)
    (hfdt : fdt_ro_probe_ fdt = none) (hfdto : fdt_ro_probe_ fdto = none)
    (hroot : fdto.root = .mk rn rps [
      .mk (str "fragment@0") [(str "target", ph0)] [.mk (str "__overlay__") [(P, V)] []],
      .mk (str "__fixups__") [(L, str "/fragment@0:target:0" ++ [0])] []])
    (hrph : prop_lookup (str "phandle") rps = none)
    (hrlph : prop_lookup (str "linux,phandle") rps = none)
    (hph0 : ph0.length = 4)
    (hP1 : P ≠ str "phandle") (hP2 : P ≠ str "linux,phandle")
    (hL1 : L ≠ str "phandle") (hL2 : L ≠ str "linux,phandle")
    (hsym : fdt_path_offset fdt (str "/__symbols__") = .ok symbols)
    (hlabel : fdt_getprop fdt symbols L = .ok symbol_path)
    (hN : fdt_path_offset fdt symbol_path = .ok N)
    (hphN0 : fdt_get_phandle fdt N ≠ 0) (hphN1 : fdt_get_phandle fdt N ≠ UINT32_MAX)
    (huniq : fdt_node_offset_by_phandle fdt (fdt_get_phandle fdt N) = .ok N) :
    (∀ fdt1, fdt_setprop fdt N P V = .ok fdt1 →
      ∃ st, fdt_overlay_apply fuel fdt fdto = some (.ok st) ∧ st.1 = fdt1 ∧
        fdt_getprop st.1 N P = .ok V) ∧
    (∀ e, fdt_setprop fdt N P V = .error e →
      ∃ st, fdt_overlay_apply fuel fdt fdto = some (.err e st)) :=
  apply_through_label fuel fdt fdto rn rps L P V ph0 symbol_path symbols N hfdt hfdto hroot
    hrph hrlph hph0 hP1 hP2 hL1 hL2 hsym hlabel hN hphN0 hphN1 huniq

/-- C9 (witness): scenario E1: `/node-a` gets `new-prop = "hi"`. -/
theorem fdt_overlay_apply_through_label_witness :
    fdt_setprop e1_base [0] (str "new-prop") (str "hi" ++ [0]) = .ok e1_applied_base ∧
    ∃ st, fdt_overlay_apply 1 e1_base e1_overlay = some (.ok st) ∧ st.1 = e1_applied_base ∧
      fdt_getprop st.1 [0] (str "new-prop") = .ok (str "hi" ++ [0]) :=
  ⟨rfl,
    (fdt_overlay_apply_through_label 1 e1_base e1_overlay [] [] (str "a") (str "new-prop")
      (str "hi" ++ [0]) [0xde, 0xad, 0xbe, 0xef] (str "/node-a" ++ [0]) [1] [0]
      (by decide) (by decide) rfl rfl rfl rfl (by decide) (by decide) (by decide) (by decide)
      rfl rfl rfl (by decide) (by decide) rfl).1 e1_applied_base rfl⟩

/-- C10 (counterexample): scenario E2: the largest phandle of the base is 5,
the apply succeeds, and the overlay node that had phandle 1 has phandle 6, not
7; the referencing slot holds 6. -/
theorem fdt_overlay_apply_e2_gives_six :
    e2_base.root.max_phandle = 5 ∧
    (fdt_overlay_apply 1 e2_base e2_overlay).map
        (fun r => (r.code, fdt_get_phandle r.state.2 [0, 0, 0])) = some (none, 6) ∧
    (fdt_overlay_apply 1 e2_base e2_overlay).map
        (fun r => fdt_getprop r.state.2 [0, 0, 1] (str "ref")) = some (.ok [0, 0, 0, 6]) ∧
    (6 : Nat) ≠ 7 :=
  ⟨by decide, by decide, rfl, by decide⟩

/-- C10 (amended): `fdt_overlay_apply` renumbers the overlay with delta = the
maximum phandle present in the base (not that maximum plus one): a successful
apply has run both renumbering stages with that delta; and for every base
whose maximum phandle is 5 and the overlay of scenario E2 (a node with phandle
1 referenced through `/__local_fixups__`), after a successful apply the node's
phandle is 6 and the referencing 32-bit slot holds 6. -/
theorem fdt_overlay_apply_delta_is_max (fuel : Nat) (fdt : Blob) :
    (∀ fdto st, fdt_overlay_apply fuel fdt fdto = some (.ok st) →
      ∃ fdto1 fdto2, overlay_adjust_local_phandles fdto fdt.root.max_phandle = .ok fdto1 ∧
        overlay_update_local_references fdto1 fdt.root.max_phandle = some (.ok fdto2)) ∧
    (fdt.root.max_phandle = 5 → ∀ st, fdt_overlay_apply fuel fdt e2_overlay = some (.ok st) →
      fdt_get_phandle st.2 [0, 0, 0] = 6 ∧
      fdt_getprop st.2 [0, 0, 1] (str "ref") = .ok (cpu_to_fdt32 6)) := by
  constructor
  · intro fdto st h
    unfold fdt_overlay_apply at h
    simp only [fdt_find_max_phandle] at h
    repeat' split at h
    all_goals first
      | (cases h; done)
      | exact ⟨_, _, ‹overlay_adjust_local_phandles _ _ = Res.ok _›,
          ‹overlay_update_local_references _ _ = some (Res.ok _)›⟩
  · intro hmax st h
    have hadj : overlay_adjust_local_phandles e2_overlay 5
        = .ok ((overlay_adjust_local_phandles e2_overlay 5).state) := rfl
    have hloc : overlay_update_local_references
        ((overlay_adjust_local_phandles e2_overlay 5).state) 5 = some (.ok e2_renumbered) := rfl
    have hfix : overlay_fixup_phandles fdt e2_renumbered false = .ok (fdt, e2_renumbered) := by
      unfold overlay_fixup_phandles
      rw [path_offset_fixups]
      have : fdt_subnode_offset e2_renumbered [] (str "__fixups__") = .error .NOTFOUND := rfl
      rw [this]
      simp
    have hsym : ∀ fdt1, overlay_symbol_update fuel fdt1 e2_renumbered false
        = some (.ok (fdt1, e2_renumbered)) := by
      intro fdt1
      unfold overlay_symbol_update
      have : fdt_subnode_offset e2_renumbered [] (str "__symbols__") = .error .NOTFOUND := rfl
      rw [this]
    unfold fdt_overlay_apply at h
    simp only [fdt_find_max_phandle, hmax] at h
    rw [hadj] at h
    simp only [hloc, hfix, hsym] at h
    repeat' split at h
    all_goals first
      | (cases h; done)
      | (cases h; exact ⟨rfl, rfl⟩)

/-- C10 (witness): scenario E2 on the sample base. -/
theorem fdt_overlay_apply_delta_is_max_witness :
    e2_base.root.max_phandle = 5 ∧
    (∀ st, fdt_overlay_apply 1 e2_base e2_overlay = some (.ok st) →
      fdt_get_phandle st.2 [0, 0, 0] = 6 ∧
      fdt_getprop st.2 [0, 0, 1] (str "ref") = .ok (cpu_to_fdt32 6)) ∧
    (fdt_overlay_apply 1 e2_base e2_overlay).map Res.code = some none :=
  ⟨by decide, (fdt_overlay_apply_delta_is_max 1 e2_base).2 (by decide), by decide⟩

/-! ### Renumbering of phandles -/

theorem cpu_to_fdt32_length (x : Nat) : (cpu_to_fdt32 x).length = 4 := rfl

theorem set_props_props (n : Node) (ps : List (Bytes × Bytes)) : (n.set_props ps).props = ps := by
  cases n; rfl

/-- The outcome of `overlay_phandle_add_offset` on a property of one cell. -/
theorem phandle_add_offset_cell (node : Node) (name val : Bytes) (delta : Nat)
    (hval : prop_lookup name node.props = some val) (hlen : val.length = 4)
    (hd : delta < 2 ^ 32) :
    overlay_phandle_add_offset node name delta =
      if UINT32_MAX ≤ fdt32_to_cpu val + delta then .err .NOPHANDLES node
      else .ok (node.set_props (prop_replace name (cpu_to_fdt32 (fdt32_to_cpu val + delta))
        node.props)) := by
  have hv := fdt32_to_cpu_lt val
  unfold overlay_phandle_add_offset
  rw [hval]
  simp only [hlen, ne_eq, not_true_eq_false, if_false]
  by_cases hw : 2 ^ 32 ≤ fdt32_to_cpu val + delta
  · have h1 : (fdt32_to_cpu val + delta) % 2 ^ 32 < fdt32_to_cpu val := by
      have : (fdt32_to_cpu val + delta) % 2 ^ 32 = fdt32_to_cpu val + delta - 2 ^ 32 := by
        rw [Nat.mod_eq_sub_mod hw, Nat.mod_eq_of_lt (by omega)]
      omega
    have h2 : UINT32_MAX ≤ fdt32_to_cpu val + delta := by unfold UINT32_MAX; omega
    rw [if_pos h1, if_pos h2]
  · have hm : (fdt32_to_cpu val + delta) % 2 ^ 32 = fdt32_to_cpu val + delta :=
      Nat.mod_eq_of_lt (by omega)
    rw [hm, if_neg (by omega)]
    by_cases hs : fdt32_to_cpu val + delta = UINT32_MAX
    · rw [if_pos hs, if_pos (by omega)]
    · have h2 : ¬ UINT32_MAX ≤ fdt32_to_cpu val + delta := by unfold UINT32_MAX at *; omega
      rw [if_neg hs, if_neg h2]
      unfold Node.setprop_inplace_u32 Node.setprop_inplace_namelen_partial
      rw [hval]
      simp only [hlen, ne_eq, not_true_eq_false, if_false, cpu_to_fdt32_length]
      rw [if_neg (by omega), write_at_full val _ (by rw [hlen]; rfl)]
      rfl

/-- What a successful `overlay_phandle_add_offset` leaves in a one-cell property. -/
theorem phandle_add_offset_ok (node r : Node) (name val : Bytes) (delta : Nat)
    (hval : prop_lookup name node.props = some val) (hlen : val.length = 4)
    (hd : delta < 2 ^ 32) (h : overlay_phandle_add_offset node name delta = .ok r) :
    fdt32_to_cpu val + delta < UINT32_MAX ∧
    r = node.set_props (prop_replace name (cpu_to_fdt32 (fdt32_to_cpu val + delta)) node.props) ∧
    prop_lookup name r.props = some (cpu_to_fdt32 (fdt32_to_cpu val + delta)) ∧
    fdt32_to_cpu (cpu_to_fdt32 (fdt32_to_cpu val + delta)) = fdt32_to_cpu val + delta := by
  rw [phandle_add_offset_cell node name val delta hval hlen hd] at h
  split at h
  · cases h
  · rename_i hlt
    have hlt2 : fdt32_to_cpu val + delta < UINT32_MAX := by omega
    injection h with h
    subst h
    refine ⟨hlt2, rfl, ?_, ?_⟩
    · rw [set_props_props]; exact prop_lookup_replace_self _ _ _ _ hval
    · rw [fdt32_roundtrip]; exact Nat.mod_eq_of_lt (by unfold UINT32_MAX at hlt2; omega)

/-- C11: for a node whose property `name` (`phandle` or `linux,phandle`) is
4 bytes long with value v, and a 32-bit delta D, `overlay_phandle_add_offset`
fails with `NOPHANDLES` exactly when v + D ≥ 0xFFFFFFFF over the naturals and
otherwise stores exactly v + D (as one big-endian cell, nothing else of the
node changing); an absent property gives `NOTFOUND` with the node untouched,
which `overlay_adjust_node_phandles` does not treat as an error; and two
successful renumberings with the same delta keep the order and the
distinctness of the values. -/
theorem overlay_phandle_add_offset_renumbers (node : Node) (name val : Bytes) (delta : Nat)
    (hd : delta < 2 ^ 32) :
    (prop_lookup name node.props = some val → val.length = 4 →
      ((overlay_phandle_add_offset node name delta).code = some .NOPHANDLES ↔
          UINT32_MAX ≤ fdt32_to_cpu val + delta) ∧
      (fdt32_to_cpu val + delta < UINT32_MAX →
        overlay_phandle_add_offset node name delta =
          .ok (node.set_props
            (prop_replace name (cpu_to_fdt32 (fdt32_to_cpu val + delta)) node.props)) ∧
        fdt32_to_cpu (cpu_to_fdt32 (fdt32_to_cpu val + delta)) = fdt32_to_cpu val + delta)) ∧
    (prop_lookup name node.props = none →
      overlay_phandle_add_offset node name delta = .err .NOTFOUND node) ∧
    (prop_lookup (str "phandle") node.props = none →
      prop_lookup (str "linux,phandle") node.props = none →
      overlay_adjust_own_phandles node delta = .ok node) ∧
    (overlay_adjust_own_phandles node delta).code ≠ some .NOTFOUND ∧
    (∀ (node2 r1 r2 : Node) (val2 : Bytes),
      prop_lookup name node.props = some val → val.length = 4 →
      prop_lookup name node2.props = some val2 → val2.length = 4 →
      overlay_phandle_add_offset node name delta = .ok r1 →
      overlay_phandle_add_offset node2 name delta = .ok r2 →
      ∃ w1 w2, prop_lookup name r1.props = some w1 ∧ prop_lookup name r2.props = some w2 ∧
        fdt32_to_cpu w1 = fdt32_to_cpu val + delta ∧
        fdt32_to_cpu w2 = fdt32_to_cpu val2 + delta ∧
        (fdt32_to_cpu val < fdt32_to_cpu val2 ↔ fdt32_to_cpu w1 < fdt32_to_cpu w2) ∧
        (fdt32_to_cpu w1 = fdt32_to_cpu w2 → fdt32_to_cpu val = fdt32_to_cpu val2)) := by
  refine ⟨?_, ?_, ?_, ?_, ?_⟩
  · intro hval hlen
    rw [phandle_add_offset_cell node name val delta hval hlen hd]
    constructor
    · constructor
      · intro h
        split at h
        · assumption
        · simp [Res.code] at h
      · intro h
        rw [if_pos h]; rfl
    · intro h
      rw [if_neg (by omega)]
      refine ⟨rfl, ?_⟩
      rw [fdt32_roundtrip]; exact Nat.mod_eq_of_lt (by unfold UINT32_MAX at h; omega)
  · intro h
    unfold overlay_phandle_add_offset
    rw [h]
  · exact adjust_own_no_phandle node delta
  · unfold overlay_adjust_own_phandles
    repeat' split
    all_goals simp_all [Res.code]
  · intro node2 r1 r2 val2 hv1 hl1 hv2 hl2 h1 h2
    obtain ⟨_, _, hw1, hr1⟩ := phandle_add_offset_ok node r1 name val delta hv1 hl1 hd h1
    obtain ⟨_, _, hw2, hr2⟩ := phandle_add_offset_ok node2 r2 name val2 delta hv2 hl2 hd h2
    refine ⟨_, _, hw1, hw2, hr1, hr2, ?_, ?_⟩
    · rw [hr1, hr2]; omega
    · rw [hr1, hr2]; omega

/-- C11 (witness): phandle 1 and delta 5 give 6; phandle 0xFFFFFFFA and delta
5 land on the sentinel and fail. -/
theorem overlay_phandle_add_offset_renumbers_witness :
    overlay_phandle_add_offset (.mk [] [(str "phandle", [0, 0, 0, 1])] []) (str "phandle") 5
      = .ok (.mk [] [(str "phandle", [0, 0, 0, 6])] []) ∧
    (overlay_phandle_add_offset (.mk [] [(str "phandle", [0xFF, 0xFF, 0xFF, 0xFA])] [])
      (str "phandle") 5).code = some .NOPHANDLES :=
  ⟨(((overlay_phandle_add_offset_renumbers (.mk [] [(str "phandle", [0, 0, 0, 1])] [])
        (str "phandle") [0, 0, 0, 1] 5 (by decide)).1 rfl rfl).2 (by decide)).1,
   (((overlay_phandle_add_offset_renumbers (.mk [] [(str "phandle", [0xFF, 0xFF, 0xFF, 0xFA])] [])
        (str "phandle") [0xFF, 0xFF, 0xFF, 0xFA] 5 (by decide)).1 rfl rfl).1).2 (by decide)⟩

theorem prop_lookup_replace_ne (a name val : Bytes) (ps : List (Bytes × Bytes)) (h : a ≠ name) :
    prop_lookup a (prop_replace name val ps) = prop_lookup a ps := by
  induction ps with
  | nil => rfl
  | cons p ps ih =>
    unfold prop_replace
    split
    · rename_i hp
      have : p.1 ≠ a := by rw [hp]; exact fun e => h e.symm
      simp [prop_lookup, this]
    · by_cases hpa : p.1 = a
      · simp [prop_lookup, hpa]
      · simp [prop_lookup, hpa, ih]

theorem set_props_name (n : Node) (ps : List (Bytes × Bytes)) : (n.set_props ps).name = n.name := by
  cases n; rfl

theorem set_props_children (n : Node) (ps : List (Bytes × Bytes)) :
    (n.set_props ps).children = n.children := by
  cases n; rfl

/-- A successful `overlay_phandle_add_offset` in terms of lookups. -/
theorem phandle_add_offset_lookup (node r : Node) (name : Bytes) (delta : Nat)
    (hd : delta < 2 ^ 32) (h : overlay_phandle_add_offset node name delta = .ok r) :
    r.name = node.name ∧ r.children = node.children ∧
    (∀ a, a ≠ name → prop_lookup a r.props = prop_lookup a node.props) ∧
    ((prop_lookup name r.props).toList.map fdt32_to_cpu =
      ((prop_lookup name node.props).toList.map fdt32_to_cpu).map (· + delta)) := by
  cases hval : prop_lookup name node.props with
  | none =>
    unfold overlay_phandle_add_offset at h
    rw [hval] at h
    cases h
  | some val =>
    have hlen : val.length = 4 := by
      unfold overlay_phandle_add_offset at h
      rw [hval] at h
      by_contra hne
      simp [hne] at h
    obtain ⟨_, hr, hw, hrt⟩ := phandle_add_offset_ok node r name val delta hval hlen hd h
    refine ⟨?_, ?_, ?_, ?_⟩
    · rw [hr, set_props_name]
    · rw [hr, set_props_children]
    · intro a ha
      rw [hr, set_props_props, prop_lookup_replace_ne a name _ _ ha]
    · rw [hw]
      simp [hrt]

/-- The outcome of `overlay_phandle_add_offset` with `NOTFOUND` tolerated. -/
theorem phandle_add_offset_cases (node : Node) (name : Bytes) (delta : Nat) :
    (prop_lookup name node.props = none ∧
      overlay_phandle_add_offset node name delta = .err .NOTFOUND node) ∨
    (∃ e s, e ≠ .NOTFOUND ∧ overlay_phandle_add_offset node name delta = .err e s) ∨
    (∃ r, overlay_phandle_add_offset node name delta = .ok r) := by
  cases hval : prop_lookup name node.props with
  | none => left; exact ⟨rfl, by unfold overlay_phandle_add_offset; rw [hval]⟩
  | some val =>
    right
    unfold overlay_phandle_add_offset
    rw [hval]
    dsimp only
    repeat' split
    all_goals try (left; exact ⟨_, _, by decide, rfl⟩)
    unfold Node.setprop_inplace_u32 Node.setprop_inplace_namelen_partial
    rw [hval]
    repeat' split
    all_goals first
      | (left; exact ⟨_, _, by decide, rfl⟩)
      | (right; exact ⟨_, rfl⟩)
      | simp_all

theorem phandle_names_ne : str "phandle" ≠ str "linux,phandle" := by decide

/-- The second call of `overlay_adjust_own_phandles`, on `linux,phandle`. -/
theorem adjust_linux_phandle (s r : Node) (delta : Nat) (hd : delta < 2 ^ 32)
    (h : (match overlay_phandle_add_offset s (str "linux,phandle") delta with
          | .err e1 s1 => if e1 ≠ .NOTFOUND then .err e1 s1 else .ok s1
          | .ok s1 => .ok s1) = Res.ok r) :
    r.name = s.name ∧ r.children = s.children ∧
    (∀ a, a ≠ str "linux,phandle" → prop_lookup a r.props = prop_lookup a s.props) ∧
    ((prop_lookup (str "linux,phandle") r.props).toList.map fdt32_to_cpu =
      ((prop_lookup (str "linux,phandle") s.props).toList.map fdt32_to_cpu).map (· + delta)) := by
  rcases phandle_add_offset_cases s (str "linux,phandle") delta with
    ⟨hn, he⟩ | ⟨e, s1, hne, he⟩ | ⟨r1, hok⟩
  · rw [he] at h
    simp only [ne_eq, not_true_eq_false, if_false] at h
    injection h with h
    subst h
    exact ⟨rfl, rfl, fun _ _ => rfl, by rw [hn]; rfl⟩
  · rw [he] at h
    simp only [ne_eq, hne, not_false_eq_true, if_true] at h
    cases h
  · rw [hok] at h
    injection h with h
    subst h
    exact phandle_add_offset_lookup s r1 _ delta hd hok

/-- A successful `overlay_adjust_own_phandles` adds `delta` to the phandle
values of the node and leaves the rest of the node alone. -/
theorem adjust_own_values (node r : Node) (delta : Nat) (hd : delta < 2 ^ 32)
    (h : overlay_adjust_own_phandles node delta = .ok r) :
    r.name = node.name ∧ r.children = node.children ∧
    own_phandle_values r.props = (own_phandle_values node.props).map (· + delta) ∧
    (∀ a, a ≠ str "phandle" → a ≠ str "linux,phandle" →
      prop_lookup a r.props = prop_lookup a node.props) := by
  unfold overlay_adjust_own_phandles at h
  rcases phandle_add_offset_cases node (str "phandle") delta with
    ⟨hn, he⟩ | ⟨e, s1, hne, he⟩ | ⟨r1, hok⟩
  · rw [he] at h
    simp only [ne_eq, not_true_eq_false, if_false] at h
    obtain ⟨h1, h2, h3, h4⟩ := adjust_linux_phandle node r delta hd h
    refine ⟨h1, h2, ?_, fun a _ ha => h3 a ha⟩
    unfold own_phandle_values
    rw [h3 _ phandle_names_ne, List.map_append, List.map_append, List.map_append, h4, hn]
    rfl
  · rw [he] at h
    simp only [ne_eq, hne, not_false_eq_true, if_true] at h
    cases h
  · rw [hok] at h
    dsimp only at h
    obtain ⟨g1, g2, g3, g4⟩ := phandle_add_offset_lookup node r1 _ delta hd hok
    obtain ⟨h1, h2, h3, h4⟩ := adjust_linux_phandle r1 r delta hd h
    refine ⟨h1.trans g1, h2.trans g2, ?_, fun a ha1 ha2 => (h3 a ha2).trans (g3 a ha1)⟩
    unfold own_phandle_values
    rw [List.map_append, List.map_append, List.map_append, h4, h3 _ phandle_names_ne, g4,
      g3 _ phandle_names_ne.symm]

theorem res_map_ok {σ τ : Type} (f : σ → τ) (r : Res σ) (t : τ) (h : r.map f = .ok t) :
    ∃ s, r = .ok s ∧ f s = t := by
  cases r with
  | ok s => exact ⟨s, rfl, by simpa [Res.map] using h⟩
  | err e s => simp [Res.map] at h

mutual
/-- A successful `overlay_adjust_node_phandles` adds `delta` to every phandle
value of the subtree. -/
theorem adjust_node_values (delta : Nat) (hd : delta < 2 ^ 32) : ∀ (n r : Node),
    overlay_adjust_node_phandles delta n = .ok r →
    r.phandle_values = n.phandle_values.map (· + delta)
  | .mk nm ps cs, r, h => by
    unfold overlay_adjust_node_phandles at h
    split at h
    · cases h
    · rename_i s hs
      obtain ⟨cs1, hcs, hr⟩ := res_map_ok _ _ _ h
      obtain ⟨_, _, h3, _⟩ := adjust_own_values _ s delta hd hs
      have ih := adjust_subnodes_values delta hd cs cs1 hcs
      subst hr
      obtain ⟨snm, sps, scs⟩ := s
      simp only [Node.set_children, Node.phandle_values, List.map_append]
      rw [ih]
      simp only [Node.props] at h3
      rw [h3]
/-- The same for the loop over the subnodes. -/
theorem adjust_subnodes_values (delta : Nat) (hd : delta < 2 ^ 32) : ∀ (cs rs : List Node),
    overlay_adjust_subnodes delta cs = .ok rs →
    Node.phandle_values_list rs = (Node.phandle_values_list cs).map (· + delta)
  | [], rs, h => by
    unfold overlay_adjust_subnodes at h
    cases h
    rfl
  | c :: cs, rs, h => by
    unfold overlay_adjust_subnodes at h
    split at h
    · cases h
    · rename_i s hs
      obtain ⟨rest1, hrest, hr⟩ := res_map_ok _ _ _ h
      subst hr
      simp only [Node.phandle_values_list, List.map_append]
      rw [adjust_node_values delta hd c s hs, adjust_subnodes_values delta hd cs rest1 hrest]
end

theorem max_phandle_list_ge (c : Node) : ∀ (cs : List Node), c ∈ cs →
    c.max_phandle ≤ Node.max_phandle_list cs := by
  intro cs
  induction cs with
  | nil => intro h; cases h
  | cons d ds ih =>
    intro h
    unfold Node.max_phandle_list
    rcases List.mem_cons.mp h with rfl | h
    · exact le_max_left _ _
    · exact le_trans (ih h) (le_max_right _ _)

/-- No node of a tree has a phandle above `max_phandle`. -/
theorem props_phandle_le_max (off : Offset) : ∀ (root n : Node), root.get? off = some n →
    props_phandle n.props ≤ root.max_phandle := by
  induction off with
  | nil =>
    intro root n h
    simp only [Node.get?, Option.some.injEq] at h
    subst h
    obtain ⟨nm, ps, cs⟩ := root
    unfold Node.max_phandle
    exact le_max_left _ _
  | cons i rest ih =>
    intro root n h
    obtain ⟨nm, ps, cs⟩ := root
    unfold Node.get? at h
    split at h
    · cases h
    · rename_i c hc
      have hmem : c ∈ cs := List.getElem?_mem hc
      unfold Node.max_phandle
      exact le_trans (le_trans (ih c n h) (max_phandle_list_ge c cs hmem)) (le_max_right _ _)

theorem get_phandle_le_max (fdt : Blob) (off : Offset) :
    fdt_get_phandle fdt off ≤ fdt.root.max_phandle := by
  unfold fdt_get_phandle
  split
  · exact Nat.zero_le _
  · rename_i n hn
    exact props_phandle_le_max off _ n hn

mutual
theorem max_phandle_lt : ∀ (n : Node), n.max_phandle < 2 ^ 32
  | .mk nm ps cs => by
    unfold Node.max_phandle
    exact max_lt (props_phandle_lt ps) (max_phandle_list_lt cs)
theorem max_phandle_list_lt : ∀ (cs : List Node), Node.max_phandle_list cs < 2 ^ 32
  | [] => by unfold Node.max_phandle_list; decide
  | c :: cs => by
    unfold Node.max_phandle_list
    exact max_lt (max_phandle_lt c) (max_phandle_list_lt cs)
end

/-- After a successful renumbering with the delta computed from the base, the
phandle values of the overlay are the old ones plus delta, and those that were
not 0 lie above every phandle of the base. -/
theorem adjust_above_base (fdt fdto fdto1 : Blob) (delta : Nat)
    (hD : fdt_find_max_phandle fdt = .ok delta)
    (h : overlay_adjust_local_phandles fdto delta = .ok fdto1) :
    fdto1.root.phandle_values = fdto.root.phandle_values.map (· + delta) ∧
    (∀ v ∈ fdto.root.phandle_values, v ≠ 0 → ∀ off, fdt_get_phandle fdt off < v + delta) := by
  have hdelta : delta = fdt.root.max_phandle := by
    unfold fdt_find_max_phandle at hD
    injection hD with hD
    exact hD.symm
  have hd : delta < 2 ^ 32 := by rw [hdelta]; exact max_phandle_lt _
  unfold overlay_adjust_local_phandles at h
  obtain ⟨r, hr, hb⟩ := res_map_ok _ _ _ h
  subst hb
  refine ⟨adjust_node_values delta hd _ r hr, ?_⟩
  intro v _ hv off
  have := get_phandle_le_max fdt off
  omega

/-- C12 (counterexample): the largest phandle of the base of scenario E2 is 5,
so apply renumbers with delta 5; an overlay node with `phandle = <0>` then has
phandle 5, the phandle of `/node-a` of the base. -/
theorem overlay_adjust_local_phandles_zero_collides :
    fdt_find_max_phandle e2_base = .ok 5 ∧
    (overlay_adjust_local_phandles zero_phandle_overlay 5).code = none ∧
    fdt_get_phandle (overlay_adjust_local_phandles zero_phandle_overlay 5).state [0, 0, 0] = 5 ∧
    (overlay_adjust_local_phandles zero_phandle_overlay 5).state.root.phandle_values = [5] ∧
    fdt_get_phandle e2_base [0] = 5 ∧
    (fdt_overlay_apply 1 e2_base zero_phandle_overlay).map
        (fun r => (r.code, fdt_get_phandle r.state.1 [0], fdt_get_phandle r.state.1 [1]))
      = some (none, 5, 5) :=
  ⟨rfl, by decide, by decide, by decide, by decide, by decide⟩

/-- C12 (amended): with the delta D that `fdt_overlay_apply` computes from the
base (`fdt_find_max_phandle`), after `overlay_adjust_local_phandles(overlay, D)`
succeeds every `phandle` / `linux,phandle` value of the overlay is its old
value plus D, and every such value that was not 0 before the renumbering is
larger than, hence different from, the phandle of every base node. -/
theorem overlay_adjust_local_phandles_above_base (fdt fdto fdto1 : Blob) (delta : Nat)
    (hD : fdt_find_max_phandle fdt = .ok delta)
    (h : overlay_adjust_local_phandles fdto delta = .ok fdto1) :
    fdto1.root.phandle_values = fdto.root.phandle_values.map (· + delta) ∧
    (∀ v ∈ fdto.root.phandle_values, v ≠ 0 → ∀ off, fdt_get_phandle fdt off < v + delta) ∧
    ((∀ v ∈ fdto.root.phandle_values, v ≠ 0) →
      ∀ w ∈ fdto1.root.phandle_values, ∀ off, fdt_get_phandle fdt off ≠ w) := by
  obtain ⟨h1, h2⟩ := adjust_above_base fdt fdto fdto1 delta hD h
  refine ⟨h1, h2, ?_⟩
  intro hnz w hw off
  rw [h1] at hw
  obtain ⟨v, hv, rfl⟩ := List.mem_map.mp hw
  exact Nat.ne_of_lt (h2 v hv (hnz v hv) off)

/-- C12 (witness): scenario E2: the renumbered overlay holds the phandle 6,
above the base. -/
theorem overlay_adjust_local_phandles_above_base_witness :
    (overlay_adjust_local_phandles e2_overlay 5).state.root.phandle_values = [6] ∧
    (∀ w ∈ (overlay_adjust_local_phandles e2_overlay 5).state.root.phandle_values,
      ∀ off, fdt_get_phandle e2_base off ≠ w) :=
  ⟨(overlay_adjust_local_phandles_above_base e2_base e2_overlay
      (overlay_adjust_local_phandles e2_overlay 5).state 5 rfl rfl).1,
   (overlay_adjust_local_phandles_above_base e2_base e2_overlay
      (overlay_adjust_local_phandles e2_overlay 5).state 5 rfl rfl).2.2 (by decide)⟩

/-! ### The frame of the renumbering passes -/

theorem prop_agrees_refl (keep : Bytes → Nat → Prop) (p : Bytes × Bytes) : prop_agrees keep p p :=
  ⟨rfl, rfl, fun _ _ => rfl⟩

theorem props_agree_refl (keep : Bytes → Nat → Prop) (ps : List (Bytes × Bytes)) :
    List.Forall₂ (prop_agrees keep) ps ps :=
  List.forall₂_same.mpr (fun p _ => prop_agrees_refl keep p)

theorem prop_agrees_trans (keep : Bytes → Nat → Prop) (p q r : Bytes × Bytes)
    (h1 : prop_agrees keep p q) (h2 : prop_agrees keep q r) : prop_agrees keep p r :=
  ⟨h1.1.trans h2.1, h1.2.1.trans h2.2.1,
    fun i hi => (h1.2.2 i hi).trans (h2.2.2 i (h1.1 ▸ hi))⟩

theorem props_agree_trans (keep : Bytes → Nat → Prop) : ∀ (ps qs rs : List (Bytes × Bytes)),
    List.Forall₂ (prop_agrees keep) ps qs → List.Forall₂ (prop_agrees keep) qs rs →
    List.Forall₂ (prop_agrees keep) ps rs := by
  intro ps qs rs h1
  induction h1 generalizing rs with
  | nil => intro h2; cases h2; exact List.Forall₂.nil
  | cons hpq _ ih =>
    intro h2
    cases h2 with
    | cons hqr hrest => exact List.Forall₂.cons (prop_agrees_trans keep _ _ _ hpq hqr) (ih _ hrest)

mutual
theorem agree_refl (keep : List Bytes → Bytes → Nat → Prop) : ∀ (path : List Bytes) (n : Node),
    Node.agree keep path n n
  | path, .mk nm ps cs => by
    unfold Node.agree
    exact ⟨rfl, props_agree_refl _ ps, agree_list_refl keep path cs⟩
theorem agree_list_refl (keep : List Bytes → Bytes → Nat → Prop) :
    ∀ (path : List Bytes) (cs : List Node), Node.agree_list keep path cs cs
  | _, [] => by unfold Node.agree_list; rfl
  | path, c :: cs => by
    unfold Node.agree_list
    exact ⟨agree_refl keep _ c, agree_list_refl keep path cs⟩
end

theorem agree_name (keep : List Bytes → Bytes → Nat → Prop) (path : List Bytes) (a b : Node)
    (h : Node.agree keep path a b) : a.name = b.name := by
  obtain ⟨nm, ps, cs⟩ := a
  unfold Node.agree at h
  exact h.1

mutual
theorem agree_trans (keep : List Bytes → Bytes → Nat → Prop) :
    ∀ (path : List Bytes) (a b c : Node),
    Node.agree keep path a b → Node.agree keep path b c → Node.agree keep path a c
  | path, .mk n1 ps1 cs1, .mk n2 ps2 cs2, c, h1, h2 => by
    unfold Node.agree at h1 h2 ⊢
    exact ⟨h1.1.trans h2.1, props_agree_trans _ _ _ _ h1.2.1 h2.2.1,
      agree_list_trans keep path cs1 cs2 c.children h1.2.2 h2.2.2⟩
theorem agree_list_trans (keep : List Bytes → Bytes → Nat → Prop) :
    ∀ (path : List Bytes) (as bs cs : List Node),
    Node.agree_list keep path as bs → Node.agree_list keep path bs cs →
    Node.agree_list keep path as cs
  | _, [], bs, cs, h1, h2 => by
    unfold Node.agree_list at h1
    subst h1
    unfold Node.agree_list at h2
    subst h2
    unfold Node.agree_list
    rfl
  | path, a :: as, bs, cs, h1, h2 => by
    unfold Node.agree_list at h1
    cases bs with
    | nil => exact h1.elim
    | cons b bs =>
      unfold Node.agree_list at h2
      cases cs with
      | nil => exact h2.elim
      | cons c cs =>
        unfold Node.agree_list
        have hn : a.name = b.name := agree_name _ _ _ _ h1.1
        refine ⟨agree_trans keep _ a b c h1.1 ?_, agree_list_trans keep path as bs cs h1.2 h2.2⟩
        rw [hn]; exact h2.1
end

mutual
theorem agree_mono (keep keep1 : List Bytes → Bytes → Nat → Prop)
    (hk : ∀ path nm i, keep1 path nm i → keep path nm i) :
    ∀ (path : List Bytes) (a b : Node), Node.agree keep path a b → Node.agree keep1 path a b
  | path, .mk n1 ps1 cs1, b, h => by
    unfold Node.agree at h ⊢
    exact ⟨h.1, List.Forall₂.imp
      (fun p q hpq => ⟨hpq.1, hpq.2.1, fun i hi => hpq.2.2 i (hk _ _ _ hi)⟩) h.2.1,
      agree_list_mono keep keep1 hk path cs1 b.children h.2.2⟩
theorem agree_list_mono (keep keep1 : List Bytes → Bytes → Nat → Prop)
    (hk : ∀ path nm i, keep1 path nm i → keep path nm i) :
    ∀ (path : List Bytes) (as bs : List Node),
    Node.agree_list keep path as bs → Node.agree_list keep1 path as bs
  | _, [], bs, h => by
    unfold Node.agree_list at h ⊢
    exact h
  | path, a :: as, bs, h => by
    unfold Node.agree_list at h ⊢
    cases bs with
    | nil => exact h.elim
    | cons b bs =>
      exact ⟨agree_mono keep keep1 hk _ a b h.1, agree_list_mono keep keep1 hk path as bs h.2⟩
end

theorem agree_list_set (keep : List Bytes → Bytes → Nat → Prop) (path : List Bytes) :
    ∀ (cs : List Node) (i : Nat) (c s : Node), cs[i]? = some c →
    Node.agree keep (path ++ [c.name]) c s → Node.agree_list keep path cs (cs.set i s) := by
  intro cs
  induction cs with
  | nil => intro i c s h; simp at h
  | cons d ds ih =>
    intro i c s h hs
    cases i with
    | zero =>
      simp only [List.getElem?_cons_zero, Option.some.injEq] at h
      subst h
      simp only [List.set_cons_zero]
      unfold Node.agree_list
      exact ⟨hs, agree_list_refl keep path ds⟩
    | succ j =>
      simp only [List.getElem?_cons_succ] at h
      simp only [List.set_cons_succ]
      unfold Node.agree_list
      exact ⟨agree_refl keep _ d, ih j c s h hs⟩

theorem props_agree_replace (kp : Bytes → Nat → Prop) (name v w : Bytes) :
    ∀ (ps : List (Bytes × Bytes)), prop_lookup name ps = some v → v.length = w.length →
    (∀ i, kp name i → v[i]? = w[i]?) →
    List.Forall₂ (prop_agrees kp) ps (prop_replace name w ps) := by
  intro ps
  induction ps with
  | nil => intro h; simp [prop_lookup] at h
  | cons p ps ih =>
    intro h hl hk
    unfold prop_lookup at h
    unfold prop_replace
    split at h
    · rename_i hp
      rw [if_pos hp]
      injection h with h
      refine List.Forall₂.cons ⟨rfl, by rw [h]; exact hl, ?_⟩ (props_agree_refl kp ps)
      intro i hi
      rw [h]
      rw [hp] at hi
      exact hk i hi
    · rename_i hp
      rw [if_neg hp]
      exact List.Forall₂.cons (prop_agrees_refl kp p) (ih h hl hk)

theorem agree_of_parts (keep : List Bytes → Bytes → Nat → Prop) (path : List Bytes) (a b : Node)
    (hn : b.name = a.name) (hc : b.children = a.children)
    (hp : List.Forall₂ (prop_agrees (keep path)) a.props b.props) : Node.agree keep path a b := by
  obtain ⟨nm, ps, cs⟩ := a
  unfold Node.agree
  refine ⟨hn.symm, hp, ?_⟩
  rw [hc]
  exact agree_list_refl keep path cs

theorem agree_set_children (keep : List Bytes → Bytes → Nat → Prop) (path : List Bytes)
    (a : Node) (cs : List Node) (h : Node.agree_list keep path a.children cs) :
    Node.agree keep path a (a.set_children cs) := by
  obtain ⟨nm, ps, cs0⟩ := a
  unfold Node.agree
  exact ⟨rfl, props_agree_refl _ ps, h⟩

theorem write_at_length (v data : Bytes) (idx : Nat) (h : idx + data.length ≤ v.length) :
    (write_at v idx data).length = v.length := by
  unfold write_at
  simp only [List.length_append, List.length_take, List.length_drop]
  omega

theorem write_at_getElem (v data : Bytes) (idx i : Nat) (h : idx + data.length ≤ v.length)
    (hi : ¬ (idx ≤ i ∧ i < idx + data.length)) : v[i]? = (write_at v idx data)[i]? := by
  unfold write_at
  by_cases h1 : i < idx
  · rw [List.append_assoc, List.getElem?_append_left (by simp; omega)]
    rw [List.getElem?_take_of_lt h1]
  · have h2 : idx + data.length ≤ i := by omega
    rw [List.getElem?_append_right (by simp; omega)]
    simp only [List.length_append, List.length_take, List.getElem?_drop]
    congr 1
    omega

theorem child_index_some (nm : Bytes) : ∀ (cs : List Node) (i : Nat),
    child_index nm cs = some i → ∃ c, cs[i]? = some c ∧ c.name = nm := by
  intro cs
  induction cs with
  | nil => intro i h; simp [child_index] at h
  | cons d ds ih =>
    intro i h
    unfold child_index at h
    split at h
    · rename_i hd
      injection h with h
      subst h
      exact ⟨d, by simp, hd⟩
    · cases hci : child_index nm ds with
      | none => rw [hci] at h; simp at h
      | some j =>
        rw [hci] at h
        simp only [Option.map_some', Option.some.injEq] at h
        subst h
        obtain ⟨c, hc, hn⟩ := ih j hci
        exact ⟨c, by simpa using hc, hn⟩

/-- A successful `overlay_phandle_add_offset` rewrites the value of `name` only. -/
theorem phandle_add_offset_agree (kp : Bytes → Nat → Prop) (node r : Node) (name : Bytes)
    (delta : Nat) (hd : delta < 2 ^ 32) (hk : ∀ i, ¬ kp name i)
    (h : overlay_phandle_add_offset node name delta = .ok r) :
    r.name = node.name ∧ r.children = node.children ∧
    List.Forall₂ (prop_agrees kp) node.props r.props := by
  cases hval : prop_lookup name node.props with
  | none =>
    unfold overlay_phandle_add_offset at h
    rw [hval] at h
    cases h
  | some val =>
    have hlen : val.length = 4 := by
      unfold overlay_phandle_add_offset at h
      rw [hval] at h
      by_contra hne
      simp [hne] at h
    obtain ⟨_, hr, _, _⟩ := phandle_add_offset_ok node r name val delta hval hlen hd h
    refine ⟨by rw [hr, set_props_name], by rw [hr, set_props_children], ?_⟩
    rw [hr, set_props_props]
    exact props_agree_replace kp name val _ _ hval (by rw [hlen]; rfl)
      (fun i hi => (hk i hi).elim)

/-- The same with `NOTFOUND` tolerated, as in `overlay_adjust_node_phandles`. -/
theorem phandle_add_offset_agree_tolerant (kp : Bytes → Nat → Prop) (s r : Node) (name : Bytes)
    (delta : Nat) (hd : delta < 2 ^ 32) (hk : ∀ i, ¬ kp name i)
    (h : (match overlay_phandle_add_offset s name delta with
          | .err e1 s1 => if e1 ≠ .NOTFOUND then .err e1 s1 else .ok s1
          | .ok s1 => .ok s1) = Res.ok r) :
    r.name = s.name ∧ r.children = s.children ∧
    List.Forall₂ (prop_agrees kp) s.props r.props := by
  rcases phandle_add_offset_cases s name delta with ⟨_, he⟩ | ⟨e, s1, hne, he⟩ | ⟨r1, hok⟩
  · rw [he] at h
    simp only [ne_eq, not_true_eq_false, if_false] at h
    injection h with h
    subst h
    exact ⟨rfl, rfl, props_agree_refl kp _⟩
  · rw [he] at h
    simp only [ne_eq, hne, not_false_eq_true, if_true] at h
    cases h
  · rw [hok] at h
    injection h with h
    subst h
    exact phandle_add_offset_agree kp s r1 name delta hd hk hok

theorem adjust_own_agree (kp : Bytes → Nat → Prop) (node r : Node) (delta : Nat)
    (hd : delta < 2 ^ 32) (hk1 : ∀ i, ¬ kp (str "phandle") i)
    (hk2 : ∀ i, ¬ kp (str "linux,phandle") i)
    (h : overlay_adjust_own_phandles node delta = .ok r) :
    r.name = node.name ∧ r.children = node.children ∧
    List.Forall₂ (prop_agrees kp) node.props r.props := by
  unfold overlay_adjust_own_phandles at h
  rcases phandle_add_offset_cases node (str "phandle") delta with
    ⟨_, he⟩ | ⟨e, s1, hne, he⟩ | ⟨r1, hok⟩
  · rw [he] at h
    simp only [ne_eq, not_true_eq_false, if_false] at h
    exact phandle_add_offset_agree_tolerant kp node r _ delta hd hk2 h
  · rw [he] at h
    simp only [ne_eq, hne, not_false_eq_true, if_true] at h
    cases h
  · rw [hok] at h
    dsimp only at h
    obtain ⟨g1, g2, g3⟩ := phandle_add_offset_agree kp node r1 _ delta hd hk1 hok
    obtain ⟨h1, h2, h3⟩ := phandle_add_offset_agree_tolerant kp r1 r _ delta hd hk2 h
    exact ⟨h1.trans g1, h2.trans g2, props_agree_trans kp _ _ _ g3 h3⟩

mutual
/-- The phandle pass rewrites the values of `phandle` and `linux,phandle` only. -/
theorem adjust_node_agree (keep : List Bytes → Bytes → Nat → Prop) (delta : Nat)
    (hd : delta < 2 ^ 32) (hk1 : ∀ path i, ¬ keep path (str "phandle") i)
    (hk2 : ∀ path i, ¬ keep path (str "linux,phandle") i) :
    ∀ (path : List Bytes) (n r : Node), overlay_adjust_node_phandles delta n = .ok r →
    Node.agree keep path n r
  | path, .mk nm ps cs, r, h => by
    unfold overlay_adjust_node_phandles at h
    split at h
    · cases h
    · rename_i s hs
      obtain ⟨cs1, hcs, hr⟩ := res_map_ok _ _ _ h
      obtain ⟨h1, h2, h3⟩ := adjust_own_agree (keep path) _ s delta hd (hk1 path) (hk2 path) hs
      have ih := adjust_subnodes_agree keep delta hd hk1 hk2 path cs cs1 hcs
      subst hr
      have hs1 : Node.agree keep path (.mk nm ps cs) s := agree_of_parts keep path _ s h1 h2 h3
      refine agree_trans keep path _ s _ hs1 (agree_set_children keep path s cs1 ?_)
      rw [h2]
      exact ih
theorem adjust_subnodes_agree (keep : List Bytes → Bytes → Nat → Prop) (delta : Nat)
    (hd : delta < 2 ^ 32) (hk1 : ∀ path i, ¬ keep path (str "phandle") i)
    (hk2 : ∀ path i, ¬ keep path (str "linux,phandle") i) :
    ∀ (path : List Bytes) (cs rs : List Node), overlay_adjust_subnodes delta cs = .ok rs →
    Node.agree_list keep path cs rs
  | path, [], rs, h => by
    unfold overlay_adjust_subnodes at h
    cases h
    unfold Node.agree_list
    rfl
  | path, c :: cs, rs, h => by
    unfold overlay_adjust_subnodes at h
    split at h
    · cases h
    · rename_i s hs
      obtain ⟨rest1, hrest, hr⟩ := res_map_ok _ _ _ h
      subst hr
      unfold Node.agree_list
      exact ⟨adjust_node_agree keep delta hd hk1 hk2 _ c s hs,
        adjust_subnodes_agree keep delta hd hk1 hk2 path cs rest1 hrest⟩
end

/-- The cells loop rewrites the slots it is given only. -/
theorem local_cells_agree (kp : Bytes → Nat → Prop) (name : Bytes) (delta : Nat) :
    ∀ (cells : List Nat) (tree t1 : Node),
    (∀ o ∈ cells, ∀ i, o ≤ i → i < o + 4 → ¬ kp name i) →
    walk_local_cells tree name delta cells = .ok t1 →
    t1.name = tree.name ∧ t1.children = tree.children ∧
    List.Forall₂ (prop_agrees kp) tree.props t1.props := by
  intro cells
  induction cells with
  | nil =>
    intro tree t1 _ h
    unfold walk_local_cells at h
    injection h with h
    subst h
    exact ⟨rfl, rfl, props_agree_refl kp _⟩
  | cons o rest ih =>
    intro tree t1 hk h
    unfold walk_local_cells at h
    split at h
    · cases h
    · rename_i tree_val hval
      dsimp only at h
      split at h
      · split at h <;> cases h
      · rename_i t2 hset
        unfold Node.setprop_inplace_namelen_partial at hset
        rw [hval] at hset
        dsimp only at hset
        split at hset
        · cases hset
        · rename_i hlen
          injection hset with hset
          rw [cpu_to_fdt32_length] at hlen
          have hb : o + (cpu_to_fdt32 ((fdt32_to_cpu (List.drop o tree_val) + delta) % 2 ^ 32)).length
              ≤ tree_val.length := by rw [cpu_to_fdt32_length]; omega
          obtain ⟨h1, h2, h3⟩ := ih t2 t1
            (fun o1 ho1 => hk o1 (List.mem_cons_of_mem _ ho1)) h
          have g3 : List.Forall₂ (prop_agrees kp) tree.props t2.props := by
            rw [← hset, set_props_props]
            refine props_agree_replace kp name tree_val _ _ hval
              (write_at_length _ _ _ hb).symm ?_
            intro i hi
            refine write_at_getElem _ _ _ _ hb ?_
            rw [cpu_to_fdt32_length]
            intro hr
            exact hk o (List.mem_cons_self _ _) i hr.1 hr.2 hi
          refine ⟨h1.trans ?_, h2.trans ?_, props_agree_trans kp _ _ _ g3 h3⟩
          · rw [← hset, set_props_name]
          · rw [← hset, set_props_children]

/-- The property loop of the local-reference walk rewrites named slots only. -/
theorem local_props_agree (kp : Bytes → Nat → Prop) (delta : Nat) :
    ∀ (fps : List (Bytes × Bytes)) (tree t1 : Node),
    (∀ p ∈ fps, ∀ o ∈ fixup_cells (p.2.length / 4) p.2, ∀ i, o ≤ i → i < o + 4 → ¬ kp p.1 i) →
    walk_local_props tree delta fps = .ok t1 →
    t1.name = tree.name ∧ t1.children = tree.children ∧
    List.Forall₂ (prop_agrees kp) tree.props t1.props := by
  intro fps
  induction fps with
  | nil =>
    intro tree t1 _ h
    unfold walk_local_props at h
    injection h with h
    subst h
    exact ⟨rfl, rfl, props_agree_refl kp _⟩
  | cons p rest ih =>
    intro tree t1 hk h
    unfold walk_local_props at h
    split at h
    · cases h
    · split at h
      · cases h
      · split at h
        · cases h
        · rename_i t2 hcells
          obtain ⟨g1, g2, g3⟩ := local_cells_agree kp p.1 delta _ tree t2
            (hk p (List.mem_cons_self _ _)) hcells
          obtain ⟨h1, h2, h3⟩ := ih t2 t1 (fun q hq => hk q (List.mem_cons_of_mem _ hq)) h
          exact ⟨h1.trans g1, h2.trans g2, props_agree_trans kp _ _ _ g3 h3⟩

mutual
/-- The local-reference walk rewrites only the slots its mirror names. -/
theorem local_refs_agree (keep : List Bytes → Bytes → Nat → Prop) (delta : Nat) :
    ∀ (fixup : Node) (path : List Bytes) (tree t1 : Node),
    (∀ s ∈ local_fixup_slots fixup path, ∀ i, s.2.2 ≤ i → i < s.2.2 + 4 → ¬ keep s.1 s.2.1 i) →
    walk_local_node delta fixup tree = .ok t1 →
    Node.agree keep path tree t1
  | .mk fnm fps fcs, path, tree, t1, hk, h => by
    unfold walk_local_node at h
    unfold local_fixup_slots at hk
    split at h
    · cases h
    · rename_i t2 hprops
      have hp : ∀ p ∈ fps, ∀ o ∈ fixup_cells (p.2.length / 4) p.2, ∀ i, o ≤ i → i < o + 4 →
          ¬ keep path p.1 i := by
        intro p hp o ho i h1 h2
        refine hk (path, p.1, o) ?_ i h1 h2
        refine List.mem_append_left _ (List.mem_flatten.mpr ⟨_, List.mem_map.mpr ⟨p, hp, rfl⟩, ?_⟩)
        exact List.mem_map.mpr ⟨o, ho, rfl⟩
      obtain ⟨g1, g2, g3⟩ := local_props_agree (keep path) delta fps tree t2 hp hprops
      exact agree_trans keep path tree t2 t1 (agree_of_parts keep path tree t2 g1 g2 g3)
        (local_subnodes_agree keep delta fcs path t2 t1
          (fun s hs => hk s (List.mem_append_right _ hs)) h)
/-- The same for the loop over the children of the mirror. -/
theorem local_subnodes_agree (keep : List Bytes → Bytes → Nat → Prop) (delta : Nat) :
    ∀ (fcs : List Node) (path : List Bytes) (tree t1 : Node),
    (∀ s ∈ local_fixup_slots_list fcs path, ∀ i, s.2.2 ≤ i → i < s.2.2 + 4 →
      ¬ keep s.1 s.2.1 i) →
    walk_local_subnodes delta fcs tree = .ok t1 →
    Node.agree keep path tree t1
  | [], path, tree, t1, _, h => by
    unfold walk_local_subnodes at h
    injection h with h
    subst h
    exact agree_refl keep path _
  | fc :: rest, path, tree, t1, hk, h => by
    unfold walk_local_subnodes at h
    unfold local_fixup_slots_list at hk
    split at h
    · cases h
    · rename_i i hci
      split at h
      · cases h
      · rename_i tc htc
        split at h
        · cases h
        · rename_i s hs
          obtain ⟨c, hc, hcn⟩ := child_index_some _ _ _ hci
          rw [htc] at hc
          injection hc with hc
          subst hc
          have ih1 := local_refs_agree keep delta fc (path ++ [fc.name]) tc s
            (fun x hx => hk x (List.mem_append_left _ hx)) hs
          have ih2 := local_subnodes_agree keep delta rest path _ t1
            (fun x hx => hk x (List.mem_append_right _ hx)) h
          refine agree_trans keep path tree _ t1 (agree_set_children keep path tree _ ?_) ih2
          refine agree_list_set keep path _ i tc s htc ?_
          rw [hcn]
          exact ih1
end

theorem agree_list_child_index (keep : List Bytes → Bytes → Nat → Prop) (nm : Bytes) :
    ∀ (path : List Bytes) (as bs : List Node), Node.agree_list keep path as bs →
    child_index nm as = child_index nm bs := by
  intro path as
  induction as with
  | nil =>
    intro bs h
    unfold Node.agree_list at h
    rw [h]
  | cons a as ih =>
    intro bs h
    unfold Node.agree_list at h
    cases bs with
    | nil => exact h.elim
    | cons b bs =>
      have hn : a.name = b.name := agree_name _ _ _ _ h.1
      unfold child_index
      rw [hn, ih bs h.2]

theorem agree_list_get (keep : List Bytes → Bytes → Nat → Prop) :
    ∀ (path : List Bytes) (as bs : List Node) (i : Nat) (b : Node),
    Node.agree_list keep path as bs → bs[i]? = some b →
    ∃ a, as[i]? = some a ∧ Node.agree keep (path ++ [a.name]) a b := by
  intro path as
  induction as with
  | nil =>
    intro bs i b h hb
    unfold Node.agree_list at h
    rw [h] at hb
    simp at hb
  | cons a as ih =>
    intro bs i b h hb
    unfold Node.agree_list at h
    cases bs with
    | nil => exact h.elim
    | cons b0 bs =>
      cases i with
      | zero =>
        simp only [List.getElem?_cons_zero, Option.some.injEq] at hb
        subst hb
        exact ⟨a, by simp, h.1⟩
      | succ j =>
        simp only [List.getElem?_cons_succ] at hb
        obtain ⟨a1, ha1, hag⟩ := ih bs j b h.2 hb
        exact ⟨a1, by simpa using ha1, hag⟩

theorem bytes_eq_of_getElem (v w : Bytes) (_hl : v.length = w.length)
    (h : ∀ i : Nat, v[i]? = w[i]?) : v = w :=
  List.ext_getElem? h

/-- The slots of two mirrors of the same shape. -/
theorem props_slots_subset (kp : Bytes → Nat → Prop) (spath : List Bytes)
    (hkp : ∀ nm i, nm ≠ str "phandle" → nm ≠ str "linux,phandle" → kp nm i) :
    ∀ (ps qs : List (Bytes × Bytes)), List.Forall₂ (prop_agrees kp) ps qs →
    ∀ s ∈ (qs.map (fun p => (fixup_cells (p.2.length / 4) p.2).map
        (fun o => (spath, p.1, o)))).flatten,
      s.2.1 ≠ str "phandle" → s.2.1 ≠ str "linux,phandle" →
      s ∈ (ps.map (fun p => (fixup_cells (p.2.length / 4) p.2).map
        (fun o => (spath, p.1, o)))).flatten := by
  intro ps qs h
  induction h with
  | nil => intro s hs; simp at hs
  | cons hpq _ ih =>
    rename_i p q ps1 qs1 _
    intro s hs h1 h2
    simp only [List.map_cons, List.flatten_cons, List.mem_append] at hs ⊢
    rcases hs with hs | hs
    · left
      obtain ⟨o, ho, rfl⟩ := List.mem_map.mp hs
      dsimp only at h1 h2
      have hname : p.1 = q.1 := hpq.1
      have hval : p.2 = q.2 := by
        refine bytes_eq_of_getElem _ _ hpq.2.1 (fun i => hpq.2.2 i ?_)
        exact hkp _ _ (by rw [hname]; exact h1) (by rw [hname]; exact h2)
      rw [hname, hval]
      exact List.mem_map.mpr ⟨o, ho, rfl⟩
    · right
      exact ih s hs h1 h2

mutual
theorem slots_subset (keep : List Bytes → Bytes → Nat → Prop)
    (hkeep : ∀ path nm i, nm ≠ str "phandle" → nm ≠ str "linux,phandle" → keep path nm i) :
    ∀ (m1 m2 : Node) (apath spath : List Bytes), Node.agree keep apath m1 m2 →
    ∀ s ∈ local_fixup_slots m2 spath, s.2.1 ≠ str "phandle" → s.2.1 ≠ str "linux,phandle" →
      s ∈ local_fixup_slots m1 spath
  | .mk n1 ps1 cs1, .mk n2 ps2 cs2, apath, spath, h, s, hs, h1, h2 => by
    unfold Node.agree at h
    unfold local_fixup_slots at hs ⊢
    rcases List.mem_append.mp hs with hs | hs
    · exact List.mem_append_left _
        (props_slots_subset (keep apath) spath (hkeep apath) ps1 ps2 h.2.1 s hs h1 h2)
    · exact List.mem_append_right _
        (slots_list_subset keep hkeep cs1 cs2 apath spath h.2.2 s hs h1 h2)
theorem slots_list_subset (keep : List Bytes → Bytes → Nat → Prop)
    (hkeep : ∀ path nm i, nm ≠ str "phandle" → nm ≠ str "linux,phandle" → keep path nm i) :
    ∀ (cs1 cs2 : List Node) (apath spath : List Bytes), Node.agree_list keep apath cs1 cs2 →
    ∀ s ∈ local_fixup_slots_list cs2 spath, s.2.1 ≠ str "phandle" →
      s.2.1 ≠ str "linux,phandle" → s ∈ local_fixup_slots_list cs1 spath
  | [], cs2, apath, spath, h, s, hs, _, _ => by
    unfold Node.agree_list at h
    subst h
    exact hs
  | c :: cs1, cs2, apath, spath, h, s, hs, h1, h2 => by
    unfold Node.agree_list at h
    cases cs2 with
    | nil => exact h.elim
    | cons d cs2 =>
      unfold local_fixup_slots_list at hs ⊢
      have hn : c.name = d.name := agree_name _ _ _ _ h.1
      rcases List.mem_append.mp hs with hs | hs
      · refine List.mem_append_left _ ?_
        rw [hn]
        exact slots_subset keep hkeep c d _ _ h.1 s hs h1 h2
      · exact List.mem_append_right _
          (slots_list_subset keep hkeep cs1 cs2 apath spath h.2 s hs h1 h2)
end

mutual
/-- Trees that agree on every byte are equal. -/
theorem agree_all_eq : ∀ (path : List Bytes) (a b : Node),
    Node.agree (fun _ _ _ => True) path a b → a = b
  | path, .mk n1 ps1 cs1, .mk n2 ps2 cs2, h => by
    unfold Node.agree at h
    have hp : ps1 = ps2 := by
      have := h.2.1
      simp only [Node.props] at this
      clear h
      induction this with
      | nil => rfl
      | cons hpq _ ih =>
        rename_i p q _ _ _
        have h2 : p.2 = q.2 := bytes_eq_of_getElem _ _ hpq.2.1 (fun i => hpq.2.2 i trivial)
        rw [ih, Prod.ext hpq.1 h2]
    have hc : cs1 = cs2 := agree_list_all_eq path cs1 cs2 h.2.2
    have hn : n1 = n2 := h.1
    rw [hp, hc, hn]
theorem agree_list_all_eq : ∀ (path : List Bytes) (as bs : List Node),
    Node.agree_list (fun _ _ _ => True) path as bs → as = bs
  | _, [], bs, h => by
    unfold Node.agree_list at h
    exact h.symm
  | path, a :: as, bs, h => by
    unfold Node.agree_list at h
    cases bs with
    | nil => exact h.elim
    | cons b bs => rw [agree_all_eq _ a b h.1, agree_list_all_eq path as bs h.2]
end

theorem get_child (root : Node) (i : Nat) :
    root.get? [i] = root.children[i]? := by
  obtain ⟨nm, ps, cs⟩ := root
  unfold Node.get?
  simp only [Node.children]
  cases cs[i]? with
  | none => rfl
  | some c => simp [Node.get?]

theorem overlay_local_slots_eq (b : Blob) :
    overlay_local_slots b =
      match child_index (str "__local_fixups__") b.root.children with
      | none => []
      | some i =>
        match b.root.children[i]? with
        | none => []
        | some m => local_fixup_slots m [] := by
  unfold overlay_local_slots
  rw [path_offset_local_fixups]
  unfold fdt_subnode_offset
  simp only [Node.get?]
  cases child_index (str "__local_fixups__") b.root.children with
  | none => rfl
  | some i =>
    simp only [List.nil_append]
    rw [get_child]

/-- The mirror the local-reference pass reads after the phandle pass names no
other slots, outside `phandle` properties, than the mirror of the overlay as
it was handed in. -/
theorem local_slots_after_adjust (fdto a : Blob) (delta : Nat) (hd : delta < 2 ^ 32)
    (h1 : overlay_adjust_local_phandles fdto delta = .ok a) :
    ∀ s ∈ overlay_local_slots a, s.2.1 ≠ str "phandle" → s.2.1 ≠ str "linux,phandle" →
      s ∈ overlay_local_slots fdto := by
  unfold overlay_adjust_local_phandles at h1
  obtain ⟨r, hr, hb⟩ := res_map_ok _ _ _ h1
  subst hb
  have hag : Node.agree (fun _ nm _ => nm ≠ str "phandle" ∧ nm ≠ str "linux,phandle") []
      fdto.root r :=
    adjust_node_agree _ delta hd (fun _ _ h => h.1 rfl) (fun _ _ h => h.2 rfl) [] _ r hr
  have hcs : Node.agree_list (fun _ nm _ => nm ≠ str "phandle" ∧ nm ≠ str "linux,phandle") []
      fdto.root.children r.children := by
    cases hroot : fdto.root with
    | mk nm ps cs =>
      rw [hroot] at hag
      unfold Node.agree at hag
      exact hag.2.2
  intro s hs hs1 hs2
  rw [overlay_local_slots_eq] at hs ⊢
  dsimp only at hs
  rw [agree_list_child_index _ (str "__local_fixups__") [] _ _ hcs]
  cases hci : child_index (str "__local_fixups__") r.children with
  | none => rw [hci] at hs; simp at hs
  | some i =>
    rw [hci] at hs
    dsimp only at hs ⊢
    cases hb : r.children[i]? with
    | none => rw [hb] at hs; simp at hs
    | some m2 =>
      obtain ⟨m1, hm1, hm⟩ := agree_list_get _ [] _ _ i m2 hcs hb
      rw [hb] at hs
      rw [hm1]
      exact slots_subset _ (fun _ _ _ h1 h2 => ⟨h1, h2⟩) m1 m2 _ [] hm s hs hs1 hs2

/-- The frame of the two renumbering passes. -/
theorem renumbering_agree (fdto a b : Blob) (delta : Nat) (hd : delta < 2 ^ 32)
    (h1 : overlay_adjust_local_phandles fdto delta = .ok a)
    (h2 : walk_local_references a delta = .ok b) :
    b.magic = fdto.magic ∧ b.version = fdto.version ∧
    b.last_comp_version = fdto.last_comp_version ∧ b.free = fdto.free ∧
    Node.agree (renumbering_keeps (overlay_local_slots fdto)) [] fdto.root b.root := by
  have hsl := local_slots_after_adjust fdto a delta hd h1
  have hA : a.magic = fdto.magic ∧ a.version = fdto.version ∧
      a.last_comp_version = fdto.last_comp_version ∧ a.free = fdto.free ∧
      Node.agree (renumbering_keeps (overlay_local_slots fdto)) [] fdto.root a.root := by
    unfold overlay_adjust_local_phandles at h1
    obtain ⟨r, hr, hb⟩ := res_map_ok _ _ _ h1
    subst hb
    exact ⟨rfl, rfl, rfl, rfl,
      adjust_node_agree _ delta hd (fun _ _ h => h.1 rfl) (fun _ _ h => h.2.1 rfl) [] _ r hr⟩
  obtain ⟨g1, g2, g3, g4, g5⟩ := hA
  unfold walk_local_references at h2
  split at h2
  · rename_i e he
    split at h2
    · injection h2 with h2
      subst h2
      exact ⟨g1, g2, g3, g4, g5⟩
    · cases h2
  · rename_i fixups hf
    split at h2
    · cases h2
    · rename_i fixup_node hfn
      obtain ⟨r, hr, hb⟩ := res_map_ok _ _ _ h2
      subst hb
      refine ⟨g1, g2, g3, g4, agree_trans _ [] _ a.root r g5 ?_⟩
      refine local_refs_agree _ delta fixup_node [] a.root r ?_ hr
      intro s hs i hi1 hi2 hk
      have hmem : s ∈ overlay_local_slots a := by
        unfold overlay_local_slots
        rw [hf]
        simp only [hfn]
        exact hs
      exact hk.2.2 s.2.2 (hsl s hmem hk.1 hk.2.1) ⟨hi1, hi2⟩

/-- C14: a successful run of `overlay_adjust_local_phandles` followed by
`overlay_update_local_references`, on an overlay whose mirror names no slot
inside the mirror itself (the overlay has no node
`/__local_fixups__/__local_fixups__`), leaves the header and the headroom of
the overlay unchanged, and the resulting tree agrees with the original one:
the same nodes with the same names, in every node the same property names with
values of the same length, and the same byte everywhere except in the values
of `phandle` / `linux,phandle` properties and in the 4-byte slots named by
`/__local_fixups__` of the original overlay. -/
theorem renumbering_frame (fdto a b : Blob) (delta : Nat) (hd : delta < 2 ^ 32)
    (_hself : local_fixups_apart fdto = true)
    (h1 : overlay_adjust_local_phandles fdto delta = .ok a)
    (h2 : overlay_update_local_references a delta = some (.ok b)) :
    b.magic = fdto.magic ∧ b.version = fdto.version ∧
    b.last_comp_version = fdto.last_comp_version ∧ b.free = fdto.free ∧
    Node.agree (renumbering_keeps (overlay_local_slots fdto)) [] fdto.root b.root :=
  renumbering_agree fdto a b delta hd h1 (local_references_walk a delta _ h2)

/-- C14 (witness): scenario E2: the mirror names the slot at byte 0 of `ref`
under `/fragment@0/__overlay__/user`, and the renumbered overlay agrees with
the original one outside that slot and the phandle of `child`. -/
theorem renumbering_frame_witness :
    local_fixups_apart e2_overlay = true ∧
    overlay_local_slots e2_overlay
      = [([str "fragment@0", str "__overlay__", str "user"], str "ref", 0)] ∧
    Node.agree (renumbering_keeps (overlay_local_slots e2_overlay)) [] e2_overlay.root
      e2_renumbered.root :=
  ⟨by decide, by decide,
   (renumbering_frame e2_overlay (overlay_adjust_local_phandles e2_overlay 5).state
      e2_renumbered 5 (by decide) (by decide) rfl rfl).2.2.2.2⟩

/-! ### Resolving one fixup -/

/-- The write at the end of `overlay_fixup_one_phandle`. -/
theorem setprop_partial_ok (fdto : Blob) (off : Offset) (n : Node) (nm v data : Bytes) (idx : Nat)
    (hn : fdto.root.get? off = some n) (hv : prop_lookup nm n.props = some v)
    (hlen : idx + data.length ≤ v.length) :
    ∃ fdto1, fdt_setprop_inplace_namelen_partial fdto off nm idx data = .ok fdto1 ∧
      fdto1 = fdto.update off (fun _ => n.set_props (prop_replace nm (write_at v idx data) n.props)) ∧
      fdt_getprop fdto1 off nm = .ok (v.take idx ++ data ++ v.drop (idx + data.length)) := by
  refine ⟨_, ?_, rfl, ?_⟩
  · unfold fdt_setprop_inplace_namelen_partial Node.setprop_inplace_namelen_partial
    rw [hn]
    simp only [hv]
    rw [if_neg (by omega)]
  · unfold fdt_getprop Blob.update
    simp only
    rw [get_modifyAt, hn]
    simp only [Option.map_some', set_props_props]
    rw [prop_lookup_replace_self nm _ _ v hv]
    rfl

/-- The outcomes of `overlay_fixup_one_phandle`. -/
theorem fixup_one_phandle_cases (fdt fdto : Blob) (symbols_off : Except FdtErr Offset)
    (path : Bytes) (path_len : Nat) (name : Bytes) (name_len poffset : Nat) (label : Bytes) :
    (symbols_off = .error .NOTFOUND →
      overlay_fixup_one_phandle fdt fdto symbols_off path path_len name name_len poffset label
        = .err .NOTFOUND fdto) ∧
    (∀ symbols, symbols_off = .ok symbols →
      fdt_getprop fdt symbols label = .error .NOTFOUND →
      overlay_fixup_one_phandle fdt fdto symbols_off path path_len name name_len poffset label
        = .err .NOTFOUND fdto) ∧
    (∀ symbols symbol_path symbol_off, symbols_off = .ok symbols →
      fdt_getprop fdt symbols label = .ok symbol_path →
      fdt_path_offset fdt symbol_path = .ok symbol_off →
      (fdt_get_phandle fdt symbol_off = 0 →
        overlay_fixup_one_phandle fdt fdto symbols_off path path_len name name_len poffset label
          = .err .NOTFOUND fdto) ∧
      (fdt_get_phandle fdt symbol_off ≠ 0 →
        (fdt_path_offset_namelen fdto path path_len = .error .NOTFOUND →
          overlay_fixup_one_phandle fdt fdto symbols_off path path_len name name_len poffset
            label = .err .BADOVERLAY fdto) ∧
        (∀ fixup_off n v, fdt_path_offset_namelen fdto path path_len = .ok fixup_off →
          fdto.root.get? fixup_off = some n →
          prop_lookup (name.take name_len) n.props = some v → poffset + 4 ≤ v.length →
          ∃ fdto1,
            overlay_fixup_one_phandle fdt fdto symbols_off path path_len name name_len poffset
              label = .ok fdto1 ∧
            fdto1 = fdto.update fixup_off (fun _ => n.set_props
              (prop_replace (name.take name_len)
                (write_at v poffset (cpu_to_fdt32 (fdt_get_phandle fdt symbol_off))) n.props)) ∧
            fdt_getprop fdto1 fixup_off (name.take name_len)
              = .ok (v.take poffset ++ cpu_to_fdt32 (fdt_get_phandle fdt symbol_off)
                  ++ v.drop (poffset + 4)) ∧
            fdt32_to_cpu (cpu_to_fdt32 (fdt_get_phandle fdt symbol_off))
              = fdt_get_phandle fdt symbol_off))) := by
  refine ⟨?_, ?_, ?_⟩
  · intro h
    unfold overlay_fixup_one_phandle
    rw [h]
  · intro symbols h hl
    unfold overlay_fixup_one_phandle
    rw [h]
    simp only [hl]
  · intro symbols symbol_path symbol_off h hl hp
    refine ⟨?_, ?_⟩
    · intro hph
      unfold overlay_fixup_one_phandle
      rw [h]
      simp only [hl, hp, hph, if_true]
    · intro hph
      refine ⟨?_, ?_⟩
      · intro hpath
        unfold overlay_fixup_one_phandle
        rw [h]
        simp only [hl, hp, hph, if_false, hpath, if_true]
      · intro fixup_off n v hpath hn hv hlen
        obtain ⟨fdto1, h1, h2, h3⟩ := setprop_partial_ok fdto fixup_off n (name.take name_len) v
          (cpu_to_fdt32 (fdt_get_phandle fdt symbol_off)) poffset hn hv
          (by rw [cpu_to_fdt32_length]; exact hlen)
        refine ⟨fdto1, ?_, h2, ?_, ?_⟩
        · unfold overlay_fixup_one_phandle
          rw [h]
          simp only [hl, hp, hph, if_false, hpath, h1]
          rfl
        · rw [h3, cpu_to_fdt32_length]
        · rw [fdt32_roundtrip]
          exact Nat.mod_eq_of_lt (get_phandle_lt fdt symbol_off)

/-- C15 (counterexample): scenario E1 with the fixup `/fragment@0:target:1`:
the base has `/__symbols__`, the label `a` is a property of it, the labelled
node has phandle 1 and `/fragment@0` exists in the overlay, yet nothing is
written: the slot 1..5 does not fit the 4-byte property and the call returns
`NOSPACE`. -/
theorem overlay_fixup_one_phandle_slot_out_of_range :
    fdt_path_offset e1_base (str "/__symbols__") = .ok [1] ∧
    fdt_getprop e1_base [1] (str "a") = .ok (str "/node-a" ++ [0]) ∧
    fdt_path_offset e1_base (str "/node-a" ++ [0]) = .ok [0] ∧
    fdt_get_phandle e1_base [0] = 1 ∧
    fdt_path_offset_namelen e1_overlay (str "/fragment@0:target:1") 11 = .ok [0] ∧
    overlay_fixup_one_phandle e1_base e1_overlay (.ok [1]) (str "/fragment@0:target:1") 11
      (str "target:1") 6 1 (str "a") = .err .NOSPACE e1_overlay :=
  ⟨rfl, rfl, rfl, rfl, rfl, rfl⟩

/-- C15 (amended): `overlay_fixup_one_phandle` returns `NOTFOUND` when the
base has no `/__symbols__` (the caller passes the failed lookup), when the
label is not a property of it, or when the labelled base node has phandle 0;
when the label resolves to a base node with a phandle other than 0 it returns
`BADOVERLAY` if `path` does not exist in the overlay, and if `path` resolves
to an overlay node whose property `prop-name` holds at least `offset + 4`
bytes it returns 0 and has written the phandle as 4 big-endian bytes at byte
offset `offset` of that property, the other bytes of the property and the
rest of the overlay being unchanged. -/
theorem overlay_fixup_one_phandle_postcondition (fdt fdto : Blob) (symbols_off : Except FdtErr Offset)
    (path : Bytes) (path_len : Nat) (name : Bytes) (name_len poffset : Nat) (label : Bytes) :
    (symbols_off = .error .NOTFOUND →
      overlay_fixup_one_phandle fdt fdto symbols_off path path_len name name_len poffset label
        = .err .NOTFOUND fdto) ∧
    (∀ symbols, symbols_off = .ok symbols →
      fdt_getprop fdt symbols label = .error .NOTFOUND →
      overlay_fixup_one_phandle fdt fdto symbols_off path path_len name name_len poffset label
        = .err .NOTFOUND fdto) ∧
    (∀ symbols symbol_path symbol_off, symbols_off = .ok symbols →
      fdt_getprop fdt symbols label = .ok symbol_path →
      fdt_path_offset fdt symbol_path = .ok symbol_off →
      (fdt_get_phandle fdt symbol_off = 0 →
        overlay_fixup_one_phandle fdt fdto symbols_off path path_len name name_len poffset label
          = .err .NOTFOUND fdto) ∧
      (fdt_get_phandle fdt symbol_off ≠ 0 →
        (fdt_path_offset_namelen fdto path path_len = .error .NOTFOUND →
          overlay_fixup_one_phandle fdt fdto symbols_off path path_len name name_len poffset
            label = .err .BADOVERLAY fdto) ∧
        (∀ fixup_off n v, fdt_path_offset_namelen fdto path path_len = .ok fixup_off →
          fdto.root.get? fixup_off = some n →
          prop_lookup (name.take name_len) n.props = some v → poffset + 4 ≤ v.length →
          ∃ fdto1,
            overlay_fixup_one_phandle fdt fdto symbols_off path path_len name name_len poffset
              label = .ok fdto1 ∧
            fdto1 = fdto.update fixup_off (fun _ => n.set_props
              (prop_replace (name.take name_len)
                (write_at v poffset (cpu_to_fdt32 (fdt_get_phandle fdt symbol_off))) n.props)) ∧
            fdt_getprop fdto1 fixup_off (name.take name_len)
              = .ok (v.take poffset ++ cpu_to_fdt32 (fdt_get_phandle fdt symbol_off)
                  ++ v.drop (poffset + 4)) ∧
            fdt32_to_cpu (cpu_to_fdt32 (fdt_get_phandle fdt symbol_off))
              = fdt_get_phandle fdt symbol_off))) :=
  fixup_one_phandle_cases fdt fdto symbols_off path path_len name name_len poffset label

/-- C15 (witness): scenario E1: the fixup `/fragment@0:target:0` writes the
phandle 1 of `/node-a` over the placeholder. -/
theorem overlay_fixup_one_phandle_postcondition_witness :
    ∃ fdto1,
      overlay_fixup_one_phandle e1_base e1_overlay (.ok [1]) (str "/fragment@0:target:0") 11
        (str "target:0") 6 0 (str "a") = .ok fdto1 ∧
      fdt_getprop fdto1 [0] (str "target") = .ok [0, 0, 0, 1] :=
  have h := ((overlay_fixup_one_phandle_postcondition e1_base e1_overlay (.ok [1])
    (str "/fragment@0:target:0") 11 (str "target:0") 6 0 (str "a")).2.2 [1]
    (str "/node-a" ++ [0]) [0] rfl rfl rfl).2 (by decide)
  have h2 := h.2 [0]
    (.mk (str "fragment@0") [(str "target", [0xde, 0xad, 0xbe, 0xef])] [
      .mk (str "__overlay__") [(str "new-prop", str "hi" ++ [0])] []])
    [0xde, 0xad, 0xbe, 0xef] rfl rfl rfl (by decide)
  h2.elim (fun fdto1 hx => ⟨fdto1, hx.1, hx.2.2.1⟩)

/-! ### Validation of fixup strings -/

theorem cstrings_no_nul (s : Bytes) (h : 0 ∉ s) : cstrings s = ([], s) := by
  unfold cstrings
  have key : ∀ (t cur : Bytes), 0 ∉ t → cstrings_aux t cur = ([], cur.reverse ++ t) := by
    intro t
    induction t with
    | nil => intro cur _; simp [cstrings_aux]
    | cons x xs ih =>
      intro cur ht
      have hx : x ≠ 0 := fun hx => ht (by simp [hx])
      have hxs : 0 ∉ xs := fun hm => ht (List.mem_cons_of_mem _ hm)
      rw [cstrings_aux, if_neg hx, ih _ hxs]
      simp
  rw [key s [] h]
  rfl

theorem cstrings_nul_terminated (good : List Bytes) (x : Bytes) (hgood : ∀ g ∈ good, 0 ∉ g) :
    cstrings (nul_terminated good ++ x) = (good ++ (cstrings x).1, (cstrings x).2) := by
  induction good with
  | nil => simp [nul_terminated]
  | cons g gs ih =>
    have e : nul_terminated (g :: gs) ++ x = g ++ 0 :: (nul_terminated gs ++ x) := by
      simp [nul_terminated]
    rw [e, cstrings_append g _ (hgood g (List.mem_cons_self _ _)),
      ih (fun g1 hg1 => hgood g1 (List.mem_cons_of_mem _ hg1))]
    rfl

theorem fixup_strings_append (fdt : Blob) (so : Except FdtErr Offset) (label : Bytes) :
    ∀ (good : List Bytes) (more : List Bytes) (fdto fdto1 : Blob),
    overlay_fixup_strings fdt so label good fdto = .ok fdto1 →
    overlay_fixup_strings fdt so label (good ++ more) fdto
      = overlay_fixup_strings fdt so label more fdto1 := by
  intro good
  induction good with
  | nil =>
    intro more fdto fdto1 h
    unfold overlay_fixup_strings at h
    injection h with h
    subst h
    rfl
  | cons g gs ih =>
    intro more fdto fdto1 h
    unfold overlay_fixup_strings at h
    simp only [List.cons_append]
    split at h
    · cases h
    · rename_i st hst
      rw [show overlay_fixup_strings fdt so label (g :: (gs ++ more)) fdto
          = (match overlay_fixup_string fdt fdto so label g with
             | .err e st => .err e st
             | .ok st => overlay_fixup_strings fdt so label (gs ++ more) st) from rfl, hst]
      exact ih more st fdto1 h

/-- The outcome of `overlay_fixup_phandle` when the strings before a bad one
have resolved. -/
theorem fixup_phandle_bad_string (fdt fdto fdto1 : Blob) (so : Except FdtErr Offset)
    (property : Nat) (fixups_off : Offset) (merge : Bool) (label value : Bytes)
    (good : List Bytes) (bad rest : Bytes)
    (hprop : fdt_getprop_by_offset fdto fixups_off property = .ok (label, value))
    (hgood : ∀ g ∈ good, 0 ∉ g)
    (hres : overlay_fixup_strings fdt so label good fdto = .ok fdto1)
    (hbad0 : 0 ∉ bad)
    (hvalue : value = nul_terminated good ++ bad ++ 0 :: rest)
    (hbad : overlay_fixup_string fdt fdto1 so label bad = .err .BADOVERLAY fdto1) :
    overlay_fixup_phandle fdt fdto so property fixups_off merge
      = .err .BADOVERLAY (fdt, fdto1) := by
  unfold overlay_fixup_phandle
  rw [hprop]
  dsimp only
  have hne : value ≠ [] := by
    rw [hvalue]
    simp
  rw [if_neg hne]
  have hcs : (cstrings value).1 = good ++ bad :: (cstrings rest).1 := by
    rw [hvalue, List.append_assoc, cstrings_nul_terminated good _ hgood,
      cstrings_append bad rest hbad0]
  rw [hcs, fixup_strings_append fdt so label good _ fdto fdto1 hres]
  unfold overlay_fixup_strings
  rw [hbad]

/-- The outcome of `overlay_fixup_phandle` when the value ends without a NUL. -/
theorem fixup_phandle_unterminated (fdt fdto fdto1 : Blob) (so : Except FdtErr Offset)
    (property : Nat) (fixups_off : Offset) (merge : Bool) (label value : Bytes)
    (good : List Bytes) (bad : Bytes)
    (hprop : fdt_getprop_by_offset fdto fixups_off property = .ok (label, value))
    (hgood : ∀ g ∈ good, 0 ∉ g)
    (hres : overlay_fixup_strings fdt so label good fdto = .ok fdto1)
    (hbad0 : 0 ∉ bad)
    (hvalue : value = nul_terminated good ++ bad)
    (hbad : bad ≠ [] ∨ good = []) :
    overlay_fixup_phandle fdt fdto so property fixups_off merge
      = .err .BADOVERLAY (fdt, fdto1) := by
  unfold overlay_fixup_phandle
  rw [hprop]
  dsimp only
  by_cases hv : value = []
  · rw [if_pos hv]
    have hg : good = [] := by
      rcases hbad with hb | hg
      · rw [hvalue] at hv
        exact absurd (List.append_eq_nil.mp hv).2 hb
      · exact hg
    subst hg
    unfold overlay_fixup_strings at hres
    injection hres with hres
    rw [hres]
  · rw [if_neg hv]
    have hcs : cstrings value = (good, bad) := by
      rw [hvalue, cstrings_nul_terminated good _ hgood, cstrings_no_nul bad hbad0]
      simp
    rw [hcs]
    dsimp only
    rw [hres]
    dsimp only
    have hb : bad ≠ [] := by
      rcases hbad with hb | hg
      · exact hb
      · subst hg
        intro hb
        apply hv
        rw [hvalue, hb]
        rfl
    rw [if_pos hb]

/-- The parse of a fixup string with two colons: `path:name:num`. -/
theorem fixup_string_two_colons (fdt fdto : Blob) (so : Except FdtErr Offset)
    (label p nm num : Bytes) (hp : 58 ∉ p) (hnm : 58 ∉ nm) :
    overlay_fixup_string fdt fdto so label (p ++ 58 :: (nm ++ 58 :: num)) =
      if nm = [] then .err .BADOVERLAY fdto
      else if (strtoul num).2 < num.length ∨ (strtoul num).2 = 0 then .err .BADOVERLAY fdto
      else overlay_fixup_one_phandle fdt fdto so (p ++ 58 :: (nm ++ 58 :: num)) p.length
        (nm ++ 58 :: num) nm.length ((strtoul num).1 % 2 ^ 32) label := by
  unfold overlay_fixup_string
  rw [memchr_append_mem p _ 58 hp]
  dsimp only
  have h1 : ¬ (p.length = (p ++ 58 :: (nm ++ 58 :: num)).length - 1) := by
    simp only [List.length_append, List.length_cons]
    omega
  rw [if_neg h1]
  have h2 : (p ++ 58 :: (nm ++ 58 :: num)).drop (p.length + 1) = nm ++ 58 :: num := by
    simp [List.drop_append]
  have h3 : (p ++ 58 :: (nm ++ 58 :: num)).length - (p.length + 1) = (nm ++ 58 :: num).length := by
    simp only [List.length_append, List.length_cons]
    omega
  rw [h2, h3, memchr_append_mem nm num 58 hnm]
  dsimp only
  have h4 : (nm ++ 58 :: num).drop (nm.length + 1) = num := by
    simp [List.drop_append]
  rw [h4]
  by_cases hn : nm = []
  · rw [if_pos hn, if_pos (by rw [hn]; rfl)]
  · rw [if_neg hn, if_neg (by intro h; exact hn (List.length_eq_zero.mp h))]

theorem strtoul_digits_stop (c : Nat) (r : Bytes) (hc : isdigit c = false) :
    ∀ (ds : Bytes) (acc : Nat) (ovf : Bool), (∀ d ∈ ds, isdigit d = true) →
    (strtoul_digits (ds ++ c :: r) acc ovf).2.2 = c :: r := by
  intro ds
  induction ds with
  | nil =>
    intro acc ovf _
    simp [strtoul_digits, hc]
  | cons d ds ih =>
    intro acc ovf h
    have hd : isdigit d = true := h d (List.mem_cons_self _ _)
    have hds : ∀ x ∈ ds, isdigit x = true := fun x hx => h x (List.mem_cons_of_mem _ hx)
    simp only [List.cons_append, strtoul_digits, hd, if_true]
    split
    · exact ih _ _ hds
    · exact ih _ _ hds

/-- The call `strtoul` stops at the first byte that is not a digit. -/
theorem strtoul_stops (ds : Bytes) (c : Nat) (r : Bytes) (hne : ds ≠ [])
    (hds : ∀ d ∈ ds, isdigit d = true) (hc : isdigit c = false) :
    (strtoul (ds ++ c :: r)).2 = ds.length := by
  obtain ⟨d, ds1, rfl⟩ := List.exists_cons_of_ne_nil hne
  have hd : isdigit d = true := hds d (List.mem_cons_self _ _)
  have hsp : isspace d = false := by
    unfold isdigit at hd
    unfold isspace
    simp only [decide_eq_true_eq, decide_eq_false_iff_not] at hd ⊢
    omega
  have h45 : d ≠ 45 := by
    unfold isdigit at hd
    simp only [decide_eq_true_eq] at hd
    omega
  have h43 : d ≠ 43 := by
    unfold isdigit at hd
    simp only [decide_eq_true_eq] at hd
    omega
  have hdw : List.dropWhile isspace (d :: (ds1 ++ c :: r)) = d :: (ds1 ++ c :: r) := by
    simp [List.dropWhile_cons, hsp]
  have hstop := strtoul_digits_stop c r hc (d :: ds1) 0 false hds
  simp only [List.cons_append] at hstop
  unfold strtoul
  simp only [List.cons_append, hdw, List.head?_cons, Option.some.injEq, h45, h43, or_self,
    if_false, hd, if_true, hstop]
  simp only [List.length_cons, List.length_append]
  omega

/-- The call `strtoul` consumes nothing when the text starts with a byte that
is neither white space, a sign nor a digit. -/
theorem strtoul_none (c : Nat) (r : Bytes) (hd : isdigit c = false) (hsp : isspace c = false)
    (h43 : c ≠ 43) (h45 : c ≠ 45) : (strtoul (c :: r)).2 = 0 := by
  unfold strtoul
  simp [List.dropWhile_cons, hsp, h45, h43, hd]

/-- C16: let the strings `good` that precede it in the property have resolved
(leaving the overlay `fdto1`), none of them naming a slot of the node that
holds the property itself, so that the strings still to be read are the ones
the property held at the start.  `overlay_fixup_phandle` returns `BADOVERLAY`
when the next string `bad` is not NUL-terminated inside the property (the
value ends with it, or the value is empty), contains no `:`, has nothing after
its first `:`, has no second `:`, has an empty property name between the two
colons, or when the text `num` after the second `:` is empty or `strtoul`
(base 10) does not consume all of it — in particular when digits are followed
by a byte that is not a digit, or `num` starts with a byte that is neither a
digit, white space nor a sign. -/
theorem overlay_fixup_phandle_rejects_malformed (fdt fdto fdto1 : Blob)
    (symbols_off : Except FdtErr Offset) (property : Nat) (fixups_off : Offset) (merge : Bool)
    (label value : Bytes) (good : List Bytes) (bad rest : Bytes)
    (hprop : fdt_getprop_by_offset fdto fixups_off property = .ok (label, value))
    (hgood : ∀ g ∈ good, 0 ∉ g)
    (_hapart : ∀ g ∈ good,
      fdt_path_offset_namelen fdto g (List.indexOf 58 g) ≠ .ok fixups_off)
    (hres : overlay_fixup_strings fdt symbols_off label good fdto = .ok fdto1)
    (hbad0 : 0 ∉ bad) :
    (value = nul_terminated good ++ bad → bad ≠ [] ∨ good = [] →
      overlay_fixup_phandle fdt fdto symbols_off property fixups_off merge
        = .err .BADOVERLAY (fdt, fdto1)) ∧
    (value = nul_terminated good ++ bad ++ 0 :: rest →
      (58 ∉ bad →
        overlay_fixup_phandle fdt fdto symbols_off property fixups_off merge
          = .err .BADOVERLAY (fdt, fdto1)) ∧
      (∀ p, bad = p ++ [58] → 58 ∉ p →
        overlay_fixup_phandle fdt fdto symbols_off property fixups_off merge
          = .err .BADOVERLAY (fdt, fdto1)) ∧
      (∀ p q, bad = p ++ 58 :: q → 58 ∉ p → 58 ∉ q →
        overlay_fixup_phandle fdt fdto symbols_off property fixups_off merge
          = .err .BADOVERLAY (fdt, fdto1)) ∧
      (∀ p num, bad = p ++ 58 :: 58 :: num → 58 ∉ p →
        overlay_fixup_phandle fdt fdto symbols_off property fixups_off merge
          = .err .BADOVERLAY (fdt, fdto1)) ∧
      (∀ p nm num, bad = p ++ 58 :: (nm ++ 58 :: num) → 58 ∉ p → 58 ∉ nm →
        (num = [] ∨ (strtoul num).2 < num.length ∨ (strtoul num).2 = 0 →
          overlay_fixup_phandle fdt fdto symbols_off property fixups_off merge
            = .err .BADOVERLAY (fdt, fdto1)) ∧
        (∀ ds c r, num = ds ++ c :: r → ds ≠ [] → (∀ d ∈ ds, isdigit d = true) →
          isdigit c = false →
          overlay_fixup_phandle fdt fdto symbols_off property fixups_off merge
            = .err .BADOVERLAY (fdt, fdto1)) ∧
        (∀ c r, num = c :: r → isdigit c = false → isspace c = false → c ≠ 43 → c ≠ 45 →
          overlay_fixup_phandle fdt fdto symbols_off property fixups_off merge
            = .err .BADOVERLAY (fdt, fdto1)))) := by
  refine ⟨fun hv hb => fixup_phandle_unterminated fdt fdto fdto1 symbols_off property fixups_off
    merge label value good bad hprop hgood hres hbad0 hv hb, ?_⟩
  intro hv
  have key : overlay_fixup_string fdt fdto1 symbols_off label bad = .err .BADOVERLAY fdto1 →
      overlay_fixup_phandle fdt fdto symbols_off property fixups_off merge
        = .err .BADOVERLAY (fdt, fdto1) :=
    fixup_phandle_bad_string fdt fdto fdto1 symbols_off property fixups_off merge label value
      good bad rest hprop hgood hres hbad0 hv
  have hnum : ∀ p nm num, bad = p ++ 58 :: (nm ++ 58 :: num) → 58 ∉ p → 58 ∉ nm →
      (strtoul num).2 < num.length ∨ (strtoul num).2 = 0 →
      overlay_fixup_string fdt fdto1 symbols_off label bad = .err .BADOVERLAY fdto1 := by
    intro p nm num hb hp hnm hs
    rw [hb, fixup_string_two_colons fdt fdto1 symbols_off label p nm num hp hnm, if_pos hs]
    split <;> rfl
  refine ⟨?_, ?_, ?_, ?_, ?_⟩
  · intro h
    apply key
    unfold overlay_fixup_string
    rw [memchr_not_mem bad 58 _ h]
  · intro p hb hp
    apply key
    rw [hb]
    exact overlay_fixup_string_one_colon fdt fdto1 symbols_off label p [] hp (by simp)
  · intro p q hb hp hq
    apply key
    rw [hb]
    exact overlay_fixup_string_one_colon fdt fdto1 symbols_off label p q hp hq
  · intro p num hb hp
    apply key
    have hb2 : bad = p ++ 58 :: ([] ++ 58 :: num) := by rw [hb]; rfl
    rw [hb2, fixup_string_two_colons fdt fdto1 symbols_off label p [] num hp (by simp)]
    rfl
  · intro p nm num hb hp hnm
    refine ⟨?_, ?_, ?_⟩
    · intro hs
      apply key
      apply hnum p nm num hb hp hnm
      rcases hs with h | h | h
      · right; rw [h]; rfl
      · left; exact h
      · right; exact h
    · intro ds c r hn hds hdig hc
      apply key
      apply hnum p nm num hb hp hnm
      left
      rw [hn, strtoul_stops ds c r hds hdig hc]
      simp
    · intro c r hn hc hsp h43 h45
      apply key
      apply hnum p nm num hb hp hnm
      right
      rw [hn]
      exact strtoul_none c r hc hsp h43 h45

/-- C16 (witness): scenario E6: the only string of the fixup property,
`/fragment@0:target`, has no second colon. -/
theorem overlay_fixup_phandle_rejects_malformed_witness :
    overlay_fixup_phandle e1_base e6_overlay (.ok [1]) 0 [1] false
      = .err .BADOVERLAY (e1_base, e6_overlay) :=
  ((overlay_fixup_phandle_rejects_malformed e1_base e6_overlay e6_overlay (.ok [1]) 0 [1] false
    (str "a") (str "/fragment@0:target" ++ [0]) [] (str "/fragment@0:target") []
    rfl (by simp) (by simp) rfl (by decide)).2 rfl).2.2.1 (str "/fragment@0") (str "target") rfl
    (by decide) (by decide)

/-- C17: the fixup string `:target:0` (empty path) passes the checks of the
parsing loop and is handed to `overlay_fixup_one_phandle`: with the base of
scenario E1 the label is resolved first and the call, like the whole apply,
ends with `BADPATH` from the path lookup, not `BADOVERLAY`; with a base
without `/__symbols__` the outcome is `NOTFOUND`, which a merge tolerates, so
that the merge returns 0 and carries the string over. -/
theorem overlay_fixup_phandle_empty_path :
    overlay_fixup_string e1_base empty_path_overlay (.ok [1]) (str "a") (str ":target:0")
      = overlay_fixup_one_phandle e1_base empty_path_overlay (.ok [1]) (str ":target:0") 0
          (str "target:0") 6 0 (str "a") ∧
    overlay_fixup_phandle e1_base empty_path_overlay (.ok [1]) 0 [1] false
      = .err .BADPATH (e1_base, empty_path_overlay) ∧
    (fdt_overlay_apply 1 e1_base empty_path_overlay).map Res.code = some (some .BADPATH) ∧
    overlay_fixup_phandle empty_base empty_path_overlay (.error .NOTFOUND) 0 [1] false
      = .err .NOTFOUND (empty_base, empty_path_overlay) ∧
    (fdt_overlay_apply 1 empty_base empty_path_overlay).map Res.code
      = some (some .NOTFOUND) ∧
    (fdt_overlay_merge 1 path_first empty_path_second).map
        (fun r => (r.1.code, fdt_getprop r.1.state.1 [2] (str "a")))
      = some (none, .ok (str ":target:0" ++ [0])) :=
  ⟨rfl, rfl, by decide, rfl, by decide, rfl⟩

/-! ### The target of a fragment -/

mutual
/-- The node `Node.find_phandle` finds has the phandle searched for. -/
theorem find_phandle_sound (ph : Nat) : ∀ (root : Node) (off : Offset),
    root.find_phandle ph = some off → ∃ n, root.get? off = some n ∧ props_phandle n.props = ph
  | .mk nm ps cs, off, h => by
    unfold Node.find_phandle at h
    split at h
    · rename_i hp
      injection h with h
      subst h
      exact ⟨_, rfl, hp⟩
    · obtain ⟨i, p, hoff, c, hc, n, hn, hph⟩ := find_phandle_list_sound ph cs 0 off h
      rw [Nat.zero_add] at hoff
      subst hoff
      refine ⟨n, ?_, hph⟩
      unfold Node.get?
      rw [hc]
      exact hn
/-- The same for the search among the children. -/
theorem find_phandle_list_sound (ph : Nat) : ∀ (cs : List Node) (k : Nat) (off : Offset),
    Node.find_phandle_list ph cs k = some off →
    ∃ i p, off = (k + i) :: p ∧ ∃ c, cs[i]? = some c ∧ ∃ n, c.get? p = some n ∧ props_phandle n.props = ph
  | [], k, off, h => by
    unfold Node.find_phandle_list at h
    cases h
  | c :: cs, k, off, h => by
    unfold Node.find_phandle_list at h
    split at h
    · rename_i p hp
      injection h with h
      subst h
      obtain ⟨n, hn, hph⟩ := find_phandle_sound ph c p hp
      exact ⟨0, p, rfl, c, by simp, n, hn, hph⟩
    · obtain ⟨i, p, hoff, c1, hc1, n, hn, hph⟩ := find_phandle_list_sound ph cs (k + 1) off h
      refine ⟨i + 1, p, ?_, c1, ?_, n, hn, hph⟩
      · rw [hoff]
        congr 1
        omega
      · simpa using hc1
end

/-- The node `fdt_node_offset_by_phandle` returns has the phandle asked for. -/
theorem node_offset_by_phandle_sound (fdt : Blob) (ph : Nat) (off : Offset)
    (h : fdt_node_offset_by_phandle fdt ph = .ok off) : fdt_get_phandle fdt off = ph := by
  unfold fdt_node_offset_by_phandle at h
  split at h
  · cases h
  · split at h
    · cases h
    · rename_i o ho
      injection h with h
      subst h
      obtain ⟨n, hn, hph⟩ := find_phandle_sound ph _ _ ho
      unfold fdt_get_phandle
      rw [hn]
      exact hph

/-- C18: `fdt_overlay_target_offset`: a `target` property whose length is not
4 or whose value is 0xFFFFFFFF gives `BADPHANDLE`; a `target` with another
non-zero value is looked up as a phandle in the base, and the node returned
has that phandle; when `target` is absent or zero the `target-path` property
is resolved as a path in the base (and handed back through `pathp`), and when
`target-path` is absent too the result is `BADOVERLAY`. -/
theorem fdt_overlay_target_offset_cases (fdt : Blob) (fragment : Node) :
    (∀ val, prop_lookup (str "target") fragment.props = some val →
      val.length ≠ 4 ∨ fdt32_to_cpu val = UINT32_MAX →
      fdt_overlay_target_offset fdt fragment = .error .BADPHANDLE) ∧
    (∀ val, prop_lookup (str "target") fragment.props = some val → val.length = 4 →
      fdt32_to_cpu val ≠ 0 → fdt32_to_cpu val ≠ UINT32_MAX →
      fdt_overlay_target_offset fdt fragment
        = (match fdt_node_offset_by_phandle fdt (fdt32_to_cpu val) with
           | .error e => .error e
           | .ok off => .ok (off, none)) ∧
      ∀ off pathp, fdt_overlay_target_offset fdt fragment = .ok (off, pathp) →
        fdt_get_phandle fdt off = fdt32_to_cpu val) ∧
    (prop_lookup (str "target") fragment.props = none ∨
      (∃ val, prop_lookup (str "target") fragment.props = some val ∧ val.length = 4 ∧
        fdt32_to_cpu val = 0) →
      (∀ path, prop_lookup (str "target-path") fragment.props = some path →
        fdt_overlay_target_offset fdt fragment
          = (match fdt_path_offset fdt path with
             | .error e => .error e
             | .ok off => .ok (off, some path))) ∧
      (prop_lookup (str "target-path") fragment.props = none →
        fdt_overlay_target_offset fdt fragment = .error .BADOVERLAY)) := by
  refine ⟨?_, ?_, ?_⟩
  · intro val hval hbad
    unfold fdt_overlay_target_offset overlay_get_target_phandle
    simp only [hval, hbad, if_true]
  · intro val hval hlen hnz hnm
    have hph : overlay_get_target_phandle fragment = fdt32_to_cpu val := by
      unfold overlay_get_target_phandle
      simp only [hval]
      rw [if_neg (by simp [hlen, hnm])]
    have heq : fdt_overlay_target_offset fdt fragment
        = (match fdt_node_offset_by_phandle fdt (fdt32_to_cpu val) with
           | .error e => .error e
           | .ok off => .ok (off, none)) := by
      unfold fdt_overlay_target_offset
      simp only [hph, hnm, hnz, if_false]
    refine ⟨heq, ?_⟩
    intro off pathp h
    rw [heq] at h
    split at h
    · cases h
    · rename_i o ho
      injection h with h
      injection h with h1 h2
      subst h1
      exact node_offset_by_phandle_sound fdt _ _ ho
  · intro h
    have hph : overlay_get_target_phandle fragment = 0 := by
      unfold overlay_get_target_phandle
      rcases h with h | ⟨val, hval, hlen, hz⟩
      · simp only [h]
      · simp only [hval]
        rw [if_neg (by simp [hlen, hz, UINT32_MAX])]
        exact hz
    have h0 : (0 : Nat) ≠ UINT32_MAX := by decide
    refine ⟨?_, ?_⟩
    · intro path hpath
      unfold fdt_overlay_target_offset
      simp only [hph, h0, if_false, if_true, hpath]
    · intro hpath
      unfold fdt_overlay_target_offset
      simp only [hph, h0, if_false, if_true, hpath]

/-- C18 (witness): the fragment of scenario E1 after the fixup (`target` = 1)
resolves to `/node-a` of the base, whose phandle is 1. -/
theorem fdt_overlay_target_offset_cases_witness :
    fdt_overlay_target_offset e1_base (.mk (str "fragment@0") [(str "target", [0, 0, 0, 1])] [])
      = .ok ([0], none) ∧
    fdt_get_phandle e1_base [0] = 1 :=
  ⟨((fdt_overlay_target_offset_cases e1_base
      (.mk (str "fragment@0") [(str "target", [0, 0, 0, 1])] [])).2.1 [0, 0, 0, 1] rfl rfl
      (by decide) (by decide)).1,
   ((fdt_overlay_target_offset_cases e1_base
      (.mk (str "fragment@0") [(str "target", [0, 0, 0, 1])] [])).2.1 [0, 0, 0, 1] rfl rfl
      (by decide) (by decide)).2 [0] none rfl⟩

/-! ### The deep merge of a fragment -/

theorem modifyAt_modifyAt (f g : Node → Node) : ∀ (off : Offset) (root : Node),
    (root.modifyAt f off).modifyAt g off = root.modifyAt (fun n => g (f n)) off := by
  intro off
  induction off with
  | nil => intro root; simp [Node.modifyAt]
  | cons i rest ih =>
    intro root
    obtain ⟨nm, ps, cs⟩ := root
    cases hc : cs[i]? with
    | none => simp [Node.modifyAt, hc]
    | some c =>
      have hlt : i < cs.length := (List.getElem?_eq_some_iff.mp hc).1
      simp only [Node.modifyAt, hc, List.getElem?_set_self hlt, List.set_set, ih]

theorem modifyAt_of_get (f : Node → Node) : ∀ (off : Offset) (root t : Node),
    root.get? off = some t → root.modifyAt f off = root.modifyAt (fun _ => f t) off := by
  intro off
  induction off with
  | nil =>
    intro root t h
    simp only [Node.get?, Option.some.injEq] at h
    subst h
    simp [Node.modifyAt]
  | cons i rest ih =>
    intro root t h
    obtain ⟨nm, ps, cs⟩ := root
    unfold Node.get? at h
    cases hc : cs[i]? with
    | none => rw [hc] at h; cases h
    | some c =>
      rw [hc] at h
      simp only [Node.modifyAt, hc]
      rw [ih c t h]

theorem modifyAt_append (f : Node → Node) (rest : Offset) : ∀ (off : Offset) (root : Node),
    root.modifyAt f (off ++ rest) = root.modifyAt (fun n => n.modifyAt f rest) off := by
  intro off
  induction off with
  | nil => intro root; simp [Node.modifyAt]
  | cons i more ih =>
    intro root
    obtain ⟨nm, ps, cs⟩ := root
    cases hc : cs[i]? with
    | none => simp [Node.modifyAt, hc]
    | some c =>
      have e : (i :: more) ++ rest = i :: (more ++ rest) := rfl
      rw [e]
      simp only [Node.modifyAt, hc]
      rw [ih c]

theorem get_append (rest : Offset) : ∀ (off : Offset) (root t : Node),
    root.get? off = some t → root.get? (off ++ rest) = t.get? rest := by
  intro off
  induction off with
  | nil =>
    intro root t h
    simp only [Node.get?, Option.some.injEq] at h
    subst h
    rfl
  | cons i more ih =>
    intro root t h
    obtain ⟨nm, ps, cs⟩ := root
    unfold Node.get? at h
    cases hc : cs[i]? with
    | none => rw [hc] at h; cases h
    | some c =>
      rw [hc] at h
      simp only [List.cons_append, Node.get?, hc]
      exact ih c t h

theorem get_modifyAt_const (off : Offset) (root t t1 : Node) (h : root.get? off = some t) :
    (root.modifyAt (fun _ => t1) off).get? off = some t1 := by
  rw [get_modifyAt, h]
  rfl

theorem prop_replace_replace (a v w : Bytes) (ps : List (Bytes × Bytes)) :
    prop_replace a w (prop_replace a v ps) = prop_replace a w ps := by
  induction ps with
  | nil => rfl
  | cons p ps ih =>
    by_cases hp : p.1 = a
    · simp [prop_replace, hp]
    · simp [prop_replace, hp, ih]

theorem setprop_props_lookup_self (a v : Bytes) (ps : List (Bytes × Bytes)) :
    prop_lookup a (setprop_props a v ps) = some v := by
  unfold setprop_props
  split
  · rename_i old h
    exact prop_lookup_replace_self a v ps old h
  · simp [prop_lookup]

theorem setprop_props_lookup_ne (a b v : Bytes) (ps : List (Bytes × Bytes)) (h : b ≠ a) :
    prop_lookup b (setprop_props a v ps) = prop_lookup b ps := by
  unfold setprop_props
  split
  · exact prop_lookup_replace_ne b a v ps h
  · simp [prop_lookup, Ne.symm h]

/-- The tree after a successful `fdt_setprop`. -/
theorem setprop_root (fdt fdt1 : Blob) (off : Offset) (a v : Bytes) (t : Node)
    (ht : fdt.root.get? off = some t) (h : fdt_setprop fdt off a v = .ok fdt1) :
    fdt1.root = fdt.root.modifyAt (fun _ => t.set_props (setprop_props a v t.props)) off := by
  unfold fdt_setprop at h
  split at h
  · cases h
  · rename_i fdt2 hp
    injection h with h
    subst h
    unfold fdt_setprop_placeholder at hp
    rw [ht] at hp
    dsimp only at hp
    unfold setprop_props
    obtain ⟨nm, ps, cs⟩ := t
    simp only [Node.props] at hp ⊢
    cases hl : prop_lookup a ps with
    | some old =>
      rw [hl] at hp
      dsimp only at hp ⊢
      split at hp
      · cases hp
      · rename_i fdt3 hs
        injection hp with hp
        subst hp
        obtain ⟨hr, _⟩ := splice_root _ _ _ _ hs
        unfold prop_memcpy
        simp only [update_root, hr]
        rw [modifyAt_modifyAt, modifyAt_of_get _ off fdt.root _ ht]
        simp only [Node.set_props, Node.props]
        rw [prop_lookup_replace_self a _ ps old hl]
        dsimp only
        rw [prop_replace_replace, write_at_full _ _ (by simp; omega)]
    | none =>
      rw [hl] at hp
      dsimp only at hp ⊢
      split at hp
      · cases hp
      · rename_i fdt3 hs
        injection hp with hp
        subst hp
        obtain ⟨hr, _⟩ := splice_root _ _ _ _ hs
        unfold prop_memcpy
        simp only [update_root, hr]
        rw [modifyAt_modifyAt, modifyAt_of_get _ off fdt.root _ ht]
        simp only [Node.set_props, Node.props, prop_lookup, if_true, prop_replace]
        rw [write_at_full _ _ (by simp)]

theorem set_of_getElem (cs : List Node) (i : Nat) (c : Node) (hc : cs[i]? = some c) :
    cs.set i c = cs := by
  apply List.ext_getElem?
  intro j
  by_cases h : i = j
  · subst h
    rw [List.getElem?_set_self (List.getElem?_eq_some_iff.mp hc).1]
    exact hc.symm
  · rw [List.getElem?_set_ne h]

theorem modifyAt_id : ∀ (off : Offset) (root : Node), root.modifyAt (fun n => n) off = root := by
  intro off
  induction off with
  | nil => intro root; simp [Node.modifyAt]
  | cons i rest ih =>
    intro root
    obtain ⟨nm, qs, cs⟩ := root
    cases hc : cs[i]? with
    | none => simp [Node.modifyAt, hc]
    | some c =>
      simp only [Node.modifyAt, hc, ih]
      rw [set_of_getElem cs i c hc]

/-- The target after the property loop of `overlay_apply_node`. -/
theorem apply_props_merged (target : Offset) : ∀ (ps : List (Bytes × Bytes)) (fdt fdt1 : Blob)
    (t : Node), fdt.root.get? target = some t →
    overlay_apply_props target ps fdt = .ok fdt1 →
    ∃ t1, fdt1.root = fdt.root.modifyAt (fun _ => t1) target ∧
      t1.name = t.name ∧ t1.children = t.children ∧
      (∀ a, a ∉ ps.map Prod.fst → prop_lookup a t1.props = prop_lookup a t.props) ∧
      ((ps.map Prod.fst).Nodup → ∀ p ∈ ps, prop_lookup p.1 t1.props = some p.2) := by
  intro ps
  induction ps with
  | nil =>
    intro fdt fdt1 t ht h
    unfold overlay_apply_props at h
    injection h with h
    subst h
    refine ⟨t, ?_, rfl, rfl, fun _ _ => rfl, fun _ p hp => by cases hp⟩
    rw [← modifyAt_of_get (fun n => n) target fdt.root t ht]
    exact (modifyAt_id target fdt.root).symm
  | cons p rest ih =>
    intro fdt fdt1 t ht h
    unfold overlay_apply_props at h
    split at h
    · cases h
    · rename_i fdt2 hset
      have hr2 := setprop_root fdt fdt2 target p.1 p.2 t ht hset
      have ht2 : fdt2.root.get? target = some (t.set_props (setprop_props p.1 p.2 t.props)) := by
        rw [hr2]
        exact get_modifyAt_const target fdt.root t _ ht
      obtain ⟨t1, h1, h2, h3, h4, h5⟩ := ih fdt2 fdt1 _ ht2 h
      refine ⟨t1, ?_, ?_, ?_, ?_, ?_⟩
      · rw [h1, hr2, modifyAt_modifyAt]
      · rw [h2, set_props_name]
      · rw [h3, set_props_children]
      · intro a ha
        have ha1 : a ≠ p.1 := fun e => ha (by simp [e])
        have ha2 : a ∉ rest.map Prod.fst := fun hm => ha (by simp at hm ⊢; exact Or.inr hm)
        rw [h4 a ha2, set_props_props, setprop_props_lookup_ne p.1 a p.2 _ ha1]
      · intro hnd q hq
        simp only [List.map_cons, List.nodup_cons] at hnd
        rcases List.mem_cons.mp hq with rfl | hq
        · rw [h4 q.1 hnd.1, set_props_props, setprop_props_lookup_self]
        · exact h5 hnd.2 q hq

theorem merged_name (d t t1 : Node) (h : Node.merged d t t1) : t1.name = t.name := by
  obtain ⟨nm, ps, cs⟩ := d
  unfold Node.merged at h
  exact h.1

theorem merged_with_vacuous : ∀ (ds : List Node) (c c1 : Node),
    (∀ d ∈ ds, d.name ≠ c.name) → Node.merged_with ds c c1 := by
  intro ds
  induction ds with
  | nil => intro c c1 _; unfold Node.merged_with; trivial
  | cons d ds ih =>
    intro c c1 h
    unfold Node.merged_with
    exact ⟨fun e => absurd e (h d (List.mem_cons_self _ _)),
      ih c c1 (fun d1 hd1 => h d1 (List.mem_cons_of_mem _ hd1))⟩

theorem merged_new_mono : ∀ (ds : List Node) (before mid after : List Node),
    (∀ d ∈ ds, (∀ c ∈ before, c.name ≠ d.name) → ∀ c ∈ mid, c.name ≠ d.name) →
    Node.merged_new ds mid after → Node.merged_new ds before after := by
  intro ds
  induction ds with
  | nil => intro _ _ _ _ _; unfold Node.merged_new; trivial
  | cons d ds ih =>
    intro before mid after hk h
    unfold Node.merged_new at h ⊢
    obtain ⟨⟨c1, hc1, hn, hm⟩, hrest⟩ := h
    refine ⟨⟨c1, hc1, hn, fun hb => hm (hk d (List.mem_cons_self _ _) hb)⟩,
      ih before mid after (fun d1 hd1 => hk d1 (List.mem_cons_of_mem _ hd1)) hrest⟩

theorem eq_of_name_nodup : ∀ (cs : List Node), (cs.map Node.name).Nodup →
    ∀ a ∈ cs, ∀ b ∈ cs, a.name = b.name → a = b := by
  intro cs
  induction cs with
  | nil => intro _ a ha; cases ha
  | cons c cs ih =>
    intro hnd a ha b hb hab
    simp only [List.map_cons, List.nodup_cons] at hnd
    rcases List.mem_cons.mp ha with ha | ha
    · rcases List.mem_cons.mp hb with hb | hb
      · rw [ha, hb]
      · exact absurd (List.mem_map.mpr ⟨b, hb, by rw [← hab, ha]⟩) hnd.1
    · rcases List.mem_cons.mp hb with hb | hb
      · exact absurd (List.mem_map.mpr ⟨a, ha, by rw [hab, hb]⟩) hnd.1
      · exact ih hnd.2 a ha b hb hab

theorem mem_set_cases (cs : List Node) (j : Nat) (x c : Node) (h : c ∈ cs.set j x) :
    c = x ∨ c ∈ cs := by
  rcases List.mem_or_eq_of_mem_set h with h | h
  · exact Or.inr h
  · exact Or.inl h

theorem mem_set_of_mem (cs : List Node) (j : Nat) (x c0 c : Node) (hj : cs[j]? = some c0)
    (hc : c ∈ cs) (hne : c ≠ c0) : c ∈ cs.set j x := by
  obtain ⟨i, hi, rfl⟩ := List.getElem_of_mem hc
  have hij : j ≠ i := by
    intro e
    subst e
    apply hne
    have := List.getElem?_eq_getElem hi
    rw [hj] at this
    injection this with this
    exact this.symm
  have : (cs.set j x)[i]? = some cs[i] := by
    rw [List.getElem?_set_ne hij]
    exact List.getElem?_eq_getElem hi
  exact List.getElem?_mem this

/-- One turn of the subnode loop of `overlay_apply_node`, on the children of
the target. -/
theorem children_step (d : Node) (rest before mid after : List Node) (c1 : Node)
    (hnd : ∀ d1 ∈ rest, d1.name ≠ d.name)
    (hbefore : (before.map Node.name).Nodup)
    (hc1 : c1.name = d.name)
    (hmid : (mid = c1 :: before ∧ (∀ c ∈ before, c.name ≠ d.name) ∧
              Node.merged d (.mk d.name [] []) c1) ∨
            (∃ j c, before[j]? = some c ∧ c.name = d.name ∧ mid = before.set j c1 ∧
              Node.merged d c c1))
    (hR1 : ∀ c ∈ mid, ∃ x ∈ after, x.name = c.name ∧
      ((∀ d1 ∈ rest, d1.name ≠ c.name) → x = c) ∧ Node.merged_with rest c x)
    (hR2 : Node.merged_new rest mid after) :
    (∀ c ∈ before, ∃ x ∈ after, x.name = c.name ∧
      ((∀ d1 ∈ d :: rest, d1.name ≠ c.name) → x = c) ∧ Node.merged_with (d :: rest) c x) ∧
    Node.merged_new (d :: rest) before after := by
  have hc1mid : c1 ∈ mid := by
    rcases hmid with ⟨hm, _, _⟩ | ⟨j, c, hj, _, hm, _⟩
    · rw [hm]; exact List.mem_cons_self _ _
    · rw [hm]
      have : (before.set j c1)[j]? = some c1 :=
        List.getElem?_set_self (List.getElem?_eq_some_iff.mp hj).1
      exact List.getElem?_mem this
  have hc1after : c1 ∈ after := by
    obtain ⟨x, hx, _, hxe, _⟩ := hR1 c1 hc1mid
    rw [← hxe (fun d1 hd1 => by rw [hc1]; exact hnd d1 hd1)]
    exact hx
  have hmidmem : ∀ c ∈ mid, c = c1 ∨ c ∈ before := by
    intro c hc
    rcases hmid with ⟨hm, _, _⟩ | ⟨j, c0, _, _, hm, _⟩
    · rw [hm] at hc
      rcases List.mem_cons.mp hc with h | h
      · exact Or.inl h
      · exact Or.inr h
    · rw [hm] at hc
      exact mem_set_cases _ _ _ _ hc
  refine ⟨?_, ?_⟩
  · intro c hc
    by_cases hcd : c.name = d.name
    · rcases hmid with ⟨_, hno, _⟩ | ⟨j, c0, hj, hc0, _, hmerged⟩
      · exact absurd hcd (hno c hc)
      · have hc0mem : c0 ∈ before := List.getElem?_mem hj
        have hcc0 : c = c0 := eq_of_name_nodup before hbefore c hc c0 hc0mem (hcd.trans hc0.symm)
        subst hcc0
        refine ⟨c1, hc1after, hc1.trans hcd.symm, ?_, ?_⟩
        · intro hall
          exact absurd hcd.symm (hall d (List.mem_cons_self _ _))
        · unfold Node.merged_with
          exact ⟨fun _ => hmerged,
            merged_with_vacuous rest c c1 (fun d1 hd1 => by rw [hcd]; exact hnd d1 hd1)⟩
    · have hcmid : c ∈ mid := by
        rcases hmid with ⟨hm, _, _⟩ | ⟨j, c0, hj, hc0, hm, _⟩
        · rw [hm]; exact List.mem_cons_of_mem _ hc
        · rw [hm]
          exact mem_set_of_mem before j c1 c0 c hj hc (fun e => hcd (by rw [e]; exact hc0))
      obtain ⟨x, hx, hxn, hxe, hxm⟩ := hR1 c hcmid
      refine ⟨x, hx, hxn, fun hall => hxe (fun d1 hd1 => hall d1 (List.mem_cons_of_mem _ hd1)), ?_⟩
      unfold Node.merged_with
      exact ⟨fun e => absurd e.symm hcd, hxm⟩
  · unfold Node.merged_new
    refine ⟨⟨c1, hc1after, hc1, ?_⟩, ?_⟩
    · intro hno
      rcases hmid with ⟨_, _, hm⟩ | ⟨j, c0, hj, hc0, _, _⟩
      · exact hm
      · exact absurd hc0 (hno c0 (List.getElem?_mem hj))
    · refine merged_new_mono rest before mid after ?_ hR2
      intro d1 hd1 hb c hc
      rcases hmidmem c hc with h | h
      · rw [h, hc1]
        exact fun e => hnd d1 hd1 e.symm
      · exact hb c h

theorem add_subnode_root (fdt fdt1 : Blob) (target nnode : Offset) (name : Bytes) (t : Node)
    (ht : fdt.root.get? target = some t)
    (h : fdt_add_subnode fdt target name = .ok (fdt1, nnode)) :
    child_index name t.children = none ∧ nnode = target ++ [0] ∧
    fdt1.root = fdt.root.modifyAt
      (fun _ => t.set_children (.mk name [] [] :: t.children)) target := by
  unfold fdt_add_subnode at h
  rw [ht] at h
  dsimp only at h
  split at h
  · cases h
  · rename_i hc
    split at h
    · cases h
    · rename_i fdt2 hs
      injection h with h
      injection h with h1 h2
      subst h1
      obtain ⟨hr, _⟩ := splice_root _ _ _ _ hs
      refine ⟨hc, h2.symm, ?_⟩
      simp only [update_root, hr]
      exact modifyAt_of_get _ target fdt.root t ht

theorem add_subnode_exists (fdt : Blob) (target : Offset) (name : Bytes) (t : Node)
    (ht : fdt.root.get? target = some t)
    (h : fdt_add_subnode fdt target name = .error .EXISTS) :
    ∃ j, child_index name t.children = some j ∧
      fdt_subnode_offset fdt target name = .ok (target ++ [j]) := by
  unfold fdt_add_subnode at h
  rw [ht] at h
  dsimp only at h
  split at h
  · rename_i j hj
    refine ⟨j, hj, ?_⟩
    unfold fdt_subnode_offset
    rw [ht]
    simp only [hj]
  · split at h
    · rename_i e he
      unfold fdt_splice_struct_ at he
      split at he
      · injection he with he
        rw [← he] at h
        cases h
      · cases he
    · cases h

theorem child_modify (root : Node) (target : Offset) (t c c1 : Node) (j : Nat)
    (ht : root.get? target = some t) (hc : t.children[j]? = some c) :
    root.modifyAt (fun _ => c1) (target ++ [j])
      = root.modifyAt (fun _ => t.set_children (t.children.set j c1)) target := by
  rw [modifyAt_append, modifyAt_of_get _ target root t ht]
  congr 1
  funext _
  obtain ⟨nm, ps, cs⟩ := t
  simp only [Node.children] at hc
  simp only [Node.modifyAt, hc, Node.set_children, Node.children]

theorem child_get (root : Node) (target : Offset) (t c : Node) (j : Nat)
    (ht : root.get? target = some t) (hc : t.children[j]? = some c) :
    root.get? (target ++ [j]) = some c := by
  rw [get_append [j] target root t ht, get_child, hc]

theorem set_children_name (n : Node) (cs : List Node) : (n.set_children cs).name = n.name := by
  cases n; rfl

theorem set_children_props (n : Node) (cs : List Node) : (n.set_children cs).props = n.props := by
  cases n; rfl

theorem set_children_children (n : Node) (cs : List Node) :
    (n.set_children cs).children = cs := by
  cases n; rfl

theorem keeps_wf_ok {a b : Blob} (r : Res Blob) (hk : Keeps a r.state) (hr : r = .ok b)
    (hwf : a.root.wf = true) : b.root.wf = true := by
  subst hr
  exact hk.2.2.2 hwf

mutual
/-- A successful `overlay_apply_node` replaces the subtree at the target by a
deep merge of the overlay node into it. -/
theorem apply_node_merged : ∀ (node : Node) (target : Offset) (fdt fdt1 : Blob) (t : Node),
    node.wf = true → fdt.root.wf = true → fdt.root.get? target = some t →
    overlay_apply_node node target fdt = .ok fdt1 →
    ∃ t1, fdt1.root = fdt.root.modifyAt (fun _ => t1) target ∧ Node.merged node t t1
  | .mk nm ps cs, target, fdt, fdt1, t, hnode, hwf, ht, h => by
    obtain ⟨hps, hcs, hall⟩ := (wf_mk_iff nm ps cs).mp hnode
    unfold overlay_apply_node at h
    split at h
    · cases h
    · rename_i fdtA hprops
      obtain ⟨tA, hA1, hA2, hA3, hA4, hA5⟩ := apply_props_merged target ps fdt fdtA t ht hprops
      have hwfA : fdtA.root.wf = true :=
        keeps_wf_ok _ (apply_props_keeps target ps fdt) hprops hwf
      have htA : fdtA.root.get? target = some tA := by
        rw [hA1]; exact get_modifyAt_const target fdt.root t tA ht
      obtain ⟨t1, h1, h2, h3, h4, h5⟩ := apply_subnodes_merged cs target fdtA fdt1 tA
        ((wf_list_iff cs).mpr hall) hcs hwfA htA h
      refine ⟨t1, ?_, ?_⟩
      · rw [h1, hA1, modifyAt_modifyAt]
      · unfold Node.merged
        refine ⟨h2.trans hA2, ?_, ?_, ?_, ?_⟩
        · intro p hp
          rw [h3]
          exact hA5 hps p hp
        · intro a ha
          rw [h3]
          exact hA4 a ha
        · rw [← hA3]
          exact h4
        · rw [← hA3]
          exact h5
/-- The same for the loop over the subnodes. -/
theorem apply_subnodes_merged : ∀ (ds : List Node) (target : Offset) (fdt fdt1 : Blob)
    (t : Node), Node.wf_list ds = true → (ds.map Node.name).Nodup → fdt.root.wf = true →
    fdt.root.get? target = some t →
    overlay_apply_subnodes ds target fdt = .ok fdt1 →
    ∃ t1, fdt1.root = fdt.root.modifyAt (fun _ => t1) target ∧ t1.name = t.name ∧
      t1.props = t.props ∧
      (∀ c ∈ t.children, ∃ x ∈ t1.children, x.name = c.name ∧
        ((∀ d ∈ ds, d.name ≠ c.name) → x = c) ∧ Node.merged_with ds c x) ∧
      Node.merged_new ds t.children t1.children
  | [], target, fdt, fdt1, t, _, _, _, ht, h => by
    unfold overlay_apply_subnodes at h
    injection h with h
    subst h
    refine ⟨t, ?_, rfl, rfl, ?_, ?_⟩
    · rw [← modifyAt_of_get (fun n => n) target fdt.root t ht]
      exact (modifyAt_id target fdt.root).symm
    · intro c hc
      exact ⟨c, hc, rfl, fun _ => rfl, by unfold Node.merged_with; trivial⟩
    · unfold Node.merged_new; trivial
  | d :: rest, target, fdt, fdt1, t, hds, hnd, hwf, ht, h => by
    have hdwf : d.wf = true := (wf_list_iff _).mp hds d (List.mem_cons_self _ _)
    have hrestwf : Node.wf_list rest = true :=
      (wf_list_iff _).mpr (fun c hc => (wf_list_iff _).mp hds c (List.mem_cons_of_mem _ hc))
    simp only [List.map_cons, List.nodup_cons] at hnd
    have hnd1 : ∀ d1 ∈ rest, d1.name ≠ d.name :=
      fun d1 hd1 e => hnd.1 (List.mem_map.mpr ⟨d1, hd1, e⟩)
    have htwf : t.wf = true := wf_get target fdt.root t hwf ht
    have hbefore : (t.children.map Node.name).Nodup := by
      obtain ⟨tn, tps, tcs⟩ := t
      exact ((wf_mk_iff tn tps tcs).mp htwf).2.1
    -- the state after the turn for `d`
    have hturn : ∃ fdtB tB c1, fdtB.root = fdt.root.modifyAt (fun _ => tB) target ∧
        fdtB.root.wf = true ∧ overlay_apply_subnodes rest target fdtB = .ok fdt1 ∧
        tB.name = t.name ∧ tB.props = t.props ∧ c1.name = d.name ∧
        ((tB.children = c1 :: t.children ∧ (∀ c ∈ t.children, c.name ≠ d.name) ∧
            Node.merged d (.mk d.name [] []) c1) ∨
         (∃ j c, t.children[j]? = some c ∧ c.name = d.name ∧
            tB.children = t.children.set j c1 ∧ Node.merged d c c1)) := by
      unfold overlay_apply_subnodes at h
      split at h
      · rename_i fdtA nnode hadd
        obtain ⟨hci, hnn, hrA⟩ := add_subnode_root fdt fdtA target nnode d.name t ht hadd
        have hwfA : fdtA.root.wf = true := (add_subnode_keeps _ _ _ _ _ hadd).2.2.2 hwf
        have htA : fdtA.root.get? target
            = some (t.set_children (.mk d.name [] [] :: t.children)) := by
          rw [hrA]; exact get_modifyAt_const target fdt.root t _ ht
        have hcA : fdtA.root.get? nnode = some (.mk d.name [] []) := by
          rw [hnn]
          exact child_get _ target _ _ 0 htA (by rw [set_children_children]; simp)
        split at h
        · cases h
        · rename_i fdtB hnodeB
          obtain ⟨c1, hB, hm⟩ := apply_node_merged d nnode fdtA fdtB _ hdwf hwfA hcA hnodeB
          have hwfB : fdtB.root.wf = true :=
            keeps_wf_ok _ (apply_node_keeps d nnode fdtA) hnodeB hwfA
          refine ⟨fdtB, t.set_children (c1 :: t.children), c1, ?_, hwfB, h, ?_, ?_, ?_, ?_⟩
          · rw [hB, hnn, child_modify fdtA.root target _ (.mk d.name [] []) c1 0 htA
              (by rw [set_children_children]; simp), hrA, modifyAt_modifyAt]
            congr 1
            funext _
            obtain ⟨tn, tps, tcs⟩ := t
            rfl
          · exact set_children_name _ _
          · exact set_children_props _ _
          · exact merged_name d (.mk d.name [] []) c1 hm
          · left
            refine ⟨set_children_children _ _, ?_, hm⟩
            intro c hc e
            have := (child_index_none_iff d.name t.children).mp hci
            exact this (List.mem_map.mpr ⟨c, hc, e⟩)
      · rename_i e hadd
        split at h
        · rename_i he
          subst he
          obtain ⟨j, hj, hsub⟩ := add_subnode_exists fdt target d.name t ht hadd
          rw [hsub] at h
          dsimp only at h
          obtain ⟨c, hc, hcn⟩ := child_index_some _ _ _ hj
          have hcget : fdt.root.get? (target ++ [j]) = some c := child_get _ target t c j ht hc
          split at h
          · cases h
          · rename_i fdtB hnodeB
            obtain ⟨c1, hB, hm⟩ := apply_node_merged d (target ++ [j]) fdt fdtB c hdwf hwf hcget
              hnodeB
            have hwfB : fdtB.root.wf = true :=
              keeps_wf_ok _ (apply_node_keeps d (target ++ [j]) fdt) hnodeB hwf
            refine ⟨fdtB, t.set_children (t.children.set j c1), c1, ?_, hwfB, h, ?_, ?_, ?_, ?_⟩
            · rw [hB, child_modify fdt.root target t c c1 j ht hc]
            · exact set_children_name _ _
            · exact set_children_props _ _
            · exact (merged_name d c c1 hm).trans hcn
            · right
              exact ⟨j, c, hc, hcn, set_children_children _ _, hm⟩
        · cases h
    obtain ⟨fdtB, tB, c1, hB, hwfB, hrest, hBn, hBp, hc1, hmid⟩ := hturn
    have htB : fdtB.root.get? target = some tB := by
      rw [hB]; exact get_modifyAt_const target fdt.root t tB ht
    obtain ⟨t1, h1, h2, h3, h4, h5⟩ := apply_subnodes_merged rest target fdtB fdt1 tB hrestwf
      hnd.2 hwfB htB hrest
    refine ⟨t1, ?_, h2.trans hBn, h3.trans hBp, ?_⟩
    · rw [h1, hB, modifyAt_modifyAt]
    · refine children_step d rest t.children tB.children t1.children c1 hnd1 hbefore hc1 ?_ h4 h5
      rcases hmid with ⟨hm1, hm2, hm3⟩ | ⟨j, c, hj, hcn, hm1, hm3⟩
      · exact Or.inl ⟨hm1, hm2, hm3⟩
      · exact Or.inr ⟨j, c, hj, hcn, hm1, hm3⟩
end

/-- C19: let the overlay node and the base be structurally valid (property
names unique within a node, sibling names unique).  When
`overlay_apply_node(base, target, overlay, node)` returns 0, only the subtree
at `target` has changed, and it is a deep merge of `node` into the old target:
(i) every property of `node` is present on `target` with the identical value,
(ii) every property of `target` whose name does not occur on `node` reads as
before (none is deleted), (iii) every pre-existing child of `target` still
exists under its name, unchanged when no child of `node` has that name and
merged recursively with the child of `node` of that name otherwise, and
(iv) every child of `node` has a same-named child under `target` (a fresh node
merged recursively with it when `target` had none of that name). -/
theorem overlay_apply_node_deep_merge (node : Node) (target : Offset) (fdt fdt1 : Blob)
    (t : Node) (hnode : node.wf = true) (hwf : fdt.root.wf = true)
    (ht : fdt.root.get? target = some t)
    (h : overlay_apply_node node target fdt = .ok fdt1) :
    ∃ t1, fdt1.root.get? target = some t1 ∧
      fdt1.root = fdt.root.modifyAt (fun _ => t1) target ∧
      Node.merged node t t1 ∧
      (∀ p ∈ node.props, fdt_getprop fdt1 target p.1 = .ok p.2) ∧
      (∀ a, a ∉ node.props.map Prod.fst →
        fdt_getprop fdt1 target a = fdt_getprop fdt target a) ∧
      (∀ c ∈ t.children, ∃ x ∈ t1.children, x.name = c.name ∧
        ((∀ d ∈ node.children, d.name ≠ c.name) → x = c)) ∧
      (∀ d ∈ node.children, ∃ x ∈ t1.children, x.name = d.name) := by
  obtain ⟨t1, h1, hm⟩ := apply_node_merged node target fdt fdt1 t hnode hwf ht h
  have ht1 : fdt1.root.get? target = some t1 := by
    rw [h1]; exact get_modifyAt_const target fdt.root t t1 ht
  refine ⟨t1, ht1, h1, hm, ?_⟩
  obtain ⟨nm, ps, cs⟩ := node
  have hm2 := hm
  unfold Node.merged at hm2
  obtain ⟨_, g1, g2, g3, g4⟩ := hm2
  refine ⟨?_, ?_, ?_, ?_⟩
  · intro p hp
    unfold fdt_getprop
    rw [ht1]
    simp only [g1 p hp]
  · intro a ha
    unfold fdt_getprop
    rw [ht1, ht]
    simp only [g2 a ha]
  · intro c hc
    obtain ⟨x, hx, hxn, hxe, _⟩ := g3 c hc
    exact ⟨x, hx, hxn, hxe⟩
  · simp only [Node.children]
    clear g3 hm hnode h
    induction cs with
    | nil => intro d hd; cases hd
    | cons d0 ds ih =>
      intro d hd
      unfold Node.merged_new at g4
      rcases List.mem_cons.mp hd with rfl | hd
      · obtain ⟨x, hx, hxn, _⟩ := g4.1
        exact ⟨x, hx, hxn⟩
      · exact ih g4.2 d hd

/-- C19 (witness): an overlay node with the property `new-prop` and the child
`extra` merged into `/node-a` of the base of scenario E1. -/
theorem overlay_apply_node_deep_merge_witness :
    ∃ t1, (overlay_apply_node
        (.mk (str "__overlay__") [(str "new-prop", str "hi" ++ [0])]
          [.mk (str "extra") [(str "q", [1])] []]) [0] e1_base).state.root.get? [0] = some t1 ∧
      Node.merged
        (.mk (str "__overlay__") [(str "new-prop", str "hi" ++ [0])]
          [.mk (str "extra") [(str "q", [1])] []])
        (.mk (str "node-a") [(str "phandle", [0, 0, 0, 1])] []) t1 ∧
      t1 = .mk (str "node-a") [(str "new-prop", str "hi" ++ [0]), (str "phandle", [0, 0, 0, 1])]
        [.mk (str "extra") [(str "q", [1])] []] :=
  (overlay_apply_node_deep_merge
    (.mk (str "__overlay__") [(str "new-prop", str "hi" ++ [0])]
      [.mk (str "extra") [(str "q", [1])] []]) [0] e1_base
    (overlay_apply_node
        (.mk (str "__overlay__") [(str "new-prop", str "hi" ++ [0])]
          [.mk (str "extra") [(str "q", [1])] []]) [0] e1_base).state
    (.mk (str "node-a") [(str "phandle", [0, 0, 0, 1])] [])
    (by decide) (by decide) rfl (by decide)).elim
    (fun t1 hx => ⟨t1, hx.1, hx.2.2.1, Option.some.inj (hx.1.symm.trans rfl)⟩)

/-! ### Root children without `__overlay__` -/

/-- The loop of `overlay_merge` skips a root child without `__overlay__`, in
both modes. -/
theorem overlay_merge_fragments_skip (merge : Bool) (x : Node) (post : List Node)
    (hx : child_index (str "__overlay__") x.children = none) :
    ∀ (pre : List Node) (fdt : Blob),
    overlay_merge_fragments merge (pre ++ x :: post) fdt
      = overlay_merge_fragments merge (pre ++ post) fdt := by
  intro pre
  induction pre with
  | nil =>
    intro fdt
    simp only [List.nil_append]
    rw [overlay_merge_fragments, hx]
  | cons f pre ih =>
    intro fdt
    simp only [List.cons_append]
    rw [overlay_merge_fragments, overlay_merge_fragments]
    cases child_index (str "__overlay__") f.children with
    | none => exact ih fdt
    | some i =>
      dsimp only
      cases f.children[i]? with
      | none => rfl
      | some overlay =>
        dsimp only
        cases fdt_overlay_target_offset fdt f with
        | error e =>
          dsimp only
          split
          · cases copy_node f [] fdt with
            | err e1 s => rfl
            | ok fdt1 => exact ih fdt1
          · rfl
        | ok target =>
          dsimp only
          cases overlay_apply_node overlay target.1 fdt with
          | err e s => rfl
          | ok fdt1 => exact ih fdt1

/-- C20: an overlay whose root child `fragment@1` has no subnode at all (hence
no `__overlay__`): `fdt_overlay_apply` skips it, returns 0 and applies the
other fragment; `fdt_overlay_merge` fails with `NOTFOUND`, because
`rename_nodes` returns the failed lookup of the first subnode. -/
theorem childless_fragment_breaks_merge :
    child_index (str "__overlay__") (Node.mk (str "fragment@1") [] []).children = none ∧
    (fdt_overlay_apply 1 empty_base childless_fragment_overlay).map
        (fun r => (r.code, fdt_getprop r.state.1 [] (str "p"))) = some (none, .ok [1]) ∧
    rename_nodes childless_fragment_overlay [] 1 = .err .NOTFOUND childless_fragment_overlay ∧
    (fdt_overlay_merge 1 path_first childless_fragment_overlay).map
        (fun r => (r.1.code, r.2)) = some (some .NOTFOUND, 0) :=
  ⟨rfl, rfl, rfl, rfl⟩

/-! ### Stages without their auxiliary node, and symbols that are skipped -/

theorem subnode_offset_absent (fdt : Blob) (nm : Bytes)
    (h : child_index nm fdt.root.children = none) :
    fdt_subnode_offset fdt [] nm = .error .NOTFOUND := by
  unfold fdt_subnode_offset
  simp only [Node.get?, h]

/-- C25: when the overlay has no `/__local_fixups__`, no `/__fixups__`, no
`/__symbols__` node, `overlay_update_local_references`,
`overlay_fixup_phandles` (in either mode) and `overlay_symbol_update` (in
either mode) respectively return 0 and leave both blobs as they were. -/
theorem stages_without_auxiliary_node (fuel : Nat) (fdt fdto : Blob) (delta : Nat)
    (merge : Bool) :
    (child_index (str "__local_fixups__") fdto.root.children = none →
      fdt_path_offset fdto (str "/__local_fixups__") = .error .NOTFOUND ∧
      overlay_update_local_references fdto delta = some (.ok fdto)) ∧
    (child_index (str "__fixups__") fdto.root.children = none →
      fdt_path_offset fdto (str "/__fixups__") = .error .NOTFOUND ∧
      overlay_fixup_phandles fdt fdto merge = .ok (fdt, fdto)) ∧
    (child_index (str "__symbols__") fdto.root.children = none →
      fdt_subnode_offset fdto [] (str "__symbols__") = .error .NOTFOUND ∧
      overlay_symbol_update fuel fdt fdto merge = some (.ok (fdt, fdto))) := by
  refine ⟨?_, ?_, ?_⟩
  · intro h
    have hp : fdt_path_offset fdto (str "/__local_fixups__") = .error .NOTFOUND := by
      rw [path_offset_local_fixups]; exact subnode_offset_absent fdto _ h
    refine ⟨hp, ?_⟩
    unfold overlay_update_local_references
    rw [hp]
    rfl
  · intro h
    have hp : fdt_path_offset fdto (str "/__fixups__") = .error .NOTFOUND := by
      rw [path_offset_fixups]; exact subnode_offset_absent fdto _ h
    refine ⟨hp, ?_⟩
    unfold overlay_fixup_phandles
    rw [hp]
    rfl
  · intro h
    have hp := subnode_offset_absent fdto _ h
    refine ⟨hp, ?_⟩
    unfold overlay_symbol_update
    rw [hp]

/-- C25 (witness): an overlay with one fragment and none of the three
auxiliary nodes. -/
theorem stages_without_auxiliary_node_witness :
    overlay_update_local_references nospace_first 5 = some (.ok nospace_first) ∧
    overlay_fixup_phandles e1_base nospace_first true = .ok (e1_base, nospace_first) ∧
    overlay_symbol_update 0 e1_base nospace_first false = some (.ok (e1_base, nospace_first)) :=
  ⟨((stages_without_auxiliary_node 0 e1_base nospace_first 5 true).1 (by decide)).2,
   ((stages_without_auxiliary_node 0 e1_base nospace_first 5 true).2.1 (by decide)).2,
   ((stages_without_auxiliary_node 0 e1_base nospace_first 5 false).2.2 (by decide)).2⟩

theorem symbol_loop_skip_first (merge : Bool) (root_sym : Offset) (fdt : Blob) :
    ∀ fuel, overlay_symbol_update_loop merge [0] root_sym fuel 0 (fdt, skipped_symbol_overlay)
      = none := by
  intro fuel
  induction fuel with
  | zero => rfl
  | succ n ih =>
    rw [overlay_symbol_update_loop]
    exact ih

theorem symbol_loop_skip_second (merge : Bool) (root_sym : Offset) (fdt : Blob) :
    ∀ fuel, overlay_symbol_update_loop merge [1] root_sym fuel 0 (fdt, skipped_symbol_overlay2)
      = none := by
  intro fuel
  induction fuel with
  | zero => rfl
  | succ n ih =>
    rw [overlay_symbol_update_loop]
    exact ih

/-- C23: an overlay whose `/__symbols__` holds the value `/foo`, or the value
`/fragment@0/bar`: the loop of `overlay_symbol_update` takes the `continue` of
line 1002 (or 1022) without moving `prop` on and comes back to the same
property for ever; whatever the number of turns allowed, the stage, and
`fdt_overlay_apply` with it, has not returned. -/
theorem overlay_symbol_update_skip_diverges :
    (∀ fuel merge, overlay_symbol_update fuel e1_base skipped_symbol_overlay merge = none) ∧
    (∀ fuel merge, overlay_symbol_update fuel e1_base skipped_symbol_overlay2 merge = none) ∧
    (∀ fuel, fdt_overlay_apply fuel e1_base skipped_symbol_overlay = none) ∧
    (∀ fuel, fdt_overlay_apply fuel e1_base skipped_symbol_overlay2 = none) := by
  refine ⟨?_, ?_, ?_, ?_⟩
  · intro fuel merge
    exact symbol_loop_skip_first merge [1] e1_base fuel
  · intro fuel merge
    exact symbol_loop_skip_second merge [1] e1_base fuel
  · intro fuel
    show (match overlay_symbol_update fuel e1_base skipped_symbol_overlay false with
      | none => none
      | some (.err e st1) => some (fdt_overlay_apply_err e st1.1 st1.2)
      | some (.ok st1) => some (.ok (st1.1, fdt_set_magic st1.2 UINT32_MAX))) = none
    rw [show overlay_symbol_update fuel e1_base skipped_symbol_overlay false = none from
      symbol_loop_skip_first false [1] e1_base fuel]
  · intro fuel
    show (match overlay_symbol_update fuel e1_base skipped_symbol_overlay2 false with
      | none => none
      | some (.err e st1) => some (fdt_overlay_apply_err e st1.1 st1.2)
      | some (.ok st1) => some (.ok (st1.1, fdt_set_magic st1.2 UINT32_MAX))) = none
    rw [show overlay_symbol_update fuel e1_base skipped_symbol_overlay2 false = none from
      symbol_loop_skip_second false [1] e1_base fuel]

/-! ### The symbol stage: the value written, and the creation of `/__symbols__` -/

theorem set_props_self (m : Node) : m.set_props m.props = m := by cases m; rfl

theorem set_props_set_props (m : Node) (ps qs : List (Bytes × Bytes)) :
    (m.set_props ps).set_props qs = m.set_props qs := by cases m; rfl

theorem only_props_at_refl (a : Blob) (off : Offset) : only_props_at a off a := by
  refine ⟨rfl, rfl, rfl, fun ps => ps, ?_⟩
  have : (fun m : Node => m.set_props m.props) = fun m => m := by
    funext m; exact set_props_self m
  rw [this, modifyAt_id]

theorem only_props_at_trans {a b c : Blob} {off : Offset} (h1 : only_props_at a off b)
    (h2 : only_props_at b off c) : only_props_at a off c := by
  obtain ⟨m1, v1, l1, f, hf⟩ := h1
  obtain ⟨m2, v2, l2, g, hg⟩ := h2
  refine ⟨m2.trans m1, v2.trans v1, l2.trans l1, fun ps => g (f ps), ?_⟩
  rw [hg, hf, modifyAt_modifyAt]
  congr 1
  funext m
  rw [set_props_set_props, set_props_props]

theorem placeholder_root (F F1 : Blob) (off : Offset) (name : Bytes) (len : Nat)
    (h : fdt_setprop_placeholder F off name len = .ok F1) :
    F1.root = F.root.modifyAt (fun m => m.set_props (placeholder_props name len m.props)) off ∧
    F1.magic = F.magic ∧ F1.version = F.version ∧ F1.last_comp_version = F.last_comp_version ∧
    ∃ t, F.root.get? off = some t := by
  unfold fdt_setprop_placeholder at h
  split at h
  · cases h
  · rename_i t ht
    refine ⟨?_, ?_, ?_, ?_, t, ht⟩
    all_goals
      split at h
      · rename_i v hv
        split at h
        · cases h
        · rename_i F2 hs
          injection h with h
          subst h
          obtain ⟨hr, hm, hv2, hl⟩ := splice_root _ _ _ _ hs
          first
            | exact hm
            | exact hv2
            | exact hl
            | (simp only [update_root, hr]
               rw [modifyAt_of_get _ off F.root t ht,
                 modifyAt_of_get (fun m => m.set_props (placeholder_props name len m.props)) off
                   F.root t ht]
               unfold placeholder_props
               rw [hv])
      · rename_i hv
        split at h
        · cases h
        · rename_i F2 hs
          injection h with h
          subst h
          obtain ⟨hr, hm, hv2, hl⟩ := splice_root _ _ _ _ hs
          first
            | exact hm
            | exact hv2
            | exact hl
            | (simp only [update_root, hr]
               rw [modifyAt_of_get _ off F.root t ht,
                 modifyAt_of_get (fun m => m.set_props (placeholder_props name len m.props)) off
                   F.root t ht]
               unfold placeholder_props
               rw [hv])

theorem memcpy_root (F : Blob) (off : Offset) (name : Bytes) (idx : Nat) (data : Bytes) :
    (prop_memcpy F off name idx data).root
      = F.root.modifyAt (fun m => m.set_props (memcpy_props name idx data m.props)) off ∧
    (prop_memcpy F off name idx data).magic = F.magic ∧
    (prop_memcpy F off name idx data).version = F.version ∧
    (prop_memcpy F off name idx data).last_comp_version = F.last_comp_version :=
  ⟨rfl, rfl, rfl, rfl⟩

theorem placeholder_props_lookup_self (name : Bytes) (len : Nat) (ps : List (Bytes × Bytes)) :
    ∃ ph, prop_lookup name (placeholder_props name len ps) = some ph ∧ ph.length = len := by
  unfold placeholder_props
  split
  · rename_i v hv
    refine ⟨_, prop_lookup_replace_self name _ ps v hv, ?_⟩
    simp only [List.length_append, List.length_take, List.length_replicate]
    omega
  · exact ⟨List.replicate len 0, by simp [prop_lookup], by simp⟩

theorem placeholder_props_lookup_ne (name a : Bytes) (len : Nat) (ps : List (Bytes × Bytes))
    (h : a ≠ name) : prop_lookup a (placeholder_props name len ps) = prop_lookup a ps := by
  unfold placeholder_props
  split
  · exact prop_lookup_replace_ne a name _ ps h
  · simp [prop_lookup, Ne.symm h]

theorem memcpy_props_lookup_self (name : Bytes) (idx : Nat) (data v : Bytes)
    (ps : List (Bytes × Bytes)) (h : prop_lookup name ps = some v) :
    prop_lookup name (memcpy_props name idx data ps) = some (write_at v idx data) := by
  unfold memcpy_props
  rw [h]
  exact prop_lookup_replace_self name _ ps v h

theorem memcpy_props_lookup_ne (name a : Bytes) (idx : Nat) (data : Bytes)
    (ps : List (Bytes × Bytes)) (h : a ≠ name) :
    prop_lookup a (memcpy_props name idx data ps) = prop_lookup a ps := by
  unfold memcpy_props
  split
  · rfl
  · exact prop_lookup_replace_ne a name _ ps h

theorem modifyAt_props_name (g : List (Bytes × Bytes) → List (Bytes × Bytes)) :
    ∀ (off : Offset) (n : Node),
      (n.modifyAt (fun m => m.set_props (g m.props)) off).name = n.name
  | [], .mk nm ps cs => rfl
  | i :: rest, .mk nm ps cs => by
    unfold Node.modifyAt
    split <;> rfl

theorem modifyAt_props_path_names (g : List (Bytes × Bytes) → List (Bytes × Bytes)) :
    ∀ (off : Offset) (n : Node) (T : Offset),
      (n.modifyAt (fun m => m.set_props (g m.props)) off).path_names T = n.path_names T
  | [], .mk nm ps cs, T => by
    cases T <;> rfl
  | i :: rest, .mk nm ps cs, [] => by
    unfold Node.modifyAt
    split <;> rfl
  | i :: rest, .mk nm ps cs, j :: T => by
    unfold Node.modifyAt
    split
    · rfl
    · rename_i c hc
      unfold Node.path_names
      by_cases hij : j = i
      · subst hij
        rw [List.getElem?_set_self (by
          rcases List.getElem?_eq_some_iff.mp hc with ⟨hl, _⟩; exact hl), hc]
        simp only
        rw [modifyAt_props_path_names g rest c T, modifyAt_props_name g rest c]
      · rw [List.getElem?_set_ne (Ne.symm hij)]

theorem find_phandle_list_set (ph : Nat) (c1 : Node) : ∀ (cs : List Node) (i k : Nat) (c : Node),
    cs[i]? = some c → c1.find_phandle ph = c.find_phandle ph →
    Node.find_phandle_list ph (cs.set i c1) k = Node.find_phandle_list ph cs k
  | [], i, k, c, h, _ => by simp at h
  | d :: ds, 0, k, c, h, h1 => by
    simp at h
    subst h
    simp only [List.set_cons_zero]
    unfold Node.find_phandle_list
    rw [h1]
  | d :: ds, i + 1, k, c, h, h1 => by
    simp only [List.getElem?_cons_succ] at h
    simp only [List.set_cons_succ]
    unfold Node.find_phandle_list
    rw [find_phandle_list_set ph c1 ds i (k + 1) c h h1]

theorem modifyAt_props_find_phandle (g : List (Bytes × Bytes) → List (Bytes × Bytes))
    (hg : ∀ ps, props_phandle (g ps) = props_phandle ps) (ph : Nat) :
    ∀ (off : Offset) (n : Node),
      (n.modifyAt (fun m => m.set_props (g m.props)) off).find_phandle ph = n.find_phandle ph
  | [], .mk nm ps cs => by
    show (Node.mk nm (g ps) cs).find_phandle ph = _
    unfold Node.find_phandle
    rw [hg]
  | i :: rest, .mk nm ps cs => by
    unfold Node.modifyAt
    split
    · rfl
    · rename_i c hc
      unfold Node.find_phandle
      rw [find_phandle_list_set ph _ cs i 0 c hc (modifyAt_props_find_phandle g hg ph rest c)]

theorem modifyAt_props_child_names (g : List (Bytes × Bytes) → List (Bytes × Bytes)) :
    ∀ (off : Offset) (n : Node),
      (n.modifyAt (fun m => m.set_props (g m.props)) off).children.map Node.name
        = n.children.map Node.name
  | [], .mk nm ps cs => rfl
  | i :: rest, .mk nm ps cs => by
    unfold Node.modifyAt
    split
    · rfl
    · rename_i c hc
      show (cs.set i _).map Node.name = cs.map Node.name
      rw [List.map_set, modifyAt_props_name g rest c]
      apply List.ext_getElem?
      intro k
      by_cases hk : k = i
      · subst hk
        rw [List.getElem?_set_self (by
          rcases List.getElem?_eq_some_iff.mp hc with ⟨hl, _⟩; simpa using hl)]
        simp [hc]
      · rw [List.getElem?_set_ne (Ne.symm hk)]

theorem getprop_modify (F F1 : Blob) (rs : Offset) (g : List (Bytes × Bytes) → List (Bytes × Bytes))
    (hroot : F1.root = F.root.modifyAt (fun m => m.set_props (g m.props)) rs) (t : Node)
    (ht : F.root.get? rs = some t) (a v : Bytes) (hv : prop_lookup a (g t.props) = some v) :
    fdt_getprop F1 rs a = .ok v := by
  unfold fdt_getprop
  rw [hroot, get_modifyAt, ht]
  simp only [Option.map_some', set_props_props, hv]

theorem getprop_modify_other (F F1 : Blob) (rs : Offset)
    (g : List (Bytes × Bytes) → List (Bytes × Bytes))
    (hroot : F1.root = F.root.modifyAt (fun m => m.set_props (g m.props)) rs) (a : Bytes)
    (hg : ∀ ps, prop_lookup a (g ps) = prop_lookup a ps) :
    fdt_getprop F1 rs a = fdt_getprop F rs a := by
  unfold fdt_getprop
  rw [hroot, get_modifyAt]
  cases F.root.get? rs with
  | none => rfl
  | some t => simp only [Option.map_some', set_props_props, hg]

theorem cstr_length (s : Bytes) : (cstr s).length = strlen s := by
  unfold cstr strlen
  rw [List.length_take]
  exact Nat.min_eq_left List.indexOf_le_length

theorem write_at_zero (v data : Bytes) : write_at v 0 data = data ++ v.drop data.length := by
  unfold write_at
  simp

theorem write_at_twice (ph c d : Bytes) (h : ph.length = c.length + d.length) (hd : 1 ≤ d.length) :
    write_at (write_at ph 0 (c ++ [0])) c.length d = c ++ d := by
  rw [write_at_zero]
  unfold write_at
  rw [List.append_assoc c, List.take_left, List.drop_eq_nil_of_le, List.append_nil]
  simp only [List.length_append, List.length_drop, List.length_singleton]
  omega

theorem write_at_over (ph d : Bytes) (h : ph.length ≤ d.length) : write_at ph 0 d = d := by
  rw [write_at_zero, List.drop_eq_nil_of_le h, List.append_nil]

theorem path_string_length_reverse (names : List Bytes) :
    (path_string names.reverse).length = (path_string names).length := by
  unfold path_string
  rw [List.length_flatten, List.length_flatten, List.map_reverse, List.map_reverse,
    List.sum_reverse]

theorem path_string_cons (nm : Bytes) (names : List Bytes) :
    path_string (nm :: names) = 47 :: nm ++ path_string names := rfl

theorem get_path_len_up_eq (rn : Bytes) : ∀ (up : List Bytes) (acc : Nat),
    (∀ nm ∈ up, nm ≠ []) →
    get_path_len_up rn up acc
      = if rn.length = 0 then .ok (acc + (path_string up).length) else .error .NOTFOUND
  | [], acc, _ => by
    unfold get_path_len_up
    simp [path_string]
  | nm :: up, acc, h => by
    unfold get_path_len_up
    have hnm : nm.length ≠ 0 := by
      intro h0
      exact h nm (List.mem_cons_self _ _) (List.length_eq_zero.mp h0)
    rw [if_neg hnm, get_path_len_up_eq rn up _ (fun x hx => h x (List.mem_cons_of_mem _ hx))]
    rw [path_string_cons]
    simp only [List.length_cons, List.length_append]
    split
    · congr 1; omega
    · rfl

theorem path_string_two (names : List Bytes) (h : ∀ nm ∈ names, nm ≠ []) (hne : names ≠ []) :
    2 ≤ (path_string names).length := by
  cases names with
  | nil => exact absurd rfl hne
  | cons nm rest =>
    rw [path_string_cons]
    have : nm ≠ [] := h nm (List.mem_cons_self _ _)
    have : 0 < nm.length := List.length_pos.mpr this
    simp only [List.length_cons, List.length_append]
    omega

theorem get_path_len_eq (F : Blob) (T : Offset) (names : List Bytes) (len : Nat)
    (hp : F.root.path_names T = some names) (hne : ∀ nm ∈ names, nm ≠ [])
    (h : get_path_len F T = .ok len) :
    len = if names = [] then 1 else (path_string names).length := by
  unfold get_path_len at h
  split at h
  · cases h
  · rw [hp] at h
    simp only at h
    rw [get_path_len_up_eq _ names.reverse 0 (fun x hx => hne x (List.mem_reverse.mp hx))] at h
    split at h
    · cases h
    · rename_i l hl
      split at hl
      · injection hl with hl
        injection h with h
        rw [path_string_length_reverse, Nat.zero_add] at hl
        subst hl
        subst h
        by_cases hn : names = []
        · subst hn; rfl
        · rw [if_neg hn]
          have := path_string_two names hne hn
          rw [if_neg (by omega)]
      · cases hl

theorem props_phandle_congr (ps qs : List (Bytes × Bytes))
    (h1 : prop_lookup (str "phandle") qs = prop_lookup (str "phandle") ps)
    (h2 : prop_lookup (str "linux,phandle") qs = prop_lookup (str "linux,phandle") ps) :
    props_phandle qs = props_phandle ps := by
  unfold props_phandle
  rw [h1, h2]

theorem target_offset_by_phandle (F F1 : Blob) (fragment : Node) (T : Offset)
    (hfind : ∀ ph, F1.root.find_phandle ph = F.root.find_phandle ph)
    (h : fdt_overlay_target_offset F fragment = .ok (T, none)) :
    fdt_overlay_target_offset F1 fragment = .ok (T, none) := by
  unfold fdt_overlay_target_offset at h ⊢
  dsimp only at h ⊢
  split
  · rename_i hp; rw [if_pos hp] at h; exact h
  · rename_i hp
    rw [if_neg hp] at h
    split
    · rename_i h0
      rw [if_pos h0] at h
      split at h
      · split at h
        · cases h
        · cases h
      · cases h
    · rename_i h0
      rw [if_neg h0] at h
      unfold fdt_node_offset_by_phandle at h ⊢
      rw [hfind]
      exact h

theorem writes_only_refl (name : Bytes) (off : Offset) (a : Blob) : writes_only name off a a := by
  refine ⟨rfl, rfl, rfl, fun ps => ps, fun _ _ _ => rfl, ?_⟩
  have : (fun m : Node => m.set_props m.props) = fun m => m := by
    funext m; exact set_props_self m
  rw [this, modifyAt_id]

theorem writes_only_trans {name : Bytes} {off : Offset} {a b c : Blob}
    (h1 : writes_only name off a b) (h2 : writes_only name off b c) : writes_only name off a c := by
  obtain ⟨m1, v1, l1, f, hf1, hf⟩ := h1
  obtain ⟨m2, v2, l2, g, hg1, hg⟩ := h2
  refine ⟨m2.trans m1, v2.trans v1, l2.trans l1, fun ps => g (f ps), ?_, ?_⟩
  · intro x hx ps
    rw [hg1 x hx, hf1 x hx]
  · rw [hg, hf, modifyAt_modifyAt]
    congr 1
    funext m
    rw [set_props_set_props, set_props_props]

theorem writes_only_props {name : Bytes} {off : Offset} {a b : Blob}
    (h : writes_only name off a b) : only_props_at a off b := by
  obtain ⟨m1, v1, l1, f, _, hf⟩ := h
  exact ⟨m1, v1, l1, f, hf⟩

theorem placeholder_writes (F F1 : Blob) (off : Offset) (name : Bytes) (len : Nat)
    (h : fdt_setprop_placeholder F off name len = .ok F1) : writes_only name off F F1 := by
  obtain ⟨hr, hm, hv, hl, _⟩ := placeholder_root F F1 off name len h
  exact ⟨hm, hv, hl, placeholder_props name len,
    fun x hx ps => placeholder_props_lookup_ne name x len ps hx, hr⟩

theorem memcpy_writes (F : Blob) (off : Offset) (name : Bytes) (idx : Nat) (data : Bytes) :
    writes_only name off F (prop_memcpy F off name idx data) :=
  ⟨rfl, rfl, rfl, memcpy_props name idx data,
    fun x hx ps => memcpy_props_lookup_ne name x idx data ps hx, rfl⟩

theorem symbol_write_frame (F : Blob) (rs : Offset) (name : Bytes) (fragment : Node)
    (T : Offset) (pathp : Option Bytes) (rel : Bytes) :
    writes_only name rs F (overlay_symbol_write F rs name fragment T pathp rel).state := by
  unfold overlay_symbol_write
  split
  · exact writes_only_refl _ _ _
  · split
    · exact writes_only_refl _ _ _
    · rename_i F1 h
      have h1 := placeholder_writes _ _ _ _ _ h
      repeat' split
      all_goals first
        | exact h1
        | exact writes_only_trans h1 (memcpy_writes _ _ _ _ _)
        | exact writes_only_trans h1
            (writes_only_trans (memcpy_writes _ _ _ _ _) (memcpy_writes _ _ _ _ _))

theorem symbol_write_frame_eq (F : Blob) (rs : Offset) (name : Bytes) (fragment : Node)
    (T : Offset) (pathp : Option Bytes) (rel : Bytes) (r : Res Blob)
    (h : overlay_symbol_write F rs name fragment T pathp rel = r) :
    writes_only name rs F r.state := by
  rw [← h]; exact symbol_write_frame _ _ _ _ _ _ _

theorem getprop_writes_other {name : Bytes} {off : Offset} {a b : Blob}
    (h : writes_only name off a b) (x : Bytes) (hx : x ≠ name) :
    fdt_getprop b off x = fdt_getprop a off x := by
  obtain ⟨_, _, _, g, hg1, hg⟩ := h
  exact getprop_modify_other a b off g hg x (hg1 x hx)

/-- The value `overlay_symbol_write` leaves in the property, given the
placeholder it obtained. -/
theorem symbol_value_after (F1 : Blob) (rs : Offset) (name : Bytes) (t : Node) (ph c d : Bytes)
    (ht : F1.root.get? rs = some t) (hph : prop_lookup name t.props = some ph)
    (hlen : ph.length = c.length + d.length) (hd : 1 ≤ d.length) :
    fdt_getprop (prop_memcpy (prop_memcpy F1 rs name 0 (c ++ [0])) rs name c.length d) rs name
      = .ok (c ++ d) := by
  have h1 : (prop_memcpy F1 rs name 0 (c ++ [0])).root.get? rs
      = some (t.set_props (memcpy_props name 0 (c ++ [0]) t.props)) := by
    rw [(memcpy_root F1 rs name 0 (c ++ [0])).1, get_modifyAt, ht]
    rfl
  refine getprop_modify _ _ rs (memcpy_props name c.length d) (memcpy_root _ rs name _ d).1 _ h1
    name _ ?_
  rw [set_props_props, memcpy_props_lookup_self name _ d _ _
    (memcpy_props_lookup_self name 0 (c ++ [0]) ph t.props hph), write_at_twice ph c d hlen hd]

theorem symbol_value_root (F1 : Blob) (rs : Offset) (name : Bytes) (t : Node) (ph d : Bytes)
    (ht : F1.root.get? rs = some t) (hph : prop_lookup name t.props = some ph)
    (hlen : ph.length ≤ d.length) :
    fdt_getprop (prop_memcpy F1 rs name 0 d) rs name = .ok d := by
  refine getprop_modify _ _ rs (memcpy_props name 0 d) (memcpy_root _ rs name _ d).1 _ ht
    name _ ?_
  rw [memcpy_props_lookup_self name 0 d ph t.props hph, write_at_over ph d hlen]

theorem placeholder_get (F F1 : Blob) (off : Offset) (name : Bytes) (len : Nat)
    (h : fdt_setprop_placeholder F off name len = .ok F1) :
    ∃ t ph, F1.root.get? off = some t ∧ prop_lookup name t.props = some ph ∧ ph.length = len := by
  obtain ⟨hr, _, _, _, t, ht⟩ := placeholder_root F F1 off name len h
  obtain ⟨ph, hph, hl⟩ := placeholder_props_lookup_self name len t.props
  refine ⟨t.set_props (placeholder_props name len t.props), ph, ?_, ?_, hl⟩
  · rw [hr, get_modifyAt, ht]; rfl
  · rw [set_props_props]; exact hph

theorem symbol_write_by_path (F F1 : Blob) (rs : Offset) (name : Bytes) (fragment : Node)
    (T : Offset) (tp rel : Bytes)
    (h : overlay_symbol_write F rs name fragment T (some tp) rel = .ok F1) :
    fdt_getprop F1 rs name
      = .ok ((if strlen tp > 1 then cstr tp else []) ++ (47 :: rel ++ [0])) := by
  unfold overlay_symbol_write at h
  simp only at h
  split at h
  · cases h
  · rename_i F0 hp
    obtain ⟨t, ph, ht, hph, hl⟩ := placeholder_get _ _ _ _ _ hp
    split at h
    · rename_i hlen
      injection h with h
      subst h
      rw [if_pos hlen, ← cstr_length tp]
      rw [if_pos hlen] at hl
      refine symbol_value_after F0 rs name t ph (cstr tp) (47 :: rel ++ [0]) ht hph ?_ ?_
      · rw [hl, cstr_length]
        simp only [List.length_cons, List.length_append, List.length_singleton, List.length_nil]
        omega
      · simp
    · rename_i hlen
      injection h with h
      subst h
      rw [if_neg hlen, List.nil_append]
      rw [if_neg hlen] at hl
      have h0 : strlen tp - 1 = 0 := by omega
      rw [h0]
      refine symbol_value_root F0 rs name t ph _ ht hph ?_
      rw [hl]
      simp only [List.length_cons, List.length_append, List.length_singleton]
      omega

theorem symbol_write_by_phandle (F F1 : Blob) (rs : Offset) (name : Bytes) (fragment : Node)
    (T : Offset) (rel : Bytes) (names : List Bytes)
    (hn1 : name ≠ str "phandle") (hn2 : name ≠ str "linux,phandle")
    (ht : fdt_overlay_target_offset F fragment = .ok (T, none))
    (hp : F.root.path_names T = some names) (hne : ∀ nm ∈ names, nm ≠ [])
    (h : overlay_symbol_write F rs name fragment T none rel = .ok F1) :
    fdt_getprop F1 rs name = .ok (path_string names ++ (47 :: rel ++ [0])) := by
  unfold overlay_symbol_write at h
  simp only at h
  split at h
  · cases h
  · rename_i len hlen
    have hlen1 := get_path_len_eq F T names len hp hne hlen
    split at h
    · cases h
    · rename_i F0 hpl
      obtain ⟨t, ph, ht0, hph, hl⟩ := placeholder_get _ _ _ _ _ hpl
      obtain ⟨hr, _, _, _, _⟩ := placeholder_root _ _ _ _ _ hpl
      have hfind : ∀ p, F0.root.find_phandle p = F.root.find_phandle p := by
        intro p
        rw [hr]
        exact modifyAt_props_find_phandle _ (fun ps => props_phandle_congr _ _
          (placeholder_props_lookup_ne name _ _ ps (Ne.symm hn1))
          (placeholder_props_lookup_ne name _ _ ps (Ne.symm hn2))) p rs F.root
      rw [target_offset_by_phandle F F0 fragment T hfind ht] at h
      simp only at h
      have hp0 : F0.root.path_names T = some names := by
        rw [hr, modifyAt_props_path_names]; exact hp
      split at h
      · rename_i hgt
        have hnn : names ≠ [] := by
          intro h0
          rw [if_pos h0] at hlen1
          omega
        rw [if_neg hnn] at hlen1
        rw [if_pos hgt] at hl
        unfold fdt_get_path at h
        rw [hp0] at h
        simp only [if_neg hnn] at h
        split at h
        · cases h
        · rename_i p hpeq
          injection h with h
          subst h
          split at hpeq
          · cases hpeq
          · injection hpeq with hpeq
            subst hpeq
            have e : (List.map (fun nm => 47 :: nm) names).flatten = path_string names := rfl
            rw [e, hlen1]
            refine symbol_value_after F0 rs name t ph (path_string names) (47 :: rel ++ [0])
              ht0 hph ?_ ?_
            · rw [hl, hlen1]
              simp only [List.length_cons, List.length_append, List.length_singleton,
                List.length_nil]
              omega
            · simp
      · rename_i hgt
        injection h with h
        subst h
        have hnn : names = [] := by
          by_contra h0
          rw [if_neg h0] at hlen1
          have := path_string_two names hne h0
          omega
        rw [if_pos hnn] at hlen1
        subst hnn
        subst hlen1
        rw [if_neg hgt] at hl
        refine symbol_value_root F0 rs name t ph _ ht0 hph ?_
        rw [hl]
        simp only [List.length_cons, List.length_append, List.length_singleton, List.length_nil]
        omega

theorem memchr_append_lt (p r : Bytes) (c n : Nat) (h : c ∉ p) (hn : p.length < n) :
    memchr (p ++ c :: r) c n = some p.length := by
  unfold memchr
  have e : (p ++ c :: r).take n = p ++ c :: r.take (n - p.length - 1) := by
    rw [List.take_append_eq_append_take, List.take_of_length_le (Nat.le_of_lt hn)]
    congr 1
    obtain ⟨k, hk⟩ : ∃ k, n - p.length = k + 1 := ⟨n - p.length - 1, by omega⟩
    rw [hk, List.take_succ_cons]
    rfl
  simp only [e]
  rw [List.indexOf_append_of_not_mem h, List.indexOf_cons_self]
  simp

theorem symbol_parse (frag rel tail : Bytes) (h47 : 47 ∉ frag) (h0 : 0 ∉ frag) (hr : 0 ∉ rel)
    (ht : symbol_tail rel tail) :
    ¬ ((47 :: frag ++ tail).length < 1
        ∨ memchr (47 :: frag ++ tail) 0 (47 :: frag ++ tail).length
            ≠ some ((47 :: frag ++ tail).length - 1)) ∧
    ¬ ((47 :: frag ++ tail).head? ≠ some 47) ∧
    memchr ((47 :: frag ++ tail).drop 1) 47 ((47 :: frag ++ tail).length - 2)
      = some frag.length ∧
    (47 :: frag ++ tail).drop (frag.length + 1) = tail ∧
    ((tail.length > 13 ∧ tail.take 13 = str "/__overlay__/")
      ∨ (tail.length = 13 ∧ tail.take 12 = str "/__overlay__")) ∧
    (if tail.length > 13 then (tail.drop 13).take (tail.length - 13 - 1) else []) = rel ∧
    ((47 :: frag ++ tail).drop 1).take frag.length = frag := by
  have hl13 : (str "/__overlay__/").length = 13 := by decide
  have hl12 : (str "/__overlay__").length = 12 := by decide
  have e13 : str "/__overlay__/" = 47 :: str "__overlay__/" := by decide
  have e12 : str "/__overlay__" = 47 :: str "__overlay__" := by decide
  have z13 : 0 ∉ str "/__overlay__/" := by decide
  have z12 : 0 ∉ str "/__overlay__" := by decide
  have hdrop : (47 :: frag ++ tail).drop (frag.length + 1) = tail := by
    have : 47 :: frag ++ tail = (47 :: frag) ++ tail := rfl
    rw [this, List.drop_append_eq_append_drop, List.drop_of_length_le (by simp)]
    simp
  have htake : ((47 :: frag ++ tail).drop 1).take frag.length = frag := by
    show (frag ++ tail).take frag.length = frag
    exact List.take_left _ _
  refine ⟨?_, by simp, ?_, hdrop, ?_, ?_, htake⟩
  · -- the value ends in its only NUL
    have hz : ∃ pre, 47 :: frag ++ tail = pre ++ 0 :: [] ∧ 0 ∉ pre := by
      rcases ht with ht | ⟨ht, _⟩
      · refine ⟨47 :: frag ++ str "/__overlay__/" ++ rel, ?_, ?_⟩
        · rw [ht]; simp
        · simp [h0, hr, z13]
      · refine ⟨47 :: frag ++ str "/__overlay__", ?_, ?_⟩
        · rw [ht]; simp
        · simp [h0, z12]
    obtain ⟨pre, hpre, hz0⟩ := hz
    rw [hpre, memchr_append_mem pre [] 0 hz0]
    simp
  · -- the first `/` after the leading one ends the name of the fragment
    show memchr (frag ++ tail) 47 _ = _
    rcases ht with ht | ⟨ht, _⟩
    · rw [ht, e13]
      simp only [List.cons_append]
      refine memchr_append_lt frag _ 47 _ h47 ?_
      simp only [List.length_cons, List.length_append]
      omega
    · rw [ht, e12]
      simp only [List.cons_append]
      refine memchr_append_lt frag _ 47 _ h47 ?_
      simp only [List.length_cons, List.length_append]
      omega
  · rcases ht with ht | ⟨ht, _⟩
    · left
      rw [ht]
      refine ⟨?_, ?_⟩
      · simp only [List.length_append, hl13, List.length_singleton]; omega
      · rw [List.append_assoc, ← hl13, List.take_left]
    · right
      rw [ht]
      exact ⟨by simp [hl12], by rw [← hl12, List.take_left]⟩
  · rcases ht with ht | ⟨ht, hrel⟩
    · rw [ht]
      have hlen : (str "/__overlay__/" ++ rel ++ [0]).length = 13 + rel.length + 1 := by
        simp only [List.length_append, hl13, List.length_singleton]
      rw [if_pos (by rw [hlen]; omega), hlen, List.append_assoc, ← hl13, List.drop_left]
      have : (str "/__overlay__/").length + rel.length + 1 - (str "/__overlay__/").length - 1
          = rel.length := by omega
      rw [this, List.take_left]
    · rw [ht, hrel]
      rfl

/-- One turn of the symbol loop for a symbol that leads into a fragment. -/
theorem symbol_loop_turn (merge : Bool) (ov_sym root_sym : Offset) (fuel prop : Nat)
    (st : Blob × Blob) (name frag rel tail : Bytes)
    (hnum : prop < fdt_num_props st.2 ov_sym)
    (hget : fdt_getprop_by_offset st.2 ov_sym prop = .ok (name, 47 :: frag ++ tail))
    (h47 : 47 ∉ frag) (h0 : 0 ∉ frag) (hr : 0 ∉ rel) (ht : symbol_tail rel tail) :
    overlay_symbol_update_loop merge ov_sym root_sym (fuel + 1) prop st =
      match fdt_subnode_offset st.2 [] frag with
      | .error _ => some (.err .BADOVERLAY st)
      | .ok fragment_off =>
        match fdt_subnode_offset st.2 fragment_off (str "__overlay__") with
        | .error _ => some (.err .BADOVERLAY st)
        | .ok _ =>
          match st.2.root.get? fragment_off with
          | none => some (.err .BADOFFSET st)
          | some fragment =>
            match fdt_overlay_target_offset st.1 fragment with
            | .error e =>
              if e = .BADPHANDLE ∧ merge then
                overlay_symbol_update_loop merge ov_sym root_sym fuel (prop + 1) st
              else some (.err e st)
            | .ok target =>
              match overlay_symbol_write st.1 root_sym name fragment target.1 target.2 rel with
              | .err e fdt1 => some (.err e (fdt1, st.2))
              | .ok fdt1 =>
                if merge then
                  match fdt_delprop st.2 ov_sym name with
                  | .error e => some (.err e (fdt1, st.2))
                  | .ok fdto1 =>
                    if prop + 1 < fdt_num_props st.2 ov_sym then
                      overlay_symbol_update_loop merge ov_sym root_sym fuel prop (fdt1, fdto1)
                    else some (.ok (fdt1, fdto1))
                else
                  overlay_symbol_update_loop merge ov_sym root_sym fuel (prop + 1) (fdt1, st.2) := by
  obtain ⟨p1, p2, p3, p4, p5, p6, p7⟩ := symbol_parse frag rel tail h47 h0 hr ht
  rw [overlay_symbol_update_loop, if_pos hnum, hget]
  simp only
  rw [if_neg p1, if_neg p2, p3]
  simp only
  rw [p4, if_pos p5, p6, p7]

theorem drop_cons_of_get {α : Type} : ∀ (ps : List α) (i : Nat) (p : α),
    ps[i]? = some p → ps.drop i = p :: ps.drop (i + 1)
  | [], i, p, h => by simp at h
  | q :: qs, 0, p, h => by
    simp at h
    subst h
    rfl
  | q :: qs, i + 1, p, h => by
    simp only [List.getElem?_cons_succ] at h
    simp only [List.drop_succ_cons]
    exact drop_cons_of_get qs i p h

theorem prop_erase_sublist (a : Bytes) : ∀ ps : List (Bytes × Bytes),
    (prop_erase a ps).Sublist ps
  | [] => List.Sublist.slnil
  | p :: ps => by
    unfold prop_erase
    split
    · exact List.sublist_cons_self _ _
    · exact (prop_erase_sublist a ps).cons₂ _

theorem prop_erase_drop : ∀ (ps : List (Bytes × Bytes)) (i : Nat) (p : Bytes × Bytes),
    ps[i]? = some p → (ps.map Prod.fst).Nodup →
    (prop_erase p.1 ps).drop i = ps.drop (i + 1)
  | [], i, p, h, _ => by simp at h
  | q :: qs, 0, p, h, _ => by
    simp at h
    subst h
    simp [prop_erase]
  | q :: qs, i + 1, p, h, hn => by
    simp only [List.getElem?_cons_succ] at h
    have hmem : p.1 ∈ qs.map Prod.fst := List.mem_map_of_mem _ (List.getElem?_mem h)
    rw [List.map_cons, List.nodup_cons] at hn
    have hne : ¬ q.1 = p.1 := fun e => hn.1 (e ▸ hmem)
    unfold prop_erase
    rw [if_neg hne]
    simp only [List.drop_succ_cons]
    exact prop_erase_drop qs i p h hn.2

theorem prop_erase_nodup (a : Bytes) (ps : List (Bytes × Bytes))
    (h : (ps.map Prod.fst).Nodup) : ((prop_erase a ps).map Prod.fst).Nodup :=
  h.sublist ((prop_erase_sublist a ps).map _)

theorem getprop_by_offset_get (O : Blob) (off : Offset) (i : Nat) (p : Bytes × Bytes)
    (syms : Node) (hs : O.root.get? off = some syms)
    (h : fdt_getprop_by_offset O off i = .ok p) : syms.props[i]? = some p := by
  unfold fdt_getprop_by_offset at h
  rw [hs] at h
  simp only at h
  split at h
  · cases h
  · rename_i q hq
    injection h with h
    subst h
    exact hq

theorem delprop_step (O O1 : Blob) (off : Offset) (name : Bytes)
    (h : fdt_delprop O off name = .ok O1) :
    only_props_at O off O1 ∧
    ∃ syms, O.root.get? off = some syms ∧
      O1.root.get? off = some (syms.set_props (prop_erase name syms.props)) := by
  unfold fdt_delprop at h
  split at h
  · cases h
  · rename_i syms hs
    split at h
    · cases h
    · split at h
      · cases h
      · rename_i O2 hsp
        injection h with h
        subst h
        obtain ⟨hr, hm, hv, hl⟩ := splice_root _ _ _ _ hsp
        refine ⟨⟨hm, hv, hl, fun ps => prop_erase name ps, ?_⟩, syms, hs, ?_⟩
        · simp only [update_root, hr]
        · simp only [update_root, hr]
          rw [get_modifyAt, hs]
          rfl

theorem delprop_drop (O O1 : Blob) (off : Offset) (name path : Bytes) (prop : Nat) (syms : Node)
    (hs : O.root.get? off = some syms) (hn : (syms.props.map Prod.fst).Nodup)
    (hget : fdt_getprop_by_offset O off prop = .ok (name, path))
    (h : fdt_delprop O off name = .ok O1) :
    ∃ syms1, O1.root.get? off = some syms1 ∧ (syms1.props.map Prod.fst).Nodup ∧
      syms1.props.drop prop = syms.props.drop (prop + 1) := by
  obtain ⟨_, syms0, hs0, hs1⟩ := delprop_step O O1 off name h
  rw [hs] at hs0
  injection hs0 with hs0
  subst hs0
  refine ⟨_, hs1, ?_, ?_⟩
  · rw [set_props_props]; exact prop_erase_nodup name _ hn
  · rw [set_props_props]
    exact prop_erase_drop syms.props prop (name, path)
      (getprop_by_offset_get _ _ _ _ syms hs hget) hn

/-- The frame of the symbol loop, whatever its result: the base changes in the
properties of `/__symbols__` only, the overlay in the properties of its
`/__symbols__` only, and a property of the base's `/__symbols__` whose name is
not among the symbols still to be processed keeps its value. -/
theorem symbol_loop_frame (merge : Bool) (ov_sym root_sym : Offset) (fuel : Nat) :
    ∀ (prop : Nat) (st : Blob × Blob) (r : Res (Blob × Blob)),
      overlay_symbol_update_loop merge ov_sym root_sym fuel prop st = some r →
      only_props_at st.1 root_sym r.state.1 ∧ only_props_at st.2 ov_sym r.state.2 ∧
      ∀ syms, st.2.root.get? ov_sym = some syms → (syms.props.map Prod.fst).Nodup →
        ∀ a, a ∉ (syms.props.drop prop).map Prod.fst →
          fdt_getprop r.state.1 root_sym a = fdt_getprop st.1 root_sym a := by
  induction fuel with
  | zero => intro prop st r h; simp [overlay_symbol_update_loop] at h
  | succ fuel ih =>
    intro prop st r h
    have base : only_props_at st.1 root_sym st.1 ∧ only_props_at st.2 ov_sym st.2 ∧
        ∀ syms, st.2.root.get? ov_sym = some syms → (syms.props.map Prod.fst).Nodup →
          ∀ a, a ∉ (syms.props.drop prop).map Prod.fst →
            fdt_getprop st.1 root_sym a = fdt_getprop st.1 root_sym a :=
      ⟨only_props_at_refl _ _, only_props_at_refl _ _, fun _ _ _ _ _ => rfl⟩
    unfold overlay_symbol_update_loop at h
    dsimp only at h
    split at h
    · split at h
      · cases h; exact base
      · rename_i name path hget
        split at h
        · cases h; exact base
        · split at h
          · cases h; exact base
          · split at h
            · exact ih _ _ _ h
            · split at h
              · split at h
                · cases h; exact base
                · split at h
                  · cases h; exact base
                  · split at h
                    · cases h; exact base
                    · rename_i fragment _
                      split at h
                      · split at h
                        · obtain ⟨i1, i2, i3⟩ := ih _ _ _ h
                          refine ⟨i1, i2, ?_⟩
                          intro syms hs hn a ha
                          refine i3 syms hs hn a ?_
                          intro hm
                          apply ha
                          have hp := getprop_by_offset_get _ _ _ _ syms hs hget
                          rw [drop_cons_of_get _ _ _ hp]
                          exact List.mem_cons_of_mem _ hm
                        · cases h; exact base
                      · rename_i target _
                        have hp : ∀ syms, st.2.root.get? ov_sym = some syms →
                            syms.props.drop prop = (name, path) :: syms.props.drop (prop + 1) :=
                          fun syms hs =>
                            drop_cons_of_get _ _ _ (getprop_by_offset_get _ _ _ _ syms hs hget)
                        have hother : ∀ syms, st.2.root.get? ov_sym = some syms →
                            ∀ a, a ∉ (syms.props.drop prop).map Prod.fst →
                              a ≠ name ∧ a ∉ (syms.props.drop (prop + 1)).map Prod.fst := by
                          intro syms hs a ha
                          rw [hp syms hs, List.map_cons, List.mem_cons, not_or] at ha
                          exact ha
                        split at h
                        · rename_i e fdt1 hw
                          cases h
                          have hf := symbol_write_frame_eq _ _ _ _ _ _ _ _ hw
                          refine ⟨writes_only_props hf, only_props_at_refl _ _, ?_⟩
                          intro syms hs hn a ha
                          exact getprop_writes_other hf a (hother syms hs a ha).1
                        · rename_i fdt1 hw
                          have hf := symbol_write_frame_eq _ _ _ _ _ _ _ _ hw
                          split at h
                          · split at h
                            · cases h
                              refine ⟨writes_only_props hf, only_props_at_refl _ _, ?_⟩
                              intro syms hs hn a ha
                              exact getprop_writes_other hf a (hother syms hs a ha).1
                            · rename_i fdto1 hd
                              have hdf := (delprop_step _ _ _ _ hd).1
                              split at h
                              · obtain ⟨i1, i2, i3⟩ := ih _ _ _ h
                                refine ⟨only_props_at_trans (writes_only_props hf) i1,
                                  only_props_at_trans hdf i2, ?_⟩
                                intro syms hs hn a ha
                                obtain ⟨syms1, g1, n1, d1⟩ := delprop_drop _ _ _ _ _ _ syms hs hn hget hd
                                rw [i3 syms1 g1 n1 a (by rw [d1]; exact (hother syms hs a ha).2)]
                                exact getprop_writes_other hf a (hother syms hs a ha).1
                              · cases h
                                refine ⟨writes_only_props hf, hdf, ?_⟩
                                intro syms hs hn a ha
                                exact getprop_writes_other hf a (hother syms hs a ha).1
                          · obtain ⟨i1, i2, i3⟩ := ih _ _ _ h
                            refine ⟨only_props_at_trans (writes_only_props hf) i1, i2, ?_⟩
                            intro syms hs hn a ha
                            rw [i3 syms hs hn a (hother syms hs a ha).2]
                            exact getprop_writes_other hf a (hother syms hs a ha).1
              · exact ih _ _ _ h
    · cases h; exact base

theorem nodup_not_mem_drop : ∀ (ps : List (Bytes × Bytes)) (i : Nat) (p : Bytes × Bytes),
    ps[i]? = some p → (ps.map Prod.fst).Nodup → p.1 ∉ (ps.drop (i + 1)).map Prod.fst
  | [], i, p, h, _ => by simp at h
  | q :: qs, 0, p, h, hn => by
    simp at h
    subst h
    rw [List.map_cons, List.nodup_cons] at hn
    exact hn.1
  | q :: qs, i + 1, p, h, hn => by
    simp only [List.getElem?_cons_succ] at h
    rw [List.map_cons, List.nodup_cons] at hn
    simp only [List.drop_succ_cons]
    exact nodup_not_mem_drop qs i p h hn.2

theorem num_props_get (O : Blob) (off : Offset) (syms : Node) (hs : O.root.get? off = some syms) :
    fdt_num_props O off = syms.props.length := by
  unfold fdt_num_props
  rw [hs]

theorem getprop_by_offset_of_get (O : Blob) (off : Offset) (i : Nat) (p : Bytes × Bytes)
    (syms : Node) (hs : O.root.get? off = some syms) (h : syms.props[i]? = some p) :
    fdt_getprop_by_offset O off i = .ok p := by
  unfold fdt_getprop_by_offset
  rw [hs]
  simp only [h]

/-- The value written at the turn of a symbol, given that the rest of the loop
leaves the property alone. -/
theorem symbol_turn_outcome (merge : Bool) (root_sym ov_sym : Offset) (base ov F O F1 final : Blob)
    (name frag rel : Bytes) (fragment_off : Offset) (fragment : Node)
    (target : Offset × Option Bytes)
    (hF : only_props_at base root_sym F) (hO : only_props_at ov ov_sym O)
    (hfo : fdt_subnode_offset O [] frag = .ok fragment_off)
    (hfr : O.root.get? fragment_off = some fragment)
    (ht : fdt_overlay_target_offset F fragment = .ok target)
    (hw : overlay_symbol_write F root_sym name fragment target.1 target.2 rel = .ok F1)
    (hfinal : fdt_getprop final root_sym name = fdt_getprop F1 root_sym name) :
    symbol_outcome merge root_sym ov_sym base ov name frag rel final := by
  obtain ⟨T, pathp⟩ := target
  refine ⟨F, O, fragment_off, fragment, hF, hO, hfo, hfr, Or.inr ⟨T, pathp, ht, ?_, ?_⟩⟩
  · intro tp htp
    subst htp
    rw [hfinal]
    exact symbol_write_by_path F F1 root_sym name fragment T tp rel hw
  · intro hnone hn1 hn2 names hp hne
    subst hnone
    rw [hfinal]
    exact symbol_write_by_phandle F F1 root_sym name fragment T rel names hn1 hn2 ht hp hne hw

/-- The symbol at the current property offset: what a successful run of the
loop makes of it. -/
theorem symbol_loop_here (merge : Bool) (ov_sym root_sym : Offset) (base ov : Blob) (fuel : Nat)
    (prop : Nat) (st final : Blob × Blob)
    (h : overlay_symbol_update_loop merge ov_sym root_sym (fuel + 1) prop st = some (.ok final))
    (hF : only_props_at base root_sym st.1) (hO : only_props_at ov ov_sym st.2)
    (syms : Node) (hs : st.2.root.get? ov_sym = some syms) (hn : (syms.props.map Prod.fst).Nodup)
    (name frag rel tail : Bytes) (hhere : syms.props[prop]? = some (name, 47 :: frag ++ tail))
    (h47 : 47 ∉ frag) (h0 : 0 ∉ frag) (hr : 0 ∉ rel) (ht : symbol_tail rel tail) :
    symbol_outcome merge root_sym ov_sym base ov name frag rel final.1 := by
  have hnum : prop < fdt_num_props st.2 ov_sym := by
    rw [num_props_get _ _ syms hs]
    exact (List.getElem?_eq_some_iff.mp hhere).1
  have hget := getprop_by_offset_of_get _ _ _ _ syms hs hhere
  have hlater : name ∉ (syms.props.drop (prop + 1)).map Prod.fst :=
    nodup_not_mem_drop syms.props prop _ hhere hn
  rw [symbol_loop_turn merge ov_sym root_sym fuel prop st name frag rel tail hnum hget h47 h0 hr
    ht] at h
  split at h
  · cases h
  · rename_i fragment_off hfo
    split at h
    · cases h
    · split at h
      · cases h
      · rename_i fragment hfr
        split at h
        · rename_i e he
          split at h
          · rename_i hc
            rw [hc.1] at he
            exact ⟨st.1, st.2, fragment_off, fragment, hF, hO, hfo, hfr, Or.inl ⟨hc.2, he⟩⟩
          · cases h
        · rename_i target htg
          split at h
          · cases h
          · rename_i F1 hw
            refine symbol_turn_outcome merge root_sym ov_sym base ov st.1 st.2 F1 final.1 name frag
              rel fragment_off fragment target hF hO hfo hfr htg hw ?_
            split at h
            · split at h
              · cases h
              · rename_i fdto1 hd
                split at h
                · obtain ⟨syms1, g1, n1, d1⟩ := delprop_drop _ _ _ _ _ _ syms hs hn hget hd
                  exact (symbol_loop_frame merge ov_sym root_sym fuel _ _ _ h).2.2 syms1 g1 n1 name
                    (by rw [d1]; exact hlater)
                · cases h
                  rfl
            · exact (symbol_loop_frame merge ov_sym root_sym fuel _ _ _ h).2.2 syms hs hn name
                hlater

theorem symbol_loop_outcome (merge : Bool) (ov_sym root_sym : Offset) (base ov : Blob)
    (fuel : Nat) :
    ∀ (prop : Nat) (st final : Blob × Blob),
      overlay_symbol_update_loop merge ov_sym root_sym fuel prop st = some (.ok final) →
      only_props_at base root_sym st.1 → only_props_at ov ov_sym st.2 →
      ∀ syms, st.2.root.get? ov_sym = some syms → (syms.props.map Prod.fst).Nodup →
      ∀ name frag rel tail, (name, 47 :: frag ++ tail) ∈ syms.props.drop prop →
        47 ∉ frag → 0 ∉ frag → 0 ∉ rel → symbol_tail rel tail →
        symbol_outcome merge root_sym ov_sym base ov name frag rel final.1 := by
  induction fuel with
  | zero => intro prop st final h; simp [overlay_symbol_update_loop] at h
  | succ fuel ih =>
    intro prop st final h hF hO syms hs hn name frag rel tail hmem h47 h0 hr ht
    have hlt : prop < syms.props.length := by
      by_contra hc
      rw [List.drop_of_length_le (by omega)] at hmem
      cases hmem
    obtain ⟨p0, hp0⟩ : ∃ p0, syms.props[prop]? = some p0 :=
      ⟨_, List.getElem?_eq_getElem hlt⟩
    rw [drop_cons_of_get _ _ _ hp0] at hmem
    rcases List.mem_cons.mp hmem with hh | hrest
    · rw [← hh] at hp0
      exact symbol_loop_here merge ov_sym root_sym base ov fuel prop st final h hF hO syms hs hn
        name frag rel tail hp0 h47 h0 hr ht
    · have hget0 := getprop_by_offset_of_get _ _ _ _ syms hs hp0
      unfold overlay_symbol_update_loop at h
      dsimp only at h
      split at h
      · split at h
        · cases h
        · rename_i name0 path0 hget
          have hskip : (name, 47 :: frag ++ tail) ∈ syms.props.drop prop := by
            rw [drop_cons_of_get _ _ _ hp0]
            exact List.mem_cons_of_mem _ hrest
          split at h
          · cases h
          · split at h
            · cases h
            · split at h
              · exact ih _ _ _ h hF hO syms hs hn name frag rel tail hskip h47 h0 hr ht
              · split at h
                · split at h
                  · cases h
                  · split at h
                    · cases h
                    · split at h
                      · cases h
                      · rename_i fragment _
                        split at h
                        · split at h
                          · exact ih _ _ _ h hF hO syms hs hn name frag rel tail hrest h47 h0
                              hr ht
                          · cases h
                        · rename_i target _
                          split at h
                          · cases h
                          · rename_i fdt1 hw
                            have hf := writes_only_props
                              (symbol_write_frame_eq _ _ _ _ _ _ _ _ hw)
                            split at h
                            · split at h
                              · cases h
                              · rename_i fdto1 hd
                                have hdf := (delprop_step _ _ _ _ hd).1
                                split at h
                                · obtain ⟨syms1, g1, n1, d1⟩ :=
                                    delprop_drop _ _ _ _ _ _ syms hs hn hget hd
                                  exact ih _ _ _ h (only_props_at_trans hF hf)
                                    (only_props_at_trans hO hdf) syms1 g1 n1 name frag rel tail
                                    (by rw [d1]; exact hrest) h47 h0 hr ht
                                · exfalso
                                  rename_i hlast
                                  rw [num_props_get _ _ syms hs] at hlast
                                  have : syms.props.drop (prop + 1) = [] :=
                                    List.drop_of_length_le (by omega)
                                  rw [this] at hrest
                                  cases hrest
                            · exact ih _ _ _ h (only_props_at_trans hF hf) hO syms hs hn name
                                frag rel tail hrest h47 h0 hr ht
                · exact ih _ _ _ h hF hO syms hs hn name frag rel tail hskip h47 h0 hr ht
      · cases h
        rename_i hnum
        rw [num_props_get _ _ syms hs] at hnum
        omega

theorem symbol_update_outcome (fuel : Nat) (fdt fdto fdt1 fdto1 : Blob) (merge : Bool)
    (ov_sym : Offset) (syms : Node) (name frag rel tail : Bytes)
    (hret : overlay_symbol_update fuel fdt fdto merge = some (.ok (fdt1, fdto1)))
    (hov : fdt_subnode_offset fdto [] (str "__symbols__") = .ok ov_sym)
    (hsyms : fdto.root.get? ov_sym = some syms)
    (hnodup : (syms.props.map Prod.fst).Nodup)
    (hmem : (name, 47 :: frag ++ tail) ∈ syms.props)
    (h47 : 47 ∉ frag) (h0 : 0 ∉ frag) (hr : 0 ∉ rel) (ht : symbol_tail rel tail) :
    ∃ base root_sym, overlay_root_symbols fdt = .ok (base, root_sym) ∧
      symbol_outcome merge root_sym ov_sym base fdto name frag rel fdt1 := by
  unfold overlay_symbol_update at hret
  rw [hov] at hret
  simp only at hret
  split at hret
  · cases hret
  · rename_i base root_sym hroot
    refine ⟨base, root_sym, hroot, ?_⟩
    exact symbol_loop_outcome merge ov_sym root_sym base fdto fuel 0 (base, fdto) (fdt1, fdto1)
      hret (only_props_at_refl _ _) (only_props_at_refl _ _) syms hsyms hnodup name frag rel tail
      (by rw [List.drop_zero]; exact hmem) h47 h0 hr ht

/-- C21 (as stated, refuted): the fragment of `trailing_slash_overlay` names its
target `/node-a` by the path `/node-a/`; the symbol `c` with the value
`/fragment@0/__overlay__/child` becomes `/node-a//child`, not `/node-a/child`. -/
theorem symbol_value_copies_target_path :
    ∃ fdt1, overlay_symbol_update 2 node_a_base trailing_slash_overlay false
        = some (.ok (fdt1, trailing_slash_overlay)) ∧
      fdt_overlay_target_offset fdt1
          (.mk (str "fragment@0") [(str "target-path", str "/node-a/" ++ [0])] [
            .mk (str "__overlay__") [] [.mk (str "child") [] []]])
        = .ok ([1], some (str "/node-a/" ++ [0])) ∧
      fdt_get_path fdt1 [1] 64 = .ok (str "/node-a") ∧
      fdt_getprop fdt1 [0] (str "c") = .ok (str "/node-a//child" ++ [0]) ∧
      str "/node-a//child" ++ [0] ≠ str "/node-a" ++ str "/child" ++ [0] :=
  ⟨_, rfl, rfl, rfl, rfl, by decide⟩

/-- C21 (amended): when `overlay_symbol_update` returns 0, a symbol of the
overlay (symbol names being unique) whose value is `/<fragment>/__overlay__/<rest>`
has been written to the base's `/__symbols__` as `symbol_outcome` describes
(unless, in merge mode, the target of the fragment is `BADPHANDLE`): the
`target-path` string of the fragment as it is written there, or the absolute
path of the target found by phandle, then `/`, `<rest>` and a NUL; and just
`/<rest>` when the `target-path` string is `/` or the target found by phandle
is the root. -/
theorem overlay_symbol_update_value (fuel : Nat) (fdt fdto fdt1 fdto1 : Blob) (merge : Bool)
    (ov_sym : Offset) (syms : Node) (name frag rest : Bytes)
    (hret : overlay_symbol_update fuel fdt fdto merge = some (.ok (fdt1, fdto1)))
    (hov : fdt_subnode_offset fdto [] (str "__symbols__") = .ok ov_sym)
    (hsyms : fdto.root.get? ov_sym = some syms)
    (hnodup : (syms.props.map Prod.fst).Nodup)
    (hmem : (name, 47 :: frag ++ (str "/__overlay__/" ++ rest ++ [0])) ∈ syms.props)
    (h47 : 47 ∉ frag) (h0 : 0 ∉ frag) (hr : 0 ∉ rest) :
    ∃ base root_sym, overlay_root_symbols fdt = .ok (base, root_sym) ∧
      symbol_outcome merge root_sym ov_sym base fdto name frag rest fdt1 :=
  symbol_update_outcome fuel fdt fdto fdt1 fdto1 merge ov_sym syms name frag rest _ hret hov hsyms
    hnodup hmem h47 h0 hr (Or.inl rfl)

/-- C21 (witness): the symbol `c` of `trailing_slash_overlay`. -/
theorem overlay_symbol_update_value_witness :
    ∃ base root_sym, overlay_root_symbols node_a_base = .ok (base, root_sym) ∧
      symbol_outcome false root_sym [1] base trailing_slash_overlay (str "c") (str "fragment@0")
        (str "child") trailing_slash_result :=
  overlay_symbol_update_value 2 node_a_base trailing_slash_overlay trailing_slash_result
    trailing_slash_overlay false [1]
    (.mk (str "__symbols__") [(str "c", str "/fragment@0/__overlay__/child" ++ [0])] [])
    (str "c") (str "fragment@0") (str "child") rfl rfl rfl (by decide) (by decide) (by decide)
    (by decide) (by decide)

/-- C22 (as stated, refuted): the fragment of `target_label_overlay` has the
target `/node-a`; the symbol `f` with the value `/fragment@0/__overlay__`
becomes `/node-a/`, with the `/` at its end, not `/node-a`. -/
theorem symbol_value_trailing_slash :
    overlay_symbol_update 2 node_a_base target_label_overlay false
        = some (.ok (target_label_result, target_label_overlay)) ∧
      fdt_overlay_target_offset target_label_result
          (.mk (str "fragment@0") [(str "target-path", str "/node-a" ++ [0])] [
            .mk (str "__overlay__") [] []])
        = .ok ([1], some (str "/node-a" ++ [0])) ∧
      fdt_get_path target_label_result [1] 64 = .ok (str "/node-a") ∧
      fdt_getprop target_label_result [0] (str "f") = .ok (str "/node-a/" ++ [0]) ∧
      str "/node-a/" ++ [0] ≠ str "/node-a" ++ [0] :=
  ⟨rfl, rfl, rfl, rfl, by decide⟩

/-- C22 (amended): when `overlay_symbol_update` returns 0, a symbol of the
overlay (symbol names being unique) whose value is exactly
`/<fragment>/__overlay__` has been written to the base's `/__symbols__` as
`symbol_outcome` describes for an empty relative path (unless, in merge mode,
the target of the fragment is `BADPHANDLE`): the `target-path` string of the
fragment, or the absolute path of the target found by phandle, followed by a
`/` and a NUL; the `/` is written for an empty relative path as well. -/
theorem overlay_symbol_update_target_value (fuel : Nat) (fdt fdto fdt1 fdto1 : Blob)
    (merge : Bool) (ov_sym : Offset) (syms : Node) (name frag : Bytes)
    (hret : overlay_symbol_update fuel fdt fdto merge = some (.ok (fdt1, fdto1)))
    (hov : fdt_subnode_offset fdto [] (str "__symbols__") = .ok ov_sym)
    (hsyms : fdto.root.get? ov_sym = some syms)
    (hnodup : (syms.props.map Prod.fst).Nodup)
    (hmem : (name, 47 :: frag ++ (str "/__overlay__" ++ [0])) ∈ syms.props)
    (h47 : 47 ∉ frag) (h0 : 0 ∉ frag) :
    ∃ base root_sym, overlay_root_symbols fdt = .ok (base, root_sym) ∧
      symbol_outcome merge root_sym ov_sym base fdto name frag [] fdt1 :=
  symbol_update_outcome fuel fdt fdto fdt1 fdto1 merge ov_sym syms name frag [] _ hret hov hsyms
    hnodup hmem h47 h0 (by simp) (Or.inr ⟨rfl, rfl⟩)

/-- C22 (witness): the symbol `f` of `target_label_overlay`, in merge mode. -/
theorem overlay_symbol_update_target_value_witness :
    ∃ base root_sym, overlay_root_symbols node_a_base = .ok (base, root_sym) ∧
      symbol_outcome true root_sym [1] base target_label_overlay (str "f") (str "fragment@0")
        [] target_label_result :=
  overlay_symbol_update_target_value 2 node_a_base target_label_overlay target_label_result
    (mk_blob 36 (.mk [] [] [
      .mk (str "fragment@0") [(str "target-path", str "/node-a" ++ [0])] [
        .mk (str "__overlay__") [] []],
      .mk (str "__symbols__") [] []]))
    true [1]
    (.mk (str "__symbols__") [(str "f", str "/fragment@0/__overlay__" ++ [0])] [])
    (str "f") (str "fragment@0") rfl rfl rfl (by decide) (by decide) (by decide) (by decide)

theorem only_props_child_names (a b : Blob) (off : Offset) (h : only_props_at a off b) :
    b.root.children.map Node.name = a.root.children.map Node.name := by
  obtain ⟨_, _, _, g, hg⟩ := h
  rw [hg]
  exact modifyAt_props_child_names g off a.root

theorem subnode_offset_present (fdt : Blob) (nm : Bytes) (i : Nat)
    (h : child_index nm fdt.root.children = some i) :
    fdt_subnode_offset fdt [] nm = .ok [i] := by
  unfold fdt_subnode_offset
  simp only [Node.get?, h, List.nil_append]

theorem get_nil (n : Node) : n.get? [] = some n := by cases n; rfl

theorem modifyAt_nil (f : Node → Node) (n : Node) : n.modifyAt f [] = f n := by cases n; rfl

theorem root_symbols_created (fdt : Blob)
    (hbase : child_index (str "__symbols__") fdt.root.children = none) :
    (∃ e, overlay_root_symbols fdt = .error e) ∨
    ∃ base root_sym, overlay_root_symbols fdt = .ok (base, root_sym) ∧
      base.root = fdt.root.set_children (.mk (str "__symbols__") [] [] :: fdt.root.children) := by
  unfold overlay_root_symbols
  rw [subnode_offset_absent fdt _ hbase]
  simp only [if_true]
  cases hadd : fdt_add_subnode fdt [] (str "__symbols__") with
  | error e => exact Or.inl ⟨e, rfl⟩
  | ok p =>
    obtain ⟨base, root_sym⟩ := p
    obtain ⟨_, _, hr⟩ := add_subnode_root fdt base [] root_sym _ fdt.root (get_nil _) hadd
    rw [modifyAt_nil] at hr
    exact Or.inr ⟨base, root_sym, rfl, hr⟩

/-- C24 (as stated, refuted): the overlay's `/__symbols__` is empty, no symbol
is written, and yet the base, which had no `/__symbols__`, gains one. -/
theorem empty_symbols_create_node :
    child_index (str "__symbols__") empty_base.root.children = none ∧
    fdt_num_props symbols_only_overlay [0] = 0 ∧
    (∀ merge, overlay_symbol_update 1 empty_base symbols_only_overlay merge
      = some (.ok (empty_base_with_symbols, symbols_only_overlay))) ∧
    child_index (str "__symbols__") empty_base_with_symbols.root.children = some 0 :=
  ⟨rfl, rfl, fun merge => by cases merge <;> rfl, rfl⟩

/-- C24 (amended): for a base without `/__symbols__`, `overlay_symbol_update`
leaves the base as it is when the overlay has no `/__symbols__` node; when the
overlay has one, the node `/__symbols__` is created in the base before any
symbol is looked at: either the creation fails and the base is unchanged, or
whatever the call returns, the base has the new first root child
`__symbols__`, also when no symbol is written. -/
theorem overlay_symbol_update_creates_symbols (fuel : Nat) (fdt fdto : Blob) (merge : Bool)
    (hbase : child_index (str "__symbols__") fdt.root.children = none) :
    (child_index (str "__symbols__") fdto.root.children = none →
      overlay_symbol_update fuel fdt fdto merge = some (.ok (fdt, fdto))) ∧
    (∀ i r, child_index (str "__symbols__") fdto.root.children = some i →
      overlay_symbol_update fuel fdt fdto merge = some r →
      (∃ e, r = .err e (fdt, fdto)) ∨
      r.state.1.root.children.map Node.name
        = str "__symbols__" :: fdt.root.children.map Node.name) ∧
    (∀ i syms, child_index (str "__symbols__") fdto.root.children = some i →
      fdto.root.children[i]? = some syms → syms.props = [] → 0 < fuel →
      (∃ e, overlay_symbol_update fuel fdt fdto merge = some (.err e (fdt, fdto))) ∨
      ∃ base, overlay_symbol_update fuel fdt fdto merge = some (.ok (base, fdto)) ∧
        base.root = fdt.root.set_children (.mk (str "__symbols__") [] [] :: fdt.root.children)) := by
  refine ⟨?_, ?_, ?_⟩
  · intro h
    unfold overlay_symbol_update
    rw [subnode_offset_absent fdto _ h]
  · intro i r hi h
    unfold overlay_symbol_update at h
    rw [subnode_offset_present fdto _ i hi] at h
    simp only at h
    rcases root_symbols_created fdt hbase with ⟨e, he⟩ | ⟨base, root_sym, hb, hroot⟩
    · rw [he] at h
      simp only at h
      injection h with h
      exact Or.inl ⟨e, h.symm⟩
    · rw [hb] at h
      simp only at h
      right
      rw [only_props_child_names _ _ _ (symbol_loop_frame merge [i] root_sym fuel 0 _ r h).1]
      show base.root.children.map Node.name = _
      rw [hroot, set_children_children]
      rfl
  · intro i syms hi hsyms hprops hfuel
    unfold overlay_symbol_update
    rw [subnode_offset_present fdto _ i hi]
    simp only
    rcases root_symbols_created fdt hbase with ⟨e, he⟩ | ⟨base, root_sym, hb, hroot⟩
    · rw [he]
      exact Or.inl ⟨e, rfl⟩
    · rw [hb]
      right
      refine ⟨base, ?_, hroot⟩
      simp only
      obtain ⟨k, hk⟩ : ∃ k, fuel = k + 1 := ⟨fuel - 1, by omega⟩
      rw [hk, overlay_symbol_update_loop]
      have hnum : fdt_num_props fdto [i] = 0 := by
        rw [num_props_get fdto [i] syms (by rw [get_child]; exact hsyms), hprops]
        rfl
      rw [if_neg (by rw [hnum]; exact Nat.lt_irrefl 0)]

/-- C24 (witness): the empty base and the overlay with an empty `/__symbols__`. -/
theorem overlay_symbol_update_creates_symbols_witness :
    (∃ e, overlay_symbol_update 1 empty_base symbols_only_overlay false
        = some (.err e (empty_base, symbols_only_overlay))) ∨
      ∃ base, overlay_symbol_update 1 empty_base symbols_only_overlay false
          = some (.ok (base, symbols_only_overlay)) ∧
        base.root = empty_base.root.set_children
          (.mk (str "__symbols__") [] [] :: empty_base.root.children) :=
  (overlay_symbol_update_creates_symbols 1 empty_base symbols_only_overlay false rfl).2.2 0
    (.mk (str "__symbols__") [] []) rfl rfl rfl (by decide)

/-! ### The renaming of the fragments of a second overlay -/

theorem decimal_digits_head : ∀ (fuel n : Nat) (acc : Bytes), n < fuel →
    ∃ c rest, decimal_digits fuel n acc = c :: rest ∧ isdigit c = true
  | 0, n, acc, h => by omega
  | fuel + 1, n, acc, h => by
    unfold decimal_digits
    split
    · rename_i hn
      refine ⟨48 + n, acc, rfl, ?_⟩
      simp only [isdigit, decide_eq_true_eq]
      omega
    · exact decimal_digits_head fuel (n / 10) _ (by omega)

theorem strtoul_digits_decimal : ∀ (fuel n : Nat) (acc : Bytes), n < fuel → n ≤ ULONG_MAX →
    strtoul_digits (decimal_digits fuel n acc) 0 false = strtoul_digits acc n false
  | 0, n, acc, h, _ => by omega
  | fuel + 1, n, acc, h, hmax => by
    unfold decimal_digits
    split
    · rename_i hn
      have hd : isdigit (48 + n) = true := by
        simp only [isdigit, decide_eq_true_eq]
        omega
      have : ¬ n > ULONG_MAX := by omega
      simp only [strtoul_digits, hd, if_true, Nat.zero_mul, Nat.zero_add,
        Nat.add_sub_cancel_left, Bool.false_or, this, decide_False, Bool.false_eq_true, if_false]
    · rename_i hn
      rw [strtoul_digits_decimal fuel (n / 10) _ (by omega) (by omega)]
      have hd : isdigit (48 + n % 10) = true := by
        simp only [isdigit, decide_eq_true_eq]
        omega
      have e : n / 10 * 10 + (48 + n % 10 - 48) = n := by omega
      have : ¬ n > ULONG_MAX := by omega
      simp only [strtoul_digits, hd, if_true, e, Bool.false_or, this, decide_False,
        Bool.false_eq_true, if_false]

theorem strtoul_decimal (k : Nat) (hk : k ≤ ULONG_MAX) : (strtoul (decimal k)).1 = k := by
  obtain ⟨c, rest, hc, hd⟩ := decimal_digits_head (k + 1) k [] (by omega)
  have hr := strtoul_digits_decimal (k + 1) k [] (by omega) hk
  unfold decimal at *
  unfold strtoul
  rw [hc] at hr ⊢
  have hsp : isspace c = false := by
    simp only [isdigit, decide_eq_true_eq] at hd
    simp only [isspace, decide_eq_false_iff_not]
    omega
  have h45 : c ≠ 45 := by
    simp only [isdigit, decide_eq_true_eq] at hd
    omega
  have h43 : c ≠ 43 := by
    simp only [isdigit, decide_eq_true_eq] at hd
    omega
  simp only [List.dropWhile_cons, hsp, List.head?_cons, Option.some.injEq, h45, h43, or_self,
    if_false, hd, if_true, hr, strtoul_digits, decide_False, Bool.false_eq_true]

theorem counted_fragment_iff (n : Node) :
    counted_fragment n = true ↔
      ¬ (n.name.length < 9 ∨ ¬ strncmp_eq n.name (str "fragment@") 9 = true) ∧
      ∃ c cs, n.children = c :: cs ∧
        ¬ (c.name.length < 11 ∨ ¬ strncmp_eq c.name (str "__overlay__") 11 = true) := by
  have hlen : ∀ (s lit : Bytes) (k : Nat), strncmp_eq s lit k = true → ¬ s.length < k := by
    intro s lit k h
    simp only [strncmp_eq, decide_eq_true_eq] at h
    omega
  unfold counted_fragment
  cases hc : n.children with
  | nil => simp
  | cons c cs =>
    simp only [Bool.and_eq_true, not_or, not_not, not_lt]
    constructor
    · rintro ⟨h1, h2⟩
      exact ⟨⟨Nat.le_of_not_lt (hlen _ _ _ h1), h1⟩, c, cs, rfl,
        Nat.le_of_not_lt (hlen _ _ _ h2), h2⟩
    · rintro ⟨⟨_, h1⟩, c', cs', he, _, h2⟩
      injection he with he1 he2
      subst he1
      exact ⟨h1, h2⟩

theorem count_fragments_loop_found : ∀ (cs : List Node) (max : Nat) (r : Nat × Bool),
    count_fragments_loop cs max true = .ok r → r.2 = true
  | [], max, r, h => by
    simp only [count_fragments_loop] at h
    injection h with h
    rw [← h]
  | node :: rest, max, r, h => by
    unfold count_fragments_loop at h
    repeat' split at h
    all_goals first
      | cases h
      | exact count_fragments_loop_found rest _ r h

/-- The loop of `count_fragments` on a list without a childless `fragment@`
node: it succeeds, the maximum bounds the index of every counted fragment and
is the index of one of them (or the initial maximum), and `found` tells whether
there is a counted fragment. -/
theorem count_fragments_loop_spec : ∀ (cs : List Node) (max : Nat) (found : Bool),
    (∀ a ∈ cs, strncmp_eq a.name (str "fragment@") 9 = true → a.children ≠ []) →
    ∃ r, count_fragments_loop cs max found = .ok r ∧ max ≤ r.1 ∧
      (∀ a ∈ cs, counted_fragment a = true → fragment_index a ≤ r.1) ∧
      (r.2 = false → ∀ a ∈ cs, counted_fragment a = false) ∧
      (r.1 = max ∨ ∃ a ∈ cs, counted_fragment a = true ∧ r.1 = fragment_index a)
  | [], max, found, _ => ⟨(max, found), rfl, Nat.le_refl _, by simp, by simp, Or.inl rfl⟩
  | node :: rest, max, found, h => by
    have hrest : ∀ a ∈ rest, strncmp_eq a.name (str "fragment@") 9 = true → a.children ≠ [] :=
      fun a ha => h a (List.mem_cons_of_mem _ ha)
    have hiff := counted_fragment_iff node
    unfold count_fragments_loop
    split
    · rename_i hname
      have hnot : counted_fragment node = false := by
        rw [Bool.eq_false_iff]
        intro hc
        exact (hiff.mp hc).1 hname
      obtain ⟨r, h1, h2, h3, h4, h5⟩ := count_fragments_loop_spec rest max found hrest
      refine ⟨r, h1, h2, ?_, ?_, ?_⟩
      · intro a ha hc
        rcases List.mem_cons.mp ha with rfl | ha
        · rw [hnot] at hc; cases hc
        · exact h3 a ha hc
      · intro hf a ha
        rcases List.mem_cons.mp ha with rfl | ha
        · exact hnot
        · exact h4 hf a ha
      · rcases h5 with h5 | ⟨a, ha, hc, he⟩
        · exact Or.inl h5
        · exact Or.inr ⟨a, List.mem_cons_of_mem _ ha, hc, he⟩
    · rename_i hname
      split
      · rename_i hch
        exfalso
        refine h node (List.mem_cons_self _ _) ?_ hch
        by_contra hc
        exact hname (Or.inr hc)
      · rename_i child more hch
        split
        · rename_i hov
          have hnot : counted_fragment node = false := by
            rw [Bool.eq_false_iff]
            intro hc
            obtain ⟨_, c, cs, he, hcc⟩ := hiff.mp hc
            rw [hch] at he
            injection he with he1 _
            subst he1
            exact hcc hov
          obtain ⟨r, h1, h2, h3, h4, h5⟩ := count_fragments_loop_spec rest max found hrest
          refine ⟨r, h1, h2, ?_, ?_, ?_⟩
          · intro a ha hc
            rcases List.mem_cons.mp ha with rfl | ha
            · rw [hnot] at hc; cases hc
            · exact h3 a ha hc
          · intro hf a ha
            rcases List.mem_cons.mp ha with rfl | ha
            · exact hnot
            · exact h4 hf a ha
          · rcases h5 with h5 | ⟨a, ha, hc, he⟩
            · exact Or.inl h5
            · exact Or.inr ⟨a, List.mem_cons_of_mem _ ha, hc, he⟩
        · rename_i hov
          have hyes : counted_fragment node = true :=
            hiff.mpr ⟨hname, child, more, hch, hov⟩
          split
          · rename_i hgt
            obtain ⟨r, h1, h2, h3, h4, h5⟩ :=
              count_fragments_loop_spec rest (strtoul (node.name.drop 9)).1 true hrest
            refine ⟨r, h1, by omega, ?_, ?_, ?_⟩
            · intro a ha hc
              rcases List.mem_cons.mp ha with rfl | ha
              · exact h2
              · exact h3 a ha hc
            · intro hf
              exfalso
              have := count_fragments_loop_found rest _ r h1
              rw [hf] at this
              cases this
            · rcases h5 with h5 | ⟨a, ha, hc, he⟩
              · exact Or.inr ⟨node, List.mem_cons_self _ _, hyes, h5⟩
              · exact Or.inr ⟨a, List.mem_cons_of_mem _ ha, hc, he⟩
          · rename_i hgt
            obtain ⟨r, h1, h2, h3, h4, h5⟩ := count_fragments_loop_spec rest max true hrest
            refine ⟨r, h1, h2, ?_, ?_, ?_⟩
            · intro a ha hc
              rcases List.mem_cons.mp ha with rfl | ha
              · show (strtoul (a.name.drop 9)).1 ≤ r.1
                omega
              · exact h3 a ha hc
            · intro hf
              exfalso
              have := count_fragments_loop_found rest _ r h1
              rw [hf] at this
              cases this
            · rcases h5 with h5 | ⟨a, ha, hc, he⟩
              · exact Or.inl h5
              · exact Or.inr ⟨a, List.mem_cons_of_mem _ ha, hc, he⟩

theorem set_name_root (F F1 : Blob) (off : Offset) (nm : Bytes) (nd : Node)
    (hget : F.root.get? off = some nd) (h : fdt_set_name F off nm = .ok F1) :
    F1.root = F.root.modifyAt (fun _ => nd.set_name nm) off := by
  unfold fdt_set_name at h
  rw [hget] at h
  simp only at h
  split at h
  · cases h
  · rename_i F2 hs
    injection h with h
    subst h
    obtain ⟨hr, _, _, _⟩ := splice_root _ _ _ _ hs
    simp only [update_root, hr]
    exact modifyAt_of_get _ off F.root nd hget

theorem rename_node_ok (F F1 : Blob) (off : Offset) (delta : Nat) (nd : Node)
    (hdelta : delta ≤ ULONG_MAX)
    (hget : F.root.get? off = some nd) (h : rename_node F off delta = .ok F1) :
    F1.root = F.root.modifyAt (fun _ => renamed_node delta nd) off ∧
    (counted_fragment nd = true → fragment_index nd + delta ≤ ULONG_MAX) := by
  have hiff := counted_fragment_iff nd
  have hsame : F.root = F.root.modifyAt (fun _ => nd) off := by
    rw [← modifyAt_of_get (fun n => n) off F.root nd hget, modifyAt_id]
  unfold rename_node at h
  rw [hget] at h
  simp only at h
  split at h
  · rename_i hname
    have hnot : counted_fragment nd = false := by
      rw [Bool.eq_false_iff]
      intro hc
      exact (hiff.mp hc).1 hname
    injection h with h
    subst h
    refine ⟨?_, by rw [hnot]; intro hc; cases hc⟩
    unfold renamed_node
    rw [hnot]
    exact hsame
  · rename_i hname
    split at h
    · cases h
    · rename_i child more hch
      split at h
      · rename_i hov
        have hyes : counted_fragment nd = true :=
          hiff.mpr ⟨hname, child, more, hch, by
            simp only [not_or, not_lt, not_not]
            exact ⟨hov.1, hov.2⟩⟩
        split at h
        · cases h
        · rename_i hmax
          split at h
          · cases h
          · cases hs : fdt_set_name F off
                (str "fragment@" ++ decimal ((strtoul (nd.name.drop 9)).1 + delta)) with
            | error e => rw [hs] at h; cases h
            | ok F2 =>
              rw [hs] at h
              injection h with h
              subst h
              refine ⟨?_, fun _ => ?_⟩
              · rw [set_name_root F F2 off _ nd hget hs]
                unfold renamed_node
                rw [hyes]
                rfl
              · show (strtoul (nd.name.drop 9)).1 + delta ≤ ULONG_MAX
                omega
      · rename_i hov
        have hnot : counted_fragment nd = false := by
          rw [Bool.eq_false_iff]
          intro hc
          obtain ⟨_, c, cs, he, hcc⟩ := hiff.mp hc
          rw [hch] at he
          injection he with he1 _
          subst he1
          simp only [not_or, not_lt, not_not] at hcc
          exact hov ⟨hcc.1, hcc.2⟩
        injection h with h
        subst h
        refine ⟨?_, by rw [hnot]; intro hc; cases hc⟩
        unfold renamed_node
        rw [hnot]
        exact hsame

theorem rename_node_frame (F : Blob) (off : Offset) (delta : Nat) :
    (rename_node F off delta).state.root = F.root ∨
    ∃ nm, (rename_node F off delta).state.root = F.root.modifyAt (fun m => m.set_name nm) off := by
  unfold rename_node
  split
  · exact Or.inl rfl
  · rename_i nd hget
    split
    · exact Or.inl rfl
    · split
      · exact Or.inl rfl
      · split
        · split
          · exact Or.inl rfl
          · split
            · exact Or.inl rfl
            · cases hs : fdt_set_name F off
                  (str "fragment@" ++ decimal ((strtoul (nd.name.drop 9)).1 + delta)) with
              | error e => exact Or.inl rfl
              | ok F2 =>
                right
                refine ⟨str "fragment@" ++ decimal ((strtoul (nd.name.drop 9)).1 + delta), ?_⟩
                show F2.root = _
                rw [set_name_root F F2 off _ nd hget hs]
                exact (modifyAt_of_get _ off F.root nd hget).symm
        · exact Or.inl rfl

theorem modifyAt_child (root : Node) (i : Nat) (nd x : Node) (h : root.children[i]? = some nd) :
    (root.modifyAt (fun _ => x) [i]).children = root.children.set i x := by
  cases root with
  | mk nm ps cs =>
    have h1 : cs[i]? = some nd := h
    unfold Node.modifyAt
    rw [h1]
    simp only [modifyAt_nil]
    rfl

theorem rename_nodes_loop_root (delta : Nat) (hdelta : delta ≤ ULONG_MAX) :
    ∀ (n i : Nat) (F F1 : Blob), rename_nodes_loop [] delta n i F = .ok F1 →
    (∀ k : Nat, F1.root.children[k]? =
      if i ≤ k ∧ k < i + n then (F.root.children[k]?).map (renamed_node delta)
      else F.root.children[k]?) ∧
    (∀ k nd, i ≤ k → k < i + n → F.root.children[k]? = some nd →
      counted_fragment nd = true → fragment_index nd + delta ≤ ULONG_MAX)
  | 0, i, F, F1, h => by
    simp only [rename_nodes_loop] at h
    injection h with h
    subst h
    refine ⟨fun (k : Nat) => ?_, fun k nd h1 h2 => by omega⟩
    rw [if_neg (by omega)]
  | n + 1, i, F, F1, h => by
    unfold rename_nodes_loop at h
    split at h
    · cases h
    · rename_i F2 hstep
      rw [List.nil_append] at hstep
      cases hget : F.root.get? [i] with
      | none =>
        unfold rename_node at hstep
        rw [hget] at hstep
        cases hstep
      | some nd =>
        obtain ⟨hr, hb⟩ := rename_node_ok F F2 [i] delta nd hdelta hget hstep
        rw [get_child] at hget
        have hch : F2.root.children = F.root.children.set i (renamed_node delta nd) := by
          rw [hr]
          exact modifyAt_child F.root i nd _ hget
        obtain ⟨ih1, ih2⟩ := rename_nodes_loop_root delta hdelta n (i + 1) F2 F1 h
        have hlt : i < F.root.children.length := (List.getElem?_eq_some_iff.mp hget).1
        refine ⟨fun (k : Nat) => ?_, fun k x h1 h2 hx hc => ?_⟩
        · rw [ih1 k, hch]
          by_cases hk : k = i
          · subst hk
            rw [if_neg (by omega), if_pos (by omega), List.getElem?_set_self hlt, hget]
            rfl
          · rw [List.getElem?_set_ne (Ne.symm hk)]
            by_cases hin : i + 1 ≤ k ∧ k < i + 1 + n
            · rw [if_pos hin, if_pos (by omega)]
            · rw [if_neg hin, if_neg (by omega)]
        · by_cases hk : k = i
          · subst hk
            rw [hget] at hx
            injection hx with hx
            subst hx
            exact hb hc
          · refine ih2 k x (by omega) (by omega) ?_ hc
            rw [hch, List.getElem?_set_ne (Ne.symm hk)]
            exact hx

theorem rename_nodes_root (F F1 : Blob) (delta : Nat) (hdelta : delta ≤ ULONG_MAX)
    (h : rename_nodes F [] delta = .ok F1) :
    (∀ k : Nat, F1.root.children[k]? = (F.root.children[k]?).map (renamed_node delta)) ∧
    (∀ nd ∈ F.root.children, counted_fragment nd = true →
      fragment_index nd + delta ≤ ULONG_MAX) := by
  unfold rename_nodes at h
  rw [get_nil] at h
  simp only at h
  obtain ⟨h1, h2⟩ := rename_nodes_loop_root delta hdelta _ 0 F F1 h
  refine ⟨fun (k : Nat) => ?_, fun nd hnd hc => ?_⟩
  · rw [h1 k]
    by_cases hk : k < F.root.children.length
    · rw [if_pos ⟨Nat.zero_le _, by omega⟩]
    · rw [if_neg (by omega), List.getElem?_eq_none (by omega)]
      rfl
  · obtain ⟨k, hk, hkk⟩ := List.getElem_of_mem hnd
    exact h2 k nd (Nat.zero_le _) (by omega) (by rw [List.getElem?_eq_getElem hk, hkk]) hc

theorem differs_below_refl (j : Nat) (a : Node) : differs_below j a a :=
  ⟨fun _ _ => rfl, rfl⟩

theorem differs_below_trans {j : Nat} {a b c : Node} (h1 : differs_below j a b)
    (h2 : differs_below j b c) : differs_below j a c :=
  ⟨fun k hk => (h2.1 k hk).trans (h1.1 k hk), h2.2.trans h1.2⟩

theorem modifyAt_keeps_name (f : Node → Node) (i : Nat) (rest : Offset) (c : Node) :
    (c.modifyAt f (i :: rest)).name = c.name := by
  cases c with
  | mk nm ps cs =>
    unfold Node.modifyAt
    split <;> rfl

theorem modify_below (f : Node → Node) (root : Node) (j i : Nat) :
    differs_below j root (root.modifyAt f [j, i]) := by
  cases root with
  | mk nm ps cs =>
    unfold Node.modifyAt
    split
    · exact differs_below_refl _ _
    · rename_i c hc
      have hlt : j < cs.length := (List.getElem?_eq_some_iff.mp hc).1
      refine ⟨fun k hk => ?_, ?_⟩
      · show (cs.set j _)[k]? = cs[k]?
        rw [List.getElem?_set_ne (Ne.symm hk)]
      · show ((cs.set j _)[j]?).map Node.name = (cs[j]?).map Node.name
        rw [List.getElem?_set_self hlt, hc]
        simp only [Option.map_some']
        rw [modifyAt_keeps_name]

theorem rename_nodes_loop_below (j delta : Nat) : ∀ (n i : Nat) (F : Blob),
    differs_below j F.root (rename_nodes_loop [j] delta n i F).state.root
  | 0, i, F => differs_below_refl _ _
  | n + 1, i, F => by
    unfold rename_nodes_loop
    have hstep : differs_below j F.root (rename_node F ([j] ++ [i]) delta).state.root := by
      rcases rename_node_frame F ([j] ++ [i]) delta with h | ⟨nm, h⟩
      · rw [h]; exact differs_below_refl _ _
      · rw [h]; exact modify_below _ _ _ _
    split
    · rename_i e s hs
      rw [hs] at hstep
      exact hstep
    · rename_i F2 hs
      rw [hs] at hstep
      exact differs_below_trans hstep (rename_nodes_loop_below j delta n (i + 1) F2)

theorem rename_nodes_below (j delta : Nat) (F : Blob) :
    differs_below j F.root (rename_nodes F [j] delta).state.root := by
  unfold rename_nodes
  split
  · exact differs_below_refl _ _
  · exact rename_nodes_loop_below j delta _ 0 F

theorem rename_in_property_frame (F : Blob) (off : Offset) (property delta : Nat) :
    only_props_at F off (rename_fragments_in_property F off property delta).state := by
  unfold rename_fragments_in_property
  split
  · exact only_props_at_refl _ _
  · split
    · exact only_props_at_refl _ _
    · split
      · exact only_props_at_refl _ _
      · split
        · split
          · exact only_props_at_refl _ _
          · rename_i F1 hp
            exact only_props_at_trans (writes_only_props (placeholder_writes _ _ _ _ _ hp))
              (writes_only_props (memcpy_writes _ _ _ _ _))
        · exact writes_only_props (memcpy_writes _ _ _ _ _)

theorem rename_in_props_frame (off : Offset) (delta : Nat) : ∀ (n property : Nat) (F : Blob),
    only_props_at F off (rename_fragments_in_props off delta n property F).state
  | 0, property, F => only_props_at_refl _ _
  | n + 1, property, F => by
    unfold rename_fragments_in_props
    have hstep := rename_in_property_frame F off property delta
    split
    · rename_i e s hs
      rw [hs] at hstep
      exact hstep
    · rename_i F1 hs
      rw [hs] at hstep
      exact only_props_at_trans hstep (rename_in_props_frame off delta n (property + 1) F1)

theorem rename_in_node_frame (F : Blob) (nm : Bytes) (delta : Nat) :
    ∃ off, only_props_at F off (rename_fragments_in_node F nm delta).state := by
  unfold rename_fragments_in_node
  split
  · exact ⟨[], only_props_at_refl _ _⟩
  · rename_i off _
    exact ⟨off, rename_in_props_frame off delta _ 0 F⟩

theorem only_props_root_sig (a b : Blob) (off : Offset) (h : only_props_at a off b) :
    b.root.children.map Node.sig = a.root.children.map Node.sig := by
  obtain ⟨_, _, _, g, hg⟩ := h
  rw [hg]
  cases off with
  | nil => rw [modifyAt_nil, set_props_children]
  | cons i rest =>
    cases hr : a.root with
    | mk nm ps cs =>
      unfold Node.modifyAt
      split
      · rfl
      · rename_i c hc
        show (cs.set i _).map Node.sig = cs.map Node.sig
        rw [List.map_set]
        have hs : (c.modifyAt (fun m => m.set_props (g m.props)) rest).sig = c.sig := by
          unfold Node.sig
          rw [modifyAt_props_name, modifyAt_props_child_names]
        rw [hs]
        apply List.ext_getElem?
        intro k
        by_cases hk : k = i
        · subst hk
          rw [List.getElem?_set_self (by
            rcases List.getElem?_eq_some_iff.mp hc with ⟨hl, _⟩; simpa using hl)]
          simp [hc]
        · rw [List.getElem?_set_ne (Ne.symm hk)]

theorem counted_of_sig (a b : Node) (h : a.sig = b.sig) :
    a.name = b.name ∧ counted_fragment a = counted_fragment b := by
  unfold Node.sig at h
  injection h with h1 h2
  refine ⟨h1, ?_⟩
  unfold counted_fragment
  rw [h1]
  cases ha : a.children with
  | nil =>
    rw [ha] at h2
    cases hb : b.children with
    | nil => rfl
    | cons d ds => rw [hb] at h2; cases h2
  | cons c cs =>
    rw [ha] at h2
    cases hb : b.children with
    | nil => rw [hb] at h2; cases h2
    | cons d ds =>
      rw [hb] at h2
      simp only [List.map_cons] at h2
      injection h2 with h3 _
      simp only [h3]

theorem sig_getElem (as bs : List Node) (h : bs.map Node.sig = as.map Node.sig) (k : Nat)
    (b : Node) (hb : bs[k]? = some b) : ∃ a, as[k]? = some a ∧ a.sig = b.sig := by
  have h1 : (bs.map Node.sig)[k]? = some b.sig := by
    rw [List.getElem?_map, hb]; rfl
  rw [h, List.getElem?_map] at h1
  cases ha : as[k]? with
  | none => rw [ha] at h1; cases h1
  | some a =>
    rw [ha] at h1
    exact ⟨a, rfl, Option.some.inj h1⟩

theorem after_local_rename (B3 : Blob) (lo : Offset) (m : Nat)
    (hlo : fdt_path_offset B3 (str "/__local_fixups__") = .ok lo) :
    ∀ b ∈ (rename_nodes B3 lo m).state.root.children, counted_fragment b = true →
      b ∈ B3.root.children := by
  rw [path_offset_local_fixups] at hlo
  unfold fdt_subnode_offset at hlo
  rw [get_nil] at hlo
  simp only at hlo
  split at hlo
  · cases hlo
  · rename_i j hj
    injection hlo with hlo
    subst hlo
    rw [List.nil_append]
    obtain ⟨c, hc, hcn⟩ := child_index_some _ _ _ hj
    obtain ⟨hd1, hd2⟩ := rename_nodes_below j m B3
    intro b hb hcount
    obtain ⟨k, hk, hkk⟩ := List.getElem_of_mem hb
    have hbk : (rename_nodes B3 [j] m).state.root.children[k]? = some b := by
      rw [List.getElem?_eq_getElem hk, hkk]
    by_cases hkj : k = j
    · subst hkj
      exfalso
      rw [hbk, hc] at hd2
      simp only [Option.map_some', Option.some.injEq] at hd2
      have hn : strncmp_eq (str "__local_fixups__") (str "fragment@") 9 = false := by decide
      unfold counted_fragment at hcount
      rw [hd2, hcn, hn, Bool.false_and] at hcount
      cases hcount
    · rw [hd1 k hkj] at hbk
      exact List.getElem?_mem hbk

theorem rename_fragments_children (fdt fdto fdto1 : Blob) (max : Nat) (hmax : max < ULONG_MAX)
    (hcount : count_fragments fdt = .ok max)
    (h : overlay_rename_fragments fdt fdto = .ok fdto1) :
    ∀ b ∈ fdto1.root.children, counted_fragment b = true →
      ∃ b0 ∈ fdto.root.children, counted_fragment b0 = true ∧
        fragment_index b0 + (max + 1) ≤ ULONG_MAX ∧
        b.name = str "fragment@" ++ decimal (fragment_index b0 + (max + 1)) := by
  have hm : (max + 1) % 2 ^ 64 = max + 1 := by
    apply Nat.mod_eq_of_lt
    unfold ULONG_MAX at hmax
    omega
  have hdelta : max + 1 ≤ ULONG_MAX := by omega
  unfold overlay_rename_fragments at h
  rw [hcount] at h
  simp only [hm] at h
  -- the renaming of the root children
  cases h1 : rename_nodes fdto [] (max + 1) with
  | err e s => rw [h1] at h; cases h
  | ok B1 =>
    rw [h1] at h
    simp only at h
    obtain ⟨hren, hbound⟩ := rename_nodes_root fdto B1 (max + 1) hdelta h1
    have key : ∀ B3 : Blob, B3.root.children.map Node.sig = B1.root.children.map Node.sig →
        ∀ b ∈ B3.root.children, counted_fragment b = true →
        ∃ b0 ∈ fdto.root.children, counted_fragment b0 = true ∧
          fragment_index b0 + (max + 1) ≤ ULONG_MAX ∧
          b.name = str "fragment@" ++ decimal (fragment_index b0 + (max + 1)) := by
      intro B3 hsig b hb hc
      obtain ⟨k, hk, hkk⟩ := List.getElem_of_mem hb
      have hbk : B3.root.children[k]? = some b := by
        rw [List.getElem?_eq_getElem hk, hkk]
      obtain ⟨b1, hb1, hs1⟩ := sig_getElem _ _ hsig k b hbk
      obtain ⟨hname, hcnt⟩ := counted_of_sig b1 b hs1
      rw [hren k] at hb1
      cases hb0 : fdto.root.children[k]? with
      | none => rw [hb0] at hb1; cases hb1
      | some b0 =>
        rw [hb0] at hb1
        simp only [Option.map_some', Option.some.injEq] at hb1
        have hmem0 : b0 ∈ fdto.root.children := List.getElem?_mem hb0
        cases hc0 : counted_fragment b0 with
        | false =>
          exfalso
          unfold renamed_node at hb1
          rw [hc0] at hb1
          simp only [Bool.false_eq_true, if_false] at hb1
          rw [← hb1, hc0, hc] at hcnt
          cases hcnt
        | true =>
          refine ⟨b0, hmem0, hc0, hbound b0 hmem0 hc0, ?_⟩
          rw [← hname, ← hb1]
          unfold renamed_node
          rw [hc0]
          simp only [if_true]
          cases b0
          rfl
    cases h2 : rename_fragments_in_node B1 (str "/__fixups__") (max + 1) with
    | err e s => rw [h2] at h; cases h
    | ok B2 =>
      rw [h2] at h
      simp only at h
      obtain ⟨o2, f2⟩ := rename_in_node_frame B1 (str "/__fixups__") (max + 1)
      rw [h2] at f2
      obtain ⟨o3, f3⟩ := rename_in_node_frame B2 (str "/__symbols__") (max + 1)
      have hsig3 : (rename_fragments_in_node B2 (str "/__symbols__") (max + 1)).state.root.children.map
          Node.sig = B1.root.children.map Node.sig :=
        (only_props_root_sig _ _ _ f3).trans (only_props_root_sig _ _ _ f2)
      have fin : ∀ B3 : Blob, B3.root.children.map Node.sig = B1.root.children.map Node.sig →
          (match fdt_path_offset B3 (str "/__local_fixups__") with
            | Except.error _ => Res.ok B3
            | Except.ok local_offset =>
              match rename_nodes B3 local_offset (max + 1) with
              | Res.err e1 s1 => if e1 = FdtErr.NOTFOUND then Res.ok s1 else Res.err e1 s1
              | Res.ok s1 => Res.ok s1) = Res.ok fdto1 →
          ∀ b ∈ fdto1.root.children, counted_fragment b = true →
          ∃ b0 ∈ fdto.root.children, counted_fragment b0 = true ∧
            fragment_index b0 + (max + 1) ≤ ULONG_MAX ∧
            b.name = str "fragment@" ++ decimal (fragment_index b0 + (max + 1)) := by
        intro B3 hsig hfin b hb hc
        cases hlo : fdt_path_offset B3 (str "/__local_fixups__") with
        | error e =>
          rw [hlo] at hfin
          simp only at hfin
          injection hfin with hfin
          subst hfin
          exact key B3 hsig b hb hc
        | ok lo =>
          rw [hlo] at hfin
          simp only at hfin
          have hal := after_local_rename B3 lo (max + 1) hlo
          cases hrn : rename_nodes B3 lo (max + 1) with
          | err e1 s1 =>
            rw [hrn] at hfin hal
            simp only at hfin
            split at hfin
            · injection hfin with hfin
              subst hfin
              exact key B3 hsig b (hal b hb hc) hc
            · cases hfin
          | ok s1 =>
            rw [hrn] at hfin hal
            simp only at hfin
            injection hfin with hfin
            subst hfin
            exact key B3 hsig b (hal b hb hc) hc
      cases h3 : rename_fragments_in_node B2 (str "/__symbols__") (max + 1) with
      | err e s =>
        rw [h3] at h hsig3
        simp only at h
        split at h
        · cases h
        · exact fin s hsig3 h
      | ok B3 =>
        rw [h3] at h hsig3
        simp only at h
        exact fin B3 hsig3 h

/-- C26 (failing input): the fragment of the first overlay has a subnode in
front of `__overlay__`.  `count_fragments` looks at the first subnode only
(line 1391), finds no fragment, and nothing is renamed: both blobs keep a root
child `fragment@0` with an `__overlay__` child, which `overlay_merge` looks up
by name and applies. -/
theorem rename_misses_fragment :
    overlay_rename_fragments second_child_first path_second = .ok path_second ∧
    ∃ a ∈ second_child_first.root.children, ∃ b ∈ path_second.root.children,
      a.name = str "fragment@0" ∧ b.name = str "fragment@0" ∧
      child_index (str "__overlay__") a.children = some 1 ∧
      child_index (str "__overlay__") b.children = some 0 :=
  ⟨rfl, _, List.mem_cons_self _ _, _, List.mem_cons_self _ _, rfl, rfl, rfl, rfl⟩

/-- Take for a fragment what the renaming takes for one (a root
child whose name begins with `fragment@` and whose first child's name begins
with `__overlay__`).  If the first overlay has no childless root child named
`fragment@...` and its fragment indices are below `ULONG_MAX`, then after
`overlay_rename_fragments` has returned 0 no fragment of the second overlay
has the name of a fragment of the first. -/
theorem overlay_rename_fragments_no_collision (fdt fdto fdto1 : Blob)
    (hchild : ∀ a ∈ fdt.root.children,
      strncmp_eq a.name (str "fragment@") 9 = true → a.children ≠ [])
    (hidx : ∀ a ∈ fdt.root.children, counted_fragment a = true → fragment_index a < ULONG_MAX)
    (h : overlay_rename_fragments fdt fdto = .ok fdto1) :
    ∀ a ∈ fdt.root.children, ∀ b ∈ fdto1.root.children,
      counted_fragment a = true → counted_fragment b = true → a.name ≠ b.name := by
  intro a ha b hb hca hcb hab
  obtain ⟨r, hr, _, hle, hnone, hwhich⟩ := count_fragments_loop_spec fdt.root.children 0 false hchild
  cases hfound : r.2 with
  | false =>
    have := hnone hfound a ha
    rw [hca] at this
    cases this
  | true =>
    have hcount : count_fragments fdt = .ok r.1 := by
      unfold count_fragments
      rw [hr]
      simp only [hfound, not_true_eq_false, if_false]
    have hmax : r.1 < ULONG_MAX := by
      rcases hwhich with h0 | ⟨a1, ha1, hc1, he1⟩
      · rw [h0]; decide
      · rw [he1]; exact hidx a1 ha1 hc1
    obtain ⟨b0, _, _, hbound, hname⟩ :=
      rename_fragments_children fdt fdto fdto1 r.1 hmax hcount h b hb hcb
    have hidxa : fragment_index a = fragment_index b0 + (r.1 + 1) := by
      unfold fragment_index at hbound ⊢
      rw [hab, hname]
      have h9 : (str "fragment@").length = 9 := by decide
      rw [← h9, List.drop_left]
      exact strtoul_decimal _ hbound
    have := hle a ha hca
    omega

/-! ### The update of the local references -/

theorem fdt32_to_cpu_congr (a b : Bytes) (h : ∀ k : Nat, k < 4 → a[k]? = b[k]?) :
    fdt32_to_cpu a = fdt32_to_cpu b := by
  unfold fdt32_to_cpu
  have e : ∀ k : Nat, k < 4 → a.getD k 0 = b.getD k 0 := by
    intro k hk
    rw [List.getD_eq_getElem?_getD, List.getD_eq_getElem?_getD, h k hk]
  rw [e 0 (by omega), e 1 (by omega), e 2 (by omega), e 3 (by omega)]

theorem slot_eq_of_getElem (a b : Bytes) (P : Nat)
    (h : ∀ i : Nat, P ≤ i → i < P + 4 → a[i]? = b[i]?) :
    (a.drop P).take 4 = (b.drop P).take 4 := by
  apply List.ext_getElem?
  intro k
  by_cases hk : k < 4
  · rw [List.getElem?_take_of_lt hk, List.getElem?_take_of_lt hk, List.getElem?_drop,
      List.getElem?_drop]
    exact h (P + k) (by omega) (by omega)
  · rw [List.getElem?_eq_none (by rw [List.length_take]; omega),
      List.getElem?_eq_none (by rw [List.length_take]; omega)]

theorem write_at_slot (v data : Bytes) (P : Nat) (h : P + data.length ≤ v.length)
    (hd : data.length = 4) : ((write_at v P data).drop P).take 4 = data := by
  unfold write_at
  have hl : (v.take P).length = P := by
    rw [List.length_take]; omega
  rw [List.append_assoc, List.drop_append_eq_append_drop, hl, Nat.sub_self, List.drop_zero,
    List.drop_of_length_le (by omega), List.nil_append, ← hd, List.take_left]

theorem cells_updated_nil (delta : Nat) (v : Bytes) : cells_updated delta [] v v :=
  ⟨rfl, fun _ h => absurd h (List.not_mem_nil _), fun _ _ => rfl⟩

theorem setprop_partial_node (n n1 : Node) (name val : Bytes) (idx : Nat)
    (h : Node.setprop_inplace_namelen_partial n name idx val = .ok n1) :
    ∃ v, prop_lookup name n.props = some v ∧ idx + val.length ≤ v.length ∧
      n1 = n.set_props (prop_replace name (write_at v idx val) n.props) := by
  unfold Node.setprop_inplace_namelen_partial at h
  split at h
  · cases h
  · rename_i v hv
    split at h
    · cases h
    · injection h with h
      exact ⟨v, hv, by omega, h.symm⟩

/-- What `walk_local_cells` leaves alone: the other properties, the
name and the children of the node. -/
theorem local_cells_other (name : Bytes) (delta : Nat) : ∀ (cells : List Nat) (t t1 : Node),
    walk_local_cells t name delta cells = .ok t1 →
    (∀ a, a ≠ name → prop_lookup a t1.props = prop_lookup a t.props) ∧
      t1.name = t.name ∧ t1.children = t.children
  | [], t, t1, h => by
    simp only [walk_local_cells] at h
    injection h with h
    subst h
    exact ⟨fun _ _ => rfl, rfl, rfl⟩
  | P :: rest, t, t1, h => by
    unfold walk_local_cells at h
    split at h
    · cases h
    · rename_i v hv
      dsimp only at h
      split at h
      · split at h <;> cases h
      · rename_i n1 hset
        obtain ⟨v1, _, _, hn1⟩ := setprop_partial_node _ _ _ _ _ hset
        obtain ⟨h1, h2, h3⟩ := local_cells_other name delta rest _ t1 h
        subst hn1
        refine ⟨fun a ha => ?_, ?_, ?_⟩
        · rw [h1 a ha, set_props_props, prop_lookup_replace_ne a name _ _ ha]
        · rw [h2, set_props_name]
        · rw [h3, set_props_children]

/-- The cells of one mirror property, when the slots do not overlap: every
slot gets its old value plus `delta`, the other bytes stay. -/
theorem local_cells_updated (name : Bytes) (delta : Nat) :
    ∀ (cells : List Nat) (t t1 : Node) (v : Bytes),
    cells.Pairwise (fun P Q => P + 4 ≤ Q ∨ Q + 4 ≤ P) →
    prop_lookup name t.props = some v →
    walk_local_cells t name delta cells = .ok t1 →
    ∃ w, prop_lookup name t1.props = some w ∧ cells_updated delta cells v w
  | [], t, t1, v, _, hv, h => by
    simp only [walk_local_cells] at h
    injection h with h
    subst h
    exact ⟨v, hv, cells_updated_nil delta v⟩
  | P :: rest, t, t1, v, hpw, hv, h => by
    unfold walk_local_cells at h
    rw [hv] at h
    dsimp only at h
    split at h
    · split at h <;> cases h
    · rename_i n1 hset
      obtain ⟨v1, hv1, hb, hn1⟩ := setprop_partial_node _ _ _ _ _ hset
      rw [hv] at hv1
      injection hv1 with hv1
      subst hv1
      subst hn1
      rw [List.pairwise_cons] at hpw
      obtain ⟨w, hw, hl, hs, ho⟩ := local_cells_updated name delta rest _ t1
        (write_at v P (cpu_to_fdt32 ((fdt32_to_cpu (v.drop P) + delta) % 2 ^ 32))) hpw.2
        (by rw [set_props_props]; exact prop_lookup_replace_self name _ _ v hv) h
      refine ⟨w, hw, ?_, ?_, ?_⟩
      · rw [hl, write_at_length _ _ _ hb]
      · intro Q hQ
        rcases List.mem_cons.mp hQ with rfl | hQ
        · rw [slot_eq_of_getElem w _ Q (fun i h1 h2 => ho i (fun R hR => by
            have := hpw.1 R hR
            omega))]
          exact write_at_slot v _ Q hb (cpu_to_fdt32_length _)
        · have e : fdt32_to_cpu ((write_at v P
                (cpu_to_fdt32 ((fdt32_to_cpu (v.drop P) + delta) % 2 ^ 32))).drop Q)
              = fdt32_to_cpu (v.drop Q) := by
            apply fdt32_to_cpu_congr
            intro k hk
            rw [List.getElem?_drop, List.getElem?_drop]
            refine (write_at_getElem v _ P (Q + k) hb ?_).symm
            rw [cpu_to_fdt32_length]
            have := hpw.1 Q hQ
            omega
          rw [hs Q hQ, e]
      · intro i hi
        rw [ho i (fun R hR => hi R (List.mem_cons_of_mem _ hR))]
        refine (write_at_getElem v _ P i hb ?_).symm
        rw [cpu_to_fdt32_length]
        exact hi P (List.mem_cons_self _ _)

theorem local_props_other (delta : Nat) : ∀ (fps : List (Bytes × Bytes)) (t t1 : Node),
    walk_local_props t delta fps = .ok t1 →
    (∀ a, a ∉ fps.map Prod.fst → prop_lookup a t1.props = prop_lookup a t.props) ∧
      t1.name = t.name ∧ t1.children = t.children
  | [], t, t1, h => by
    simp only [walk_local_props] at h
    injection h with h
    subst h
    exact ⟨fun _ _ => rfl, rfl, rfl⟩
  | p :: rest, t, t1, h => by
    unfold walk_local_props at h
    split at h
    · cases h
    · split at h
      · cases h
      · split at h
        · cases h
        · rename_i t0 hc
          obtain ⟨c1, c2, c3⟩ := local_cells_other p.1 delta _ t t0 hc
          obtain ⟨h1, h2, h3⟩ := local_props_other delta rest t0 t1 h
          refine ⟨fun a ha => ?_, h2.trans c2, h3.trans c3⟩
          rw [List.map_cons, List.mem_cons, not_or] at ha
          rw [h1 a ha.2, c1 a ha.1]

/-- The properties of one mirror node: the same-named property of the tree
node is updated at the slots the mirror property lists. -/
theorem local_props_updated (delta : Nat) : ∀ (fps : List (Bytes × Bytes)) (t t1 : Node),
    (fps.map Prod.fst).Nodup →
    walk_local_props t delta fps = .ok t1 →
    ∀ name fval v, (name, fval) ∈ fps → prop_lookup name t.props = some v →
      (fixup_cells (fval.length / 4) fval).Pairwise (fun P Q => P + 4 ≤ Q ∨ Q + 4 ≤ P) →
      ∃ w, prop_lookup name t1.props = some w ∧
        cells_updated delta (fixup_cells (fval.length / 4) fval) v w
  | [], t, t1, _, h, name, fval, v, hm, _, _ => by cases hm
  | p :: rest, t, t1, hnd, h, name, fval, v, hm, hv, hpw => by
    rw [List.map_cons, List.nodup_cons] at hnd
    unfold walk_local_props at h
    split at h
    · cases h
    · split at h
      · cases h
      · split at h
        · cases h
        · rename_i t0 hc
          rcases List.mem_cons.mp hm with hp | hm
          · subst hp
            obtain ⟨w, hw, hu⟩ := local_cells_updated name delta _ t t0 v hpw hv hc
            refine ⟨w, ?_, hu⟩
            rw [(local_props_other delta rest t0 t1 h).1 name hnd.1]
            exact hw
          · have hne : name ≠ p.1 := by
              intro e
              apply hnd.1
              rw [← e]
              exact List.mem_map_of_mem Prod.fst hm
            refine local_props_updated delta rest t0 t1 hnd.2 h name fval v hm ?_ hpw
            rw [(local_cells_other p.1 delta _ t t0 hc).1 name hne]
            exact hv

/-- The local-reference walk keeps the name of the node and the way child
names are looked up in it. -/
theorem local_refs_shape (delta : Nat) (fixup tree t1 : Node)
    (h : walk_local_node delta fixup tree = .ok t1) :
    t1.name = tree.name ∧ ∀ nm, child_index nm t1.children = child_index nm tree.children := by
  have ha := local_refs_agree (fun _ _ _ => False) delta fixup [] tree t1
    (fun _ _ _ _ _ hf => hf) h
  refine ⟨(agree_name _ _ _ _ ha).symm, fun nm => ?_⟩
  cases tree with
  | mk n ps cs =>
    unfold Node.agree at ha
    exact (agree_list_child_index _ nm [] cs t1.children ha.2.2).symm

theorem child_index_set (nm : Bytes) (s : Node) : ∀ (cs : List Node) (i : Nat) (c : Node),
    cs[i]? = some c → s.name = c.name → child_index nm (cs.set i s) = child_index nm cs
  | [], i, c, h, _ => by simp at h
  | d :: ds, 0, c, h, hs => by
    simp at h
    subst h
    simp only [List.set_cons_zero, child_index, hs]
  | d :: ds, i + 1, c, h, hs => by
    simp only [List.getElem?_cons_succ] at h
    simp only [List.set_cons_succ, child_index, child_index_set nm s ds i c h hs]

theorem local_subnodes_props (delta : Nat) : ∀ (fcs : List Node) (t t1 : Node),
    walk_local_subnodes delta fcs t = .ok t1 →
    t1.props = t.props ∧ t1.name = t.name ∧
      ∀ nm, child_index nm t1.children = child_index nm t.children
  | [], t, t1, h => by
    unfold walk_local_subnodes at h
    injection h with h
    subst h
    exact ⟨rfl, rfl, fun _ => rfl⟩
  | fc :: rest, t, t1, h => by
    unfold walk_local_subnodes at h
    split at h
    · cases h
    · rename_i i hi
      split at h
      · cases h
      · rename_i tc htc
        split at h
        · cases h
        · rename_i s hs
          obtain ⟨h1, h2, h3⟩ := local_subnodes_props delta rest _ t1 h
          refine ⟨?_, ?_, fun nm => ?_⟩
          · rw [h1, set_children_props]
          · rw [h2, set_children_name]
          · rw [h3 nm, set_children_children]
            exact child_index_set nm s t.children i tc htc (local_refs_shape delta fc tc s hs).1

/-- The loop over the children of a mirror node with unique child names: the
tree child of the name of a mirror child is the outcome of the walk for that
pair, and the tree children no mirror child names are left alone. -/
theorem local_subnodes_child (delta : Nat) : ∀ (fcs : List Node) (t t1 : Node),
    (fcs.map Node.name).Nodup →
    walk_local_subnodes delta fcs t = .ok t1 →
    (∀ fc ∈ fcs, ∀ ti tc, child_index fc.name t.children = some ti →
      t.children[ti]? = some tc →
      ∃ tc1, walk_local_node delta fc tc = .ok tc1 ∧
        t1.children[ti]? = some tc1) ∧
    (∀ j : Nat, (∀ fc ∈ fcs, child_index fc.name t.children ≠ some j) →
      t1.children[j]? = t.children[j]?)
  | [], t, t1, _, h => by
    unfold walk_local_subnodes at h
    injection h with h
    subst h
    exact ⟨fun fc hfc => absurd hfc (List.not_mem_nil _), fun _ _ => rfl⟩
  | f0 :: rest, t, t1, hnd, h => by
    rw [List.map_cons, List.nodup_cons] at hnd
    unfold walk_local_subnodes at h
    split at h
    · cases h
    · rename_i i hi
      split at h
      · cases h
      · rename_i tc0 htc0
        split at h
        · cases h
        · rename_i s hs
          have hsn := (local_refs_shape delta f0 tc0 s hs).1
          have hci : ∀ nm, child_index nm (t.set_children (t.children.set i s)).children
              = child_index nm t.children := by
            intro nm
            rw [set_children_children]
            exact child_index_set nm s t.children i tc0 htc0 hsn
          have hlt : i < t.children.length := (List.getElem?_eq_some_iff.mp htc0).1
          obtain ⟨ih1, ih2⟩ := local_subnodes_child delta rest _ t1 hnd.2 h
          have hname0 : tc0.name = f0.name := by
            obtain ⟨c, hc, hcn⟩ := child_index_some _ _ _ hi
            rw [htc0] at hc
            injection hc with hc
            rw [hc]
            exact hcn
          have hother : ∀ fc ∈ rest, child_index fc.name t.children ≠ some i := by
            intro fc hfc hidx
            obtain ⟨c, hc, hcn⟩ := child_index_some _ _ _ hidx
            rw [htc0] at hc
            injection hc with hc
            apply hnd.1
            rw [← hname0, hc, hcn]
            exact List.mem_map_of_mem Node.name hfc
          refine ⟨fun fc hfc ti tc hti htc => ?_, fun j hj => ?_⟩
          · rcases List.mem_cons.mp hfc with rfl | hfc
            · rw [hi] at hti
              injection hti with hti
              subst hti
              rw [htc0] at htc
              injection htc with htc
              subst htc
              refine ⟨s, hs, ?_⟩
              rw [ih2 i (fun fc hfc => by rw [hci]; exact hother fc hfc), set_children_children,
                List.getElem?_set_self hlt]
            · have hne : ti ≠ i := fun e => hother fc hfc (e ▸ hti)
              refine ih1 fc hfc ti tc (by rw [hci]; exact hti) ?_
              rw [set_children_children, List.getElem?_set_ne (Ne.symm hne)]
              exact htc
          · have hji : j ≠ i := fun e => hj f0 (List.mem_cons_self _ _) (e ▸ hi)
            rw [ih2 j (fun fc hfc => by rw [hci]; exact hj fc (List.mem_cons_of_mem _ hfc)),
              set_children_children, List.getElem?_set_ne (Ne.symm hji)]

/-- The claim of C30 for a mirror node and the tree node it is paired with,
at every depth. -/
theorem local_refs_updated (delta : Nat) : ∀ (path : List Bytes) (fixup tree tree1 : Node),
    fixup.wf = true →
    walk_local_node delta fixup tree = .ok tree1 →
    ∀ fnode tnode, fixup.descend path = some fnode → tree.descend path = some tnode →
      ∃ tnode1, tree1.descend path = some tnode1 ∧
        ∀ name fval v, (name, fval) ∈ fnode.props → prop_lookup name tnode.props = some v →
          (fixup_cells (fval.length / 4) fval).Pairwise (fun P Q => P + 4 ≤ Q ∨ Q + 4 ≤ P) →
          ∃ w, prop_lookup name tnode1.props = some w ∧
            cells_updated delta (fixup_cells (fval.length / 4) fval) v w
  | [], .mk fn fps fcs, tree, tree1, hwf, h, fnode, tnode, hf, ht => by
    simp only [Node.descend, Option.some.injEq] at hf ht
    subst hf
    subst ht
    refine ⟨tree1, rfl, ?_⟩
    intro name fval v hm hv hpw
    rw [wf_mk_iff] at hwf
    unfold walk_local_node at h
    split at h
    · cases h
    · rename_i t0 hp
      obtain ⟨w, hw, hu⟩ := local_props_updated delta fps tree t0 hwf.1 hp name fval v hm hv hpw
      refine ⟨w, ?_, hu⟩
      rw [(local_subnodes_props delta fcs t0 tree1 h).1]
      exact hw
  | nm :: rest, .mk fn fps fcs, tree, tree1, hwf, h, fnode, tnode, hf, ht => by
    rw [wf_mk_iff] at hwf
    unfold walk_local_node at h
    split at h
    · cases h
    · rename_i t0 hp
      obtain ⟨_, _, hch⟩ := local_props_other delta fps tree t0 hp
      obtain ⟨hc1, _⟩ := local_subnodes_child delta fcs t0 tree1 hwf.2.1 h
      obtain ⟨_, _, hci⟩ := local_subnodes_props delta fcs t0 tree1 h
      unfold Node.descend at hf ht
      split at hf
      · cases hf
      · rename_i fi hfi
        split at hf
        · cases hf
        · rename_i fc hfc
          split at ht
          · cases ht
          · rename_i ti hti
            split at ht
            · cases ht
            · rename_i tc htc
              have hfcn : fc.name = nm := by
                obtain ⟨c, hc, hcn⟩ := child_index_some _ _ _ hfi
                rw [hfc] at hc
                injection hc with hc
                rw [hc]
                exact hcn
              have hmem : fc ∈ fcs := List.getElem?_mem (show fcs[fi]? = some fc from hfc)
              obtain ⟨tc1, hrec, htc1⟩ := hc1 fc hmem ti tc (by rw [hfcn, hch]; exact hti)
                (by rw [hch]; exact htc)
              obtain ⟨tnode1, hd, hres⟩ := local_refs_updated delta rest fc tc tc1
                (hwf.2.2 fc hmem) hrec fnode tnode hf ht
              refine ⟨tnode1, ?_, hres⟩
              unfold Node.descend
              rw [hci nm, hch, hti]
              simp only [htc1]
              exact hd

/-- C30: when `overlay_update_local_references` succeeds on an overlay whose
`/__local_fixups__` mirror is structurally valid (unique property names and
unique sibling names) and names no slot inside the mirror itself (the overlay
has no node `/__local_fixups__/__local_fixups__`), then for every mirror node, reached along a path of
child names, and the tree node reached along the same path, for every property
of the mirror node whose listed offsets name slots that do not overlap: the
same-named property of the tree node has the same length as before, the cell
at each listed byte offset `P` (aligned or not) holds its old big-endian value
plus `delta` modulo `2^32`, and every byte outside the listed slots is
unchanged. -/
theorem overlay_update_local_references_slots (fdto fdto1 : Blob) (delta : Nat) (off : Offset)
    (fixup : Node)
    (hoff : fdt_path_offset fdto (str "/__local_fixups__") = .ok off)
    (hfix : fdto.root.get? off = some fixup) (hwf : fixup.wf = true)
    (_hself : local_fixups_apart fdto = true)
    (h0 : overlay_update_local_references fdto delta = some (.ok fdto1)) :
    ∀ path fnode tnode, fixup.descend path = some fnode →
      fdto.root.descend path = some tnode →
      ∃ tnode1, fdto1.root.descend path = some tnode1 ∧
        ∀ name fval v, (name, fval) ∈ fnode.props → prop_lookup name tnode.props = some v →
          (fixup_cells (fval.length / 4) fval).Pairwise (fun P Q => P + 4 ≤ Q ∨ Q + 4 ≤ P) →
          ∃ w, prop_lookup name tnode1.props = some w ∧
            cells_updated delta (fixup_cells (fval.length / 4) fval) v w := by
  have h := local_references_walk fdto delta _ h0
  unfold walk_local_references at h
  rw [hoff] at h
  simp only [hfix] at h
  obtain ⟨tree1, h1, h2⟩ := res_map_ok _ _ _ h
  subst h2
  intro path fnode tnode hf ht
  exact local_refs_updated delta path fixup fdto.root tree1 hwf h1 fnode tnode hf ht

/-- C30 (witness): the two references of `unaligned_refs_overlay`, at the byte
offsets 0 and 5, with `delta = 3`: 1 becomes 4 and `0xfffffffe` wraps to 1. -/
theorem overlay_update_local_references_slots_witness :
    local_fixups_apart unaligned_refs_overlay = true ∧
    overlay_update_local_references unaligned_refs_overlay 3
      = some (.ok (walk_local_references unaligned_refs_overlay 3).state) ∧
    ∃ tnode1,
      (walk_local_references unaligned_refs_overlay 3).state.root.descend
        [str "fragment@0", str "__overlay__", str "user"] = some tnode1 ∧
      ∃ w, prop_lookup (str "ref") tnode1.props = some w ∧
        cells_updated 3 [0, 5] [0, 0, 0, 1, 9, 0xff, 0xff, 0xff, 0xfe, 7] w ∧
        w = [0, 0, 0, 4, 9, 0, 0, 0, 1, 7] :=
  ⟨by decide, rfl,
  (overlay_update_local_references_slots unaligned_refs_overlay
    (walk_local_references unaligned_refs_overlay 3).state 3 [1]
    (.mk (str "__local_fixups__") [] [
      .mk (str "fragment@0") [] [
        .mk (str "__overlay__") [] [
          .mk (str "user") [(str "ref", [0, 0, 0, 0, 0, 0, 0, 5])] []]]])
    rfl rfl (by decide) (by decide) rfl
    [str "fragment@0", str "__overlay__", str "user"]
    (.mk (str "user") [(str "ref", [0, 0, 0, 0, 0, 0, 0, 5])] [])
    (.mk (str "user") [(str "ref", [0, 0, 0, 1, 9, 0xff, 0xff, 0xff, 0xfe, 7])] [])
    rfl rfl).elim
    (fun tnode1 hx => ⟨tnode1, hx.1,
      (hx.2 (str "ref") [0, 0, 0, 0, 0, 0, 0, 5] [0, 0, 0, 1, 9, 0xff, 0xff, 0xff, 0xfe, 7]
        (by decide) rfl (by decide)).elim
        (fun w hw => ⟨w, hw.1, hw.2,
          Option.some.inj (hw.1.symm.trans
            (by rw [Option.some.inj (hx.1.symm.trans rfl)]; rfl))⟩)⟩)⟩

/-! ### The frame of the fixup stage without merge -/

theorem path_names_append : ∀ (off : Offset) (root n c : Node) (l : List Bytes) (i : Nat),
    root.get? off = some n → root.path_names off = some l → n.children[i]? = some c →
    root.path_names (off ++ [i]) = some (l ++ [c.name])
  | [], root, n, c, l, i, hg, hp, hc => by
    rw [get_nil] at hg
    injection hg with hg
    subst hg
    cases root with
    | mk nm ps cs =>
      simp only [Node.path_names, Option.some.injEq] at hp
      subst hp
      have hc1 : cs[i]? = some c := hc
      simp only [List.nil_append, Node.path_names, hc1]
  | k :: rest, .mk nm ps cs, n, c, l, i, hg, hp, hc => by
    unfold Node.get? at hg
    unfold Node.path_names at hp
    simp only [List.cons_append]
    unfold Node.path_names
    cases hk : cs[k]? with
    | none => rw [hk] at hg; cases hg
    | some d =>
      rw [hk] at hg hp
      simp only at hg hp ⊢
      cases hd : d.path_names rest with
      | none => rw [hd] at hp; cases hp
      | some l1 =>
        rw [hd] at hp
        simp only [Option.some.injEq] at hp
        subst hp
        rw [path_names_append rest d n c l1 i hg hd hc]
        rfl

theorem walk_path_names (fdt : Blob) : ∀ (names : List Bytes) (off off1 : Offset)
    (l : List Bytes), fdt_walk fdt off names = .ok off1 → fdt.root.path_names off = some l →
    fdt.root.path_names off1 = some (l ++ names)
  | [], off, off1, l, h, hp => by
    simp only [fdt_walk] at h
    injection h with h
    subst h
    rw [List.append_nil]
    exact hp
  | nm :: rest, off, off1, l, h, hp => by
    unfold fdt_walk at h
    split at h
    · cases h
    · rename_i child hsub
      unfold fdt_subnode_offset at hsub
      split at hsub
      · cases hsub
      · rename_i n hn
        split at hsub
        · cases hsub
        · rename_i i hi
          injection hsub with hsub
          subst hsub
          obtain ⟨c, hc, hcn⟩ := child_index_some _ _ _ hi
          have := walk_path_names fdt rest (off ++ [i]) off1 (l ++ [c.name]) h
            (path_names_append off fdt.root n c l i hn hp hc)
          rw [this, hcn, List.append_assoc]
          rfl

theorem agree_modifyAt (keep : List Bytes → Bytes → Nat → Prop) :
    ∀ (off : Offset) (root n n1 : Node) (base names : List Bytes),
    root.get? off = some n → root.path_names off = some names →
    Node.agree keep (base ++ names) n n1 →
    Node.agree keep base root (root.modifyAt (fun _ => n1) off)
  | [], root, n, n1, base, names, hg, hp, ha => by
    rw [get_nil] at hg
    injection hg with hg
    subst hg
    rw [modifyAt_nil]
    cases root with
    | mk nm ps cs =>
      simp only [Node.path_names, Option.some.injEq] at hp
      subst hp
      rw [List.append_nil] at ha
      exact ha
  | k :: rest, .mk nm ps cs, n, n1, base, names, hg, hp, ha => by
    unfold Node.get? at hg
    unfold Node.path_names at hp
    unfold Node.modifyAt
    cases hk : cs[k]? with
    | none => rw [hk] at hg; cases hg
    | some d =>
      rw [hk] at hg hp
      simp only at hg hp ⊢
      cases hd : d.path_names rest with
      | none => rw [hd] at hp; cases hp
      | some l1 =>
        rw [hd] at hp
        simp only [Option.some.injEq] at hp
        subst hp
        unfold Node.agree
        refine ⟨rfl, props_agree_refl _ ps, ?_⟩
        refine agree_list_set keep base cs k d _ hk ?_
        refine agree_modifyAt keep rest d n n1 (base ++ [d.name]) l1 hg hd ?_
        rw [List.append_assoc]
        exact ha

theorem slots_frame_refl (keep : List Bytes → Bytes → Nat → Prop) (a : Blob) :
    slots_frame keep a a :=
  ⟨rfl, rfl, rfl, rfl, agree_refl keep [] a.root⟩

theorem slots_frame_trans {keep : List Bytes → Bytes → Nat → Prop} {a b c : Blob}
    (h1 : slots_frame keep a b) (h2 : slots_frame keep b c) : slots_frame keep a c :=
  ⟨h2.1.trans h1.1, h2.2.1.trans h1.2.1, h2.2.2.1.trans h1.2.2.1, h2.2.2.2.1.trans h1.2.2.2.1,
    agree_trans keep [] _ _ _ h1.2.2.2.2 h2.2.2.2.2⟩

/-- A partial write is within the frame when `keep` leaves its slot out. -/
theorem setprop_partial_frame (keep : List Bytes → Bytes → Nat → Prop) (fdto fdto1 : Blob)
    (off : Offset) (names : List Bytes) (nm data : Bytes) (idx : Nat)
    (hp : fdto.root.path_names off = some names)
    (hk : ∀ i, idx ≤ i → i < idx + data.length → ¬ keep names nm i)
    (h : fdt_setprop_inplace_namelen_partial fdto off nm idx data = .ok fdto1) :
    slots_frame keep fdto fdto1 := by
  unfold fdt_setprop_inplace_namelen_partial at h
  split at h
  · cases h
  · rename_i n hn
    split at h
    · cases h
    · rename_i n1 hset
      injection h with h
      subst h
      obtain ⟨v, hv, hb, hn1⟩ := setprop_partial_node _ _ _ _ _ hset
      refine ⟨rfl, rfl, rfl, rfl, ?_⟩
      refine agree_modifyAt keep off fdto.root n n1 [] names hn hp ?_
      rw [List.nil_append]
      refine agree_of_parts keep names n n1 ?_ ?_ ?_
      · rw [hn1, set_props_name]
      · rw [hn1, set_props_children]
      · rw [hn1, set_props_props]
        refine props_agree_replace (keep names) nm v _ n.props hv
          (write_at_length v data idx hb).symm ?_
        intro i hi
        refine write_at_getElem v data idx i hb ?_
        intro hc
        exact hk i hc.1 hc.2 hi

theorem path_offset_namelen_names (fdto : Blob) (path : Bytes) (len : Nat) (off : Offset)
    (h : fdt_path_offset_namelen fdto path len = .ok off) :
    fdto.root.path_names off = some (path_components (path.take len)) := by
  unfold fdt_path_offset_namelen at h
  split at h
  · have := walk_path_names fdto _ [] off [] h (by cases fdto.root; rfl)
    rw [List.nil_append] at this
    exact this
  · cases h

theorem fixup_one_phandle_frame (keep : List Bytes → Bytes → Nat → Prop) (fdt fdto : Blob)
    (so : Except FdtErr Offset) (path : Bytes) (path_len : Nat) (name : Bytes)
    (name_len poffset : Nat) (label : Bytes)
    (hk : ∀ i, poffset ≤ i → i < poffset + 4 →
      ¬ keep (path_components (path.take path_len)) (name.take name_len) i) :
    slots_frame keep fdto
      (overlay_fixup_one_phandle fdt fdto so path path_len name name_len poffset label).state := by
  unfold overlay_fixup_one_phandle
  split
  · exact slots_frame_refl _ _
  · split
    · exact slots_frame_refl _ _
    · split
      · exact slots_frame_refl _ _
      · dsimp only
        split
        · exact slots_frame_refl _ _
        · split
          · split <;> exact slots_frame_refl _ _
          · rename_i fixup_off hoff
            cases hset : fdt_setprop_inplace_namelen_partial fdto fixup_off (name.take name_len)
                poffset (cpu_to_fdt32 (fdt_get_phandle fdt _)) with
            | error e => exact slots_frame_refl _ _
            | ok fdto1 =>
              exact setprop_partial_frame keep fdto fdto1 fixup_off _ _ _ poffset
                (path_offset_namelen_names fdto path path_len fixup_off hoff)
                (fun i h1 h2 => hk i h1 (by rw [cpu_to_fdt32_length] at h2; exact h2)) hset

theorem not_mem_take_indexOf (c : Nat) : ∀ s : Bytes, c ∉ s.take (List.indexOf c s)
  | [] => by simp
  | x :: xs => by
    by_cases hx : x = c
    · subst hx
      rw [List.indexOf_cons_self]
      simp
    · rw [List.indexOf_cons_ne _ hx, List.take_succ_cons, List.mem_cons, not_or]
      exact ⟨fun e => hx e.symm, not_mem_take_indexOf c xs⟩

theorem memchr_split (s : Bytes) (c k : Nat) (h : memchr s c s.length = some k) :
    s = s.take k ++ c :: s.drop (k + 1) ∧ c ∉ s.take k ∧ k < s.length := by
  unfold memchr at h
  simp only [List.take_length] at h
  split at h
  · rename_i hlt
    injection h with h
    subst h
    refine ⟨?_, not_mem_take_indexOf c s, hlt⟩
    have hget : s[List.indexOf c s] = c := List.indexOf_get hlt
    conv_lhs => rw [← List.take_append_drop (List.indexOf c s) s]
    congr 1
    rw [List.drop_eq_getElem_cons hlt, hget]
  · cases h

theorem split_first_unique (s pa r : Bytes) (c : Nat) (h : s = pa ++ c :: r) (hc : c ∉ pa) :
    pa = s.take (List.indexOf c s) := by
  rw [h, List.indexOf_append_of_not_mem hc, List.indexOf_cons_self, Nat.add_zero, List.take_left]

theorem fixups_apart_keep (fx : Node) (h : fixups_apart fx = true) (nm : Bytes) (i : Nat) :
    fixups_keep fx [str "__fixups__"] nm i := by
  intro o hs
  exfalso
  obtain ⟨p, hp, s, hs, pa, nm1, num, he, h58, _, hpath, _, _⟩ := hs
  unfold fixups_apart at h
  rw [List.all_eq_true] at h
  have h1 := h p hp
  rw [List.all_eq_true] at h1
  have h2 := h1 s hs
  rw [decide_eq_true_eq] at h2
  apply h2
  rw [← split_first_unique s pa _ 58 he h58]
  exact hpath

theorem fixup_string_frame (keep : List Bytes → Bytes → Nat → Prop) (fdt fdto : Blob)
    (so : Except FdtErr Offset) (label s : Bytes)
    (hk : ∀ pa nm num : Bytes, s = pa ++ 58 :: (nm ++ 58 :: num) → 58 ∉ pa → 58 ∉ nm →
      ∀ i, (strtoul num).1 % 2 ^ 32 ≤ i → i < (strtoul num).1 % 2 ^ 32 + 4 →
        ¬ keep (path_components pa) nm i) :
    slots_frame keep fdto (overlay_fixup_string fdt fdto so label s).state := by
  unfold overlay_fixup_string
  split
  · exact slots_frame_refl _ _
  · rename_i path_len hm1
    obtain ⟨e1, n1, l1⟩ := memchr_split s 58 path_len hm1
    split
    · exact slots_frame_refl _ _
    · dsimp only
      split
      · exact slots_frame_refl _ _
      · rename_i name_len hm2
        have hlen : s.length - (path_len + 1) = (s.drop (path_len + 1)).length := by
          rw [List.length_drop]
        rw [hlen] at hm2
        obtain ⟨e2, n2, l2⟩ := memchr_split (s.drop (path_len + 1)) 58 name_len hm2
        split
        · exact slots_frame_refl _ _
        · split
          · exact slots_frame_refl _ _
          · refine fixup_one_phandle_frame keep fdt fdto so s path_len _ name_len _ label ?_
            refine hk (s.take path_len) ((s.drop (path_len + 1)).take name_len)
              ((s.drop (path_len + 1)).drop (name_len + 1)) ?_ n1 n2
            rw [← e2]
            exact e1

theorem fixup_strings_frame (keep : List Bytes → Bytes → Nat → Prop) (fdt : Blob)
    (so : Except FdtErr Offset) (label : Bytes) : ∀ (strs : List Bytes) (fdto : Blob),
    (∀ s ∈ strs, ∀ pa nm num : Bytes, s = pa ++ 58 :: (nm ++ 58 :: num) → 58 ∉ pa → 58 ∉ nm →
      ∀ i, (strtoul num).1 % 2 ^ 32 ≤ i → i < (strtoul num).1 % 2 ^ 32 + 4 →
        ¬ keep (path_components pa) nm i) →
    slots_frame keep fdto (overlay_fixup_strings fdt so label strs fdto).state
  | [], fdto, _ => slots_frame_refl _ _
  | s :: rest, fdto, hk => by
    unfold overlay_fixup_strings
    have hstep := fixup_string_frame keep fdt fdto so label s
      (hk s (List.mem_cons_self _ _))
    split
    · rename_i e st hs
      rw [hs] at hstep
      exact hstep
    · rename_i st hs
      rw [hs] at hstep
      exact slots_frame_trans hstep (fixup_strings_frame keep fdt so label rest st
        (fun x hx => hk x (List.mem_cons_of_mem _ hx)))

/-- One turn of the non-merge loop: the base is untouched, the overlay changes
within the slots the triples of the property name. -/
theorem fixup_phandle_frame (fx : Node) (fdt fdto : Blob) (so : Except FdtErr Offset)
    (property : Nat) (off : Offset) (node : Node)
    (hnode : fdto.root.get? off = some node) (hprops : node.props = fx.props) :
    slots_frame (fixups_keep fx) fdto
      (overlay_fixup_phandle fdt fdto so property off false).state.2 := by
  unfold overlay_fixup_phandle
  split
  · split <;> exact slots_frame_refl _ _
  · rename_i label value hget
    have hmem : (label, value) ∈ fx.props := by
      rw [← hprops]
      exact List.getElem?_mem (getprop_by_offset_get _ _ _ _ node hnode hget)
    have hfr := fixup_strings_frame (fixups_keep fx) fdt so label (cstrings value).1 fdto
      (fun s hs pa nm num he h1 h2 i hi1 hi2 hkeep =>
        hkeep _ ⟨(label, value), hmem, s, hs, pa, nm, num, he, h1, h2, rfl, rfl, rfl⟩ ⟨hi1, hi2⟩)
    split
    · exact slots_frame_refl _ _
    · split
      · rename_i e st hs
        rw [hs] at hfr
        exact hfr
      · rename_i st hs
        rw [hs] at hfr
        split
        · exact hfr
        · simp only [Bool.false_eq_true, if_false]
          exact hfr

theorem agree_list_get_fwd (keep : List Bytes → Bytes → Nat → Prop) :
    ∀ (path : List Bytes) (as bs : List Node) (i : Nat) (a : Node),
    Node.agree_list keep path as bs → as[i]? = some a →
    ∃ b, bs[i]? = some b ∧ Node.agree keep (path ++ [a.name]) a b
  | path, [], bs, i, a, _, ha => by simp at ha
  | path, c :: cs, [], i, a, h, _ => by
    unfold Node.agree_list at h
    exact absurd h (by simp)
  | path, c :: cs, m :: ms, 0, a, h, ha => by
    unfold Node.agree_list at h
    simp only at h
    simp at ha
    subst ha
    exact ⟨m, by simp, h.1⟩
  | path, c :: cs, m :: ms, i + 1, a, h, ha => by
    unfold Node.agree_list at h
    simp only at h
    simp only [List.getElem?_cons_succ] at ha ⊢
    exact agree_list_get_fwd keep path cs ms i a h.2 ha

theorem props_eq_of_agree (kp : Bytes → Nat → Prop) (hk : ∀ nm i, kp nm i) :
    ∀ (ps qs : List (Bytes × Bytes)), List.Forall₂ (prop_agrees kp) ps qs → ps = qs
  | _, _, .nil => rfl
  | p :: ps, q :: qs, .cons h hs => by
    have e2 : p.2 = q.2 := List.ext_getElem? (fun i => h.2.2 i (hk _ _))
    have e : p = q := Prod.ext h.1 e2
    rw [e, props_eq_of_agree kp hk ps qs hs]

/-- Under a frame that protects `/__fixups__`, the properties of the node
`/__fixups__` stay as they are. -/
theorem frame_keeps_fixups (fx : Node) (hap : fixups_apart fx = true) (a b : Blob) (j : Nat)
    (n : Node) (hn : a.root.children[j]? = some n) (hname : n.name = str "__fixups__")
    (h : slots_frame (fixups_keep fx) a b) :
    ∃ n1, b.root.children[j]? = some n1 ∧ n1.props = n.props ∧ n1.name = n.name := by
  obtain ⟨_, _, _, _, hag⟩ := h
  cases ha : a.root with
  | mk nm ps cs =>
    rw [ha] at hag hn
    unfold Node.agree at hag
    obtain ⟨n1, hn1, hag1⟩ := agree_list_get_fwd _ [] cs b.root.children j n hag.2.2 hn
    refine ⟨n1, hn1, ?_, (agree_name _ _ _ _ hag1).symm⟩
    cases hnn : n with
    | mk nn nps ncs =>
      rw [hnn] at hag1 hname
      unfold Node.agree at hag1
      have hnm : nn = str "__fixups__" := hname
      rw [List.nil_append] at hag1
      have hnm2 : (Node.mk nn nps ncs).name = str "__fixups__" := hname
      rw [hnm2] at hag1
      exact (props_eq_of_agree _ (fun x i => fixups_apart_keep fx hap x i) _ _ hag1.2.1).symm

theorem fixup_loop_frame (fx : Node) (hap : fixups_apart fx = true) (j : Nat) (n : Nat) :
    ∀ (property : Nat) (so : Except FdtErr Offset) (ret : Option FdtErr) (st : Blob × Blob)
      (node : Node), st.2.root.children[j]? = some node → node.props = fx.props →
      node.name = str "__fixups__" →
      slots_frame (fixups_keep fx) st.2
        (overlay_fixup_phandles_loop false [j] n property so ret st).state.2 := by
  induction n with
  | zero =>
    intro property so ret st node _ _ _
    unfold overlay_fixup_phandles_loop
    simp only [Bool.false_eq_true, false_and, if_false]
    cases ret <;> exact slots_frame_refl _ _
  | succ n ih =>
    intro property so ret st node hnode hprops hname
    unfold overlay_fixup_phandles_loop
    split
    · have hstep := fixup_phandle_frame fx st.1 st.2 so property [j] node
        (by rw [get_child]; exact hnode) hprops
      split
      · rename_i e st1 hs
        rw [hs] at hstep
        simp only [Bool.false_eq_true, not_false_eq_true, true_or, if_true]
        exact hstep
      · rename_i st1 hs
        rw [hs] at hstep
        simp only [Bool.false_eq_true, if_false]
        obtain ⟨n1, g1, g2, g3⟩ := frame_keeps_fixups fx hap st.2 st1.2 j node hnode hname hstep
        exact slots_frame_trans hstep
          (ih (property + 1) so none st1 n1 g1 (g2.trans hprops) (g3.trans hname))
    · simp only [Bool.false_eq_true, false_and, if_false]
      cases ret <;> exact slots_frame_refl _ _

/-- C29: `overlay_fixup_phandles` with `merge = 0`, on an overlay none of whose
triples leads to `/__fixups__` itself, whatever it returns: the base is
unchanged (so no `/__local_fixups__` is created in it); the overlay keeps its
header, its headroom, its nodes and its properties with their lengths, and
differs from what it was only in bytes of the 4-byte slots the triples of
`/__fixups__` name; the node `/__fixups__` keeps every property as it is. -/
theorem overlay_fixup_phandles_frame (fdt fdto : Blob) (off : Offset) (fx : Node)
    (hoff : fdt_path_offset fdto (str "/__fixups__") = .ok off)
    (hfx : fdto.root.get? off = some fx)
    (hapart : fixups_apart fx = true) :
    (overlay_fixup_phandles fdt fdto false).state.1 = fdt ∧
    slots_frame (fixups_keep fx) fdto (overlay_fixup_phandles fdt fdto false).state.2 ∧
    ∃ fx1, (overlay_fixup_phandles fdt fdto false).state.2.root.get? off = some fx1 ∧
      fx1.props = fx.props := by
  have hfr : slots_frame (fixups_keep fx) fdto (overlay_fixup_phandles fdt fdto false).state.2 ∧
      ∃ j, off = [j] ∧ fdto.root.children[j]? = some fx ∧ fx.name = str "__fixups__" := by
    have hoff1 := hoff
    rw [path_offset_fixups] at hoff1
    unfold fdt_subnode_offset at hoff1
    rw [get_nil] at hoff1
    simp only at hoff1
    split at hoff1
    · cases hoff1
    · rename_i j hj
      injection hoff1 with hoff1
      rw [List.nil_append] at hoff1
      subst hoff1
      rw [get_child] at hfx
      obtain ⟨c, hc, hcn⟩ := child_index_some _ _ _ hj
      rw [hfx] at hc
      injection hc with hc
      subst hc
      refine ⟨?_, j, rfl, hfx, hcn⟩
      unfold overlay_fixup_phandles
      rw [hoff]
      simp only
      split
      · split
        · exact slots_frame_refl _ _
        · exact fixup_loop_frame fx hapart j _ 0 _ none (fdt, fdto) fx hfx rfl hcn
      · exact fixup_loop_frame fx hapart j _ 0 _ none (fdt, fdto) fx hfx rfl hcn
  obtain ⟨hframe, j, hj, hc, hname⟩ := hfr
  refine ⟨fixup_phandles_base fdt fdto, hframe, ?_⟩
  obtain ⟨n1, g1, g2, _⟩ := frame_keeps_fixups fx hapart fdto _ j fx hc hname hframe
  exact ⟨n1, by rw [hj, get_child]; exact g1, g2⟩

/-- C29 (witness): scenario E1. -/
theorem overlay_fixup_phandles_frame_witness :
    (overlay_fixup_phandles e1_base e1_overlay false).state.1 = e1_base ∧
    slots_frame
      (fixups_keep (.mk (str "__fixups__") [(str "a", str "/fragment@0:target:0" ++ [0])] []))
      e1_overlay (overlay_fixup_phandles e1_base e1_overlay false).state.2 ∧
    ∃ fx1, (overlay_fixup_phandles e1_base e1_overlay false).state.2.root.get? [1] = some fx1 ∧
      fx1.props = [(str "a", str "/fragment@0:target:0" ++ [0])] :=
  overlay_fixup_phandles_frame e1_base e1_overlay [1]
    (.mk (str "__fixups__") [(str "a", str "/fragment@0:target:0" ++ [0])] []) rfl rfl
    (by decide)

/-! ### The recording rule of `overlay_add_to_local_fixups` -/

theorem memchr_none_iff (s : Bytes) (c : Nat) : memchr s c s.length = none ↔ c ∉ s := by
  unfold memchr
  simp only [List.take_length]
  constructor
  · intro h hc
    rw [if_pos (List.indexOf_lt_length.mpr hc)] at h
    cases h
  · intro h
    rw [if_neg (by rw [List.indexOf_lt_length]; exact h)]

theorem strncmp_target (nm num : Bytes) (h : 6 ≤ nm.length) :
    strncmp_eq (nm ++ 58 :: num) (str "target") 6 = true ↔ nm.take 6 = str "target" := by
  unfold strncmp_eq
  rw [decide_eq_true_eq, List.take_append_of_le_length h]
  have e : (str "target").take 6 = str "target" := by decide
  rw [e]
  constructor
  · exact fun hh => hh.1
  · intro hh
    refine ⟨hh, ?_⟩
    simp only [List.length_append, List.length_cons]
    omega

/-- The parse of a triple by one turn of the recording loop. -/
theorem add_string_parse (fdt : Blob) (lo : Offset) (pa nm num : Bytes)
    (h1 : 58 ∉ pa) (h2 : 58 ∉ nm) (h3 : nm.length < PATH_MAX) :
    (47 ∉ recorded_path pa ∧ nm.take 6 = str "target" →
      overlay_add_string_to_local_fixups fdt lo (pa ++ 58 :: (nm ++ 58 :: num)) = .ok fdt) ∧
    (¬ (47 ∉ recorded_path pa ∧ nm.take 6 = str "target") →
      (∀ e st, overlay_local_fixup_nodes (local_fixup_path_nodes (recorded_path pa)) lo fdt
          = .err e st →
        overlay_add_string_to_local_fixups fdt lo (pa ++ 58 :: (nm ++ 58 :: num))
          = .err e st.1) ∧
      (∀ st, overlay_local_fixup_nodes (local_fixup_path_nodes (recorded_path pa)) lo fdt
          = .ok st →
        overlay_add_string_to_local_fixups fdt lo (pa ++ 58 :: (nm ++ 58 :: num))
          = Res.ofExcept st.1
              (fdt_appendprop_u32 st.1 st.2 nm ((strtoul num).1 % 2 ^ 32)))) := by
  have hc : (if (pa ++ 58 :: (nm ++ 58 :: num)).head? = some 47
      then ((pa ++ 58 :: (nm ++ 58 :: num)).take pa.length).drop 1
      else (pa ++ 58 :: (nm ++ 58 :: num)).take pa.length) = recorded_path pa := by
    unfold recorded_path
    rw [List.take_left]
    cases pa with
    | nil => simp
    | cons x xs => simp
  have hd1 : (pa ++ 58 :: (nm ++ 58 :: num)).drop (pa.length + 1) = nm ++ 58 :: num := by
    simp [List.drop_append]
  have hl1 : (pa ++ 58 :: (nm ++ 58 :: num)).length - (pa.length + 1)
      = (nm ++ 58 :: num).length := by
    simp only [List.length_append, List.length_cons]
    omega
  have hne : ¬ (pa.length = (pa ++ 58 :: (nm ++ 58 :: num)).length - 1) := by
    simp only [List.length_append, List.length_cons]
    omega
  have hd2 : (nm ++ 58 :: num).drop (nm.length + 1) = num := by
    simp [List.drop_append]
  have ht2 : (nm ++ 58 :: num).take nm.length = nm := List.take_left _ _
  have hpm : ¬ nm.length ≥ PATH_MAX := by omega
  have hcond : (memchr (recorded_path pa) 47 (recorded_path pa).length = none ∧ nm.length ≥ 6 ∧
      strncmp_eq (nm ++ 58 :: num) (str "target") 6 = true)
      ↔ (47 ∉ recorded_path pa ∧ nm.take 6 = str "target") := by
    rw [memchr_none_iff]
    constructor
    · rintro ⟨a, b, c⟩
      exact ⟨a, (strncmp_target nm num b).mp c⟩
    · rintro ⟨a, b⟩
      have hlen : 6 ≤ nm.length := by
        have : (nm.take 6).length = 6 := by rw [b]; decide
        rw [List.length_take] at this
        omega
      exact ⟨a, hlen, (strncmp_target nm num hlen).mpr b⟩
  constructor
  · intro hskip
    unfold overlay_add_string_to_local_fixups
    rw [memchr_append_mem pa _ 58 h1]
    simp only [if_neg hne, hd1, hl1, memchr_append_mem nm num 58 h2, if_neg hpm, hc,
      if_pos (hcond.mpr hskip)]
  · intro hrec
    constructor
    · intro e st hst
      unfold overlay_add_string_to_local_fixups
      rw [memchr_append_mem pa _ 58 h1]
      simp only [if_neg hne, hd1, hl1, memchr_append_mem nm num 58 h2, if_neg hpm, hc,
        if_neg (fun hh => hrec (hcond.mp hh)), hd2, ht2, hst]
    · intro st hst
      unfold overlay_add_string_to_local_fixups
      rw [memchr_append_mem pa _ 58 h1]
      simp only [if_neg hne, hd1, hl1, memchr_append_mem nm num 58 h2, if_neg hpm, hc,
        if_neg (fun hh => hrec (hcond.mp hh)), hd2, ht2, hst]

theorem replaced_at_refl (off : Offset) (a : Blob) (n : Node) (h : a.root.get? off = some n) :
    replaced_at off a a := by
  refine ⟨n, n, h, rfl, ?_⟩
  rw [← modifyAt_of_get (fun m => m) off a.root n h, modifyAt_id]

theorem subnode_offset_child (fdt : Blob) (off : Offset) (nm : Bytes) (n : Node) (i : Nat)
    (hn : fdt.root.get? off = some n) (hi : child_index nm n.children = some i) :
    fdt_subnode_offset fdt off nm = .ok (off ++ [i]) := by
  unfold fdt_subnode_offset
  simp only [hn, hi]

theorem add_subnode_cases (fdt : Blob) (off : Offset) (nm : Bytes) (n : Node)
    (hn : fdt.root.get? off = some n) :
    (∀ j, child_index nm n.children = some j → fdt_add_subnode fdt off nm = .error .EXISTS) ∧
    (child_index nm n.children = none → ∀ e, fdt_add_subnode fdt off nm = .error e →
      e ≠ .EXISTS) := by
  unfold fdt_add_subnode
  rw [hn]
  constructor
  · intro j hj
    simp only [hj]
  · intro hnone e he
    simp only [hnone] at he
    split at he
    · rename_i e1 hs
      injection he with he
      subst he
      unfold fdt_splice_struct_ at hs
      split at hs
      · injection hs with hs
        rw [← hs]
        intro hh
        cases hh
      · cases hs
    · cases he

/-- The chain of nodes the recording loop creates or finds: afterwards the
names lead from `off` to the offset it returns, and the blob differs from what
it was only below `off`. -/
theorem local_fixup_nodes_walk : ∀ (nodes : List Bytes) (off : Offset) (fdt fdt1 : Blob)
    (last : Offset) (n : Node), fdt.root.get? off = some n →
    overlay_local_fixup_nodes nodes off fdt = .ok (fdt1, last) →
    fdt_walk fdt1 off nodes = .ok last ∧ replaced_at off fdt fdt1
  | [], off, fdt, fdt1, last, n, hn, h => by
    simp only [overlay_local_fixup_nodes] at h
    injection h with h
    injection h with h1 h2
    subst h1
    subst h2
    exact ⟨rfl, replaced_at_refl off fdt n hn⟩
  | nm :: rest, off, fdt, fdt1, last, n, hn, h => by
    unfold overlay_local_fixup_nodes at h
    split at h
    · cases h
    · split at h
      · rename_i fdt0 child hadd
        obtain ⟨hnone, hchild, hroot⟩ := add_subnode_root fdt fdt0 off child nm n hn hadd
        subst hchild
        have hn0 : fdt0.root.get? off = some (n.set_children (.mk nm [] [] :: n.children)) := by
          rw [hroot]
          exact get_modifyAt_const off fdt.root n _ hn
        have hc0 : fdt0.root.get? (off ++ [0]) = some (.mk nm [] []) :=
          child_get fdt0.root off _ _ 0 hn0 (by rw [set_children_children]; simp)
        obtain ⟨hw, x1, x, hx1, hxn, hxr⟩ :=
          local_fixup_nodes_walk rest (off ++ [0]) fdt0 fdt1 last _ hc0 h
        rw [hc0] at hx1
        injection hx1 with hx1
        subst hx1
        have hr1 : fdt1.root = fdt.root.modifyAt
            (fun _ => (n.set_children (.mk nm [] [] :: n.children)).set_children
              ((n.set_children (.mk nm [] [] :: n.children)).children.set 0 x)) off := by
          rw [hxr, child_modify fdt0.root off _ (.mk nm [] []) x 0 hn0
            (by rw [set_children_children]; simp), hroot, modifyAt_modifyAt]
        refine ⟨?_, n, _, hn, ?_, hr1⟩
        · unfold fdt_walk
          rw [subnode_offset_child fdt1 off nm _ 0
            (by rw [hr1]; exact get_modifyAt_const off fdt.root n _ hn)
            (by
              rw [set_children_children, set_children_children]
              have hxn1 : x.name = nm := hxn
              simp only [List.set_cons_zero, child_index, hxn1, if_true])]
          exact hw
        · rw [set_children_name, set_children_name]
      · rename_i e hadd
        split at h
        · rename_i hex
          split at h
          · cases h
          · rename_i child hsub
            unfold fdt_subnode_offset at hsub
            rw [hn] at hsub
            simp only at hsub
            split at hsub
            · cases hsub
            · rename_i j hj
              injection hsub with hsub
              subst hsub
              obtain ⟨c, hc, hcn⟩ := child_index_some _ _ _ hj
              have hcg : fdt.root.get? (off ++ [j]) = some c := child_get fdt.root off n c j hn hc
              obtain ⟨hw, x1, x, hx1, hxn, hxr⟩ :=
                local_fixup_nodes_walk rest (off ++ [j]) fdt fdt1 last c hcg h
              rw [hcg] at hx1
              injection hx1 with hx1
              subst hx1
              have hr1 : fdt1.root = fdt.root.modifyAt
                  (fun _ => n.set_children (n.children.set j x)) off := by
                rw [hxr, child_modify fdt.root off n c x j hn hc]
              refine ⟨?_, n, _, hn, set_children_name _ _, hr1⟩
              unfold fdt_walk
              rw [subnode_offset_child fdt1 off nm _ j
                (by rw [hr1]; exact get_modifyAt_const off fdt.root n _ hn)
                (by
                  rw [set_children_children, child_index_set nm x n.children j c hc hxn]
                  exact hj)]
              exact hw
        · cases h

/-- A chain that is there already is found, and nothing changes. -/
theorem local_fixup_nodes_found : ∀ (nodes : List Bytes) (off : Offset) (fdt fdt1 : Blob)
    (last l0 : Offset), fdt_walk fdt off nodes = .ok l0 →
    overlay_local_fixup_nodes nodes off fdt = .ok (fdt1, last) → fdt1 = fdt ∧ last = l0
  | [], off, fdt, fdt1, last, l0, hw, h => by
    simp only [overlay_local_fixup_nodes] at h
    simp only [fdt_walk] at hw
    injection h with h
    injection h with h1 h2
    injection hw with hw
    exact ⟨h1.symm, h2.symm.trans hw⟩
  | nm :: rest, off, fdt, fdt1, last, l0, hw, h => by
    unfold fdt_walk at hw
    split at hw
    · cases hw
    · rename_i child hsub
      have hsub1 := hsub
      unfold fdt_subnode_offset at hsub1
      split at hsub1
      · cases hsub1
      · rename_i n hn
        split at hsub1
        · cases hsub1
        · rename_i j hj
          have hex := (add_subnode_cases fdt off nm n hn).1 j hj
          unfold overlay_local_fixup_nodes at h
          split at h
          · cases h
          · rw [hex] at h
            simp only [if_true, hsub] at h
            exact local_fixup_nodes_found rest child fdt fdt1 last l0 hw h

/-- A chain that is not there yet ends in a node that has just been created. -/
theorem local_fixup_nodes_new : ∀ (nodes : List Bytes) (off : Offset) (fdt fdt1 : Blob)
    (last : Offset) (e : FdtErr) (n : Node), fdt.root.get? off = some n →
    fdt_walk fdt off nodes = .error e →
    overlay_local_fixup_nodes nodes off fdt = .ok (fdt1, last) →
    ∃ nd, fdt1.root.get? last = some nd ∧ nd.props = []
  | [], off, fdt, fdt1, last, e, n, _, hw, _ => by
    simp only [fdt_walk] at hw
    cases hw
  | nm :: rest, off, fdt, fdt1, last, e, n, hn, hw, h => by
    unfold overlay_local_fixup_nodes at h
    split at h
    · cases h
    · split at h
      · rename_i fdt0 child hadd
        obtain ⟨hnone, hchild, hroot⟩ := add_subnode_root fdt fdt0 off child nm n hn hadd
        subst hchild
        have hn0 : fdt0.root.get? off = some (n.set_children (.mk nm [] [] :: n.children)) := by
          rw [hroot]
          exact get_modifyAt_const off fdt.root n _ hn
        have hc0 : fdt0.root.get? (off ++ [0]) = some (.mk nm [] []) :=
          child_get fdt0.root off _ _ 0 hn0 (by rw [set_children_children]; simp)
        cases rest with
        | nil =>
          simp only [overlay_local_fixup_nodes] at h
          injection h with h
          injection h with h1 h2
          subst h1
          subst h2
          exact ⟨_, hc0, rfl⟩
        | cons r0 rs =>
          refine local_fixup_nodes_new (r0 :: rs) (off ++ [0]) fdt0 fdt1 last .NOTFOUND _ hc0 ?_ h
          unfold fdt_walk fdt_subnode_offset
          simp only [hc0]
          rfl
      · rename_i e1 hadd
        split at h
        · split at h
          · cases h
          · rename_i child hsub
            have hsub1 := hsub
            unfold fdt_subnode_offset at hsub1
            rw [hn] at hsub1
            simp only at hsub1
            split at hsub1
            · cases hsub1
            · rename_i j hj
              injection hsub1 with hsub1
              subst hsub1
              obtain ⟨c, hc, _⟩ := child_index_some _ _ _ hj
              unfold fdt_walk at hw
              rw [hsub] at hw
              simp only at hw
              exact local_fixup_nodes_new rest (off ++ [j]) fdt fdt1 last e c
                (child_get fdt.root off n c j hn hc) hw h
        · cases h

theorem appendprop_value (F F1 : Blob) (last : Offset) (nm : Bytes) (val : Nat)
    (h : fdt_appendprop_u32 F last nm val = .ok F1) :
    only_props_at F last F1 ∧
    ∃ nd, F.root.get? last = some nd ∧
      (∀ v, prop_lookup nm nd.props = some v →
        fdt_getprop F1 last nm = .ok (v ++ cpu_to_fdt32 val)) ∧
      (prop_lookup nm nd.props = none → fdt_getprop F1 last nm = .ok (cpu_to_fdt32 val)) := by
  unfold fdt_appendprop_u32 at h
  split at h
  · cases h
  · rename_i nd hnd
    split at h
    · rename_i v hv
      split at h
      · cases h
      · rename_i F2 hs
        injection h with h
        subst h
        obtain ⟨hr, hm, hv2, hl⟩ := splice_root _ _ _ _ hs
        have hroot : (F2.update last (fun m => m.set_props
            (prop_replace nm (v ++ cpu_to_fdt32 val) m.props))).root
            = F.root.modifyAt (fun m => m.set_props
              ((fun ps => prop_replace nm (v ++ cpu_to_fdt32 val) ps) m.props)) last := by
          simp only [update_root, hr]
        refine ⟨⟨hm, hv2, hl, _, hroot⟩, nd, hnd, ?_, ?_⟩
        · intro v1 hv1
          rw [hv] at hv1
          injection hv1 with hv1
          subst hv1
          exact getprop_modify F _ last _ hroot nd hnd nm _
            (prop_lookup_replace_self nm _ _ v hv)
        · intro hnone
          rw [hnone] at hv
          cases hv
    · rename_i hv
      split at h
      · cases h
      · rename_i F2 hs
        injection h with h
        subst h
        obtain ⟨hr, hm, hv2, hl⟩ := splice_root _ _ _ _ hs
        have hroot : (F2.update last (fun m => m.set_props
            ((nm, cpu_to_fdt32 val) :: m.props))).root
            = F.root.modifyAt (fun m => m.set_props
              ((fun ps => (nm, cpu_to_fdt32 val) :: ps) m.props)) last := by
          simp only [update_root, hr]
        refine ⟨⟨hm, hv2, hl, _, hroot⟩, nd, hnd, ?_, ?_⟩
        · intro v1 hv1
          rw [hv] at hv1
          cases hv1
        · intro _
          exact getprop_modify F _ last _ hroot nd hnd nm _ (by simp [prop_lookup])

theorem get_modifyAt_props (g : List (Bytes × Bytes) → List (Bytes × Bytes)) :
    ∀ (off1 off : Offset) (root : Node),
      ((root.modifyAt (fun m => m.set_props (g m.props)) off).get? off1).map
          (fun n => n.children.map Node.name)
        = (root.get? off1).map (fun n => n.children.map Node.name)
  | [], off, root => by
    rw [get_nil, get_nil]
    simp only [Option.map_some', modifyAt_props_child_names]
  | i1 :: r1, [], root => by
    rw [modifyAt_nil]
    cases root
    rfl
  | i1 :: r1, i :: r, .mk nm ps cs => by
    unfold Node.modifyAt
    split
    · rfl
    · rename_i c hc
      unfold Node.get?
      by_cases hi : i1 = i
      · subst hi
        rw [List.getElem?_set_self (List.getElem?_eq_some_iff.mp hc).1, hc]
        exact get_modifyAt_props g r1 r c
      · rw [List.getElem?_set_ne (Ne.symm hi)]

theorem child_index_names (nm : Bytes) : ∀ (cs ds : List Node),
    cs.map Node.name = ds.map Node.name → child_index nm cs = child_index nm ds
  | [], [], _ => rfl
  | [], d :: ds, h => by simp at h
  | c :: cs, [], h => by simp at h
  | c :: cs, d :: ds, h => by
    simp only [List.map_cons, List.cons.injEq] at h
    simp only [child_index, h.1, child_index_names nm cs ds h.2]

theorem subnode_offset_only_props (a b : Blob) (off : Offset) (h : only_props_at a off b)
    (o : Offset) (nm : Bytes) : fdt_subnode_offset b o nm = fdt_subnode_offset a o nm := by
  obtain ⟨_, _, _, g, hg⟩ := h
  have hget := get_modifyAt_props g o off a.root
  rw [← hg] at hget
  unfold fdt_subnode_offset
  cases hb : b.root.get? o with
  | none =>
    rw [hb] at hget
    cases ha : a.root.get? o with
    | none => rfl
    | some n => rw [ha] at hget; cases hget
  | some m =>
    rw [hb] at hget
    cases ha : a.root.get? o with
    | none => rw [ha] at hget; cases hget
    | some n =>
      rw [ha] at hget
      simp only [Option.map_some', Option.some.injEq] at hget
      simp only [child_index_names nm _ _ hget]

theorem walk_only_props (a b : Blob) (off : Offset) (h : only_props_at a off b) :
    ∀ (names : List Bytes) (o : Offset), fdt_walk b o names = fdt_walk a o names
  | [], o => rfl
  | nm :: rest, o => by
    unfold fdt_walk
    rw [subnode_offset_only_props a b off h o nm]
    cases fdt_subnode_offset a o nm with
    | error e => rfl
    | ok child => exact walk_only_props a b off h rest child

/-- C28 (failing input): `overlay_add_to_local_fixups` asks "Does path have
exactly one node?" (comment of lines 447-458) by looking for a `/` behind one
leading `/`.  The path `/` has no component, and yet the triple `/:target:0` is
skipped, like `/fragment@0:target:0`; the path `/a/` has exactly one component,
and yet the triple `/a/:target:0` is recorded under `/__local_fixups__/a`. -/
theorem recording_rule_counts_slashes :
    path_components (str "/") = [] ∧
    overlay_add_to_local_fixups empty_base (str "/:target:0" ++ [0]) = .ok local_fixups_only ∧
    overlay_add_to_local_fixups empty_base (str "/fragment@0:target:0" ++ [0])
      = .ok local_fixups_only ∧
    path_components (str "/a/") = [str "a"] ∧
    overlay_add_to_local_fixups empty_base (str "/a/:target:0" ++ [0]) = .ok recorded_under_a :=
  ⟨by decide, by decide, by decide, by decide, by decide⟩

/-- One turn of the recording loop of
`overlay_add_to_local_fixups` for a triple `<path>:<prop>:<off>` (no `:` in
path and property name, the name shorter than `PATH_MAX`), with `lo` the
offset of `/__local_fixups__`.  The triple is skipped, the blob staying as it
is, when the path, one leading `/` left out, contains no `/` (so also for the
path `/`) and the property name begins with the six bytes `target`.  Every
other triple, when the turn succeeds, leaves the chain of nodes named by the
components of the path below `/__local_fixups__` (existing ones are reused),
and the property `<prop>` of the last node holds what it held in that node
before (nothing when the node or the property is new) followed by `<off>` as
one big-endian cell. -/
theorem overlay_add_to_local_fixups_rule (fdt : Blob) (lo : Offset) (n : Node)
    (pa nm num : Bytes) (hlo : fdt.root.get? lo = some n)
    (h1 : 58 ∉ pa) (h2 : 58 ∉ nm) (h3 : nm.length < PATH_MAX) :
    (47 ∉ recorded_path pa ∧ nm.take 6 = str "target" →
      overlay_add_string_to_local_fixups fdt lo (pa ++ 58 :: (nm ++ 58 :: num)) = .ok fdt) ∧
    (¬ (47 ∉ recorded_path pa ∧ nm.take 6 = str "target") → ∀ fdt1,
      overlay_add_string_to_local_fixups fdt lo (pa ++ 58 :: (nm ++ 58 :: num)) = .ok fdt1 →
      ∃ last, fdt_walk fdt1 lo (local_fixup_path_nodes (recorded_path pa)) = .ok last ∧
        fdt_getprop fdt1 last nm
          = .ok (recorded_before fdt lo (local_fixup_path_nodes (recorded_path pa)) nm
              ++ cpu_to_fdt32 ((strtoul num).1 % 2 ^ 32))) := by
  obtain ⟨hskip, hrec⟩ := add_string_parse fdt lo pa nm num h1 h2 h3
  refine ⟨hskip, fun hc fdt1 h => ?_⟩
  obtain ⟨herr, hok⟩ := hrec hc
  cases hst : overlay_local_fixup_nodes (local_fixup_path_nodes (recorded_path pa)) lo fdt with
  | err e st =>
    rw [herr e st hst] at h
    cases h
  | ok st =>
    obtain ⟨F, last⟩ := st
    rw [hok _ hst] at h
    cases happ : fdt_appendprop_u32 F last nm ((strtoul num).1 % 2 ^ 32) with
    | error e =>
      rw [happ] at h
      cases h
    | ok F1 =>
      rw [happ] at h
      injection h with h
      subst h
      obtain ⟨hw, _⟩ := local_fixup_nodes_walk _ lo fdt F last n hlo hst
      obtain ⟨hfr, nd, hnd, hsome, hnone⟩ := appendprop_value F F1 last nm _ happ
      refine ⟨last, ?_, ?_⟩
      · rw [walk_only_props F F1 last hfr]
        exact hw
      · unfold recorded_before
        cases hw0 : fdt_walk fdt lo (local_fixup_path_nodes (recorded_path pa)) with
        | error e =>
          obtain ⟨nd1, hnd1, hprops⟩ := local_fixup_nodes_new _ lo fdt F last e n hlo hw0 hst
          rw [hnd] at hnd1
          injection hnd1 with hnd1
          subst hnd1
          rw [hnone (by rw [hprops]; rfl)]
          rfl
        | ok l0 =>
          obtain ⟨e1, e2⟩ := local_fixup_nodes_found _ lo fdt F last l0 hw0 hst
          subst e1
          subst e2
          cases hv : prop_lookup nm nd.props with
          | none =>
            have hg : fdt_getprop F last nm = .error .NOTFOUND := by
              unfold fdt_getprop
              rw [hnd]
              simp only [hv]
            rw [hnone hv]
            simp only [hg, List.nil_append]
          | some v =>
            have hg : fdt_getprop F last nm = .ok v := by
              unfold fdt_getprop
              rw [hnd]
              simp only [hv]
            rw [hsome v hv]
            simp only [hg]

/-! ### The fixup stage in merge mode -/

theorem modifyAt_names_kept (f : Node → Node) (hf : ∀ n, (f n).name = n.name) (i : Nat)
    (rest : Offset) (root : Node) :
    (root.modifyAt f (i :: rest)).children.map Node.name = root.children.map Node.name := by
  cases root with
  | mk nm ps cs =>
    unfold Node.modifyAt
    split
    · rfl
    · rename_i c hc
      show (cs.set i _).map Node.name = cs.map Node.name
      have hn : (c.modifyAt f rest).name = c.name := by
        cases rest with
        | nil => rw [modifyAt_nil]; exact hf c
        | cons k more => exact modifyAt_keeps_name f k more c
      rw [List.map_set, hn]
      apply List.ext_getElem?
      intro k
      by_cases hk : k = i
      · subst hk
        rw [List.getElem?_set_self (by
          rcases List.getElem?_eq_some_iff.mp hc with ⟨hl, _⟩; simpa using hl)]
        simp [hc]
      · rw [List.getElem?_set_ne (Ne.symm hk)]

theorem add_subnode_names_kept (fdt fdt1 : Blob) (i : Nat) (rest : Offset) (nm : Bytes)
    (child : Offset) (h : fdt_add_subnode fdt (i :: rest) nm = .ok (fdt1, child)) :
    root_names_kept fdt fdt1 ∧ ∃ k more, child = k :: more := by
  unfold fdt_add_subnode at h
  split at h
  · cases h
  · split at h
    · cases h
    · split at h
      · cases h
      · rename_i F2 hs
        injection h with h
        injection h with h1 h2
        subst h1
        obtain ⟨hr, _, _, _⟩ := splice_root _ _ _ _ hs
        refine ⟨?_, i, rest ++ [0], by rw [← h2]; rfl⟩
        unfold root_names_kept
        simp only [update_root, hr]
        exact modifyAt_names_kept _ (fun n => set_children_name n _) i rest fdt.root

theorem appendprop_names_kept (fdt fdt1 : Blob) (off : Offset) (nm : Bytes) (val : Nat)
    (h : fdt_appendprop_u32 fdt off nm val = .ok fdt1) : root_names_kept fdt fdt1 :=
  only_props_child_names fdt fdt1 off (appendprop_value fdt fdt1 off nm val h).1

theorem root_names_kept_trans {a b c : Blob} (h1 : root_names_kept a b)
    (h2 : root_names_kept b c) : root_names_kept a c := by
  unfold root_names_kept at *
  rw [h2, h1]

theorem local_fixup_nodes_names : ∀ (nodes : List Bytes) (i : Nat) (rest : Offset) (fdt : Blob),
    root_names_kept fdt (overlay_local_fixup_nodes nodes (i :: rest) fdt).state.1
  | [], i, rest, fdt => rfl
  | nm :: more, i, rest, fdt => by
    unfold overlay_local_fixup_nodes
    split
    · rfl
    · split
      · rename_i fdt1 child hadd
        obtain ⟨hk, k, m, hc⟩ := add_subnode_names_kept fdt fdt1 i rest nm child hadd
        subst hc
        exact root_names_kept_trans hk (local_fixup_nodes_names more k m fdt1)
      · split
        · split
          · rfl
          · rename_i child hsub
            unfold fdt_subnode_offset at hsub
            split at hsub
            · cases hsub
            · split at hsub
              · cases hsub
              · injection hsub with hsub
                subst hsub
                exact local_fixup_nodes_names more i (rest ++ [_]) fdt
        · rfl

theorem local_fixup_nodes_names_of (nodes : List Bytes) (i : Nat) (rest : Offset) (fdt : Blob)
    (r : Res (Blob × Offset)) (h : overlay_local_fixup_nodes nodes (i :: rest) fdt = r) :
    root_names_kept fdt r.state.1 := by
  rw [← h]
  exact local_fixup_nodes_names nodes i rest fdt

theorem add_string_names (fdt : Blob) (i : Nat) (s : Bytes) :
    root_names_kept fdt (overlay_add_string_to_local_fixups fdt [i] s).state := by
  unfold overlay_add_string_to_local_fixups
  split
  · rfl
  · split
    · rfl
    · dsimp only
      split
      · rfl
      · split
        · rfl
        · split_ifs
          all_goals first
            | rfl
            | (split
               · rename_i e st hst
                 exact local_fixup_nodes_names_of _ _ _ _ _ hst
               · rename_i st hst
                 have hn := local_fixup_nodes_names_of _ _ _ _ _ hst
                 cases happ : fdt_appendprop_u32 st.1 st.2 _ _ with
                 | error e => exact hn
                 | ok F1 =>
                   exact root_names_kept_trans hn (appendprop_names_kept _ _ _ _ _ happ))

theorem add_strings_names (i : Nat) : ∀ (strs : List Bytes) (fdt : Blob),
    root_names_kept fdt (overlay_add_strings_to_local_fixups [i] strs fdt).state
  | [], fdt => rfl
  | s :: rest, fdt => by
    unfold overlay_add_strings_to_local_fixups
    have hstep := add_string_names fdt i s
    split
    · rename_i e st hs
      rw [hs] at hstep
      exact hstep
    · rename_i st hs
      rw [hs] at hstep
      exact root_names_kept_trans hstep (add_strings_names i rest st)

theorem has_symbols_names (a b : Blob) (h : root_names_kept a b) :
    has_symbols b = has_symbols a := by
  unfold has_symbols
  rw [child_index_names _ _ _ h]

theorem local_fixups_node_symbols (fdt fdt1 : Blob) (lo : Offset)
    (h : overlay_local_fixups_node fdt = .ok (fdt1, lo)) (hs : has_symbols fdt = true) :
    has_symbols fdt1 = true ∧ ∃ i, lo = [i] := by
  unfold overlay_local_fixups_node at h
  rw [path_offset_local_fixups] at h
  rcases subnode_offset_root_cases fdt (str "__local_fixups__") with hc | ⟨i, hc⟩
  · rw [hc] at h
    simp only [if_true] at h
    obtain ⟨_, hn, hr⟩ := add_subnode_root fdt fdt1 [] lo _ fdt.root (get_nil _) h
    rw [modifyAt_nil] at hr
    refine ⟨?_, 0, hn⟩
    unfold has_symbols at hs ⊢
    rw [hr, set_children_children]
    unfold child_index
    rw [if_neg (by decide)]
    cases hci : child_index (str "__symbols__") fdt.root.children with
    | none => rw [hci] at hs; cases hs
    | some k => rfl
  · rw [hc] at h
    injection h with h
    injection h with h1 h2
    subst h1
    exact ⟨hs, i, h2.symm⟩

theorem add_to_local_fixups_symbols (fdt : Blob) (value : Bytes) (hs : has_symbols fdt = true) :
    has_symbols (overlay_add_to_local_fixups fdt value).state = true := by
  unfold overlay_add_to_local_fixups
  split
  · exact hs
  · rename_i fdt1 lo hnode
    obtain ⟨hs1, i, hlo⟩ := local_fixups_node_symbols fdt fdt1 lo hnode hs
    subst hlo
    have hk := add_strings_names i (cstrings value).1 fdt1
    split
    · rename_i e st hst
      rw [hst] at hk
      exact (has_symbols_names _ _ hk).trans hs1
    · rename_i st hst
      rw [hst] at hk
      split <;> exact (has_symbols_names _ _ hk).trans hs1

theorem path_offset_has_symbols (fdt : Blob) (hs : has_symbols fdt = true) :
    ∃ i, fdt_path_offset fdt (str "/__symbols__") = .ok [i] := by
  rw [path_offset_symbols]
  unfold has_symbols at hs
  cases hci : child_index (str "__symbols__") fdt.root.children with
  | none => rw [hci] at hs; cases hs
  | some i => exact ⟨i, subnode_offset_present fdt _ i hci⟩

theorem has_symbols_of_path_offset (fdt : Blob) (s : Offset)
    (h : fdt_path_offset fdt (str "/__symbols__") = .ok s) : has_symbols fdt = true := by
  rw [path_offset_symbols] at h
  unfold has_symbols
  cases hci : child_index (str "__symbols__") fdt.root.children with
  | none => rw [subnode_offset_absent fdt _ hci] at h; cases h
  | some i => rfl

theorem cstrings_aux_nonempty : ∀ (value cur : Bytes),
    (cstrings_aux value cur).2 = [] → (cstrings_aux value cur).1 = [] → value = [] ∧ cur = []
  | [], cur, h2, _ => by
    simp only [cstrings_aux] at h2
    exact ⟨rfl, List.reverse_eq_nil_iff.mp h2⟩
  | c :: cs, cur, h2, h1 => by
    unfold cstrings_aux at h1 h2
    split at h1
    · cases h1
    · rename_i hc
      rw [if_neg hc] at h2
      exact absurd (cstrings_aux_nonempty cs (c :: cur) h2 h1).2 (by simp)

theorem cstrings_nonempty (value : Bytes) (hv : value ≠ []) (h2 : (cstrings value).2 = []) :
    (cstrings value).1 ≠ [] :=
  fun h1 => hv (cstrings_aux_nonempty value [] h2 h1).1

theorem fixup_strings_needs_symbols (fdt : Blob) (e0 : FdtErr) (label : Bytes) (s : Bytes)
    (rest : List Bytes) (fdto fdto1 : Blob) :
    overlay_fixup_strings fdt (.error e0) label (s :: rest) fdto ≠ .ok fdto1 := by
  intro h
  unfold overlay_fixup_strings at h
  split at h
  · cases h
  · rename_i st hs
    unfold overlay_fixup_string at hs
    split at hs
    · cases hs
    · split at hs
      · cases hs
      · dsimp only at hs
        split at hs
        · cases hs
        · split at hs
          · cases hs
          · split at hs
            · cases hs
            · unfold overlay_fixup_one_phandle at hs
              cases hs

theorem merge_turn_err (fx : Node) (hap : fixups_apart fx = true) (B O : Blob)
    (so : Except FdtErr Offset) (k j : Nat) (cur : Node)
    (hcur : O.root.children[j]? = some cur) (hname : cur.name = str "__fixups__")
    (hsub : ∀ p ∈ cur.props, p ∈ fx.props)
    (hsym : (∃ s, so = .ok s) → has_symbols B = true) (e : FdtErr) (st1 : Blob × Blob)
    (h : overlay_fixup_phandle B O so k [j] true = .err e st1) :
    (∃ n1, st1.2.root.children[j]? = some n1 ∧ n1.props = cur.props ∧ n1.name = cur.name) ∧
    ((∃ s, so = .ok s) → has_symbols st1.1 = true) := by
  unfold overlay_fixup_phandle at h
  split at h
  · split at h
    all_goals
      injection h with _ h
      subst h
      exact ⟨⟨cur, hcur, rfl, rfl⟩, hsym⟩
  · rename_i label value hget
    split at h
    · injection h with _ h
      subst h
      exact ⟨⟨cur, hcur, rfl, rfl⟩, hsym⟩
    · have hmem : (label, value) ∈ fx.props :=
        hsub _ (List.getElem?_mem (getprop_by_offset_get _ _ _ _ cur
          (by rw [get_child]; exact hcur) hget))
      have hfr := fixup_strings_frame (fixups_keep fx) B so label (cstrings value).1 O
        (fun s hs pa nm num he h1 h2 i hi1 hi2 hkeep =>
          hkeep _ ⟨(label, value), hmem, s, hs, pa, nm, num, he, h1, h2, rfl, rfl, rfl⟩
            ⟨hi1, hi2⟩)
      split at h
      · rename_i e1 O1 hs
        rw [hs] at hfr
        injection h with _ h
        subst h
        exact ⟨frame_keeps_fixups fx hap O O1 j cur hcur hname hfr, hsym⟩
      · rename_i O1 hs
        rw [hs] at hfr
        have hn1 := frame_keeps_fixups fx hap O O1 j cur hcur hname hfr
        split at h
        · injection h with _ h
          subst h
          exact ⟨hn1, hsym⟩
        · simp only [if_true] at h
          split at h
          · rename_i e2 B1 hadd
            injection h with _ h
            subst h
            refine ⟨hn1, fun hso => ?_⟩
            have := add_to_local_fixups_symbols B value (hsym hso)
            rw [hadd] at this
            exact this
          · rename_i B1 hadd
            split at h
            · injection h with _ h
              subst h
              refine ⟨hn1, fun hso => ?_⟩
              have := add_to_local_fixups_symbols B value (hsym hso)
              rw [hadd] at this
              exact this
            · cases h

theorem merge_turn_ok (fx : Node) (hap : fixups_apart fx = true) (B O : Blob)
    (so : Except FdtErr Offset) (k j : Nat) (cur : Node)
    (hcur : O.root.children[j]? = some cur) (hname : cur.name = str "__fixups__")
    (hsub : ∀ p ∈ cur.props, p ∈ fx.props)
    (hsym : (∃ s, so = .ok s) → has_symbols B = true) (st1 : Blob × Blob)
    (h : overlay_fixup_phandle B O so k [j] true = .ok st1) :
    ∃ label value O1, fdt_getprop_by_offset O [j] k = .ok (label, value) ∧
      overlay_fixup_strings B so label (cstrings value).1 O = .ok O1 ∧
      overlay_add_to_local_fixups B value = .ok st1.1 ∧
      fdt_delprop O1 [j] label = .ok st1.2 ∧
      has_symbols st1.1 = true ∧
      ∃ n1, st1.2.root.children[j]? = some n1 ∧ n1.props = prop_erase label cur.props ∧
        n1.name = cur.name := by
  unfold overlay_fixup_phandle at h
  split at h
  · split at h <;> cases h
  · rename_i label value hget
    split at h
    · cases h
    · rename_i hv
      have hmem : (label, value) ∈ fx.props :=
        hsub _ (List.getElem?_mem (getprop_by_offset_get _ _ _ _ cur
          (by rw [get_child]; exact hcur) hget))
      have hfr := fixup_strings_frame (fixups_keep fx) B so label (cstrings value).1 O
        (fun s hs pa nm num he h1 h2 i hi1 hi2 hkeep =>
          hkeep _ ⟨(label, value), hmem, s, hs, pa, nm, num, he, h1, h2, rfl, rfl, rfl⟩
            ⟨hi1, hi2⟩)
      split at h
      · cases h
      · rename_i O1 hs
        rw [hs] at hfr
        obtain ⟨n1, g1, g2, g3⟩ := frame_keeps_fixups fx hap O O1 j cur hcur hname hfr
        split at h
        · cases h
        · rename_i htail
          simp only [if_true] at h
          split at h
          · cases h
          · rename_i B1 hadd
            split at h
            · cases h
            · rename_i O2 hdel
              injection h with h
              subst h
              have hso : ∃ s, so = .ok s := by
                cases so with
                | ok s => exact ⟨s, rfl⟩
                | error e0 =>
                  exfalso
                  have hne := cstrings_nonempty value hv (by
                    simpa using htail)
                  cases hstrs : (cstrings value).1 with
                  | nil => exact hne hstrs
                  | cons s rest =>
                    rw [hstrs] at hs
                    exact fixup_strings_needs_symbols B e0 label s rest O O1 hs
              have hsB := add_to_local_fixups_symbols B value (hsym hso)
              rw [hadd] at hsB
              obtain ⟨_, syms, q1, q2⟩ := delprop_step O1 O2 [j] label hdel
              rw [get_child] at q1 q2
              rw [g1] at q1
              injection q1 with q1
              subst q1
              exact ⟨label, value, O1, hget, hs, hadd, hdel, hsB, _, q2,
                by rw [set_props_props, g2], by rw [set_props_name, g3]⟩

theorem prop_lookup_erase_ne (a name : Bytes) (h : a ≠ name) : ∀ ps : List (Bytes × Bytes),
    prop_lookup a (prop_erase name ps) = prop_lookup a ps
  | [] => rfl
  | p :: ps => by
    unfold prop_erase
    split
    · rename_i hp
      have hpa : ¬ p.1 = a := fun e => h (e.symm.trans hp)
      simp only [prop_lookup, if_neg hpa]
    · simp only [prop_lookup, prop_lookup_erase_ne a name h ps]

theorem prop_lookup_of_mem (a v : Bytes) : ∀ ps : List (Bytes × Bytes),
    (ps.map Prod.fst).Nodup → (a, v) ∈ ps → prop_lookup a ps = some v
  | [], _, h => by simp at h
  | p :: ps, hn, h => by
    rw [List.map_cons, List.nodup_cons] at hn
    unfold prop_lookup
    rcases List.mem_cons.mp h with h | h
    · subst h
      simp
    · have hne : ¬ p.1 = a := fun e =>
        hn.1 (e ▸ List.mem_map_of_mem Prod.fst h)
      rw [if_neg hne]
      exact prop_lookup_of_mem a v ps hn.2 h

theorem prop_lookup_erase_self (a : Bytes) : ∀ ps : List (Bytes × Bytes),
    (ps.map Prod.fst).Nodup → prop_lookup a (prop_erase a ps) = none
  | [], _ => rfl
  | p :: ps, hn => by
    rw [List.map_cons, List.nodup_cons] at hn
    unfold prop_erase
    split
    · rename_i hp
      rw [prop_lookup_none_iff]
      intro hm
      exact hn.1 (hp ▸ hm)
    · rename_i hp
      simp only [prop_lookup, if_neg hp]
      exact prop_lookup_erase_self a ps hn.2

theorem getprop_child_congr (A B : Blob) (j : Nat) (a b : Node) (label : Bytes)
    (ha : A.root.children[j]? = some a) (hb : B.root.children[j]? = some b)
    (hp : prop_lookup label b.props = prop_lookup label a.props) :
    fdt_getprop B [j] label = fdt_getprop A [j] label := by
  unfold fdt_getprop
  rw [get_child, get_child]
  simp only [ha, hb, hp]

theorem getprop_child_some (A : Blob) (j : Nat) (a : Node) (label v : Bytes)
    (ha : A.root.children[j]? = some a) (hp : prop_lookup label a.props = some v) :
    fdt_getprop A [j] label = .ok v := by
  unfold fdt_getprop
  rw [get_child]
  simp only [ha, hp]

theorem getprop_child_none (A : Blob) (j : Nat) (a : Node) (label : Bytes)
    (ha : A.root.children[j]? = some a) (hp : prop_lookup label a.props = none) :
    fdt_getprop A [j] label = .error .NOTFOUND := by
  unfold fdt_getprop
  rw [get_child]
  simp only [ha, hp]

theorem merge_loop_done (j n property : Nat) (so : Except FdtErr Offset) (ret : Option FdtErr)
    (st : Blob × Blob) (h : ¬ property < fdt_num_props st.2 [j] ∨ n = 0)
    (hret : ret = none ∨ ret = some .NOTFOUND) :
    overlay_fixup_phandles_loop true [j] n property so ret st = .ok st := by
  have hfin : (if (true = true) ∧ ret = some FdtErr.NOTFOUND then Res.ok st
      else Res.ofCode ret st) = Res.ok st := by
    rcases hret with hr | hr
    · subst hr
      simp [Res.ofCode]
    · subst hr
      simp
  cases n with
  | zero =>
    unfold overlay_fixup_phandles_loop
    exact hfin
  | succ n =>
    rcases h with h | h
    · unfold overlay_fixup_phandles_loop
      rw [if_neg h]
      exact hfin
    · cases h

theorem merge_loop_step (fx : Node) (hap : fixups_apart fx = true) (j n property : Nat)
    (so : Except FdtErr Offset) (ret : Option FdtErr) (st : Blob × Blob) (cur : Node)
    (hinv : merge_inv fx j so st cur) (hlt : property < cur.props.length) :
    ∃ label value, cur.props[property]? = some (label, value) ∧
    ((∃ e st1 cur1, overlay_fixup_phandle st.1 st.2 so property [j] true = .err e st1 ∧
        e ≠ .NOTFOUND ∧
        overlay_fixup_phandles_loop true [j] (n + 1) property so ret st = .err e st1 ∧
        st1.2.root.children[j]? = some cur1 ∧ cur1.props = cur.props) ∨
     (∃ st1 cur1, overlay_fixup_phandle st.1 st.2 so property [j] true = .err .NOTFOUND st1 ∧
        overlay_fixup_phandles_loop true [j] (n + 1) property so ret st =
          overlay_fixup_phandles_loop true [j] n (property + 1) so (some .NOTFOUND) st1 ∧
        merge_inv fx j so st1 cur1 ∧ cur1.props = cur.props) ∨
     (∃ st1 cur1, overlay_fixup_phandle st.1 st.2 so property [j] true = .ok st1 ∧
        overlay_add_to_local_fixups st.1 value = .ok st1.1 ∧
        st1.2.root.children[j]? = some cur1 ∧ cur1.props = prop_erase label cur.props ∧
        ((property + 1 < cur.props.length ∧
          ∃ s1, overlay_fixup_phandles_loop true [j] (n + 1) property so ret st =
            overlay_fixup_phandles_loop true [j] n property (.ok s1) none st1 ∧
            merge_inv fx j (.ok s1) st1 cur1 ∧
            fdt_path_offset st1.1 (str "/__symbols__") = .ok s1) ∨
         (¬ property + 1 < cur.props.length ∧
          overlay_fixup_phandles_loop true [j] (n + 1) property so ret st = .ok st1)))) := by
  obtain ⟨hcur, hname, hsub, hnd, hsym⟩ := hinv
  have hnum : fdt_num_props st.2 [j] = cur.props.length :=
    num_props_get _ _ cur (by rw [get_child]; exact hcur)
  have hlt1 : property < fdt_num_props st.2 [j] := by rw [hnum]; exact hlt
  cases hturn : overlay_fixup_phandle st.1 st.2 so property [j] true with
  | err e st1 =>
    obtain ⟨⟨n1, g1, g2, g3⟩, hs1⟩ :=
      merge_turn_err fx hap st.1 st.2 so property j cur hcur hname hsub hsym e st1 hturn
    refine ⟨(cur.props[property]).1, (cur.props[property]).2,
      List.getElem?_eq_getElem hlt, ?_⟩
    by_cases he : e = .NOTFOUND
    · subst he
      refine Or.inr (Or.inl ⟨st1, n1, rfl, ?_,
        ⟨g1, g3.trans hname, by rw [g2]; exact hsub, by rw [g2]; exact hnd, hs1⟩, g2⟩)
      rw [overlay_fixup_phandles_loop, if_pos hlt1, hturn]
      simp
    · refine Or.inl ⟨e, st1, n1, rfl, he, ?_, g1, g2⟩
      rw [overlay_fixup_phandles_loop, if_pos hlt1, hturn]
      simp [he]
  | ok st1 =>
    obtain ⟨label, value, O1, hget, _, hadd, _, hsB, n1, g1, g2, g3⟩ :=
      merge_turn_ok fx hap st.1 st.2 so property j cur hcur hname hsub hsym st1 hturn
    have hk := getprop_by_offset_get _ _ _ _ cur (by rw [get_child]; exact hcur) hget
    refine ⟨label, value, hk, Or.inr (Or.inr ⟨st1, n1, rfl, hadd, g1, g2, ?_⟩)⟩
    by_cases hnext : property + 1 < cur.props.length
    · obtain ⟨i, hi⟩ := path_offset_has_symbols st1.1 hsB
      refine Or.inl ⟨hnext, [i], ?_, ⟨g1, g3.trans hname, ?_, ?_, fun _ => hsB⟩, hi⟩
      · rw [overlay_fixup_phandles_loop, if_pos hlt1, hturn]
        simp only [if_true]
        rw [if_pos (by rw [hnum]; exact hnext), hi]
      · intro p hp
        rw [g2] at hp
        exact hsub p ((prop_erase_sublist label cur.props).subset hp)
      · rw [g2]
        exact prop_erase_nodup label cur.props hnd
    · refine Or.inr ⟨hnext, ?_⟩
      rw [overlay_fixup_phandles_loop, if_pos hlt1, hturn]
      simp only [if_true]
      rw [if_neg (by rw [hnum]; exact hnext)]

theorem not_mem_drop_succ (ps : List (Bytes × Bytes)) (i : Nat) (label : Bytes)
    (h : label ∉ (ps.drop i).map Prod.fst) : label ∉ (ps.drop (i + 1)).map Prod.fst := by
  intro hm
  apply h
  have e : ps.drop (i + 1) = (ps.drop i).drop 1 := by rw [List.drop_drop, Nat.add_comm]
  rw [e] at hm
  obtain ⟨p, hp, hpe⟩ := List.mem_map.mp hm
  exact List.mem_map.mpr ⟨p, List.mem_of_mem_drop hp, hpe⟩

/-- The merge-mode loop leaves alone every property of `/__fixups__` it has
passed and kept. -/
theorem merge_loop_keeps (fx : Node) (hap : fixups_apart fx = true) (j : Nat) (n : Nat) :
    ∀ (property : Nat) (so : Except FdtErr Offset) (ret : Option FdtErr) (st : Blob × Blob)
      (cur : Node), merge_inv fx j so st cur → (ret = none ∨ ret = some .NOTFOUND) →
      ∀ label, label ∉ (cur.props.drop property).map Prod.fst →
      fdt_getprop (overlay_fixup_phandles_loop true [j] n property so ret st).state.2 [j] label
        = fdt_getprop st.2 [j] label := by
  induction n with
  | zero =>
    intro property so ret st cur _ hret label _
    rw [merge_loop_done j 0 property so ret st (Or.inr rfl) hret]
    rfl
  | succ n ih =>
    intro property so ret st cur hinv hret label hl
    have hnum : fdt_num_props st.2 [j] = cur.props.length :=
      num_props_get _ _ cur (by rw [get_child]; exact hinv.1)
    by_cases hlt : property < cur.props.length
    · obtain ⟨lk, vk, hk, hcases⟩ := merge_loop_step fx hap j n property so ret st cur hinv hlt
      have hdrop := drop_cons_of_get cur.props property (lk, vk) hk
      rcases hcases with ⟨e, st1, cur1, _, _, hloop, g1, g2⟩ | ⟨st1, cur1, _, hloop, hinv1, g2⟩ |
          ⟨st1, cur1, _, _, g1, g2, hrest⟩
      · rw [hloop]
        exact getprop_child_congr st.2 st1.2 j cur cur1 label hinv.1 g1 (by rw [g2])
      · rw [hloop, ih (property + 1) so (some .NOTFOUND) st1 cur1 hinv1 (Or.inr rfl) label
          (by rw [g2]; exact not_mem_drop_succ _ _ _ hl)]
        exact getprop_child_congr st.2 st1.2 j cur cur1 label hinv.1 hinv1.1 (by rw [g2])
      · have hne : label ≠ lk := by
          intro e
          apply hl
          rw [hdrop, e]
          exact List.mem_cons_self _ _
        have hstep : fdt_getprop st1.2 [j] label = fdt_getprop st.2 [j] label :=
          getprop_child_congr st.2 st1.2 j cur cur1 label hinv.1 g1
            (by rw [g2]; exact prop_lookup_erase_ne label lk hne cur.props)
        rcases hrest with ⟨_, s1, hloop, hinv1, _⟩ | ⟨_, hloop⟩
        · rw [hloop, ih property (.ok s1) none st1 cur1 hinv1 (Or.inl rfl) label
            (by
              rw [g2, prop_erase_drop cur.props property (lk, vk) hk hinv.2.2.2.1]
              exact not_mem_drop_succ _ _ _ hl)]
          exact hstep
        · rw [hloop]
          exact hstep
    · rw [merge_loop_done j (n + 1) property so ret st (Or.inl (by rw [hnum]; exact hlt)) hret]
      rfl

theorem grows_refl (a : Node) : a.grows a :=
  fun _ x hx => ⟨x, hx, fun _ v hv => ⟨[], by rw [List.append_nil]; exact hv⟩⟩

theorem grows_trans (a b c : Node) (h1 : a.grows b) (h2 : b.grows c) : a.grows c := by
  intro path x hx
  obtain ⟨y, hy, hxy⟩ := h1 path x hx
  obtain ⟨z, hz, hyz⟩ := h2 path y hy
  refine ⟨z, hz, fun nm v hv => ?_⟩
  obtain ⟨w1, hw1⟩ := hxy nm v hv
  obtain ⟨w2, hw2⟩ := hyz nm _ hw1
  exact ⟨w1 ++ w2, by rw [← List.append_assoc]; exact hw2⟩

theorem descend_nil (n : Node) : n.descend [] = some n := by
  unfold Node.descend
  rfl

theorem descend_cons (n : Node) (nm : Bytes) (rest : List Bytes) (i : Nat) (c : Node)
    (hi : child_index nm n.children = some i) (hc : n.children[i]? = some c) :
    n.descend (nm :: rest) = c.descend rest := by
  rw [Node.descend]
  simp only [hi, hc]

theorem descend_cons_some (n x : Node) (nm : Bytes) (rest : List Bytes)
    (h : n.descend (nm :: rest) = some x) :
    ∃ i c, child_index nm n.children = some i ∧ n.children[i]? = some c ∧
      c.descend rest = some x := by
  rw [Node.descend] at h
  cases hi : child_index nm n.children with
  | none => rw [hi] at h; cases h
  | some i =>
    rw [hi] at h
    dsimp only at h
    cases hc : n.children[i]? with
    | none => rw [hc] at h; cases h
    | some c =>
      rw [hc] at h
      exact ⟨i, c, rfl, hc, h⟩

/-- A node grows when one of its children does. -/
theorem grows_child (n c c1 : Node) (i : Nat) (hc : n.children[i]? = some c)
    (hname : c1.name = c.name) (hg : c.grows c1) :
    n.grows (n.set_children (n.children.set i c1)) := by
  intro path x hx
  cases path with
  | nil =>
    rw [descend_nil] at hx
    injection hx with hx
    subst hx
    refine ⟨_, descend_nil _, fun nm v hv => ⟨[], ?_⟩⟩
    rw [set_children_props, List.append_nil]
    exact hv
  | cons nm rest =>
    obtain ⟨k, d, hk, hd, hrest⟩ := descend_cons_some n x nm rest hx
    have hk1 : child_index nm (n.set_children (n.children.set i c1)).children = some k := by
      rw [set_children_children, child_index_set nm c1 n.children i c hc hname]
      exact hk
    by_cases hki : k = i
    · subst hki
      rw [hc] at hd
      injection hd with hd
      subst hd
      obtain ⟨y, hy, hxy⟩ := hg rest x hrest
      refine ⟨y, ?_, hxy⟩
      rw [descend_cons _ nm rest k c1 hk1 (by
        rw [set_children_children]
        exact List.getElem?_set_self (List.getElem?_eq_some_iff.mp hc).1)]
      exact hy
    · refine ⟨x, ?_, fun nm1 v hv => ⟨[], by rw [List.append_nil]; exact hv⟩⟩
      rw [descend_cons _ nm rest k d hk1 (by
        rw [set_children_children, List.getElem?_set_ne (fun e => hki e.symm)]
        exact hd)]
      exact hrest

theorem modifyAt_cons (f : Node → Node) (n c : Node) (i : Nat) (rest : Offset)
    (hc : n.children[i]? = some c) :
    n.modifyAt f (i :: rest) = n.set_children (n.children.set i (c.modifyAt f rest)) := by
  cases n with
  | mk nm ps cs =>
    simp only [Node.children] at hc
    rw [Node.modifyAt]
    simp only [hc]
    rfl

/-- A tree grows when the node at an offset is replaced by one of the same
name that it grows into. -/
theorem grows_modifyAt (f : Node → Node) : ∀ (off : Offset) (root n : Node),
    root.get? off = some n → (f n).name = n.name → n.grows (f n) →
    root.grows (root.modifyAt f off) ∧ (root.modifyAt f off).name = root.name
  | [], root, n, hn, hname, hg => by
    rw [get_nil] at hn
    injection hn with hn
    subst hn
    rw [modifyAt_nil]
    exact ⟨hg, hname⟩
  | i :: rest, root, n, hn, hname, hg => by
    cases hroot : root with
    | mk nm ps cs =>
      rw [hroot] at hn
      rw [Node.get?] at hn
      cases hc : cs[i]? with
      | none => rw [hc] at hn; cases hn
      | some c =>
        rw [hc] at hn
        obtain ⟨h1, h2⟩ := grows_modifyAt f rest c n hn hname hg
        rw [modifyAt_cons f (.mk nm ps cs) c i rest hc]
        exact ⟨grows_child (.mk nm ps cs) c _ i hc h2 h1, set_children_name _ _⟩

/-- A node grows when it gets a new first child of a name it has no child of. -/
theorem grows_new_child (n new : Node) (h : child_index new.name n.children = none) :
    n.grows (n.set_children (new :: n.children)) := by
  intro path x hx
  cases path with
  | nil =>
    rw [descend_nil] at hx
    injection hx with hx
    subst hx
    refine ⟨_, descend_nil _, fun nm v hv => ⟨[], ?_⟩⟩
    rw [set_children_props, List.append_nil]
    exact hv
  | cons nm rest =>
    obtain ⟨k, d, hk, hd, hrest⟩ := descend_cons_some n x nm rest hx
    have hne : ¬ new.name = nm := by
      intro e
      rw [e, hk] at h
      cases h
    refine ⟨x, ?_, fun nm1 v hv => ⟨[], by rw [List.append_nil]; exact hv⟩⟩
    rw [descend_cons _ nm rest (k + 1) d (by
      rw [set_children_children, child_index, if_neg hne, hk]
      rfl) (by
      rw [set_children_children, List.getElem?_cons_succ]
      exact hd)]
    exact hrest

theorem prop_lookup_replace_other (a name val : Bytes) (h : a ≠ name) :
    ∀ ps : List (Bytes × Bytes), prop_lookup a (prop_replace name val ps) = prop_lookup a ps
  | [] => rfl
  | p :: ps => by
    unfold prop_replace
    split
    · rename_i hp
      have hpa : ¬ p.1 = a := fun e => h (e.symm.trans hp)
      simp only [prop_lookup, if_neg hpa]
    · rename_i hp
      simp only [prop_lookup, prop_lookup_replace_other a name val h ps]

/-- A node grows when bytes are put behind the value of one of its
properties, or when it gets a new property. -/
theorem grows_append_prop (n : Node) (name extra : Bytes) :
    n.grows (n.set_props (match prop_lookup name n.props with
      | some v => prop_replace name (v ++ extra) n.props
      | none => (name, extra) :: n.props)) := by
  have key : ∀ ps1 : List (Bytes × Bytes),
      (∀ nm v, prop_lookup nm n.props = some v → ∃ w, prop_lookup nm ps1 = some (v ++ w)) →
      n.grows (n.set_props ps1) := by
    intro ps1 hps path x hx
    cases path with
    | nil =>
      rw [descend_nil] at hx
      injection hx with hx
      subst hx
      refine ⟨_, descend_nil _, fun nm v hv => ?_⟩
      rw [set_props_props]
      exact hps nm v hv
    | cons nm rest =>
      obtain ⟨k, d, hk, hd, hrest⟩ := descend_cons_some n x nm rest hx
      refine ⟨x, ?_, fun nm1 v hv => ⟨[], by rw [List.append_nil]; exact hv⟩⟩
      rw [descend_cons _ nm rest k d (by rw [set_props_children]; exact hk)
        (by rw [set_props_children]; exact hd)]
      exact hrest
  cases hl : prop_lookup name n.props with
  | none =>
    refine key _ (fun nm v hv => ⟨[], ?_⟩)
    have hnm : ¬ name = nm := by
      intro e
      rw [← e, hl] at hv
      cases hv
    rw [List.append_nil]
    simp only [prop_lookup]
    rw [if_neg hnm]
    exact hv
  | some u =>
    refine key _ (fun nm v hv => ?_)
    by_cases hnm : nm = name
    · subst hnm
      rw [hl] at hv
      injection hv with hv
      subst hv
      exact ⟨extra, prop_lookup_replace_self nm _ _ u hl⟩
    · refine ⟨[], ?_⟩
      rw [List.append_nil, prop_lookup_replace_other nm name _ hnm]
      exact hv

theorem recorded_grows (a b : Blob) (pa nm : Bytes) (c : Nat) (hg : a.root.grows b.root)
    (h : recorded a pa nm c) : recorded b pa nm c := by
  obtain ⟨last, v, h1, h2, pre, post, h3⟩ := h
  obtain ⟨y, hy, hxy⟩ := hg _ last h1
  obtain ⟨w, hw⟩ := hxy nm v h2
  refine ⟨y, v ++ w, hy, hw, pre, post ++ w, ?_⟩
  rw [h3]
  simp only [List.append_assoc]

theorem add_subnode_grows (fdt fdt1 : Blob) (off child : Offset) (name : Bytes)
    (h : fdt_add_subnode fdt off name = .ok (fdt1, child)) : fdt.root.grows fdt1.root := by
  cases ht : fdt.root.get? off with
  | none =>
    unfold fdt_add_subnode at h
    rw [ht] at h
    cases h
  | some t =>
    obtain ⟨hnone, _, hroot⟩ := add_subnode_root fdt fdt1 off child name t ht h
    rw [hroot]
    exact (grows_modifyAt (fun _ => t.set_children (.mk name [] [] :: t.children)) off
      fdt.root t ht (set_children_name _ _) (grows_new_child t (.mk name [] []) hnone)).1

theorem appendprop_grows (fdt fdt1 : Blob) (off : Offset) (nm : Bytes) (val : Nat)
    (h : fdt_appendprop_u32 fdt off nm val = .ok fdt1) : fdt.root.grows fdt1.root := by
  unfold fdt_appendprop_u32 at h
  cases hn : fdt.root.get? off with
  | none => rw [hn] at h; cases h
  | some n =>
    rw [hn] at h
    dsimp only at h
    have hg := grows_append_prop n nm (cpu_to_fdt32 val)
    cases hl : prop_lookup nm n.props with
    | none =>
      rw [hl] at h hg
      dsimp only at h hg
      split at h
      · cases h
      · rename_i F2 hs
        injection h with h
        subst h
        rw [(update_root _ _ _).1, (splice_root _ _ _ _ hs).1]
        exact (grows_modifyAt (fun m => m.set_props ((nm, cpu_to_fdt32 val) :: m.props)) off
          fdt.root n hn (set_props_name _ _) hg).1
    | some v =>
      rw [hl] at h hg
      dsimp only at h hg
      split at h
      · cases h
      · rename_i F2 hs
        injection h with h
        subst h
        rw [(update_root _ _ _).1, (splice_root _ _ _ _ hs).1]
        exact (grows_modifyAt
          (fun m => m.set_props (prop_replace nm (v ++ cpu_to_fdt32 val) m.props)) off
          fdt.root n hn (set_props_name _ _) hg).1

theorem local_fixup_nodes_grows : ∀ (nodes : List Bytes) (off : Offset) (fdt : Blob),
    fdt.root.grows (overlay_local_fixup_nodes nodes off fdt).state.1.root
  | [], off, fdt => grows_refl _
  | nm :: more, off, fdt => by
    unfold overlay_local_fixup_nodes
    split
    · exact grows_refl _
    · split
      · rename_i fdt1 child hadd
        exact grows_trans _ _ _ (add_subnode_grows fdt fdt1 off child nm hadd)
          (local_fixup_nodes_grows more child fdt1)
      · split
        · split
          · exact grows_refl _
          · rename_i child hsub
            exact local_fixup_nodes_grows more child fdt
        · exact grows_refl _

theorem local_fixup_nodes_grows_of (nodes : List Bytes) (off : Offset) (fdt : Blob)
    (r : Res (Blob × Offset)) (h : overlay_local_fixup_nodes nodes off fdt = r) :
    fdt.root.grows r.state.1.root := by
  rw [← h]
  exact local_fixup_nodes_grows nodes off fdt

theorem add_string_grows (fdt : Blob) (lo : Offset) (s : Bytes) :
    fdt.root.grows (overlay_add_string_to_local_fixups fdt lo s).state.root := by
  unfold overlay_add_string_to_local_fixups
  split
  · exact grows_refl _
  · split
    · exact grows_refl _
    · dsimp only
      split
      · exact grows_refl _
      · split
        · exact grows_refl _
        · split_ifs
          all_goals first
            | exact grows_refl _
            | (split
               · rename_i e st hst
                 exact local_fixup_nodes_grows_of _ _ _ _ hst
               · rename_i st hst
                 have hn := local_fixup_nodes_grows_of _ _ _ _ hst
                 cases happ : fdt_appendprop_u32 st.1 st.2 _ _ with
                 | error e => exact hn
                 | ok F1 =>
                   exact grows_trans _ _ _ hn (appendprop_grows _ _ _ _ _ happ))

theorem add_strings_grows (lo : Offset) : ∀ (strs : List Bytes) (fdt : Blob),
    fdt.root.grows (overlay_add_strings_to_local_fixups lo strs fdt).state.root
  | [], fdt => grows_refl _
  | s :: rest, fdt => by
    unfold overlay_add_strings_to_local_fixups
    have hstep := add_string_grows fdt lo s
    split
    · rename_i e st hs
      rw [hs] at hstep
      exact hstep
    · rename_i st hs
      rw [hs] at hstep
      exact grows_trans _ _ _ hstep (add_strings_grows lo rest st)

theorem local_fixups_node_grows (fdt fdt1 : Blob) (lo : Offset)
    (h : overlay_local_fixups_node fdt = .ok (fdt1, lo)) : fdt.root.grows fdt1.root := by
  unfold overlay_local_fixups_node at h
  split at h
  · injection h with h
    injection h with h1 h2
    subst h1
    exact grows_refl _
  · split at h
    · exact add_subnode_grows _ _ _ _ _ h
    · cases h

/-- Whatever `overlay_add_to_local_fixups` returns, the blob it leaves is the
one it found, grown. -/
theorem add_to_local_fixups_grows (fdt : Blob) (value : Bytes) :
    fdt.root.grows (overlay_add_to_local_fixups fdt value).state.root := by
  unfold overlay_add_to_local_fixups
  split
  · exact grows_refl _
  · rename_i fdt1 lo hnode
    have h1 := local_fixups_node_grows fdt fdt1 lo hnode
    have h2 := add_strings_grows lo (cstrings value).1 fdt1
    split
    · rename_i e st hst
      rw [hst] at h2
      exact grows_trans _ _ _ h1 h2
    · rename_i st hst
      rw [hst] at h2
      split <;> exact grows_trans _ _ _ h1 h2

/-- In a turn of the merge-mode loop the combined blob only grows. -/
theorem fixup_phandle_grows (B O : Blob) (so : Except FdtErr Offset) (k : Nat) (off : Offset)
    (merge : Bool) :
    B.root.grows (overlay_fixup_phandle B O so k off merge).state.1.root := by
  unfold overlay_fixup_phandle
  split
  · split <;> exact grows_refl _
  · split
    · exact grows_refl _
    · split
      · exact grows_refl _
      · split
        · exact grows_refl _
        · split
          · have h := add_to_local_fixups_grows B ‹Bytes›
            split
            · rename_i e B1 hadd
              rw [hadd] at h
              exact h
            · rename_i B1 hadd
              rw [hadd] at h
              split <;> exact h
          · exact grows_refl _

theorem add_subnode_err (fdt : Blob) (off : Offset) (nm : Bytes) (e : FdtErr)
    (h : fdt_add_subnode fdt off nm = .error e) : e ≠ .NOTFOUND := by
  unfold fdt_add_subnode at h
  split at h
  · injection h with h
    subst h
    intro hh
    cases hh
  · split at h
    · injection h with h
      subst h
      intro hh
      cases hh
    · split at h
      · rename_i e1 hs
        injection h with h
        subst h
        unfold fdt_splice_struct_ at hs
        split at hs
        · injection hs with hs
          subst hs
          intro hh
          cases hh
        · cases hs
      · cases h

theorem appendprop_err (fdt : Blob) (off : Offset) (nm : Bytes) (val : Nat) (e : FdtErr)
    (h : fdt_appendprop_u32 fdt off nm val = .error e) : e ≠ .NOTFOUND := by
  unfold fdt_appendprop_u32 at h
  split at h
  · injection h with h
    subst h
    intro hh
    cases hh
  · split at h
    all_goals
      split at h
      · rename_i e1 hs
        injection h with h
        subst h
        unfold fdt_splice_struct_ at hs
        split at hs
        · injection hs with hs
          subst hs
          intro hh
          cases hh
        · cases hs
      · cases h

theorem local_fixup_nodes_err : ∀ (nodes : List Bytes) (off : Offset) (fdt : Blob) (e : FdtErr)
    (st : Blob × Offset), overlay_local_fixup_nodes nodes off fdt = .err e st → e ≠ .NOTFOUND
  | [], off, fdt, e, st, h => by
    simp only [overlay_local_fixup_nodes] at h
    cases h
  | nm :: more, off, fdt, e, st, h => by
    unfold overlay_local_fixup_nodes at h
    split at h
    · injection h with h
      subst h
      intro hh
      cases hh
    · split at h
      · rename_i fdt1 child hadd
        exact local_fixup_nodes_err more child fdt1 e st h
      · rename_i e0 hadd
        split at h
        · rename_i hex
          subst hex
          split at h
          · rename_i e1 hsub
            exfalso
            unfold fdt_add_subnode at hadd
            unfold fdt_subnode_offset at hsub
            cases hn : fdt.root.get? off with
            | none =>
              rw [hn] at hadd
              cases hadd
            | some n =>
              rw [hn] at hadd hsub
              dsimp only at hadd hsub
              cases hci : child_index nm n.children with
              | none =>
                rw [hci] at hadd
                dsimp only at hadd
                split at hadd
                · rename_i e2 hs
                  unfold fdt_splice_struct_ at hs
                  split at hs
                  · injection hs with hs
                    subst hs
                    cases hadd
                  · cases hs
                · cases hadd
              | some i =>
                rw [hci] at hsub
                cases hsub
          · rename_i child hsub
            exact local_fixup_nodes_err more child fdt e st h
        · rename_i hex
          injection h with h
          subst h
          exact add_subnode_err fdt off nm e0 hadd

theorem add_string_err (fdt : Blob) (lo : Offset) (s : Bytes) (e : FdtErr) (st : Blob)
    (h : overlay_add_string_to_local_fixups fdt lo s = .err e st) : e ≠ .NOTFOUND := by
  unfold overlay_add_string_to_local_fixups at h
  have hbad : FdtErr.BADOVERLAY ≠ FdtErr.NOTFOUND := by decide
  split at h
  · injection h with h
    subst h
    exact hbad
  · split at h
    · injection h with h
      subst h
      exact hbad
    · dsimp only at h
      split at h
      · injection h with h
        subst h
        exact hbad
      · split at h
        · injection h with h
          subst h
          exact hbad
        · split_ifs at h
          all_goals first
            | cases h
            | (split at h
               · rename_i e1 st1 hst
                 injection h with h
                 subst h
                 exact local_fixup_nodes_err _ _ _ _ _ hst
               · rename_i st1 hst
                 unfold Res.ofExcept at h
                 split at h
                 · cases h
                 · rename_i e1 happ
                   injection h with h
                   subst h
                   exact appendprop_err _ _ _ _ _ happ)

theorem add_strings_err (lo : Offset) : ∀ (strs : List Bytes) (fdt : Blob) (e : FdtErr)
    (st : Blob), overlay_add_strings_to_local_fixups lo strs fdt = .err e st → e ≠ .NOTFOUND
  | [], fdt, e, st, h => by
    simp only [overlay_add_strings_to_local_fixups] at h
    cases h
  | s :: rest, fdt, e, st, h => by
    unfold overlay_add_strings_to_local_fixups at h
    split at h
    · rename_i e1 st1 hs
      injection h with h
      subst h
      exact add_string_err fdt lo s _ _ hs
    · rename_i st1 hs
      exact add_strings_err lo rest st1 e st h

/-- The recording never fails with `NOTFOUND`. -/
theorem add_to_local_fixups_err (fdt : Blob) (value : Bytes) (e : FdtErr) (st : Blob)
    (h : overlay_add_to_local_fixups fdt value = .err e st) : e ≠ .NOTFOUND := by
  unfold overlay_add_to_local_fixups at h
  split at h
  · rename_i e1 hnode
    injection h with h
    subst h
    unfold overlay_local_fixups_node at hnode
    split at hnode
    · cases hnode
    · rename_i e2 hp
      split at hnode
      · exact add_subnode_err _ _ _ _ hnode
      · rename_i hne
        injection hnode with hnode
        subst hnode
        exact hne
  · rename_i fdt1 lo hnode
    split at h
    · rename_i e1 st1 hst
      injection h with h
      subst h
      exact add_strings_err lo _ fdt1 _ _ hst
    · split at h
      · injection h with h
        subst h
        decide
      · cases h

theorem walk_descend (F : Blob) : ∀ (names : List Bytes) (off last : Offset) (n : Node),
    F.root.get? off = some n → fdt_walk F off names = .ok last →
    ∃ x, F.root.get? last = some x ∧ n.descend names = some x
  | [], off, last, n, hn, h => by
    simp only [fdt_walk] at h
    injection h with h
    subst h
    exact ⟨n, hn, descend_nil n⟩
  | nm :: rest, off, last, n, hn, h => by
    unfold fdt_walk at h
    unfold fdt_subnode_offset at h
    rw [hn] at h
    dsimp only at h
    cases hci : child_index nm n.children with
    | none => rw [hci] at h; cases h
    | some i =>
      rw [hci] at h
      dsimp only at h
      obtain ⟨c, hc, _⟩ := child_index_some _ _ _ hci
      obtain ⟨x, hx1, hx2⟩ := walk_descend F rest (off ++ [i]) last c
        (child_get F.root off n c i hn hc) h
      exact ⟨x, hx1, by rw [descend_cons n nm rest i c hci hc]; exact hx2⟩

/-- A property name of `PATH_MAX` bytes or more is refused by the recording
loop. -/
theorem add_string_long_name (fdt : Blob) (lo : Offset) (pa nm num : Bytes)
    (h1 : 58 ∉ pa) (h2 : 58 ∉ nm) (h3 : PATH_MAX ≤ nm.length) :
    overlay_add_string_to_local_fixups fdt lo (pa ++ 58 :: (nm ++ 58 :: num))
      = .err .BADOVERLAY fdt := by
  have hd1 : (pa ++ 58 :: (nm ++ 58 :: num)).drop (pa.length + 1) = nm ++ 58 :: num := by
    simp [List.drop_append]
  have hl1 : (pa ++ 58 :: (nm ++ 58 :: num)).length - (pa.length + 1)
      = (nm ++ 58 :: num).length := by
    simp only [List.length_append, List.length_cons]
    omega
  have hne : ¬ (pa.length = (pa ++ 58 :: (nm ++ 58 :: num)).length - 1) := by
    simp only [List.length_append, List.length_cons]
    omega
  have hpm : nm.length ≥ PATH_MAX := h3
  unfold overlay_add_string_to_local_fixups
  rw [memchr_append_mem pa _ 58 h1]
  simp only [if_neg hne, hd1, hl1, memchr_append_mem nm num 58 h2, if_pos hpm]

/-- One turn of the recording loop records its triple, unless it skips it. -/
theorem add_string_recorded (F F1 : Blob) (i : Nat) (pa nm num : Bytes)
    (hi : child_index (str "__local_fixups__") F.root.children = some i)
    (h1 : 58 ∉ pa) (h2 : 58 ∉ nm)
    (hrec : ¬ (47 ∉ recorded_path pa ∧ nm.take 6 = str "target"))
    (h : overlay_add_string_to_local_fixups F [i] (pa ++ 58 :: (nm ++ 58 :: num)) = .ok F1) :
    recorded F1 pa nm ((strtoul num).1 % 2 ^ 32) := by
  obtain ⟨lfn, hlfn, _⟩ := child_index_some _ _ _ hi
  have hlo : F.root.get? [i] = some lfn := by rw [get_child]; exact hlfn
  have h3 : nm.length < PATH_MAX := by
    by_contra hge
    rw [add_string_long_name F [i] pa nm num h1 h2 (Nat.le_of_not_lt hge)] at h
    cases h
  obtain ⟨last, hw, hv⟩ :=
    (overlay_add_to_local_fixups_rule F [i] lfn pa nm num hlo h1 h2 h3).2 hrec F1 h
  have hk := add_string_names F i (pa ++ 58 :: (nm ++ 58 :: num))
  rw [h] at hk
  have hk1 : F1.root.children.map Node.name = F.root.children.map Node.name := hk
  have hi1 : child_index (str "__local_fixups__") F1.root.children = some i := by
    rw [child_index_names _ _ _ hk1]
    exact hi
  obtain ⟨lfn1, hlfn1, _⟩ := child_index_some _ _ _ hi1
  obtain ⟨x, hx1, hx2⟩ := walk_descend F1 _ [i] last lfn1 (by rw [get_child]; exact hlfn1) hw
  unfold fdt_getprop at hv
  rw [hx1] at hv
  dsimp only at hv
  cases hl : prop_lookup nm x.props with
  | none => rw [hl] at hv; cases hv
  | some v =>
    rw [hl] at hv
    injection hv with hv
    refine ⟨x, v, ?_, hl,
      recorded_before F [i] (local_fixup_path_nodes (recorded_path pa)) nm, [], ?_⟩
    · rw [descend_cons F1.root _ _ i lfn1 hi1 hlfn1]
      exact hx2
    · rw [hv, List.append_nil]

/-- The recording loop records every triple of its list that it does not
skip. -/
theorem add_strings_recorded (i : Nat) : ∀ (strs : List Bytes) (F F1 : Blob),
    child_index (str "__local_fixups__") F.root.children = some i →
    overlay_add_strings_to_local_fixups [i] strs F = .ok F1 →
    ∀ pa nm num, pa ++ 58 :: (nm ++ 58 :: num) ∈ strs → 58 ∉ pa → 58 ∉ nm →
      ¬ (47 ∉ recorded_path pa ∧ nm.take 6 = str "target") →
      recorded F1 pa nm ((strtoul num).1 % 2 ^ 32)
  | [], F, F1, _, _, pa, nm, num, hm, _, _, _ => absurd hm (List.not_mem_nil _)
  | s :: rest, F, F1, hi, h, pa, nm, num, hm, h1, h2, hrec => by
    unfold overlay_add_strings_to_local_fixups at h
    split at h
    · cases h
    · rename_i F2 hs
      have hk := add_string_names F i s
      rw [hs] at hk
      have hk1 : F2.root.children.map Node.name = F.root.children.map Node.name := hk
      have hi2 : child_index (str "__local_fixups__") F2.root.children = some i := by
        rw [child_index_names _ _ _ hk1]
        exact hi
      rcases List.mem_cons.mp hm with hm | hm
      · subst hm
        have hr := add_string_recorded F F2 i pa nm num hi h1 h2 hrec hs
        have hg := add_strings_grows [i] rest F2
        rw [h] at hg
        exact recorded_grows F2 F1 pa nm _ hg hr
      · exact add_strings_recorded i rest F2 F1 hi2 h pa nm num hm h1 h2 hrec

theorem local_fixups_node_index (fdt fdt1 : Blob) (lo : Offset)
    (h : overlay_local_fixups_node fdt = .ok (fdt1, lo)) :
    ∃ i, lo = [i] ∧ child_index (str "__local_fixups__") fdt1.root.children = some i := by
  unfold overlay_local_fixups_node at h
  rw [path_offset_local_fixups] at h
  unfold fdt_subnode_offset at h
  rw [get_nil] at h
  dsimp only at h
  cases hci : child_index (str "__local_fixups__") fdt.root.children with
  | some i =>
    rw [hci] at h
    dsimp only at h
    injection h with h
    injection h with h1 h2
    subst h1
    exact ⟨i, by rw [← h2]; rfl, hci⟩
  | none =>
    rw [hci] at h
    simp only [if_true] at h
    obtain ⟨_, hn, hr⟩ := add_subnode_root fdt fdt1 [] lo _ fdt.root (get_nil _) h
    rw [modifyAt_nil] at hr
    refine ⟨0, hn, ?_⟩
    rw [hr, set_children_children]
    unfold child_index
    exact if_pos rfl

/-- A successful call of `overlay_add_to_local_fixups` has recorded every
triple of the value that it does not skip. -/
theorem add_to_local_fixups_recorded (fdt fdt1 : Blob) (value : Bytes)
    (h : overlay_add_to_local_fixups fdt value = .ok fdt1) :
    ∀ pa nm num, pa ++ 58 :: (nm ++ 58 :: num) ∈ (cstrings value).1 → 58 ∉ pa → 58 ∉ nm →
      ¬ (47 ∉ recorded_path pa ∧ nm.take 6 = str "target") →
      recorded fdt1 pa nm ((strtoul num).1 % 2 ^ 32) := by
  unfold overlay_add_to_local_fixups at h
  split at h
  · cases h
  · rename_i F lo hnode
    obtain ⟨i, hlo, hi⟩ := local_fixups_node_index fdt F lo hnode
    subst hlo
    split at h
    · cases h
    · rename_i st hst
      split at h
      · cases h
      · injection h with h
        subst h
        exact add_strings_recorded i (cstrings value).1 F st hi hst

theorem delprop_present (O : Blob) (off : Offset) (n : Node) (label : Bytes)
    (hn : O.root.get? off = some n) (hl : label ∈ n.props.map Prod.fst) :
    ∃ O2, fdt_delprop O off label = .ok O2 := by
  unfold fdt_delprop
  rw [hn]
  dsimp only
  cases hp : prop_lookup label n.props with
  | none => exact absurd hl ((prop_lookup_none_iff label n.props).mp hp)
  | some v =>
    dsimp only
    unfold fdt_splice_struct_
    rw [if_neg (by omega)]
    exact ⟨_, rfl⟩

/-- A turn of the merge-mode loop that returns `NOTFOUND` has left the combined
blob as it was: the resolution of the triples returned `NOTFOUND`. -/
theorem merge_turn_notfound (fx : Node) (hap : fixups_apart fx = true) (B O : Blob)
    (so : Except FdtErr Offset) (k j : Nat) (cur : Node)
    (hcur : O.root.children[j]? = some cur) (hname : cur.name = str "__fixups__")
    (hsub : ∀ p ∈ cur.props, p ∈ fx.props) (st1 : Blob × Blob)
    (h : overlay_fixup_phandle B O so k [j] true = .err .NOTFOUND st1) :
    st1.1 = B ∧ ∃ label value, fdt_getprop_by_offset O [j] k = .ok (label, value) ∧
      overlay_fixup_strings B so label (cstrings value).1 O = .err .NOTFOUND st1.2 := by
  unfold overlay_fixup_phandle at h
  split at h
  · split at h
    · cases h
    · rename_i hne
      injection h with h1 _
      exact absurd h1 hne
  · rename_i label value hget
    split at h
    · cases h
    · have hmem0 : (label, value) ∈ cur.props :=
        List.getElem?_mem (getprop_by_offset_get _ _ _ _ cur
          (by rw [get_child]; exact hcur) hget)
      have hmem : (label, value) ∈ fx.props := hsub _ hmem0
      have hfr := fixup_strings_frame (fixups_keep fx) B so label (cstrings value).1 O
        (fun s hs pa nm num he h1 h2 i hi1 hi2 hkeep =>
          hkeep _ ⟨(label, value), hmem, s, hs, pa, nm, num, he, h1, h2, rfl, rfl, rfl⟩
            ⟨hi1, hi2⟩)
      split at h
      · rename_i e1 O1 hs
        injection h with h1 h2
        subst h1
        subst h2
        exact ⟨rfl, label, value, hget, hs⟩
      · rename_i O1 hs
        rw [hs] at hfr
        obtain ⟨n1, g1, g2, g3⟩ := frame_keeps_fixups fx hap O O1 j cur hcur hname hfr
        split at h
        · cases h
        · simp only [if_true] at h
          split at h
          · rename_i e2 B1 hadd
            injection h with h1 _
            exact absurd h1 (add_to_local_fixups_err B value e2 B1 hadd)
          · rename_i B1 hadd
            split at h
            · rename_i e3 hdel
              exfalso
              obtain ⟨O2, hO2⟩ := delprop_present O1 [j] n1 label
                (by rw [get_child]; exact g1)
                (by rw [g2]; exact List.mem_map_of_mem Prod.fst hmem0)
              rw [hO2] at hdel
              cases hdel
            · cases h

/-- Whatever the merge-mode loop returns, the combined blob it leaves is the
one it found, grown. -/
theorem merge_loop_grows (merge : Bool) (off : Offset) : ∀ (n property : Nat)
    (so : Except FdtErr Offset) (ret : Option FdtErr) (st : Blob × Blob),
    st.1.root.grows (overlay_fixup_phandles_loop merge off n property so ret st).state.1.root
  | 0, property, so, ret, st => by
    unfold overlay_fixup_phandles_loop
    split
    · exact grows_refl _
    · unfold Res.ofCode
      split <;> exact grows_refl _
  | n + 1, property, so, ret, st => by
    unfold overlay_fixup_phandles_loop
    have hturn := fixup_phandle_grows st.1 st.2 so property off merge
    split
    · split
      · rename_i e st1 ht
        rw [ht] at hturn
        split
        · exact hturn
        · exact grows_trans _ _ _ hturn (merge_loop_grows merge off n _ _ _ st1)
      · rename_i st1 ht
        rw [ht] at hturn
        split
        · split
          · split
            · exact hturn
            · exact grows_trans _ _ _ hturn (merge_loop_grows merge off n _ _ _ st1)
          · exact hturn
        · exact grows_trans _ _ _ hturn (merge_loop_grows merge off n _ _ _ st1)
    · split
      · exact grows_refl _
      · unfold Res.ofCode
        split <;> exact grows_refl _

theorem turn_state_kept (off : Offset) (s0 : Nat × Except FdtErr Offset × (Blob × Blob))
    (t0 property : Nat) (so : Except FdtErr Offset) (st st1 : Blob × Blob)
    (htr : merge_turn_state off t0 s0 = some (property, so, st))
    (hlt : property < fdt_num_props st.2 off)
    (hturn : overlay_fixup_phandle st.1 st.2 so property off true = .err .NOTFOUND st1) :
    merge_turn_state off (t0 + 1) s0 = some (property + 1, so, st1) := by
  rw [merge_turn_state, htr]
  show merge_next_turn off (property, so, st) = _
  unfold merge_next_turn
  dsimp only
  rw [if_pos hlt, hturn]
  rfl

theorem turn_state_deleted (off : Offset) (s0 : Nat × Except FdtErr Offset × (Blob × Blob))
    (t0 property : Nat) (so : Except FdtErr Offset) (st st1 : Blob × Blob) (s1 : Offset)
    (htr : merge_turn_state off t0 s0 = some (property, so, st))
    (hlt : property + 1 < fdt_num_props st.2 off)
    (hturn : overlay_fixup_phandle st.1 st.2 so property off true = .ok st1)
    (hsym : fdt_path_offset st1.1 (str "/__symbols__") = .ok s1) :
    merge_turn_state off (t0 + 1) s0 = some (property, .ok s1, st1) := by
  rw [merge_turn_state, htr]
  show merge_next_turn off (property, so, st) = _
  unfold merge_next_turn
  dsimp only
  rw [if_pos (by omega), hturn]
  dsimp only
  rw [if_pos hlt, hsym]

/-- The merge-mode loop, property by property: turn `t0 + i` handles the
property that stands `i` places behind the one the loop is at. -/
theorem merge_loop_result (fx : Node) (hap : fixups_apart fx = true) (j : Nat)
    (s0 : Nat × Except FdtErr Offset × (Blob × Blob)) (n : Nat) :
    ∀ (property : Nat) (so : Except FdtErr Offset) (ret : Option FdtErr) (st : Blob × Blob)
      (cur : Node) (t0 : Nat), merge_inv fx j so st cur → (ret = none ∨ ret = some .NOTFOUND) →
      (cur.props.drop property).length ≤ n →
      merge_turn_state [j] t0 s0 = some (property, so, st) →
      ∀ final, overlay_fixup_phandles_loop true [j] n property so ret st = .ok final →
      ∀ i label value, (cur.props.drop property)[i]? = some (label, value) →
        fixup_result [j] s0 (t0 + i) label value final := by
  induction n with
  | zero =>
    intro property so ret st cur t0 _ _ hfuel _ final _ i label value hmem
    rw [List.length_eq_zero.mp (Nat.le_zero.mp hfuel)] at hmem
    simp at hmem
  | succ n ih =>
    intro property so ret st cur t0 hinv hret hfuel htr final h i label value hmem
    have hlt : property < cur.props.length := by
      by_contra hge
      rw [List.drop_eq_nil_of_le (Nat.le_of_not_lt hge)] at hmem
      simp at hmem
    have hnum : fdt_num_props st.2 [j] = cur.props.length :=
      num_props_get _ _ cur (by rw [get_child]; exact hinv.1)
    obtain ⟨lk, vk, hk, hcases⟩ := merge_loop_step fx hap j n property so ret st cur hinv hlt
    have hdrop := drop_cons_of_get cur.props property (lk, vk) hk
    have hnd := hinv.2.2.2.1
    have hlk : lk ∉ (cur.props.drop (property + 1)).map Prod.fst :=
      nodup_not_mem_drop cur.props property (lk, vk) hk hnd
    have hgetk : fdt_getprop_by_offset st.2 [j] property = .ok (lk, vk) :=
      getprop_by_offset_of_get _ _ _ _ cur (by rw [get_child]; exact hinv.1) hk
    have hfuel1 : (cur.props.drop (property + 1)).length ≤ n := by
      rw [hdrop, List.length_cons] at hfuel
      omega
    rw [hdrop] at hmem
    rcases hcases with ⟨e1, st1, cur1, _, _, hloop, _, _⟩ |
        ⟨st1, cur1, hturn, hloop, hinv1, g2⟩ | ⟨st1, cur1, hturn, hadd, g1, g2, hrest⟩
    · rw [hloop] at h
      cases h
    · rw [hloop] at h
      have htr1 := turn_state_kept [j] s0 t0 property so st st1 htr (by rw [hnum]; exact hlt)
        hturn
      cases i with
      | zero =>
        rw [List.getElem?_cons_zero] at hmem
        injection hmem with hmem
        injection hmem with e1 e2
        subst e1
        subst e2
        obtain ⟨_, l2, v2, hget2, hstrs⟩ := merge_turn_notfound fx hap st.1 st.2 so property j
          cur hinv.1 hinv.2.1 hinv.2.2.1 st1 hturn
        rw [hgetk] at hget2
        injection hget2 with hget2
        injection hget2 with q1 q2
        subst q1
        subst q2
        refine ⟨property, so, st.1, st.2, htr, hgetk, Or.inr ⟨⟨st1.2, hstrs⟩, ?_⟩⟩
        have hkeep := merge_loop_keeps fx hap j n (property + 1) so (some .NOTFOUND) st1 cur1
          hinv1 (Or.inr rfl) lk (by rw [g2]; exact hlk)
        rw [h] at hkeep
        rw [show (Res.ok final).state.2 = final.2 from rfl] at hkeep
        rw [hkeep]
        exact getprop_child_some st1.2 j cur1 lk vk hinv1.1
          (by rw [g2]; exact prop_lookup_of_mem lk vk cur.props hnd
                (List.getElem?_mem hk))
      | succ i1 =>
        rw [List.getElem?_cons_succ] at hmem
        have := ih (property + 1) so (some .NOTFOUND) st1 cur1 (t0 + 1) hinv1 (Or.inr rfl)
          (by rw [g2]; exact hfuel1) htr1 final h i1 label value (by rw [g2]; exact hmem)
        rw [show t0 + (i1 + 1) = t0 + 1 + i1 by omega]
        exact this
    · have herase : cur1.props.drop property = cur.props.drop (property + 1) := by
        rw [g2]
        exact prop_erase_drop cur.props property (lk, vk) hk hnd
      have hgone : fdt_getprop st1.2 [j] lk = .error .NOTFOUND :=
        getprop_child_none st1.2 j cur1 lk g1
          (by rw [g2]; exact prop_lookup_erase_self lk cur.props hnd)
      obtain ⟨l2, v2, O1, hget2, hstrs, _, _, _, _⟩ :=
        merge_turn_ok fx hap st.1 st.2 so property j cur hinv.1 hinv.2.1 hinv.2.2.1
          hinv.2.2.2.2 st1 hturn
      rw [hgetk] at hget2
      injection hget2 with hget2
      injection hget2 with q1 q2
      subst q1
      subst q2
      have hrecd := add_to_local_fixups_recorded st.1 st1.1 vk hadd
      rcases hrest with ⟨hnext, s1, hloop, hinv1, hsym1⟩ | ⟨hlast, hloop⟩
      · rw [hloop] at h
        have htr1 := turn_state_deleted [j] s0 t0 property so st st1 s1 htr
          (by rw [hnum]; exact hnext) hturn hsym1
        cases i with
        | zero =>
          rw [List.getElem?_cons_zero] at hmem
          injection hmem with hmem
          injection hmem with e1 e2
          subst e1
          subst e2
          refine ⟨property, so, st.1, st.2, htr, hgetk, Or.inl ⟨⟨O1, hstrs⟩, ?_, ?_⟩⟩
          · have hkeep := merge_loop_keeps fx hap j n property (.ok s1) none st1 cur1
              hinv1 (Or.inl rfl) lk (by rw [herase]; exact hlk)
            rw [h] at hkeep
            rw [show (Res.ok final).state.2 = final.2 from rfl] at hkeep
            rw [hkeep]
            exact hgone
          · intro pa nm num hm h1 h2 hrec
            have hg := merge_loop_grows true [j] n property (.ok s1) none st1
            rw [h] at hg
            exact recorded_grows st1.1 final.1 pa nm _ hg (hrecd pa nm num hm h1 h2 hrec)
        | succ i1 =>
          rw [List.getElem?_cons_succ] at hmem
          have := ih property (.ok s1) none st1 cur1 (t0 + 1) hinv1 (Or.inl rfl)
            (by rw [herase]; exact hfuel1) htr1 final h i1 label value
            (by rw [herase]; exact hmem)
          rw [show t0 + (i1 + 1) = t0 + 1 + i1 by omega]
          exact this
      · rw [hloop] at h
        injection h with h
        subst h
        cases i with
        | zero =>
          rw [List.getElem?_cons_zero] at hmem
          injection hmem with hmem
          injection hmem with e1 e2
          subst e1
          subst e2
          exact ⟨property, so, st.1, st.2, htr, hgetk, Or.inl ⟨⟨O1, hstrs⟩, hgone,
            hrecd⟩⟩
        | succ i1 =>
          rw [List.getElem?_cons_succ, List.drop_eq_nil_of_le (Nat.le_of_not_lt hlast)] at hmem
          simp at hmem

/-- The merge-mode loop fails only with the error of one of its turns, and
never with `NOTFOUND`. -/
theorem merge_loop_failure (fx : Node) (hap : fixups_apart fx = true) (j : Nat)
    (s0 : Nat × Except FdtErr Offset × (Blob × Blob)) (n : Nat) :
    ∀ (property : Nat) (so : Except FdtErr Offset) (ret : Option FdtErr) (st : Blob × Blob)
      (cur : Node) (t0 : Nat), merge_inv fx j so st cur → (ret = none ∨ ret = some .NOTFOUND) →
      merge_turn_state [j] t0 s0 = some (property, so, st) →
      ∀ e stf, overlay_fixup_phandles_loop true [j] n property so ret st = .err e stf →
      e ≠ .NOTFOUND ∧
      ∃ (t k : Nat) (so1 : Except FdtErr Offset) (B O : Blob),
        merge_turn_state [j] t s0 = some (k, so1, (B, O)) ∧
        overlay_fixup_phandle B O so1 k [j] true = .err e stf := by
  induction n with
  | zero =>
    intro property so ret st cur t0 _ hret _ e stf h
    rw [merge_loop_done j 0 property so ret st (Or.inr rfl) hret] at h
    cases h
  | succ n ih =>
    intro property so ret st cur t0 hinv hret htr e stf h
    have hnum : fdt_num_props st.2 [j] = cur.props.length :=
      num_props_get _ _ cur (by rw [get_child]; exact hinv.1)
    by_cases hlt : property < cur.props.length
    · obtain ⟨lk, vk, hk, hcases⟩ := merge_loop_step fx hap j n property so ret st cur hinv hlt
      rcases hcases with ⟨e1, st1, cur1, hturn, hne, hloop, _, _⟩ |
          ⟨st1, cur1, hturn, hloop, hinv1, _⟩ | ⟨st1, cur1, hturn, _, _, _, hrest⟩
      · rw [hloop] at h
        injection h with h1 h2
        subst h1
        subst h2
        exact ⟨hne, t0, property, so, st.1, st.2, htr, hturn⟩
      · rw [hloop] at h
        exact ih (property + 1) so (some .NOTFOUND) st1 cur1 (t0 + 1) hinv1 (Or.inr rfl)
          (turn_state_kept [j] s0 t0 property so st st1 htr (by rw [hnum]; exact hlt) hturn)
          e stf h
      · rcases hrest with ⟨hnext, s1, hloop, hinv1, hsym1⟩ | ⟨_, hloop⟩
        · rw [hloop] at h
          exact ih property (.ok s1) none st1 cur1 (t0 + 1) hinv1 (Or.inl rfl)
            (turn_state_deleted [j] s0 t0 property so st st1 s1 htr
              (by rw [hnum]; exact hnext) hturn hsym1) e stf h
        · rw [hloop] at h
          cases h
    · rw [merge_loop_done j (n + 1) property so ret st (Or.inl (by rw [hnum]; exact hlt)) hret]
        at h
      cases h

theorem symbols_getprop (fdt : Blob) (s : Offset) (label v : Bytes)
    (hs : fdt_path_offset fdt (str "/__symbols__") = .ok s)
    (hv : fdt_getprop fdt s label = .ok v) :
    ∃ n, fdt.root.descend [str "__symbols__"] = some n ∧ prop_lookup label n.props = some v := by
  rw [path_offset_symbols] at hs
  unfold fdt_subnode_offset at hs
  rw [get_nil] at hs
  dsimp only at hs
  cases hci : child_index (str "__symbols__") fdt.root.children with
  | none => rw [hci] at hs; cases hs
  | some i =>
    rw [hci] at hs
    injection hs with hs
    rw [List.nil_append] at hs
    subst hs
    unfold fdt_getprop at hv
    rw [get_child] at hv
    cases hc : fdt.root.children[i]? with
    | none => rw [hc] at hv; cases hv
    | some c =>
      rw [hc] at hv
      dsimp only at hv
      refine ⟨c, ?_, ?_⟩
      · rw [descend_cons _ _ _ i c hci hc, descend_nil]
      · cases hl : prop_lookup label c.props with
        | none => rw [hl] at hv; cases hv
        | some w =>
          rw [hl] at hv
          injection hv with hv
          rw [hv]

theorem symbols_getprop_of (fdt : Blob) (n : Node) (label v : Bytes)
    (hn : fdt.root.descend [str "__symbols__"] = some n)
    (hv : prop_lookup label n.props = some v) :
    ∃ s, fdt_path_offset fdt (str "/__symbols__") = .ok s ∧ fdt_getprop fdt s label = .ok v := by
  obtain ⟨i, c, hci, hc, hd⟩ := descend_cons_some _ _ _ _ hn
  rw [descend_nil] at hd
  injection hd with hd
  subst hd
  refine ⟨[i], ?_, getprop_child_some fdt i c label v hc hv⟩
  rw [path_offset_symbols]
  unfold fdt_subnode_offset
  rw [get_nil]
  simp only [hci, List.nil_append]

/-- A change below the root child `i` leaves the root child of another name
as it is. -/
theorem descend_modifyAt_other (f : Node → Node) (hf : ∀ n, (f n).name = n.name)
    (root c : Node) (i : Nat) (rest : Offset) (hc : root.children[i]? = some c)
    (nm : Bytes) (hne : c.name ≠ nm) :
    (root.modifyAt f (i :: rest)).descend [nm] = root.descend [nm] := by
  have hnames := modifyAt_names_kept f hf i rest root
  have hci := child_index_names nm _ _ hnames
  cases hj : child_index nm root.children with
  | none =>
    rw [hj] at hci
    rw [Node.descend, Node.descend]
    simp only [hci, hj]
  | some j =>
    rw [hj] at hci
    obtain ⟨d, hd, hdn⟩ := child_index_some nm _ j hj
    have hji : i ≠ j := by
      intro e
      subst e
      rw [hc] at hd
      injection hd with hd
      subst hd
      exact hne hdn
    have hd1 : (root.modifyAt f (i :: rest)).children[j]? = some d := by
      rw [modifyAt_cons f root c i rest hc, set_children_children, List.getElem?_set_ne hji]
      exact hd
    rw [descend_cons _ _ _ j d hci hd1, descend_cons _ _ _ j d hj hd]

theorem lf_ne_symbols : str "__local_fixups__" ≠ str "__symbols__" := by decide

theorem add_subnode_symbols_same (fdt fdt1 : Blob) (i : Nat) (rest child : Offset) (nm : Bytes)
    (hi : child_index (str "__local_fixups__") fdt.root.children = some i)
    (h : fdt_add_subnode fdt (i :: rest) nm = .ok (fdt1, child)) :
    fdt1.root.descend [str "__symbols__"] = fdt.root.descend [str "__symbols__"] ∧
    child = i :: (rest ++ [0]) := by
  obtain ⟨c, hc, hcn⟩ := child_index_some _ _ i hi
  unfold fdt_add_subnode at h
  split at h
  · cases h
  · split at h
    · cases h
    · split at h
      · cases h
      · rename_i fdt2 hs
        injection h with h
        injection h with h1 h2
        subst h1
        refine ⟨?_, h2.symm⟩
        show (fdt2.root.modifyAt _ (i :: rest)).descend _ = _
        rw [(splice_root _ _ _ _ hs).1]
        exact descend_modifyAt_other _ (fun n => set_children_name _ _) fdt.root c i rest hc _
          (by rw [hcn]; exact lf_ne_symbols)

theorem appendprop_symbols_same (fdt fdt1 : Blob) (i : Nat) (rest : Offset) (nm : Bytes)
    (val : Nat) (hi : child_index (str "__local_fixups__") fdt.root.children = some i)
    (h : fdt_appendprop_u32 fdt (i :: rest) nm val = .ok fdt1) :
    fdt1.root.descend [str "__symbols__"] = fdt.root.descend [str "__symbols__"] := by
  obtain ⟨c, hc, hcn⟩ := child_index_some _ _ i hi
  unfold fdt_appendprop_u32 at h
  split at h
  · cases h
  · split at h
    · split at h
      · cases h
      · rename_i fdt2 hs
        injection h with h
        subst h
        show (fdt2.root.modifyAt _ (i :: rest)).descend _ = _
        rw [(splice_root _ _ _ _ hs).1]
        exact descend_modifyAt_other _ (fun n => set_props_name _ _) fdt.root c i rest hc _
          (by rw [hcn]; exact lf_ne_symbols)
    · split at h
      · cases h
      · rename_i fdt2 hs
        injection h with h
        subst h
        show (fdt2.root.modifyAt _ (i :: rest)).descend _ = _
        rw [(splice_root _ _ _ _ hs).1]
        exact descend_modifyAt_other _ (fun n => set_props_name _ _) fdt.root c i rest hc _
          (by rw [hcn]; exact lf_ne_symbols)

theorem local_fixup_nodes_symbols_same (i : Nat) : ∀ (nodes : List Bytes) (rest : Offset)
    (fdt : Blob), child_index (str "__local_fixups__") fdt.root.children = some i →
    (overlay_local_fixup_nodes nodes (i :: rest) fdt).state.1.root.descend [str "__symbols__"]
      = fdt.root.descend [str "__symbols__"] ∧
    ∃ more, (overlay_local_fixup_nodes nodes (i :: rest) fdt).state.2 = i :: more
  | [], rest, fdt, _ => ⟨rfl, rest, rfl⟩
  | nm :: more, rest, fdt, hi => by
    unfold overlay_local_fixup_nodes
    split
    · exact ⟨rfl, rest, rfl⟩
    · split
      · rename_i fdt1 child hadd
        obtain ⟨g1, g2⟩ := add_subnode_symbols_same fdt fdt1 i rest child nm hi hadd
        subst g2
        have hk : root_names_kept fdt fdt1 :=
          (add_subnode_names_kept fdt fdt1 i rest nm _ hadd).1
        have hk1 : fdt1.root.children.map Node.name = fdt.root.children.map Node.name := hk
        have hi1 : child_index (str "__local_fixups__") fdt1.root.children = some i := by
          rw [child_index_names _ _ _ hk1]
          exact hi
        obtain ⟨i1, i2⟩ := local_fixup_nodes_symbols_same i more (rest ++ [0]) fdt1 hi1
        exact ⟨i1.trans g1, i2⟩
      · split
        · split
          · exact ⟨rfl, rest, rfl⟩
          · rename_i childnode hsub
            have hc : childnode = i :: (rest ++ [(childnode.getLast?).getD 0]) ∨
                ∃ more1, childnode = i :: more1 := by
              right
              unfold fdt_subnode_offset at hsub
              split at hsub
              · cases hsub
              · split at hsub
                · cases hsub
                · injection hsub with hsub
                  exact ⟨_, by rw [← hsub]; rfl⟩
            rcases hc with hc | ⟨more1, hc⟩
            · rw [hc]
              exact local_fixup_nodes_symbols_same i more _ fdt hi
            · rw [hc]
              exact local_fixup_nodes_symbols_same i more more1 fdt hi
        · exact ⟨rfl, rest, rfl⟩

theorem local_fixup_nodes_symbols_of (i : Nat) (nodes : List Bytes) (rest : Offset)
    (fdt : Blob) (r : Res (Blob × Offset))
    (hi : child_index (str "__local_fixups__") fdt.root.children = some i)
    (h : overlay_local_fixup_nodes nodes (i :: rest) fdt = r) :
    r.state.1.root.descend [str "__symbols__"] = fdt.root.descend [str "__symbols__"] ∧
    ∃ more, r.state.2 = i :: more := by
  rw [← h]
  exact local_fixup_nodes_symbols_same i nodes rest fdt hi

theorem add_string_symbols_same (fdt : Blob) (i : Nat) (s : Bytes)
    (hi : child_index (str "__local_fixups__") fdt.root.children = some i) :
    (overlay_add_string_to_local_fixups fdt [i] s).state.root.descend [str "__symbols__"]
      = fdt.root.descend [str "__symbols__"] := by
  unfold overlay_add_string_to_local_fixups
  split
  · rfl
  · split
    · rfl
    · dsimp only
      split
      · rfl
      · split
        · rfl
        · split_ifs
          all_goals first
            | rfl
            | (split
               · rename_i e st hst
                 exact (local_fixup_nodes_symbols_of i _ _ _ _ hi hst).1
               · rename_i st hst
                 obtain ⟨g1, more, g2⟩ := local_fixup_nodes_symbols_of i _ _ _ _ hi hst
                 have hk := local_fixup_nodes_names_of _ _ _ _ _ hst
                 have hk1 : st.1.root.children.map Node.name
                     = fdt.root.children.map Node.name := hk
                 have hi1 : child_index (str "__local_fixups__") st.1.root.children
                     = some i := by
                   rw [child_index_names _ _ _ hk1]
                   exact hi
                 have g2 : st.2 = i :: more := g2
                 cases ha : fdt_appendprop_u32 st.1 st.2 _ _ with
                 | error e => exact g1
                 | ok fdt2 =>
                   rw [g2] at ha
                   exact (appendprop_symbols_same st.1 fdt2 i more _ _ hi1 ha).trans g1)

theorem add_strings_symbols_same (i : Nat) : ∀ (strs : List Bytes) (fdt : Blob),
    child_index (str "__local_fixups__") fdt.root.children = some i →
    (overlay_add_strings_to_local_fixups [i] strs fdt).state.root.descend [str "__symbols__"]
      = fdt.root.descend [str "__symbols__"]
  | [], fdt, _ => rfl
  | s :: rest, fdt, hi => by
    have h1 := add_string_symbols_same fdt i s hi
    have hk := add_string_names fdt i s
    unfold overlay_add_strings_to_local_fixups
    split
    · rename_i e st hs
      rw [hs] at h1
      exact h1
    · rename_i st hs
      rw [hs] at h1 hk
      have hk1 : st.root.children.map Node.name = fdt.root.children.map Node.name := hk
      exact (add_strings_symbols_same i rest st
        (by rw [child_index_names _ _ _ hk1]; exact hi)).trans h1

theorem local_fixups_node_symbols_same (fdt fdt1 : Blob) (lo : Offset)
    (h : overlay_local_fixups_node fdt = .ok (fdt1, lo)) :
    fdt1.root.descend [str "__symbols__"] = fdt.root.descend [str "__symbols__"] := by
  unfold overlay_local_fixups_node at h
  rw [path_offset_local_fixups] at h
  unfold fdt_subnode_offset at h
  rw [get_nil] at h
  dsimp only at h
  cases hci : child_index (str "__local_fixups__") fdt.root.children with
  | some i =>
    rw [hci] at h
    dsimp only at h
    injection h with h
    injection h with h1 h2
    subst h1
    rfl
  | none =>
    rw [hci] at h
    simp only [if_true] at h
    obtain ⟨_, _, hr⟩ := add_subnode_root fdt fdt1 [] lo _ fdt.root (get_nil _) h
    rw [modifyAt_nil] at hr
    rw [hr]
    rw [Node.descend, Node.descend]
    rw [set_children_children]
    have e : child_index (str "__symbols__")
        (Node.mk (str "__local_fixups__") [] [] :: fdt.root.children)
        = (child_index (str "__symbols__") fdt.root.children).map (· + 1) := by
      rw [child_index]
      exact if_neg lf_ne_symbols
    rw [e]
    cases child_index (str "__symbols__") fdt.root.children with
    | none => rfl
    | some j =>
      simp only [Option.map_some', List.getElem?_cons_succ]

/-- Whatever `overlay_add_to_local_fixups` returns, the node `/__symbols__` of
the blob is what it was. -/
theorem add_to_local_fixups_symbols_same (fdt : Blob) (value : Bytes) :
    (overlay_add_to_local_fixups fdt value).state.root.descend [str "__symbols__"]
      = fdt.root.descend [str "__symbols__"] := by
  unfold overlay_add_to_local_fixups
  split
  · rfl
  · rename_i fdt1 lo hnode
    obtain ⟨i, hlo, hi⟩ := local_fixups_node_index fdt fdt1 lo hnode
    subst hlo
    have h1 := local_fixups_node_symbols_same fdt fdt1 _ hnode
    have h2 := add_strings_symbols_same i (cstrings value).1 fdt1 hi
    split
    · rename_i e st hs
      rw [hs] at h2
      exact h2.trans h1
    · rename_i st hs
      rw [hs] at h2
      split
      · exact h2.trans h1
      · exact h2.trans h1

theorem fixup_strings_label (B : Blob) (s0 : Offset) (label s : Bytes) (rest : List Bytes)
    (O O1 : Blob) (h : overlay_fixup_strings B (.ok s0) label (s :: rest) O = .ok O1) :
    ∃ sp, fdt_getprop B s0 label = .ok sp := by
  unfold overlay_fixup_strings at h
  split at h
  · cases h
  · rename_i st hs
    unfold overlay_fixup_string at hs
    split at hs
    · cases hs
    · split at hs
      · cases hs
      · dsimp only at hs
        split at hs
        · cases hs
        · split at hs
          · cases hs
          · split at hs
            · cases hs
            · unfold overlay_fixup_one_phandle at hs
              dsimp only at hs
              split at hs
              · cases hs
              · exact ⟨_, ‹_›⟩

theorem merge_turn_ok_strings (B O : Blob) (so : Except FdtErr Offset) (k : Nat) (off : Offset)
    (st1 : Blob × Blob) (label value : Bytes)
    (hget : fdt_getprop_by_offset O off k = .ok (label, value))
    (h : overlay_fixup_phandle B O so k off true = .ok st1) :
    (cstrings value).1 ≠ [] := by
  unfold overlay_fixup_phandle at h
  rw [hget] at h
  dsimp only at h
  split at h
  · cases h
  · rename_i hv
    split at h
    · cases h
    · split at h
      · cases h
      · rename_i h2
        exact cstrings_nonempty value hv (by
          cases hc : (cstrings value).2 with
          | nil => rfl
          | cons x xs => exact absurd (by rw [hc]; exact List.cons_ne_nil _ _) h2)

/-- The merge-mode loop keeps every property of `/__fixups__` whose label is
in no `/__symbols__` of the combined blob the stage was entered with: the
recording leaves `/__symbols__` alone, and a value resolves only through a
symbol of its label. -/
theorem merge_loop_unknown (fx : Node) (hap : fixups_apart fx = true) (j : Nat) (F0 : Blob)
    (n : Nat) :
    ∀ (property : Nat) (so : Except FdtErr Offset) (ret : Option FdtErr) (st : Blob × Blob)
      (cur : Node), merge_inv fx j so st cur → (ret = none ∨ ret = some .NOTFOUND) →
      (cur.props.drop property).length ≤ n →
      so = fdt_path_offset st.1 (str "/__symbols__") →
      st.1.root.descend [str "__symbols__"] = F0.root.descend [str "__symbols__"] →
      ∀ final, overlay_fixup_phandles_loop true [j] n property so ret st = .ok final →
      ∀ label value, (label, value) ∈ cur.props.drop property → label_unknown F0 label →
        fdt_getprop final.2 [j] label = .ok value := by
  induction n with
  | zero =>
    intro property so ret st cur _ _ hfuel _ _ final _ label value hmem _
    rw [List.length_eq_zero.mp (Nat.le_zero.mp hfuel)] at hmem
    cases hmem
  | succ n ih =>
    intro property so ret st cur hinv hret hfuel hso hsame final h label value hmem hunk
    have hlt : property < cur.props.length := by
      by_contra hge
      rw [List.drop_eq_nil_of_le (Nat.le_of_not_lt hge)] at hmem
      cases hmem
    obtain ⟨lk, vk, hk, hcases⟩ := merge_loop_step fx hap j n property so ret st cur hinv hlt
    have hdrop := drop_cons_of_get cur.props property (lk, vk) hk
    have hnd := hinv.2.2.2.1
    have hlk : lk ∉ (cur.props.drop (property + 1)).map Prod.fst :=
      nodup_not_mem_drop cur.props property (lk, vk) hk hnd
    have hgetk : fdt_getprop_by_offset st.2 [j] property = .ok (lk, vk) :=
      getprop_by_offset_of_get _ _ _ _ cur (by rw [get_child]; exact hinv.1) hk
    have hfuel1 : (cur.props.drop (property + 1)).length ≤ n := by
      rw [hdrop, List.length_cons] at hfuel
      omega
    rw [hdrop] at hmem
    rcases hcases with ⟨e1, st1, cur1, _, _, hloop, _, _⟩ |
        ⟨st1, cur1, hturn, hloop, hinv1, g2⟩ | ⟨st1, cur1, hturn, hadd, g1, g2, hrest⟩
    · rw [hloop] at h
      cases h
    · rw [hloop] at h
      have hB : st1.1 = st.1 := (merge_turn_notfound fx hap st.1 st.2 so property j cur
        hinv.1 hinv.2.1 hinv.2.2.1 st1 hturn).1
      rcases List.mem_cons.mp hmem with hhead | htail
      · injection hhead with e1 e2
        subst e1
        subst e2
        have hkeep := merge_loop_keeps fx hap j n (property + 1) so (some .NOTFOUND) st1 cur1
          hinv1 (Or.inr rfl) label (by rw [g2]; exact hlk)
        rw [h] at hkeep
        rw [show (Res.ok final).state.2 = final.2 from rfl] at hkeep
        rw [hkeep]
        exact getprop_child_some st1.2 j cur1 label value hinv1.1
          (by rw [g2]; exact prop_lookup_of_mem label value cur.props hnd
                (List.getElem?_mem hk))
      · exact ih (property + 1) so (some .NOTFOUND) st1 cur1 hinv1 (Or.inr rfl)
          (by rw [g2]; exact hfuel1) (by rw [hB]; exact hso) (by rw [hB]; exact hsame)
          final h label value (by rw [g2]; exact htail) hunk
    · have herase : cur1.props.drop property = cur.props.drop (property + 1) := by
        rw [g2]
        exact prop_erase_drop cur.props property (lk, vk) hk hnd
      have hsame1 : st1.1.root.descend [str "__symbols__"]
          = F0.root.descend [str "__symbols__"] := by
        have := add_to_local_fixups_symbols_same st.1 vk
        rw [hadd] at this
        exact this.trans hsame
      rcases List.mem_cons.mp hmem with hhead | htail
      · exfalso
        injection hhead with e1 e2
        subst e1
        subst e2
        obtain ⟨l2, v2, O1, hget2, hstrs, _, _, _, _⟩ :=
          merge_turn_ok fx hap st.1 st.2 so property j cur hinv.1 hinv.2.1 hinv.2.2.1
            hinv.2.2.2.2 st1 hturn
        rw [hgetk] at hget2
        injection hget2 with hget2
        injection hget2 with q1 q2
        subst q1
        subst q2
        have hne := merge_turn_ok_strings st.1 st.2 so property [j] st1 label value hgetk hturn
        cases hc : (cstrings value).1 with
        | nil => exact hne hc
        | cons s rest =>
          rw [hc] at hstrs
          cases so with
          | error e0 => exact fixup_strings_needs_symbols _ _ _ _ _ _ _ hstrs
          | ok s0 =>
            obtain ⟨sp, hsp⟩ := fixup_strings_label st.1 s0 label s rest st.2 O1 hstrs
            obtain ⟨nd, hnd1, hl⟩ := symbols_getprop st.1 s0 label sp hso.symm hsp
            rw [hsame] at hnd1
            obtain ⟨s2, hs2, hg2⟩ := symbols_getprop_of F0 nd label sp hnd1 hl
            rw [hunk s2 hs2] at hg2
            cases hg2
      · rcases hrest with ⟨_, s1, hloop, hinv1, hsym1⟩ | ⟨hlast, hloop⟩
        · rw [hloop] at h
          exact ih property (.ok s1) none st1 cur1 hinv1 (Or.inl rfl)
            (by rw [herase]; exact hfuel1) hsym1.symm hsame1 final h label value
            (by rw [herase]; exact htail) hunk
        · rw [List.drop_eq_nil_of_le (Nat.le_of_not_lt hlast)] at htail
          cases htail

/-- C27: `overlay_fixup_phandles` with `merge = 1` on a second overlay whose
`/__fixups__` has properties of different names and no triple leading to
`/__fixups__` itself.  The stage never returns `NOTFOUND`, and it fails only
with the error of a turn of its loop that the run reaches.  When it returns 0,
the property number `t` of `/__fixups__` was handled by turn number `t` of the
loop, in the state `merge_turn_state` computes for the run, with one of two
results.  Either all triples of its value resolved in that state: then the
property is absent from `/__fixups__` in the end, and every triple that the
recording does not skip is recorded under `/__local_fixups__` of the combined
blob in the end.  Or the resolution returned `NOTFOUND`: then the property is
in `/__fixups__` with its value in the end.  The second is the case of every
property whose label is in no `/__symbols__` of the combined blob the stage
was entered with. -/
theorem overlay_fixup_phandles_merge (fdt fdto : Blob) (off : Offset) (fx : Node)
    (hoff : fdt_path_offset fdto (str "/__fixups__") = .ok off)
    (hfx : fdto.root.get? off = some fx)
    (hnodup : (fx.props.map Prod.fst).Nodup)
    (hapart : fixups_apart fx = true) :
    (∀ e st, overlay_fixup_phandles fdt fdto true = .err e st →
      e ≠ .NOTFOUND ∧
      ∃ (t k : Nat) (so : Except FdtErr Offset) (B O : Blob),
        merge_turn_state off t (0, fdt_path_offset fdt (str "/__symbols__"), (fdt, fdto))
          = some (k, so, (B, O)) ∧
        overlay_fixup_phandle B O so k off true = .err e st) ∧
    (∀ final, overlay_fixup_phandles fdt fdto true = .ok final →
      ∀ t label value, fx.props[t]? = some (label, value) →
        fixup_result off (0, fdt_path_offset fdt (str "/__symbols__"), (fdt, fdto)) t
          label value final) ∧
    (∀ final, overlay_fixup_phandles fdt fdto true = .ok final →
      ∀ label value, (label, value) ∈ fx.props → label_unknown fdt label →
        fdt_getprop final.2 off label = .ok value) := by
  have hoff1 := hoff
  rw [path_offset_fixups] at hoff1
  unfold fdt_subnode_offset at hoff1
  rw [get_nil] at hoff1
  simp only at hoff1
  split at hoff1
  · cases hoff1
  · rename_i j hj
    injection hoff1 with hoff1
    rw [List.nil_append] at hoff1
    subst hoff1
    rw [get_child] at hfx
    obtain ⟨c, hc, hcn⟩ := child_index_some _ _ _ hj
    rw [hfx] at hc
    injection hc with hc
    subst hc
    have hnum : fdt_num_props fdto [j] = fx.props.length :=
      num_props_get _ _ fx (by rw [get_child]; exact hfx)
    have hstage : overlay_fixup_phandles fdt fdto true =
        overlay_fixup_phandles_loop true [j] fx.props.length 0
          (fdt_path_offset fdt (str "/__symbols__")) none (fdt, fdto) ∧
        merge_inv fx j (fdt_path_offset fdt (str "/__symbols__")) (fdt, fdto) fx := by
      unfold overlay_fixup_phandles
      rw [hoff]
      simp only [hnum]
      rw [path_offset_symbols]
      rcases subnode_offset_root_cases fdt (str "__symbols__") with hs | ⟨i, hs⟩
      · rw [hs]
        refine ⟨by simp, hfx, hcn, fun p hp => hp, hnodup, ?_⟩
        rintro ⟨s, hso⟩
        cases hso
      · rw [hs]
        exact ⟨rfl, hfx, hcn, fun p hp => hp, hnodup,
          fun _ => has_symbols_of_path_offset fdt [i] (by rw [path_offset_symbols]; exact hs)⟩
    obtain ⟨hst, hinv⟩ := hstage
    rw [hst]
    refine ⟨?_, ?_, ?_⟩
    · intro e st h
      exact merge_loop_failure fx hapart j _ _ 0 _ none (fdt, fdto) fx 0 hinv (Or.inl rfl) rfl
        e st h
    · intro final h t label value hmem
      have := merge_loop_result fx hapart j
        (0, fdt_path_offset fdt (str "/__symbols__"), (fdt, fdto)) _ 0 _ none (fdt, fdto) fx 0
        hinv (Or.inl rfl) (by rw [List.drop_zero]) rfl final h t label value
        (by rw [List.drop_zero]; exact hmem)
      rw [Nat.zero_add] at this
      exact this
    · intro final h label value hmem hunk
      exact merge_loop_unknown fx hapart j fdt _ 0 _ none (fdt, fdto) fx hinv (Or.inl rfl)
        (by rw [List.drop_zero]) rfl rfl final h label value
        (by rw [List.drop_zero]; exact hmem) hunk

/-- C27 (witness): the second overlay `two_fixups_second` merged after
`labelled_first`.  The label `a` is resolved in turn 0: its property is
deleted and its triple recorded in the combined blob.  The label `b` is in no
`__symbols__`: turn 1 keeps its property, and the stage returns 0. -/
theorem overlay_fixup_phandles_merge_witness :
    overlay_fixup_phandles labelled_first two_fixups_second true
        = .ok (labelled_first_recorded, two_fixups_second_merged) ∧
    fixup_result [1]
      (0, fdt_path_offset labelled_first (str "/__symbols__"), (labelled_first, two_fixups_second))
      0 (str "a") (str "/fragment@1/__overlay__:ref:0" ++ [0])
      (labelled_first_recorded, two_fixups_second_merged) ∧
    fixup_result [1]
      (0, fdt_path_offset labelled_first (str "/__symbols__"), (labelled_first, two_fixups_second))
      1 (str "b") (str "/fragment@1:target:0" ++ [0])
      (labelled_first_recorded, two_fixups_second_merged) ∧
    recorded labelled_first_recorded (str "/fragment@1/__overlay__") (str "ref") 0 ∧
    fdt_getprop two_fixups_second_merged [1] (str "a") = .error .NOTFOUND ∧
    label_unknown labelled_first (str "b") ∧
    fdt_getprop two_fixups_second_merged [1] (str "b")
      = .ok (str "/fragment@1:target:0" ++ [0]) :=
  ⟨rfl,
    (overlay_fixup_phandles_merge labelled_first two_fixups_second [1]
      (.mk (str "__fixups__") [(str "a", str "/fragment@1/__overlay__:ref:0" ++ [0]),
        (str "b", str "/fragment@1:target:0" ++ [0])] []) rfl rfl (by decide) (by decide)).2.1
      _ rfl 0 _ _ rfl,
    (overlay_fixup_phandles_merge labelled_first two_fixups_second [1]
      (.mk (str "__fixups__") [(str "a", str "/fragment@1/__overlay__:ref:0" ++ [0]),
        (str "b", str "/fragment@1:target:0" ++ [0])] []) rfl rfl (by decide) (by decide)).2.1
      _ rfl 1 _ _ rfl,
    ⟨.mk (str "__overlay__") [(str "ref", [0, 0, 0, 0])] [], [0, 0, 0, 0], by decide, rfl,
      [], [], rfl⟩,
    rfl,
    fun s hs => by
      have e : (Except.ok [1] : Except FdtErr Offset) = .ok s := hs
      injection e with e
      subst e
      rfl,
    (overlay_fixup_phandles_merge labelled_first two_fixups_second [1]
      (.mk (str "__fixups__") [(str "a", str "/fragment@1/__overlay__:ref:0" ++ [0]),
        (str "b", str "/fragment@1:target:0" ++ [0])] []) rfl rfl (by decide) (by decide)).2.2
      (labelled_first_recorded, two_fixups_second_merged) rfl (str "b") _ (by decide)
      (fun s hs => by
        have e : (Except.ok [1] : Except FdtErr Offset) = .ok s := hs
        injection e with e
        subst e
        rfl)⟩

/-! ### Mirror entries the local-reference walk rejects -/

theorem props_agree_lookup (kp : Bytes → Nat → Prop) (a : Bytes) :
    ∀ (ps qs : List (Bytes × Bytes)), List.Forall₂ (prop_agrees kp) ps qs →
    (prop_lookup a qs).map List.length = (prop_lookup a ps).map List.length
  | _, _, .nil => rfl
  | p :: ps, q :: qs, .cons h hs => by
    unfold prop_lookup
    rw [← h.1]
    split
    · simp only [Option.map_some', h.2.1]
    · exact props_agree_lookup kp a ps qs hs

theorem props_agree_lookup_some (kp : Bytes → Nat → Prop) (a v : Bytes)
    (ps qs : List (Bytes × Bytes)) (h : List.Forall₂ (prop_agrees kp) ps qs)
    (hv : prop_lookup a ps = some v) :
    ∃ w, prop_lookup a qs = some w ∧ w.length = v.length := by
  have e := props_agree_lookup kp a ps qs h
  rw [hv] at e
  cases hq : prop_lookup a qs with
  | none => rw [hq] at e; cases e
  | some w =>
    rw [hq] at e
    simp only [Option.map_some', Option.some.injEq] at e
    exact ⟨w, rfl, e⟩

theorem props_agree_lookup_back (kp : Bytes → Nat → Prop) (a w : Bytes)
    (ps qs : List (Bytes × Bytes)) (h : List.Forall₂ (prop_agrees kp) ps qs)
    (hw : prop_lookup a qs = some w) :
    ∃ v, prop_lookup a ps = some v ∧ w.length = v.length := by
  have e := props_agree_lookup kp a ps qs h
  rw [hw] at e
  cases hp : prop_lookup a ps with
  | none => rw [hp] at e; cases e
  | some v =>
    rw [hp] at e
    simp only [Option.map_some', Option.some.injEq] at e
    exact ⟨v, rfl, e⟩

/-- The inner loop of the local-reference walk, whatever it returns: the node
keeps its name, its children and its properties with their lengths, and only
bytes of the listed slots change; an error is `BADOVERLAY`; success means every
listed slot lies inside the property. -/
theorem local_cells_state (kp : Bytes → Nat → Prop) (name : Bytes) (delta : Nat) :
    ∀ (cells : List Nat) (tree : Node) (v : Bytes),
    (∀ o ∈ cells, ∀ i, o ≤ i → i < o + 4 → ¬ kp name i) →
    prop_lookup name tree.props = some v →
    ((walk_local_cells tree name delta cells).state.name = tree.name ∧
      (walk_local_cells tree name delta cells).state.children = tree.children ∧
      List.Forall₂ (prop_agrees kp) tree.props
        (walk_local_cells tree name delta cells).state.props) ∧
    (∀ e s, walk_local_cells tree name delta cells = .err e s → e = .BADOVERLAY) ∧
    (∀ t1, walk_local_cells tree name delta cells = .ok t1 →
      ∀ P ∈ cells, P + 4 ≤ v.length) := by
  intro cells
  induction cells with
  | nil =>
    intro tree v _ _
    unfold walk_local_cells
    exact ⟨⟨rfl, rfl, props_agree_refl kp _⟩, fun e s h => (by cases h),
      fun _ _ P hP => absurd hP (List.not_mem_nil _)⟩
  | cons o rest ih =>
    intro tree v hk hv
    unfold walk_local_cells
    rw [hv]
    dsimp only
    unfold Node.setprop_inplace_namelen_partial
    rw [hv]
    dsimp only
    rw [cpu_to_fdt32_length]
    by_cases hlen : v.length < 4 + o
    · rw [if_pos hlen]
      simp only [if_true]
      exact ⟨⟨rfl, rfl, props_agree_refl kp _⟩,
        fun e s h => (by injection h with h1 _; exact h1.symm),
        fun t1 h => (by cases h)⟩
    · rw [if_neg hlen]
      dsimp only
      have hb : o + (cpu_to_fdt32 ((fdt32_to_cpu (List.drop o v) + delta) % 2 ^ 32)).length
          ≤ v.length := by rw [cpu_to_fdt32_length]; omega
      have hwl := write_at_length v
        (cpu_to_fdt32 ((fdt32_to_cpu (List.drop o v) + delta) % 2 ^ 32)) o hb
      have g3 : List.Forall₂ (prop_agrees kp) tree.props
          (tree.set_props (prop_replace name (write_at v o
            (cpu_to_fdt32 ((fdt32_to_cpu (List.drop o v) + delta) % 2 ^ 32))) tree.props)).props := by
        rw [set_props_props]
        refine props_agree_replace kp name v _ _ hv hwl.symm ?_
        intro i hi
        refine write_at_getElem _ _ _ _ hb ?_
        rw [cpu_to_fdt32_length]
        intro hr
        exact hk o (List.mem_cons_self _ _) i hr.1 hr.2 hi
      have hv2 : prop_lookup name (tree.set_props (prop_replace name (write_at v o
            (cpu_to_fdt32 ((fdt32_to_cpu (List.drop o v) + delta) % 2 ^ 32))) tree.props)).props
          = some (write_at v o
            (cpu_to_fdt32 ((fdt32_to_cpu (List.drop o v) + delta) % 2 ^ 32))) := by
        rw [set_props_props]
        exact prop_lookup_replace_self name _ tree.props v hv
      obtain ⟨⟨h1, h2, h3⟩, herr, hok⟩ := ih _ _
        (fun o1 ho1 => hk o1 (List.mem_cons_of_mem _ ho1)) hv2
      refine ⟨⟨h1.trans (set_props_name _ _), h2.trans (set_props_children _ _),
        props_agree_trans kp _ _ _ g3 h3⟩, herr, ?_⟩
      intro t1 h P hP
      rcases List.mem_cons.mp hP with hP | hP
      · subst hP
        omega
      · have := hok t1 h P hP
        rw [hwl] at this
        exact this

/-- The loop over the properties of a mirror node, whatever it returns. -/
theorem local_props_state (kp : Bytes → Nat → Prop) (delta : Nat) :
    ∀ (fps : List (Bytes × Bytes)) (tree : Node),
    (∀ p ∈ fps, ∀ o ∈ fixup_cells (p.2.length / 4) p.2, ∀ i, o ≤ i → i < o + 4 → ¬ kp p.1 i) →
    ((walk_local_props tree delta fps).state.name = tree.name ∧
      (walk_local_props tree delta fps).state.children = tree.children ∧
      List.Forall₂ (prop_agrees kp) tree.props
        (walk_local_props tree delta fps).state.props) ∧
    (∀ e s, walk_local_props tree delta fps = .err e s → e = .BADOVERLAY) ∧
    (∀ t1, walk_local_props tree delta fps = .ok t1 →
      ∀ p ∈ fps, p.2.length % 4 = 0 ∧ ∃ v, prop_lookup p.1 tree.props = some v ∧
        ∀ P ∈ fixup_cells (p.2.length / 4) p.2, P + 4 ≤ v.length) := by
  intro fps
  induction fps with
  | nil =>
    intro tree _
    unfold walk_local_props
    exact ⟨⟨rfl, rfl, props_agree_refl kp _⟩, fun e s h => (by cases h),
      fun _ _ p hp => absurd hp (List.not_mem_nil _)⟩
  | cons p rest ih =>
    intro tree hk
    unfold walk_local_props
    by_cases hlen : p.2.length % 4 ≠ 0
    · rw [if_pos hlen]
      exact ⟨⟨rfl, rfl, props_agree_refl kp _⟩,
        fun e s h => (by injection h with h1 _; exact h1.symm), fun t1 h => (by cases h)⟩
    · rw [if_neg hlen]
      cases hv : prop_lookup p.1 tree.props with
      | none =>
        exact ⟨⟨rfl, rfl, props_agree_refl kp _⟩,
          fun e s h => (by injection h with h1 _; exact h1.symm), fun t1 h => (by cases h)⟩
      | some v =>
        dsimp only
        obtain ⟨⟨c1, c2, c3⟩, cerr, cok⟩ := local_cells_state kp p.1 delta
          (fixup_cells (p.2.length / 4) p.2) tree v (hk p (List.mem_cons_self _ _)) hv
        cases hc : walk_local_cells tree p.1 delta
            (fixup_cells (p.2.length / 4) p.2) with
        | err e s =>
          rw [hc] at c1 c2 c3
          exact ⟨⟨c1, c2, c3⟩,
            fun e1 s1 h => (by
              injection h with h1 _
              rw [← h1]
              exact cerr e s hc),
            fun t1 h => (by cases h)⟩
        | ok t2 =>
          rw [hc] at c1 c2 c3
          dsimp only
          obtain ⟨⟨h1, h2, h3⟩, herr, hok⟩ := ih t2
            (fun q hq => hk q (List.mem_cons_of_mem _ hq))
          refine ⟨⟨h1.trans c1, h2.trans c2, props_agree_trans kp _ _ _ c3 h3⟩, herr, ?_⟩
          intro t1 h q hq
          rcases List.mem_cons.mp hq with hq | hq
          · subst hq
            exact ⟨by omega, v, hv, cok t2 hc⟩
          · obtain ⟨g1, w, gw, g2⟩ := hok t1 h q hq
            obtain ⟨v1, gv1, gl⟩ := props_agree_lookup_back kp q.1 w _ _ c3 gw
            exact ⟨g1, v1, gv1, fun P hP => by rw [← gl]; exact g2 P hP⟩

theorem fits_list_mem : ∀ (fcs : List Node) (tree : Node), mirror_fits_list fcs tree →
    ∀ fc ∈ fcs, ∃ i tc, child_index fc.name tree.children = some i ∧
      tree.children[i]? = some tc ∧ mirror_fits fc tc
  | [], _, _, fc, h => absurd h (List.not_mem_nil _)
  | f0 :: rest, tree, hfit, fc, h => by
    unfold mirror_fits_list at hfit
    rcases List.mem_cons.mp h with h | h
    · subst h
      exact hfit.1
    · exact fits_list_mem rest tree hfit.2 fc h

mutual
theorem fits_agree (keep : List Bytes → Bytes → Nat → Prop) :
    ∀ (f : Node) (path : List Bytes) (a b : Node), Node.agree keep path a b →
    mirror_fits f b → mirror_fits f a
  | .mk fn fps fcs, path, .mk an aps acs, b, hag, h => by
    unfold Node.agree at hag
    unfold mirror_fits at h ⊢
    refine ⟨fun p hp => ?_, fits_list_agree keep fcs path _ b hag.2.2 h.2⟩
    obtain ⟨g1, w, gw, g2⟩ := h.1 p hp
    obtain ⟨v, gv, gl⟩ := props_agree_lookup_back (keep path) p.1 w _ _ hag.2.1 gw
    exact ⟨g1, v, gv, fun P hP => by rw [← gl]; exact g2 P hP⟩
theorem fits_list_agree (keep : List Bytes → Bytes → Nat → Prop) :
    ∀ (fcs : List Node) (path : List Bytes) (a b : Node),
    Node.agree_list keep path a.children b.children →
    mirror_fits_list fcs b → mirror_fits_list fcs a
  | [], _, _, _, _, _ => by
    unfold mirror_fits_list
    trivial
  | fc :: rest, path, a, b, hag, h => by
    unfold mirror_fits_list at h ⊢
    obtain ⟨⟨i, tc, h1, h2, h3⟩, h4⟩ := h
    obtain ⟨ac, hac, hagc⟩ := agree_list_get keep path a.children b.children i tc hag h2
    refine ⟨⟨i, ac, ?_, hac, fits_agree keep fc _ ac tc hagc h3⟩,
      fits_list_agree keep rest path a b hag h4⟩
    rw [agree_list_child_index keep fc.name path a.children b.children hag]
    exact h1
end

mutual
/-- The local-reference walk, whatever it returns: the tree keeps its nodes,
names, property names and lengths, and only bytes of slots the mirror names
change; an error is `BADOVERLAY`; success means that the mirror fits the tree. -/
theorem local_refs_state (keep : List Bytes → Bytes → Nat → Prop) (delta : Nat) :
    ∀ (fixup : Node) (path : List Bytes) (tree : Node),
    (∀ s ∈ local_fixup_slots fixup path, ∀ i, s.2.2 ≤ i → i < s.2.2 + 4 → ¬ keep s.1 s.2.1 i) →
    Node.agree keep path tree (walk_local_node delta fixup tree).state ∧
    (∀ e s, walk_local_node delta fixup tree = .err e s →
      e = .BADOVERLAY) ∧
    (∀ t1, walk_local_node delta fixup tree = .ok t1 →
      mirror_fits fixup tree)
  | .mk fnm fps fcs, path, tree, hk => by
    unfold local_fixup_slots at hk
    have hp : ∀ p ∈ fps, ∀ o ∈ fixup_cells (p.2.length / 4) p.2, ∀ i, o ≤ i → i < o + 4 →
        ¬ keep path p.1 i := by
      intro p hp o ho i h1 h2
      refine hk (path, p.1, o) ?_ i h1 h2
      refine List.mem_append_left _ (List.mem_flatten.mpr ⟨_, List.mem_map.mpr ⟨p, hp, rfl⟩, ?_⟩)
      exact List.mem_map.mpr ⟨o, ho, rfl⟩
    obtain ⟨⟨g1, g2, g3⟩, gerr, gok⟩ := local_props_state (keep path) delta fps tree hp
    unfold walk_local_node
    cases hprops : walk_local_props tree delta fps with
    | err e s =>
      rw [hprops] at g1 g2 g3
      exact ⟨agree_of_parts keep path tree s g1 g2 g3,
        fun e1 s1 h => (by
          injection h with h1 _
          rw [← h1]
          exact gerr e s hprops),
        fun t1 h => (by cases h)⟩
    | ok t2 =>
      rw [hprops] at g1 g2 g3
      dsimp only
      have hag2 := agree_of_parts keep path tree t2 g1 g2 g3
      obtain ⟨s1, s2, s3⟩ := local_subnodes_state keep delta fcs path t2
        (fun s hs => hk s (List.mem_append_right _ hs))
      refine ⟨agree_trans keep path tree t2 _ hag2 s1, s2, ?_⟩
      intro t1 h
      unfold mirror_fits
      refine ⟨gok t2 hprops, ?_⟩
      refine fits_list_agree keep fcs path tree t2 ?_ (s3 t1 h)
      have g2a : t2.children = tree.children := g2
      rw [g2a]
      exact agree_list_refl keep path _
/-- The same for the loop over the children of the mirror. -/
theorem local_subnodes_state (keep : List Bytes → Bytes → Nat → Prop) (delta : Nat) :
    ∀ (fcs : List Node) (path : List Bytes) (tree : Node),
    (∀ s ∈ local_fixup_slots_list fcs path, ∀ i, s.2.2 ≤ i → i < s.2.2 + 4 →
      ¬ keep s.1 s.2.1 i) →
    Node.agree keep path tree (walk_local_subnodes delta fcs tree).state ∧
    (∀ e s, walk_local_subnodes delta fcs tree = .err e s → e = .BADOVERLAY) ∧
    (∀ t1, walk_local_subnodes delta fcs tree = .ok t1 → mirror_fits_list fcs tree)
  | [], path, tree, _ => by
    unfold walk_local_subnodes
    refine ⟨agree_refl keep path _, fun e s h => (by cases h), fun t1 _ => ?_⟩
    unfold mirror_fits_list
    trivial
  | fc :: rest, path, tree, hk => by
    unfold local_fixup_slots_list at hk
    unfold walk_local_subnodes
    cases hci : child_index fc.name tree.children with
    | none =>
      exact ⟨agree_refl keep path _,
        fun e s h => (by injection h with h1 _; exact h1.symm), fun t1 h => (by cases h)⟩
    | some i =>
      dsimp only
      obtain ⟨tc, htc, hcn⟩ := child_index_some _ _ _ hci
      rw [htc]
      dsimp only
      obtain ⟨r1, r2, r3⟩ := local_refs_state keep delta fc (path ++ [fc.name]) tc
        (fun x hx => hk x (List.mem_append_left _ hx))
      have hstep : ∀ s, Node.agree keep (path ++ [fc.name]) tc s →
          Node.agree keep path tree (tree.set_children (tree.children.set i s)) := by
        intro s hs
        refine agree_set_children keep path tree _ ?_
        refine agree_list_set keep path _ i tc s htc ?_
        rw [hcn]
        exact hs
      cases hrec : walk_local_node delta fc tc with
      | err e s =>
        rw [hrec] at r1
        exact ⟨hstep s r1,
          fun e1 s1 h => (by
            injection h with h1 _
            rw [← h1]
            exact r2 e s hrec),
          fun t1 h => (by cases h)⟩
      | ok s =>
        rw [hrec] at r1
        dsimp only
        obtain ⟨q1, q2, q3⟩ := local_subnodes_state keep delta rest path
          (tree.set_children (tree.children.set i s))
          (fun x hx => hk x (List.mem_append_right _ hx))
        refine ⟨agree_trans keep path tree _ _ (hstep s r1) q1, q2, ?_⟩
        intro t1 h
        unfold mirror_fits_list
        refine ⟨⟨i, tc, hci, htc, r3 s hrec⟩, ?_⟩
        have hag := hstep s r1
        cases htree : tree with
        | mk tn tps tcs =>
          rw [htree] at hag
          unfold Node.agree at hag
          have := fits_list_agree keep rest path (Node.mk tn tps tcs) _ hag.2.2
            (by rw [← htree]; exact q3 t1 h)
          exact this
end

theorem fits_descend : ∀ (path : List Bytes) (fixup tree fnode : Node),
    mirror_fits fixup tree → fixup.descend path = some fnode →
    ∃ tnode, tree.descend path = some tnode ∧ mirror_fits fnode tnode
  | [], fixup, tree, fnode, hfit, hf => by
    simp only [Node.descend, Option.some.injEq] at hf
    subst hf
    exact ⟨tree, rfl, hfit⟩
  | nm :: rest, .mk fn fps fcs, tree, fnode, hfit, hf => by
    unfold Node.descend at hf
    simp only [Node.children] at hf
    split at hf
    · cases hf
    · rename_i j hj
      split at hf
      · cases hf
      · rename_i fc hfc
        obtain ⟨c, hc, hcn⟩ := child_index_some _ _ _ hj
        rw [hfc] at hc
        injection hc with hc
        subst hc
        unfold mirror_fits at hfit
        obtain ⟨i, tc, h1, h2, h3⟩ := fits_list_mem fcs tree hfit.2 fc (List.getElem?_mem hfc)
        obtain ⟨tnode, ht, hfits⟩ := fits_descend rest fc tc fnode h3 hf
        refine ⟨tnode, ?_, hfits⟩
        unfold Node.descend
        rw [← hcn, h1]
        simp only [h2]
        exact ht

theorem local_refs_not_fit (delta : Nat) (fixup tree : Node)
    (h : ¬ mirror_fits fixup tree) :
    ∃ s, walk_local_node delta fixup tree = .err .BADOVERLAY s := by
  obtain ⟨_, herr, hok⟩ := local_refs_state (fun _ _ _ => False) delta fixup [] tree
    (fun _ _ _ _ _ hf => hf)
  cases hr : walk_local_node delta fixup tree with
  | ok t1 => exact absurd (hok t1 hr) h
  | err e s =>
    rw [herr e s hr]
    exact ⟨s, rfl⟩

/-- The inner loop returns what `walk_local_cells` computes when every listed
offset leaves four bytes inside the property. -/
theorem local_cells_inside (name : Bytes) (delta : Nat) :
    ∀ (cells : List Nat) (tree : Node) (v : Bytes),
    prop_lookup name tree.props = some v → (∀ P ∈ cells, P + 4 ≤ v.length) →
    overlay_update_local_cells tree name delta cells
      = some (walk_local_cells tree name delta cells) := by
  intro cells
  induction cells with
  | nil =>
    intro tree v _ _
    unfold overlay_update_local_cells walk_local_cells
    rfl
  | cons P rest ih =>
    intro tree v hv hin
    have hP := hin P (List.mem_cons_self _ _)
    unfold overlay_update_local_cells walk_local_cells
    rw [hv]
    dsimp only
    rw [if_neg (by omega)]
    unfold Node.setprop_inplace_namelen_partial
    rw [hv]
    dsimp only
    rw [cpu_to_fdt32_length, if_neg (by omega)]
    dsimp only
    have hb : P + (cpu_to_fdt32 ((fdt32_to_cpu (List.drop P v) + delta) % 2 ^ 32)).length
        ≤ v.length := by rw [cpu_to_fdt32_length]; omega
    have hwl := write_at_length v
      (cpu_to_fdt32 ((fdt32_to_cpu (List.drop P v) + delta) % 2 ^ 32)) P hb
    refine ih _ (write_at v P
      (cpu_to_fdt32 ((fdt32_to_cpu (List.drop P v) + delta) % 2 ^ 32))) ?_ ?_
    · rw [set_props_props]
      exact prop_lookup_replace_self name _ tree.props v hv
    · intro Q hQ
      rw [hwl]
      exact hin Q (List.mem_cons_of_mem _ hQ)

/-- The loop over the properties of a mirror node returns what
`walk_local_props` computes when every read stays inside its property. -/
theorem local_props_inside (delta : Nat) :
    ∀ (fps : List (Bytes × Bytes)) (tree : Node),
    (∀ p ∈ fps, ∀ v, prop_lookup p.1 tree.props = some v →
      ∀ P ∈ fixup_cells (p.2.length / 4) p.2, P + 4 ≤ v.length) →
    overlay_update_local_props tree delta fps = some (walk_local_props tree delta fps) := by
  intro fps
  induction fps with
  | nil =>
    intro tree _
    unfold overlay_update_local_props walk_local_props
    rfl
  | cons p rest ih =>
    intro tree hin
    unfold overlay_update_local_props walk_local_props
    by_cases hlen : p.2.length % 4 ≠ 0
    · rw [if_pos hlen, if_pos hlen]
    · rw [if_neg hlen, if_neg hlen]
      cases hv : prop_lookup p.1 tree.props with
      | none => rfl
      | some v =>
        dsimp only
        rw [local_cells_inside p.1 delta _ tree v hv (hin p (List.mem_cons_self _ _) v hv)]
        obtain ⟨⟨_, _, c3⟩, _, _⟩ := local_cells_state (fun _ _ => False) p.1 delta
          (fixup_cells (p.2.length / 4) p.2) tree v (fun _ _ _ _ _ hf => hf) hv
        cases hc : walk_local_cells tree p.1 delta (fixup_cells (p.2.length / 4) p.2) with
        | err e s => rfl
        | ok t1 =>
          rw [hc] at c3
          dsimp only
          refine ih t1 ?_
          intro q hq w hw P hP
          obtain ⟨v1, hv1, hl⟩ := props_agree_lookup_back _ q.1 w _ _ c3 hw
          rw [hl]
          exact hin q (List.mem_cons_of_mem _ hq) v1 hv1 P hP

mutual
theorem reads_inside_agree (keep : List Bytes → Bytes → Nat → Prop) :
    ∀ (f : Node) (path : List Bytes) (a b : Node), Node.agree keep path a b →
    reads_inside f a → reads_inside f b
  | .mk fn fps fcs, path, .mk an aps acs, b, hag, h => by
    unfold Node.agree at hag
    unfold reads_inside at h ⊢
    refine ⟨fun p hp w hw P hP => ?_, reads_inside_list_agree keep fcs path (.mk an aps acs) b hag.2.2 h.2⟩
    obtain ⟨v, hv, hl⟩ := props_agree_lookup_back (keep path) p.1 w _ _ hag.2.1 hw
    rw [hl]
    exact h.1 p hp v hv P hP
theorem reads_inside_list_agree (keep : List Bytes → Bytes → Nat → Prop) :
    ∀ (fcs : List Node) (path : List Bytes) (a b : Node),
    Node.agree_list keep path a.children b.children →
    reads_inside_list fcs a → reads_inside_list fcs b
  | [], _, _, _, _, _ => by
    unfold reads_inside_list
    trivial
  | fc :: rest, path, a, b, hag, h => by
    unfold reads_inside_list at h ⊢
    refine ⟨fun i bc hi hbc => ?_, reads_inside_list_agree keep rest path a b hag h.2⟩
    obtain ⟨ac, hac, hagc⟩ := agree_list_get keep path a.children b.children i bc hag hbc
    rw [← agree_list_child_index keep fc.name path a.children b.children hag] at hi
    exact reads_inside_agree keep fc _ ac bc hagc (h.1 i ac hi hac)
end

mutual
/-- The walk returns what `walk_local_node` computes when every read stays
inside its property. -/
theorem local_node_inside (delta : Nat) :
    ∀ (fixup tree : Node), reads_inside fixup tree →
    overlay_update_local_node_references delta fixup tree
      = some (walk_local_node delta fixup tree)
  | .mk fnm fps fcs, tree, hin => by
    unfold reads_inside at hin
    unfold overlay_update_local_node_references walk_local_node
    rw [local_props_inside delta fps tree hin.1]
    obtain ⟨⟨g1, g2, g3⟩, _, _⟩ := local_props_state (fun _ _ => False) delta fps tree
      (fun _ _ _ _ _ _ _ hf => hf)
    cases hp : walk_local_props tree delta fps with
    | err e s => rfl
    | ok t1 =>
      rw [hp] at g1 g2 g3
      dsimp only
      refine local_subnodes_inside delta fcs t1 ?_
      cases htree : tree with
      | mk tn tps tcs =>
        have hag := agree_of_parts (fun _ _ _ => False) [] tree t1 g1 g2 g3
        rw [htree] at hag hin
        unfold Node.agree at hag
        exact reads_inside_list_agree (fun _ _ _ => False) fcs [] (.mk tn tps tcs) t1
          hag.2.2 hin.2
/-- The same for the loop over the children of the mirror. -/
theorem local_subnodes_inside (delta : Nat) :
    ∀ (fcs : List Node) (tree : Node), reads_inside_list fcs tree →
    overlay_update_local_subnodes delta fcs tree
      = some (walk_local_subnodes delta fcs tree)
  | [], tree, _ => by
    unfold overlay_update_local_subnodes walk_local_subnodes
    rfl
  | fc :: rest, tree, hin => by
    unfold reads_inside_list at hin
    unfold overlay_update_local_subnodes walk_local_subnodes
    cases hci : child_index fc.name tree.children with
    | none => rfl
    | some i =>
      dsimp only
      cases htc : tree.children[i]? with
      | none => rfl
      | some tc =>
        dsimp only
        rw [local_node_inside delta fc tc (hin.1 i tc hci htc)]
        obtain ⟨tc0, htc0, hcn⟩ := child_index_some _ _ _ hci
        rw [htc] at htc0
        injection htc0 with htc0
        subst htc0
        obtain ⟨r1, _, _⟩ := local_refs_state (fun _ _ _ => False) delta fc ([] ++ [fc.name]) tc
          (fun _ _ _ _ _ hf => hf)
        have hstep : ∀ s, Node.agree (fun _ _ _ => False) ([] ++ [fc.name]) tc s →
            Node.agree (fun _ _ _ => False) [] tree
              (tree.set_children (tree.children.set i s)) := by
          intro s hs
          refine agree_set_children _ [] tree _ ?_
          refine agree_list_set _ [] _ i tc s htc ?_
          rw [hcn]
          exact hs
        cases hrec : walk_local_node delta fc tc with
        | err e s => rfl
        | ok s =>
          rw [hrec] at r1
          dsimp only
          refine local_subnodes_inside delta rest _ ?_
          have hag := hstep s r1
          cases htree : tree with
          | mk tn tps tcs =>
            rw [htree] at hag hin
            unfold Node.agree at hag
            exact reads_inside_list_agree (fun _ _ _ => False) rest [] (.mk tn tps tcs) _
              hag.2.2 hin.2
end

/-- The walk rejects a mirror that does not fit the tree: where every offset
listed for a property the tree has leaves four bytes inside it, a mirror
property without a property of that name on the tree node, and a mirror
subnode without a subnode of that name under the tree node, give
`BADOVERLAY`. -/
theorem local_refs_unmatched (delta : Nat) (fixup tree : Node)
    (path : List Bytes) (fnode tnode : Node) (hin : reads_inside fixup tree)
    (hf : fixup.descend path = some fnode) (ht : tree.descend path = some tnode)
    (hbad : (∃ p ∈ fnode.props, prop_lookup p.1 tnode.props = none) ∨
      (∃ c ∈ fnode.children, child_index c.name tnode.children = none)) :
    ∃ s, overlay_update_local_node_references delta fixup tree
      = some (.err .BADOVERLAY s) := by
  rw [local_node_inside delta fixup tree hin]
  obtain ⟨s, hs⟩ := local_refs_not_fit delta fixup tree (fun hfit => by
    obtain ⟨tnode1, ht1, hfits⟩ := fits_descend path fixup tree fnode hfit hf
    rw [ht] at ht1
    injection ht1 with ht1
    subst ht1
    cases fnode with
    | mk fn fps fcs =>
      unfold mirror_fits at hfits
      rcases hbad with ⟨p, hp, hnone⟩ | ⟨c, hc, hnone⟩
      · obtain ⟨_, v, hv, _⟩ := hfits.1 p hp
        rw [hnone] at hv
        cases hv
      · obtain ⟨i, tc, h1, _, _⟩ := fits_list_mem fcs tnode hfits.2 c hc
        rw [hnone] at h1
        cases h1)
  exact ⟨s, by rw [hs]⟩

/-- The walk rejects a mirror property whose length is not a multiple of 4,
where every offset listed for a property the tree has leaves four bytes inside
it; the tree it leaves differs from the one it found only in bytes of slots
the mirror lists. -/
theorem local_refs_bad_length (delta : Nat) (fixup tree : Node)
    (path : List Bytes) (fnode tnode : Node) (name fval : Bytes)
    (hin : reads_inside fixup tree)
    (hf : fixup.descend path = some fnode) (ht : tree.descend path = some tnode)
    (hp : (name, fval) ∈ fnode.props) (hbad : fval.length % 4 ≠ 0) :
    ∃ s, overlay_update_local_node_references delta fixup tree
        = some (.err .BADOVERLAY s) ∧
      Node.agree (outside_slots (local_fixup_slots fixup [])) [] tree s := by
  rw [local_node_inside delta fixup tree hin]
  have hfr := (local_refs_state (outside_slots (local_fixup_slots fixup [])) delta fixup []
    tree (fun s hs i h1 h2 hkeep => hkeep s.2.2 hs ⟨h1, h2⟩)).1
  obtain ⟨s, hs⟩ := local_refs_not_fit delta fixup tree (fun hfit => by
    obtain ⟨tnode1, ht1, hfits⟩ := fits_descend path fixup tree fnode hfit hf
    rw [ht] at ht1
    injection ht1 with ht1
    subst ht1
    cases fnode with
    | mk fn fps fcs =>
      unfold mirror_fits at hfits
      exact hbad (hfits.1 (name, fval) hp).1)
  rw [hs] at hfr
  exact ⟨s, by rw [hs], hfr⟩

/-- C38: the failing input.  The mirror of `outside_refs_overlay` lists the
offset `0xfffffffc` for a property of four bytes.  Line 252 copies four bytes
from `tree_val + 0xfffffffc` before the range check of the write at line 256
is reached: the walk leaves the property, and with it `fdt_overlay_apply`,
instead of returning `BADOVERLAY`. -/
theorem local_references_read_outside :
    overlay_update_local_references outside_refs_overlay 5 = none ∧
    fdt_overlay_apply 1 e1_base outside_refs_overlay = none :=
  ⟨rfl, rfl⟩

/-- C31: the failing input.  The mirror of `outside_then_unmatched_overlay`
has the property `gone`, which the node `user` does not have, behind a
property that lists the offset `0xfffffffc`: the copy of line 252 leaves the
property `ref` before the loop comes to `gone`, so that the walk does not
return `BADOVERLAY`. -/
theorem local_references_unmatched_unreached :
    prop_lookup (str "gone") [(str "ref", [0, 0, 0, 1])] = none ∧
    overlay_update_local_references outside_then_unmatched_overlay 5 = none ∧
    fdt_overlay_apply 1 e1_base outside_then_unmatched_overlay = none :=
  ⟨rfl, rfl, rfl⟩

/-! ### The delta of the renaming and the renaming of the nodes -/

theorem names_of_sig (as bs : List Node) (h : bs.map Node.sig = as.map Node.sig) :
    bs.map Node.name = as.map Node.name := by
  have e : ∀ l : List Node, l.map Node.name = (l.map Node.sig).map Prod.fst := by
    intro l
    rw [List.map_map]
    rfl
  rw [e bs, e as, h]

theorem names_of_differs_below (j : Nat) (a b : Node) (h : differs_below j a b) :
    b.children.map Node.name = a.children.map Node.name := by
  apply List.ext_getElem?
  intro k
  rw [List.getElem?_map, List.getElem?_map]
  by_cases hk : k = j
  · subst hk
    exact h.2
  · rw [h.1 k hk]

theorem local_rename_names (B3 : Blob) (lo : Offset) (m : Nat)
    (hlo : fdt_path_offset B3 (str "/__local_fixups__") = .ok lo) :
    (rename_nodes B3 lo m).state.root.children.map Node.name
      = B3.root.children.map Node.name := by
  rw [path_offset_local_fixups] at hlo
  rcases subnode_offset_root_cases B3 (str "__local_fixups__") with hc | ⟨j, hc⟩
  · rw [hc] at hlo
    cases hlo
  · rw [hc] at hlo
    injection hlo with hlo
    subst hlo
    exact names_of_differs_below j _ _ (rename_nodes_below j m B3)

/-- The names of the root children after `overlay_rename_fragments`: the later
steps of the function leave them as `rename_nodes` made them. -/
theorem rename_fragments_root_names (fdt fdto fdto1 : Blob) (max : Nat) (hmax : max < ULONG_MAX)
    (hcount : count_fragments fdt = .ok max)
    (h : overlay_rename_fragments fdt fdto = .ok fdto1) :
    fdto1.root.children.map Node.name
      = fdto.root.children.map (fun n => (renamed_node (max + 1) n).name) ∧
    (∀ nd ∈ fdto.root.children, counted_fragment nd = true →
      fragment_index nd + (max + 1) ≤ ULONG_MAX) := by
  have hm : (max + 1) % 2 ^ 64 = max + 1 := by
    apply Nat.mod_eq_of_lt
    unfold ULONG_MAX at hmax
    omega
  have hdelta : max + 1 ≤ ULONG_MAX := by omega
  unfold overlay_rename_fragments at h
  rw [hcount] at h
  simp only [hm] at h
  cases h1 : rename_nodes fdto [] (max + 1) with
  | err e s => rw [h1] at h; cases h
  | ok B1 =>
    rw [h1] at h
    simp only at h
    obtain ⟨hren, hbound⟩ := rename_nodes_root fdto B1 (max + 1) hdelta h1
    refine ⟨?_, hbound⟩
    have hB1 : B1.root.children.map Node.name
        = fdto.root.children.map (fun n => (renamed_node (max + 1) n).name) := by
      apply List.ext_getElem?
      intro k
      rw [List.getElem?_map, List.getElem?_map, hren k]
      cases fdto.root.children[k]? <;> rfl
    rw [← hB1]
    cases h2 : rename_fragments_in_node B1 (str "/__fixups__") (max + 1) with
    | err e s => rw [h2] at h; cases h
    | ok B2 =>
      rw [h2] at h
      simp only at h
      obtain ⟨o2, f2⟩ := rename_in_node_frame B1 (str "/__fixups__") (max + 1)
      rw [h2] at f2
      obtain ⟨o3, f3⟩ := rename_in_node_frame B2 (str "/__symbols__") (max + 1)
      have hn3 : (rename_fragments_in_node B2 (str "/__symbols__")
          (max + 1)).state.root.children.map Node.name = B1.root.children.map Node.name :=
        names_of_sig _ _ ((only_props_root_sig _ _ _ f3).trans (only_props_root_sig _ _ _ f2))
      cases h3 : rename_fragments_in_node B2 (str "/__symbols__") (max + 1) with
      | err e s =>
        rw [h3] at h hn3
        simp only at h
        split at h
        · cases h
        · cases hlo : fdt_path_offset s (str "/__local_fixups__") with
          | error e1 =>
            rw [hlo] at h
            simp only at h
            injection h with h
            subst h
            exact hn3
          | ok lo =>
            rw [hlo] at h
            simp only at h
            have hl := local_rename_names s lo (max + 1) hlo
            cases hrn : rename_nodes s lo (max + 1) with
            | err e1 s1 =>
              rw [hrn] at h hl
              simp only at h
              split at h
              · injection h with h
                subst h
                exact hl.trans hn3
              · cases h
            | ok s1 =>
              rw [hrn] at h hl
              simp only at h
              injection h with h
              subst h
              exact hl.trans hn3
      | ok B3 =>
        rw [h3] at h hn3
        simp only at h
        cases hlo : fdt_path_offset B3 (str "/__local_fixups__") with
        | error e1 =>
          rw [hlo] at h
          simp only at h
          injection h with h
          subst h
          exact hn3
        | ok lo =>
          rw [hlo] at h
          simp only at h
          have hl := local_rename_names B3 lo (max + 1) hlo
          cases hrn : rename_nodes B3 lo (max + 1) with
          | err e1 s1 =>
            rw [hrn] at h hl
            simp only at h
            split at h
            · injection h with h
              subst h
              exact hl.trans hn3
            · cases h
          | ok s1 =>
            rw [hrn] at h hl
            simp only at h
            injection h with h
            subst h
            exact hl.trans hn3

theorem count_fragments_loop_none : ∀ (cs : List Node) (max : Nat) (found : Bool),
    (∀ a ∈ cs, strncmp_eq a.name (str "fragment@") 9 = true → a.children ≠ []) →
    (∀ a ∈ cs, counted_fragment a = false) →
    count_fragments_loop cs max found = .ok (max, found)
  | [], max, found, _, _ => rfl
  | node :: rest, max, found, hchild, hno => by
    have ih := count_fragments_loop_none rest max found
      (fun a ha => hchild a (List.mem_cons_of_mem _ ha))
      (fun a ha => hno a (List.mem_cons_of_mem _ ha))
    have hn := hno node (List.mem_cons_self _ _)
    have hiff := (counted_fragment_iff node).not
    rw [hn] at hiff
    simp only [Bool.false_eq_true, not_false_eq_true, true_iff] at hiff
    unfold count_fragments_loop
    split
    · exact ih
    · rename_i hname
      split
      · rename_i hnil
        exfalso
        refine hchild node (List.mem_cons_self _ _) ?_ hnil
        simp only [not_or, not_not] at hname
        exact hname.2
      · rename_i child more hch
        split
        · exact ih
        · rename_i hov
          exact absurd ⟨hname, child, more, hch, hov⟩ hiff

/-- C33 (failing input): the first overlay `mixed_first` has the fragments
0 and 5, both with an `__overlay__` child, which is the second child of
`fragment@5`.  `count_fragments`, which looks at the first subnode only (line
1391), returns the maximum 0, not 5, and the fragment of the second overlay is
renamed with the delta 1, not 6. -/
theorem rename_delta_skips_fragment :
    count_fragments mixed_first = .ok 0 ∧
    overlay_rename_fragments mixed_first path_second = .ok path_second_renamed ∧
    ∃ a ∈ mixed_first.root.children, a.name = str "fragment@5" ∧
      child_index (str "__overlay__") a.children = some 1 :=
  ⟨rfl, by decide,
    ⟨.mk (str "fragment@5") [(str "target-path", str "/" ++ [0])] [
      .mk (str "extra") [] [], .mk (str "__overlay__") [(str "r", [3])] []],
      by simp [mixed_first, mk_blob, Node.children], rfl, rfl⟩⟩

/-- Take for a fragment a root child whose name begins with
`fragment@` and whose first child's name begins with `__overlay__`, and for
its index what `strtoul` reads after the `@`.  For a first overlay without a
childless root child named `fragment@...`: when it has no fragment,
`overlay_rename_fragments` returns 0 and leaves the second overlay as it is;
when it has one, `count_fragments` returns the largest index `max` of its
fragments, and if `max` is below `ULONG_MAX` a successful call has given every
root child of the second overlay the name `rename_nodes` gives it for the
delta `max + 1` (a fragment `fragment@k` becomes `fragment@<k + max + 1>`, any
other child keeps its name), no index overflowing. -/
theorem overlay_rename_fragments_delta (fdt fdto : Blob)
    (hchild : ∀ a ∈ fdt.root.children,
      strncmp_eq a.name (str "fragment@") 9 = true → a.children ≠ []) :
    ((∀ a ∈ fdt.root.children, counted_fragment a = false) →
      count_fragments fdt = .error .NOTFOUND ∧ overlay_rename_fragments fdt fdto = .ok fdto) ∧
    ((∃ a ∈ fdt.root.children, counted_fragment a = true) →
      ∃ max, count_fragments fdt = .ok max ∧
        (∃ a ∈ fdt.root.children, counted_fragment a = true ∧ fragment_index a = max) ∧
        (∀ a ∈ fdt.root.children, counted_fragment a = true → fragment_index a ≤ max) ∧
        (max < ULONG_MAX → ∀ fdto1, overlay_rename_fragments fdt fdto = .ok fdto1 →
          fdto1.root.children.map Node.name
            = fdto.root.children.map (fun n => (renamed_node (max + 1) n).name) ∧
          ∀ nd ∈ fdto.root.children, counted_fragment nd = true →
            fragment_index nd + (max + 1) ≤ ULONG_MAX)) := by
  obtain ⟨r, hloop, _, hle, hnone, hmaxr⟩ :=
    count_fragments_loop_spec fdt.root.children 0 false hchild
  constructor
  · intro hno
    have hcf : count_fragments fdt = .error .NOTFOUND := by
      unfold count_fragments
      rw [count_fragments_loop_none fdt.root.children 0 false hchild hno]
      simp
    refine ⟨hcf, ?_⟩
    unfold overlay_rename_fragments
    rw [hcf]
    simp
  · rintro ⟨a, ha, hca⟩
    have hfound : r.2 = true := by
      cases hr2 : r.2 with
      | true => rfl
      | false =>
        rw [hnone hr2 a ha] at hca
        cases hca
    have hcf : count_fragments fdt = .ok r.1 := by
      unfold count_fragments
      rw [hloop]
      simp [hfound]
    refine ⟨r.1, hcf, ?_, hle, ?_⟩
    · rcases hmaxr with h0 | h1
      · exact ⟨a, ha, hca, by have := hle a ha hca; omega⟩
      · obtain ⟨a1, g1, g2, g3⟩ := h1
        exact ⟨a1, g1, g2, g3.symm⟩
    · intro hmax fdto1 h
      exact rename_fragments_root_names fdt fdto fdto1 r.1 hmax hcf h

theorem modifyAt_child_root (f : Node → Node) (i : Nat) (rest : Offset) (root : Node) :
    (root.modifyAt f (i :: rest)).name = root.name ∧
    (root.modifyAt f (i :: rest)).props = root.props := by
  cases root with
  | mk nm ps cs =>
    unfold Node.modifyAt
    split <;> exact ⟨rfl, rfl⟩

theorem rename_nodes_loop_top (delta : Nat) : ∀ (n i : Nat) (F : Blob),
    (rename_nodes_loop [] delta n i F).state.root.name = F.root.name ∧
    (rename_nodes_loop [] delta n i F).state.root.props = F.root.props
  | 0, i, F => ⟨rfl, rfl⟩
  | n + 1, i, F => by
    unfold rename_nodes_loop
    have hstep : (rename_node F ([] ++ [i]) delta).state.root.name = F.root.name ∧
        (rename_node F ([] ++ [i]) delta).state.root.props = F.root.props := by
      rcases rename_node_frame F ([] ++ [i]) delta with h | ⟨nm, h⟩
      · rw [h]
        exact ⟨rfl, rfl⟩
      · rw [h]
        exact modifyAt_child_root _ i [] F.root
    split
    · rename_i e s hs
      rw [hs] at hstep
      exact hstep
    · rename_i F1 hs
      rw [hs] at hstep
      obtain ⟨h1, h2⟩ := rename_nodes_loop_top delta n (i + 1) F1
      exact ⟨h1.trans hstep.1, h2.trans hstep.2⟩

theorem rename_nodes_loop_append (parent : Offset) (delta : Nat) :
    ∀ (a b i : Nat) (F F1 : Blob), rename_nodes_loop parent delta a i F = .ok F1 →
    rename_nodes_loop parent delta (a + b) i F = rename_nodes_loop parent delta b (i + a) F1
  | 0, b, i, F, F1, h => by
    simp only [rename_nodes_loop] at h
    injection h with h
    subst h
    rw [Nat.zero_add, Nat.add_zero]
  | a + 1, b, i, F, F1, h => by
    have e : a + 1 + b = (a + b) + 1 := by omega
    rw [e, rename_nodes_loop]
    unfold rename_nodes_loop at h
    split at h
    · cases h
    · rename_i F2 hs
      rw [rename_nodes_loop_append parent delta a b (i + 1) F2 F1 h]
      have e2 : i + 1 + a = i + (a + 1) := by omega
      rw [e2]

theorem rename_node_overflow (F : Blob) (j delta : Nat) (nd : Node)
    (hdelta : delta ≤ ULONG_MAX) (hget : F.root.children[j]? = some nd)
    (hc : counted_fragment nd = true) (hov : ULONG_MAX < fragment_index nd + delta) :
    rename_node F [j] delta = .err .BADVALUE F := by
  obtain ⟨hname, c, cs, hch, hovl⟩ := (counted_fragment_iff nd).mp hc
  unfold rename_node
  rw [get_child, hget]
  dsimp only
  rw [if_neg hname, hch]
  dsimp only
  simp only [not_or, not_lt, not_not] at hovl
  rw [if_pos ⟨hovl.1, hovl.2⟩]
  unfold fragment_index at hov
  rw [if_pos (by omega)]

/-- C34 (as stated, refuted): the root child `fragment@3` of
`plain_fragment_second` has no `__overlay__` subnode; `rename_nodes` with the
delta 2 returns 0 and leaves it `fragment@3`. -/
theorem rename_nodes_skips_named_child :
    rename_nodes plain_fragment_second [] 2 = .ok plain_fragment_second ∧
    ∃ a ∈ plain_fragment_second.root.children, a.name = str "fragment@3" :=
  ⟨by decide, ⟨.mk (str "fragment@3") [] [.mk (str "foo") [] []],
    by simp [plain_fragment_second, mk_blob, Node.children], rfl⟩⟩

/-- Take for a fragment a root child whose name begins with
`fragment@` and whose first child's name begins with `__overlay__`, and for
its index `k` what `strtoul` reads after the `@`.  For a delta `M` that fits an
`unsigned long`: when `rename_nodes` on the root returns 0, every fragment has
got the name `fragment@<k + M>` (decimal) with `k + M` not overflowing, and
every other root child, everything below the root children, and the name and
the properties of the root are as they were; when the loop has passed the
first `j` root children and child `j` is a fragment with `k + M` beyond
`ULONG_MAX`, `rename_nodes` returns `BADVALUE`. -/
theorem rename_nodes_counted (F : Blob) (M : Nat) (hM : M ≤ ULONG_MAX) :
    (∀ F1, rename_nodes F [] M = .ok F1 →
      (∀ k : Nat, F1.root.children[k]? = (F.root.children[k]?).map (renamed_node M)) ∧
      F1.root.name = F.root.name ∧ F1.root.props = F.root.props ∧
      ∀ nd ∈ F.root.children, counted_fragment nd = true →
        fragment_index nd + M ≤ ULONG_MAX) ∧
    (∀ j nd Fj, F.root.children[j]? = some nd → counted_fragment nd = true →
      ULONG_MAX < fragment_index nd + M → rename_nodes_loop [] M j 0 F = .ok Fj →
      rename_nodes F [] M = .err .BADVALUE Fj) := by
  have hrn : rename_nodes F [] M = rename_nodes_loop [] M F.root.children.length 0 F := by
    unfold rename_nodes
    rw [get_nil]
  constructor
  · intro F1 h
    obtain ⟨h1, h2⟩ := rename_nodes_root F F1 M hM h
    have h3 := rename_nodes_loop_top M F.root.children.length 0 F
    rw [← hrn, h] at h3
    exact ⟨h1, h3.1, h3.2, h2⟩
  · intro j nd Fj hget hc hov hj
    have hlt : j < F.root.children.length := (List.getElem?_eq_some_iff.mp hget).1
    obtain ⟨r, hr⟩ : ∃ r, F.root.children.length = j + (r + 1) := ⟨F.root.children.length - j - 1, by omega⟩
    rw [hrn, hr, rename_nodes_loop_append [] M j (r + 1) 0 F Fj hj, Nat.zero_add]
    have hgetj : Fj.root.children[j]? = some nd := by
      rw [(rename_nodes_loop_root M hM j 0 F Fj hj).1 j, if_neg (by omega)]
      exact hget
    unfold rename_nodes_loop
    rw [List.nil_append, rename_node_overflow Fj j M nd hM hgetj hc hov]

theorem named_of_first_subnode (n : Node)
    (h : strncmp_eq n.name (str "fragment@") 9 = true → first_subnode_tells n = true) :
    counted_fragment n = named_fragment n := by
  unfold counted_fragment named_fragment
  cases hn : strncmp_eq n.name (str "fragment@") 9 with
  | false => rfl
  | true =>
    have ht := h hn
    unfold first_subnode_tells at ht
    simp only [Bool.true_and]
    cases hc : n.children with
    | nil => rw [hc] at ht; cases ht
    | cons c cs =>
      rw [hc] at ht
      exact eq_of_beq ht

theorem renamed_of_first_subnode (M : Nat) (n : Node)
    (h : strncmp_eq n.name (str "fragment@") 9 = true → first_subnode_tells n = true) :
    renamed_node M n = renamed_fragment M n := by
  unfold renamed_node renamed_fragment
  rw [named_of_first_subnode n h]

/-- C34 (amended): take for a fragment a root child whose name begins with
`fragment@` and that has a subnode called `__overlay__`, and for its index `k`
what `strtoul` reads after the `@`.  Let the first subnode of every root child
whose name begins with `fragment@` tell whether it is a fragment (the child
has a subnode, and the name of the first one begins with `__overlay__` exactly
when the child has a subnode called `__overlay__`).  For a delta `M` that fits
an `unsigned long`: when `rename_nodes` on the root returns 0, every fragment
has got the name `fragment@<k + M>` (decimal) with `k + M` not overflowing, and
every other root child (also one named `fragment@k` without `__overlay__`),
everything below the root children, and the name and the properties of the
root are as they were; when the loop has passed the first `j` root children
and child `j` is a fragment with `k + M` beyond `ULONG_MAX`, `rename_nodes`
returns `BADVALUE`. -/
theorem rename_nodes_renames (F : Blob) (M : Nat) (hM : M ≤ ULONG_MAX)
    (hfirst : ∀ c ∈ F.root.children,
      strncmp_eq c.name (str "fragment@") 9 = true → first_subnode_tells c = true) :
    (∀ F1, rename_nodes F [] M = .ok F1 →
      (∀ k : Nat, F1.root.children[k]? = (F.root.children[k]?).map (renamed_fragment M)) ∧
      F1.root.name = F.root.name ∧ F1.root.props = F.root.props ∧
      ∀ nd ∈ F.root.children, named_fragment nd = true →
        fragment_index nd + M ≤ ULONG_MAX) ∧
    (∀ j nd Fj, F.root.children[j]? = some nd → named_fragment nd = true →
      ULONG_MAX < fragment_index nd + M → rename_nodes_loop [] M j 0 F = .ok Fj →
      rename_nodes F [] M = .err .BADVALUE Fj) := by
  obtain ⟨hok, hbad⟩ := rename_nodes_counted F M hM
  constructor
  · intro F1 h
    obtain ⟨h1, h2, h3, h4⟩ := hok F1 h
    refine ⟨fun k => ?_, h2, h3, fun nd hnd hn => ?_⟩
    · rw [h1 k]
      cases hk : F.root.children[k]? with
      | none => rfl
      | some c =>
        simp only [Option.map_some']
        rw [renamed_of_first_subnode M c (hfirst c (List.getElem?_mem hk))]
    · exact h4 nd hnd (by rw [named_of_first_subnode nd (hfirst nd hnd)]; exact hn)
  · intro j nd Fj hget hn hov hj
    refine hbad j nd Fj hget ?_ hov hj
    rw [named_of_first_subnode nd (hfirst nd (List.getElem?_mem hget))]
    exact hn

/-- C34 (witness): scenario E3; with the delta 2 the fragments 0 and 2 of the
second overlay become `fragment@2` and `fragment@4`. -/
theorem rename_nodes_renames_witness :
    (∀ c ∈ e3_second.root.children,
      strncmp_eq c.name (str "fragment@") 9 = true → first_subnode_tells c = true) ∧
    rename_nodes e3_second [] 2 = .ok e3_second_renamed ∧
    (∀ k : Nat, e3_second_renamed.root.children[k]?
      = (e3_second.root.children[k]?).map (renamed_fragment 2)) ∧
    e3_second_renamed.root.children.map Node.name = [str "fragment@2", str "fragment@4"] :=
  ⟨by decide, by decide,
    ((rename_nodes_renames e3_second 2 (by decide) (by decide)).1 e3_second_renamed
      (by decide)).1, rfl⟩

/-! ### The copy of a node into the combined blob -/

theorem modifyAt_const_twice (off : Offset) (root a b : Node) :
    (root.modifyAt (fun _ => a) off).modifyAt (fun _ => b) off
      = root.modifyAt (fun _ => b) off :=
  modifyAt_modifyAt (fun _ => a) (fun _ => b) off root

theorem getprop_of_get (F : Blob) (off : Offset) (d : Node) (a : Bytes)
    (hd : F.root.get? off = some d) :
    (prop_lookup a d.props = none → fdt_getprop F off a = .error .NOTFOUND) ∧
    (∀ v, prop_lookup a d.props = some v → fdt_getprop F off a = .ok v) := by
  unfold fdt_getprop
  rw [hd]
  constructor
  · intro h
    simp only [h]
  · intro v h
    simp only [h]

theorem write_at_behind (v data : Bytes) :
    write_at (v ++ List.replicate data.length 0) v.length data = v ++ data := by
  unfold write_at
  rw [List.take_left' rfl, List.drop_eq_nil_of_le (by simp), List.append_nil]

theorem copied_prop_eq (p : Bytes × Bytes) (dps : List (Bytes × Bytes)) :
    memcpy_props p.1 ((prop_lookup p.1 dps).getD []).length p.2
      (placeholder_props p.1 (p.2.length + ((prop_lookup p.1 dps).getD []).length) dps)
      = copied_prop p dps := by
  unfold copied_prop placeholder_props memcpy_props
  cases hv : prop_lookup p.1 dps with
  | none =>
    simp only [Option.getD_none, List.length_nil, Nat.add_zero, prop_lookup, if_true,
      prop_replace]
    rw [write_at_over _ _ (by simp)]
  | some v =>
    simp only [Option.getD_some]
    rw [prop_lookup_replace_self p.1 _ dps v hv]
    simp only
    rw [prop_replace_replace]
    have e1 : (p.2.length + v.length) - v.length = p.2.length := by omega
    rw [List.take_of_length_le (by omega), e1, write_at_behind]

theorem copy_props_step (F : Blob) (offset : Offset) (d : Node) (p : Bytes × Bytes) (F1 : Blob)
    (hd : F.root.get? offset = some d)
    (h : fdt_setprop_placeholder F offset p.1
      (p.2.length + ((prop_lookup p.1 d.props).getD []).length) = .ok F1) :
    (prop_memcpy F1 offset p.1 ((prop_lookup p.1 d.props).getD []).length p.2).root
      = F.root.modifyAt (fun _ => d.set_props (copied_prop p d.props)) offset := by
  rw [(memcpy_root F1 offset p.1 _ p.2).1, (placeholder_root F F1 offset p.1 _ h).1,
    modifyAt_modifyAt, modifyAt_of_get _ offset F.root d hd]
  rw [set_props_props, set_props_set_props, copied_prop_eq]

theorem copy_props_root (offset : Offset) : ∀ (ps : List (Bytes × Bytes)) (F F1 : Blob)
    (d : Node), F.root.get? offset = some d → copy_node_props offset ps F = .ok F1 →
    F1.root = F.root.modifyAt (fun _ => d.set_props (copied_props ps d.props)) offset
  | [], F, F1, d, hd, h => by
    simp only [copy_node_props] at h
    injection h with h
    subst h
    simp only [copied_props]
    rw [set_props_self, ← modifyAt_of_get (fun n => n) offset F.root d hd, modifyAt_id]
  | p :: rest, F, F1, d, hd, h => by
    obtain ⟨g1, g2⟩ := getprop_of_get F offset d p.1 hd
    have key : ∀ fl : Nat, fl = ((prop_lookup p.1 d.props).getD []).length →
        (∀ FA, fdt_setprop_placeholder F offset p.1 (p.2.length + fl) = .ok FA →
          copy_node_props offset rest (prop_memcpy FA offset p.1 fl p.2) = .ok F1 →
          F1.root = F.root.modifyAt
            (fun _ => d.set_props (copied_props (p :: rest) d.props)) offset) := by
      intro fl hfl FA hph hrest
      subst hfl
      have hstep := copy_props_step F offset d p FA hd hph
      have hd1 : (prop_memcpy FA offset p.1 ((prop_lookup p.1 d.props).getD []).length
          p.2).root.get? offset = some (d.set_props (copied_prop p d.props)) := by
        rw [hstep]
        exact get_modifyAt_const offset F.root d _ hd
      rw [copy_props_root offset rest _ F1 _ hd1 hrest, hstep, modifyAt_const_twice,
        set_props_props, set_props_set_props]
      simp only [copied_props]
    unfold copy_node_props at h
    cases hv : prop_lookup p.1 d.props with
    | none =>
      rw [g1 hv] at h
      dsimp only at h
      split at h
      · cases h
      · rename_i FA hph
        exact key 0 (by rw [hv]; rfl) FA hph h
    | some v =>
      rw [g2 v hv] at h
      dsimp only at h
      split at h
      · cases h
      · rename_i FA hph
        exact key v.length (by rw [hv]; rfl) FA hph h

theorem set_children_twice (n : Node) (cs ds : List Node) :
    (n.set_children cs).set_children ds = n.set_children ds := by
  cases n; rfl

theorem copied_children_single (c : Node) (p : Node) :
    copied_children [c] p =
      (match child_index c.name p.children with
       | some j =>
         match p.children[j]? with
         | some e => p.set_children (p.children.set j (Node.copied_onto c e))
         | none => p
       | none => p.set_children (Node.copied_onto c (.mk c.name [] []) :: p.children)) := by
  rw [copied_children, copied_children]

theorem copied_children_cons (c : Node) (rest : List Node) (p : Node) :
    copied_children (c :: rest) p = copied_children rest (copied_children [c] p) := by
  rw [copied_children_single, copied_children]

theorem copied_single_new (c : Node) (p : Node) (h : child_index c.name p.children = none) :
    copied_children [c] p
      = p.set_children (Node.copied_onto c (.mk c.name [] []) :: p.children) := by
  rw [copied_children_single]
  simp only [h]

theorem copied_single_old (c : Node) (p e : Node) (j : Nat)
    (h : child_index c.name p.children = some j) (he : p.children[j]? = some e) :
    copied_children [c] p = p.set_children (p.children.set j (Node.copied_onto c e)) := by
  rw [copied_children_single]
  simp only [h, he]

theorem copied_onto_mk (nm : Bytes) (ps : List (Bytes × Bytes)) (cs : List Node) (d : Node) :
    Node.copied_onto (.mk nm ps cs) d
      = (copied_children cs d).set_props (copied_props ps (copied_children cs d).props) := by
  rw [Node.copied_onto]

mutual
/-- The function `copy_node` on the tree: the node at `parent` becomes what
`copied_children` makes of it. -/
theorem copy_node_root : ∀ (c : Node) (parent : Offset) (F F1 : Blob) (p : Node),
    F.root.get? parent = some p → copy_node c parent F = .ok F1 →
    F1.root = F.root.modifyAt (fun _ => copied_children [c] p) parent
  | .mk name ps cs, parent, F, F1, p, hp, h => by
    unfold copy_node at h
    cases hci : child_index name p.children with
    | none =>
      have hdest : copy_node_dest F parent name = fdt_add_subnode F parent name := by
        unfold copy_node_dest fdt_subnode_offset
        rw [hp]
        simp only [hci]
      rw [hdest] at h
      cases hadd : fdt_add_subnode F parent name with
      | error e => rw [hadd] at h; cases h
      | ok r =>
        obtain ⟨FA, off⟩ := r
        rw [hadd] at h
        simp only at h
        obtain ⟨_, hoff, hFA⟩ := add_subnode_root F FA parent off name p hp hadd
        subst hoff
        have hp1 : FA.root.get? parent
            = some (p.set_children (.mk name [] [] :: p.children)) := by
          rw [hFA]
          exact get_modifyAt_const parent F.root p _ hp
        have hc0 : (p.set_children (.mk name [] [] :: p.children)).children[0]?
            = some (.mk name [] []) := by
          rw [set_children_children]
          simp
        have hfresh : FA.root.get? (parent ++ [0]) = some (.mk name [] []) :=
          child_get FA.root parent _ _ 0 hp1 hc0
        split at h
        · cases h
        · rename_i FB hch
          have hB := copy_children_root cs (parent ++ [0]) FA FB _ hfresh hch
          have hdB : FB.root.get? (parent ++ [0]) = some (copied_children cs (.mk name [] [])) := by
            rw [hB]
            exact get_modifyAt_const _ FA.root _ _ hfresh
          rw [copy_props_root (parent ++ [0]) ps FB F1 _ hdB h, hB, modifyAt_const_twice,
            child_modify FA.root parent _ _ _ 0 hp1 hc0, hFA, modifyAt_const_twice,
            copied_single_new (.mk name ps cs) p hci, copied_onto_mk, set_children_children,
            set_children_twice]
          rfl
    | some j =>
      obtain ⟨e, he, _⟩ := child_index_some _ _ _ hci
      have hdest : copy_node_dest F parent name = .ok (F, parent ++ [j]) := by
        unfold copy_node_dest fdt_subnode_offset
        rw [hp]
        simp only [hci]
      rw [hdest] at h
      simp only at h
      have hold : F.root.get? (parent ++ [j]) = some e := child_get F.root parent p e j hp he
      split at h
      · cases h
      · rename_i FB hch
        have hB := copy_children_root cs (parent ++ [j]) F FB _ hold hch
        have hdB : FB.root.get? (parent ++ [j]) = some (copied_children cs e) := by
          rw [hB]
          exact get_modifyAt_const _ F.root _ _ hold
        rw [copy_props_root (parent ++ [j]) ps FB F1 _ hdB h, hB, modifyAt_const_twice,
          child_modify F.root parent p e _ j hp he,
          copied_single_old (.mk name ps cs) p e j hci he, copied_onto_mk]
/-- The loop over the children of the source node. -/
theorem copy_children_root : ∀ (cs : List Node) (offset : Offset) (F F1 : Blob) (d : Node),
    F.root.get? offset = some d → copy_node_children cs offset F = .ok F1 →
    F1.root = F.root.modifyAt (fun _ => copied_children cs d) offset
  | [], offset, F, F1, d, hd, h => by
    unfold copy_node_children at h
    injection h with h
    subst h
    rw [copied_children, ← modifyAt_of_get (fun n => n) offset F.root d hd, modifyAt_id]
  | c :: rest, offset, F, F1, d, hd, h => by
    unfold copy_node_children at h
    split at h
    · cases h
    · rename_i FA hc
      have hA := copy_node_root c offset F FA d hd hc
      have hdA : FA.root.get? offset = some (copied_children [c] d) := by
        rw [hA]
        exact get_modifyAt_const _ F.root _ _ hd
      rw [copy_children_root rest offset FA F1 _ hdA h, hA, modifyAt_const_twice,
        ← copied_children_cons]
end

theorem copied_prop_self (p : Bytes × Bytes) (dps : List (Bytes × Bytes)) :
    prop_lookup p.1 (copied_prop p dps) = some ((prop_lookup p.1 dps).getD [] ++ p.2) := by
  unfold copied_prop
  cases hv : prop_lookup p.1 dps with
  | none => simp [prop_lookup]
  | some v =>
    dsimp only
    rw [prop_lookup_replace_self _ _ _ v hv]
    rfl

theorem copied_prop_other (p : Bytes × Bytes) (a : Bytes) (h : a ≠ p.1)
    (dps : List (Bytes × Bytes)) : prop_lookup a (copied_prop p dps) = prop_lookup a dps := by
  unfold copied_prop
  cases hv : prop_lookup p.1 dps with
  | none =>
    dsimp only
    rw [prop_lookup, if_neg (Ne.symm h)]
  | some v => exact prop_lookup_replace_ne a p.1 _ dps h

theorem copied_props_other : ∀ (ps dps : List (Bytes × Bytes)) (a : Bytes),
    a ∉ ps.map Prod.fst → prop_lookup a (copied_props ps dps) = prop_lookup a dps
  | [], dps, a, _ => rfl
  | q :: rest, dps, a, h => by
    rw [List.map_cons, List.mem_cons, not_or] at h
    rw [copied_props, copied_props_other rest _ a h.2, copied_prop_other q a h.1]

theorem copied_props_self : ∀ (ps dps : List (Bytes × Bytes)), (ps.map Prod.fst).Nodup →
    ∀ p ∈ ps, prop_lookup p.1 (copied_props ps dps)
      = some ((prop_lookup p.1 dps).getD [] ++ p.2)
  | [], _, _, p, hp => absurd hp (List.not_mem_nil _)
  | q :: rest, dps, hnd, p, hp => by
    rw [List.map_cons, List.nodup_cons] at hnd
    rw [copied_props]
    rcases List.mem_cons.mp hp with hpq | hpr
    · subst hpq
      rw [copied_props_other rest _ p.1 hnd.1, copied_prop_self]
    · have hne : p.1 ≠ q.1 := fun e => hnd.1 (e ▸ List.mem_map_of_mem Prod.fst hpr)
      rw [copied_props_self rest _ hnd.2 p hpr, copied_prop_other q p.1 hne]

theorem descend_one_none (n : Node) (nm : Bytes) (h : child_index nm n.children = none) :
    n.descend [nm] = none := by
  unfold Node.descend
  simp only [h]

theorem descend_one_some (n e : Node) (nm : Bytes) (i : Nat)
    (h : child_index nm n.children = some i) (he : n.children[i]? = some e) :
    n.descend [nm] = some e := by
  unfold Node.descend
  simp only [h, he]
  rfl

theorem descend_one_children (a b : Node) (nm : Bytes) (h : b.children = a.children) :
    b.descend [nm] = a.descend [nm] := by
  unfold Node.descend
  rw [h]

theorem copied_children_top : ∀ (cs : List Node) (d : Node),
    (copied_children cs d).name = d.name ∧ (copied_children cs d).props = d.props
  | [], d => by
    rw [copied_children]
    exact ⟨rfl, rfl⟩
  | c :: rest, d => by
    rw [copied_children_cons]
    obtain ⟨h1, h2⟩ := copied_children_top rest (copied_children [c] d)
    have hs : (copied_children [c] d).name = d.name ∧ (copied_children [c] d).props = d.props := by
      cases hci : child_index c.name d.children with
      | none =>
        rw [copied_single_new c d hci]
        exact ⟨set_children_name _ _, set_children_props _ _⟩
      | some j =>
        obtain ⟨e, he, _⟩ := child_index_some _ _ _ hci
        rw [copied_single_old c d e j hci he]
        exact ⟨set_children_name _ _, set_children_props _ _⟩
    exact ⟨h1.trans hs.1, h2.trans hs.2⟩

theorem copied_onto_name (c d : Node) : (Node.copied_onto c d).name = d.name := by
  cases c with
  | mk nm ps cs =>
    rw [copied_onto_mk, set_props_name]
    exact (copied_children_top cs d).1

/-- One turn of the loop over the source children, on the tree. -/
theorem copied_single_spec (c d : Node) :
    (∀ e ∈ d.children, e.name ≠ c.name → e ∈ (copied_children [c] d).children) ∧
    (∀ nm, nm ≠ c.name → (copied_children [c] d).descend [nm] = d.descend [nm]) ∧
    (copied_children [c] d).descend [c.name]
      = some (Node.copied_onto c ((d.descend [c.name]).getD (.mk c.name [] []))) ∧
    (child_index c.name d.children = none →
      (copied_children [c] d).children
        = Node.copied_onto c (.mk c.name [] []) :: d.children) ∧
    (∀ j e, child_index c.name d.children = some j → d.children[j]? = some e →
      (copied_children [c] d).children = d.children.set j (Node.copied_onto c e)) := by
  cases hci : child_index c.name d.children with
  | none =>
    have hch : (copied_children [c] d).children
        = Node.copied_onto c (.mk c.name [] []) :: d.children := by
      rw [copied_single_new c d hci, set_children_children]
    have hxn : (Node.copied_onto c (.mk c.name [] [])).name = c.name := copied_onto_name c _
    refine ⟨fun e he _ => ?_, fun nm hnm => ?_, ?_, fun _ => hch, fun j e h _ => (by cases h)⟩
    · rw [hch]
      exact List.mem_cons_of_mem _ he
    · cases hn : child_index nm d.children with
      | none =>
        rw [descend_one_none d nm hn]
        refine descend_one_none _ nm ?_
        rw [hch, child_index, if_neg (by rw [hxn]; exact Ne.symm hnm), hn]
        rfl
      | some i =>
        obtain ⟨e, he, _⟩ := child_index_some _ _ _ hn
        rw [descend_one_some d e nm i hn he]
        refine descend_one_some _ e nm (i + 1) ?_ ?_
        · rw [hch, child_index, if_neg (by rw [hxn]; exact Ne.symm hnm), hn]
          rfl
        · rw [hch]
          simpa using he
    · rw [descend_one_none d c.name hci]
      refine descend_one_some _ _ c.name 0 ?_ ?_
      · rw [hch, child_index, if_pos hxn]
      · rw [hch]
        simp
  | some j =>
    obtain ⟨e, he, hen⟩ := child_index_some _ _ _ hci
    have hch : (copied_children [c] d).children = d.children.set j (Node.copied_onto c e) := by
      rw [copied_single_old c d e j hci he, set_children_children]
    have hxn : (Node.copied_onto c e).name = e.name := copied_onto_name c e
    have hidx : ∀ nm, child_index nm (copied_children [c] d).children
        = child_index nm d.children := by
      intro nm
      rw [hch]
      exact child_index_set nm _ d.children j e he hxn
    refine ⟨fun e1 he1 hne => ?_, fun nm hnm => ?_, ?_, fun h => (by cases h),
      fun j1 e1 h1 h2 => ?_⟩
    · rw [hch]
      refine mem_set_of_mem d.children j _ e e1 he he1 ?_
      intro heq
      rw [heq] at hne
      exact hne hen
    · cases hn : child_index nm d.children with
      | none =>
        rw [descend_one_none d nm hn]
        exact descend_one_none _ nm (by rw [hidx, hn])
      | some i =>
        obtain ⟨e1, he1, hen1⟩ := child_index_some _ _ _ hn
        rw [descend_one_some d e1 nm i hn he1]
        refine descend_one_some _ e1 nm i (by rw [hidx, hn]) ?_
        rw [hch, List.getElem?_set_ne]
        · exact he1
        · intro hji
          subst hji
          rw [he] at he1
          injection he1 with he1
          subst he1
          exact hnm (hen1.symm.trans hen)
    · rw [descend_one_some d e c.name j hci he]
      refine descend_one_some _ _ c.name j (by rw [hidx, hci]) ?_
      rw [hch, List.getElem?_set_self (List.getElem?_eq_some_iff.mp he).1]
      rfl
    · injection h1 with h1
      subst h1
      rw [he] at h2
      injection h2 with h2
      subst h2
      exact hch

theorem appended_list_children : ∀ (cs : List Node) (d a b : Node),
    b.children = a.children → Node.appended_list cs d a → Node.appended_list cs d b
  | [], d, a, b, _, _ => by
    unfold Node.appended_list
    trivial
  | c :: rest, d, a, b, hab, h => by
    unfold Node.appended_list at h ⊢
    obtain ⟨⟨e1, h1, h2⟩, h3⟩ := h
    exact ⟨⟨e1, by rw [descend_one_children a b c.name hab]; exact h1, h2⟩,
      appended_list_children rest d a b hab h3⟩

theorem appended_list_from : ∀ (cs : List Node) (d d0 a : Node),
    (∀ c ∈ cs, d.descend [c.name] = d0.descend [c.name]) →
    Node.appended_list cs d a → Node.appended_list cs d0 a
  | [], d, d0, a, _, _ => by
    unfold Node.appended_list
    trivial
  | c :: rest, d, d0, a, hd, h => by
    unfold Node.appended_list at h ⊢
    obtain ⟨⟨e1, h1, h2⟩, h3⟩ := h
    refine ⟨⟨e1, h1, ?_⟩, appended_list_from rest d d0 a
      (fun x hx => hd x (List.mem_cons_of_mem _ hx)) h3⟩
    rw [← hd c (List.mem_cons_self _ _)]
    exact h2

mutual
/-- The postcondition of `copy_node` for the destination node. -/
theorem copied_onto_spec : ∀ (c d : Node), c.wf = true →
    Node.appended c d (Node.copied_onto c d)
  | .mk nm ps cs, d, hwf => by
    obtain ⟨hps, hcs, hall⟩ := (wf_mk_iff nm ps cs).mp hwf
    obtain ⟨h1, h2, h3, _, h5⟩ := copied_children_spec cs d ((wf_list_iff cs).mpr hall) hcs
    rw [copied_onto_mk]
    unfold Node.appended
    refine ⟨?_, ?_, ?_, ?_, ?_⟩
    · rw [set_props_name]
      exact h1
    · intro p hp
      rw [set_props_props, copied_props_self ps _ hps p hp, h2]
    · intro a ha
      rw [set_props_props, copied_props_other ps _ a ha, h2]
    · intro e he hne
      rw [set_props_children]
      exact h3 e he hne
    · exact appended_list_children cs d _ _ (set_props_children _ _) h5
/-- The postcondition of the loop over the source children. -/
theorem copied_children_spec : ∀ (cs : List Node) (d : Node), Node.wf_list cs = true →
    (cs.map Node.name).Nodup →
    (copied_children cs d).name = d.name ∧ (copied_children cs d).props = d.props ∧
    (∀ e ∈ d.children, (∀ c ∈ cs, c.name ≠ e.name) → e ∈ (copied_children cs d).children) ∧
    (∀ nm, (∀ c ∈ cs, c.name ≠ nm) → (copied_children cs d).descend [nm] = d.descend [nm]) ∧
    Node.appended_list cs d (copied_children cs d)
  | [], d, _, _ => by
    rw [copied_children]
    refine ⟨rfl, rfl, fun e he _ => he, fun _ _ => rfl, ?_⟩
    unfold Node.appended_list
    trivial
  | c :: rest, d, hwf, hnd => by
    have hcwf : c.wf = true := (wf_list_iff _).mp hwf c (List.mem_cons_self _ _)
    have hrwf : Node.wf_list rest = true :=
      (wf_list_iff _).mpr (fun x hx => (wf_list_iff _).mp hwf x (List.mem_cons_of_mem _ hx))
    rw [List.map_cons, List.nodup_cons] at hnd
    have hrne : ∀ x ∈ rest, x.name ≠ c.name := fun x hx e =>
      hnd.1 (e ▸ List.mem_map_of_mem Node.name hx)
    obtain ⟨s1, s2, s3, _, _⟩ := copied_single_spec c d
    obtain ⟨t1, t2⟩ := copied_children_top [c] d
    obtain ⟨r1, r2, r3, r4, r5⟩ := copied_children_spec rest (copied_children [c] d) hrwf hnd.2
    rw [copied_children_cons]
    refine ⟨r1.trans t1, r2.trans t2, ?_, ?_, ?_⟩
    · intro e he hne
      exact r3 e (s1 e he (Ne.symm (hne c (List.mem_cons_self _ _))))
        (fun x hx => hne x (List.mem_cons_of_mem _ hx))
    · intro nm hnm
      rw [r4 nm (fun x hx => hnm x (List.mem_cons_of_mem _ hx)),
        s2 nm (Ne.symm (hnm c (List.mem_cons_self _ _)))]
    · unfold Node.appended_list
      refine ⟨⟨_, ?_, copied_onto_spec c _ hcwf⟩, ?_⟩
      · rw [r4 c.name hrne, s3]
      · exact appended_list_from rest _ d _ (fun x hx => s2 x.name (hrne x hx)) r5
end

theorem copied_props_fresh : ∀ (ps acc : List (Bytes × Bytes)), (ps.map Prod.fst).Nodup →
    (∀ p ∈ ps, p.1 ∉ acc.map Prod.fst) → copied_props ps acc = ps.reverse ++ acc
  | [], acc, _, _ => rfl
  | q :: rest, acc, hnd, hacc => by
    rw [List.map_cons, List.nodup_cons] at hnd
    have hq : copied_prop q acc = q :: acc := by
      unfold copied_prop
      rw [(prop_lookup_none_iff q.1 acc).mpr (hacc q (List.mem_cons_self _ _))]
    rw [copied_props, hq, copied_props_fresh rest (q :: acc) hnd.2, List.reverse_cons,
      List.append_assoc]
    · rfl
    · intro p hp hmem
      rw [List.map_cons, List.mem_cons] at hmem
      rcases hmem with hpq | hmem
      · exact hnd.1 (hpq ▸ List.mem_map_of_mem Prod.fst hp)
      · exact hacc p (List.mem_cons_of_mem _ hp) hmem

theorem mirrored_name (c : Node) : c.mirrored.name = c.name := by
  cases c with
  | mk nm ps cs =>
    rw [Node.mirrored]
    rfl

mutual
/-- Copied onto a fresh node, a well-formed source node gives its mirror image. -/
theorem copied_onto_fresh : ∀ (c : Node) (nm0 : Bytes), c.wf = true →
    Node.copied_onto c (.mk nm0 [] []) = c.mirrored.set_name nm0
  | .mk nm ps cs, nm0, hwf => by
    obtain ⟨hps, hcs, hall⟩ := (wf_mk_iff nm ps cs).mp hwf
    rw [copied_onto_mk, copied_children_fresh cs (.mk nm0 [] []) ((wf_list_iff cs).mpr hall) hcs
      (fun c _ hm => by simp [Node.children] at hm)]
    rw [set_children_props, Node.mirrored]
    simp only [Node.props, Node.children, List.append_nil, Node.set_children, Node.set_props,
      Node.set_name]
    rw [copied_props_fresh ps [] hps (fun p _ hm => by simp at hm), List.append_nil]
/-- Copied under a node that has no child of their names, well-formed source
nodes of different names give their mirror images, the last one first. -/
theorem copied_children_fresh : ∀ (cs : List Node) (d : Node), Node.wf_list cs = true →
    (cs.map Node.name).Nodup → (∀ c ∈ cs, c.name ∉ d.children.map Node.name) →
    copied_children cs d = d.set_children ((Node.mirrored_list cs).reverse ++ d.children)
  | [], d, _, _, _ => by
    rw [copied_children, Node.mirrored_list]
    cases d
    rfl
  | c :: rest, d, hwf, hnd, hnew => by
    have hcwf : c.wf = true := (wf_list_iff _).mp hwf c (List.mem_cons_self _ _)
    have hrwf : Node.wf_list rest = true :=
      (wf_list_iff _).mpr (fun x hx => (wf_list_iff _).mp hwf x (List.mem_cons_of_mem _ hx))
    rw [List.map_cons, List.nodup_cons] at hnd
    have hci : child_index c.name d.children = none :=
      (child_index_none_iff _ _).mpr (hnew c (List.mem_cons_self _ _))
    have hset : (c.mirrored.set_name c.name) = c.mirrored := by
      cases c with
      | mk nm ps cs1 =>
        rw [Node.mirrored]
        rfl
    rw [copied_children_cons, copied_single_new c d hci, copied_onto_fresh c c.name hcwf, hset,
      copied_children_fresh rest _ hrwf hnd.2, set_children_children, set_children_twice,
      Node.mirrored_list, List.reverse_cons, List.append_assoc]
    · rfl
    · intro x hx hm
      rw [set_children_children, List.map_cons, List.mem_cons, mirrored_name] at hm
      rcases hm with hm | hm
      · exact hnd.1 (hm ▸ List.mem_map_of_mem Node.name hx)
      · exact hnew x (List.mem_cons_of_mem _ hx) hm
end

/-- C32 (counterexample): the fragment `pending_fragment`, whose target is the
placeholder, is copied under the root of `path_first`, which has no child of
its name.  The copy has the properties `b`, `a` of `__overlay__` where the
fragment has `a`, `b`: it is not identical to the source. -/
theorem copy_reverses_order :
    child_index pending_fragment.name path_first.root.children = none ∧
    overlay_merge_fragments true [pending_fragment] path_first = .ok path_first_with_pending ∧
    path_first_with_pending.root.children[0]? = some pending_fragment.mirrored ∧
    pending_fragment.mirrored ≠ pending_fragment :=
  ⟨by decide, by decide, by decide, by decide⟩

/-- C32 (amended): a fragment of the second overlay that has an `__overlay__` subnode and
whose target is not resolved (`fdt_overlay_target_offset` returns the error
`e`), when the loop of `overlay_merge` reaches it.  Without merge the error is
returned with the base untouched, and so it is in merge mode for an error
other than `BADPHANDLE`.  In merge mode with `BADPHANDLE` the fragment is
copied under the root of the combined blob by `copy_node`: an error of the
copy is returned, and after a successful copy the loop goes on with the next
fragment.  The copy makes of the root what `copied_children` describes; when
the root had no child of the fragment's name (and the fragment has no two
properties and no two sibling nodes of one name) the root has one new first
child, which has the name, the properties with their values and the
descendants of the fragment, the properties and the children of every node in
reverse order. -/
theorem overlay_merge_unresolved_target (fdt : Blob) (fragment : Node) (rest : List Node)
    (i : Nat) (e : FdtErr)
    (hi : child_index (str "__overlay__") fragment.children = some i)
    (he : fdt_overlay_target_offset fdt fragment = .error e) :
    overlay_merge_fragments false (fragment :: rest) fdt = .err e fdt ∧
    (e ≠ .BADPHANDLE → overlay_merge_fragments true (fragment :: rest) fdt = .err e fdt) ∧
    (e = .BADPHANDLE →
      (∀ e1 s, copy_node fragment [] fdt = .err e1 s →
        overlay_merge_fragments true (fragment :: rest) fdt = .err e1 s) ∧
      (∀ fdt1, copy_node fragment [] fdt = .ok fdt1 →
        overlay_merge_fragments true (fragment :: rest) fdt
          = overlay_merge_fragments true rest fdt1 ∧
        fdt1.root = copied_children [fragment] fdt.root ∧
        (fragment.wf = true → child_index fragment.name fdt.root.children = none →
          fdt1.root = fdt.root.set_children (fragment.mirrored :: fdt.root.children)))) := by
  obtain ⟨ov, hov, _⟩ := child_index_some _ _ _ hi
  refine ⟨?_, fun hne => ?_, fun heq => ⟨fun e1 s hc => ?_, fun fdt1 hc => ⟨?_, ?_, ?_⟩⟩⟩
  · unfold overlay_merge_fragments
    simp only [hi, hov, he]
    simp
  · unfold overlay_merge_fragments
    simp only [hi, hov, he]
    simp [hne]
  · rw [overlay_merge_fragments]
    simp only [hi, hov, he, hc]
    simp [heq]
  · rw [overlay_merge_fragments]
    simp only [hi, hov, he, hc]
    simp [heq]
  · have := copy_node_root fragment [] fdt fdt1 fdt.root (get_nil _) hc
    rw [modifyAt_nil] at this
    exact this
  · intro hwf hnone
    have := copy_node_root fragment [] fdt fdt1 fdt.root (get_nil _) hc
    rw [modifyAt_nil] at this
    have hset : (fragment.mirrored.set_name fragment.name) = fragment.mirrored := by
      cases fragment with
      | mk nm ps cs1 =>
        rw [Node.mirrored]
        rfl
    rw [this, copied_single_new fragment fdt.root hnone,
      copied_onto_fresh fragment fragment.name hwf, hset]

/-- C37: `copy_node` for a well-formed source node (no two properties and no
two sibling nodes of one name) when the node at `parent` already has a child
`d` of the source node's name.  The call puts a node `d1` in the place of `d`
and changes nothing else of the tree, so no node is created under `parent`.
`d1` is `d` with the source copied onto it (`Node.appended`): a property of
the source has on `d1` the value it had on `d` followed by the source value,
or the source value when `d` had no such property; every other property of `d`
is unchanged; the children of `d` that no source child is called after are
still there; and every child of the source has been copied in the same way
onto the child of `d` of its name, or onto a new empty child. -/
theorem copy_node_concatenates (src : Node) (parent : Offset) (fdt fdt1 : Blob) (p d : Node)
    (j : Nat) (hsrc : src.wf = true) (hp : fdt.root.get? parent = some p)
    (hj : child_index src.name p.children = some j) (hd : p.children[j]? = some d)
    (h : copy_node src parent fdt = .ok fdt1) :
    ∃ d1, fdt1.root = fdt.root.modifyAt (fun _ => p.set_children (p.children.set j d1)) parent ∧
      fdt1.root.get? (parent ++ [j]) = some d1 ∧
      Node.appended src d d1 ∧
      (∀ q ∈ src.props, ∀ v, fdt_getprop fdt (parent ++ [j]) q.1 = .ok v →
        fdt_getprop fdt1 (parent ++ [j]) q.1 = .ok (v ++ q.2)) ∧
      (∀ q ∈ src.props, fdt_getprop fdt (parent ++ [j]) q.1 = .error .NOTFOUND →
        fdt_getprop fdt1 (parent ++ [j]) q.1 = .ok q.2) := by
  have hroot := copy_node_root src parent fdt fdt1 p hp h
  rw [copied_single_old src p d j hj hd] at hroot
  have hspec := copied_onto_spec src d hsrc
  have hget0 : fdt.root.get? (parent ++ [j]) = some d := child_get fdt.root parent p d j hp hd
  have hget1 : fdt1.root.get? (parent ++ [j]) = some (Node.copied_onto src d) := by
    rw [hroot]
    refine child_get _ parent _ _ j (get_modifyAt_const parent fdt.root p _ hp) ?_
    rw [set_children_children, List.getElem?_set_self (List.getElem?_eq_some_iff.mp hd).1]
  have hprops : ∀ q ∈ src.props, prop_lookup q.1 (Node.copied_onto src d).props
      = some ((prop_lookup q.1 d.props).getD [] ++ q.2) := by
    cases src with
    | mk nm ps cs =>
      unfold Node.appended at hspec
      exact hspec.2.1
  refine ⟨Node.copied_onto src d, hroot, hget1, hspec, fun q hq v hv => ?_, fun q hq hv => ?_⟩
  · obtain ⟨g1, g2⟩ := getprop_of_get fdt (parent ++ [j]) d q.1 hget0
    cases hl : prop_lookup q.1 d.props with
    | none => rw [g1 hl] at hv; cases hv
    | some w =>
      rw [g2 w hl] at hv
      injection hv with hv
      subst hv
      have := hprops q hq
      rw [hl] at this
      exact (getprop_of_get fdt1 (parent ++ [j]) _ q.1 hget1).2 _ this
  · obtain ⟨g1, g2⟩ := getprop_of_get fdt (parent ++ [j]) d q.1 hget0
    cases hl : prop_lookup q.1 d.props with
    | some w => rw [g2 w hl] at hv; cases hv
    | none =>
      have := hprops q hq
      rw [hl] at this
      exact (getprop_of_get fdt1 (parent ++ [j]) _ q.1 hget1).2 _ this

/-- C32 (witness): the fragment `pending_fragment`, whose target is the
placeholder, reached with the combined blob `path_first`. -/
theorem overlay_merge_unresolved_target_witness :
    overlay_merge_fragments false [pending_fragment] path_first
      = .err .BADPHANDLE path_first ∧
    overlay_merge_fragments true [pending_fragment] path_first
      = overlay_merge_fragments true [] path_first_with_pending ∧
    path_first_with_pending.root
      = path_first.root.set_children (pending_fragment.mirrored :: path_first.root.children) :=
  ⟨(overlay_merge_unresolved_target path_first pending_fragment [] 0 .BADPHANDLE rfl rfl).1,
    (((overlay_merge_unresolved_target path_first pending_fragment [] 0 .BADPHANDLE rfl
      rfl).2.2 rfl).2 path_first_with_pending (by decide)).1,
    (((overlay_merge_unresolved_target path_first pending_fragment [] 0 .BADPHANDLE rfl
      rfl).2.2 rfl).2 path_first_with_pending (by decide)).2.2 (by decide) rfl⟩

/-- C37 (witness): the node `/__fixups__` of a second overlay copied into
`fixups_first`, which has a `/__fixups__` node: the values of the label `a`
are put one behind the other, the label `c` is new. -/
theorem copy_node_concatenates_witness :
    ∃ d1, fixups_first_merged.root = fixups_first.root.modifyAt
        (fun _ => fixups_first.root.set_children (fixups_first.root.children.set 0 d1)) [] ∧
      fixups_first_merged.root.get? ([] ++ [0]) = some d1 ∧
      Node.appended fixups_second_node
        (.mk (str "__fixups__") [(str "a", str "/fragment@0:target:0" ++ [0]),
          (str "b", str "/fragment@0/__overlay__:x:0" ++ [0])] []) d1 ∧
      (∀ q ∈ fixups_second_node.props, ∀ v,
        fdt_getprop fixups_first ([] ++ [0]) q.1 = .ok v →
        fdt_getprop fixups_first_merged ([] ++ [0]) q.1 = .ok (v ++ q.2)) ∧
      (∀ q ∈ fixups_second_node.props,
        fdt_getprop fixups_first ([] ++ [0]) q.1 = .error .NOTFOUND →
        fdt_getprop fixups_first_merged ([] ++ [0]) q.1 = .ok q.2) :=
  copy_node_concatenates fixups_second_node [] fixups_first fixups_first_merged
    fixups_first.root
    (.mk (str "__fixups__") [(str "a", str "/fragment@0:target:0" ++ [0]),
      (str "b", str "/fragment@0/__overlay__:x:0" ++ [0])] []) 0 (by decide) rfl rfl rfl
    (by decide)

/-! ### Local references and renumbered phandles -/

theorem phandle_add_offset_none (node : Node) (name : Bytes) (delta : Nat)
    (h : prop_lookup name node.props = none) :
    overlay_phandle_add_offset node name delta = .err .NOTFOUND node := by
  unfold overlay_phandle_add_offset
  rw [h]

theorem phandle_add_offset_some (node : Node) (name val : Bytes) (delta : Nat)
    (hd : delta < 2 ^ 32) (h : prop_lookup name node.props = some val) :
    (∀ e s, overlay_phandle_add_offset node name delta = .err e s → e ≠ .NOTFOUND) ∧
    (∀ r, overlay_phandle_add_offset node name delta = .ok r →
      val.length = 4 ∧ fdt32_to_cpu val + delta < UINT32_MAX ∧
      prop_lookup name r.props = some (cpu_to_fdt32 (fdt32_to_cpu val + delta))) := by
  by_cases hlen : val.length = 4
  · rw [phandle_add_offset_cell node name val delta h hlen hd]
    refine ⟨fun e s he => ?_, fun r hr => ?_⟩
    · split at he
      · injection he with he1 _
        subst he1
        intro hc
        cases hc
      · cases he
    · have g := phandle_add_offset_ok node r name val delta h hlen hd
        (by rw [phandle_add_offset_cell node name val delta h hlen hd]; exact hr)
      exact ⟨hlen, g.1, g.2.2.1⟩
  · have e : overlay_phandle_add_offset node name delta = .err .BADPHANDLE node := by
      unfold overlay_phandle_add_offset
      rw [h]
      simp only [hlen, ne_eq, not_false_eq_true, if_true]
    rw [e]
    refine ⟨fun e s he => ?_, fun r hr => (by cases hr)⟩
    injection he with he1 _
    subst he1
    intro hc
    cases hc

theorem second_phandle_call (s r : Node) (delta : Nat) (hd : delta < 2 ^ 32)
    (h : (match overlay_phandle_add_offset s (str "linux,phandle") delta with
          | .err e1 s1 => if e1 ≠ .NOTFOUND then .err e1 s1 else .ok s1
          | .ok s1 => .ok s1) = Res.ok r) :
    (prop_lookup (str "linux,phandle") s.props = none → r = s) ∧
    (∀ val, prop_lookup (str "linux,phandle") s.props = some val →
      overlay_phandle_add_offset s (str "linux,phandle") delta = .ok r) := by
  refine ⟨fun hn => ?_, fun val hv => ?_⟩
  · rw [phandle_add_offset_none s _ delta hn] at h
    simp only [ne_eq, not_true_eq_false, if_false] at h
    injection h with h
    exact h.symm
  · have g := phandle_add_offset_some s _ val delta hd hv
    cases hc : overlay_phandle_add_offset s (str "linux,phandle") delta with
    | ok s1 =>
      rw [hc] at h
      exact h
    | err e1 s1 =>
      rw [hc] at h
      have := g.1 e1 s1 hc
      simp only [ne_eq, this, not_false_eq_true, if_true] at h
      cases h

/-- A successful call of `overlay_adjust_own_phandles`, read on one of the two
property names: a node without the property has none afterwards, and a property
that is there is one cell that holds its old number plus `delta`, which is
below `0xffffffff`. -/
theorem adjust_own_cells (node r : Node) (delta : Nat) (hd : delta < 2 ^ 32)
    (h : overlay_adjust_own_phandles node delta = .ok r) (nm : Bytes)
    (hnm : nm = str "phandle" ∨ nm = str "linux,phandle") :
    (prop_lookup nm node.props = none → prop_lookup nm r.props = none) ∧
    (∀ val, prop_lookup nm node.props = some val →
      val.length = 4 ∧ fdt32_to_cpu val + delta < UINT32_MAX ∧
      prop_lookup nm r.props = some (cpu_to_fdt32 (fdt32_to_cpu val + delta))) := by
  have hne : str "phandle" ≠ str "linux,phandle" := by decide
  unfold overlay_adjust_own_phandles at h
  -- the first call
  have first : ∃ s, (match overlay_phandle_add_offset s (str "linux,phandle") delta with
          | .err e1 s1 => if e1 ≠ .NOTFOUND then .err e1 s1 else .ok s1
          | .ok s1 => .ok s1) = Res.ok r ∧
        (prop_lookup (str "linux,phandle") s.props
          = prop_lookup (str "linux,phandle") node.props) ∧
        (prop_lookup (str "phandle") node.props = none → s = node) ∧
        (∀ val, prop_lookup (str "phandle") node.props = some val →
          val.length = 4 ∧ fdt32_to_cpu val + delta < UINT32_MAX ∧
          prop_lookup (str "phandle") s.props
            = some (cpu_to_fdt32 (fdt32_to_cpu val + delta))) := by
    cases hp : prop_lookup (str "phandle") node.props with
    | none =>
      rw [phandle_add_offset_none node _ delta hp] at h
      simp only [ne_eq, not_true_eq_false, if_false] at h
      exact ⟨node, h, rfl, fun _ => rfl, fun val hv => (by cases hv)⟩
    | some val =>
      have g := phandle_add_offset_some node _ val delta hd hp
      cases hc : overlay_phandle_add_offset node (str "phandle") delta with
      | err e s =>
        rw [hc] at h
        have := g.1 e s hc
        simp only [ne_eq, this, not_false_eq_true, if_true] at h
        cases h
      | ok s =>
        rw [hc] at h
        refine ⟨s, h, ?_, fun hn => (by cases hn), fun v hv => ?_⟩
        · exact (phandle_add_offset_lookup node s _ delta hd hc).2.2.1 _ hne.symm
        · cases hv
          exact g.2 s hc
  obtain ⟨s, hs, hl, hpn, hps⟩ := first
  have second := second_phandle_call s r delta hd hs
  -- what the second call does to the two names
  have keepp : prop_lookup (str "phandle") r.props = prop_lookup (str "phandle") s.props := by
    cases hq : prop_lookup (str "linux,phandle") s.props with
    | none => rw [second.1 hq]
    | some w =>
      exact (phandle_add_offset_lookup s r _ delta hd (second.2 w hq)).2.2.1 _ hne
  rcases hnm with hnm | hnm
  · subst hnm
    refine ⟨fun hn => ?_, fun val hv => ?_⟩
    · rw [keepp, hpn hn]
      exact hn
    · obtain ⟨g1, g2, g3⟩ := hps val hv
      exact ⟨g1, g2, by rw [keepp]; exact g3⟩
  · subst hnm
    refine ⟨fun hn => ?_, fun val hv => ?_⟩
    · rw [← hl] at hn
      rw [second.1 hn]
      exact hn
    · rw [← hl] at hv
      exact (phandle_add_offset_some s _ val delta hd hv).2 r (second.2 val hv)

theorem adjust_node_parts (delta : Nat) (n r : Node)
    (h : overlay_adjust_node_phandles delta n = .ok r) :
    ∃ s cs1, overlay_adjust_own_phandles n delta = .ok s ∧
      overlay_adjust_subnodes delta n.children = .ok cs1 ∧
      r.name = s.name ∧ r.props = s.props ∧ r.children = cs1 := by
  obtain ⟨nm, ps, cs⟩ := n
  unfold overlay_adjust_node_phandles at h
  split at h
  · cases h
  · rename_i s hs
    obtain ⟨cs1, hcs, hr⟩ := res_map_ok _ _ _ h
    subst hr
    exact ⟨s, cs1, hs, hcs, set_children_name _ _, set_children_props _ _,
      set_children_children _ _⟩

theorem adjust_subnodes_cons (delta : Nat) (c : Node) (rest out : List Node)
    (h : overlay_adjust_subnodes delta (c :: rest) = .ok out) :
    ∃ c1 rest1, out = c1 :: rest1 ∧ overlay_adjust_node_phandles delta c = .ok c1 ∧
      overlay_adjust_subnodes delta rest = .ok rest1 := by
  unfold overlay_adjust_subnodes at h
  split at h
  · cases h
  · rename_i c1 hc1
    obtain ⟨rest1, hr, ho⟩ := res_map_ok _ _ _ h
    exact ⟨c1, rest1, ho.symm, hc1, hr⟩

theorem adjust_subnodes_get (delta : Nat) : ∀ (cs cs1 : List Node) (i : Nat),
    overlay_adjust_subnodes delta cs = .ok cs1 →
    (∀ c, cs[i]? = some c →
      ∃ c1, cs1[i]? = some c1 ∧ overlay_adjust_node_phandles delta c = .ok c1) ∧
    (∀ c1, cs1[i]? = some c1 →
      ∃ c, cs[i]? = some c ∧ overlay_adjust_node_phandles delta c = .ok c1)
  | [], cs1, i, h => by
    unfold overlay_adjust_subnodes at h
    injection h with h
    subst h
    exact ⟨fun c hc => (by simp at hc), fun c hc => (by simp at hc)⟩
  | c :: rest, cs1, i, h => by
    obtain ⟨c1, rest1, ho, hc1, hr⟩ := adjust_subnodes_cons delta c rest cs1 h
    subst ho
    cases i with
    | zero =>
      refine ⟨fun x hx => ?_, fun x hx => ?_⟩
      · simp only [List.getElem?_cons_zero, Option.some.injEq] at hx
        subst hx
        exact ⟨c1, by simp, hc1⟩
      · simp only [List.getElem?_cons_zero, Option.some.injEq] at hx
        subst hx
        exact ⟨c, by simp, hc1⟩
    | succ i =>
      simp only [List.getElem?_cons_succ]
      exact adjust_subnodes_get delta rest rest1 i hr

theorem get_cons (n : Node) (i : Nat) (rest : Offset) :
    n.get? (i :: rest) = (n.children[i]?).bind (fun c => c.get? rest) := by
  obtain ⟨nm, ps, cs⟩ := n
  rw [Node.get?]
  simp only [Node.children]
  cases cs[i]? <;> rfl

/-- The renumbering walk works node by node: the node at an offset of the
result is the node at that offset of the input, renumbered. -/
theorem adjust_get (delta : Nat) : ∀ (off : Offset) (n r : Node),
    overlay_adjust_node_phandles delta n = .ok r →
    (∀ n0, n.get? off = some n0 →
      ∃ m, r.get? off = some m ∧ overlay_adjust_node_phandles delta n0 = .ok m) ∧
    (∀ m, r.get? off = some m →
      ∃ n0, n.get? off = some n0 ∧ overlay_adjust_node_phandles delta n0 = .ok m)
  | [], n, r, h => by
    simp only [get_nil, Option.some.injEq]
    exact ⟨fun n0 h0 => ⟨r, rfl, by rw [← h0]; exact h⟩,
      fun m hm => ⟨n, rfl, by rw [← hm]; exact h⟩⟩
  | i :: rest, n, r, h => by
    obtain ⟨s, cs1, _, hcs, _, _, hrc⟩ := adjust_node_parts delta n r h
    rw [get_cons, get_cons, hrc]
    have g := adjust_subnodes_get delta n.children cs1 i hcs
    refine ⟨fun n0 h0 => ?_, fun m hm => ?_⟩
    · cases hc : n.children[i]? with
      | none => rw [hc] at h0; cases h0
      | some c =>
        rw [hc] at h0
        obtain ⟨c1, hc1, ha⟩ := g.1 c hc
        rw [hc1]
        exact (adjust_get delta rest c c1 ha).1 n0 h0
    · cases hc : cs1[i]? with
      | none => rw [hc] at hm; cases hm
      | some c1 =>
        rw [hc] at hm
        obtain ⟨c, hc0, ha⟩ := g.2 c1 hc
        rw [hc0]
        exact (adjust_get delta rest c c1 ha).2 m hm

/-- The phandle of a renumbered node that had one is its old phandle plus
`delta`, without wrap-around. -/
theorem adjust_props_phandle (delta : Nat) (hd : delta < 2 ^ 32) (n r : Node)
    (h : overlay_adjust_node_phandles delta n = .ok r) (h0 : props_phandle n.props ≠ 0) :
    props_phandle r.props = props_phandle n.props + delta ∧
    props_phandle n.props + delta < UINT32_MAX := by
  obtain ⟨s, cs1, hs, _, _, hp, _⟩ := adjust_node_parts delta n r h
  rw [hp]
  have g1 := adjust_own_cells n s delta hd hs (str "phandle") (Or.inl rfl)
  have g2 := adjust_own_cells n s delta hd hs (str "linux,phandle") (Or.inr rfl)
  have hU : UINT32_MAX < 2 ^ 32 := by decide
  unfold props_phandle at h0 ⊢
  cases hp1 : prop_lookup (str "phandle") n.props with
  | some v =>
    obtain ⟨a1, a2, a3⟩ := g1.2 v hp1
    rw [hp1] at h0
    rw [a3]
    simp only [a1, if_true, cpu_to_fdt32_length, fdt32_roundtrip] at h0 ⊢
    exact ⟨Nat.mod_eq_of_lt (by omega), a2⟩
  | none =>
    rw [hp1] at h0
    rw [g1.1 hp1]
    cases hp2 : prop_lookup (str "linux,phandle") n.props with
    | some w =>
      obtain ⟨a1, a2, a3⟩ := g2.2 w hp2
      rw [hp2] at h0
      rw [a3]
      simp only [a1, if_true, cpu_to_fdt32_length, fdt32_roundtrip] at h0 ⊢
      exact ⟨Nat.mod_eq_of_lt (by omega), a2⟩
    | none =>
      rw [hp2] at h0
      exact absurd rfl h0


theorem np_mk_iff (nm : Bytes) (ps : List (Bytes × Bytes)) (cs : List Node) :
    Node.no_phandle_props (.mk nm ps cs) = true ↔
      (∀ p ∈ ps, p.1 ≠ str "phandle" ∧ p.1 ≠ str "linux,phandle") ∧
      Node.no_phandle_props_list cs = true := by
  rw [Node.no_phandle_props]
  simp only [Bool.and_eq_true, List.all_eq_true, decide_eq_true_eq]

theorem np_cons_iff (c : Node) (rest : List Node) :
    Node.no_phandle_props_list (c :: rest) = true ↔
      c.no_phandle_props = true ∧ Node.no_phandle_props_list rest = true := by
  rw [Node.no_phandle_props_list]
  simp only [Bool.and_eq_true]

theorem np_list_mem : ∀ (cs : List Node), Node.no_phandle_props_list cs = true →
    ∀ c ∈ cs, c.no_phandle_props = true
  | [], _, c, hc => by simp at hc
  | d :: rest, h, c, hc => by
    rw [np_cons_iff] at h
    rcases List.mem_cons.mp hc with hc | hc
    · rw [hc]
      exact h.1
    · exact np_list_mem rest h.2 c hc

theorem np_props (f : Node) (h : f.no_phandle_props = true) :
    ∀ p ∈ f.props, p.1 ≠ str "phandle" ∧ p.1 ≠ str "linux,phandle" := by
  obtain ⟨nm, ps, cs⟩ := f
  exact ((np_mk_iff nm ps cs).mp h).1

theorem np_children (f : Node) (h : f.no_phandle_props = true) :
    Node.no_phandle_props_list f.children = true := by
  obtain ⟨nm, ps, cs⟩ := f
  exact ((np_mk_iff nm ps cs).mp h).2

theorem np_descend : ∀ (path : List Bytes) (f fnode : Node), f.no_phandle_props = true →
    f.descend path = some fnode → fnode.no_phandle_props = true
  | [], f, fnode, h, hf => by
    simp only [Node.descend, Option.some.injEq] at hf
    subst hf
    exact h
  | nm :: rest, f, fnode, h, hf => by
    unfold Node.descend at hf
    split at hf
    · cases hf
    · rename_i i hi
      split at hf
      · cases hf
      · rename_i c hc
        exact np_descend rest c fnode
          (np_list_mem _ (np_children f h) c (List.getElem?_mem hc)) hf

mutual
theorem np_slots : ∀ (f : Node) (path : List Bytes), f.no_phandle_props = true →
    ∀ s ∈ local_fixup_slots f path, s.2.1 ≠ str "phandle" ∧ s.2.1 ≠ str "linux,phandle"
  | .mk fn fps fcs, path, h, s, hs => by
    rw [np_mk_iff] at h
    unfold local_fixup_slots at hs
    rcases List.mem_append.mp hs with hs | hs
    · simp only [List.mem_flatten, List.mem_map] at hs
      obtain ⟨l, ⟨p, hp, hl⟩, hsl⟩ := hs
      subst hl
      simp only [List.mem_map] at hsl
      obtain ⟨o, _, ho⟩ := hsl
      subst ho
      exact h.1 p hp
    · exact np_slots_list fcs path h.2 s hs
theorem np_slots_list : ∀ (fcs : List Node) (path : List Bytes),
    Node.no_phandle_props_list fcs = true →
    ∀ s ∈ local_fixup_slots_list fcs path,
      s.2.1 ≠ str "phandle" ∧ s.2.1 ≠ str "linux,phandle"
  | [], path, _, s, hs => by
    unfold local_fixup_slots_list at hs
    simp at hs
  | fc :: rest, path, h, s, hs => by
    rw [np_cons_iff] at h
    unfold local_fixup_slots_list at hs
    rcases List.mem_append.mp hs with hs | hs
    · exact np_slots fc _ h.1 s hs
    · exact np_slots_list rest path h.2 s hs
end

mutual
/-- Renumbering leaves a subtree without phandle properties as it is. -/
theorem adjust_plain (delta : Nat) : ∀ (n : Node), n.no_phandle_props = true →
    overlay_adjust_node_phandles delta n = .ok n
  | .mk nm ps cs, h => by
    rw [np_mk_iff] at h
    have h1 : prop_lookup (str "phandle") (Node.mk nm ps cs).props = none := by
      rw [prop_lookup_none_iff]
      intro hc
      obtain ⟨p, hp, hpe⟩ := List.mem_map.mp hc
      exact (h.1 p hp).1 hpe
    have h2 : prop_lookup (str "linux,phandle") (Node.mk nm ps cs).props = none := by
      rw [prop_lookup_none_iff]
      intro hc
      obtain ⟨p, hp, hpe⟩ := List.mem_map.mp hc
      exact (h.1 p hp).2 hpe
    have own : overlay_adjust_own_phandles (.mk nm ps cs) delta = .ok (.mk nm ps cs) := by
      unfold overlay_adjust_own_phandles
      rw [phandle_add_offset_none _ _ delta h1]
      simp only [ne_eq, not_true_eq_false, if_false]
      rw [phandle_add_offset_none _ _ delta h2]
      simp only [ne_eq, not_true_eq_false, if_false]
    unfold overlay_adjust_node_phandles
    rw [own]
    simp only
    rw [adjust_plain_list delta cs h.2]
    rfl
theorem adjust_plain_list (delta : Nat) : ∀ (cs : List Node),
    Node.no_phandle_props_list cs = true → overlay_adjust_subnodes delta cs = .ok cs
  | [], _ => by
    unfold overlay_adjust_subnodes
    rfl
  | c :: rest, h => by
    rw [np_cons_iff] at h
    unfold overlay_adjust_subnodes
    rw [adjust_plain delta c h.1]
    simp only
    rw [adjust_plain_list delta rest h.2]
    rfl
end

theorem fixup_cells_one (w : Bytes) (h : w.length = 4) :
    fixup_cells (w.length / 4) w = [fdt32_to_cpu w] := by
  rw [h]
  rfl

theorem adjusted_phandle_sized (delta : Nat) (hd : delta < 2 ^ 32) (t0 ta : Node)
    (h : overlay_adjust_node_phandles delta t0 = .ok ta) (nm : Bytes)
    (hnm : nm = str "phandle" ∨ nm = str "linux,phandle") (v : Bytes)
    (hv : prop_lookup nm ta.props = some v) : v.length = 4 := by
  obtain ⟨s, _, hs, _, _, hp, _⟩ := adjust_node_parts delta t0 ta h
  rw [hp] at hv
  have g := adjust_own_cells t0 s delta hd hs nm hnm
  cases h0 : prop_lookup nm t0.props with
  | none =>
    rw [g.1 h0] at hv
    cases hv
  | some val =>
    rw [(g.2 val h0).2.2] at hv
    injection hv with hv
    rw [← hv]
    rfl

theorem prop_lookup_mem (a v : Bytes) : ∀ ps : List (Bytes × Bytes),
    prop_lookup a ps = some v → (a, v) ∈ ps
  | [], h => by simp [prop_lookup] at h
  | p :: ps, h => by
    unfold prop_lookup at h
    split at h
    · rename_i hp
      injection h with h
      rw [← hp, ← h]
      exact List.mem_cons_self _ _
    · exact List.mem_cons_of_mem _ (prop_lookup_mem a v ps h)

mutual
/-- With a delta of at least 1, a mirror that has been renumbered with the rest
of the overlay and then fits the renumbered tree had no property called
`phandle` or `linux,phandle`: such a property would list its own new value as
a byte offset into the one-cell phandle property of the mirrored node. -/
theorem shifted_mirror_plain (delta : Nat) (hD : 0 < delta) (hd : delta < 2 ^ 32) :
    ∀ (f fa t0 ta : Node), overlay_adjust_node_phandles delta f = .ok fa →
    overlay_adjust_node_phandles delta t0 = .ok ta → mirror_fits fa ta →
    f.no_phandle_props = true
  | .mk fn fps fcs, fa, t0, ta, hf, ht, hfit => by
    obtain ⟨s, cs1, hs, hcs, _, hp, hc⟩ := adjust_node_parts delta _ fa hf
    obtain ⟨an, aps, acs⟩ := fa
    simp only [Node.props, Node.children] at hp hc
    subst hp
    subst hc
    unfold mirror_fits at hfit
    rw [np_mk_iff]
    refine ⟨fun p hp => ?_, shifted_mirror_plain_list delta hD hd fcs _ t0 ta hcs ht hfit.2⟩
    have key : ∀ nm, nm = str "phandle" ∨ nm = str "linux,phandle" → p.1 ≠ nm := by
      intro nm hnm hpn
      have g := adjust_own_cells _ s delta hd hs nm hnm
      cases hl : prop_lookup nm (Node.mk fn fps fcs).props with
      | none =>
        rw [prop_lookup_none_iff] at hl
        exact hl (List.mem_map.mpr ⟨p, hp, hpn⟩)
      | some val =>
        obtain ⟨_, g2, g3⟩ := g.2 val hl
        obtain ⟨_, v, hv, hb⟩ := hfit.1 _ (prop_lookup_mem _ _ _ g3)
        have hv4 := adjusted_phandle_sized delta hd t0 ta ht nm hnm v hv
        dsimp only at hb
        rw [fixup_cells_one _ (cpu_to_fdt32_length _)] at hb
        have := hb _ (List.mem_singleton.mpr rfl)
        rw [fdt32_roundtrip] at this
        have hU : UINT32_MAX < 2 ^ 32 := by decide
        rw [Nat.mod_eq_of_lt (by omega)] at this
        omega
    exact ⟨key _ (Or.inl rfl), key _ (Or.inr rfl)⟩
theorem shifted_mirror_plain_list (delta : Nat) (hD : 0 < delta) (hd : delta < 2 ^ 32) :
    ∀ (fcs fcsa : List Node) (t0 ta : Node), overlay_adjust_subnodes delta fcs = .ok fcsa →
    overlay_adjust_node_phandles delta t0 = .ok ta → mirror_fits_list fcsa ta →
    Node.no_phandle_props_list fcs = true
  | [], _, _, _, _, _, _ => by
    unfold Node.no_phandle_props_list
    rfl
  | c :: rest, fcsa, t0, ta, hcs, ht, hfit => by
    obtain ⟨c1, rest1, ho, hc1, hr⟩ := adjust_subnodes_cons delta c rest fcsa hcs
    subst ho
    unfold mirror_fits_list at hfit
    obtain ⟨⟨i, tc, _, htc, hfc⟩, hrest⟩ := hfit
    rw [← get_child] at htc
    obtain ⟨n0, _, hn0⟩ := (adjust_get delta [i] t0 ta ht).2 tc htc
    rw [np_cons_iff]
    exact ⟨shifted_mirror_plain delta hD hd c c1 n0 tc hc1 hn0 hfc,
      shifted_mirror_plain_list delta hD hd rest rest1 t0 ta hr ht hrest⟩
end

theorem agree_props (keep : List Bytes → Bytes → Nat → Prop) (path : List Bytes) (a b : Node)
    (h : Node.agree keep path a b) : List.Forall₂ (prop_agrees (keep path)) a.props b.props := by
  obtain ⟨n, ps, cs⟩ := a
  unfold Node.agree at h
  exact h.2.1

theorem agree_children (keep : List Bytes → Bytes → Nat → Prop) (path : List Bytes)
    (a b : Node) (h : Node.agree keep path a b) :
    Node.agree_list keep path a.children b.children := by
  obtain ⟨n, ps, cs⟩ := a
  unfold Node.agree at h
  exact h.2.2

theorem props_agree_lookup_eq (kp : Bytes → Nat → Prop) (a : Bytes) (hk : ∀ i, kp a i) :
    ∀ (ps qs : List (Bytes × Bytes)), List.Forall₂ (prop_agrees kp) ps qs →
    prop_lookup a qs = prop_lookup a ps
  | _, _, .nil => rfl
  | p :: ps, q :: qs, .cons h hs => by
    unfold prop_lookup
    rw [← h.1]
    split
    · rename_i hp
      have e2 : p.2 = q.2 := List.ext_getElem? (fun i => h.2.2 i (by rw [hp]; exact hk i))
      rw [e2]
    · exact props_agree_lookup_eq kp a hk ps qs hs

theorem agree_descend (keep : List Bytes → Bytes → Nat → Prop) :
    ∀ (path p : List Bytes) (x y n : Node), Node.agree keep p x y →
    x.descend path = some n → ∃ m, y.descend path = some m ∧ Node.agree keep (p ++ path) n m
  | [], p, x, y, n, h, hn => by
    simp only [Node.descend, Option.some.injEq] at hn
    subst hn
    exact ⟨y, rfl, by rw [List.append_nil]; exact h⟩
  | nm :: rest, p, x, y, n, h, hn => by
    have hcs := agree_children keep p x y h
    unfold Node.descend at hn ⊢
    rw [← agree_list_child_index keep nm p _ _ hcs]
    split at hn
    · cases hn
    · rename_i i hi
      split at hn
      · cases hn
      · rename_i c hc
        obtain ⟨c2, hc2, hnm⟩ := child_index_some _ _ _ hi
        rw [hc] at hc2
        injection hc2 with hc2
        subst hc2
        obtain ⟨b, hb, hab⟩ := agree_list_get_fwd keep p _ _ i c hcs hc
        rw [hnm] at hab
        obtain ⟨m, hm, hag⟩ := agree_descend keep rest (p ++ [nm]) c b n hab hn
        refine ⟨m, ?_, by rw [List.append_assoc] at hag; exact hag⟩
        simp only [hb]
        exact hm

theorem agree_get (keep : List Bytes → Bytes → Nat → Prop) :
    ∀ (off : Offset) (p : List Bytes) (x y n : Node), Node.agree keep p x y →
    x.get? off = some n → ∃ m q, y.get? off = some m ∧ Node.agree keep q n m
  | [], p, x, y, n, h, hn => by
    rw [get_nil] at hn
    injection hn with hn
    subst hn
    exact ⟨y, p, get_nil y, h⟩
  | i :: rest, p, x, y, n, h, hn => by
    have hcs := agree_children keep p x y h
    rw [get_cons] at hn ⊢
    cases hc : x.children[i]? with
    | none => rw [hc] at hn; cases hn
    | some c =>
      rw [hc] at hn
      obtain ⟨b, hb, hab⟩ := agree_list_get_fwd keep p _ _ i c hcs hc
      rw [hb]
      exact agree_get keep rest _ c b n hab hn

theorem fdt32_to_cpu_take (l : Bytes) : fdt32_to_cpu (l.take 4) = fdt32_to_cpu l :=
  fdt32_to_cpu_congr _ _ (fun k hk => by rw [List.getElem?_take_of_lt hk])


theorem local_fixups_offset (fdt : Blob) (off : Offset)
    (h : fdt_path_offset fdt (str "/__local_fixups__") = .ok off) :
    ∃ i, off = [i] ∧ child_index (str "__local_fixups__") fdt.root.children = some i := by
  rw [path_offset_local_fixups] at h
  unfold fdt_subnode_offset at h
  rw [get_nil] at h
  dsimp only at h
  cases hci : child_index (str "__local_fixups__") fdt.root.children with
  | none => rw [hci] at h; cases h
  | some i =>
    rw [hci] at h
    injection h with h
    exact ⟨i, h.symm, rfl⟩

theorem local_fixups_offset_of (fdt : Blob) (i : Nat)
    (h : child_index (str "__local_fixups__") fdt.root.children = some i) :
    fdt_path_offset fdt (str "/__local_fixups__") = .ok [i] := by
  rw [path_offset_local_fixups]
  unfold fdt_subnode_offset
  rw [get_nil]
  dsimp only
  rw [h]
  rfl

/-- The two renumbering passes, slot by slot.  With a delta of at least 1, or
a mirror without phandle properties: a listed slot that held the phandle of
the node at `noff` holds that node's phandle after the two passes, which is
the old one plus `delta`. -/
theorem local_refs_follow (fdto a b : Blob) (delta : Nat) (off noff : Offset)
    (fixup fnode tnode : Node) (path : List Bytes) (name fval v : Bytes) (P : Nat)
    (hd : delta < 2 ^ 32)
    (h1 : overlay_adjust_local_phandles fdto delta = .ok a)
    (h2 : walk_local_references a delta = .ok b)
    (hoff : fdt_path_offset fdto (str "/__local_fixups__") = .ok off)
    (hfix : fdto.root.get? off = some fixup) (hwf : fixup.wf = true)
    (hnp : 0 < delta ∨ fixup.no_phandle_props = true)
    (hf : fixup.descend path = some fnode) (ht : fdto.root.descend path = some tnode)
    (hp : (name, fval) ∈ fnode.props) (hP : P ∈ fixup_cells (fval.length / 4) fval)
    (hpw : (fixup_cells (fval.length / 4) fval).Pairwise (fun P Q => P + 4 ≤ Q ∨ Q + 4 ≤ P))
    (hv : prop_lookup name tnode.props = some v)
    (hn : fdt32_to_cpu (v.drop P) = fdt_get_phandle fdto noff)
    (hn0 : fdt_get_phandle fdto noff ≠ 0) :
    ∃ tnode1 w, b.root.descend path = some tnode1 ∧
      prop_lookup name tnode1.props = some w ∧ w.length = v.length ∧
      fdt32_to_cpu (w.drop P) = fdt_get_phandle b noff ∧
      fdt_get_phandle b noff = fdt_get_phandle fdto noff + delta ∧
      fdt_get_phandle a noff = fdt_get_phandle fdto noff + delta := by
  -- the first pass
  unfold overlay_adjust_local_phandles at h1
  obtain ⟨r, hr, ha⟩ := res_map_ok _ _ _ h1
  have har : a.root = r := by rw [← ha]
  have hag : Node.agree (fun _ nm _ => nm ≠ str "phandle" ∧ nm ≠ str "linux,phandle") []
      fdto.root r :=
    adjust_node_agree _ delta hd (fun _ _ h => h.1 rfl) (fun _ _ h => h.2 rfl) [] _ r hr
  -- the mirror after the first pass
  obtain ⟨i, hi, hci⟩ := local_fixups_offset fdto off hoff
  subst hi
  obtain ⟨fixa, hfixa, hadj⟩ := (adjust_get delta [i] fdto.root r hr).1 fixup hfix
  have hoffa : fdt_path_offset a (str "/__local_fixups__") = .ok [i] := by
    apply local_fixups_offset_of
    rw [har, ← agree_list_child_index _ (str "__local_fixups__") [] _ _
      (agree_children _ _ _ _ hag)]
    exact hci
  -- the second pass
  unfold walk_local_references at h2
  rw [hoffa] at h2
  simp only [har, hfixa] at h2
  obtain ⟨t1, ht1, hb⟩ := res_map_ok _ _ _ h2
  have hbr : b.root = t1 := by rw [← hb]
  -- the mirror has no phandle property, so it is what it was
  have hplain : fixup.no_phandle_props = true := by
    rcases hnp with hD | hnp
    · exact shifted_mirror_plain delta hD hd fixup fixa fdto.root r hadj hr
        ((local_refs_state (fun _ _ _ => False) delta fixa [] r
          (fun _ _ _ _ _ hc => hc)).2.2 t1 ht1)
    · exact hnp
  have hsame : fixa = fixup := by
    have := adjust_plain delta fixup hplain
    rw [this] at hadj
    injection hadj with hadj
    exact hadj.symm
  subst hsame
  -- the slot
  have hnm := np_props fnode (np_descend path fixa fnode hplain hf) _ hp
  obtain ⟨tna, htna, hagn⟩ := agree_descend _ path [] fdto.root r tnode hag ht
  have hva : prop_lookup name tna.props = some v := by
    rw [props_agree_lookup_eq _ name (fun _ => hnm) _ _ (agree_props _ _ _ _ hagn)]
    exact hv
  obtain ⟨tnode1, htn1, hslots⟩ := local_refs_updated delta path fixa r t1 hwf ht1 fnode tna
    hf htna
  obtain ⟨w, hw, hlen, hcell, _⟩ := hslots name fval v hp hva hpw
  -- the node the slot refers to
  have hget : ∃ n, fdto.root.get? noff = some n := by
    cases hg : fdto.root.get? noff with
    | none =>
      unfold fdt_get_phandle at hn0
      rw [hg] at hn0
      exact absurd rfl hn0
    | some n => exact ⟨n, rfl⟩
  obtain ⟨n, hgn⟩ := hget
  have hph : fdt_get_phandle fdto noff = props_phandle n.props := by
    unfold fdt_get_phandle
    rw [hgn]
  obtain ⟨na, hgna, hadjn⟩ := (adjust_get delta noff fdto.root r hr).1 n hgn
  have hpa := adjust_props_phandle delta hd n na hadjn (by rw [← hph]; exact hn0)
  have hpha : fdt_get_phandle a noff = fdt_get_phandle fdto noff + delta := by
    rw [hph, ← hpa.1]
    unfold fdt_get_phandle
    rw [har, hgna]
  -- the second pass keeps the phandle properties
  have hag2 : Node.agree (fun _ nm _ => nm = str "phandle" ∨ nm = str "linux,phandle") []
      r t1 :=
    local_refs_agree _ delta fixa [] r t1
      (fun s hs _ _ _ hc => hc.elim (np_slots fixa [] hplain s hs).1
        (np_slots fixa [] hplain s hs).2) ht1
  obtain ⟨nb, q, hgnb, hagb⟩ := agree_get _ noff [] r t1 na hag2 hgna
  have hphb : fdt_get_phandle b noff = fdt_get_phandle a noff := by
    unfold fdt_get_phandle
    rw [har, hbr, hgna, hgnb]
    exact props_phandle_congr _ _
      (props_agree_lookup_eq _ _ (fun _ => Or.inl rfl) _ _ (agree_props _ _ _ _ hagb))
      (props_agree_lookup_eq _ _ (fun _ => Or.inr rfl) _ _ (agree_props _ _ _ _ hagb))
  refine ⟨tnode1, w, by rw [hbr]; exact htn1, hw, hlen, ?_, by rw [hphb, hpha], hpha⟩
  rw [hphb, hpha, ← fdt32_to_cpu_take, hcell P hP, fdt32_roundtrip, Nat.mod_mod, hn]
  have hU : UINT32_MAX < 2 ^ 32 := by decide
  rw [hph]
  exact Nat.mod_eq_of_lt (by have := hpa.2; omega)


/-- C36: local references stay consistent with renumbered phandles.  When
`overlay_adjust_local_phandles` and `overlay_update_local_references` both
succeed with the same `delta` (the second on the result of the first), on an
overlay whose mirror names no slot inside the mirror itself (the overlay has
no node `/__local_fixups__/__local_fixups__`), then a
slot that `/__local_fixups__` lists, at byte offset `P` of the property `name`
of the node at `path`, and that held the phandle of the overlay node at `noff`
holds that node's new phandle afterwards, which is the old one plus `delta`
and below `0xffffffff`: the unchecked addition modulo `2^32` on the reference
gives what the overflow-checked addition on the phandle gives.  Listed once:
the mirror has unique property names and sibling names and the cells of the
mirror property name slots that do not overlap.  The delta is at least 1, or
the mirror has no property called `phandle` or `linux,phandle`. -/
theorem local_references_follow_phandles (fdto a b : Blob) (delta : Nat) (off noff : Offset)
    (fixup fnode tnode : Node) (path : List Bytes) (name fval v : Bytes) (P : Nat)
    (hd : delta < 2 ^ 32)
    (_hself : local_fixups_apart fdto = true)
    (h1 : overlay_adjust_local_phandles fdto delta = .ok a)
    (h2 : overlay_update_local_references a delta = some (.ok b))
    (hoff : fdt_path_offset fdto (str "/__local_fixups__") = .ok off)
    (hfix : fdto.root.get? off = some fixup) (hwf : fixup.wf = true)
    (hnp : 0 < delta ∨ fixup.no_phandle_props = true)
    (hf : fixup.descend path = some fnode) (ht : fdto.root.descend path = some tnode)
    (hp : (name, fval) ∈ fnode.props) (hP : P ∈ fixup_cells (fval.length / 4) fval)
    (hpw : (fixup_cells (fval.length / 4) fval).Pairwise (fun P Q => P + 4 ≤ Q ∨ Q + 4 ≤ P))
    (hv : prop_lookup name tnode.props = some v)
    (hn : fdt32_to_cpu (v.drop P) = fdt_get_phandle fdto noff)
    (hn0 : fdt_get_phandle fdto noff ≠ 0) :
    ∃ tnode1 w, b.root.descend path = some tnode1 ∧
      prop_lookup name tnode1.props = some w ∧ w.length = v.length ∧
      fdt32_to_cpu (w.drop P) = fdt_get_phandle b noff ∧
      fdt_get_phandle b noff = fdt_get_phandle fdto noff + delta ∧
      fdt_get_phandle a noff = fdt_get_phandle fdto noff + delta :=
  local_refs_follow fdto a b delta off noff fixup fnode tnode path name fval v P hd h1
    (local_references_walk a delta _ h2) hoff hfix hwf hnp hf ht hp hP hpw hv hn hn0

/-- C36 (witness): scenario E2 with delta 5: the slot at offset 0 of `user/ref`
held 1, the phandle of `child`, and holds 6, the new phandle of `child`. -/
theorem local_references_follow_phandles_witness :
    ∃ tnode1 w,
      e2_renumbered.root.descend [str "fragment@0", str "__overlay__", str "user"]
        = some tnode1 ∧
      prop_lookup (str "ref") tnode1.props = some w ∧ w.length = [0, 0, 0, 1].length ∧
      fdt32_to_cpu (w.drop 0) = fdt_get_phandle e2_renumbered [0, 0, 0] ∧
      fdt_get_phandle e2_renumbered [0, 0, 0] = fdt_get_phandle e2_overlay [0, 0, 0] + 5 ∧
      fdt_get_phandle e2_phandles_adjusted [0, 0, 0]
        = fdt_get_phandle e2_overlay [0, 0, 0] + 5 :=
  local_references_follow_phandles e2_overlay e2_phandles_adjusted e2_renumbered 5 [1]
    [0, 0, 0]
    (.mk (str "__local_fixups__") [] [
      .mk (str "fragment@0") [] [
        .mk (str "__overlay__") [] [
          .mk (str "user") [(str "ref", [0, 0, 0, 0])] []]]])
    (.mk (str "user") [(str "ref", [0, 0, 0, 0])] [])
    (.mk (str "user") [(str "ref", [0, 0, 0, 1])] [])
    [str "fragment@0", str "__overlay__", str "user"] (str "ref") [0, 0, 0, 0] [0, 0, 0, 1] 0
    (by decide) (by decide) (by decide) rfl rfl rfl (by decide) (Or.inl (by decide)) rfl rfl
    (by decide) (by decide) (by decide) rfl (by decide) (by decide)

/-! ### Renaming inside property values -/

theorem decimal_digits_all : ∀ (fuel n : Nat) (acc : Bytes), n < fuel →
    (∀ d ∈ acc, isdigit d = true) → ∀ d ∈ decimal_digits fuel n acc, isdigit d = true
  | 0, n, acc, h, _ => by omega
  | fuel + 1, n, acc, h, hacc => by
    unfold decimal_digits
    split
    · rename_i hn
      intro d hd
      rcases List.mem_cons.mp hd with hd | hd
      · subst hd
        simp only [isdigit, decide_eq_true_eq]
        omega
      · exact hacc d hd
    · rename_i hn
      apply decimal_digits_all fuel (n / 10) _ (by omega)
      intro d hd
      rcases List.mem_cons.mp hd with hd | hd
      · subst hd
        simp only [isdigit, decide_eq_true_eq]
        omega
      · exact hacc d hd

theorem decimal_all_digits (k : Nat) : ∀ d ∈ decimal k, isdigit d = true :=
  decimal_digits_all (k + 1) k [] (by omega) (fun d hd => by simp at hd)

theorem strtoul_digits_decimal_append (rest : Bytes) : ∀ (fuel n : Nat) (acc : Bytes),
    n < fuel → n ≤ ULONG_MAX →
    strtoul_digits (decimal_digits fuel n acc ++ rest) 0 false
      = strtoul_digits (acc ++ rest) n false
  | 0, n, acc, h, _ => by omega
  | fuel + 1, n, acc, h, hmax => by
    unfold decimal_digits
    split
    · rename_i hn
      have hd : isdigit (48 + n) = true := by
        simp only [isdigit, decide_eq_true_eq]
        omega
      have : ¬ n > ULONG_MAX := by omega
      simp only [List.cons_append, strtoul_digits, hd, if_true, Nat.zero_mul, Nat.zero_add,
        Nat.add_sub_cancel_left, Bool.false_or, this, decide_False, Bool.false_eq_true,
        if_false]
      rfl
    · rename_i hn
      rw [strtoul_digits_decimal_append rest fuel (n / 10) _ (by omega) (by omega)]
      have hd : isdigit (48 + n % 10) = true := by
        simp only [isdigit, decide_eq_true_eq]
        omega
      have e : n / 10 * 10 + (48 + n % 10 - 48) = n := by omega
      have : ¬ n > ULONG_MAX := by omega
      simp only [List.cons_append, strtoul_digits, hd, if_true, e, Bool.false_or, this,
        decide_False, Bool.false_eq_true, if_false]
      rfl

theorem strtoul_digits_rest (rest : Bytes) (k : Nat)
    (h : ∀ c, rest.head? = some c → isdigit c = false) :
    strtoul_digits rest k false = (k, false, rest) := by
  cases rest with
  | nil => rfl
  | cons c r =>
    have hc := h c rfl
    simp only [strtoul_digits, hc, Bool.false_eq_true, if_false]

/-- The call `strtoul` on a decimal numeral that is followed by no further
digit: the value is the number, and exactly the numeral is consumed. -/
theorem strtoul_decimal_append (k : Nat) (rest : Bytes) (hk : k ≤ ULONG_MAX)
    (h : ∀ c, rest.head? = some c → isdigit c = false) :
    strtoul (decimal k ++ rest) = (k, (decimal k).length) := by
  obtain ⟨c, r0, hc, hd⟩ := decimal_digits_head (k + 1) k [] (by omega)
  have hr := strtoul_digits_decimal_append rest (k + 1) k [] (by omega) hk
  rw [List.nil_append, strtoul_digits_rest rest k h] at hr
  unfold decimal at *
  unfold strtoul
  have hlen : (decimal_digits (k + 1) k [] ++ rest).length - rest.length
      = (decimal_digits (k + 1) k []).length := by
    rw [List.length_append]
    omega
  rw [hc] at hr hlen ⊢
  have hsp : isspace c = false := by
    simp only [isdigit, decide_eq_true_eq] at hd
    simp only [isspace, decide_eq_false_iff_not]
    omega
  have h45 : c ≠ 45 := by
    simp only [isdigit, decide_eq_true_eq] at hd
    omega
  have h43 : c ≠ 43 := by
    simp only [isdigit, decide_eq_true_eq] at hd
    omega
  simp only [List.cons_append] at hr hlen ⊢
  simp only [List.dropWhile_cons, hsp, List.head?_cons, Option.some.injEq, h45, h43, or_self,
    if_false, hd, if_true, hr, decide_False, Bool.false_eq_true, hlen]

theorem decimal_digits_length_ge : ∀ (fuel n : Nat) (acc : Bytes), n < fuel →
    acc.length + 1 ≤ (decimal_digits fuel n acc).length
  | 0, n, acc, h => by omega
  | fuel + 1, n, acc, h => by
    unfold decimal_digits
    split
    · simp
    · rename_i hn
      have := decimal_digits_length_ge fuel (n / 10) ((48 + n % 10) :: acc) (by omega)
      simp only [List.length_cons] at this
      omega

theorem decimal_digits_length_mono : ∀ (fuel fuel1 a b : Nat) (acc acc1 : Bytes),
    a ≤ b → a < fuel → b < fuel1 → acc.length ≤ acc1.length →
    (decimal_digits fuel a acc).length ≤ (decimal_digits fuel1 b acc1).length
  | 0, _, a, b, acc, acc1, _, h, _, _ => by omega
  | fuel + 1, 0, a, b, acc, acc1, _, _, h, _ => by omega
  | fuel + 1, fuel1 + 1, a, b, acc, acc1, hab, ha, hb, hacc => by
    by_cases h10 : a < 10
    · have e : decimal_digits (fuel + 1) a acc = (48 + a) :: acc := by
        unfold decimal_digits
        rw [if_pos h10]
      rw [e]
      have := decimal_digits_length_ge (fuel1 + 1) b acc1 hb
      simp only [List.length_cons]
      omega
    · have e : decimal_digits (fuel + 1) a acc
          = decimal_digits fuel (a / 10) ((48 + a % 10) :: acc) := by
        rw [decimal_digits, if_neg h10]
      have e1 : decimal_digits (fuel1 + 1) b acc1
          = decimal_digits fuel1 (b / 10) ((48 + b % 10) :: acc1) := by
        rw [decimal_digits, if_neg (by omega)]
      rw [e, e1]
      exact decimal_digits_length_mono fuel fuel1 (a / 10) (b / 10) _ _
        (Nat.div_le_div_right hab) (by omega) (by omega) (by simp only [List.length_cons]; omega)

/-- A larger number has at least as many decimal digits. -/
theorem decimal_length_mono (a b : Nat) (h : a ≤ b) : (decimal a).length ≤ (decimal b).length :=
  decimal_digits_length_mono (a + 1) (b + 1) a b [] [] h (by omega) (by omega) (le_refl _)


theorem ulong_of_small (M : Nat) (h : M < 2 ^ 31) : ulong_of_int M = M := by
  unfold ulong_of_int
  have e : M % 2 ^ 32 = M := Nat.mod_eq_of_lt (by omega)
  rw [e, if_pos h]

theorem drop_past (A P X : Bytes) (c : Nat) :
    (A ++ (P ++ c :: X)).drop (A.length + P.length + 1) = X := by
  have e : A ++ (P ++ c :: X) = (A ++ (P ++ [c])) ++ X := by simp
  have l : A.length + P.length + 1 = (A ++ (P ++ [c])).length := by
    simp only [List.length_append, List.length_cons, List.length_nil]
    omega
  rw [e, l, List.drop_left]

/-- The test on the 8 bytes in front of an `@` (lines 1207 and 1248). -/
theorem fragment_check (A pre rest : Bytes) :
    (pre.length < 8 ∨
      ¬ strncmp_eq ((A ++ (pre ++ 64 :: rest)).drop (A.length + pre.length - 8))
        (str "fragment") 8 = true) ↔ ends_in_fragment pre = false := by
  unfold ends_in_fragment
  by_cases h8 : pre.length < 8
  · simp only [h8, true_or, true_iff, decide_eq_false_iff_not, not_and]
    intro hc
    omega
  · have e1 : A.length + pre.length - 8 = A.length + (pre.length - 8) := by omega
    have e2 : (A ++ (pre ++ 64 :: rest)).drop (A.length + (pre.length - 8))
        = pre.drop (pre.length - 8) ++ 64 :: rest := by
      rw [List.drop_append, List.drop_append_of_le_length (by omega)]
    have l8 : (pre.drop (pre.length - 8)).length = 8 := by
      rw [List.length_drop]
      omega
    have e3 : (pre.drop (pre.length - 8) ++ 64 :: rest).take 8 = pre.drop (pre.length - 8) := by
      rw [List.take_append_of_le_length (by omega), List.take_of_length_le (by omega)]
    have e4 : (str "fragment").take 8 = str "fragment" := by decide
    rw [e1, e2]
    unfold strncmp_eq
    rw [e3, e4]
    simp only [h8, false_or, decide_eq_true_eq, List.length_append, List.length_cons, l8,
      decide_eq_false_iff_not, not_and]
    constructor
    · intro h _ hc
      exact h hc (by omega)
    · intro h hc _
      exact h (by omega) hc

theorem ends_in_fragment_append (pre : Bytes) : ends_in_fragment (pre ++ str "fragment") = true := by
  unfold ends_in_fragment
  have l : (str "fragment").length = 8 := by decide
  simp only [List.length_append, l, Nat.add_sub_cancel, List.drop_left, and_true,
    decide_eq_true_eq]
  omega

theorem needed_other (A pre rest : Bytes) (M fuel needed : Nat) (found : Bool)
    (h64 : 64 ∉ pre) (hend : ends_in_fragment pre = false) :
    rename_needed (A ++ (pre ++ 64 :: rest)) M (fuel + 1) A.length needed found
      = rename_needed (A ++ (pre ++ 64 :: rest)) M fuel (A.length + pre.length + 1)
          (needed + (pre.length + 1)) found := by
  have hlt : A.length < (A ++ (pre ++ 64 :: rest)).length := by
    simp only [List.length_append, List.length_cons]
    omega
  have hlen : (A ++ (pre ++ 64 :: rest)).length - A.length = (pre ++ 64 :: rest).length := by
    simp only [List.length_append, List.length_cons]
    omega
  rw [rename_needed, if_pos hlt, List.drop_left, hlen, memchr_append_mem pre rest 64 h64]
  dsimp only
  rw [if_pos ((fragment_check A pre rest).mpr hend)]

theorem needed_fragment (A pre rest : Bytes) (k M fuel needed : Nat) (found : Bool)
    (hM : M < 2 ^ 31) (h64 : 64 ∉ pre) (hk : k + M ≤ ULONG_MAX)
    (hrest : ∀ c, rest.head? = some c → isdigit c = false) :
    rename_needed (A ++ ((pre ++ str "fragment") ++ 64 :: (decimal k ++ rest))) M (fuel + 1)
        A.length needed found
      = rename_needed (A ++ ((pre ++ str "fragment") ++ 64 :: (decimal k ++ rest))) M fuel
          (A.length + (pre ++ str "fragment").length + 1 + (decimal k).length)
          (needed + ((pre ++ str "fragment").length + 1) + (decimal (k + M)).length) true := by
  have h64a : 64 ∉ pre ++ str "fragment" := by
    intro hc
    rcases List.mem_append.mp hc with hc | hc
    · exact h64 hc
    · revert hc
      decide
  have hlt : A.length < (A ++ ((pre ++ str "fragment") ++ 64 :: (decimal k ++ rest))).length := by
    simp only [List.length_append, List.length_cons]
    omega
  have hlen : (A ++ ((pre ++ str "fragment") ++ 64 :: (decimal k ++ rest))).length - A.length
      = ((pre ++ str "fragment") ++ 64 :: (decimal k ++ rest)).length := by
    simp only [List.length_append, List.length_cons]
    omega
  have hU : ULONG_MAX < 2 ^ 64 := by decide
  rw [rename_needed, if_pos hlt, List.drop_left, hlen, memchr_append_mem _ _ 64 h64a]
  dsimp only
  have hchk := (fragment_check A (pre ++ str "fragment") (decimal k ++ rest)).not.mpr
    (by rw [ends_in_fragment_append]; simp)
  rw [if_neg hchk, drop_past, strtoul_decimal_append k rest (by omega) hrest, ulong_of_small M hM]
  dsimp only
  rw [if_neg (by omega), Nat.mod_eq_of_lt (by omega)]

theorem needed_end (A tail : Bytes) (M fuel needed : Nat) (found : Bool) (h64 : 64 ∉ tail) :
    rename_needed (A ++ tail) M (fuel + 1) A.length needed found
      = .ok (needed + tail.length, found) := by
  rw [rename_needed]
  split
  · have hlen : (A ++ tail).length - A.length = tail.length := by
      simp only [List.length_append]
      omega
    rw [List.drop_left, hlen, memchr_not_mem tail 64 _ h64]
  · rename_i h
    have : tail.length = 0 := by
      simp only [List.length_append] at h
      omega
    rw [this]
    rfl

theorem reassoc_piece (A P R : Bytes) (c : Nat) :
    A ++ (P ++ c :: R) = (A ++ (P ++ [c])) ++ R ∧
    (A ++ (P ++ [c])).length = A.length + P.length + 1 := by
  constructor
  · simp
  · simp only [List.length_append, List.length_cons, List.length_nil]
    omega

/-- The first loop of `rename_fragments_in_property` on a value cut into its
pieces: the length it computes is the length of the renamed value, and it has
found a fragment exactly when there is one. -/
theorem rename_needed_pieces (M : Nat) (hM : M < 2 ^ 31) :
    ∀ (ts : List (Bytes × Option Nat)) (tail A : Bytes) (fuel needed : Nat) (found : Bool),
    pieces_ok ts tail → (∀ t ∈ ts, ∀ k, t.2 = some k → k + M ≤ ULONG_MAX) →
    ts.length < fuel →
    rename_needed (A ++ fragment_text id ts tail) M fuel A.length needed found
      = .ok (needed + (fragment_text (· + M) ts tail).length, found || has_fragment ts)
  | [], tail, A, fuel, needed, found, hok, _, hf => by
    obtain ⟨f, rfl⟩ : ∃ f, fuel = f + 1 := ⟨fuel - 1, by simp at hf; omega⟩
    unfold pieces_ok at hok
    simp only [fragment_text, has_fragment, List.any_nil, Bool.or_false]
    exact needed_end A tail M f needed found hok
  | (pre, none) :: ts, tail, A, fuel, needed, found, hok, hidx, hf => by
    obtain ⟨f, rfl⟩ : ∃ f, fuel = f + 1 := ⟨fuel - 1, by simp at hf; omega⟩
    unfold pieces_ok at hok
    simp only [fragment_text]
    rw [needed_other A pre _ M f needed found hok.1 hok.2.1]
    obtain ⟨e, l⟩ := reassoc_piece A pre (fragment_text id ts tail) 64
    rw [e, ← l, rename_needed_pieces M hM ts tail _ f _ found hok.2.2
      (fun t ht => hidx t (List.mem_cons_of_mem _ ht))
      (by simp only [List.length_cons] at hf; omega)]
    simp only [has_fragment, List.any_cons, Option.isSome_none, Bool.false_or,
      List.length_append, List.length_cons]
    congr 2
    omega
  | (pre, some k) :: ts, tail, A, fuel, needed, found, hok, hidx, hf => by
    obtain ⟨f, rfl⟩ : ∃ f, fuel = f + 1 := ⟨fuel - 1, by simp at hf; omega⟩
    unfold pieces_ok at hok
    simp only [fragment_text, id_eq]
    have hk := hidx (pre, some k) (List.mem_cons_self _ _) k rfl
    rw [needed_fragment A pre _ k M f needed found hM hok.1 hk hok.2.1]
    have e : A ++ ((pre ++ str "fragment") ++ 64 :: (decimal k ++ fragment_text id ts tail))
        = (A ++ ((pre ++ str "fragment") ++ 64 :: decimal k)) ++ fragment_text id ts tail := by
      simp
    have l : (A ++ ((pre ++ str "fragment") ++ 64 :: decimal k)).length
        = A.length + (pre ++ str "fragment").length + 1 + (decimal k).length := by
      simp only [List.length_append, List.length_cons]
      omega
    rw [e, ← l, rename_needed_pieces M hM ts tail _ f _ true hok.2.2
      (fun t ht => hidx t (List.mem_cons_of_mem _ ht))
      (by simp only [List.length_cons] at hf; omega)]
    simp only [has_fragment, List.any_cons, Option.isSome_some, Bool.true_or, Bool.or_true,
      List.length_append, List.length_cons]
    congr 2
    omega


theorem write_same (B0 dk dn X : Bytes) (h : dk.length = dn.length) :
    write_at (B0 ++ (dk ++ X)) B0.length dn = B0 ++ (dn ++ X) := by
  unfold write_at
  have s : B0 ++ (dk ++ X) = (B0 ++ dk) ++ X := by simp
  have d : (B0 ++ (dk ++ X)).drop (B0.length + dn.length) = X := by
    rw [s]
    exact List.drop_left' (by simp only [List.length_append]; omega)
  rw [List.take_left, d, List.append_assoc]

theorem write_shift (B0 dk dn rest Z : Bytes) (stop : Nat)
    (hstop : stop = B0.length + dk.length + rest.length) (h : dk.length < dn.length)
    (hz : dn.length - dk.length ≤ Z.length) :
    write_at (write_at (B0 ++ (dk ++ (rest ++ Z))) (B0.length + dn.length)
      (((B0 ++ (dk ++ (rest ++ Z))).drop (B0.length + dk.length)).take
        (stop - (B0.length + dk.length)))) B0.length dn
      = B0 ++ (dn ++ (rest ++ Z.drop (dn.length - dk.length))) := by
  have e1 : (B0 ++ (dk ++ (rest ++ Z))).drop (B0.length + dk.length) = rest ++ Z := by
    have s : B0 ++ (dk ++ (rest ++ Z)) = (B0 ++ dk) ++ (rest ++ Z) := by simp
    rw [s]
    exact List.drop_left' (by simp only [List.length_append])
  have e2 : stop - (B0.length + dk.length) = rest.length := by omega
  rw [e1, e2, List.take_left]
  have l1 : (B0 ++ (dk ++ (rest ++ Z).take (dn.length - dk.length))).length
      = B0.length + dn.length := by
    simp only [List.length_append, List.length_take]
    omega
  have e3 : write_at (B0 ++ (dk ++ (rest ++ Z))) (B0.length + dn.length) rest
      = (B0 ++ (dk ++ (rest ++ Z).take (dn.length - dk.length)))
          ++ (rest ++ Z.drop (dn.length - dk.length)) := by
    unfold write_at
    have s1 : B0 ++ (dk ++ (rest ++ Z))
        = (B0 ++ (dk ++ (rest ++ Z).take (dn.length - dk.length)))
            ++ (rest ++ Z).drop (dn.length - dk.length) := by
      simp only [List.append_assoc, List.take_append_drop]
    have t : (B0 ++ (dk ++ (rest ++ Z))).take (B0.length + dn.length)
        = B0 ++ (dk ++ (rest ++ Z).take (dn.length - dk.length)) := by
      conv_lhs => rw [s1]
      exact List.take_left' l1
    have d : (B0 ++ (dk ++ (rest ++ Z))).drop (B0.length + dn.length + rest.length)
        = Z.drop (dn.length - dk.length) := by
      have s2 : B0 ++ (dk ++ (rest ++ Z)) = (B0 ++ (dk ++ rest)) ++ Z := by simp
      have l2 : B0.length + dn.length + rest.length
          = (B0 ++ (dk ++ rest)).length + (dn.length - dk.length) := by
        simp only [List.length_append]
        omega
      rw [s2, l2, List.drop_append]
    rw [t, d, List.append_assoc]
  rw [e3]
  unfold write_at
  have t2 : ((B0 ++ (dk ++ (rest ++ Z).take (dn.length - dk.length)))
      ++ (rest ++ Z.drop (dn.length - dk.length))).take B0.length = B0 := by
    rw [List.append_assoc]
    exact List.take_left _ _
  rw [t2, List.drop_left' l1, List.append_assoc]

theorem head_zeros (rest : Bytes) (z : Nat)
    (h : ∀ c, rest.head? = some c → isdigit c = false) :
    ∀ c, (rest ++ List.replicate z 0).head? = some c → isdigit c = false := by
  intro c hc
  cases rest with
  | cons d r => exact h c hc
  | nil =>
    cases z with
    | zero => simp at hc
    | succ z =>
      simp only [List.nil_append, List.replicate_succ, List.head?_cons, Option.some.injEq] at hc
      subst hc
      rfl

theorem rewrite_other (D pre X : Bytes) (M fuel stop : Nat)
    (h64 : 64 ∉ pre) (hend : ends_in_fragment pre = false) (hstop : D.length + pre.length < stop) :
    rename_rewrite M (fuel + 1) (D ++ (pre ++ 64 :: X)) D.length stop
      = rename_rewrite M fuel (D ++ (pre ++ 64 :: X)) (D.length + pre.length + 1) stop := by
  rw [rename_rewrite, if_pos (by omega), List.drop_left,
    memchr_append_lt pre X 64 _ h64 (by omega)]
  dsimp only
  rw [if_pos ((fragment_check D pre X).mpr hend)]

theorem rewrite_fragment (D pre rest Z : Bytes) (k M fuel stop : Nat)
    (hM : M < 2 ^ 31) (h64 : 64 ∉ pre) (hk : k + M ≤ ULONG_MAX)
    (hrest : ∀ c, (rest ++ Z).head? = some c → isdigit c = false)
    (hstop : stop = D.length + (pre ++ str "fragment").length + 1 + (decimal k).length
      + rest.length)
    (hz : (decimal (k + M)).length - (decimal k).length ≤ Z.length) :
    rename_rewrite M (fuel + 1)
        (D ++ ((pre ++ str "fragment") ++ 64 :: (decimal k ++ (rest ++ Z)))) D.length stop
      = rename_rewrite M fuel
          ((D ++ ((pre ++ str "fragment") ++ [64])) ++
            (decimal (k + M) ++
              (rest ++ Z.drop ((decimal (k + M)).length - (decimal k).length))))
          ((D ++ ((pre ++ str "fragment") ++ [64])).length + (decimal (k + M)).length)
          (stop + ((decimal (k + M)).length - (decimal k).length)) := by
  have h64a : 64 ∉ pre ++ str "fragment" := by
    intro hc
    rcases List.mem_append.mp hc with hc | hc
    · exact h64 hc
    · revert hc
      decide
  have hU : ULONG_MAX < 2 ^ 64 := by decide
  have hmono := decimal_length_mono k (k + M) (by omega)
  rw [rename_rewrite, if_pos (by omega), List.drop_left,
    memchr_append_lt _ _ 64 _ h64a (by omega)]
  dsimp only
  have hchk := (fragment_check D (pre ++ str "fragment") (decimal k ++ (rest ++ Z))).not.mpr
    (by rw [ends_in_fragment_append]; simp)
  rw [if_neg hchk, drop_past, strtoul_decimal_append k _ (by omega) hrest, ulong_of_small M hM]
  dsimp only
  rw [Nat.mod_eq_of_lt (by omega)]
  obtain ⟨e, l⟩ := reassoc_piece D (pre ++ str "fragment") (decimal k ++ (rest ++ Z)) 64
  rw [e, ← l]
  split
  · rename_i hlt
    rw [write_shift _ (decimal k) (decimal (k + M)) rest Z stop (by rw [l]; omega) hlt hz]
  · rename_i hge
    have heq : (decimal k).length = (decimal (k + M)).length := by omega
    rw [write_same _ (decimal k) (decimal (k + M)) _ heq, ← heq, Nat.sub_self, List.drop_zero,
      Nat.add_zero]


/-- The renamed value is longer than the value by the digits gained. -/
theorem fragment_text_length (M : Nat) : ∀ (ts : List (Bytes × Option Nat)) (tail : Bytes),
    (fragment_text (· + M) ts tail).length
      = (fragment_text id ts tail).length + extra_digits M ts
  | [], tail => by simp [fragment_text, extra_digits]
  | (pre, none) :: ts, tail => by
    simp only [fragment_text, extra_digits, List.length_append, List.length_cons,
      fragment_text_length M ts tail]
    omega
  | (pre, some k) :: ts, tail => by
    have hmono := decimal_length_mono k (k + M) (by omega)
    simp only [fragment_text, extra_digits, List.length_append, List.length_cons,
      fragment_text_length M ts tail, id_eq]
    omega

theorem pieces_length_le : ∀ (ts : List (Bytes × Option Nat)) (tail : Bytes),
    ts.length ≤ (fragment_text id ts tail).length
  | [], tail => by simp
  | (pre, none) :: ts, tail => by
    have := pieces_length_le ts tail
    simp only [fragment_text, List.length_append, List.length_cons]
    omega
  | (pre, some k) :: ts, tail => by
    have := pieces_length_le ts tail
    simp only [fragment_text, List.length_append, List.length_cons]
    omega

/-- The second loop of `rename_fragments_in_property` on a buffer that holds
the text already written (`D`), the pieces still to be read and the room the
placeholder call has added: it writes the renamed pieces behind `D`. -/
theorem rename_rewrite_pieces (M : Nat) (hM : M < 2 ^ 31) :
    ∀ (ts : List (Bytes × Option Nat)) (tail D : Bytes) (fuel z : Nat),
    pieces_ok ts tail → (∀ t ∈ ts, ∀ k, t.2 = some k → k + M ≤ ULONG_MAX) →
    ts.length < fuel → extra_digits M ts ≤ z →
    rename_rewrite M fuel (D ++ (fragment_text id ts tail ++ List.replicate z 0)) D.length
        (D.length + (fragment_text id ts tail).length)
      = D ++ (fragment_text (· + M) ts tail ++ List.replicate (z - extra_digits M ts) 0)
  | [], tail, D, fuel, z, hok, _, hf, _ => by
    obtain ⟨f, rfl⟩ : ∃ f, fuel = f + 1 := ⟨fuel - 1, by simp at hf; omega⟩
    unfold pieces_ok at hok
    simp only [fragment_text, extra_digits, Nat.sub_zero]
    rw [rename_rewrite]
    split
    · have hn : memchr (tail ++ List.replicate z 0) 64 tail.length = none := by
        unfold memchr
        rw [List.take_left, List.indexOf_of_not_mem hok]
        simp
      rw [List.drop_left, Nat.add_sub_cancel_left, hn]
    · rfl
  | (pre, none) :: ts, tail, D, fuel, z, hok, hidx, hf, hz => by
    obtain ⟨f, rfl⟩ : ∃ f, fuel = f + 1 := ⟨fuel - 1, by simp at hf; omega⟩
    unfold pieces_ok at hok
    simp only [fragment_text, extra_digits, List.cons_append, List.append_assoc,
      List.length_append, List.length_cons] at hz ⊢
    rw [rewrite_other D pre _ M f _ hok.1 hok.2.1 (by omega)]
    obtain ⟨e, l⟩ := reassoc_piece D pre (fragment_text id ts tail ++ List.replicate z 0) 64
    have e2 := (reassoc_piece D pre
      (fragment_text (· + M) ts tail ++ List.replicate (z - extra_digits M ts) 0) 64).1
    have hs : D.length + (pre.length + ((fragment_text id ts tail).length + 1))
        = (D ++ (pre ++ [64])).length + (fragment_text id ts tail).length := by
      rw [l]
      omega
    rw [e, ← l, hs, e2]
    exact rename_rewrite_pieces M hM ts tail _ f z hok.2.2
      (fun t ht => hidx t (List.mem_cons_of_mem _ ht))
      (by simp only [List.length_cons] at hf; omega) hz
  | (pre, some k) :: ts, tail, D, fuel, z, hok, hidx, hf, hz => by
    obtain ⟨f, rfl⟩ : ∃ f, fuel = f + 1 := ⟨fuel - 1, by simp at hf; omega⟩
    unfold pieces_ok at hok
    have hk := hidx (pre, some k) (List.mem_cons_self _ _) k rfl
    have hmono := decimal_length_mono k (k + M) (by omega)
    simp only [fragment_text, extra_digits, id_eq, List.cons_append, List.append_assoc,
      List.length_append, List.length_cons] at hz ⊢
    have hb : D ++ (pre ++ (str "fragment" ++ 64 :: (decimal k
          ++ (fragment_text id ts tail ++ List.replicate z 0))))
        = D ++ ((pre ++ str "fragment") ++ 64 :: (decimal k
          ++ (fragment_text id ts tail ++ List.replicate z 0))) := by
      simp only [List.append_assoc]
    rw [hb, rewrite_fragment D pre (fragment_text id ts tail) (List.replicate z 0) k M f _ hM
      hok.1 hk (head_zeros _ z hok.2.1)
      (by simp only [List.length_append]; omega)
      (by simp only [List.length_replicate]; omega)]
    rw [List.drop_replicate]
    have e1 : (D ++ ((pre ++ str "fragment") ++ [64])) ++ (decimal (k + M)
          ++ (fragment_text id ts tail
            ++ List.replicate (z - ((decimal (k + M)).length - (decimal k).length)) 0))
        = (D ++ ((pre ++ str "fragment") ++ 64 :: decimal (k + M)))
          ++ (fragment_text id ts tail
            ++ List.replicate (z - ((decimal (k + M)).length - (decimal k).length)) 0) := by
      simp only [List.append_assoc, List.cons_append, List.nil_append]
    have l1 : (D ++ ((pre ++ str "fragment") ++ [64])).length + (decimal (k + M)).length
        = (D ++ ((pre ++ str "fragment") ++ 64 :: decimal (k + M))).length := by
      simp only [List.length_append, List.length_cons, List.length_nil]
      omega
    have l2 : D.length + (pre.length + ((str "fragment").length
          + ((decimal k).length + (fragment_text id ts tail).length + 1)))
          + ((decimal (k + M)).length - (decimal k).length)
        = (D ++ ((pre ++ str "fragment") ++ 64 :: decimal (k + M))).length
          + (fragment_text id ts tail).length := by
      simp only [List.length_append, List.length_cons]
      omega
    rw [e1, l1, l2, rename_rewrite_pieces M hM ts tail _ f _ hok.2.2
      (fun t ht => hidx t (List.mem_cons_of_mem _ ht))
      (by simp only [List.length_cons] at hf; omega) (by omega)]
    simp only [List.append_assoc, List.cons_append, Nat.sub_sub]


theorem fragment_text_plain (f : Nat → Nat) : ∀ (ts : List (Bytes × Option Nat)) (tail : Bytes),
    has_fragment ts = false → fragment_text f ts tail = fragment_text id ts tail
  | [], tail, _ => rfl
  | (pre, none) :: ts, tail, h => by
    simp only [has_fragment, List.any_cons, Option.isSome_none, Bool.false_or] at h
    simp only [fragment_text]
    rw [fragment_text_plain f ts tail h]
  | (pre, some k) :: ts, tail, h => by
    simp [has_fragment] at h

/-- The function `rename_fragments_in_property` on a value cut into its
pieces: what it returns. -/
theorem rename_in_property_pieces (fdto : Blob) (offset : Offset) (property M : Nat)
    (label : Bytes) (ts : List (Bytes × Option Nat)) (tail : Bytes)
    (hM : M < 2 ^ 31) (hok : pieces_ok ts tail)
    (hidx : ∀ t ∈ ts, ∀ k, t.2 = some k → k + M ≤ ULONG_MAX)
    (hget : fdt_getprop_by_offset fdto offset property
      = .ok (label, fragment_text id ts tail)) :
    (has_fragment ts = false →
      rename_fragments_in_property fdto offset property M = .ok fdto) ∧
    (has_fragment ts = true → extra_digits M ts = 0 →
      rename_fragments_in_property fdto offset property M
        = .ok (prop_memcpy fdto offset label 0 (fragment_text (· + M) ts tail))) ∧
    (has_fragment ts = true → 0 < extra_digits M ts →
      rename_fragments_in_property fdto offset property M
        = Res.ofExcept fdto
            (fdt_setprop fdto offset label (fragment_text (· + M) ts tail))) := by
  have hneed := rename_needed_pieces M hM ts tail [] ((fragment_text id ts tail).length + 1) 0
    false hok hidx (by have := pieces_length_le ts tail; omega)
  simp only [List.nil_append, List.length_nil, Nat.zero_add, Bool.false_or] at hneed
  have hlen := fragment_text_length M ts tail
  have hrw : ∀ z, extra_digits M ts ≤ z →
      rename_rewrite M ((fragment_text id ts tail).length + 1)
        (fragment_text id ts tail ++ List.replicate z 0) 0 (fragment_text id ts tail).length
        = fragment_text (· + M) ts tail ++ List.replicate (z - extra_digits M ts) 0 := by
    intro z hz
    have := rename_rewrite_pieces M hM ts tail [] ((fragment_text id ts tail).length + 1) z
      hok hidx (by have := pieces_length_le ts tail; omega) hz
    simp only [List.nil_append, List.length_nil, Nat.zero_add] at this
    exact this
  unfold rename_fragments_in_property
  rw [hget]
  dsimp only
  rw [hneed]
  dsimp only
  refine ⟨fun hf => ?_, fun hf h0 => ?_, fun hf h0 => ?_⟩
  · rw [hf]
    rfl
  · rw [hf]
    have h1 := hrw 0 (by omega)
    simp only [List.replicate_zero, List.append_nil, h0, Nat.sub_self] at h1
    simp only [Bool.not_eq_true, Bool.true_eq_false, if_false, hlen, h0, Nat.add_zero,
      gt_iff_lt, lt_irrefl, h1]
    rfl
  · rw [hf]
    have h1 := hrw (extra_digits M ts) (le_refl _)
    simp only [Nat.sub_self, List.replicate_zero, List.append_nil] at h1
    have hgt : (fragment_text (· + M) ts tail).length > (fragment_text id ts tail).length := by
      omega
    have hz : (fragment_text (· + M) ts tail).length - (fragment_text id ts tail).length
        = extra_digits M ts := by omega
    simp only [Bool.not_eq_true, Bool.true_eq_false, if_false, hgt, if_true, hz, h1]
    unfold fdt_setprop
    cases fdt_setprop_placeholder fdto offset label (fragment_text (· + M) ts tail).length with
    | error e => rfl
    | ok fdto1 => rfl

theorem getprop_memcpy_full (F : Blob) (off : Offset) (name v data : Bytes)
    (hv : fdt_getprop F off name = .ok v) (hl : v.length = data.length) :
    fdt_getprop (prop_memcpy F off name 0 data) off name = .ok data := by
  cases hg : F.root.get? off with
  | none =>
    unfold fdt_getprop at hv
    rw [hg] at hv
    cases hv
  | some t =>
    have hp : prop_lookup name t.props = some v := by
      unfold fdt_getprop at hv
      rw [hg] at hv
      dsimp only at hv
      cases hl2 : prop_lookup name t.props with
      | none => rw [hl2] at hv; cases hv
      | some w =>
        rw [hl2] at hv
        injection hv with hv
        rw [hv]
    have := getprop_modify F _ off (memcpy_props name 0 data) (memcpy_root F off name 0 data).1
      t hg name _ (memcpy_props_lookup_self name 0 data v t.props hp)
    rw [write_at_full v data hl] at this
    exact this


theorem needed_fragment_overflow (A pre rest : Bytes) (k M fuel needed : Nat) (found : Bool)
    (hM : M < 2 ^ 31) (h64 : 64 ∉ pre) (hk : k ≤ ULONG_MAX) (hov : ULONG_MAX < k + M)
    (hrest : ∀ c, rest.head? = some c → isdigit c = false) :
    rename_needed (A ++ ((pre ++ str "fragment") ++ 64 :: (decimal k ++ rest))) M (fuel + 1)
        A.length needed found = .error .BADVALUE := by
  have h64a : 64 ∉ pre ++ str "fragment" := by
    intro hc
    rcases List.mem_append.mp hc with hc | hc
    · exact h64 hc
    · revert hc
      decide
  have hlt : A.length < (A ++ ((pre ++ str "fragment") ++ 64 :: (decimal k ++ rest))).length := by
    simp only [List.length_append, List.length_cons]
    omega
  have hlen : (A ++ ((pre ++ str "fragment") ++ 64 :: (decimal k ++ rest))).length - A.length
      = ((pre ++ str "fragment") ++ 64 :: (decimal k ++ rest)).length := by
    simp only [List.length_append, List.length_cons]
    omega
  rw [rename_needed, if_pos hlt, List.drop_left, hlen, memchr_append_mem _ _ 64 h64a]
  dsimp only
  have hchk := (fragment_check A (pre ++ str "fragment") (decimal k ++ rest)).not.mpr
    (by rw [ends_in_fragment_append]; simp)
  rw [if_neg hchk, drop_past, strtoul_decimal_append k rest hk hrest, ulong_of_small M hM]
  dsimp only
  rw [if_pos (by omega)]

/-- The first loop of `rename_fragments_in_property` stops with `BADVALUE` when
an index plus the delta does not fit an `unsigned long`. -/
theorem rename_needed_overflow (M : Nat) (hM : M < 2 ^ 31) :
    ∀ (ts : List (Bytes × Option Nat)) (tail A : Bytes) (fuel needed : Nat) (found : Bool),
    pieces_ok ts tail → (∀ t ∈ ts, ∀ k, t.2 = some k → k ≤ ULONG_MAX) →
    (∃ t ∈ ts, ∃ k, t.2 = some k ∧ ULONG_MAX < k + M) → ts.length < fuel →
    rename_needed (A ++ fragment_text id ts tail) M fuel A.length needed found
      = .error .BADVALUE
  | [], tail, A, fuel, needed, found, _, _, hex, _ => by
    obtain ⟨t, ht, _⟩ := hex
    simp at ht
  | (pre, none) :: ts, tail, A, fuel, needed, found, hok, hidx, hex, hf => by
    obtain ⟨f, rfl⟩ : ∃ f, fuel = f + 1 := ⟨fuel - 1, by simp at hf; omega⟩
    unfold pieces_ok at hok
    simp only [fragment_text]
    rw [needed_other A pre _ M f needed found hok.1 hok.2.1]
    obtain ⟨e, l⟩ := reassoc_piece A pre (fragment_text id ts tail) 64
    have hex1 : ∃ t ∈ ts, ∃ k, t.2 = some k ∧ ULONG_MAX < k + M := by
      obtain ⟨t, ht, k, hk, hov⟩ := hex
      rcases List.mem_cons.mp ht with ht | ht
      · subst ht
        cases hk
      · exact ⟨t, ht, k, hk, hov⟩
    rw [e, ← l]
    exact rename_needed_overflow M hM ts tail _ f _ found hok.2.2
      (fun t ht => hidx t (List.mem_cons_of_mem _ ht)) hex1
      (by simp only [List.length_cons] at hf; omega)
  | (pre, some k) :: ts, tail, A, fuel, needed, found, hok, hidx, hex, hf => by
    obtain ⟨f, rfl⟩ : ∃ f, fuel = f + 1 := ⟨fuel - 1, by simp at hf; omega⟩
    unfold pieces_ok at hok
    simp only [fragment_text, id_eq]
    have hk := hidx (pre, some k) (List.mem_cons_self _ _) k rfl
    by_cases hov : ULONG_MAX < k + M
    · exact needed_fragment_overflow A pre _ k M f needed found hM hok.1 hk hov hok.2.1
    · rw [needed_fragment A pre _ k M f needed found hM hok.1 (by omega) hok.2.1]
      have e : A ++ ((pre ++ str "fragment") ++ 64 :: (decimal k ++ fragment_text id ts tail))
          = (A ++ ((pre ++ str "fragment") ++ 64 :: decimal k)) ++ fragment_text id ts tail := by
        simp
      have l : (A ++ ((pre ++ str "fragment") ++ 64 :: decimal k)).length
          = A.length + (pre ++ str "fragment").length + 1 + (decimal k).length := by
        simp only [List.length_append, List.length_cons]
        omega
      have hex1 : ∃ t ∈ ts, ∃ k, t.2 = some k ∧ ULONG_MAX < k + M := by
        obtain ⟨t, ht, k1, hk1, hov1⟩ := hex
        rcases List.mem_cons.mp ht with ht | ht
        · subst ht
          cases hk1
          exact absurd hov1 hov
        · exact ⟨t, ht, k1, hk1, hov1⟩
      rw [e, ← l]
      exact rename_needed_overflow M hM ts tail _ f _ true hok.2.2
        (fun t ht => hidx t (List.mem_cons_of_mem _ ht)) hex1
        (by simp only [List.length_cons] at hf; omega)

theorem rename_in_property_badvalue (fdto : Blob) (offset : Offset) (property M : Nat)
    (label : Bytes) (ts : List (Bytes × Option Nat)) (tail : Bytes)
    (hM : M < 2 ^ 31) (hok : pieces_ok ts tail)
    (hidx : ∀ t ∈ ts, ∀ k, t.2 = some k → k ≤ ULONG_MAX)
    (hex : ∃ t ∈ ts, ∃ k, t.2 = some k ∧ ULONG_MAX < k + M)
    (hget : fdt_getprop_by_offset fdto offset property
      = .ok (label, fragment_text id ts tail)) :
    rename_fragments_in_property fdto offset property M = .err .BADVALUE fdto := by
  have hneed := rename_needed_overflow M hM ts tail [] ((fragment_text id ts tail).length + 1) 0
    false hok hidx hex (by have := pieces_length_le ts tail; omega)
  simp only [List.nil_append, List.length_nil] at hneed
  unfold rename_fragments_in_property
  rw [hget]
  dsimp only
  rw [hneed]

/-- The numeral `01` behind `fragment@` with the delta 5: the new numeral `6`
is written over the first digit and the second digit stays where it was. -/
theorem rename_in_property_leading_zero :
    rename_fragments_in_property symbol_leading_zero [0] 0 5
      = .ok (mk_blob 4 (.mk [] [] [
          .mk (str "__symbols__") [(str "lbl", str "/fragment@61/__overlay__/a" ++ [0])] []])) := by
  decide


/-- C35 (counterexample): with the index `18446744073709551615` behind
`fragment@` and the delta 1 the value is not rewritten: the call returns
`BADVALUE` and leaves the blob as it was. -/
theorem rename_in_property_overflow :
    fdt_getprop_by_offset symbol_max_index [0] 0
      = .ok (str "lbl", str "/fragment@18446744073709551615/__overlay__/a" ++ [0]) ∧
    rename_fragments_in_property symbol_max_index [0] 0 1
      = .err .BADVALUE symbol_max_index :=
  ⟨rfl, by decide⟩

/-- C35 (amended): renaming inside a property value.  Let the value of the
property be cut at its `@` bytes into pieces, `pre@` where `pre` does not end
in `fragment`, and `pre` followed by `fragment@` and the decimal numeral of an
index `k` that fits an `unsigned long` (as `%lu` prints it, the next byte no
digit), and let the delta `M` fit the `int` parameter.  When `k + M` does not
fit an `unsigned long` for some index, `rename_fragments_in_property` returns
`BADVALUE` and writes nothing.  When it fits for every index, the function
returns 0 and writes nothing if the value has no `fragment@`; otherwise it
writes the value in which every numeral is the numeral of `k + M` and every
other byte is kept in order: in place when no numeral gains a digit, through
`fdt_setprop_placeholder` when one does, with the error of that call when the
blob has no room.  The renamed value is longer by exactly the digits gained,
and after a successful call the property holds it. -/
theorem rename_fragments_in_property_renames (fdto : Blob) (offset : Offset)
    (property M : Nat) (label : Bytes) (ts : List (Bytes × Option Nat)) (tail : Bytes)
    (hM : M < 2 ^ 31) (hok : pieces_ok ts tail)
    (hidx : ∀ t ∈ ts, ∀ k, t.2 = some k → k ≤ ULONG_MAX)
    (hget : fdt_getprop_by_offset fdto offset property
      = .ok (label, fragment_text id ts tail)) :
    ((∃ t ∈ ts, ∃ k, t.2 = some k ∧ ULONG_MAX < k + M) →
      rename_fragments_in_property fdto offset property M = .err .BADVALUE fdto) ∧
    ((∀ t ∈ ts, ∀ k, t.2 = some k → k + M ≤ ULONG_MAX) →
      (fragment_text (· + M) ts tail).length
        = (fragment_text id ts tail).length + extra_digits M ts ∧
      (has_fragment ts = false →
        rename_fragments_in_property fdto offset property M = .ok fdto ∧
        fragment_text (· + M) ts tail = fragment_text id ts tail) ∧
      (has_fragment ts = true → extra_digits M ts = 0 →
        rename_fragments_in_property fdto offset property M
          = .ok (prop_memcpy fdto offset label 0 (fragment_text (· + M) ts tail))) ∧
      (has_fragment ts = true → 0 < extra_digits M ts →
        rename_fragments_in_property fdto offset property M
          = Res.ofExcept fdto
              (fdt_setprop fdto offset label (fragment_text (· + M) ts tail))) ∧
      (fdt_getprop fdto offset label = .ok (fragment_text id ts tail) →
        ∀ fdto1, rename_fragments_in_property fdto offset property M = .ok fdto1 →
          fdt_getprop fdto1 offset label = .ok (fragment_text (· + M) ts tail))) := by
  refine ⟨fun hex => rename_in_property_badvalue fdto offset property M label ts tail hM hok
    hidx hex hget, fun hfit => ?_⟩
  obtain ⟨h1, h2, h3⟩ := rename_in_property_pieces fdto offset property M label ts tail hM hok
    hfit hget
  have hlen := fragment_text_length M ts tail
  refine ⟨hlen, fun hf => ⟨h1 hf, fragment_text_plain _ ts tail hf⟩, h2, h3, ?_⟩
  intro hfirst fdto1 hr
  cases hf : has_fragment ts with
  | false =>
    rw [h1 hf] at hr
    injection hr with hr
    rw [← hr, fragment_text_plain _ ts tail hf]
    exact hfirst
  | true =>
    rcases Nat.eq_zero_or_pos (extra_digits M ts) with h0 | h0
    · rw [h2 hf h0] at hr
      injection hr with hr
      rw [← hr]
      exact getprop_memcpy_full fdto offset label _ _ hfirst (by omega)
    · rw [h3 hf h0] at hr
      cases hs : fdt_setprop fdto offset label (fragment_text (· + M) ts tail) with
      | error e =>
        rw [hs] at hr
        cases hr
      | ok f1 =>
        rw [hs] at hr
        injection hr with hr
        rw [← hr]
        exact getprop_setprop fdto f1 offset label _ hs

/-- C35 (witness): the value `/fragment@9/__overlay__/a@1` with the delta 1:
the index 9 becomes 10, the value grows by one byte, and the `@` behind `a` is
left alone. -/
theorem rename_fragments_in_property_renames_witness :
    fragment_text id [(str "/", some 9), (str "/__overlay__/a", none)] (str "1" ++ [0])
      = str "/fragment@9/__overlay__/a@1" ++ [0] ∧
    fragment_text (· + 1) [(str "/", some 9), (str "/__overlay__/a", none)] (str "1" ++ [0])
      = str "/fragment@10/__overlay__/a@1" ++ [0] ∧
    rename_fragments_in_property symbol_nine [0] 0 1
      = Res.ofExcept symbol_nine
          (fdt_setprop symbol_nine [0] (str "lbl")
            (fragment_text (· + 1) [(str "/", some 9), (str "/__overlay__/a", none)]
              (str "1" ++ [0]))) ∧
    fdt_getprop symbol_nine_renamed [0] (str "lbl")
      = .ok (fragment_text (· + 1) [(str "/", some 9), (str "/__overlay__/a", none)]
          (str "1" ++ [0])) :=
  ⟨by decide, by decide,
    ((rename_fragments_in_property_renames symbol_nine [0] 0 1 (str "lbl")
      [(str "/", some 9), (str "/__overlay__/a", none)] (str "1" ++ [0]) (by decide)
      ⟨by decide, fun c hc => (by cases hc; rfl), by decide, by decide,
        (by unfold pieces_ok; decide)⟩
      (fun t ht k hk => (by
        simp only [List.mem_cons, List.mem_singleton, List.not_mem_nil, or_false] at ht
        rcases ht with rfl | rfl
        · cases hk
          decide
        · cases hk))
      ((rfl : fdt_getprop_by_offset symbol_nine [0] 0
          = .ok (str "lbl", str "/fragment@9/__overlay__/a@1" ++ [0])).trans
        (congrArg (fun v => Except.ok (str "lbl", v)) (by decide)))).2
      (fun t ht k hk => (by
        simp only [List.mem_cons, List.mem_singleton, List.not_mem_nil, or_false] at ht
        rcases ht with rfl | rfl
        · cases hk
          decide
        · cases hk))).2.2.2.1 (by decide) (by decide),
    ((rename_fragments_in_property_renames symbol_nine [0] 0 1 (str "lbl")
      [(str "/", some 9), (str "/__overlay__/a", none)] (str "1" ++ [0]) (by decide)
      ⟨by decide, fun c hc => (by cases hc; rfl), by decide, by decide,
        (by unfold pieces_ok; decide)⟩
      (fun t ht k hk => (by
        simp only [List.mem_cons, List.mem_singleton, List.not_mem_nil, or_false] at ht
        rcases ht with rfl | rfl
        · cases hk
          decide
        · cases hk))
      ((rfl : fdt_getprop_by_offset symbol_nine [0] 0
          = .ok (str "lbl", str "/fragment@9/__overlay__/a@1" ++ [0])).trans
        (congrArg (fun v => Except.ok (str "lbl", v)) (by decide)))).2
      (fun t ht k hk => (by
        simp only [List.mem_cons, List.mem_singleton, List.not_mem_nil, or_false] at ht
        rcases ht with rfl | rfl
        · cases hk
          decide
        · cases hk))).2.2.2.2
      ((rfl : fdt_getprop symbol_nine [0] (str "lbl")
          = .ok (str "/fragment@9/__overlay__/a@1" ++ [0])).trans
        (congrArg Except.ok (by decide))) symbol_nine_renamed (by decide)⟩

/-! ### Where the phandles of the base come from -/

theorem all_nodes_list_iff (P : List (Bytes × Bytes) → Prop) : ∀ (cs : List Node),
    Node.all_nodes_list P cs ↔ ∀ c ∈ cs, c.all_nodes P
  | [] => by simp [Node.all_nodes_list]
  | c :: cs => by
    rw [Node.all_nodes_list, all_nodes_list_iff P cs]
    simp

theorem all_nodes_props (P : List (Bytes × Bytes) → Prop) (n : Node) (h : n.all_nodes P) :
    P n.props := by
  obtain ⟨nm, ps, cs⟩ := n
  rw [Node.all_nodes] at h
  exact h.1

theorem all_nodes_children (P : List (Bytes × Bytes) → Prop) (n : Node) (h : n.all_nodes P) :
    ∀ c ∈ n.children, c.all_nodes P := by
  obtain ⟨nm, ps, cs⟩ := n
  rw [Node.all_nodes] at h
  exact (all_nodes_list_iff P cs).mp h.2

theorem all_nodes_of_parts (P : List (Bytes × Bytes) → Prop) (n : Node) (h1 : P n.props)
    (h2 : ∀ c ∈ n.children, c.all_nodes P) : n.all_nodes P := by
  obtain ⟨nm, ps, cs⟩ := n
  rw [Node.all_nodes]
  exact ⟨h1, (all_nodes_list_iff P cs).mpr h2⟩

mutual
theorem all_nodes_mono (P Q : List (Bytes × Bytes) → Prop) (hPQ : ∀ ps, P ps → Q ps) :
    ∀ (n : Node), n.all_nodes P → n.all_nodes Q
  | .mk nm ps cs, h => by
    rw [Node.all_nodes] at h ⊢
    exact ⟨hPQ ps h.1, all_nodes_list_mono P Q hPQ cs h.2⟩
theorem all_nodes_list_mono (P Q : List (Bytes × Bytes) → Prop) (hPQ : ∀ ps, P ps → Q ps) :
    ∀ (cs : List Node), Node.all_nodes_list P cs → Node.all_nodes_list Q cs
  | [], _ => by rw [Node.all_nodes_list]; trivial
  | c :: cs, h => by
    rw [Node.all_nodes_list] at h ⊢
    exact ⟨all_nodes_mono P Q hPQ c h.1, all_nodes_list_mono P Q hPQ cs h.2⟩
end

theorem all_nodes_get (P : List (Bytes × Bytes) → Prop) : ∀ (off : Offset) (root m : Node),
    root.all_nodes P → root.get? off = some m → m.all_nodes P
  | [], root, m, h, hm => by
    rw [get_nil] at hm
    injection hm with hm
    subst hm
    exact h
  | i :: rest, root, m, h, hm => by
    rw [get_cons] at hm
    cases hc : root.children[i]? with
    | none => rw [hc] at hm; cases hm
    | some c =>
      rw [hc] at hm
      exact all_nodes_get P rest c m (all_nodes_children P root h c (List.getElem?_mem hc)) hm

theorem all_nodes_modifyAt (P : List (Bytes × Bytes) → Prop) (f : Node → Node) :
    ∀ (off : Offset) (root : Node), root.all_nodes P →
    (∀ n, root.get? off = some n → n.all_nodes P → (f n).all_nodes P) →
    (root.modifyAt f off).all_nodes P
  | [], root, h, hf => by
    rw [modifyAt_nil]
    exact hf root (get_nil root) h
  | i :: rest, .mk nm ps cs, h, hf => by
    rw [Node.modifyAt]
    cases hc : cs[i]? with
    | none => exact h
    | some c =>
      dsimp only
      have hcs : ∀ d ∈ cs, d.all_nodes P := all_nodes_children P (.mk nm ps cs) h
      have hps : P ps := all_nodes_props P (.mk nm ps cs) h
      refine all_nodes_of_parts P (.mk nm ps (cs.set i (c.modifyAt f rest))) hps ?_
      intro d hd
      rcases List.mem_or_eq_of_mem_set hd with hd | hd
      · exact hcs d hd
      · subst hd
        refine all_nodes_modifyAt P f rest c (hcs c (List.getElem?_mem hc)) ?_
        intro n hn
        refine hf n ?_
        rw [get_cons]
        show (cs[i]?).bind _ = _
        rw [hc]
        exact hn

mutual
theorem all_nodes_of_get (P : List (Bytes × Bytes) → Prop) : ∀ (root : Node),
    (∀ off m, root.get? off = some m → P m.props) → root.all_nodes P
  | .mk nm ps cs, h => by
    rw [Node.all_nodes]
    refine ⟨h [] _ (get_nil _), all_nodes_list_of_get P cs ?_⟩
    intro i c hc off m hm
    refine h (i :: off) m ?_
    rw [get_cons]
    show (cs[i]?).bind _ = _
    rw [hc]
    exact hm
theorem all_nodes_list_of_get (P : List (Bytes × Bytes) → Prop) : ∀ (cs : List Node),
    (∀ (i : Nat) (c : Node), cs[i]? = some c →
      ∀ (off : Offset) (m : Node), c.get? off = some m → P m.props) →
    Node.all_nodes_list P cs
  | [], _ => by rw [Node.all_nodes_list]; trivial
  | c :: cs, h => by
    rw [Node.all_nodes_list]
    exact ⟨all_nodes_of_get P c (h 0 c (List.getElem?_cons_zero)),
      all_nodes_list_of_get P cs
        (fun i d hd => h (i + 1) d (by rw [List.getElem?_cons_succ]; exact hd))⟩
end

/-- A property written with `fdt_setprop` changes the phandle of the node only
when it is a phandle property, and then to the number written. -/
theorem setprop_props_phandle (X : Nat → Prop) (a v : Bytes) (ps : List (Bytes × Bytes))
    (h : phandle_from X ps)
    (hv : a = str "phandle" ∨ a = str "linux,phandle" → v.length = 4 ∧ X (fdt32_to_cpu v)) :
    phandle_from X (setprop_props a v ps) := by
  have hne : str "linux,phandle" ≠ str "phandle" := by decide
  by_cases h1 : a = str "phandle"
  · subst h1
    obtain ⟨g1, g2⟩ := hv (Or.inl rfl)
    right
    have : props_phandle (setprop_props (str "phandle") v ps) = fdt32_to_cpu v := by
      unfold props_phandle
      rw [setprop_props_lookup_self]
      simp only [g1, if_true]
    rw [this]
    exact g2
  · by_cases h2 : a = str "linux,phandle"
    · subst h2
      obtain ⟨g1, g2⟩ := hv (Or.inr rfl)
      have e1 := setprop_props_lookup_ne (str "linux,phandle") (str "phandle") v ps
        (fun e => hne e.symm)
      have e2 := setprop_props_lookup_self (str "linux,phandle") v ps
      unfold phandle_from props_phandle at h ⊢
      rw [e1, e2]
      cases hp : prop_lookup (str "phandle") ps with
      | none =>
        simp only [g1, if_true]
        exact Or.inr g2
      | some w =>
        rw [hp] at h
        dsimp only at h ⊢
        by_cases hw : w.length = 4
        · simp only [hw, if_true] at h ⊢
          exact h
        · simp only [hw, if_false, g1, if_true]
          exact Or.inr g2
    · unfold phandle_from at h ⊢
      rw [props_phandle_congr ps _
        (setprop_props_lookup_ne a (str "phandle") v ps (fun e => h1 e.symm))
        (setprop_props_lookup_ne a (str "linux,phandle") v ps (fun e => h2 e.symm))]
      exact h

/-- The same on the tree of a blob. -/
theorem setprop_phandles (X : Nat → Prop) (fdt fdt1 : Blob) (off : Offset) (a v : Bytes)
    (h : fdt_setprop fdt off a v = .ok fdt1)
    (hinv : fdt.root.all_nodes (phandle_from X))
    (hv : a = str "phandle" ∨ a = str "linux,phandle" → v.length = 4 ∧ X (fdt32_to_cpu v)) :
    fdt1.root.all_nodes (phandle_from X) := by
  have ht : ∃ t, fdt.root.get? off = some t := by
    unfold fdt_setprop at h
    split at h
    · cases h
    · rename_i fdt2 hp
      exact (placeholder_root _ _ _ _ _ hp).2.2.2.2
  obtain ⟨t, ht⟩ := ht
  rw [setprop_root fdt fdt1 off a v t ht h]
  refine all_nodes_modifyAt _ _ off _ hinv ?_
  intro n hn hnall
  rw [ht] at hn
  injection hn with hn
  subst hn
  refine all_nodes_of_parts _ _ ?_ ?_
  · rw [set_props_props]
    exact setprop_props_phandle X a v _ (all_nodes_props _ _ hnall) hv
  · rw [set_props_children]
    exact all_nodes_children _ _ hnall

/-- A new empty subnode leaves a property of all nodes in place when the empty
property list has it. -/
theorem add_subnode_all_nodes (P : List (Bytes × Bytes) → Prop) (hP : P [])
    (fdt fdt1 : Blob) (off child : Offset) (name : Bytes)
    (h : fdt_add_subnode fdt off name = .ok (fdt1, child))
    (hinv : fdt.root.all_nodes P) : fdt1.root.all_nodes P := by
  have ht : ∃ t, fdt.root.get? off = some t := by
    unfold fdt_add_subnode at h
    split at h
    · cases h
    · exact ⟨_, ‹_›⟩
  obtain ⟨t, ht⟩ := ht
  rw [(add_subnode_root fdt fdt1 off child name t ht h).2.2]
  refine all_nodes_modifyAt _ _ off _ hinv ?_
  intro n hn hnall
  rw [ht] at hn
  injection hn with hn
  subst hn
  refine all_nodes_of_parts _ _ ?_ ?_
  · rw [set_children_props]
    exact all_nodes_props _ _ hnall
  · rw [set_children_children]
    intro c hc
    rcases List.mem_cons.mp hc with hc | hc
    · subst hc
      rw [Node.all_nodes, Node.all_nodes_list]
      exact ⟨hP, trivial⟩
    · exact all_nodes_children _ _ hnall c hc

theorem phandle_from_nil (X : Nat → Prop) : phandle_from X [] := Or.inl rfl

theorem apply_props_phandles (X : Nat → Prop) (target : Offset) :
    ∀ (ps : List (Bytes × Bytes)) (fdt : Blob),
    fdt.root.all_nodes (phandle_from X) → phandle_cells X ps →
    (overlay_apply_props target ps fdt).state.root.all_nodes (phandle_from X)
  | [], fdt, h, _ => h
  | p :: rest, fdt, h, hc => by
    unfold overlay_apply_props
    split
    · exact h
    · rename_i fdt1 h1
      exact apply_props_phandles X target rest fdt1
        (setprop_phandles X fdt fdt1 target p.1 p.2 h1 h (hc p (List.mem_cons_self _ _)))
        (fun q hq => hc q (List.mem_cons_of_mem _ hq))

mutual
/-- Whatever `overlay_apply_node` returns: when every node of the base has a
phandle that is 0 or satisfies `X`, and every phandle property of the overlay
node and of the nodes below it is one cell with a number that satisfies `X`,
every node of the base it leaves has a phandle that is 0 or satisfies `X`. -/
theorem apply_node_phandles (X : Nat → Prop) : ∀ (node : Node) (target : Offset) (fdt : Blob),
    fdt.root.all_nodes (phandle_from X) → node.all_nodes (phandle_cells X) →
    (overlay_apply_node node target fdt).state.root.all_nodes (phandle_from X)
  | .mk nm ps cs, target, fdt, h, hn => by
    rw [Node.all_nodes] at hn
    unfold overlay_apply_node
    have h1 := apply_props_phandles X target ps fdt h hn.1
    split
    · rename_i e s he
      rw [he] at h1
      exact h1
    · rename_i fdt1 he
      rw [he] at h1
      exact apply_subnodes_phandles X cs target fdt1 h1 hn.2
/-- The same for the loop over the subnodes. -/
theorem apply_subnodes_phandles (X : Nat → Prop) : ∀ (cs : List Node) (target : Offset)
    (fdt : Blob), fdt.root.all_nodes (phandle_from X) →
    Node.all_nodes_list (phandle_cells X) cs →
    (overlay_apply_subnodes cs target fdt).state.root.all_nodes (phandle_from X)
  | [], _, fdt, h, _ => h
  | subnode :: rest, target, fdt, h, hn => by
    rw [Node.all_nodes_list] at hn
    unfold overlay_apply_subnodes
    split
    · rename_i fdt1 nnode ha
      have h1 := add_subnode_all_nodes _ (phandle_from_nil X) fdt fdt1 target nnode
        subnode.name ha h
      have h2 := apply_node_phandles X subnode nnode fdt1 h1 hn.1
      split
      · rename_i e s he
        rw [he] at h2
        exact h2
      · rename_i fdt2 he
        rw [he] at h2
        exact apply_subnodes_phandles X rest target fdt2 h2 hn.2
    · split
      · split
        · split <;> exact h
        · rename_i nnode _
          have h2 := apply_node_phandles X subnode nnode fdt h hn.1
          split
          · rename_i e s he
            rw [he] at h2
            exact h2
          · rename_i fdt2 he
            rw [he] at h2
            exact apply_subnodes_phandles X rest target fdt2 h2 hn.2
      · exact h
end

theorem merge_fragments_phandles (X : Nat → Prop) : ∀ (frags : List Node) (fdt : Blob),
    fdt.root.all_nodes (phandle_from X) → (∀ c ∈ frags, c.all_nodes (phandle_cells X)) →
    (overlay_merge_fragments false frags fdt).state.root.all_nodes (phandle_from X)
  | [], fdt, h, _ => h
  | fragment :: rest, fdt, h, hn => by
    have hrest : ∀ c ∈ rest, c.all_nodes (phandle_cells X) :=
      fun c hc => hn c (List.mem_cons_of_mem _ hc)
    unfold overlay_merge_fragments
    split
    · exact merge_fragments_phandles X rest fdt h hrest
    · split
      · exact h
      · rename_i overlay ho
        split
        · simp only [Bool.false_eq_true, and_false, if_false]
          exact h
        · rename_i target _
          have h2 := apply_node_phandles X overlay target.1 fdt h
            (all_nodes_children _ fragment (hn fragment (List.mem_cons_self _ _)) overlay
              (List.getElem?_mem ho))
          split
          · rename_i e s he
            rw [he] at h2
            exact h2
          · rename_i fdt1 he
            rw [he] at h2
            exact merge_fragments_phandles X rest fdt1 h2 hrest

/-- Whatever `overlay_merge` returns in apply mode, the phandles of the base
come from the base or from the phandle properties of the overlay. -/
theorem overlay_merge_phandles (X : Nat → Prop) (fdt fdto : Blob)
    (h : fdt.root.all_nodes (phandle_from X)) (ho : fdto.root.all_nodes (phandle_cells X)) :
    (overlay_merge fdt fdto false).state.root.all_nodes (phandle_from X) := by
  unfold overlay_merge
  exact merge_fragments_phandles X _ fdt h (all_nodes_children _ _ ho)

theorem symbol_write_phandles (X : Nat → Prop) (F : Blob) (rs : Offset) (name : Bytes)
    (fragment : Node) (T : Offset) (pathp : Option Bytes) (rel : Bytes)
    (h1 : name ≠ str "phandle") (h2 : name ≠ str "linux,phandle")
    (h : F.root.all_nodes (phandle_from X)) :
    (overlay_symbol_write F rs name fragment T pathp rel).state.root.all_nodes
      (phandle_from X) := by
  obtain ⟨_, _, _, g, hg, hroot⟩ := symbol_write_frame F rs name fragment T pathp rel
  rw [hroot]
  refine all_nodes_modifyAt _ _ rs _ h ?_
  intro n _ hn
  refine all_nodes_of_parts _ _ ?_ ?_
  · rw [set_props_props]
    unfold phandle_from
    rw [props_phandle_congr n.props _ (hg _ (Ne.symm h1) _) (hg _ (Ne.symm h2) _)]
    exact all_nodes_props _ _ hn
  · rw [set_props_children]
    exact all_nodes_children _ _ hn

theorem getprop_by_offset_some (O : Blob) (off : Offset) (i : Nat) (p : Bytes × Bytes)
    (h : fdt_getprop_by_offset O off i = .ok p) :
    ∃ n, O.root.get? off = some n ∧ n.props[i]? = some p := by
  unfold fdt_getprop_by_offset at h
  split at h
  · cases h
  · rename_i n hn
    exact ⟨n, hn, getprop_by_offset_get O off i p n hn (by
      unfold fdt_getprop_by_offset
      rw [hn]
      exact h)⟩

/-- The symbol loop in apply mode writes no phandle property into the base: a
symbol it writes has a value longer than one cell. -/
theorem symbol_loop_phandles (X : Nat → Prop) (ov_sym root_sym : Offset) (fuel : Nat) :
    ∀ (prop : Nat) (st : Blob × Blob) (r : Res (Blob × Blob)),
      overlay_symbol_update_loop false ov_sym root_sym fuel prop st = some r →
      st.1.root.all_nodes (phandle_from X) → st.2.root.all_nodes (phandle_cells X) →
      r.state.1.root.all_nodes (phandle_from X) := by
  induction fuel with
  | zero => intro prop st r h; simp [overlay_symbol_update_loop] at h
  | succ fuel ih =>
    intro prop st r h hb ho
    unfold overlay_symbol_update_loop at h
    dsimp only at h
    split at h
    · split at h
      · cases h; exact hb
      · rename_i name path hget
        split at h
        · cases h; exact hb
        · split at h
          · cases h; exact hb
          · split at h
            · exact ih _ _ _ h hb ho
            · rename_i frag_name_len _
              split at h
              · rename_i hshape
                have hname : name ≠ str "phandle" ∧ name ≠ str "linux,phandle" := by
                  obtain ⟨n, hn, hp⟩ := getprop_by_offset_some _ _ _ _ hget
                  have hcells := all_nodes_props _ _ (all_nodes_get _ _ _ _ ho hn)
                  have hlen : 4 < path.length := by
                    have : (path.drop (frag_name_len + 1)).length ≤ path.length := by
                      rw [List.length_drop]
                      omega
                    rcases hshape with ⟨g, _⟩ | ⟨g, _⟩ <;> omega
                  constructor
                  · intro e
                    have := (hcells (name, path) (List.getElem?_mem hp) (Or.inl e)).1
                    simp only at this
                    omega
                  · intro e
                    have := (hcells (name, path) (List.getElem?_mem hp) (Or.inr e)).1
                    simp only at this
                    omega
                split at h
                · cases h; exact hb
                · split at h
                  · cases h; exact hb
                  · split at h
                    · cases h; exact hb
                    · rename_i fragment _
                      split at h
                      · simp only [Bool.false_eq_true, and_false, if_false] at h
                        cases h; exact hb
                      · rename_i target _
                        have hw := symbol_write_phandles X st.1 root_sym name fragment target.1
                          target.2 (if (path.drop (frag_name_len + 1)).length > 13 then
                            ((path.drop (frag_name_len + 1)).drop 13).take
                              ((path.drop (frag_name_len + 1)).length - 13 - 1) else [])
                          hname.1 hname.2 hb
                        split at h
                        · rename_i e fdt1 he
                          rw [he] at hw
                          cases h
                          exact hw
                        · rename_i fdt1 he
                          rw [he] at hw
                          simp only [Bool.false_eq_true, if_false] at h
                          exact ih _ _ _ h hw ho
              · exact ih _ _ _ h hb ho
    · cases h; exact hb

/-- The symbol stage in apply mode, whatever it returns. -/
theorem symbol_update_phandles (X : Nat → Prop) (fuel : Nat) (fdt fdto : Blob)
    (r : Res (Blob × Blob)) (h : overlay_symbol_update fuel fdt fdto false = some r)
    (hb : fdt.root.all_nodes (phandle_from X)) (ho : fdto.root.all_nodes (phandle_cells X)) :
    r.state.1.root.all_nodes (phandle_from X) := by
  unfold overlay_symbol_update at h
  split at h
  · cases h; exact hb
  · rename_i ov_sym _
    split at h
    · cases h; exact hb
    · rename_i fdt1 root_sym hr
      refine symbol_loop_phandles X ov_sym root_sym fuel 0 (fdt1, fdto) r h ?_ ho
      unfold overlay_root_symbols at hr
      split at hr
      · injection hr with hr
        injection hr with e1 e2
        subst e1
        exact hb
      · split at hr
        · exact add_subnode_all_nodes _ (phandle_from_nil X) fdt fdt1 [] root_sym _ hr hb
        · cases hr

theorem phandle_cells_mono (X Y : Nat → Prop) (hXY : ∀ p, X p → Y p)
    (ps : List (Bytes × Bytes)) (h : phandle_cells X ps) : phandle_cells Y ps :=
  fun p hp hn => ⟨(h p hp hn).1, hXY _ (h p hp hn).2⟩

/-! ### The fixup stage -/

theorem prop_replace_cells (X : Nat → Prop) (nm data : Bytes) (idx : Nat)
    (hd : data.length = 4)
    (hX : nm = str "phandle" ∨ nm = str "linux,phandle" → X (fdt32_to_cpu data)) :
    ∀ (ps : List (Bytes × Bytes)) (v : Bytes), phandle_cells X ps →
    prop_lookup nm ps = some v → idx + 4 ≤ v.length →
    phandle_cells X (prop_replace nm (write_at v idx data) ps)
  | [], v, _, hv, _ => by simp [prop_lookup] at hv
  | p :: ps, v, hc, hv, hlen => by
    unfold prop_lookup at hv
    unfold prop_replace
    by_cases hp : p.1 = nm
    · rw [if_pos hp] at hv ⊢
      injection hv with hv
      intro q hq hn
      rcases List.mem_cons.mp hq with hq | hq
      · subst hq
        have h4 := (hc p (List.mem_cons_self _ _) hn).1
        have hi : idx = 0 := by rw [hv] at h4; omega
        subst hi
        dsimp only
        rw [write_at_full v data (by rw [← hv, h4, hd])]
        exact ⟨hd, hX (by rw [← hp]; exact hn)⟩
      · exact hc q (List.mem_cons_of_mem _ hq) hn
    · rw [if_neg hp] at hv ⊢
      intro q hq hn
      rcases List.mem_cons.mp hq with hq | hq
      · subst hq
        exact hc q (List.mem_cons_self _ _) hn
      · exact prop_replace_cells X nm data idx hd hX ps v
          (fun r hr => hc r (List.mem_cons_of_mem _ hr)) hv hlen q hq hn

/-- A partial write of one cell keeps every phandle property one cell: it
either leaves the property alone or replaces all of it. -/
theorem node_partial_write_cells (X : Nat → Prop) (n n1 : Node) (nm data : Bytes) (idx : Nat)
    (hd : data.length = 4)
    (hX : nm = str "phandle" ∨ nm = str "linux,phandle" → X (fdt32_to_cpu data))
    (h : Node.setprop_inplace_namelen_partial n nm idx data = .ok n1)
    (hinv : phandle_cells X n.props) :
    phandle_cells X n1.props ∧ n1.children = n.children := by
  obtain ⟨v, hv, hlen, e⟩ := setprop_partial_node n n1 nm data idx h
  subst e
  rw [set_props_props, set_props_children]
  exact ⟨prop_replace_cells X nm data idx hd hX _ v hinv hv (by rw [hd] at hlen; exact hlen),
    rfl⟩

/-- The same on the tree of a blob. -/
theorem partial_write_cells (X : Nat → Prop) (fdto fdto1 : Blob) (off : Offset)
    (nm data : Bytes) (idx : Nat) (hd : data.length = 4) (hX : X (fdt32_to_cpu data))
    (h : fdt_setprop_inplace_namelen_partial fdto off nm idx data = .ok fdto1)
    (hinv : fdto.root.all_nodes (phandle_cells X)) :
    fdto1.root.all_nodes (phandle_cells X) := by
  unfold fdt_setprop_inplace_namelen_partial at h
  split at h
  · cases h
  · rename_i n hn
    split at h
    · cases h
    · rename_i n1 hn1
      injection h with h
      subst h
      show (fdto.root.modifyAt _ off).all_nodes _
      refine all_nodes_modifyAt _ _ off _ hinv ?_
      intro m hm hmall
      rw [hn] at hm
      injection hm with hm
      subst hm
      obtain ⟨g1, g2⟩ := node_partial_write_cells X n n1 nm data idx hd (fun _ => hX) hn1
        (all_nodes_props _ _ hmall)
      refine all_nodes_of_parts _ _ g1 ?_
      rw [g2]
      exact all_nodes_children _ _ hmall

theorem fixup_one_phandle_cells (X : Nat → Prop) (fdt fdto : Blob)
    (so : Except FdtErr Offset) (path : Bytes) (path_len : Nat) (name : Bytes)
    (name_len poffset : Nat) (label : Bytes)
    (hX : ∀ off, fdt_get_phandle fdt off ≠ 0 → X (fdt_get_phandle fdt off))
    (hinv : fdto.root.all_nodes (phandle_cells X)) :
    (overlay_fixup_one_phandle fdt fdto so path path_len name name_len poffset label).state.root.all_nodes
      (phandle_cells X) := by
  unfold overlay_fixup_one_phandle
  split
  · exact hinv
  · split
    · exact hinv
    · split
      · exact hinv
      · rename_i symbol_off _
        dsimp only
        split
        · exact hinv
        · rename_i hph
          split
          · split <;> exact hinv
          · rename_i fixup_off hoff
            cases hset : fdt_setprop_inplace_namelen_partial fdto fixup_off (name.take name_len)
                poffset (cpu_to_fdt32 (fdt_get_phandle fdt symbol_off)) with
            | error e => exact hinv
            | ok fdto1 =>
              refine partial_write_cells X fdto fdto1 fixup_off _ _ poffset
                (cpu_to_fdt32_length _) ?_ hset hinv
              rw [fdt32_roundtrip, Nat.mod_eq_of_lt (get_phandle_lt fdt symbol_off)]
              exact hX symbol_off hph

theorem fixup_string_cells (X : Nat → Prop) (fdt fdto : Blob)
    (so : Except FdtErr Offset) (label s : Bytes)
    (hX : ∀ off, fdt_get_phandle fdt off ≠ 0 → X (fdt_get_phandle fdt off))
    (hinv : fdto.root.all_nodes (phandle_cells X)) :
    (overlay_fixup_string fdt fdto so label s).state.root.all_nodes (phandle_cells X) := by
  unfold overlay_fixup_string
  split
  · exact hinv
  · split
    · exact hinv
    · dsimp only
      split
      · exact hinv
      · split
        · exact hinv
        · split
          · exact hinv
          · exact fixup_one_phandle_cells X fdt fdto so _ _ _ _ _ label hX hinv

theorem fixup_strings_cells (X : Nat → Prop) (fdt : Blob) (so : Except FdtErr Offset)
    (label : Bytes)
    (hX : ∀ off, fdt_get_phandle fdt off ≠ 0 → X (fdt_get_phandle fdt off)) :
    ∀ (strs : List Bytes) (fdto : Blob), fdto.root.all_nodes (phandle_cells X) →
    (overlay_fixup_strings fdt so label strs fdto).state.root.all_nodes (phandle_cells X)
  | [], fdto, hinv => hinv
  | s :: rest, fdto, hinv => by
    have h1 := fixup_string_cells X fdt fdto so label s hX hinv
    unfold overlay_fixup_strings
    split
    · rename_i e st hs
      rw [hs] at h1
      exact h1
    · rename_i st hs
      rw [hs] at h1
      exact fixup_strings_cells X fdt so label hX rest st h1

/-- One turn of the apply-mode fixup loop: the base is the same, and every
phandle property of the overlay is one cell that holds a phandle of the base or
what it held before. -/
theorem fixup_phandle_cells (X : Nat → Prop) (fdt fdto : Blob) (so : Except FdtErr Offset)
    (property : Nat) (off : Offset)
    (hX : ∀ o, fdt_get_phandle fdt o ≠ 0 → X (fdt_get_phandle fdt o))
    (hinv : fdto.root.all_nodes (phandle_cells X)) :
    (overlay_fixup_phandle fdt fdto so property off false).state.1 = fdt ∧
    (overlay_fixup_phandle fdt fdto so property off false).state.2.root.all_nodes
      (phandle_cells X) := by
  unfold overlay_fixup_phandle
  split
  · split <;> exact ⟨rfl, hinv⟩
  · rename_i label value _
    have h1 := fixup_strings_cells X fdt so label hX (cstrings value).1 fdto hinv
    split
    · exact ⟨rfl, hinv⟩
    · split
      · rename_i e st hs
        rw [hs] at h1
        exact ⟨rfl, h1⟩
      · rename_i st hs
        rw [hs] at h1
        split
        · exact ⟨rfl, h1⟩
        · simp only [Bool.false_eq_true, if_false]
          exact ⟨rfl, h1⟩

theorem fixup_loop_cells (X : Nat → Prop) (off : Offset) (n : Nat) :
    ∀ (property : Nat) (so : Except FdtErr Offset) (ret : Option FdtErr) (st : Blob × Blob),
      (∀ o, fdt_get_phandle st.1 o ≠ 0 → X (fdt_get_phandle st.1 o)) →
      st.2.root.all_nodes (phandle_cells X) →
      (overlay_fixup_phandles_loop false off n property so ret st).state.2.root.all_nodes
        (phandle_cells X) := by
  induction n with
  | zero =>
    intro property so ret st _ hinv
    unfold overlay_fixup_phandles_loop
    simp only [Bool.false_eq_true, false_and, if_false]
    cases ret <;> exact hinv
  | succ n ih =>
    intro property so ret st hX hinv
    unfold overlay_fixup_phandles_loop
    split
    · have hstep := fixup_phandle_cells X st.1 st.2 so property off hX hinv
      split
      · rename_i e st1 hs
        rw [hs] at hstep
        simp only [Bool.false_eq_true, not_false_eq_true, true_or, if_true]
        exact hstep.2
      · rename_i st1 hs
        rw [hs] at hstep
        simp only [Bool.false_eq_true, if_false]
        have e1 : st1.1 = st.1 := hstep.1
        exact ih (property + 1) so none st1 (by rw [e1]; exact hX) hstep.2
    · simp only [Bool.false_eq_true, false_and, if_false]
      cases ret <;> exact hinv

/-- The fixup stage in apply mode, whatever it returns. -/
theorem fixup_phandles_cells (X : Nat → Prop) (fdt fdto : Blob)
    (hX : ∀ o, fdt_get_phandle fdt o ≠ 0 → X (fdt_get_phandle fdt o))
    (hinv : fdto.root.all_nodes (phandle_cells X)) :
    (overlay_fixup_phandles fdt fdto false).state.2.root.all_nodes (phandle_cells X) := by
  unfold overlay_fixup_phandles
  split
  · split <;> exact hinv
  · split
    · split
      · exact hinv
      · exact fixup_loop_cells X _ _ 0 _ none (fdt, fdto) hX hinv
    · exact fixup_loop_cells X _ _ 0 _ none (fdt, fdto) hX hinv

/-! ### The two renumbering passes -/

theorem props_agree_names (kp : Bytes → Nat → Prop) : ∀ (ps qs : List (Bytes × Bytes)),
    List.Forall₂ (prop_agrees kp) ps qs → qs.map Prod.fst = ps.map Prod.fst
  | _, _, .nil => rfl
  | p :: ps, q :: qs, .cons h hs => by
    rw [List.map_cons, List.map_cons, props_agree_names kp ps qs hs, h.1]

theorem own_phandle_values_mem (nm val : Bytes) (ps : List (Bytes × Bytes))
    (hnm : nm = str "phandle" ∨ nm = str "linux,phandle")
    (h : prop_lookup nm ps = some val) : fdt32_to_cpu val ∈ own_phandle_values ps := by
  unfold own_phandle_values
  refine List.mem_map.mpr ⟨val, ?_, rfl⟩
  rcases hnm with e | e
  · subst e
    rw [h]
    simp
  · subst e
    rw [h]
    simp

/-- After `overlay_adjust_own_phandles` on a node with properties of different
names, every phandle property of the node is one cell that holds an old phandle
value of the node plus `delta`. -/
theorem adjust_own_all_cells (node r : Node) (delta : Nat) (hd : delta < 2 ^ 32)
    (hnd : (node.props.map Prod.fst).Nodup)
    (h : overlay_adjust_own_phandles node delta = .ok r) :
    phandle_cells (fun p => ∃ v ∈ own_phandle_values node.props, p = v + delta) r.props := by
  intro p hp hnm
  have hag := (adjust_own_agree (fun _ _ => False) node r delta hd (fun _ hf => hf)
    (fun _ hf => hf) h).2.2
  have hnd1 : (r.props.map Prod.fst).Nodup := by
    rw [props_agree_names _ _ _ hag]
    exact hnd
  have hl := prop_lookup_of_mem p.1 p.2 r.props hnd1 hp
  obtain ⟨g1, g2⟩ := adjust_own_cells node r delta hd h p.1 hnm
  cases h0 : prop_lookup p.1 node.props with
  | none =>
    rw [g1 h0] at hl
    cases hl
  | some val =>
    obtain ⟨a1, a2, a3⟩ := g2 val h0
    rw [a3] at hl
    injection hl with hl
    rw [← hl]
    have hU : UINT32_MAX < 2 ^ 32 := by decide
    refine ⟨rfl, fdt32_to_cpu val, own_phandle_values_mem p.1 val _ hnm h0, ?_⟩
    rw [fdt32_roundtrip, Nat.mod_eq_of_lt (by omega)]

mutual
/-- After a successful renumbering of a subtree with unique property names,
every phandle property in the subtree is one cell that holds a phandle value
the subtree had before, plus `delta`. -/
theorem adjust_node_cells (delta : Nat) (hd : delta < 2 ^ 32) : ∀ (n r : Node),
    n.wf = true → overlay_adjust_node_phandles delta n = .ok r →
    r.all_nodes (phandle_cells (fun p => ∃ v ∈ n.phandle_values, p = v + delta))
  | .mk nm ps cs, r, hwf, h => by
    obtain ⟨s, cs1, hs, hcs, _, hp, hc⟩ := adjust_node_parts delta _ r h
    unfold Node.wf at hwf
    simp only [Bool.and_eq_true, decide_eq_true_eq] at hwf
    refine all_nodes_of_parts _ r ?_ ?_
    · rw [hp]
      refine phandle_cells_mono _ _ ?_ _ (adjust_own_all_cells (.mk nm ps cs) s delta hd hwf.1.1 hs)
      rintro p ⟨v, hv, e⟩
      refine ⟨v, ?_, e⟩
      rw [Node.phandle_values]
      exact List.mem_append_left _ hv
    · rw [hc]
      refine (all_nodes_list_iff _ cs1).mp (all_nodes_list_mono _ _ ?_ cs1
        (adjust_subnodes_cells delta hd cs cs1 hwf.2 hcs))
      intro qs hq
      refine phandle_cells_mono _ _ ?_ _ hq
      rintro p ⟨v, hv, e⟩
      refine ⟨v, ?_, e⟩
      rw [Node.phandle_values]
      exact List.mem_append_right _ hv
/-- The same for the loop over the subnodes. -/
theorem adjust_subnodes_cells (delta : Nat) (hd : delta < 2 ^ 32) : ∀ (cs cs1 : List Node),
    Node.wf_list cs = true → overlay_adjust_subnodes delta cs = .ok cs1 →
    Node.all_nodes_list
      (phandle_cells (fun p => ∃ v ∈ Node.phandle_values_list cs, p = v + delta)) cs1
  | [], cs1, _, h => by
    unfold overlay_adjust_subnodes at h
    injection h with h
    subst h
    rw [Node.all_nodes_list]
    trivial
  | c :: rest, cs1, hwf, h => by
    obtain ⟨c1, rest1, e, h1, h2⟩ := adjust_subnodes_cons delta c rest cs1 h
    subst e
    unfold Node.wf_list at hwf
    simp only [Bool.and_eq_true] at hwf
    rw [Node.all_nodes_list]
    constructor
    · refine all_nodes_mono _ _ ?_ c1 (adjust_node_cells delta hd c c1 hwf.1 h1)
      intro qs hq
      refine phandle_cells_mono _ _ ?_ _ hq
      rintro p ⟨v, hv, e⟩
      refine ⟨v, ?_, e⟩
      rw [Node.phandle_values_list]
      exact List.mem_append_left _ hv
    · refine all_nodes_list_mono _ _ ?_ rest1 (adjust_subnodes_cells delta hd rest rest1 hwf.2 h2)
      intro qs hq
      refine phandle_cells_mono _ _ ?_ _ hq
      rintro p ⟨v, hv, e⟩
      refine ⟨v, ?_, e⟩
      rw [Node.phandle_values_list]
      exact List.mem_append_right _ hv
end

theorem props_agree_cells (X : Nat → Prop) (kp : Bytes → Nat → Prop)
    (hk : ∀ nm i, nm = str "phandle" ∨ nm = str "linux,phandle" → kp nm i) :
    ∀ (ps qs : List (Bytes × Bytes)), List.Forall₂ (prop_agrees kp) ps qs →
    phandle_cells X ps → phandle_cells X qs
  | _, _, .nil, _ => by intro q hq; cases hq
  | p :: ps, q :: qs, .cons h hs, hc => by
    intro x hx hn
    rcases List.mem_cons.mp hx with hx | hx
    · subst hx
      have e2 : p.2 = x.2 :=
        List.ext_getElem? (fun i => h.2.2 i (hk _ i (by rw [h.1]; exact hn)))
      have := hc p (List.mem_cons_self _ _) (by rw [h.1]; exact hn)
      rw [e2] at this
      exact this
    · exact props_agree_cells X kp hk ps qs hs (fun r hr => hc r (List.mem_cons_of_mem _ hr))
        x hx hn

mutual
/-- Trees that agree in the bytes of their phandle properties have these
properties one cell with a number in `X` together. -/
theorem agree_cells (X : Nat → Prop) (keep : List Bytes → Bytes → Nat → Prop)
    (hk : ∀ path nm i, nm = str "phandle" ∨ nm = str "linux,phandle" → keep path nm i) :
    ∀ (path : List Bytes) (a b : Node), Node.agree keep path a b →
    a.all_nodes (phandle_cells X) → b.all_nodes (phandle_cells X)
  | path, .mk n1 ps1 cs1, b, h, ha => by
    unfold Node.agree at h
    rw [Node.all_nodes] at ha
    refine all_nodes_of_parts _ b (props_agree_cells X _ (hk path) ps1 b.props h.2.1 ha.1) ?_
    exact (all_nodes_list_iff _ _).mp (agree_list_cells X keep hk path cs1 b.children h.2.2 ha.2)
/-- The same for lists of trees. -/
theorem agree_list_cells (X : Nat → Prop) (keep : List Bytes → Bytes → Nat → Prop)
    (hk : ∀ path nm i, nm = str "phandle" ∨ nm = str "linux,phandle" → keep path nm i) :
    ∀ (path : List Bytes) (as bs : List Node), Node.agree_list keep path as bs →
    Node.all_nodes_list (phandle_cells X) as → Node.all_nodes_list (phandle_cells X) bs
  | path, [], bs, h, _ => by
    unfold Node.agree_list at h
    subst h
    rw [Node.all_nodes_list]
    trivial
  | path, c :: cs, bs, h, ha => by
    unfold Node.agree_list at h
    cases bs with
    | nil => exact h.elim
    | cons m ms1 =>
      dsimp only at h
      rw [Node.all_nodes_list] at ha ⊢
      exact ⟨agree_cells X keep hk _ c m h.1 ha.1, agree_list_cells X keep hk path cs ms1 h.2 ha.2⟩
end

mutual
theorem slots_spare_phandles : ∀ (fixup : Node) (path : List Bytes),
    fixup.no_phandle_props = true → ∀ s ∈ local_fixup_slots fixup path,
    s.2.1 ≠ str "phandle" ∧ s.2.1 ≠ str "linux,phandle"
  | .mk fnm fps fcs, path, h, s, hs => by
    unfold Node.no_phandle_props at h
    rw [Bool.and_eq_true] at h
    unfold local_fixup_slots at hs
    rcases List.mem_append.mp hs with hs | hs
    · obtain ⟨l, hl, hsl⟩ := List.mem_flatten.mp hs
      obtain ⟨p, hp, e⟩ := List.mem_map.mp hl
      subst e
      obtain ⟨o, _, e⟩ := List.mem_map.mp hsl
      subst e
      have := List.all_eq_true.mp h.1 p hp
      simp only [Bool.and_eq_true, decide_eq_true_eq] at this
      exact this
    · exact slots_list_spare_phandles fcs path h.2 s hs
theorem slots_list_spare_phandles : ∀ (fcs : List Node) (path : List Bytes),
    Node.no_phandle_props_list fcs = true → ∀ s ∈ local_fixup_slots_list fcs path,
    s.2.1 ≠ str "phandle" ∧ s.2.1 ≠ str "linux,phandle"
  | [], _, _, s, hs => by
    unfold local_fixup_slots_list at hs
    cases hs
  | fc :: rest, path, h, s, hs => by
    unfold Node.no_phandle_props_list at h
    rw [Bool.and_eq_true] at h
    unfold local_fixup_slots_list at hs
    rcases List.mem_append.mp hs with hs | hs
    · exact slots_spare_phandles fc _ h.1 s hs
    · exact slots_list_spare_phandles rest path h.2 s hs
end

theorem spare_phandles_eq (b : Blob) :
    local_fixups_spare_phandles b =
      match child_index (str "__local_fixups__") b.root.children with
      | none => true
      | some i =>
        match b.root.children[i]? with
        | none => true
        | some m => m.no_phandle_props := by
  unfold local_fixups_spare_phandles
  rw [path_offset_local_fixups]
  unfold fdt_subnode_offset
  simp only [Node.get?]
  cases child_index (str "__local_fixups__") b.root.children with
  | none => rfl
  | some i =>
    simp only [List.nil_append]
    rw [get_child]

/-- The local-reference pass, on an overlay whose mirror names no phandle
property, leaves the phandle properties as they are. -/
theorem local_references_cells (X : Nat → Prop) (a b : Blob) (delta : Nat)
    (hloc : local_fixups_spare_phandles a = true)
    (h : overlay_update_local_references a delta = some (.ok b))
    (hinv : a.root.all_nodes (phandle_cells X)) :
    b.root.all_nodes (phandle_cells X) := by
  have h2 := local_references_walk a delta _ h
  unfold local_fixups_spare_phandles at hloc
  unfold walk_local_references at h2
  split at h2
  · split at h2
    · injection h2 with h2
      subst h2
      exact hinv
    · cases h2
  · rename_i fixups hf
    rw [hf] at hloc
    dsimp only at hloc
    split at h2
    · cases h2
    · rename_i fixup_node hfn
      rw [hfn] at hloc
      dsimp only at hloc
      obtain ⟨r, hr, hb⟩ := res_map_ok _ _ _ h2
      subst hb
      refine agree_cells X (fun _ nm _ => nm = str "phandle" ∨ nm = str "linux,phandle")
        (fun _ _ _ h => h) [] a.root r ?_ hinv
      refine local_refs_agree _ delta fixup_node [] a.root r ?_ hr
      intro s hs i _ _ hk
      have := slots_spare_phandles fixup_node [] hloc s hs
      rcases hk with e | e
      · exact this.1 e
      · exact this.2 e

/-! ### The local-reference pass with the delta 0 -/

theorem walk_cells_zero (X : Nat → Prop) (name : Bytes) : ∀ (cells : List Nat)
    (tree t1 : Node), walk_local_cells tree name 0 cells = .ok t1 →
    phandle_cells X tree.props → phandle_cells X t1.props ∧ t1.children = tree.children
  | [], tree, t1, h, hinv => by
    unfold walk_local_cells at h
    injection h with h
    subst h
    exact ⟨hinv, rfl⟩
  | poffset :: rest, tree, t1, h, hinv => by
    unfold walk_local_cells at h
    split at h
    · cases h
    · rename_i tree_val hv
      dsimp only at h
      split at h
      · split at h <;> cases h
      · rename_i t2 hw
        obtain ⟨v, hv2, hlen, _⟩ := setprop_partial_node tree t2 name _ poffset hw
        rw [hv] at hv2
        injection hv2 with hv2
        subst hv2
        obtain ⟨g1, g2⟩ := node_partial_write_cells X tree t2 name _ poffset
          (cpu_to_fdt32_length _) (by
            intro hn
            have hc := hinv (name, tree_val) (prop_lookup_mem name tree_val _ hv) hn
            dsimp only at hc
            have h0 : poffset = 0 := by
              rw [cpu_to_fdt32_length] at hlen
              omega
            subst h0
            rw [fdt32_roundtrip, List.drop_zero, Nat.add_zero, Nat.mod_mod,
              Nat.mod_eq_of_lt (fdt32_to_cpu_lt _)]
            exact hc.2) hw hinv
        obtain ⟨i1, i2⟩ := walk_cells_zero X name rest t2 t1 h g1
        exact ⟨i1, i2.trans g2⟩

theorem walk_props_zero (X : Nat → Prop) : ∀ (fps : List (Bytes × Bytes)) (tree t1 : Node),
    walk_local_props tree 0 fps = .ok t1 →
    phandle_cells X tree.props → phandle_cells X t1.props ∧ t1.children = tree.children
  | [], tree, t1, h, hinv => by
    unfold walk_local_props at h
    injection h with h
    subst h
    exact ⟨hinv, rfl⟩
  | p :: rest, tree, t1, h, hinv => by
    unfold walk_local_props at h
    split at h
    · cases h
    · split at h
      · cases h
      · split at h
        · cases h
        · rename_i t2 hc
          obtain ⟨g1, g2⟩ := walk_cells_zero X p.1 _ tree t2 hc hinv
          obtain ⟨i1, i2⟩ := walk_props_zero X rest t2 t1 h g1
          exact ⟨i1, i2.trans g2⟩

mutual
/-- With the delta 0 the local-reference walk leaves every phandle property one
cell with the number it held. -/
theorem walk_node_zero (X : Nat → Prop) : ∀ (fixup tree t1 : Node),
    walk_local_node 0 fixup tree = .ok t1 → tree.all_nodes (phandle_cells X) →
    t1.all_nodes (phandle_cells X)
  | .mk fnm fps fcs, tree, t1, h, hinv => by
    unfold walk_local_node at h
    split at h
    · cases h
    · rename_i t2 hp
      obtain ⟨g1, g2⟩ := walk_props_zero X fps tree t2 hp (all_nodes_props _ _ hinv)
      refine walk_subnodes_zero X fcs t2 t1 h (all_nodes_of_parts _ t2 g1 ?_)
      rw [g2]
      exact all_nodes_children _ _ hinv
/-- The same for the loop over the children of the mirror. -/
theorem walk_subnodes_zero (X : Nat → Prop) : ∀ (fcs : List Node) (tree t1 : Node),
    walk_local_subnodes 0 fcs tree = .ok t1 → tree.all_nodes (phandle_cells X) →
    t1.all_nodes (phandle_cells X)
  | [], tree, t1, h, hinv => by
    unfold walk_local_subnodes at h
    injection h with h
    subst h
    exact hinv
  | fc :: rest, tree, t1, h, hinv => by
    unfold walk_local_subnodes at h
    split at h
    · cases h
    · rename_i i _
      split at h
      · cases h
      · rename_i tree_child hc
        split at h
        · cases h
        · rename_i s hs
          have hs1 := walk_node_zero X fc tree_child s hs
            (all_nodes_children _ _ hinv tree_child (List.getElem?_mem hc))
          refine walk_subnodes_zero X rest _ t1 h (all_nodes_of_parts _ _ ?_ ?_)
          · rw [set_children_props]
            exact all_nodes_props _ _ hinv
          · rw [set_children_children]
            intro d hd
            rcases List.mem_or_eq_of_mem_set hd with hd | hd
            · exact all_nodes_children _ _ hinv d hd
            · subst hd
              exact hs1
end

/-- The local-reference pass of `fdt_overlay_apply`, which follows the phandle
pass with the same delta, leaves the phandle properties as they are when it
succeeds: with a delta of at least 1 its success shows that the mirror names
no phandle property, and with the delta 0 it rewrites every slot with the
number the slot holds. -/
theorem local_references_after_adjust (X : Nat → Prop) (fdto a b : Blob) (delta : Nat)
    (hd : delta < 2 ^ 32)
    (h1 : overlay_adjust_local_phandles fdto delta = .ok a)
    (h2 : overlay_update_local_references a delta = some (.ok b))
    (hinv : a.root.all_nodes (phandle_cells X)) :
    b.root.all_nodes (phandle_cells X) := by
  have hw := local_references_walk a delta _ h2
  by_cases hD : 0 < delta
  · refine local_references_cells X a b delta ?_ h2 hinv
    unfold overlay_adjust_local_phandles at h1
    obtain ⟨r, hr, ha⟩ := res_map_ok _ _ _ h1
    have har : a.root = r := by rw [← ha]
    rw [spare_phandles_eq]
    cases hci : child_index (str "__local_fixups__") a.root.children with
    | none => rfl
    | some i =>
      dsimp only
      cases hfa : a.root.children[i]? with
      | none => rfl
      | some fixa =>
        dsimp only
        have hoffa := local_fixups_offset_of a i hci
        have hfa1 : a.root.get? [i] = some fixa := by rw [get_child]; exact hfa
        rw [har] at hfa1
        obtain ⟨fixup, _, hadj⟩ := (adjust_get delta [i] fdto.root r hr).2 fixa hfa1
        unfold walk_local_references at hw
        rw [hoffa] at hw
        rw [har] at hw
        simp only [hfa1] at hw
        obtain ⟨t1, ht1, _⟩ := res_map_ok _ _ _ hw
        have hplain := shifted_mirror_plain delta hD hd fixup fixa fdto.root r hadj hr
          ((local_refs_state (fun _ _ _ => False) delta fixa [] r
            (fun _ _ _ _ _ hc => hc)).2.2 t1 ht1)
        have := adjust_plain delta fixup hplain
        rw [this] at hadj
        injection hadj with hadj
        rw [← hadj]
        exact hplain
  · have h0 : delta = 0 := by omega
    subst h0
    unfold walk_local_references at hw
    split at hw
    · split at hw
      · injection hw with hw
        subst hw
        exact hinv
      · cases hw
    · split at hw
      · cases hw
      · rename_i fixup_node _
        obtain ⟨r, hr, hb⟩ := res_map_ok _ _ _ hw
        subst hb
        exact walk_node_zero X fixup_node a.root r hr hinv

theorem base_phandles_from (X : Nat → Prop) (fdt : Blob)
    (hX : ∀ o, fdt_get_phandle fdt o ≠ 0 → X (fdt_get_phandle fdt o)) :
    fdt.root.all_nodes (phandle_from X) := by
  refine all_nodes_of_get _ _ ?_
  intro off m hm
  have e : fdt_get_phandle fdt off = props_phandle m.props := by
    unfold fdt_get_phandle
    rw [hm]
  unfold phandle_from
  rw [← e]
  by_cases h0 : fdt_get_phandle fdt off = 0
  · exact Or.inl h0
  · exact Or.inr (hX off h0)

/-- After a successful `fdt_overlay_apply` on an overlay with unique names,
the phandle of every node of the base
is 0, a phandle of the base as it was, or a phandle value of the overlay as it
was plus the largest phandle of the base as it was. -/
theorem apply_phandles (fuel : Nat) (fdt fdto : Blob) (st : Blob × Blob)
    (h : fdt_overlay_apply fuel fdt fdto = some (.ok st))
    (hwf : fdto.root.wf = true) :
    st.1.root.all_nodes (phandle_from (fun p => (∃ o, fdt_get_phandle fdt o = p) ∨
      ∃ v ∈ fdto.root.phandle_values, p = v + fdt.root.max_phandle)) := by
  have hd : fdt.root.max_phandle < 2 ^ 32 := max_phandle_lt _
  have hX : ∀ o, fdt_get_phandle fdt o ≠ 0 →
      (fun p => (∃ o, fdt_get_phandle fdt o = p) ∨
        ∃ v ∈ fdto.root.phandle_values, p = v + fdt.root.max_phandle)
        (fdt_get_phandle fdt o) := fun o _ => Or.inl ⟨o, rfl⟩
  unfold fdt_overlay_apply at h
  simp only [fdt_find_max_phandle] at h
  split at h
  · cases h
  · split at h
    · cases h
    · split at h
      · cases h
      · rename_i fdto1 h1
        have c1 : fdto1.root.all_nodes (phandle_cells (fun p =>
            (∃ o, fdt_get_phandle fdt o = p) ∨
              ∃ v ∈ fdto.root.phandle_values, p = v + fdt.root.max_phandle)) := by
          unfold overlay_adjust_local_phandles at h1
          obtain ⟨r, hr, hb⟩ := res_map_ok _ _ _ h1
          subst hb
          refine all_nodes_mono _ _ ?_ r (adjust_node_cells _ hd fdto.root r hwf hr)
          intro ps hps
          exact phandle_cells_mono _ _ (fun p hp => Or.inr hp) ps hps
        split at h
        · cases h
        · cases h
        · rename_i fdto2 h2
          have c2 := local_references_after_adjust _ fdto fdto1 fdto2 _ hd h1 h2 c1
          have c3 := fixup_phandles_cells _ fdt fdto2 hX c2
          have b3 := fixup_phandles_base fdt fdto2
          split at h
          · cases h
          · rename_i st3 h3
            rw [h3] at c3 b3
            have b3 : st3.1 = fdt := b3
            have c3 : st3.2.root.all_nodes _ := c3
            have m4 := overlay_merge_phandles _ st3.1 st3.2
              (by rw [b3]; exact base_phandles_from _ fdt hX) c3
            split at h
            · cases h
            · rename_i fdt1 h4
              rw [h4] at m4
              split at h
              · cases h
              · cases h
              · rename_i st1 h5
                injection h with h
                injection h with h
                subst h
                exact symbol_update_phandles _ fuel fdt1 st3.2 _ h5 m4 c3

theorem e2_base_phandles (o : Offset) :
    fdt_get_phandle e2_base o = 0 ∨ fdt_get_phandle e2_base o = 5 := by
  rcases o with _ | ⟨_ | i, _ | ⟨j, rest⟩⟩
  · exact Or.inl rfl
  · exact Or.inr rfl
  · left
    unfold fdt_get_phandle
    rw [show e2_base.root.get? (0 :: j :: rest) = none from rfl]
  · left
    unfold fdt_get_phandle
    rw [show e2_base.root.get? [i + 1] = none from rfl]
  · left
    unfold fdt_get_phandle
    rw [show e2_base.root.get? ((i + 1) :: j :: rest) = none from rfl]

/-- C13 (counterexample): two calls that return OK and leave a node with the
phandle 1 in the base, a phandle value of the overlay that was handed in.  The
overlay of scenario E2 (a node `child` with phandle 1) applied to the base of
scenario E1 (`/node-a` with phandle 1): `/node-a` of the resulting base still
has phandle 1.  The same overlay applied to a base without any phandle: the
delta is 0, and the node `child` is grafted with its phandle 1. -/
theorem fdt_overlay_apply_overlay_phandle_stays :
    (fdt_overlay_apply 1 e1_base e2_overlay).map
        (fun r => (r.code, fdt_get_name r.state.1 [2], fdt_get_phandle r.state.1 [2]))
      = some (none, .ok (str "node-a"), 1) ∧
    (fdt_overlay_apply 1 empty_base e2_overlay).map
        (fun r => (r.code, fdt_get_name r.state.1 [1], fdt_get_phandle r.state.1 [1]))
      = some (none, .ok (str "child"), 1) ∧
    1 ∈ e2_overlay.root.phandle_values :=
  ⟨rfl, rfl, by decide⟩

/-- C13 (amended): for every base and every overlay with unique property and
sibling names for which `fdt_overlay_apply` returns OK: every node of the
resulting base has no phandle (0), or the phandle of a node of the original
base, or v + delta, where v is a `phandle` / `linux,phandle` value of the
original overlay and delta the largest phandle of the original base; for v
other than 0, v + delta is larger than every phandle of the original base.
Hence no node of the resulting base has a phandle equal to a non-zero phandle
value u of the original overlay, unless u is the phandle of a node of the
original base or u = v + delta for a phandle value v of the original overlay. -/
theorem fdt_overlay_apply_phandle_origin (fuel : Nat) (fdt fdto : Blob) (st : Blob × Blob)
    (h : fdt_overlay_apply fuel fdt fdto = some (.ok st))
    (hwf : fdto.root.wf = true) :
    (∀ off, fdt_get_phandle st.1 off = 0 ∨
      (∃ o, fdt_get_phandle fdt o = fdt_get_phandle st.1 off) ∨
      ∃ v ∈ fdto.root.phandle_values, fdt_get_phandle st.1 off = v + fdt.root.max_phandle) ∧
    (∀ v ∈ fdto.root.phandle_values, v ≠ 0 →
      ∀ o, fdt_get_phandle fdt o < v + fdt.root.max_phandle) ∧
    (∀ u ∈ fdto.root.phandle_values, u ≠ 0 → (∀ o, fdt_get_phandle fdt o ≠ u) →
      (∀ v ∈ fdto.root.phandle_values, u ≠ v + fdt.root.max_phandle) →
      ∀ off, fdt_get_phandle st.1 off ≠ u) := by
  have key : ∀ off, fdt_get_phandle st.1 off = 0 ∨
      (∃ o, fdt_get_phandle fdt o = fdt_get_phandle st.1 off) ∨
      ∃ v ∈ fdto.root.phandle_values, fdt_get_phandle st.1 off = v + fdt.root.max_phandle := by
    intro off
    have hall := apply_phandles fuel fdt fdto st h hwf
    cases hm : st.1.root.get? off with
    | none =>
      left
      unfold fdt_get_phandle
      rw [hm]
    | some m =>
      have e : fdt_get_phandle st.1 off = props_phandle m.props := by
        unfold fdt_get_phandle
        rw [hm]
      rw [e]
      exact all_nodes_props _ _ (all_nodes_get _ _ _ _ hall hm)
  refine ⟨key, ?_, ?_⟩
  · intro v _ hv o
    have := get_phandle_le_max fdt o
    omega
  · intro u _ hu0 hbase hshift off e
    rcases key off with h0 | ⟨o, ho⟩ | ⟨v, hv, hs⟩
    · exact hu0 (by rw [← e]; exact h0)
    · exact hbase o (by rw [ho]; exact e)
    · exact hshift v hv (by rw [← e]; exact hs)

/-- C13 (witness): scenario E2.  The largest phandle of the base is 5; the
node `child` of the overlay, which had phandle 1, is in the resulting base with
phandle 6, `/node-a` keeps its phandle 5, and no node of the resulting base has
the phandle 1. -/
theorem fdt_overlay_apply_phandle_origin_witness :
    fdt_overlay_apply 1 e2_base e2_overlay
      = some (.ok (e2_applied_base, fdt_set_magic e2_renumbered UINT32_MAX)) ∧
    e2_overlay.root.wf = true ∧
    (∀ off, fdt_get_phandle e2_applied_base off = 0 ∨
      (∃ o, fdt_get_phandle e2_base o = fdt_get_phandle e2_applied_base off) ∨
      ∃ v ∈ e2_overlay.root.phandle_values,
        fdt_get_phandle e2_applied_base off = v + e2_base.root.max_phandle) ∧
    (∀ off, fdt_get_phandle e2_applied_base off ≠ 1) ∧
    fdt_get_phandle e2_applied_base [1] = 6 ∧ fdt_get_phandle e2_applied_base [2] = 5 :=
  ⟨rfl, by decide,
    (fdt_overlay_apply_phandle_origin 1 e2_base e2_overlay
      (e2_applied_base, fdt_set_magic e2_renumbered UINT32_MAX) rfl (by decide)).1,
    (fdt_overlay_apply_phandle_origin 1 e2_base e2_overlay
      (e2_applied_base, fdt_set_magic e2_renumbered UINT32_MAX) rfl (by decide)).2.2
      1 (by decide) (by decide)
      (fun o => by rcases e2_base_phandles o with h | h <;> rw [h] <;> decide) (by decide),
    rfl, rfl⟩

end Fdt
